import Mathlib

/-!
# TomasuloSim: a shallow embedding of `procsim.c` / `procsim_driver.c`

The simulator is a single-threaded cycle loop over module-level globals.  The
embedding keeps every global as a field of `State` and threads it explicitly.

Modelling conventions

* `instr *` pointers are allocation ids (`Nat`) into `State.heap`; pointer
  equality in the C code is equality of ids.  Every `instr` is allocated by
  `createInstruction`, the only allocation site.
* Linked lists (`if_listnode`, `dispatch_node`, `schedule_node`, `final_node`)
  are Lean lists in link order.  The `prev` links of the scheduling queue are
  kept consistent by the C code and are not stored.
* Fixed arrays of pointers (`k_0`, `k_1`, `k_2`, `sup`) are lists of
  `Option`, `none` being `NULL`.  `malloc` hands them out without
  initialisation; as on a fresh process heap, they start all-`NULL`, and so
  does `fetchQueue[0]`.
* C `int` is `Int` (no run is long enough to overflow the clock or the tag),
  `uint64_t` is `Nat` reduced modulo `2 ^ 64` where the code can overflow.
* A failed `assert`, an out-of-bounds array access, a `NULL` dereference and a
  read of an uninitialised local abort the run with a `Fault`.
* The trace file is the list of its lines as the driver tokenises them; the
  floating-point statistics are not modelled.
-/

namespace TomasuloSim

/-! ## Data model (`procsim.h`) -/

def INT_MAX : Int := 2147483647

/-- Mirror of `struct instr_t`. -/
structure instr where
  address : Nat
  funcUnit : Int
  destReg : Int
  dest_tag : Int
  source1 : Int
  source1_tag : Int
  source1_ready : Int
  source2 : Int
  source2_tag : Int
  source2_ready : Int
  fetch : Int
  disp : Int
  sched : Int
  exec : Int
  state : Int
  branch : Int
  taken : Int
  correct_pred : Int
  resolved : Int
deriving Inhabited

/-- Mirror of `struct dispatch_node_t` (the `next` link is the list tail). -/
structure dispatch_node where
  theInstr : Nat
  mark_for_move : Int
deriving DecidableEq, Repr

/-- Mirror of `struct scheduling_node_t`. -/
structure schedule_node where
  theInstr : Nat
  fired : Int
  sendToExecute : Int
  waiting : Int
deriving DecidableEq, Repr

/-- Mirror of `struct execute_node_t`. -/
structure execute_node where
  theInstr : Nat
  chosen : Int
deriving DecidableEq, Repr

/-- Mirror of `struct final_node_t`. -/
structure final_node where
  dest_tag : Int
  fetch : Int
  disp : Int
  sched : Int
  exec : Int
  state : Int
deriving DecidableEq, Repr

/-- Mirror of `struct config_t`. -/
structure config where
  numRegs : Nat
  k0_size : Nat
  k1_size : Nat
  k2_size : Nat
  num_r_bus : Nat
  max_sched_queue : Nat
  fetch_rate : Nat
deriving DecidableEq, Repr

/-- The integer fields of `struct stats_t`. -/
structure stats where
  totalBranchInstr : Int
  totalCorrectBranch : Int
  maxDispQueue : Int
deriving DecidableEq, Repr

/-- One line of the trace file after tokenisation in `main`: five tokens, seven
tokens (the sixth is read and ignored), or any other token count. -/
inductive TraceLine where
  | plain (address : Nat) (fu_type dest_reg src_1 src_2 : Int)
  | branchLine (address : Nat) (fu_type dest_reg src_1 src_2 taken : Int)
  | malformed
deriving DecidableEq, Repr

/-- The ways a run can abort. -/
inductive Fault where
  | supOverflow
  | assertUnresolvedIsBranch
  | resolveNoIndex
  | assertStall
  | putInFUBadClass
  | assertFUSlot
  | assertSchedSize
  | assertPrediction
  | assertMispredIsBranch
  | regIndex
  | assertWriteNotReady
  | assertUnmarked
  | assertReadyTag
  | assertNotReadyTag
  | removeEmptySched
  | assertRemoveFlags
  | assertRemoveFound
  | chosenNoNode
deriving DecidableEq, Repr

/-- The globals of `procsim.c` together with the locals of `main` that live
across iterations of the cycle loop. -/
structure State where
  curr_Config : config
  heap : Nat → instr
  nalloc : Nat
  trace : List TraceLine
  fetchQueue : List Nat
  tag : Int
  clock : Int
  totalMarked : Int
  dispatch_head : List dispatch_node
  schedule_head : List schedule_node
  final_head : List final_node
  sup : List (Option Nat)
  schedule_size : Int
  reg_File : Int → Int × Int
  k_0 : List (Option execute_node)
  k_1 : List (Option execute_node)
  k_2 : List (Option execute_node)
  GHR : Nat
  GSelect : Nat → Nat → Nat
  stallDispatch : Int
  myStats : stats

/-- Store through an `instr *`. -/
def setInstr (heap : Nat → instr) (p : Nat) (v : instr) : Nat → instr :=
  fun q => if q = p then v else heap q

/-- Store into `reg_File[r]`. -/
def setReg (rf : Int → Int × Int) (r : Int) (v : Int × Int) : Int → Int × Int :=
  fun q => if q = r then v else rf q

/-- Store into `GSelect[row][col]`. -/
def setCell (g : Nat → Nat → Nat) (row col v : Nat) : Nat → Nat → Nat :=
  fun r c => if r = row ∧ c = col then v else g r c

/-! ## `proc_init` and the locals of `main` -/

def proc_init (numRegs k0_size k1_size k2_size num_r_bus fetch_rate : Nat)
    (trace : List TraceLine) : State where
  curr_Config :=
    { numRegs := numRegs, k0_size := k0_size, k1_size := k1_size, k2_size := k2_size,
      num_r_bus := num_r_bus, max_sched_queue := 2 * (k0_size + k1_size + k2_size),
      fetch_rate := fetch_rate }
  heap := fun _ => default
  nalloc := 0
  trace := trace
  fetchQueue := []
  tag := 0
  clock := 1
  totalMarked := 0
  dispatch_head := []
  schedule_head := []
  final_head := []
  sup := List.replicate num_r_bus none
  schedule_size := 0
  reg_File := fun _ => (1, -5)
  k_0 := List.replicate k0_size none
  k_1 := List.replicate k1_size none
  k_2 := List.replicate k2_size none
  GHR := 0
  GSelect := fun _ _ => 1
  stallDispatch := 0
  myStats := { totalBranchInstr := 0, totalCorrectBranch := 0, maxDispQueue := 0 }

/-! ## Halt test -/

def stateEmpty (sup : List (Option Nat)) : Int :=
  match sup with
  | [] => 1
  | some _ :: _ => 0
  | none :: rest => stateEmpty rest

/-- The test at the top of the `while (1)` loop of `main`. -/
def haltCond (s : State) : Bool :=
  s.fetchQueue.isEmpty && s.dispatch_head.isEmpty && s.schedule_head.isEmpty &&
    decide (s.clock > 1) && decide (stateEmpty s.sup = 1)

/-! ## Phase A: stage-to-stage moves -/

def mkFinal (i : instr) : final_node :=
  { dest_tag := i.dest_tag, fetch := i.fetch, disp := i.disp, sched := i.sched,
    exec := i.exec, state := i.state }

/-- Loop of `sendToFinal`: the records appended to the final queue. -/
def sendToFinalLoop (heap : Nat → instr) : List (Option Nat) → List final_node → List final_node
  | [], fin => fin
  | none :: rest, fin => sendToFinalLoop heap rest fin
  | some p :: rest, fin => sendToFinalLoop heap rest (fin ++ [mkFinal (heap p)])

def sendToFinal (s : State) : State :=
  { s with
    final_head := sendToFinalLoop s.heap s.sup s.final_head
    sup := s.sup.map (fun _ => none) }

/-- One of the three `for` loops of `sendToSU` over a functional-unit pool.
Carries the heap, the state-update array and `index`. -/
def sendToSUPool (clock : Int) :
    List (Option execute_node) → (Nat → instr) → List (Option Nat) → Nat →
      Except Fault (List (Option execute_node) × (Nat → instr) × List (Option Nat) × Nat)
  | [], heap, sup, index => .ok ([], heap, sup, index)
  | none :: rest, heap, sup, index =>
    match sendToSUPool clock rest heap sup index with
    | .error e => .error e
    | .ok (r, h, u, i) => .ok (none :: r, h, u, i)
  | some n :: rest, heap, sup, index =>
    if n.chosen = 1 then
      if index < sup.length then
        match sendToSUPool clock rest
            (setInstr heap n.theInstr { heap n.theInstr with state := clock })
            (sup.set index (some n.theInstr)) (index + 1) with
        | .error e => .error e
        | .ok (r, h, u, i) => .ok (none :: r, h, u, i)
      else .error Fault.supOverflow
    else
      match sendToSUPool clock rest heap sup index with
      | .error e => .error e
      | .ok (r, h, u, i) => .ok (some n :: r, h, u, i)

def sendToSU (clock : Int) (s : State) : Except Fault State :=
  match sendToSUPool clock s.k_0 s.heap s.sup 0 with
  | .error e => .error e
  | .ok (k0, h0, u0, i0) =>
    match sendToSUPool clock s.k_1 h0 u0 i0 with
    | .error e => .error e
    | .ok (k1, h1, u1, i1) =>
      match sendToSUPool clock s.k_2 h1 u1 i1 with
      | .error e => .error e
      | .ok (k2, h2, u2, _) =>
        .ok { s with k_0 := k0, k_1 := k1, k_2 := k2, heap := h2, sup := u2 }

/-! ### Branch resolution -/

def getGHR (s : State) : Nat := s.GHR &&& 0x7

def updateSmithCounter (row col : Nat) (taken : Int) (s : State) : State :=
  match s.GSelect row col with
  | 0 => if taken = 1 then { s with GSelect := setCell s.GSelect row col 1 }
         else { s with GSelect := setCell s.GSelect row col 0 }
  | 1 => if taken = 1 then { s with GSelect := setCell s.GSelect row col 2 }
         else { s with GSelect := setCell s.GSelect row col 0 }
  | 2 => if taken = 1 then { s with GSelect := setCell s.GSelect row col 3 }
         else { s with GSelect := setCell s.GSelect row col 1 }
  | 3 => if taken = 1 then { s with GSelect := setCell s.GSelect row col 3 }
         else { s with GSelect := setCell s.GSelect row col 2 }
  | _ => s

def updateGSelect (address : Nat) (taken : Int) (s : State) : State :=
  updateSmithCounter ((address / 4) % 128) (getGHR s) taken s

def shiftTaken (s : State) : State :=
  { s with GHR := ((s.GHR <<< 1) % 2 ^ 64) ||| 1 }

def shiftNotTaken (s : State) : State :=
  { s with GHR := (s.GHR <<< 1) % 2 ^ 64 }

def updateGHR (taken : Int) (s : State) : State :=
  if taken = 1 then shiftTaken s
  else if taken = 0 then shiftNotTaken s
  else s

/-- Counts the unresolved entries of the state-update array; the `assert`
requires each of them to be a branch. -/
def findNumUnresolved (heap : Nat → instr) : List (Option Nat) → Except Fault Nat
  | [] => .ok 0
  | none :: rest => findNumUnresolved heap rest
  | some p :: rest =>
    if (heap p).resolved = 0 then
      if (heap p).branch = 1 then
        match findNumUnresolved heap rest with
        | .error e => .error e
        | .ok n => .ok (n + 1)
      else .error Fault.assertUnresolvedIsBranch
    else findNumUnresolved heap rest

/-- Loop of `getMinExecCycle`; the accumulator starts at `INT_MAX`. -/
def getMinExecCycleLoop (heap : Nat → instr) : List (Option Nat) → Int → Int
  | [], minCycle => minCycle
  | none :: rest, minCycle => getMinExecCycleLoop heap rest minCycle
  | some p :: rest, minCycle =>
    if (heap p).resolved = 0 ∧ (heap p).exec < minCycle then
      getMinExecCycleLoop heap rest (heap p).exec
    else getMinExecCycleLoop heap rest minCycle

def getMinExecCycle (s : State) : Int :=
  getMinExecCycleLoop s.heap s.sup INT_MAX

/-- Loop of `getMinTagIndex`: `i` is the loop index, the result is `minIndex`. -/
def getMinTagIndexLoop (heap : Nat → instr) (cycle : Int) :
    List (Option Nat) → Int → Int → Int → Int
  | [], _, _, minIndex => minIndex
  | none :: rest, i, minTag, minIndex =>
    getMinTagIndexLoop heap cycle rest (i + 1) minTag minIndex
  | some p :: rest, i, minTag, minIndex =>
    if (heap p).resolved = 0 ∧ (heap p).dest_tag < minTag ∧ (heap p).exec = cycle then
      getMinTagIndexLoop heap cycle rest (i + 1) (heap p).dest_tag i
    else getMinTagIndexLoop heap cycle rest (i + 1) minTag minIndex

def getMinTagIndex (cycle : Int) (s : State) : Int :=
  getMinTagIndexLoop s.heap cycle s.sup 0 INT_MAX (-1)

/-- The `while (numUnresolved > 0)` loop of `resolveBranches`. -/
def resolveBranchesLoop : Nat → State → Except Fault State
  | 0, s => .ok s
  | numUnresolved + 1, s =>
    let cycle := getMinExecCycle s
    let index := getMinTagIndex cycle s
    if index < 0 then .error Fault.resolveNoIndex
    else
      match s.sup[index.toNat]? with
      | some (some p) =>
        let s1 := updateGSelect (s.heap p).address (s.heap p).taken s
        let s2 := updateGHR (s1.heap p).taken s1
        if (s2.heap p).correct_pred = 0 then
          if s2.stallDispatch = 1 then
            resolveBranchesLoop numUnresolved
              { s2 with stallDispatch := 0,
                        heap := setInstr s2.heap p { s2.heap p with resolved := 1 } }
          else .error Fault.assertStall
        else
          resolveBranchesLoop numUnresolved
            { s2 with heap := setInstr s2.heap p { s2.heap p with resolved := 1 } }
      | _ => .error Fault.resolveNoIndex

def resolveBranches (s : State) : Except Fault State :=
  match findNumUnresolved s.heap s.sup with
  | .error e => .error e
  | .ok numUnresolved => resolveBranchesLoop numUnresolved s

/-! ### Scheduling queue to functional units -/

/-- The slot search of `putInFU`: the first `NULL` slot receives `newNode`;
`none` when the pool has no `NULL` slot. -/
def putInFUSlot (newNode : execute_node) :
    List (Option execute_node) → Option (List (Option execute_node))
  | [] => none
  | none :: rest => some (some newNode :: rest)
  | some x :: rest =>
    match putInFUSlot newNode rest with
    | none => none
    | some r => some (some x :: r)

def putInFU (theInstr : Nat) (FU_num : Int) (clock : Int) (s : State) : Except Fault State :=
  let heap := setInstr s.heap theInstr { s.heap theInstr with exec := clock }
  let newNode : execute_node := { theInstr := theInstr, chosen := 0 }
  if FU_num = 0 then
    match putInFUSlot newNode s.k_0 with
    | some k => .ok { s with heap := heap, k_0 := k }
    | none => .error Fault.assertFUSlot
  else if FU_num = 1 ∨ FU_num = -1 then
    match putInFUSlot newNode s.k_1 with
    | some k => .ok { s with heap := heap, k_1 := k }
    | none => .error Fault.assertFUSlot
  else if FU_num = 2 then
    match putInFUSlot newNode s.k_2 with
    | some k => .ok { s with heap := heap, k_2 := k }
    | none => .error Fault.assertFUSlot
  else .error Fault.putInFUBadClass

/-- Loop of `moveToExecute` over the scheduling queue; returns the queue with
the `waiting` flags updated. -/
def moveToExecuteLoop (clock : Int) :
    List schedule_node → State → Except Fault (List schedule_node × State)
  | [], s => .ok ([], s)
  | n :: rest, s =>
    if n.sendToExecute = 1 ∧ n.waiting = 0 then
      match putInFU n.theInstr (s.heap n.theInstr).funcUnit clock s with
      | .error e => .error e
      | .ok s1 =>
        match moveToExecuteLoop clock rest s1 with
        | .error e => .error e
        | .ok (r, s2) => .ok ({ n with waiting := 1 } :: r, s2)
    else
      match moveToExecuteLoop clock rest s with
      | .error e => .error e
      | .ok (r, s2) => .ok (n :: r, s2)

def moveToExecute (clock : Int) (s : State) : Except Fault State :=
  match moveToExecuteLoop clock s.schedule_head s with
  | .error e => .error e
  | .ok (q, s1) => .ok { s1 with schedule_head := q }

/-! ### Dispatch queue to scheduling queue -/

/-- Loop of `dispatchToSchedule`; returns the nodes left in the dispatch queue.
A visited node is freed whether or not it was marked. -/
def dispatchToScheduleLoop (clock totalMarked : Int) :
    List dispatch_node → Int → State → Except Fault (List dispatch_node × State)
  | [], _, s => .ok ([], s)
  | d :: rest, count, s =>
    if count = totalMarked then .ok (d :: rest, s)
    else if d.mark_for_move = 1 then
      let heap := setInstr s.heap d.theInstr { s.heap d.theInstr with sched := clock }
      let newNode : schedule_node :=
        { theInstr := d.theInstr, fired := 0, sendToExecute := 0, waiting := 0 }
      if s.schedule_head.isEmpty then
        dispatchToScheduleLoop clock totalMarked rest (count + 1)
          { s with heap := heap, schedule_head := [newNode],
                   schedule_size := s.schedule_size + 1 }
      else if s.schedule_size + 1 ≤ (s.curr_Config.max_sched_queue : Int) then
        dispatchToScheduleLoop clock totalMarked rest (count + 1)
          { s with heap := heap, schedule_head := s.schedule_head ++ [newNode],
                   schedule_size := s.schedule_size + 1 }
      else .error Fault.assertSchedSize
    else dispatchToScheduleLoop clock totalMarked rest count s

def dispatchToSchedule (clock totalMarked : Int) (s : State) : Except Fault State :=
  match dispatchToScheduleLoop clock totalMarked s.dispatch_head 0 s with
  | .error e => .error e
  | .ok (d, s1) => .ok { s1 with dispatch_head := d }

/-! ### Fetch buffer to dispatch queue -/

def getPrediction (address : Nat) (s : State) : Except Fault Int :=
  match s.GSelect ((address / 4) % 128) (getGHR s) with
  | 0 => .ok 0
  | 1 => .ok 0
  | 2 => .ok 1
  | 3 => .ok 1
  | _ => .error Fault.assertPrediction

/-- The `if (branch == 1)` block of `dispatch_Enqueue`: consults the predictor,
counts the branch and records `correct_pred`. -/
def predictBranch (i0 : instr) (s : State) : Except Fault (instr × stats) :=
  if i0.branch = 1 then
    match getPrediction i0.address s with
    | .error e => .error e
    | .ok prediction =>
      if prediction = i0.taken then
        .ok ({ i0 with correct_pred := 1 },
             { s.myStats with
               totalBranchInstr := s.myStats.totalBranchInstr + 1,
               totalCorrectBranch := s.myStats.totalCorrectBranch + 1 })
      else
        .ok ({ i0 with correct_pred := 0 },
             { s.myStats with totalBranchInstr := s.myStats.totalBranchInstr + 1 })
  else .ok (i0, s.myStats)

/-- The `while` loop of `dispatch_Enqueue`, by recursion on `numAllowed`. -/
def dispatch_EnqueueLoop (cycle : Int) : Nat → State → Except Fault State
  | 0, s => .ok s
  | numAllowed + 1, s =>
    match s.fetchQueue with
    | [] => .ok s
    | p :: rest =>
      if s.stallDispatch = 0 then
        let newDispatchNode : dispatch_node := { theInstr := p, mark_for_move := 0 }
        match predictBranch { s.heap p with disp := cycle } s with
        | .error e => .error e
        | .ok (i1, st) =>
          if i1.correct_pred = 0 then
            if i1.branch = 1 then
              dispatch_EnqueueLoop cycle numAllowed
                { s with heap := setInstr s.heap p i1, myStats := st, stallDispatch := 1,
                         dispatch_head := s.dispatch_head ++ [newDispatchNode],
                         fetchQueue := rest }
            else .error Fault.assertMispredIsBranch
          else
            dispatch_EnqueueLoop cycle numAllowed
              { s with heap := setInstr s.heap p i1, myStats := st,
                       dispatch_head := s.dispatch_head ++ [newDispatchNode],
                       fetchQueue := rest }
      else .ok s

def dispatch_Enqueue (cycle : Int) (s : State) : Except Fault State :=
  dispatch_EnqueueLoop cycle s.curr_Config.fetch_rate s

/-! ### Trace file to fetch buffer (`main`) -/

def createInstruction (address : Nat) (fu dest src1 src2 src1_tag src2_tag tag clock
    branch taken correct resolved : Int) : instr :=
  { address := address, funcUnit := fu, destReg := dest, dest_tag := tag,
    source1 := src1, source1_tag := src1_tag, source1_ready := 0,
    source2 := src2, source2_tag := src2_tag, source2_ready := 0,
    branch := branch, taken := taken, correct_pred := correct, resolved := resolved,
    fetch := clock, disp := 0, sched := 0, exec := 0, state := 0 }

/-- Allocation of the new `instr` followed by `addToFetchQueue` and `tag++`. -/
def addToFetchQueue (currInstr : instr) (s : State) : State :=
  { s with heap := setInstr s.heap s.nalloc currInstr,
           nalloc := s.nalloc + 1,
           fetchQueue := s.fetchQueue ++ [s.nalloc],
           tag := s.tag + 1 }

/-- The `for (i = 0; i < f; i++)` loop of `main` that reads the trace. -/
def readTrace : Nat → State → State
  | 0, s => s
  | f + 1, s =>
    match s.trace with
    | [] => readTrace f s
    | TraceLine.malformed :: rest => readTrace f { s with trace := rest }
    | TraceLine.plain address fu_type dest_reg src_1 src_2 :: rest =>
      readTrace f (addToFetchQueue
        (createInstruction address fu_type dest_reg src_1 src_2 (-5) (-5) s.tag s.clock
          0 (-1) (-1) (-1)) { s with trace := rest })
    | TraceLine.branchLine address fu_type dest_reg src_1 src_2 taken :: rest =>
      readTrace f (addToFetchQueue
        (createInstruction address fu_type dest_reg src_1 src_2 (-5) (-5) s.tag s.clock
          1 taken (-1) 0) { s with trace := rest })

/-! ## Phase B: statistics -/

def updateDispatchQueueSize (s : State) : State :=
  if (s.dispatch_head.length : Int) > s.myStats.maxDispQueue then
    { s with myStats := { s.myStats with maxDispQueue := s.dispatch_head.length } }
  else s

/-! ## Phase C: work done during the cycle -/

/-- Loop of `writeToRegFile` over the state-update array. -/
def writeToRegFileLoop (heap : Nat → instr) (numRegs : Nat) :
    List (Option Nat) → (Int → Int × Int) → Except Fault (Int → Int × Int)
  | [], rf => .ok rf
  | none :: rest, rf => writeToRegFileLoop heap numRegs rest rf
  | some p :: rest, rf =>
    let destReg := (heap p).destReg
    let destTag := (heap p).dest_tag
    if destReg = -1 then writeToRegFileLoop heap numRegs rest rf
    else if 0 ≤ destReg ∧ destReg < (numRegs : Int) then
      if (rf destReg).2 = destTag then
        if (rf destReg).1 = 0 then
          writeToRegFileLoop heap numRegs rest (setReg rf destReg (1, -5))
        else .error Fault.assertWriteNotReady
      else writeToRegFileLoop heap numRegs rest rf
    else .error Fault.regIndex

def writeToRegFile (s : State) : Except Fault State :=
  match writeToRegFileLoop s.heap s.curr_Config.numRegs s.sup s.reg_File with
  | .error e => .error e
  | .ok rf => .ok { s with reg_File := rf }

/-- Loop of `setToFired`; only the `fired` flag of a node changes. -/
def setToFiredLoop (heap : Nat → instr) : List schedule_node → List schedule_node
  | [] => []
  | n :: rest =>
    if (heap n.theInstr).source1_ready ≠ 0 ∧ (heap n.theInstr).source2_ready ≠ 0 ∧
        n.fired ≠ 1 then
      { n with fired := 1 } :: setToFiredLoop heap rest
    else n :: setToFiredLoop heap rest

def setToFired (s : State) : State :=
  { s with schedule_head := setToFiredLoop s.heap s.schedule_head }

/-- Loop of `reserveScheduleSpots`; returns the marked queue and `count`. -/
def reserveScheduleSpotsLoop :
    List dispatch_node → Int → Int → Except Fault (List dispatch_node × Int)
  | [], _, count => .ok ([], count)
  | d :: rest, numAvailSpots, count =>
    if numAvailSpots > 0 then
      if d.mark_for_move = 0 then
        match reserveScheduleSpotsLoop rest (numAvailSpots - 1) (count + 1) with
        | .error e => .error e
        | .ok (r, c) => .ok ({ d with mark_for_move := 1 } :: r, c)
      else .error Fault.assertUnmarked
    else .ok (d :: rest, count)

/-- The call `totalMarked = reserveScheduleSpots()` of `main`. -/
def reserveScheduleSpots (s : State) : Except Fault State :=
  match reserveScheduleSpotsLoop s.dispatch_head
      ((s.curr_Config.max_sched_queue : Int) - s.schedule_size) 0 with
  | .error e => .error e
  | .ok (d, count) => .ok { s with dispatch_head := d, totalMarked := count }

/-- The register-file read of `readUpdateRegFile` for one source register,
written twice in the C code: the pair `(tag, ready)` stored in the instruction. -/
def readSource (rf : Int → Int × Int) (numRegs : Nat) (src_reg : Int) :
    Except Fault (Int × Int) :=
  if src_reg = -1 then .ok (-5, 1)
  else if 0 ≤ src_reg ∧ src_reg < (numRegs : Int) then
    if (rf src_reg).1 = 1 then
      if (rf src_reg).2 = -5 then .ok (-5, 1) else .error Fault.assertReadyTag
    else
      if (rf src_reg).2 > -1 then .ok ((rf src_reg).2, 0)
      else .error Fault.assertNotReadyTag
  else .error Fault.regIndex

/-- Loop of `readUpdateRegFile` over the dispatch queue. -/
def readUpdateRegFileLoop (numRegs : Nat) (totalMarked : Int) :
    List dispatch_node → Int → (Nat → instr) → (Int → Int × Int) →
      Except Fault ((Nat → instr) × (Int → Int × Int))
  | [], _, heap, rf => .ok (heap, rf)
  | d :: rest, count, heap, rf =>
    if count = totalMarked then .ok (heap, rf)
    else if d.mark_for_move = 1 then
      let i := heap d.theInstr
      match readSource rf numRegs i.source1 with
      | .error e => .error e
      | .ok (t1, r1) =>
        match readSource rf numRegs i.source2 with
        | .error e => .error e
        | .ok (t2, r2) =>
          let heap1 := setInstr heap d.theInstr
            { i with source1_tag := t1, source1_ready := r1,
                     source2_tag := t2, source2_ready := r2 }
          if i.destReg = -1 then
            readUpdateRegFileLoop numRegs totalMarked rest (count + 1) heap1 rf
          else if 0 ≤ i.destReg ∧ i.destReg < (numRegs : Int) then
            readUpdateRegFileLoop numRegs totalMarked rest (count + 1) heap1
              (setReg rf i.destReg (0, i.dest_tag))
          else .error Fault.regIndex
    else readUpdateRegFileLoop numRegs totalMarked rest count heap rf

def readUpdateRegFile (totalMarked : Int) (s : State) : Except Fault State :=
  match readUpdateRegFileLoop s.curr_Config.numRegs totalMarked s.dispatch_head 0
      s.heap s.reg_File with
  | .error e => .error e
  | .ok (heap, rf) => .ok { s with heap := heap, reg_File := rf }

/-- First `if` of the inner loop body of `broadcastToSched`: wake source 1 of the
instruction `p` when the state-update entry `u` matches register and tag. -/
def broadcastSrc1 (u p : Nat) (heap : Nat → instr) : Nat → instr :=
  if (heap p).source1 = (heap u).destReg ∧ (heap p).source1_ready = 0 ∧
      (heap p).source1_tag = (heap u).dest_tag then
    setInstr heap p { heap p with source1_ready := 1, source1_tag := -5 }
  else heap

/-- Second `if` of the inner loop body of `broadcastToSched`, for source 2. -/
def broadcastSrc2 (u p : Nat) (heap : Nat → instr) : Nat → instr :=
  if (heap p).source2 = (heap u).destReg ∧ (heap p).source2_ready = 0 ∧
      (heap p).source2_tag = (heap u).dest_tag then
    setInstr heap p { heap p with source2_ready := 1, source2_tag := -5 }
  else heap

/-- Body of the inner `while` of `broadcastToSched` for one scheduling node and
the state-update entry `u`. -/
def broadcastNode (u : Nat) (n : schedule_node) (heap : Nat → instr) :
    schedule_node × (Nat → instr) :=
  if n.fired = 0 then
    if (broadcastSrc2 u n.theInstr (broadcastSrc1 u n.theInstr heap) n.theInstr).source1_ready ≠ 0 ∧
        (broadcastSrc2 u n.theInstr (broadcastSrc1 u n.theInstr heap) n.theInstr).source2_ready ≠ 0
    then ({ n with fired := 1 }, broadcastSrc2 u n.theInstr (broadcastSrc1 u n.theInstr heap))
    else (n, broadcastSrc2 u n.theInstr (broadcastSrc1 u n.theInstr heap))
  else (n, heap)

/-- Inner `while` of `broadcastToSched`: one pass over the scheduling queue. -/
def broadcastPass (u : Nat) : List schedule_node → (Nat → instr) →
    List schedule_node × (Nat → instr)
  | [], heap => ([], heap)
  | n :: rest, heap =>
    let r := broadcastNode u n heap
    let t := broadcastPass u rest r.2
    (r.1 :: t.1, t.2)

/-- Outer `for` of `broadcastToSched` over the state-update array. -/
def broadcastToSchedLoop : List (Option Nat) → List schedule_node → (Nat → instr) →
    List schedule_node × (Nat → instr)
  | [], q, heap => (q, heap)
  | none :: rest, q, heap => broadcastToSchedLoop rest q heap
  | some u :: rest, q, heap =>
    let r := broadcastPass u q heap
    broadcastToSchedLoop rest r.1 r.2

def broadcastToSched (s : State) : State :=
  let r := broadcastToSchedLoop s.sup s.schedule_head s.heap
  { s with schedule_head := r.1, heap := r.2 }

/-- The three `assert`s of `removeFromSched` on the node being removed. -/
def removeFlagsOk (n : schedule_node) : Bool :=
  decide (n.fired = 1) && decide (n.sendToExecute = 1) && decide (n.waiting = 1)

/-- The `while (iterator->next != NULL)` loop of `removeFromSched` and the
last-node case after it; `n` is `iterator`, the list is what follows it. -/
def removeFromSchedWalk (theInstr : Nat) :
    schedule_node → List schedule_node → Except Fault (List schedule_node)
  | n, [] =>
    if n.theInstr = theInstr then
      if removeFlagsOk n then .ok [] else .error Fault.assertRemoveFlags
    else .error Fault.assertRemoveFound
  | n, m :: rest =>
    if n.theInstr = theInstr then
      if removeFlagsOk n then .ok (m :: rest) else .error Fault.assertRemoveFlags
    else
      match removeFromSchedWalk theInstr m rest with
      | .error e => .error e
      | .ok r => .ok (n :: r)

/-- Unlinks the node of `theInstr` from the scheduling queue. -/
def removeFromSched (theInstr : Nat) : List schedule_node → Except Fault (List schedule_node)
  | [] => .error Fault.removeEmptySched
  | n :: rest =>
    if n.theInstr = theInstr then
      if removeFlagsOk n then .ok rest else .error Fault.assertRemoveFlags
    else removeFromSchedWalk theInstr n rest

/-- Loop of `removeAllSUFromSched`; carries the queue and `schedule_size`. -/
def removeAllSUFromSchedLoop :
    List (Option Nat) → List schedule_node → Int → Except Fault (List schedule_node × Int)
  | [], q, size => .ok (q, size)
  | none :: rest, q, size => removeAllSUFromSchedLoop rest q size
  | some p :: rest, q, size =>
    match removeFromSched p q with
    | .error e => .error e
    | .ok q1 => removeAllSUFromSchedLoop rest q1 (size - 1)

def removeAllSUFromSched (s : State) : Except Fault State :=
  match removeAllSUFromSchedLoop s.sup s.schedule_head s.schedule_size with
  | .error e => .error e
  | .ok (q, size) => .ok { s with schedule_head := q, schedule_size := size }

/-! ### Completion arbitration (`setToChosen`) -/

/-- One `for` loop of `getNumPossible`: the filled slots of a pool. -/
def numFilled : List (Option execute_node) → Nat
  | [] => 0
  | none :: rest => numFilled rest
  | some _ :: rest => numFilled rest + 1

def getNumPossible (s : State) : Nat :=
  numFilled s.k_0 + numFilled s.k_1 + numFilled s.k_2

/-- One `for` loop of `findMinCycle` over a pool. -/
def findMinCyclePool (heap : Nat → instr) : List (Option execute_node) → Int → Int
  | [], minCycle => minCycle
  | none :: rest, minCycle => findMinCyclePool heap rest minCycle
  | some n :: rest, minCycle =>
    if n.chosen ≠ 1 ∧ (heap n.theInstr).exec ≤ minCycle then
      findMinCyclePool heap rest (heap n.theInstr).exec
    else findMinCyclePool heap rest minCycle

def findMinCycle (s : State) : Int :=
  findMinCyclePool s.heap s.k_2 (findMinCyclePool s.heap s.k_1
    (findMinCyclePool s.heap s.k_0 INT_MAX))

/-- One `for` loop of `getMinNode` over pool number `pool`; the accumulator is
`(minTag, minCycle, toReturn)`, `toReturn` being the pool and slot of the node
found so far and `none` while the C local is still uninitialised. -/
def getMinNodePool (heap : Nat → instr) (pool : Nat) :
    List (Option execute_node) → Nat → Int × Int × Option (Nat × Nat) →
      Int × Int × Option (Nat × Nat)
  | [], _, acc => acc
  | none :: rest, i, acc => getMinNodePool heap pool rest (i + 1) acc
  | some n :: rest, i, (minTag, minCycle, toReturn) =>
    if n.chosen ≠ 1 ∧ (heap n.theInstr).exec ≤ minCycle then
      if (heap n.theInstr).dest_tag < minTag then
        getMinNodePool heap pool rest (i + 1)
          ((heap n.theInstr).dest_tag, (heap n.theInstr).exec, some (pool, i))
      else getMinNodePool heap pool rest (i + 1) (minTag, minCycle, toReturn)
    else getMinNodePool heap pool rest (i + 1) (minTag, minCycle, toReturn)

def getMinNode (s : State) : Option (Nat × Nat) :=
  (getMinNodePool s.heap 2 s.k_2 0
    (getMinNodePool s.heap 1 s.k_1 0
      (getMinNodePool s.heap 0 s.k_0 0 (INT_MAX, findMinCycle s, none)))).2.2

/-- The store `minNode->chosen = 1` into slot `i` of a pool. -/
def markChosen : List (Option execute_node) → Nat → List (Option execute_node)
  | [], _ => []
  | none :: rest, 0 => none :: rest
  | some n :: rest, 0 => some { n with chosen := 1 } :: rest
  | x :: rest, i + 1 => x :: markChosen rest i

/-- The `while (numPossible > 0 && numDesired > 0)` loop of `setToChosen`. -/
def setToChosenLoop : Nat → Nat → State → Except Fault State
  | 0, _, s => .ok s
  | _ + 1, 0, s => .ok s
  | numDesired + 1, numPossible + 1, s =>
    match getMinNode s with
    | none => .error Fault.chosenNoNode
    | some (pool, i) =>
      if pool = 0 then
        setToChosenLoop numDesired numPossible { s with k_0 := markChosen s.k_0 i }
      else if pool = 1 then
        setToChosenLoop numDesired numPossible { s with k_1 := markChosen s.k_1 i }
      else
        setToChosenLoop numDesired numPossible { s with k_2 := markChosen s.k_2 i }

def setToChosen (s : State) : Except Fault State :=
  setToChosenLoop s.curr_Config.num_r_bus (getNumPossible s) s

/-! ### Issue arbitration (`markForExecution`) -/

/-- The `for` loop of `numSpotsAvailable`: slots that are `NULL` or chosen. -/
def numSpotsAvailableLoop : List (Option execute_node) → Int
  | [] => 0
  | none :: rest => numSpotsAvailableLoop rest + 1
  | some n :: rest =>
    if n.chosen = 1 then numSpotsAvailableLoop rest + 1 else numSpotsAvailableLoop rest

def numSpotsAvailable (FU : Char) (s : State) : Int :=
  if FU = 'j' then numSpotsAvailableLoop s.k_0
  else if FU = 'k' then numSpotsAvailableLoop s.k_1
  else if FU = 'l' then numSpotsAvailableLoop s.k_2
  else 0

/-- The `while` loop of `markScheduleEntries` for the classes `FU_1`, `FU_2`. -/
def markScheduleEntriesLoop (heap : Nat → instr) (FU_1 FU_2 : Int) :
    List schedule_node → Int → List schedule_node
  | [], _ => []
  | n :: rest, openSpots =>
    if openSpots > 0 then
      if n.fired = 1 ∧ n.waiting = 0 ∧
          ((heap n.theInstr).funcUnit = FU_1 ∨ (heap n.theInstr).funcUnit = FU_2) then
        { n with sendToExecute := 1 } :: markScheduleEntriesLoop heap FU_1 FU_2 rest (openSpots - 1)
      else n :: markScheduleEntriesLoop heap FU_1 FU_2 rest openSpots
    else n :: rest

def markScheduleEntries (openSpots : Int) (FU : Char) (s : State) : State :=
  if FU = 'j' then
    { s with schedule_head := markScheduleEntriesLoop s.heap 0 0 s.schedule_head openSpots }
  else if FU = 'k' then
    { s with schedule_head := markScheduleEntriesLoop s.heap 1 (-1) s.schedule_head openSpots }
  else if FU = 'l' then
    { s with schedule_head := markScheduleEntriesLoop s.heap 2 2 s.schedule_head openSpots }
  else s

def markForExecution (s : State) : State :=
  let k0_spots := numSpotsAvailable 'j' s
  let k1_spots := numSpotsAvailable 'k' s
  let k2_spots := numSpotsAvailable 'l' s
  markScheduleEntries k2_spots 'l' (markScheduleEntries k1_spots 'k'
    (markScheduleEntries k0_spots 'j' s))

/-! ## The cycle loop of `main` -/

/-- Phase A of one iteration: the moves between stages, in call order, and the
read of up to `f` trace lines. -/
def phaseA (s : State) : Except Fault State :=
  match sendToSU s.clock (sendToFinal s) with
  | .error e => .error e
  | .ok s2 =>
    match resolveBranches s2 with
    | .error e => .error e
    | .ok s3 =>
      match moveToExecute s.clock s3 with
      | .error e => .error e
      | .ok s4 =>
        match dispatchToSchedule s.clock s.totalMarked s4 with
        | .error e => .error e
        | .ok s5 =>
          match dispatch_Enqueue s.clock s5 with
          | .error e => .error e
          | .ok s6 => .ok (readTrace s6.curr_Config.fetch_rate s6)

/-- The calls of one iteration after the statistics update, up to `clock++`. -/
def phaseC (s : State) : Except Fault State :=
  match writeToRegFile s with
  | .error e => .error e
  | .ok s1 =>
    match reserveScheduleSpots (setToFired s1) with
    | .error e => .error e
    | .ok s3 =>
      match readUpdateRegFile s3.totalMarked s3 with
      | .error e => .error e
      | .ok s4 =>
        match removeAllSUFromSched (broadcastToSched s4) with
        | .error e => .error e
        | .ok s6 =>
          match setToChosen s6 with
          | .error e => .error e
          | .ok s7 =>
            let s8 := markForExecution s7
            .ok { s8 with clock := s8.clock + 1 }

/-- One iteration of the `while (1)` loop after the halt test. -/
def cycle (s : State) : Except Fault State :=
  match phaseA s with
  | .error e => .error e
  | .ok s1 => phaseC (updateDispatchQueueSize s1)

/-- The `while (1)` loop: `none` when the fuel runs out before the halt test
succeeds, otherwise the state at `finish`. -/
def run : Nat → State → Except Fault (Option State)
  | 0, _ => .ok none
  | fuel + 1, s =>
    if haltCond s then .ok (some s)
    else
      match cycle s with
      | .error e => .error e
      | .ok s1 => run fuel s1

/-- The final queue handed to `printFinalQueue` by a run of at most `fuel` cycles. -/
def simulate (fuel : Nat) (k0 k1 k2 R F : Nat) (trace : List TraceLine) :
    Except Fault (Option (List final_node)) :=
  match run fuel (proc_init 128 k0 k1 k2 R F trace) with
  | .error e => .error e
  | .ok none => .ok none
  | .ok (some s) => .ok (some s.final_head)

/-! ## Reachable states of the cycle loop -/

/-- States at the top of the `while (1)` loop of `main`, reached from `s0`
through iterations that did not abort and were not preceded by a successful
halt test. -/
inductive Reachable (s0 : State) : State → Prop
  | init : Reachable s0 s0
  | step {s t : State} : Reachable s0 s → haltCond s = false → cycle s = .ok t → Reachable s0 t

/-- The state after the calls of an iteration up to and including
`dispatchToSchedule`, where the scheduling queue is longest. -/
def uptoDispatchToSchedule (s : State) : Except Fault State :=
  match sendToSU s.clock (sendToFinal s) with
  | .error e => .error e
  | .ok s2 =>
    match resolveBranches s2 with
    | .error e => .error e
    | .ok s3 =>
      match moveToExecute s.clock s3 with
      | .error e => .error e
      | .ok s4 => dispatchToSchedule s.clock s.totalMarked s4

/-- Bookkeeping of the scheduling queue at the top of the loop: the counter
agrees with the queue and the reserved dispatch entries still fit. -/
def SchedSizeInv (s : State) : Prop :=
  s.schedule_size = (s.schedule_head.length : Int) ∧ 0 ≤ s.totalMarked ∧
    s.schedule_size + s.totalMarked ≤ (s.curr_Config.max_sched_queue : Int)

/-- The `sched` stamps written by `dispatchToSchedule` through the pointers `ps`,
in order. -/
def stampSched (clock : Int) : List Nat → (Nat → instr) → (Nat → instr)
  | [], heap => heap
  | p :: rest, heap => stampSched clock rest (setInstr heap p { heap p with sched := clock })

/-- The dispatch nodes among `visited` that `dispatchToSchedule` moves. -/
def markedNodes (visited : List dispatch_node) : List dispatch_node :=
  visited.filter (fun d => decide (d.mark_for_move = 1))

/-- The scheduling node `dispatchToSchedule` creates for a dispatch node. -/
def newScheduleNode (d : dispatch_node) : schedule_node :=
  { theInstr := d.theInstr, fired := 0, sendToExecute := 0, waiting := 0 }

/-- The state `n` iterations after `s`, when none of them aborts and the halt
test fails before each. -/
def advance : Nat → State → Option State
  | 0, s => some s
  | n + 1, s =>
    if haltCond s then none
    else
      match cycle s with
      | .error _ => none
      | .ok t => advance n t

/-- The trace of the read-after-write scenario: `0x100 0 5 -1 -1`, `0x104 0 6 5 -1`. -/
def rawTrace : List TraceLine :=
  [TraceLine.plain 0x100 0 5 (-1) (-1), TraceLine.plain 0x104 0 6 5 (-1)]

/-- The state of the read-after-write scenario with the default configuration
after `n` iterations (the initial state if the run is shorter). -/
def rawState (n : Nat) : State :=
  (advance n (proc_init 128 3 2 1 2 4 rawTrace)).getD (proc_init 128 3 2 1 2 4 rawTrace)

/-- Occupants of a functional-unit pool with `chosen == 1`. -/
def chosenCount : List (Option execute_node) → Nat
  | [] => 0
  | none :: rest => chosenCount rest
  | some n :: rest => if n.chosen = 1 then chosenCount rest + 1 else chosenCount rest

/-- Occupants of the three pools with `chosen == 1`. -/
def chosenTotal (s : State) : Nat :=
  chosenCount s.k_0 + chosenCount s.k_1 + chosenCount s.k_2

/-- Occupied slots of the state-update array. -/
def supOccupied : List (Option Nat) → Nat
  | [] => 0
  | none :: rest => supOccupied rest
  | some _ :: rest => supOccupied rest + 1

/-- At the top of the loop the state-update array has `R` slots and at most `R`
occupants of the functional units are chosen. -/
def ChosenInv (s : State) : Prop :=
  s.sup.length = s.curr_Config.num_r_bus ∧ chosenTotal s ≤ s.curr_Config.num_r_bus

/-- The record is unchanged or only had `state` stamped with `c`. -/
def stateStamped (c : Int) (a b : instr) : Prop := b = a ∨ b = { a with state := c }

/-- The record is unchanged or only had `exec` stamped with `c`. -/
def execStamped (c : Int) (a b : instr) : Prop := b = a ∨ b = { a with exec := c }

/-- The record is unchanged or only had `sched` stamped with `c`. -/
def schedStamped (c : Int) (a b : instr) : Prop := b = a ∨ b = { a with sched := c }

/-- The record is unchanged or only had `resolved` set. -/
def resolvedSet (a b : instr) : Prop := b = a ∨ b = { a with resolved := 1 }

/-- The record is unchanged or had `disp` stamped with `c` and possibly
`correct_pred` written. -/
def dispStamped (c : Int) (a b : instr) : Prop :=
  b = a ∨ ∃ cp, b = { a with disp := c, correct_pred := cp }

/-- Only the operand-wait fields of the record may differ. -/
def sourcesSet (a b : instr) : Prop :=
  ∃ t1 r1 t2 r2, b = { a with source1_tag := t1, source1_ready := r1,
                              source2_tag := t2, source2_ready := r2 }

/-- Scheduling nodes selected for issue and not yet handed to a functional
unit whose class satisfies `P`. -/
def pendingCount (heap : Nat → instr) (P : Int → Bool) : List schedule_node → Nat
  | [] => 0
  | n :: rest =>
    if n.sendToExecute = 1 ∧ n.waiting = 0 ∧ P (heap n.theInstr).funcUnit = true then
      pendingCount heap P rest + 1
    else pendingCount heap P rest

/-- Class test of pool `k_0`. -/
def isClass0 (fu : Int) : Bool := decide (fu = 0)

/-- Class test of pool `k_1`, which serves classes `1` and `-1`. -/
def isClass1 (fu : Int) : Bool := decide (fu = 1 ∨ fu = -1)

/-- Class test of pool `k_2`. -/
def isClass2 (fu : Int) : Bool := decide (fu = 2)

/-- A class no pool serves. -/
def isNoClass (fu : Int) : Bool := !(isClass0 fu || isClass1 fu || isClass2 fu)

/-- At the top of the loop every instruction selected for issue has a class
served by a pool, and each pool has a slot, empty or about to be vacated, for
every instruction selected for it; the pools keep their configured sizes. -/
def IssueInv (s : State) : Prop :=
  (pendingCount s.heap isClass0 s.schedule_head : Int) ≤ numSpotsAvailableLoop s.k_0 ∧
  (pendingCount s.heap isClass1 s.schedule_head : Int) ≤ numSpotsAvailableLoop s.k_1 ∧
  (pendingCount s.heap isClass2 s.schedule_head : Int) ≤ numSpotsAvailableLoop s.k_2 ∧
  pendingCount s.heap isNoClass s.schedule_head = 0 ∧
  s.k_0.length = s.curr_Config.k0_size ∧ s.k_1.length = s.curr_Config.k1_size ∧
  s.k_2.length = s.curr_Config.k2_size

/-- No scheduling node is selected for issue and still outside the
functional units. -/
def noPending (q : List schedule_node) : Prop :=
  ∀ n ∈ q, ¬ (n.sendToExecute = 1 ∧ n.waiting = 0)

/-- Instruction pointers held by a functional-unit pool. -/
def fuPtrs (k : List (Option execute_node)) : List Nat :=
  k.filterMap (fun x => x.map (·.theInstr))

/-- Instruction pointers held by the state-update array. -/
def supPtrs (u : List (Option Nat)) : List Nat := u.filterMap id

/-- Pointers of the scheduling nodes that `moveToExecute` hands to `putInFU`. -/
def pendingPtrs (q : List schedule_node) : List Nat :=
  (q.filter (fun n => decide (n.sendToExecute = 1 ∧ n.waiting = 0))).map (·.theInstr)

/-- Pointers in the dispatch queue followed by those in the fetch buffer. -/
def frontPtrs (s : State) : List Nat :=
  s.dispatch_head.map (·.theInstr) ++ s.fetchQueue

/-- Pointers in the scheduling queue, the functional units and the state-update
array. -/
def backPtrs (s : State) : List Nat :=
  s.schedule_head.map (·.theInstr) ++ (fuPtrs s.k_0 ++ fuPtrs s.k_1 ++ fuPtrs s.k_2) ++
    supPtrs s.sup

/-- Both records carry the same tag and the same five stage stamps. -/
def sameStamps (a b : instr) : Prop :=
  b.dest_tag = a.dest_tag ∧ b.fetch = a.fetch ∧ b.disp = a.disp ∧ b.sched = a.sched ∧
    b.exec = a.exec ∧ b.state = a.state

/-- A trace line with five or seven tokens, which `main` turns into an
instruction. -/
def TraceLine.isInstr : TraceLine → Bool
  | TraceLine.malformed => false
  | _ => true

/-- A call that moves no instruction between stages and stamps no cycle: the
records keep tag and stamps, the queues keep their pointers (the scheduling
queue may lose nodes), and the nodes that remain keep `waiting`. -/
def Quiet (s t : State) : Prop :=
  (∀ p, sameStamps (s.heap p) (t.heap p)) ∧ t.fetchQueue = s.fetchQueue ∧
  t.dispatch_head.map (·.theInstr) = s.dispatch_head.map (·.theInstr) ∧
  t.nalloc = s.nalloc ∧ t.clock = s.clock ∧ t.final_head = s.final_head ∧ t.sup = s.sup ∧
  (∀ n' ∈ t.schedule_head, ∃ n ∈ s.schedule_head,
    n'.theInstr = n.theInstr ∧ n'.waiting = n.waiting) ∧
  fuPtrs t.k_0 = fuPtrs s.k_0 ∧ fuPtrs t.k_1 = fuPtrs s.k_1 ∧ fuPtrs t.k_2 = fuPtrs s.k_2

/-- Stamps of an instruction in the dispatch queue at clock `c`. -/
def chainDisp (i : instr) (c : Int) : Prop := i.fetch ≤ i.disp ∧ i.disp ≤ c

/-- Stamps of an instruction in the scheduling queue at clock `c`. -/
def chainSched (i : instr) (c : Int) : Prop :=
  i.fetch ≤ i.disp ∧ i.disp ≤ i.sched ∧ i.sched ≤ c

/-- Stamps of an instruction in a functional unit at clock `c`. -/
def chainExec (i : instr) (c : Int) : Prop :=
  i.fetch ≤ i.disp ∧ i.disp ≤ i.sched ∧ i.sched ≤ i.exec ∧ i.exec ≤ c

/-- Stamps of an instruction in the state-update array. -/
def chainState (i : instr) : Prop :=
  i.fetch ≤ i.disp ∧ i.disp ≤ i.sched ∧ i.sched ≤ i.exec ∧ i.exec ≤ i.state

/-- The ordering of the five stamps of a retired record. -/
def final_node.ordered (r : final_node) : Prop :=
  r.fetch ≤ r.disp ∧ r.disp ≤ r.sched ∧ r.sched ≤ r.exec ∧ r.exec ≤ r.state

/-- The stamps of every instruction are ordered as far as its stage, and an
instruction still in the dispatch queue or the fetch buffer is in no later
stage.  `su` is the `state` stamp of the occupants of the state-update array:
the previous clock at the top of the loop, the current one once `sendToSU` ran. -/
def StampInv (su : Int) (s : State) : Prop :=
  (frontPtrs s).Nodup ∧
  (∀ y ∈ backPtrs s, y ∉ frontPtrs s) ∧
  (∀ x ∈ frontPtrs s, x < s.nalloc) ∧ (∀ y ∈ backPtrs s, y < s.nalloc) ∧
  (∀ p ∈ s.fetchQueue, (s.heap p).fetch ≤ s.clock) ∧
  (∀ d ∈ s.dispatch_head, chainDisp (s.heap d.theInstr) s.clock) ∧
  (∀ n ∈ s.schedule_head, chainSched (s.heap n.theInstr) s.clock ∧
    (n.waiting = 1 → chainExec (s.heap n.theInstr) s.clock)) ∧
  (∀ p ∈ fuPtrs s.k_0 ++ fuPtrs s.k_1 ++ fuPtrs s.k_2, chainExec (s.heap p) s.clock) ∧
  (∀ p ∈ supPtrs s.sup, chainState (s.heap p) ∧ (s.heap p).state = su) ∧
  (∀ r ∈ s.final_head, r.ordered)

/-- A call that leaves the tags, the fetch buffer, the dispatch queue, the
final queue, the driver's counters and the pointers of the scheduling queue as
they are. -/
def Still (s t : State) : Prop :=
  (∀ p, (t.heap p).dest_tag = (s.heap p).dest_tag) ∧ t.fetchQueue = s.fetchQueue ∧
  t.dispatch_head = s.dispatch_head ∧
  t.schedule_head.map (·.theInstr) = s.schedule_head.map (·.theInstr) ∧
  t.final_head = s.final_head ∧ t.nalloc = s.nalloc ∧ t.tag = s.tag ∧ t.trace = s.trace ∧
  t.totalMarked = s.totalMarked ∧ t.clock = s.clock ∧ t.curr_Config = s.curr_Config

/-- Pointers of the instructions between fetch and retirement that the
accounting looks at: scheduling queue, dispatch queue and fetch buffer, and the
state-update array while its occupants have left the scheduling queue. -/
def inFlight (withSup : Bool) (s : State) : List Nat :=
  (if withSup then supPtrs s.sup else []) ++ s.schedule_head.map (·.theInstr) ++ frontPtrs s

/-- Every instruction allocated so far is retired or in flight, exactly once;
the tag of an instruction is its allocation number. -/
def AccInv (withSup : Bool) (s : State) : Prop :=
  s.tag = (s.nalloc : Int) ∧ (∀ p, p < s.nalloc → (s.heap p).dest_tag = (p : Int)) ∧
  List.Perm (s.final_head.map (·.dest_tag) ++ (inFlight withSup s).map (fun p : Nat => (p : Int)))
    ((List.range s.nalloc).map (fun p : Nat => (p : Int)))

/-- The nodes reserved by `reserveScheduleSpots` are the first `totalMarked`
nodes of the dispatch queue. -/
def MarkedPrefix (s : State) : Prop :=
  0 ≤ s.totalMarked ∧ s.totalMarked.toNat ≤ s.dispatch_head.length ∧
  (∀ d ∈ s.dispatch_head.take s.totalMarked.toNat, d.mark_for_move = 1) ∧
  (∀ d ∈ s.dispatch_head.drop s.totalMarked.toNat, d.mark_for_move = 0)

/-- No node of the dispatch queue is reserved. -/
def Unmarked (s : State) : Prop := ∀ d ∈ s.dispatch_head, d.mark_for_move = 0

/-- The unread trace holds instruction lines only, `n` instructions in all are
read or unread, the fetch rate is positive and the clock has started. -/
def TraceCore (n : Nat) (s : State) : Prop :=
  (∀ l ∈ s.trace, l.isInstr = true) ∧ s.nalloc + s.trace.length = n ∧
  1 ≤ s.curr_Config.fetch_rate ∧ 1 ≤ s.clock

/-- Unread lines come with a filled fetch buffer. -/
def Fed (s : State) : Prop := s.trace = [] ∨ s.fetchQueue ≠ []

/-- The invariant of the accounting at the top of the loop: every allocated
instruction is retired or in flight, the reserved dispatch nodes are a prefix,
and outside the first iteration unread lines come with a filled fetch buffer. -/
def CountInv (n : Nat) (s : State) : Prop :=
  AccInv true s ∧ MarkedPrefix s ∧ TraceCore n s ∧ (s.clock = 1 ∨ Fed s)

/-- The `INST` column of the table printed by `printFinalQueue`: `dest_tag + 1`
of each record of the final queue. -/
def instColumn (fin : List final_node) : List Int := fin.map (fun r => r.dest_tag + 1)
/-- The fields of a record that only `dispatch_Enqueue` and `resolveBranches`
may write are the same in both records. -/
def Kept (a b : instr) : Prop :=
  b.address = a.address ∧ b.branch = a.branch ∧ b.taken = a.taken ∧
  b.correct_pred = a.correct_pred ∧ b.disp = a.disp ∧ b.dest_tag = a.dest_tag ∧
  b.resolved = a.resolved ∧ b.funcUnit = a.funcUnit ∧ b.fetch = a.fetch

/-- A call that leaves the predictor, the dispatch lock, the trace and the
driver's tag counter alone and writes none of the `Kept` fields. -/
def Settled (s t : State) : Prop :=
  (∀ p, Kept (s.heap p) (t.heap p)) ∧ t.stallDispatch = s.stallDispatch ∧
  t.GSelect = s.GSelect ∧ t.GHR = s.GHR ∧ t.trace = s.trace ∧ t.tag = s.tag ∧
  t.curr_Config = s.curr_Config ∧ t.nalloc = s.nalloc ∧ t.fetchQueue = s.fetchQueue ∧
  t.final_head = s.final_head ∧ t.clock = s.clock

/-- Nothing is in the machine behind the fetch buffer. -/
def Idle (s : State) : Prop :=
  s.dispatch_head = [] ∧ s.schedule_head = [] ∧ fuPtrs s.k_0 = [] ∧ fuPtrs s.k_1 = [] ∧
  fuPtrs s.k_2 = [] ∧ supPtrs s.sup = []

/-- The record `main` creates for an instruction line read with tag `tag` at
cycle `clock` (the two `createInstruction` argument lists of the read loop). -/
def lineInstr : TraceLine → Int → Int → instr
  | TraceLine.plain address fu_type dest_reg src_1 src_2, tag, clock =>
    createInstruction address fu_type dest_reg src_1 src_2 (-5) (-5) tag clock 0 (-1) (-1) (-1)
  | TraceLine.branchLine address fu_type dest_reg src_1 src_2 taken, tag, clock =>
    createInstruction address fu_type dest_reg src_1 src_2 (-5) (-5) tag clock 1 taken (-1) 0
  | TraceLine.malformed, _, _ => default

/-- The calls `moveToExecute` and `dispatchToSchedule` of one iteration. -/
def midCalls (clock tm : Int) (s : State) : Except Fault State :=
  match moveToExecute clock s with
  | .error e => .error e
  | .ok s4 => dispatchToSchedule clock tm s4

/-- The accounting invariant at the top of the loop without the part about the
trace: every allocated instruction is retired or in flight exactly once, tags
are allocation numbers, and the reserved dispatch nodes form a prefix. -/
def TagInv (s : State) : Prop := AccInv true s ∧ MarkedPrefix s

/-- The top of the second iteration of a run whose trace starts with the line
`b` followed by the instruction line `l2`, with fetch rate `F`: nothing is
behind the fetch buffer, the predictor is in its initial state, and the fetch
buffer starts with the record of `b`, followed by that of `l2` when `F >= 2`. -/
def SecondTop (b l2 : TraceLine) (rest : List TraceLine) (F : Nat) (s : State) : Prop :=
  s.clock = 2 ∧ Idle s ∧ s.stallDispatch = 0 ∧ (∀ r c, s.GSelect r c = 1) ∧
  s.curr_Config.fetch_rate = F ∧ Kept (lineInstr b 0 1) (s.heap 0) ∧ s.final_head = [] ∧
  (∀ p, p < s.nalloc → p ∈ s.fetchQueue) ∧
  ((F = 1 ∧ s.fetchQueue = [0] ∧ s.nalloc = 1 ∧ s.trace = l2 :: rest) ∨
    (2 ≤ F ∧ ∃ r, s.fetchQueue = 0 :: 1 :: r ∧ 2 ≤ s.nalloc))

/-- A call that only touches the front end: heap, statistics, dispatch lock,
dispatch queue and fetch buffer. -/
def FrontOnly (s t : State) : Prop :=
  t.nalloc = s.nalloc ∧ t.trace = s.trace ∧ t.curr_Config = s.curr_Config ∧
  t.GSelect = s.GSelect ∧ t.GHR = s.GHR ∧ t.final_head = s.final_head ∧ t.clock = s.clock ∧
  t.schedule_head = s.schedule_head ∧ t.k_0 = s.k_0 ∧ t.k_1 = s.k_1 ∧ t.k_2 = s.k_2 ∧
  t.sup = s.sup ∧ t.tag = s.tag

/-- The instruction `p` has left the fetch buffer with dispatch stamp `v`, and
the retired records with its tag show that stamp. -/
def Dispatched (p : Nat) (v : Int) (s : State) : Prop :=
  p < s.nalloc ∧ p ∉ s.fetchQueue ∧ (s.heap p).disp = v ∧
  ∀ r ∈ s.final_head, r.dest_tag = (p : Int) → r.disp = v

/-- The top of the third iteration after a correctly predicted first branch:
the branch was dispatched in cycle 2; the second instruction was dispatched with
it when `F >= 2` and heads the fetch buffer, dispatch unlocked, when `F = 1`. -/
def ThirdTop (F : Nat) (s : State) : Prop :=
  s.clock = 3 ∧ s.curr_Config.fetch_rate = F ∧ Dispatched 0 2 s ∧
  (s.heap 0).correct_pred = 1 ∧
  (s.stallDispatch = 0 ∨ ∃ p, p ≠ 0 ∧ (s.heap p).correct_pred = 0) ∧
  ((F = 1 ∧ s.stallDispatch = 0 ∧ ∃ r, s.fetchQueue = 1 :: r) ∨ (2 ≤ F ∧ Dispatched 1 2 s))

/-- The top of a later iteration after a correctly predicted first branch: both
instructions carry their dispatch stamps. -/
def LaterTop (F : Nat) (s : State) : Prop :=
  4 ≤ s.clock ∧ Dispatched 0 2 s ∧ (s.heap 0).correct_pred = 1 ∧
  Dispatched 1 (if F = 1 then 3 else 2) s

/-- The states at the top of the loop in a run from `s0` whose first line is a
branch that is not taken. -/
def CorrectInv (b l2 : TraceLine) (rest : List TraceLine) (F : Nat) (s0 s : State) : Prop :=
  s = s0 ∨ SecondTop b l2 rest F s ∨ ThirdTop F s ∨ LaterTop F s

/-- The trace of the branch scenarios: the branch `0x100 0 5 -1 -1` with the
given outcome, then `0x104 0 6 -1 -1`. -/
def branchTrace (taken : Int) : List TraceLine :=
  [TraceLine.branchLine 0x100 0 5 (-1) (-1) taken, TraceLine.plain 0x104 0 6 (-1) (-1)]

/-- The state of a branch scenario with the default `k0 = 3`, `k1 = 2`, `k2 = 1`,
`R = 2` and fetch rate `F` after `n` iterations (the initial state if the run is
shorter). -/
def branchState (F : Nat) (taken : Int) (n : Nat) : State :=
  (advance n (proc_init 128 3 2 1 2 F (branchTrace taken))).getD
    (proc_init 128 3 2 1 2 F (branchTrace taken))
/-- Dispatch is locked by the mispredicted first branch (pointer 0): the branch
is the only instruction behind the fetch buffer, it has not reached the
state-update array, nothing is retired, and every other instruction read so far
waits in the fetch buffer, the second one at its head. -/
def Stalled (s : State) : Prop :=
  3 ≤ s.clock ∧ s.stallDispatch = 1 ∧ (s.heap 0).branch = 1 ∧ (s.heap 0).correct_pred = 0 ∧
  (s.heap 0).resolved = 0 ∧ (s.heap 0).disp = 2 ∧
  (∀ p ∈ s.dispatch_head.map (·.theInstr) ++ s.schedule_head.map (·.theInstr) ++
      (fuPtrs s.k_0 ++ fuPtrs s.k_1 ++ fuPtrs s.k_2), p = 0) ∧
  supPtrs s.sup = [] ∧ s.final_head = [] ∧ (∃ r, s.fetchQueue = 1 :: r) ∧
  0 ∉ s.fetchQueue ∧ (∀ p, 1 ≤ p → p < s.nalloc → p ∈ s.fetchQueue) ∧
  1 ≤ s.curr_Config.fetch_rate

/-- The mispredicted first branch got its state-update stamp in cycle `c`, the
second instruction was dispatched in that cycle and no other instruction before
it; the branch is in the state-update array or retired with these stamps. -/
def Released (c : Int) (s : State) : Prop :=
  c < s.clock ∧ 1 < s.nalloc ∧ 1 ∉ s.fetchQueue ∧ (s.heap 1).disp = c ∧
  (∀ p, 1 ≤ p → p < s.nalloc → p ∉ s.fetchQueue → c ≤ (s.heap p).disp) ∧
  ((s.final_head = [] ∧ supPtrs s.sup ≠ [] ∧ (∀ p ∈ supPtrs s.sup, p = 0) ∧
      (s.heap 0).state = c ∧ (s.heap 0).disp = 2) ∨
    ((∃ r0 ∈ s.final_head, r0.dest_tag = 0 ∧ r0.state = c ∧ r0.disp = 2) ∧
      (∀ r ∈ s.final_head, r.dest_tag ≠ 0 → c ≤ r.disp) ∧
      (∀ r ∈ s.final_head, r.dest_tag = 1 → r.disp = c)))

/-- The states at the top of the loop in a run from `s0` whose first line is a
taken branch. -/
def MispredInv (b l2 : TraceLine) (rest : List TraceLine) (F : Nat) (s0 s : State) : Prop :=
  s = s0 ∨ SecondTop b l2 rest F s ∨ Stalled s ∨ ∃ c, Released c s
/-- Pointers of the occupants of a pool with `chosen == 1`. -/
def chosenPtrs (k : List (Option execute_node)) : List Nat :=
  k.filterMap (fun x => x.bind (fun n => if n.chosen = 1 then some n.theInstr else none))

/-- Pointers of the occupants of a pool that are not chosen. -/
def idlePtrs (k : List (Option execute_node)) : List Nat :=
  k.filterMap (fun x => x.bind (fun n => if n.chosen = 1 then none else some n.theInstr))

/-- Pointers of the unchosen occupants of the three pools. -/
def idleAll (s : State) : List Nat := idlePtrs s.k_0 ++ idlePtrs s.k_1 ++ idlePtrs s.k_2

/-- Pointers of the chosen occupants of the three pools. -/
def chosenAll (s : State) : List Nat := chosenPtrs s.k_0 ++ chosenPtrs s.k_1 ++ chosenPtrs s.k_2

/-- Every scheduling node of an instruction that occupies a functional unit has
been handed over (`waiting == 1`). -/
def WaitInv (s : State) : Prop :=
  ∀ n ∈ s.schedule_head, n.theInstr ∈ fuPtrs s.k_0 ++ fuPtrs s.k_1 ++ fuPtrs s.k_2 →
    n.waiting = 1

/-- One iteration of the loop up to the call of `setToChosen`: the state that
the completion arbitration of this cycle sees. -/
def uptoSetToChosen (s : State) : Except Fault State :=
  match phaseA s with
  | .error e => .error e
  | .ok s1 =>
    match writeToRegFile (updateDispatchQueueSize s1) with
    | .error e => .error e
    | .ok w1 =>
      match reserveScheduleSpots (setToFired w1) with
      | .error e => .error e
      | .ok w3 =>
        match readUpdateRegFile w3.totalMarked w3 with
        | .error e => .error e
        | .ok w4 => removeAllSUFromSched (broadcastToSched w4)

/-- The trace of the backlog scenario: three independent instructions of
class 0, `0x100 0 5 -1 -1`, `0x104 0 6 -1 -1`, `0x108 0 7 -1 -1`. -/
def tripleTrace : List TraceLine :=
  [TraceLine.plain 0x100 0 5 (-1) (-1), TraceLine.plain 0x104 0 6 (-1) (-1),
    TraceLine.plain 0x108 0 7 (-1) (-1)]

/-- The state of the backlog scenario with `k0 = 3`, `k1 = 2`, `k2 = 1`, `F = 4`
and one result bus after `n` iterations (the initial state if the run is
shorter). -/
def tripleState (n : Nat) : State :=
  (advance n (proc_init 128 3 2 1 1 4 tripleTrace)).getD (proc_init 128 3 2 1 1 4 tripleTrace)

/-- The state the completion arbitration sees in the iteration that starts at
`tripleState n` (that state itself if the iteration aborts before). -/
def tripleArbitration (n : Nat) : State :=
  match uptoSetToChosen (tripleState n) with
  | .ok s6 => s6
  | .error _ => tripleState n
/-- The trace of the skipped-lines scenario: four lines that are not instruction
lines, then `0x100 0 5 -1 -1`. -/
def skipTrace : List TraceLine :=
  [TraceLine.malformed, TraceLine.malformed, TraceLine.malformed, TraceLine.malformed,
    TraceLine.plain 0x100 0 5 (-1) (-1)]

/-- The state of the skipped-lines scenario with the default configuration after
`n` iterations (the initial state if the run is shorter). -/
def skipState (n : Nat) : State :=
  (advance n (proc_init 128 3 2 1 2 4 skipTrace)).getD (proc_init 128 3 2 1 2 4 skipTrace)

/-- The transition table of the two-bit counter as the specification words it:
from state `c` with outcome `t`, `0 -> (t ? 1 : 0)`, `1 -> (t ? 2 : 0)`,
`2 -> (t ? 3 : 1)`, `3 -> (t ? 3 : 2)`. -/
def smithNext (c : Nat) (t : Int) : Nat :=
  match c with
  | 0 => if t ≠ 0 then 1 else 0
  | 1 => if t ≠ 0 then 2 else 0
  | 2 => if t ≠ 0 then 3 else 1
  | _ => if t ≠ 0 then 3 else 2

/-- The initial state of the default configuration with every bit of the history
register set. -/
def onesState : State := { proc_init 128 3 2 1 2 4 [] with GHR := 2 ^ 64 - 1 }
/-- The cell `(row, col)` of the counter table addressed for `address` in state
`s`.  `getPrediction` and `updateGSelect` both compute `row = (address/4)%128`
and `col = getGHR()`. -/
def cellOf (address : Nat) (s : State) : Nat × Nat := ((address / 4) % 128, getGHR s)

/-- The trace of the three-branch scenario: `0x100` taken, `0x104` not taken,
`0x108` not taken. -/
def gsTrace : List TraceLine :=
  [TraceLine.branchLine 0x100 0 5 (-1) (-1) 1, TraceLine.branchLine 0x104 0 6 (-1) (-1) 0,
    TraceLine.branchLine 0x108 0 7 (-1) (-1) 0]

/-- The state of the three-branch scenario with the default configuration after
`n` iterations (the initial state if the run is shorter). -/
def gsState (n : Nat) : State :=
  (advance n (proc_init 128 3 2 1 2 4 gsTrace)).getD (proc_init 128 3 2 1 2 4 gsTrace)

/-- The state in which `dispatch_Enqueue` is called in the iteration of cycle 5
of the three-branch scenario. -/
def gsDispatch : State :=
  match uptoDispatchToSchedule (gsState 4) with
  | .ok s5 => s5
  | .error _ => gsState 4

/-- The state in which `resolveBranches` is called in the iteration of cycle 8
of the three-branch scenario. -/
def gsResolve : State :=
  match sendToSU (gsState 7).clock (sendToFinal (gsState 7)) with
  | .ok s2 => s2
  | .error _ => gsState 7

/-- The state after the first turn of the loop of `resolveBranches` in that
iteration, in which the second turn calls `updateGSelect`. -/
def gsSecond : State :=
  match resolveBranchesLoop 1 gsResolve with
  | .ok m => m
  | .error _ => gsResolve
/-- Pointers of the occupants of the state-update array with `resolved == 0`,
in slot order. -/
def unresolvedPtrs (heap : Nat → instr) (u : List (Option Nat)) : List Nat :=
  (supPtrs u).filter (fun p => decide ((heap p).resolved = 0))

/-- The order of resolution as the specification words it: ascending `exec`,
ties broken by ascending `dest_tag`. -/
def resolvesBefore (heap : Nat → instr) (p q : Nat) : Bool :=
  decide ((heap p).exec < (heap q).exec ∨
    ((heap p).exec = (heap q).exec ∧ (heap p).dest_tag ≤ (heap q).dest_tag))

/-- The per-branch step of `resolveBranches` on the predictor: `updateGSelect`
with the current history register, then `updateGHR`. -/
def resolveOne (heap : Nat → instr) (st : State) (p : Nat) : State :=
  updateGHR (heap p).taken (updateGSelect (heap p).address (heap p).taken st)

/-- The unresolved branches of the state-update array sorted by
`(exec, dest_tag)`. -/
def resolveOrder (s : State) : List Nat :=
  (unresolvedPtrs s.heap s.sup).insertionSort (fun p q => resolvesBefore s.heap p q = true)

/-- Resolution as the specification words it: the left fold of the per-branch
step over the unresolved branches sorted by `(exec, dest_tag)`. -/
def resolveSorted (s : State) : State :=
  (resolveOrder s).foldl (resolveOne s.heap) s

/-- The unresolved occupants of the state-update array are distinct
instructions with distinct tags below `INT_MAX` and `exec` stamps in the range of
an `int`. -/
def SupDistinct (heap : Nat → instr) (u : List (Option Nat)) : Prop :=
  (unresolvedPtrs heap u).Nodup ∧
  (∀ p ∈ unresolvedPtrs heap u, ∀ q ∈ unresolvedPtrs heap u,
    (heap p).dest_tag = (heap q).dest_tag → p = q) ∧
  ∀ p ∈ unresolvedPtrs heap u, (heap p).dest_tag < INT_MAX ∧ (heap p).exec ≤ INT_MAX

/-- The state after the turn of the loop of `resolveBranches` that resolves the
occupant `p` (the `assert` on the dispatch lock apart). -/
def resolveTurn (s : State) (p : Nat) : State :=
  { resolveOne s.heap s p with
    stallDispatch := if (s.heap p).correct_pred = 0 then 0 else s.stallDispatch
    heap := setInstr s.heap p { s.heap p with resolved := 1 } }

/-- The order in which the loop of `resolveBranches` takes two unresolved
occupants: strictly ascending `(exec, dest_tag)`. -/
def keyBelow (heap : Nat → instr) (p q : Nat) : Prop :=
  (heap p).exec < (heap q).exec ∨
    ((heap p).exec = (heap q).exec ∧ (heap p).dest_tag < (heap q).dest_tag)

/-- The state in which `resolveBranches` is called in the iteration of cycle 8
of the three-branch scenario, with the two occupants of the state-update array
in swapped slots. -/
def gsSwapped : State := { gsResolve with sup := [some 2, some 1] }

/-- The state `resolveBranches` returns for `gsSwapped`. -/
def gsSwappedResolved : State :=
  match resolveBranches gsSwapped with
  | .ok t => t
  | .error _ => gsSwapped
/-- Instruction pointers held by the three functional-unit pools. -/
def fuAll (s : State) : List Nat := fuPtrs s.k_0 ++ fuPtrs s.k_1 ++ fuPtrs s.k_2

/-- At the top of the loop no instruction occupies two functional-unit slots,
and no instruction in a functional unit, in the scheduling queue, in the
dispatch queue or in the fetch buffer has been resolved. -/
def PoolInv (s : State) : Prop :=
  (fuAll s).Nodup ∧
  ∀ p ∈ fuAll s ++ s.schedule_head.map (·.theInstr) ++ frontPtrs s, (s.heap p).resolved ≠ 1
/-- The instruction `p` is a mispredicted branch that has not been resolved. -/
def Misled (s : State) (p : Nat) : Prop :=
  (s.heap p).correct_pred = 0 ∧ (s.heap p).resolved = 0

/-- The dispatch lock and the branches: an unresolved record is a branch, the
records in the fetch buffer are not predicted yet, the lock is taken exactly
while one mispredicted branch is unresolved, there is at most one, only a branch
is recorded as mispredicted, and `resolved` of a branch is 0 or 1. -/
def StallCore (s : State) : Prop :=
  (∀ p, p < s.nalloc → (s.heap p).resolved = 0 → (s.heap p).branch = 1) ∧
  s.fetchQueue.Nodup ∧
  (∀ p ∈ s.fetchQueue, p < s.nalloc ∧ (s.heap p).correct_pred = -1 ∧
    ((s.heap p).branch = 1 → (s.heap p).resolved = 0)) ∧
  (∀ p, p < s.nalloc → Misled s p → s.stallDispatch = 1) ∧
  (∀ p q, p < s.nalloc → q < s.nalloc → Misled s p → Misled s q → p = q) ∧
  (s.stallDispatch = 1 → ∃ p, p < s.nalloc ∧ Misled s p) ∧
  (s.stallDispatch = 0 ∨ s.stallDispatch = 1) ∧
  (∀ p, p < s.nalloc → (s.heap p).correct_pred = 0 → (s.heap p).branch = 1) ∧
  (∀ p, p < s.nalloc → (s.heap p).branch = 1 →
    (s.heap p).resolved = 0 ∨ (s.heap p).resolved = 1)

/-- What the loop of `resolveBranches` relies on: the unresolved occupants of
the state-update array are distinct instructions with distinct tags in range,
each is a branch, and a mispredicted one among them is the only one and holds
the dispatch lock. -/
def ResolveReady (s : State) : Prop :=
  SupDistinct s.heap s.sup ∧ (∀ p ∈ unresolvedPtrs s.heap s.sup, (s.heap p).branch = 1) ∧
  (∀ p ∈ unresolvedPtrs s.heap s.sup, (s.heap p).correct_pred = 0 →
    s.stallDispatch = 1 ∧
      ∀ q ∈ unresolvedPtrs s.heap s.sup, (s.heap q).correct_pred = 0 → q = p)

/-- The trace of the two-taken-branches scenario: the branches `0x100 0 5 -1 -1`
and `0x104 0 6 -1 -1`, both taken. -/
def lockTrace : List TraceLine :=
  [TraceLine.branchLine 0x100 0 5 (-1) (-1) 1, TraceLine.branchLine 0x104 0 6 (-1) (-1) 1]

/-- The state of the two-taken-branches scenario with the default configuration
after `n` iterations (the initial state if the run is shorter). -/
def lockState (n : Nat) : State :=
  (advance n (proc_init 128 3 2 1 2 4 lockTrace)).getD (proc_init 128 3 2 1 2 4 lockTrace)

/-- The fields of a record that say which value it produces and which registers
it reads are the same in both records. -/
def StaticKept (a b : instr) : Prop :=
  b.destReg = a.destReg ∧ b.dest_tag = a.dest_tag ∧ b.source1 = a.source1 ∧
    b.source2 = a.source2

/-- The register and operand fields of both records are the same. -/
def OpsKept (a b : instr) : Prop :=
  StaticKept a b ∧ b.source1_tag = a.source1_tag ∧ b.source1_ready = a.source1_ready ∧
    b.source2_tag = a.source2_tag ∧ b.source2_ready = a.source2_ready

/-- The instruction `q` writes register `r` and broadcasts under tag `T`. -/
def Produces (heap : Nat → instr) (q : Nat) (r T : Int) : Prop :=
  (heap q).destReg = r ∧ (heap q).dest_tag = T

/-- The ready flags of the instruction `p` are 0 or 1, and each source that is
not ready waits for the tag of an instruction of `pool` that writes the source
register. -/
def Backed (heap : Nat → instr) (pool : List Nat) (p : Nat) : Prop :=
  ((heap p).source1_ready = 0 ∨ (heap p).source1_ready = 1) ∧
  ((heap p).source2_ready = 0 ∨ (heap p).source2_ready = 1) ∧
  ((heap p).source1_ready = 0 →
    ∃ q ∈ pool, Produces heap q (heap p).source1 (heap p).source1_tag) ∧
  ((heap p).source2_ready = 0 →
    ∃ q ∈ pool, Produces heap q (heap p).source2 (heap p).source2_tag)

/-- Every register that is not ready carries the tag of an instruction of `pool`
that writes it. -/
def RegBacked (heap : Nat → instr) (pool : List Nat) (rf : Int → Int × Int) : Prop :=
  ∀ r, (rf r).1 ≠ 1 → r ≠ -1 ∧ ∃ q ∈ pool, Produces heap q r (rf r).2

/-- A scheduling node that is marked as fired has both sources ready. -/
def FiredOk (heap : Nat → instr) (n : schedule_node) : Prop :=
  n.fired = 0 ∨ ((heap n.theInstr).source1_ready = 1 ∧ (heap n.theInstr).source2_ready = 1)

/-- Pointers of the dispatch nodes reserved by `reserveScheduleSpots`. -/
def markedPtrs (s : State) : List Nat :=
  (s.dispatch_head.take s.totalMarked.toNat).map (·.theInstr)

/-- No wake-up is lost: at the top of the loop every not-ready source of a
scheduling-queue entry waits for an instruction in the scheduling queue, and every
not-ready source of a reserved dispatch node and every not-ready register waits
for an instruction in the scheduling queue or among the reserved nodes. -/
def WakeInv (s : State) : Prop :=
  (∀ n ∈ s.schedule_head,
    Backed s.heap (s.schedule_head.map (·.theInstr)) n.theInstr ∧ FiredOk s.heap n) ∧
  (∀ p ∈ markedPtrs s, Backed s.heap (s.schedule_head.map (·.theInstr) ++ markedPtrs s) p) ∧
  RegBacked s.heap (s.schedule_head.map (·.theInstr) ++ markedPtrs s) s.reg_File

/-- The operands of a scheduling-queue entry after the broadcast of the
state-update entries `U`, record `a` before and `b` after: each source is ready,
or it is still waiting for the tag it waited for, which no entry of `U` carries
for that register. -/
def Woke (heap : Nat → instr) (U : List Nat) (a b : instr) : Prop :=
  StaticKept a b ∧
  (b.source1_ready = 1 ∨ (b.source1_ready = 0 ∧ a.source1_ready = 0 ∧
    b.source1_tag = a.source1_tag ∧ ∀ u ∈ U, ¬ Produces heap u a.source1 a.source1_tag)) ∧
  (b.source2_ready = 1 ∨ (b.source2_ready = 0 ∧ a.source2_ready = 0 ∧
    b.source2_tag = a.source2_tag ∧ ∀ u ∈ U, ¬ Produces heap u a.source2 a.source2_tag))

/-- Both ready flags of the record are 0 or 1. -/
def Flags01 (i : instr) : Prop :=
  (i.source1_ready = 0 ∨ i.source1_ready = 1) ∧ (i.source2_ready = 0 ∨ i.source2_ready = 1)

/-- A register-file entry as `readUpdateRegFile` expects it: a ready entry
carries the placeholder tag -5, an entry that is not ready a tag above -1. -/
def EntryOk (e : Int × Int) : Prop := (e.1 = 1 → e.2 = -5) ∧ (e.1 ≠ 1 → -1 < e.2)

/-- What `readUpdateRegFile` relies on for a reserved instruction: each register
is absent (-1) or an index of the register file, the file entries of the source
registers are as expected, and the tag is above -1. -/
def ReadReady (nr : Nat) (rf : Int → Int × Int) (i : instr) : Prop :=
  (i.source1 = -1 ∨ (0 ≤ i.source1 ∧ i.source1 < (nr : Int) ∧ EntryOk (rf i.source1))) ∧
  (i.source2 = -1 ∨ (0 ≤ i.source2 ∧ i.source2 < (nr : Int) ∧ EntryOk (rf i.source2))) ∧
  (i.destReg = -1 ∨ (0 ≤ i.destReg ∧ i.destReg < (nr : Int))) ∧ -1 < i.dest_tag

/-- The pair `(tag, ready)` the specification gives a source: ready with the
placeholder tag if the register is absent or its file entry is ready, else not
ready with the producer tag of the file entry. -/
def specSource (rf : Int → Int × Int) (src : Int) : Int × Int :=
  if src = -1 ∨ (rf src).1 = 1 then (-5, 1) else ((rf src).2, 0)

/-- The step of the specification for one reserved instruction `p`: both
sources are read from the file first; only then, if `destReg >= 0`, the file
entry of the destination is overwritten with (not ready, tag of `p`). -/
def specReadEntry (p : Nat) (x : (Nat → instr) × (Int → Int × Int)) :
    (Nat → instr) × (Int → Int × Int) :=
  (setInstr x.1 p
      { x.1 p with source1_tag := (specSource x.2 (x.1 p).source1).1,
                   source1_ready := (specSource x.2 (x.1 p).source1).2,
                   source2_tag := (specSource x.2 (x.1 p).source2).1,
                   source2_ready := (specSource x.2 (x.1 p).source2).2 },
    if 0 ≤ (x.1 p).destReg then setReg x.2 (x.1 p).destReg (0, (x.1 p).dest_tag) else x.2)

/-- The specification of `readUpdateRegFile`: the step for each reserved
instruction, in queue order. -/
def specReadUpdate (ps : List Nat) (heap : Nat → instr) (rf : Int → Int × Int) :
    (Nat → instr) × (Int → Int × Int) :=
  ps.foldl (fun x p => specReadEntry p x) (heap, rf)

/-- The state in which `readUpdateRegFile` is called in the iteration of cycle 2
of the read-after-write scenario: both instructions are reserved. -/
def rawBeforeRead : State :=
  match phaseA (rawState 1) with
  | .error _ => rawState 1
  | .ok s1 =>
    match writeToRegFile (updateDispatchQueueSize s1) with
    | .error _ => rawState 1
    | .ok w1 =>
      match reserveScheduleSpots (setToFired w1) with
      | .error _ => rawState 1
      | .ok w3 => w3

/-- What `writeToRegFile` relies on for an occupant of the state-update array:
its destination is absent (-1) or a register of the file whose entry is not
ready if it carries the occupant's tag, and the tag is not the placeholder -5. -/
def WriteReady (nr : Nat) (rf : Int → Int × Int) (i : instr) : Prop :=
  (i.destReg = -1 ∨ (0 ≤ i.destReg ∧ i.destReg < (nr : Int) ∧
    ((rf i.destReg).2 = i.dest_tag → (rf i.destReg).1 = 0))) ∧ i.dest_tag ≠ -5

/-- The occupant `p` completes the register `r`: it writes `r` (a register
number from 0 up) and the file entry of `r` carries its tag. -/
def completes (heap : Nat → instr) (rf : Int → Int × Int) (r : Int) (p : Nat) : Bool :=
  decide ((heap p).destReg = r ∧ 0 ≤ r ∧ (heap p).dest_tag = (rf r).2)

/-- The register file after write-back as the specification words it: an entry
becomes `(ready 1, tag -5)` exactly when an occupant of the state-update array
completes it; every other entry is unchanged. -/
def specWriteBack (heap : Nat → instr) (sup : List (Option Nat)) (rf : Int → Int × Int) :
    Int → Int × Int :=
  fun r => if (supPtrs sup).any (completes heap rf r) then (1, -5) else rf r

/-- The state in which `writeToRegFile` is called in the iteration of cycle 5 of
the read-after-write scenario: the first instruction is in the state-update
array. -/
def rawBeforeWrite : State :=
  match phaseA (rawState 4) with
  | .error _ => rawState 4
  | .ok s1 => updateDispatchQueueSize s1
/-! ### Preconditions of the completion arbitration -/

/-- What `setToChosen` relies on: the occupants of the functional units carry
pairwise distinct tags, every tag is below the `INT_MAX` that `getMinNode`
starts its search from, and every execute cycle is at most the `INT_MAX` that
`findMinCycle` starts from. -/
def FUReady (s : State) : Prop :=
  ((fuAll s).map (fun p => (s.heap p).dest_tag)).Nodup ∧
    ∀ p ∈ fuAll s, (s.heap p).dest_tag < INT_MAX ∧ (s.heap p).exec ≤ INT_MAX

/-- The state one turn of the loop of `setToChosen` leaves when `getMinNode`
returned slot `i` of pool `pool`. -/
def chooseTurn (s : State) (pool i : Nat) : State :=
  if pool = 0 then { s with k_0 := markChosen s.k_0 i }
  else if pool = 1 then { s with k_1 := markChosen s.k_1 i }
  else { s with k_2 := markChosen s.k_2 i }

/-- The occupant of slot `i` of pool `pool`. -/
def slotOf (s : State) (pool i : Nat) : Option execute_node :=
  if pool = 0 then (s.k_0[i]?).join else if pool = 1 then (s.k_1[i]?).join
  else (s.k_2[i]?).join

/-! ### What `markForExecution` selects -/

/-- The test of the loop of `markScheduleEntries` on a node, for the classes
`FU_1` and `FU_2` of a pool. -/
def issueEligible (heap : Nat → instr) (FU_1 FU_2 : Int) (n : schedule_node) : Bool :=
  decide (n.fired = 1 ∧ n.waiting = 0 ∧
    ((heap n.theInstr).funcUnit = FU_1 ∨ (heap n.theInstr).funcUnit = FU_2))

/-- Node `n` at position `i` of the queue `q` is one of the first
`min(available, eligible)` eligible nodes of the pool with classes `FU_1`,
`FU_2`: it is eligible and fewer than that many eligible nodes precede it. -/
def issuedAt (heap : Nat → instr) (FU_1 FU_2 : Int) (available : Int) (q : List schedule_node)
    (i : Nat) (n : schedule_node) : Bool :=
  issueEligible heap FU_1 FU_2 n &&
    decide ((((q.take i).countP (issueEligible heap FU_1 FU_2) : Nat) : Int) <
      min available ((q.countP (issueEligible heap FU_1 FU_2) : Nat) : Int))

/-! ### What `broadcastToSched` wakes -/

/-- One of the instructions `U` (the occupants of the state-update array)
writes register `src` under the tag `tag`. -/
def supMatch (heap : Nat → instr) (U : List Nat) (src tag : Int) : Bool :=
  U.any (fun u => decide (src = (heap u).destReg ∧ tag = (heap u).dest_tag))

/-- The record of a non-fired entry after the broadcast, in the words of the
specification: a source becomes ready with the placeholder tag -5 when it was
not ready and one of the occupants `U` of the state-update array matches its
register and its tag, and keeps
its fields otherwise. -/
def specWake (heap : Nat → instr) (U : List Nat) (i : instr) : instr :=
  { i with
    source1_ready :=
      if i.source1_ready = 0 ∧ supMatch heap U i.source1 i.source1_tag = true then 1
      else i.source1_ready
    source1_tag :=
      if i.source1_ready = 0 ∧ supMatch heap U i.source1 i.source1_tag = true then -5
      else i.source1_tag
    source2_ready :=
      if i.source2_ready = 0 ∧ supMatch heap U i.source2 i.source2_tag = true then 1
      else i.source2_ready
    source2_tag :=
      if i.source2_ready = 0 ∧ supMatch heap U i.source2 i.source2_tag = true then -5
      else i.source2_tag }

/-- The two wake-up tests of the loop body of `broadcastToSched` on the record
`i`, for a state-update entry that writes register `du` under the tag `dt`. -/
def wakeRec (du dt : Int) (i : instr) : instr :=
  let i1 := if i.source1 = du ∧ i.source1_ready = 0 ∧ i.source1_tag = dt then
    { i with source1_ready := 1, source1_tag := -5 } else i
  if i1.source2 = du ∧ i1.source2_ready = 0 ∧ i1.source2_tag = dt then
    { i1 with source2_ready := 1, source2_tag := -5 } else i1

/-- The state in which `broadcastToSched` is called in the iteration of cycle 5
of the dependent-pair scenario. -/
def rawBeforeBroadcast : State :=
  match phaseA (rawState 4) with
  | .error _ => rawState 4
  | .ok s1 =>
    match writeToRegFile (updateDispatchQueueSize s1) with
    | .error _ => rawState 4
    | .ok w1 =>
      match reserveScheduleSpots (setToFired w1) with
      | .error _ => rawState 4
      | .ok w3 =>
        match readUpdateRegFile w3.totalMarked w3 with
        | .error _ => rawState 4
        | .ok w4 => w4

/-- Every node of the queue whose instruction has both ready flags nonzero is
marked as fired. -/
def FiredAll (heap : Nat → instr) (q : List schedule_node) : Prop :=
  ∀ n ∈ q, (heap n.theInstr).source1_ready ≠ 0 → (heap n.theInstr).source2_ready ≠ 0 →
    n.fired = 1

/-! ### The nodes `removeAllSUFromSched` removes -/

/-- How a scheduling node may differ after calls that only mark nodes as fired:
it keeps its instruction, `sendToExecute` and `waiting`, and stays fired if it
was. -/
def FlagsKept (n n' : schedule_node) : Prop :=
  n'.theInstr = n.theInstr ∧ n'.sendToExecute = n.sendToExecute ∧ n'.waiting = n.waiting ∧
    (n.fired = 1 → n'.fired = 1)

/-- At the top of the loop every occupant of a functional unit has a scheduling
node with `fired`, `sendToExecute` and `waiting` all 1, and every node selected
for issue is fired. -/
def FlagInv (s : State) : Prop :=
  (∀ p ∈ fuAll s, ∃ n ∈ s.schedule_head, n.theInstr = p ∧ removeFlagsOk n = true) ∧
  ∀ n ∈ s.schedule_head, n.sendToExecute = 1 → n.fired = 1

/-- One iteration of the loop up to the call of `removeAllSUFromSched`: the
state that call sees. -/
def uptoRemove (s : State) : Except Fault State :=
  match phaseA s with
  | .error e => .error e
  | .ok s1 =>
    match writeToRegFile (updateDispatchQueueSize s1) with
    | .error e => .error e
    | .ok w1 =>
      match reserveScheduleSpots (setToFired w1) with
      | .error e => .error e
      | .ok w3 =>
        match readUpdateRegFile w3.totalMarked w3 with
        | .error e => .error e
        | .ok w4 => .ok (broadcastToSched w4)

/-- What `removeAllSUFromSched` relies on: every occupant of a functional unit
and of the state-update array has a scheduling node with all three flags set,
every node selected for issue is fired, the occupants of the state-update
array are distinct and occupy no functional unit, and no instruction has two
scheduling nodes. -/
def RemoveReady (s : State) : Prop :=
  (∀ p ∈ fuAll s ++ supPtrs s.sup,
    ∃ n ∈ s.schedule_head, n.theInstr = p ∧ removeFlagsOk n = true) ∧
  (∀ n ∈ s.schedule_head, n.sendToExecute = 1 → n.fired = 1) ∧
  (supPtrs s.sup).Nodup ∧ (∀ p ∈ fuAll s, p ∉ supPtrs s.sup) ∧
  (s.schedule_head.map (·.theInstr)).Nodup

/-- The state in which `removeAllSUFromSched` is called in the iteration of
cycle 5 of the dependent-pair scenario. -/
def rawAtRemove : State :=
  match uptoRemove (rawState 4) with
  | .ok c => c
  | .error _ => rawState 4

/-! ### What `dispatch_Enqueue` admits -/

/-- The instruction `p` is a branch that the predictor, in its current state,
predicts wrongly. -/
def mispredicted (s : State) (p : Nat) : Bool :=
  decide ((s.heap p).branch = 1) &&
    (match getPrediction (s.heap p).address s with
      | .ok pr => decide (pr ≠ (s.heap p).taken)
      | .error _ => false)

/-- What `dispatch_Enqueue` relies on: the dispatch lock is 0 or 1, the counter
consulted for a branch of the fetch buffer is one of the four states of a Smith
counter, and an instruction of the fetch buffer that is not a branch is not
recorded as mispredicted. -/
def EnqueueReady (s : State) : Prop :=
  (s.stallDispatch = 0 ∨ s.stallDispatch = 1) ∧
  ∀ p ∈ s.fetchQueue,
    ((s.heap p).branch = 1 → (getPrediction (s.heap p).address s).toOption.isSome = true) ∧
    ((s.heap p).branch ≠ 1 → (s.heap p).correct_pred ≠ 0)

/-- The number of instructions `dispatch_Enqueue` admits, in the words of the
specification: none while the lock is taken; otherwise the prefix of the fetch
buffer ends after `fetch_rate` instructions, at the end of the buffer, or right
after the first mispredicted branch, whichever comes first. -/
def specAdmit (s : State) : Nat :=
  if s.stallDispatch = 1 then 0
  else min (min s.curr_Config.fetch_rate s.fetchQueue.length)
    (s.fetchQueue.findIdx (mispredicted s) + 1)

/-- The state in which `dispatch_Enqueue` is called in the iteration of cycle 2
of the three-branch scenario. -/
def gsEnqueue : State :=
  match uptoDispatchToSchedule (gsState 1) with
  | .ok s5 => s5
  | .error _ => gsState 1

/-! ### The calls of `reserveScheduleSpots` and `dispatchToSchedule` in a run -/

/-- One iteration of the loop up to the call of `reserveScheduleSpots`: the
state that call sees. -/
def uptoReserve (s : State) : Except Fault State :=
  match phaseA s with
  | .error e => .error e
  | .ok s1 =>
    match writeToRegFile (updateDispatchQueueSize s1) with
    | .error e => .error e
    | .ok w1 => .ok (setToFired w1)

/-- The state in which `reserveScheduleSpots` is called in the iteration of
cycle 2 of the dependent-pair scenario. -/
def rawAtReserve : State :=
  match uptoReserve (rawState 1) with
  | .ok b => b
  | .error _ => rawState 1

/-- One iteration of the loop up to the call of `dispatchToSchedule`: the state
that call sees. -/
def uptoMove (s : State) : Except Fault State :=
  match sendToSU s.clock (sendToFinal s) with
  | .error e => .error e
  | .ok s2 =>
    match resolveBranches s2 with
    | .error e => .error e
    | .ok s3 => moveToExecute s.clock s3

/-- The state in which `dispatchToSchedule` is called in the iteration of cycle
3 of the dependent-pair scenario. -/
def rawAtMove : State :=
  match uptoMove (rawState 2) with
  | .ok b => b
  | .error _ => rawState 2


/-! ## Range of the counters of the prediction table -/

/-- Every cell of the counter table holds one of 0, 1, 2, 3. -/
def CounterInv (s : State) : Prop := ∀ r c, s.GSelect r c ≤ 3


/-! ## Where an unresolved mispredicted branch is -/

/-- The instructions in the state-update array and the retired ones are not
unresolved: `resolved` is not 0 for them. -/
def DoneInv (s : State) : Prop :=
  (∀ p ∈ supPtrs s.sup, (s.heap p).resolved ≠ 0) ∧
  ∀ r ∈ s.final_head, ∀ p : Nat, r.dest_tag = (p : Int) → (s.heap p).resolved ≠ 0

/-- Pointers in the dispatch queue, the scheduling queue, the functional units
and the state-update array. -/
def admittedPtrs (s : State) : List Nat :=
  s.dispatch_head.map (·.theInstr) ++ s.schedule_head.map (·.theInstr) ++ fuAll s ++
    supPtrs s.sup

/-- What the `assert` on the dispatch lock in `resolveBranches` relies on: a
mispredicted branch among the unresolved occupants of the state-update array is
the only one and the lock is taken. -/
def LockReady (s : State) : Prop :=
  ∀ p ∈ unresolvedPtrs s.heap s.sup, (s.heap p).correct_pred = 0 →
    s.stallDispatch = 1 ∧
      ∀ q ∈ unresolvedPtrs s.heap s.sup, (s.heap q).correct_pred = 0 → q = p


/-! ## Shape of the register file -/

/-- Every entry of the register file is ready with the sentinel tag `-5`, or
not ready (`ready = 0`) with a tag that is not negative. -/
def RegShape (rf : Int → Int × Int) : Prop :=
  ∀ r, rf r = (1, -5) ∨ ((rf r).1 = 0 ∧ 0 ≤ (rf r).2)


/-! ## Scheduling entries handed to a functional unit -/

/-- The instruction of every scheduling node with `waiting == 1` occupies a
functional unit. -/
def HandedInv (s : State) : Prop :=
  ∀ n ∈ s.schedule_head, n.waiting = 1 → n.theInstr ∈ fuAll s


/-! ## Scenarios for the lock holder and for the issue limit -/

/-- The trace of the held-lock scenario: the branch `0x100 0 5 -1 -1`, not
taken, then the branch `0x104 0 6 -1 -1`, taken. -/
def holdTrace : List TraceLine :=
  [TraceLine.branchLine 0x100 0 5 (-1) (-1) 0, TraceLine.branchLine 0x104 0 6 (-1) (-1) 1]

/-- The state of the held-lock scenario with the default configuration after
`n` iterations (the initial state if the run is shorter). -/
def holdState (n : Nat) : State :=
  (advance n (proc_init 128 3 2 1 2 4 holdTrace)).getD (proc_init 128 3 2 1 2 4 holdTrace)

/-- The number of slots of a pool that are empty or hold a chosen occupant, as
the specification words `available`. -/
def availableSlots (k : List (Option execute_node)) : Nat :=
  k.countP (fun x =>
    match x with
    | none => true
    | some n => decide (n.chosen = 1))

/-- The trace of the issue-limit scenario: two independent instructions of
class 0, `0x100 0 5 -1 -1` and `0x104 0 6 -1 -1`. -/
def issueTrace : List TraceLine :=
  [TraceLine.plain 0x100 0 5 (-1) (-1), TraceLine.plain 0x104 0 6 (-1) (-1)]

/-- The state of the issue-limit scenario, two independent instructions of
class 0 with one functional unit of each class (`k0 = k1 = k2 = 1`, `R = 2`,
`F = 4`), after `n` iterations (the initial state if the run is shorter). -/
def issueState (n : Nat) : State :=
  (advance n (proc_init 128 1 1 1 2 4 issueTrace)).getD
    (proc_init 128 1 1 1 2 4 issueTrace)

/-- The state in which `markForExecution` is called in the iteration of cycle 3
of the issue-limit scenario (the state at the top of it if the iteration aborts
before). -/
def issueAtMark : State :=
  match uptoSetToChosen (issueState 2) with
  | .ok c =>
    match setToChosen c with
    | .ok d => d
    | .error _ => issueState 2
  | .error _ => issueState 2


/-! # Verification -/

/-! ## Footprints: the globals each call can change -/

theorem sendToSU_shape {clock : Int} {s t : State} (h : sendToSU clock s = .ok t) :
    ∃ k0 k1 k2 hp u, t = { s with k_0 := k0, k_1 := k1, k_2 := k2, heap := hp, sup := u } := by
  unfold sendToSU at h
  split at h
  · cases h
  · split at h
    · cases h
    · split at h
      · cases h
      · cases h; exact ⟨_, _, _, _, _, rfl⟩

theorem updateGSelect_shape (a : Nat) (tk : Int) (s : State) :
    ∃ g, updateGSelect a tk s = { s with GSelect := g } := by
  unfold updateGSelect updateSmithCounter
  split <;> (try split) <;> exact ⟨_, rfl⟩

theorem updateGHR_shape (tk : Int) (s : State) :
    ∃ r, updateGHR tk s = { s with GHR := r } := by
  unfold updateGHR shiftTaken shiftNotTaken
  split
  · exact ⟨_, rfl⟩
  · split <;> exact ⟨_, rfl⟩

theorem resolveBranchesLoop_shape : ∀ (n : Nat) {s t : State},
    resolveBranchesLoop n s = .ok t →
    ∃ g r st hp, t = { s with GSelect := g, GHR := r, stallDispatch := st, heap := hp } := by
  intro n
  induction n with
  | zero => intro s t h; cases h; exact ⟨_, _, _, _, rfl⟩
  | succ n ih =>
    intro s t h
    rw [resolveBranchesLoop] at h
    simp only at h
    split at h
    · cases h
    · split at h
      · rename_i p _
        obtain ⟨g, e1⟩ := updateGSelect_shape (s.heap p).address (s.heap p).taken s
        rw [e1] at h
        obtain ⟨r, e2⟩ := updateGHR_shape (s.heap p).taken { s with GSelect := g }
        simp only at h
        rw [e2] at h
        split at h
        · split at h
          · obtain ⟨g', r', st', hp', rfl⟩ := ih h
            exact ⟨_, _, _, _, rfl⟩
          · cases h
        · obtain ⟨g', r', st', hp', rfl⟩ := ih h
          exact ⟨_, _, _, _, rfl⟩
      · cases h

theorem resolveBranches_shape {s t : State} (h : resolveBranches s = .ok t) :
    ∃ g r st hp, t = { s with GSelect := g, GHR := r, stallDispatch := st, heap := hp } := by
  unfold resolveBranches at h
  split at h
  · cases h
  · exact resolveBranchesLoop_shape _ h

theorem putInFU_shape {p : Nat} {fu clock : Int} {s t : State} (h : putInFU p fu clock s = .ok t) :
    ∃ k0 k1 k2, t = { s with heap := setInstr s.heap p { s.heap p with exec := clock },
                             k_0 := k0, k_1 := k1, k_2 := k2 } := by
  unfold putInFU at h
  simp only at h
  split at h
  · split at h
    · cases h; exact ⟨_, _, _, rfl⟩
    · cases h
  · split at h
    · split at h
      · cases h; exact ⟨_, _, _, rfl⟩
      · cases h
    · split at h
      · split at h
        · cases h; exact ⟨_, _, _, rfl⟩
        · cases h
      · cases h

theorem moveToExecuteLoop_shape (clock : Int) : ∀ (q : List schedule_node) {s t : State}
    {r : List schedule_node}, moveToExecuteLoop clock q s = .ok (r, t) →
    ∃ hp k0 k1 k2, t = { s with heap := hp, k_0 := k0, k_1 := k1, k_2 := k2 } := by
  intro q
  induction q with
  | nil => intro s t r h; cases h; exact ⟨_, _, _, _, rfl⟩
  | cons n rest ih =>
    intro s t r h
    rw [moveToExecuteLoop] at h
    split at h
    · split at h
      · cases h
      · rename_i s1 h1
        obtain ⟨k0, k1, k2, rfl⟩ := putInFU_shape h1
        split at h
        · cases h
        · rename_i r2 s2 h2
          cases h
          obtain ⟨hp, k0', k1', k2', rfl⟩ := ih h2
          exact ⟨_, _, _, _, rfl⟩
    · split at h
      · cases h
      · rename_i r2 s2 h2
        cases h
        exact ih h2

theorem moveToExecute_shape {clock : Int} {s t : State} (h : moveToExecute clock s = .ok t) :
    ∃ hp k0 k1 k2 q, t = { s with heap := hp, k_0 := k0, k_1 := k1, k_2 := k2,
                                  schedule_head := q } := by
  unfold moveToExecute at h
  split at h
  · cases h
  · rename_i q s1 h1
    cases h
    obtain ⟨hp, k0, k1, k2, rfl⟩ := moveToExecuteLoop_shape clock _ h1
    exact ⟨_, _, _, _, _, rfl⟩

theorem dispatchToScheduleLoop_shape (clock tm : Int) : ∀ (d : List dispatch_node) (count : Int)
    {s t : State} {r : List dispatch_node},
    dispatchToScheduleLoop clock tm d count s = .ok (r, t) →
    ∃ hp q sz, t = { s with heap := hp, schedule_head := q, schedule_size := sz } := by
  intro d
  induction d with
  | nil => intro count s t r h; cases h; exact ⟨_, _, _, rfl⟩
  | cons n rest ih =>
    intro count s t r h
    rw [dispatchToScheduleLoop] at h
    split at h
    · cases h; exact ⟨_, _, _, rfl⟩
    · split at h
      · simp only at h
        split at h
        · obtain ⟨hp, q, sz, rfl⟩ := ih _ h
          exact ⟨_, _, _, rfl⟩
        · split at h
          · obtain ⟨hp, q, sz, rfl⟩ := ih _ h
            exact ⟨_, _, _, rfl⟩
          · cases h
      · exact ih _ h

theorem dispatchToSchedule_shape {clock tm : Int} {s t : State}
    (h : dispatchToSchedule clock tm s = .ok t) :
    ∃ hp q sz d, t = { s with heap := hp, schedule_head := q, schedule_size := sz,
                              dispatch_head := d } := by
  unfold dispatchToSchedule at h
  split at h
  · cases h
  · rename_i d s1 h1
    cases h
    obtain ⟨hp, q, sz, rfl⟩ := dispatchToScheduleLoop_shape clock tm _ _ h1
    exact ⟨_, _, _, _, rfl⟩

theorem dispatch_EnqueueLoop_shape (cycle : Int) : ∀ (n : Nat) {s t : State},
    dispatch_EnqueueLoop cycle n s = .ok t →
    ∃ hp st sd d f, t = { s with heap := hp, myStats := st, stallDispatch := sd,
                                 dispatch_head := d, fetchQueue := f } := by
  intro n
  induction n with
  | zero => intro s t h; cases h; exact ⟨_, _, _, _, _, rfl⟩
  | succ n ih =>
    intro s t h
    rw [dispatch_EnqueueLoop] at h
    split at h
    · cases h; exact ⟨_, _, _, _, _, rfl⟩
    · split at h
      · simp only at h
        split at h
        · cases h
        · split at h
          · split at h
            · obtain ⟨hp, st, sd, d, f, rfl⟩ := ih h
              exact ⟨_, _, _, _, _, rfl⟩
            · cases h
          · obtain ⟨hp, st, sd, d, f, rfl⟩ := ih h
            exact ⟨_, _, _, _, _, rfl⟩
      · cases h; exact ⟨_, _, _, _, _, rfl⟩

theorem dispatch_Enqueue_shape {cycle : Int} {s t : State}
    (h : dispatch_Enqueue cycle s = .ok t) :
    ∃ hp st sd d f, t = { s with heap := hp, myStats := st, stallDispatch := sd,
                                 dispatch_head := d, fetchQueue := f } :=
  dispatch_EnqueueLoop_shape cycle _ h

theorem readTrace_shape : ∀ (f : Nat) (s : State),
    ∃ hp n fq tg tr, readTrace f s = { s with heap := hp, nalloc := n, fetchQueue := fq,
                                              tag := tg, trace := tr } := by
  intro f
  induction f with
  | zero => intro s; exact ⟨_, _, _, _, _, rfl⟩
  | succ f ih =>
    intro s
    rw [readTrace]
    split
    · exact ih s
    · obtain ⟨hp, n, fq, tg, tr, e⟩ := ih { s with trace := _ }
      rw [e]; exact ⟨_, _, _, _, _, rfl⟩
    · obtain ⟨hp, n, fq, tg, tr, e⟩ := ih (addToFetchQueue _ { s with trace := _ })
      rw [e]; exact ⟨_, _, _, _, _, rfl⟩
    · obtain ⟨hp, n, fq, tg, tr, e⟩ := ih (addToFetchQueue _ { s with trace := _ })
      rw [e]; exact ⟨_, _, _, _, _, rfl⟩

theorem updateDispatchQueueSize_shape (s : State) :
    ∃ st, updateDispatchQueueSize s = { s with myStats := st } := by
  unfold updateDispatchQueueSize
  split <;> exact ⟨_, rfl⟩

theorem writeToRegFile_shape {s t : State} (h : writeToRegFile s = .ok t) :
    ∃ rf, t = { s with reg_File := rf } := by
  unfold writeToRegFile at h
  split at h
  · cases h
  · cases h; exact ⟨_, rfl⟩

theorem reserveScheduleSpots_shape {s t : State} (h : reserveScheduleSpots s = .ok t) :
    ∃ d c, t = { s with dispatch_head := d, totalMarked := c } := by
  unfold reserveScheduleSpots at h
  split at h
  · cases h
  · cases h; exact ⟨_, _, rfl⟩

theorem readUpdateRegFile_shape {tm : Int} {s t : State} (h : readUpdateRegFile tm s = .ok t) :
    ∃ hp rf, t = { s with heap := hp, reg_File := rf } := by
  unfold readUpdateRegFile at h
  split at h
  · cases h
  · cases h; exact ⟨_, _, rfl⟩

theorem removeAllSUFromSched_shape {s t : State} (h : removeAllSUFromSched s = .ok t) :
    ∃ q sz, t = { s with schedule_head := q, schedule_size := sz } := by
  unfold removeAllSUFromSched at h
  split at h
  · cases h
  · cases h; exact ⟨_, _, rfl⟩

theorem setToChosenLoop_shape : ∀ (d p : Nat) {s t : State},
    setToChosenLoop d p s = .ok t → ∃ k0 k1 k2, t = { s with k_0 := k0, k_1 := k1, k_2 := k2 } := by
  intro d
  induction d with
  | zero => intro p s t h; rw [setToChosenLoop] at h; cases h; exact ⟨_, _, _, rfl⟩
  | succ d ih =>
    intro p s t h
    cases p with
    | zero => rw [setToChosenLoop] at h; cases h; exact ⟨_, _, _, rfl⟩
    | succ p =>
      rw [setToChosenLoop] at h
      split at h
      · cases h
      · split at h
        · obtain ⟨k0, k1, k2, rfl⟩ := ih _ h; exact ⟨_, _, _, rfl⟩
        · split at h
          · obtain ⟨k0, k1, k2, rfl⟩ := ih _ h; exact ⟨_, _, _, rfl⟩
          · obtain ⟨k0, k1, k2, rfl⟩ := ih _ h; exact ⟨_, _, _, rfl⟩

theorem setToChosen_shape {s t : State} (h : setToChosen s = .ok t) :
    ∃ k0 k1 k2, t = { s with k_0 := k0, k_1 := k1, k_2 := k2 } :=
  setToChosenLoop_shape _ _ h

theorem markScheduleEntries_shape (o : Int) (c : Char) (s : State) :
    ∃ q, markScheduleEntries o c s = { s with schedule_head := q } := by
  unfold markScheduleEntries
  split
  · exact ⟨_, rfl⟩
  · split
    · exact ⟨_, rfl⟩
    · split <;> exact ⟨_, rfl⟩

theorem markForExecution_shape (s : State) :
    ∃ q, markForExecution s = { s with schedule_head := q } := by
  unfold markForExecution
  simp only
  obtain ⟨q1, e1⟩ := markScheduleEntries_shape (numSpotsAvailable 'j' s) 'j' s
  rw [e1]
  obtain ⟨q2, e2⟩ := markScheduleEntries_shape (numSpotsAvailable 'k' s) 'k' { s with schedule_head := q1 }
  rw [e2]
  obtain ⟨q3, e3⟩ := markScheduleEntries_shape (numSpotsAvailable 'l' s) 'l' { s with schedule_head := q2 }
  rw [e3]
  exact ⟨_, rfl⟩

/-! ## One iteration, call by call -/

theorem phaseA_ok {s t : State} (h : phaseA s = .ok t) :
    ∃ s2 s3 s4 s5 s6, sendToSU s.clock (sendToFinal s) = .ok s2 ∧ resolveBranches s2 = .ok s3 ∧
      moveToExecute s.clock s3 = .ok s4 ∧ dispatchToSchedule s.clock s.totalMarked s4 = .ok s5 ∧
      dispatch_Enqueue s.clock s5 = .ok s6 ∧ t = readTrace s6.curr_Config.fetch_rate s6 := by
  unfold phaseA at h
  split at h
  · cases h
  · split at h
    · cases h
    · split at h
      · cases h
      · split at h
        · cases h
        · split at h
          · cases h
          · cases h
            exact ⟨_, _, _, _, _, by assumption, by assumption, by assumption, by assumption,
              by assumption, rfl⟩

theorem phaseC_ok {s t : State} (h : phaseC s = .ok t) :
    ∃ s1 s3 s4 s6 s7, writeToRegFile s = .ok s1 ∧ reserveScheduleSpots (setToFired s1) = .ok s3 ∧
      readUpdateRegFile s3.totalMarked s3 = .ok s4 ∧
      removeAllSUFromSched (broadcastToSched s4) = .ok s6 ∧ setToChosen s6 = .ok s7 ∧
      t = { markForExecution s7 with clock := (markForExecution s7).clock + 1 } := by
  unfold phaseC at h
  split at h
  · cases h
  · split at h
    · cases h
    · split at h
      · cases h
      · split at h
        · cases h
        · split at h
          · cases h
          · cases h
            exact ⟨_, _, _, _, _, by assumption, by assumption, by assumption, by assumption,
              by assumption, rfl⟩

theorem cycle_ok {s t : State} (h : cycle s = .ok t) :
    ∃ s1, phaseA s = .ok s1 ∧ phaseC (updateDispatchQueueSize s1) = .ok t := by
  unfold cycle at h
  split at h
  · cases h
  · exact ⟨_, by assumption, h⟩

/-! ## Lists of scheduling nodes: the calls that only touch flags -/

theorem moveToExecuteLoop_map (clock : Int) : ∀ (q : List schedule_node) {s t : State}
    {r : List schedule_node}, moveToExecuteLoop clock q s = .ok (r, t) →
    r = q.map (fun n => if n.sendToExecute = 1 ∧ n.waiting = 0 then { n with waiting := 1 } else n) := by
  intro q
  induction q with
  | nil => intro s t r h; cases h; rfl
  | cons n rest ih =>
    intro s t r h
    rw [moveToExecuteLoop] at h
    split at h
    · rename_i hc
      split at h
      · cases h
      · split at h
        · cases h
        · rename_i r2 s2 h2
          cases h
          simp [hc, ih h2]
    · rename_i hc
      split at h
      · cases h
      · rename_i r2 s2 h2
        cases h
        simp [hc, ih h2]

theorem setToFiredLoop_ptrs (heap : Nat → instr) (q : List schedule_node) :
    (setToFiredLoop heap q).map (·.theInstr) = q.map (·.theInstr) := by
  induction q with
  | nil => rfl
  | cons n rest ih => rw [setToFiredLoop]; split <;> simp [ih]

theorem broadcastNode_ptr (u : Nat) (n : schedule_node) (heap : Nat → instr) :
    (broadcastNode u n heap).1.theInstr = n.theInstr := by
  unfold broadcastNode; split
  · split <;> rfl
  · rfl

theorem broadcastPass_ptrs (u : Nat) : ∀ (q : List schedule_node) (heap : Nat → instr),
    (broadcastPass u q heap).1.map (·.theInstr) = q.map (·.theInstr) := by
  intro q
  induction q with
  | nil => intro heap; rfl
  | cons n rest ih => intro heap; simp [broadcastPass, ih, broadcastNode_ptr]

theorem broadcastToSchedLoop_ptrs : ∀ (u : List (Option Nat)) (q : List schedule_node)
    (heap : Nat → instr), (broadcastToSchedLoop u q heap).1.map (·.theInstr) = q.map (·.theInstr) := by
  intro u
  induction u with
  | nil => intro q heap; rfl
  | cons x rest ih =>
    intro q heap
    cases x with
    | none => simpa [broadcastToSchedLoop] using ih q heap
    | some p => simp [broadcastToSchedLoop, ih, broadcastPass_ptrs]

theorem markScheduleEntriesLoop_ptrs (heap : Nat → instr) (f1 f2 : Int) :
    ∀ (q : List schedule_node) (o : Int),
    (markScheduleEntriesLoop heap f1 f2 q o).map (·.theInstr) = q.map (·.theInstr) := by
  intro q
  induction q with
  | nil => intro o; rfl
  | cons n rest ih =>
    intro o; rw [markScheduleEntriesLoop]
    split
    · split <;> simp [ih]
    · rfl

theorem markScheduleEntries_ptrs (o : Int) (c : Char) (s : State) :
    (markScheduleEntries o c s).schedule_head.map (·.theInstr) = s.schedule_head.map (·.theInstr) := by
  unfold markScheduleEntries
  split
  · exact markScheduleEntriesLoop_ptrs _ _ _ _ _
  · split
    · exact markScheduleEntriesLoop_ptrs _ _ _ _ _
    · split
      · exact markScheduleEntriesLoop_ptrs _ _ _ _ _
      · rfl

theorem markForExecution_ptrs (s : State) :
    (markForExecution s).schedule_head.map (·.theInstr) = s.schedule_head.map (·.theInstr) := by
  unfold markForExecution
  simp only [markScheduleEntries_ptrs]

theorem length_eq_of_ptrs {q r : List schedule_node}
    (h : r.map (·.theInstr) = q.map (·.theInstr)) : r.length = q.length := by
  simpa using congrArg List.length h

/-! ## Which call can raise which fault -/

theorem sendToSUPool_error (clock : Int) : ∀ (k : List (Option execute_node)) (hp : Nat → instr)
    (u : List (Option Nat)) (i : Nat) {e : Fault},
    sendToSUPool clock k hp u i = .error e → e = Fault.supOverflow := by
  intro k
  induction k with
  | nil => intro hp u i e h; cases h
  | cons x rest ih =>
    intro hp u i e h
    cases x with
    | none =>
      rw [sendToSUPool] at h
      split at h
      · rename_i h1; cases h; exact ih _ _ _ h1
      · cases h
    | some n =>
      rw [sendToSUPool] at h
      split at h
      · split at h
        · split at h
          · rename_i h1; cases h; exact ih _ _ _ h1
          · cases h
        · cases h; rfl
      · split at h
        · rename_i h1; cases h; exact ih _ _ _ h1
        · cases h

theorem sendToSU_error {clock : Int} {s : State} {e : Fault}
    (h : sendToSU clock s = .error e) : e = Fault.supOverflow := by
  unfold sendToSU at h
  split at h
  · rename_i h1; cases h; exact sendToSUPool_error _ _ _ _ _ h1
  · split at h
    · rename_i h1; cases h; exact sendToSUPool_error _ _ _ _ _ h1
    · split at h
      · rename_i h1; cases h; exact sendToSUPool_error _ _ _ _ _ h1
      · cases h

theorem findNumUnresolved_error (hp : Nat → instr) : ∀ (u : List (Option Nat)) {e : Fault},
    findNumUnresolved hp u = .error e → e = Fault.assertUnresolvedIsBranch := by
  intro u
  induction u with
  | nil => intro e h; cases h
  | cons x rest ih =>
    intro e h
    cases x with
    | none => rw [findNumUnresolved] at h; exact ih h
    | some p =>
      rw [findNumUnresolved] at h
      split at h
      · split at h
        · split at h
          · rename_i h1; cases h; exact ih h1
          · cases h
        · cases h; rfl
      · exact ih h

theorem resolveBranchesLoop_error : ∀ (n : Nat) {s : State} {e : Fault},
    resolveBranchesLoop n s = .error e → e = Fault.resolveNoIndex ∨ e = Fault.assertStall := by
  intro n
  induction n with
  | zero => intro s e h; cases h
  | succ n ih =>
    intro s e h
    rw [resolveBranchesLoop] at h
    simp only at h
    split at h
    · cases h; exact Or.inl rfl
    · split at h
      · split at h
        · split at h
          · exact ih h
          · cases h; exact Or.inr rfl
        · exact ih h
      · cases h; exact Or.inl rfl

theorem resolveBranches_error {s : State} {e : Fault} (h : resolveBranches s = .error e) :
    e = Fault.assertUnresolvedIsBranch ∨ e = Fault.resolveNoIndex ∨ e = Fault.assertStall := by
  unfold resolveBranches at h
  split at h
  · rename_i h1; cases h; exact Or.inl (findNumUnresolved_error _ _ h1)
  · exact Or.inr (resolveBranchesLoop_error _ h)

theorem putInFU_error {p : Nat} {fu clock : Int} {s : State} {e : Fault}
    (h : putInFU p fu clock s = .error e) :
    e = Fault.putInFUBadClass ∨ e = Fault.assertFUSlot := by
  unfold putInFU at h
  simp only at h
  split at h
  · split at h
    · cases h
    · cases h; exact Or.inr rfl
  · split at h
    · split at h
      · cases h
      · cases h; exact Or.inr rfl
    · split at h
      · split at h
        · cases h
        · cases h; exact Or.inr rfl
      · cases h; exact Or.inl rfl

theorem moveToExecuteLoop_error (clock : Int) : ∀ (q : List schedule_node) {s : State} {e : Fault},
    moveToExecuteLoop clock q s = .error e →
    e = Fault.putInFUBadClass ∨ e = Fault.assertFUSlot := by
  intro q
  induction q with
  | nil => intro s e h; cases h
  | cons n rest ih =>
    intro s e h
    rw [moveToExecuteLoop] at h
    split at h
    · split at h
      · rename_i h1; cases h; exact putInFU_error h1
      · split at h
        · rename_i h1; cases h; exact ih h1
        · cases h
    · split at h
      · rename_i h1; cases h; exact ih h1
      · cases h

theorem moveToExecute_error {clock : Int} {s : State} {e : Fault}
    (h : moveToExecute clock s = .error e) :
    e = Fault.putInFUBadClass ∨ e = Fault.assertFUSlot := by
  unfold moveToExecute at h
  split at h
  · rename_i h1; cases h; exact moveToExecuteLoop_error _ _ h1
  · cases h

theorem dispatchToScheduleLoop_error (clock tm : Int) : ∀ (d : List dispatch_node) (count : Int)
    {s : State} {e : Fault},
    dispatchToScheduleLoop clock tm d count s = .error e → e = Fault.assertSchedSize := by
  intro d
  induction d with
  | nil => intro count s e h; cases h
  | cons n rest ih =>
    intro count s e h
    rw [dispatchToScheduleLoop] at h
    split at h
    · cases h
    · split at h
      · simp only at h
        split at h
        · exact ih _ h
        · split at h
          · exact ih _ h
          · cases h; rfl
      · exact ih _ h

theorem dispatchToSchedule_error {clock tm : Int} {s : State} {e : Fault}
    (h : dispatchToSchedule clock tm s = .error e) : e = Fault.assertSchedSize := by
  unfold dispatchToSchedule at h
  split at h
  · rename_i h1; cases h; exact dispatchToScheduleLoop_error _ _ _ _ h1
  · cases h

theorem getPrediction_error {a : Nat} {s : State} {e : Fault}
    (h : getPrediction a s = .error e) : e = Fault.assertPrediction := by
  unfold getPrediction at h
  split at h <;> cases h
  rfl

theorem predictBranch_error {i : instr} {s : State} {e : Fault}
    (h : predictBranch i s = .error e) : e = Fault.assertPrediction := by
  unfold predictBranch at h
  split at h
  · split at h
    · rename_i h1; cases h; exact getPrediction_error h1
    · split at h <;> cases h
  · cases h

theorem dispatch_EnqueueLoop_error (cycle : Int) : ∀ (n : Nat) {s : State} {e : Fault},
    dispatch_EnqueueLoop cycle n s = .error e →
    e = Fault.assertPrediction ∨ e = Fault.assertMispredIsBranch := by
  intro n
  induction n with
  | zero => intro s e h; cases h
  | succ n ih =>
    intro s e h
    rw [dispatch_EnqueueLoop] at h
    split at h
    · cases h
    · split at h
      · split at h
        · rename_i h1; cases h; exact Or.inl (predictBranch_error h1)
        · split at h
          · split at h
            · exact ih h
            · cases h; exact Or.inr rfl
          · exact ih h
      · cases h

theorem writeToRegFileLoop_error (hp : Nat → instr) (nr : Nat) : ∀ (u : List (Option Nat))
    (rf : Int → Int × Int) {e : Fault}, writeToRegFileLoop hp nr u rf = .error e →
    e = Fault.regIndex ∨ e = Fault.assertWriteNotReady := by
  intro u
  induction u with
  | nil => intro rf e h; cases h
  | cons x rest ih =>
    intro rf e h
    cases x with
    | none => rw [writeToRegFileLoop] at h; exact ih _ h
    | some p =>
      rw [writeToRegFileLoop] at h
      split at h
      · exact ih _ h
      · split at h
        · split at h
          · split at h
            · exact ih _ h
            · cases h; exact Or.inr rfl
          · exact ih _ h
        · cases h; exact Or.inl rfl

theorem writeToRegFile_error {s : State} {e : Fault} (h : writeToRegFile s = .error e) :
    e = Fault.regIndex ∨ e = Fault.assertWriteNotReady := by
  unfold writeToRegFile at h
  split at h
  · rename_i h1; cases h; exact writeToRegFileLoop_error _ _ _ _ h1
  · cases h

theorem reserveScheduleSpotsLoop_error : ∀ (d : List dispatch_node) (a c : Int) {e : Fault},
    reserveScheduleSpotsLoop d a c = .error e → e = Fault.assertUnmarked := by
  intro d
  induction d with
  | nil => intro a c e h; cases h
  | cons x rest ih =>
    intro a c e h
    rw [reserveScheduleSpotsLoop] at h
    split at h
    · split at h
      · split at h
        · rename_i h1; cases h; exact ih _ _ h1
        · cases h
      · cases h; rfl
    · cases h

theorem reserveScheduleSpots_error {s : State} {e : Fault}
    (h : reserveScheduleSpots s = .error e) : e = Fault.assertUnmarked := by
  unfold reserveScheduleSpots at h
  split at h
  · rename_i h1; cases h; exact reserveScheduleSpotsLoop_error _ _ _ h1
  · cases h

theorem readSource_error {rf : Int → Int × Int} {nr : Nat} {r : Int} {e : Fault}
    (h : readSource rf nr r = .error e) :
    e = Fault.regIndex ∨ e = Fault.assertReadyTag ∨ e = Fault.assertNotReadyTag := by
  unfold readSource at h
  split at h
  · cases h
  · split at h
    · split at h
      · split at h
        · cases h
        · cases h; exact Or.inr (Or.inl rfl)
      · split at h
        · cases h
        · cases h; exact Or.inr (Or.inr rfl)
    · cases h; exact Or.inl rfl

theorem readUpdateRegFileLoop_error (nr : Nat) (tm : Int) : ∀ (d : List dispatch_node) (c : Int)
    (hp : Nat → instr) (rf : Int → Int × Int) {e : Fault},
    readUpdateRegFileLoop nr tm d c hp rf = .error e →
    e = Fault.regIndex ∨ e = Fault.assertReadyTag ∨ e = Fault.assertNotReadyTag := by
  intro d
  induction d with
  | nil => intro c hp rf e h; cases h
  | cons x rest ih =>
    intro c hp rf e h
    rw [readUpdateRegFileLoop] at h
    split at h
    · cases h
    · split at h
      · simp only at h
        split at h
        · rename_i h1; cases h; exact readSource_error h1
        · split at h
          · rename_i h1; cases h; exact readSource_error h1
          · split at h
            · exact ih _ _ _ h
            · split at h
              · exact ih _ _ _ h
              · cases h; exact Or.inl rfl
      · exact ih _ _ _ h

theorem readUpdateRegFile_error {tm : Int} {s : State} {e : Fault}
    (h : readUpdateRegFile tm s = .error e) :
    e = Fault.regIndex ∨ e = Fault.assertReadyTag ∨ e = Fault.assertNotReadyTag := by
  unfold readUpdateRegFile at h
  split at h
  · rename_i h1; cases h; exact readUpdateRegFileLoop_error _ _ _ _ _ _ h1
  · cases h

theorem removeFromSchedWalk_error (p : Nat) : ∀ (q : List schedule_node) (n : schedule_node)
    {e : Fault}, removeFromSchedWalk p n q = .error e →
    e = Fault.assertRemoveFlags ∨ e = Fault.assertRemoveFound := by
  intro q
  induction q with
  | nil =>
    intro n e h
    rw [removeFromSchedWalk] at h
    split at h
    · split at h
      · cases h
      · cases h; exact Or.inl rfl
    · cases h; exact Or.inr rfl
  | cons m rest ih =>
    intro n e h
    rw [removeFromSchedWalk] at h
    split at h
    · split at h
      · cases h
      · cases h; exact Or.inl rfl
    · split at h
      · rename_i h1; cases h; exact ih _ h1
      · cases h

theorem removeFromSched_error {p : Nat} {q : List schedule_node} {e : Fault}
    (h : removeFromSched p q = .error e) :
    e = Fault.removeEmptySched ∨ e = Fault.assertRemoveFlags ∨ e = Fault.assertRemoveFound := by
  cases q with
  | nil => cases h; exact Or.inl rfl
  | cons n rest =>
    rw [removeFromSched] at h
    split at h
    · split at h
      · cases h
      · cases h; exact Or.inr (Or.inl rfl)
    · exact Or.inr (removeFromSchedWalk_error _ _ _ h)

theorem removeAllSUFromSchedLoop_error : ∀ (u : List (Option Nat)) (q : List schedule_node)
    (sz : Int) {e : Fault}, removeAllSUFromSchedLoop u q sz = .error e →
    e = Fault.removeEmptySched ∨ e = Fault.assertRemoveFlags ∨ e = Fault.assertRemoveFound := by
  intro u
  induction u with
  | nil => intro q sz e h; cases h
  | cons x rest ih =>
    intro q sz e h
    cases x with
    | none => rw [removeAllSUFromSchedLoop] at h; exact ih _ _ h
    | some p =>
      rw [removeAllSUFromSchedLoop] at h
      split at h
      · rename_i h1; cases h; exact removeFromSched_error h1
      · exact ih _ _ h

theorem removeAllSUFromSched_error {s : State} {e : Fault}
    (h : removeAllSUFromSched s = .error e) :
    e = Fault.removeEmptySched ∨ e = Fault.assertRemoveFlags ∨ e = Fault.assertRemoveFound := by
  unfold removeAllSUFromSched at h
  split at h
  · rename_i h1; cases h; exact removeAllSUFromSchedLoop_error _ _ _ h1
  · cases h

theorem setToChosenLoop_error : ∀ (d p : Nat) {s : State} {e : Fault},
    setToChosenLoop d p s = .error e → e = Fault.chosenNoNode := by
  intro d
  induction d with
  | zero => intro p s e h; rw [setToChosenLoop] at h; cases h
  | succ d ih =>
    intro p s e h
    cases p with
    | zero => rw [setToChosenLoop] at h; cases h
    | succ p =>
      rw [setToChosenLoop] at h
      split at h
      · cases h; rfl
      · split at h
        · exact ih _ h
        · split at h <;> exact ih _ h

/-- An aborted iteration aborts in exactly one of its fallible calls, after the
earlier ones succeeded. -/
theorem cycle_error {s : State} {e : Fault} (h : cycle s = .error e) :
    sendToSU s.clock (sendToFinal s) = .error e ∨
    (∃ s2, sendToSU s.clock (sendToFinal s) = .ok s2 ∧ resolveBranches s2 = .error e) ∨
    (∃ s2 s3, sendToSU s.clock (sendToFinal s) = .ok s2 ∧ resolveBranches s2 = .ok s3 ∧
      moveToExecute s.clock s3 = .error e) ∨
    (∃ s2 s3 s4, sendToSU s.clock (sendToFinal s) = .ok s2 ∧ resolveBranches s2 = .ok s3 ∧
      moveToExecute s.clock s3 = .ok s4 ∧
      dispatchToSchedule s.clock s.totalMarked s4 = .error e) ∨
    (∃ s2 s3 s4 s5, sendToSU s.clock (sendToFinal s) = .ok s2 ∧ resolveBranches s2 = .ok s3 ∧
      moveToExecute s.clock s3 = .ok s4 ∧ dispatchToSchedule s.clock s.totalMarked s4 = .ok s5 ∧
      dispatch_Enqueue s.clock s5 = .error e) ∨
    (∃ s1, phaseA s = .ok s1 ∧ phaseC (updateDispatchQueueSize s1) = .error e) := by
  unfold cycle at h
  split at h
  · rename_i e1 h1
    cases h
    unfold phaseA at h1
    split at h1
    · rename_i h2; cases h1; exact Or.inl h2
    · rename_i s2 h2
      split at h1
      · rename_i h3; cases h1; exact Or.inr (Or.inl ⟨_, h2, h3⟩)
      · rename_i s3 h3
        split at h1
        · rename_i h4; cases h1; exact Or.inr (Or.inr (Or.inl ⟨_, _, h2, h3, h4⟩))
        · rename_i s4 h4
          split at h1
          · rename_i h5; cases h1
            exact Or.inr (Or.inr (Or.inr (Or.inl ⟨_, _, _, h2, h3, h4, h5⟩)))
          · rename_i s5 h5
            split at h1
            · rename_i h6; cases h1
              exact Or.inr (Or.inr (Or.inr (Or.inr (Or.inl ⟨_, _, _, _, h2, h3, h4, h5, h6⟩))))
            · cases h1
  · rename_i s1 h1
    exact Or.inr (Or.inr (Or.inr (Or.inr (Or.inr ⟨s1, h1, h⟩))))

theorem phaseC_error {s : State} {e : Fault} (h : phaseC s = .error e) :
    writeToRegFile s = .error e ∨
    (∃ s1, writeToRegFile s = .ok s1 ∧ reserveScheduleSpots (setToFired s1) = .error e) ∨
    (∃ s1 s3, writeToRegFile s = .ok s1 ∧ reserveScheduleSpots (setToFired s1) = .ok s3 ∧
      readUpdateRegFile s3.totalMarked s3 = .error e) ∨
    (∃ s1 s3 s4, writeToRegFile s = .ok s1 ∧ reserveScheduleSpots (setToFired s1) = .ok s3 ∧
      readUpdateRegFile s3.totalMarked s3 = .ok s4 ∧
      removeAllSUFromSched (broadcastToSched s4) = .error e) ∨
    (∃ s1 s3 s4 s6, writeToRegFile s = .ok s1 ∧ reserveScheduleSpots (setToFired s1) = .ok s3 ∧
      readUpdateRegFile s3.totalMarked s3 = .ok s4 ∧
      removeAllSUFromSched (broadcastToSched s4) = .ok s6 ∧ setToChosen s6 = .error e) := by
  unfold phaseC at h
  split at h
  · rename_i h1; cases h; exact Or.inl h1
  · rename_i s1 h1
    split at h
    · rename_i h2; cases h; exact Or.inr (Or.inl ⟨_, h1, h2⟩)
    · rename_i s3 h3
      split at h
      · rename_i h4; cases h; exact Or.inr (Or.inr (Or.inl ⟨_, _, h1, h3, h4⟩))
      · rename_i s4 h4
        split at h
        · rename_i h5; cases h
          exact Or.inr (Or.inr (Or.inr (Or.inl ⟨_, _, _, h1, h3, h4, h5⟩)))
        · rename_i s6 h6
          split at h
          · rename_i h7; cases h
            exact Or.inr (Or.inr (Or.inr (Or.inr ⟨_, _, _, _, h1, h3, h4, h6, h7⟩)))
          · cases h

/-! ## `dispatchToSchedule` -/

/-- What the loop of `dispatchToSchedule` does: it visits a prefix of the
dispatch queue, frees it, and appends its marked nodes to the scheduling queue. -/
theorem dispatchToScheduleLoop_spec (clock tm : Int) : ∀ (d : List dispatch_node) (count : Int)
    {s t : State} {r : List dispatch_node},
    dispatchToScheduleLoop clock tm d count s = .ok (r, t) →
    ∃ visited, d = visited ++ r ∧
      t.schedule_head = s.schedule_head ++ (markedNodes visited).map newScheduleNode ∧
      t.schedule_size = s.schedule_size + ((markedNodes visited).length : Int) ∧
      t.heap = stampSched clock ((markedNodes visited).map (·.theInstr)) s.heap ∧
      (count ≤ tm → count + ((markedNodes visited).length : Int) ≤ tm) ∧
      (r ≠ [] → count + ((markedNodes visited).length : Int) = tm) := by
  intro d
  induction d with
  | nil =>
    intro count s t r h; cases h
    exact ⟨[], rfl, by simp [markedNodes], by simp [markedNodes], rfl, by simp [markedNodes],
      by simp⟩
  | cons n rest ih =>
    intro count s t r h
    rw [dispatchToScheduleLoop] at h
    split at h
    · rename_i hc
      cases h
      exact ⟨[], rfl, by simp [markedNodes], by simp [markedNodes], rfl, by simp [markedNodes],
        by simp [markedNodes, hc]⟩
    · rename_i hc
      split at h
      · rename_i hm
        simp only at h
        split at h
        · rename_i he
          obtain ⟨v, hv, hq, hsz, hh, hle, heq⟩ := ih _ h
          have he' : s.schedule_head = [] := by simpa using he
          refine ⟨n :: v, by simp [hv], ?_, ?_, ?_, ?_, ?_⟩
          · simp [hq, markedNodes, hm, he', newScheduleNode]
          · simp [hsz, markedNodes, hm]; ring
          · simp [hh, markedNodes, hm, stampSched]
          · intro hle'; have := hle (by omega); simp [markedNodes, hm] at this ⊢; omega
          · intro hr; have := heq hr; simp [markedNodes, hm] at this ⊢; omega
        · split at h
          · obtain ⟨v, hv, hq, hsz, hh, hle, heq⟩ := ih _ h
            refine ⟨n :: v, by simp [hv], ?_, ?_, ?_, ?_, ?_⟩
            · simp [hq, markedNodes, hm, newScheduleNode]
            · simp [hsz, markedNodes, hm]; ring
            · simp [hh, markedNodes, hm, stampSched]
            · intro hle'; have := hle (by omega); simp [markedNodes, hm] at this ⊢; omega
            · intro hr; have := heq hr; simp [markedNodes, hm] at this ⊢; omega
          · cases h
      · rename_i hm
        obtain ⟨v, hv, hq, hsz, hh, hle, heq⟩ := ih _ h
        refine ⟨n :: v, by simp [hv], ?_, ?_, ?_, ?_, ?_⟩
        · simp [hq, markedNodes, hm]
        · simp [hsz, markedNodes, hm]
        · simp [hh, markedNodes, hm]
        · intro hle'; have := hle hle'; simp [markedNodes, hm] at this ⊢; omega
        · intro hr; have := heq hr; simp [markedNodes, hm] at this ⊢; omega

/-- The `assert` of `dispatchToSchedule` holds whenever the entries still to be
moved fit into the scheduling queue. -/
theorem dispatchToScheduleLoop_total (clock tm : Int) : ∀ (d : List dispatch_node) (count : Int)
    (s : State), count ≤ tm →
    s.schedule_size + (tm - count) ≤ (s.curr_Config.max_sched_queue : Int) →
    ∃ r t, dispatchToScheduleLoop clock tm d count s = .ok (r, t) := by
  intro d
  induction d with
  | nil => intro count s _ _; exact ⟨_, _, rfl⟩
  | cons n rest ih =>
    intro count s hc hs
    rw [dispatchToScheduleLoop]
    split
    · exact ⟨_, _, rfl⟩
    · rename_i hne
      have hlt : count < tm := lt_of_le_of_ne hc hne
      split
      · simp only
        split
        · exact ih _ _ (by omega) (by simp only; omega)
        · split
          · exact ih _ _ (by omega) (by simp only; omega)
          · rename_i hx; exact absurd (by omega) hx
      · exact ih _ _ hc hs

/-! ## `reserveScheduleSpots` -/

/-- The loop of `reserveScheduleSpots` marks the first `numAvailSpots` nodes of
the dispatch queue (all of it when shorter), which must be unmarked. -/
theorem reserveScheduleSpotsLoop_spec : ∀ (d : List dispatch_node) (a c : Int)
    {r : List dispatch_node} {c' : Int},
    reserveScheduleSpotsLoop d a c = .ok (r, c') →
    r = (d.take a.toNat).map (fun x => { x with mark_for_move := 1 }) ++ d.drop a.toNat ∧
      c' = c + ((d.take a.toNat).length : Int) ∧
      ∀ x ∈ d.take a.toNat, x.mark_for_move = 0 := by
  intro d
  induction d with
  | nil => intro a c r c' h; cases h; simp
  | cons x rest ih =>
    intro a c r c' h
    rw [reserveScheduleSpotsLoop] at h
    split at h
    · rename_i ha
      split at h
      · rename_i hx
        split at h
        · cases h
        · rename_i r2 c2 h2
          cases h
          obtain ⟨e1, e2, e3⟩ := ih _ _ h2
          obtain ⟨k, hk⟩ : ∃ k : Nat, a.toNat = k + 1 := ⟨a.toNat - 1, by omega⟩
          have hk' : (a - 1).toNat = k := by omega
          rw [hk'] at e1 e2 e3
          rw [hk]
          refine ⟨by simp [e1], by simp [e2]; ring, ?_⟩
          intro y hy
          simp only [List.take_succ_cons, List.mem_cons] at hy
          rcases hy with rfl | hy
          · exact hx
          · exact e3 y hy
      · cases h
    · rename_i ha
      cases h
      have : a.toNat = 0 := by omega
      simp [this]

theorem reserveScheduleSpots_spec {s t : State} (h : reserveScheduleSpots s = .ok t) :
    t.dispatch_head =
        (s.dispatch_head.take ((s.curr_Config.max_sched_queue : Int) - s.schedule_size).toNat).map
          (fun x => { x with mark_for_move := 1 }) ++
        s.dispatch_head.drop ((s.curr_Config.max_sched_queue : Int) - s.schedule_size).toNat ∧
      t.totalMarked =
        ((s.dispatch_head.take
          ((s.curr_Config.max_sched_queue : Int) - s.schedule_size).toNat).length : Int) ∧
      ∀ x ∈ s.dispatch_head.take ((s.curr_Config.max_sched_queue : Int) - s.schedule_size).toNat,
        x.mark_for_move = 0 := by
  unfold reserveScheduleSpots at h
  split at h
  · cases h
  · rename_i d c h1
    cases h
    obtain ⟨e1, e2, e3⟩ := reserveScheduleSpotsLoop_spec _ _ _ h1
    exact ⟨e1, by simpa using e2, e3⟩

/-! ## `removeFromSched` -/

theorem removeFromSchedWalk_spec (p : Nat) : ∀ (q : List schedule_node) (n : schedule_node)
    {r : List schedule_node}, removeFromSchedWalk p n q = .ok r →
    ∃ a m b, n :: q = a ++ m :: b ∧ r = a ++ b ∧ m.theInstr = p ∧ removeFlagsOk m = true ∧
      ∀ x ∈ a, x.theInstr ≠ p := by
  intro q
  induction q with
  | nil =>
    intro n r h
    rw [removeFromSchedWalk] at h
    split at h
    · rename_i hp
      split at h
      · rename_i hf; cases h; exact ⟨[], n, [], rfl, rfl, hp, hf, by simp⟩
      · cases h
    · cases h
  | cons m rest ih =>
    intro n r h
    rw [removeFromSchedWalk] at h
    split at h
    · rename_i hp
      split at h
      · rename_i hf; cases h; exact ⟨[], n, m :: rest, rfl, rfl, hp, hf, by simp⟩
      · cases h
    · rename_i hp
      split at h
      · cases h
      · rename_i r2 h2
        cases h
        obtain ⟨a, x, b, e1, e2, e3, e4, e5⟩ := ih _ h2
        refine ⟨n :: a, x, b, by simp [e1], by simp [e2], e3, e4, ?_⟩
        intro y hy
        simp only [List.mem_cons] at hy
        rcases hy with rfl | hy
        · exact hp
        · exact e5 y hy

/-- A successful `removeFromSched` unlinks the first node that points to
`theInstr`; that node has all three flags set. -/
theorem removeFromSched_spec {p : Nat} {q r : List schedule_node}
    (h : removeFromSched p q = .ok r) :
    ∃ a m b, q = a ++ m :: b ∧ r = a ++ b ∧ m.theInstr = p ∧ removeFlagsOk m = true ∧
      ∀ x ∈ a, x.theInstr ≠ p := by
  cases q with
  | nil => cases h
  | cons n rest =>
    rw [removeFromSched] at h
    split at h
    · rename_i hp
      split at h
      · rename_i hf; cases h; exact ⟨[], n, _, rfl, rfl, hp, hf, by simp⟩
      · cases h
    · exact removeFromSchedWalk_spec _ _ _ h

theorem removeAllSUFromSchedLoop_size : ∀ (u : List (Option Nat)) (q : List schedule_node)
    (sz : Int) {r : List schedule_node} {sz' : Int},
    removeAllSUFromSchedLoop u q sz = .ok (r, sz') →
    sz' - (r.length : Int) = sz - (q.length : Int) ∧ r.length ≤ q.length := by
  intro u
  induction u with
  | nil => intro q sz r sz' h; cases h; simp
  | cons x rest ih =>
    intro q sz r sz' h
    cases x with
    | none => rw [removeAllSUFromSchedLoop] at h; exact ih _ _ h
    | some p =>
      rw [removeAllSUFromSchedLoop] at h
      split at h
      · cases h
      · rename_i q1 h1
        obtain ⟨a, m, b, e1, e2, -, -, -⟩ := removeFromSched_spec h1
        obtain ⟨i1, i2⟩ := ih _ _ h
        subst e1 e2
        simp only [List.length_append, List.length_cons] at i1 i2 ⊢
        constructor <;> omega

/-! ## The scheduling-queue counter -/

theorem SchedSizeInv_init (numRegs k0 k1 k2 R F : Nat) (trace : List TraceLine) :
    SchedSizeInv (proc_init numRegs k0 k1 k2 R F trace) := by
  simp [SchedSizeInv, proc_init]; omega

/-- At the point of an iteration where the scheduling queue is longest, its
counter is exact and within `max_sched_queue`; the call cannot abort. -/
theorem SchedSizeInv_dispatchToSchedule {s s2 s3 s4 : State} (hi : SchedSizeInv s)
    (h2 : sendToSU s.clock (sendToFinal s) = .ok s2) (h3 : resolveBranches s2 = .ok s3)
    (h4 : moveToExecute s.clock s3 = .ok s4) :
    ∃ s5, dispatchToSchedule s.clock s.totalMarked s4 = .ok s5 ∧
      s5.schedule_size = (s5.schedule_head.length : Int) ∧
      s5.schedule_size ≤ (s5.curr_Config.max_sched_queue : Int) := by
  obtain ⟨i1, i2, i3⟩ := hi
  have hf : s4.schedule_head.length = s.schedule_head.length ∧
      s4.schedule_size = s.schedule_size ∧ s4.curr_Config = s.curr_Config := by
    unfold moveToExecute at h4
    split at h4
    · cases h4
    · rename_i q s1 h1
      cases h4
      have := moveToExecuteLoop_map _ _ h1
      obtain ⟨_, _, _, _, rfl⟩ := moveToExecuteLoop_shape _ _ h1
      obtain ⟨_, _, _, _, rfl⟩ := resolveBranches_shape h3
      obtain ⟨_, _, _, _, _, rfl⟩ := sendToSU_shape h2
      simp [this, sendToFinal]
  obtain ⟨hlen, hsz4, hcfg⟩ := hf
  unfold dispatchToSchedule
  obtain ⟨r, t, hl⟩ := dispatchToScheduleLoop_total s.clock s.totalMarked s4.dispatch_head 0
    s4 i2 (by rw [hsz4, hcfg]; omega)
  rw [hl]
  obtain ⟨v, hv, hq, hsz, hh, hle, heq⟩ := dispatchToScheduleLoop_spec _ _ _ _ hl
  have hcfgt : t.curr_Config = s4.curr_Config := by
    obtain ⟨_, _, _, rfl⟩ := dispatchToScheduleLoop_shape _ _ _ _ hl; rfl
  refine ⟨_, rfl, ?_, ?_⟩
  · simp only [hq, hsz, List.length_append, List.length_map, hlen]; push_cast; omega
  · have := hle i2; simp only [hsz, hcfgt, hcfg]; omega

theorem setToFired_ptrs (s : State) :
    (setToFired s).schedule_head.map (·.theInstr) = s.schedule_head.map (·.theInstr) :=
  setToFiredLoop_ptrs _ _

theorem broadcastToSched_ptrs (s : State) :
    (broadcastToSched s).schedule_head.map (·.theInstr) = s.schedule_head.map (·.theInstr) :=
  broadcastToSchedLoop_ptrs _ _ _

theorem removeAllSUFromSched_size {s t : State} (h : removeAllSUFromSched s = .ok t) :
    t.schedule_size - (t.schedule_head.length : Int) =
        s.schedule_size - (s.schedule_head.length : Int) ∧
      t.schedule_head.length ≤ s.schedule_head.length := by
  unfold removeAllSUFromSched at h
  split at h
  · cases h
  · rename_i q sz h1
    cases h
    exact removeAllSUFromSchedLoop_size _ _ _ h1

theorem SchedSizeInv_cycle {s t : State} (hi : SchedSizeInv s) (h : cycle s = .ok t) :
    SchedSizeInv t := by
  obtain ⟨s1, hA, hC⟩ := cycle_ok h
  obtain ⟨s2, s3, s4, s5, s6, h2, h3, h4, h5, h6, rfl⟩ := phaseA_ok hA
  obtain ⟨s5', h5', a1, a2⟩ := SchedSizeInv_dispatchToSchedule hi h2 h3 h4
  rw [h5] at h5'; cases h5'
  obtain ⟨w1, w3, w4, w6, w7, g1, g3, g4, g6, g7, rfl⟩ := phaseC_ok hC
  -- the state handed to Phase C has the scheduling queue of `s5`
  have b1 : w1.schedule_size = s5.schedule_size ∧ w1.schedule_head = s5.schedule_head ∧
      w1.curr_Config = s5.curr_Config := by
    obtain ⟨_, e1⟩ := writeToRegFile_shape g1
    obtain ⟨_, e2⟩ := updateDispatchQueueSize_shape (readTrace s6.curr_Config.fetch_rate s6)
    obtain ⟨_, _, _, _, _, e3⟩ := readTrace_shape s6.curr_Config.fetch_rate s6
    obtain ⟨_, _, _, _, _, e4⟩ := dispatch_Enqueue_shape h6
    rw [e1, e2, e3, e4]; exact ⟨rfl, rfl, rfl⟩
  obtain ⟨b11, b12, b13⟩ := b1
  have b3 : w3.schedule_size = s5.schedule_size ∧
      w3.schedule_head.length = s5.schedule_head.length ∧
      w3.curr_Config = s5.curr_Config ∧ 0 ≤ w3.totalMarked ∧
      w3.schedule_size + w3.totalMarked ≤ (w3.curr_Config.max_sched_queue : Int) := by
    obtain ⟨e1, e2, -⟩ := reserveScheduleSpots_spec g3
    obtain ⟨_, _, e3⟩ := reserveScheduleSpots_shape g3
    have hl := length_eq_of_ptrs (setToFired_ptrs w1)
    have e4 : (setToFired w1).schedule_size = w1.schedule_size := rfl
    have e5 : (setToFired w1).curr_Config = w1.curr_Config := rfl
    rw [e4, e5] at e2
    refine ⟨by rw [e3]; exact b11, by rw [e3]; simpa [b12] using hl, by rw [e3]; exact b13, ?_, ?_⟩
    · rw [e2]; exact Int.natCast_nonneg _
    · have hs : w3.schedule_size = s5.schedule_size := by rw [e3]; exact b11
      have hc : w3.curr_Config = s5.curr_Config := by rw [e3]; exact b13
      rw [e2, hs, hc, b11, b13]
      have := List.length_take_le
        (((s5.curr_Config.max_sched_queue : Int) - s5.schedule_size).toNat)
        (setToFired w1).dispatch_head
      omega
  obtain ⟨b31, b32, b33, b34, b35⟩ := b3
  have b4 : (broadcastToSched w4).schedule_size = w3.schedule_size ∧
      (broadcastToSched w4).schedule_head.length = w3.schedule_head.length ∧
      (broadcastToSched w4).curr_Config = w3.curr_Config ∧
      (broadcastToSched w4).totalMarked = w3.totalMarked := by
    have hl := length_eq_of_ptrs (broadcastToSched_ptrs w4)
    obtain ⟨_, _, e1⟩ := readUpdateRegFile_shape g4
    rw [e1] at hl ⊢
    exact ⟨rfl, hl, rfl, rfl⟩
  obtain ⟨b41, b42, b43, b44⟩ := b4
  obtain ⟨c1, c2⟩ := removeAllSUFromSched_size g6
  have b6 : w6.curr_Config = w3.curr_Config ∧ w6.totalMarked = w3.totalMarked := by
    obtain ⟨_, _, e1⟩ := removeAllSUFromSched_shape g6
    rw [e1]; exact ⟨b43, b44⟩
  obtain ⟨b61, b62⟩ := b6
  have b7 : (markForExecution w7).schedule_size = w6.schedule_size ∧
      (markForExecution w7).schedule_head.length = w6.schedule_head.length ∧
      (markForExecution w7).curr_Config = w6.curr_Config ∧
      (markForExecution w7).totalMarked = w6.totalMarked := by
    have hl := length_eq_of_ptrs (markForExecution_ptrs w7)
    obtain ⟨_, e0⟩ := markForExecution_shape w7
    obtain ⟨_, _, _, e1⟩ := setToChosen_shape g7
    have x : w7.schedule_head = w6.schedule_head := by rw [e1]
    rw [x] at hl
    refine ⟨?_, hl, ?_, ?_⟩ <;> rw [e0, e1]
  obtain ⟨b71, b72, b73, b74⟩ := b7
  refine ⟨?_, ?_, ?_⟩
  · show (markForExecution w7).schedule_size = ((markForExecution w7).schedule_head.length : Int)
    rw [b71, b72]; rw [b41, b42, b31, b32] at c1; omega
  · show 0 ≤ (markForExecution w7).totalMarked
    rw [b74, b62]; exact b34
  · show (markForExecution w7).schedule_size + (markForExecution w7).totalMarked ≤
      ((markForExecution w7).curr_Config.max_sched_queue : Int)
    rw [b71, b74, b73, b61, b62]
    rw [b41, b42, b31, b32] at c1
    rw [b42, b32] at c2
    omega

theorem SchedSizeInv_reachable {s0 s : State} (h0 : SchedSizeInv s0) (h : Reachable s0 s) :
    SchedSizeInv s := by
  induction h with
  | init => exact h0
  | step _ _ hc ih => exact SchedSizeInv_cycle ih hc

/-! ## Reachability -/

theorem Reachable.head {s s1 t : State} (hh : haltCond s = false) (hc : cycle s = .ok s1)
    (h : Reachable s1 t) : Reachable s t := by
  induction h with
  | init => exact Reachable.step Reachable.init hh hc
  | step _ hh' hc' ih => exact Reachable.step ih hh' hc'

theorem advance_reachable : ∀ (n : Nat) {s t : State}, advance n s = some t → Reachable s t := by
  intro n
  induction n with
  | zero => intro s t h; cases h; exact Reachable.init
  | succ n ih =>
    intro s t h
    rw [advance] at h
    split at h
    · cases h
    · rename_i hh
      split at h
      · cases h
      · rename_i s1 hc
        exact Reachable.head (by simpa using hh) hc (ih h)

theorem cycle_config {s t : State} (h : cycle s = .ok t) : t.curr_Config = s.curr_Config := by
  obtain ⟨s1, hA, hC⟩ := cycle_ok h
  obtain ⟨s2, s3, s4, s5, s6, h2, h3, h4, h5, h6, rfl⟩ := phaseA_ok hA
  obtain ⟨w1, w3, w4, w6, w7, g1, g3, g4, g6, g7, rfl⟩ := phaseC_ok hC
  obtain ⟨_, e0⟩ := markForExecution_shape w7
  obtain ⟨_, _, _, e1⟩ := setToChosen_shape g7
  obtain ⟨_, _, e2⟩ := removeAllSUFromSched_shape g6
  have e3 : (broadcastToSched w4).curr_Config = w4.curr_Config := rfl
  obtain ⟨_, _, e4⟩ := readUpdateRegFile_shape g4
  obtain ⟨_, _, e5⟩ := reserveScheduleSpots_shape g3
  have e6 : (setToFired w1).curr_Config = w1.curr_Config := rfl
  obtain ⟨_, e7⟩ := writeToRegFile_shape g1
  obtain ⟨_, e8⟩ := updateDispatchQueueSize_shape (readTrace s6.curr_Config.fetch_rate s6)
  obtain ⟨_, _, _, _, _, e9⟩ := readTrace_shape s6.curr_Config.fetch_rate s6
  obtain ⟨_, _, _, _, _, e10⟩ := dispatch_Enqueue_shape h6
  obtain ⟨_, _, _, _, e11⟩ := dispatchToSchedule_shape h5
  obtain ⟨_, _, _, _, _, e12⟩ := moveToExecute_shape h4
  obtain ⟨_, _, _, _, e13⟩ := resolveBranches_shape h3
  obtain ⟨_, _, _, _, _, e14⟩ := sendToSU_shape h2
  show (markForExecution w7).curr_Config = s.curr_Config
  rw [e0]; show w7.curr_Config = _
  rw [e1]; show w6.curr_Config = _
  rw [e2]; show (broadcastToSched w4).curr_Config = _
  rw [e3, e4]; show w3.curr_Config = _
  rw [e5]; show (setToFired w1).curr_Config = _
  rw [e6, e7]; show (updateDispatchQueueSize (readTrace s6.curr_Config.fetch_rate s6)).curr_Config = _
  rw [e8]; show (readTrace s6.curr_Config.fetch_rate s6).curr_Config = _
  rw [e9]; show s6.curr_Config = _
  rw [e10]; show s5.curr_Config = _
  rw [e11]; show s4.curr_Config = _
  rw [e12]; show s3.curr_Config = _
  rw [e13]; show s2.curr_Config = _
  rw [e14]; rfl

theorem reachable_config {s0 s : State} (h : Reachable s0 s) : s.curr_Config = s0.curr_Config := by
  induction h with
  | init => rfl
  | step _ _ hc ih => rw [cycle_config hc, ih]

/-- An aborted iteration, with the faults each call can raise. -/
theorem cycle_error_origin {s : State} {e : Fault} (h : cycle s = .error e) :
    (e = Fault.supOverflow ∧ sendToSU s.clock (sendToFinal s) = .error e) ∨
    (e = Fault.assertUnresolvedIsBranch ∨ e = Fault.resolveNoIndex ∨ e = Fault.assertStall) ∨
    ((e = Fault.putInFUBadClass ∨ e = Fault.assertFUSlot) ∧
      ∃ s2 s3, sendToSU s.clock (sendToFinal s) = .ok s2 ∧ resolveBranches s2 = .ok s3 ∧
        moveToExecute s.clock s3 = .error e) ∨
    (e = Fault.assertSchedSize ∧
      ∃ s2 s3 s4, sendToSU s.clock (sendToFinal s) = .ok s2 ∧ resolveBranches s2 = .ok s3 ∧
        moveToExecute s.clock s3 = .ok s4 ∧
        dispatchToSchedule s.clock s.totalMarked s4 = .error e) ∨
    (e = Fault.assertPrediction ∨ e = Fault.assertMispredIsBranch) ∨
    (e = Fault.regIndex ∨ e = Fault.assertWriteNotReady) ∨
    e = Fault.assertUnmarked ∨
    (e = Fault.regIndex ∨ e = Fault.assertReadyTag ∨ e = Fault.assertNotReadyTag) ∨
    (e = Fault.removeEmptySched ∨ e = Fault.assertRemoveFlags ∨ e = Fault.assertRemoveFound) ∨
    e = Fault.chosenNoNode := by
  rcases cycle_error h with h1 | ⟨s2, h2, h3⟩ | ⟨s2, s3, h2, h3, h4⟩ | ⟨s2, s3, s4, h2, h3, h4, h5⟩ |
    ⟨s2, s3, s4, s5, h2, h3, h4, h5, h6⟩ | ⟨s1, hA, hC⟩
  · exact Or.inl ⟨sendToSU_error h1, h1⟩
  · exact Or.inr (Or.inl (resolveBranches_error h3))
  · exact Or.inr (Or.inr (Or.inl ⟨moveToExecute_error h4, s2, s3, h2, h3, h4⟩))
  · exact Or.inr (Or.inr (Or.inr (Or.inl ⟨dispatchToSchedule_error h5, s2, s3, s4, h2, h3, h4, h5⟩)))
  · exact Or.inr (Or.inr (Or.inr (Or.inr (Or.inl (dispatch_EnqueueLoop_error _ _ h6)))))
  · rcases phaseC_error hC with g1 | ⟨w1, g1, g3⟩ | ⟨w1, w3, g1, g3, g4⟩ |
      ⟨w1, w3, w4, g1, g3, g4, g6⟩ | ⟨w1, w3, w4, w6, g1, g3, g4, g6, g7⟩
    · exact Or.inr (Or.inr (Or.inr (Or.inr (Or.inr (Or.inl (writeToRegFile_error g1))))))
    · exact Or.inr (Or.inr (Or.inr (Or.inr (Or.inr (Or.inr (Or.inl
        (reserveScheduleSpots_error g3)))))))
    · exact Or.inr (Or.inr (Or.inr (Or.inr (Or.inr (Or.inr (Or.inr (Or.inl
        (readUpdateRegFile_error g4))))))))
    · exact Or.inr (Or.inr (Or.inr (Or.inr (Or.inr (Or.inr (Or.inr (Or.inr (Or.inl
        (removeAllSUFromSched_error g6)))))))))
    · exact Or.inr (Or.inr (Or.inr (Or.inr (Or.inr (Or.inr (Or.inr (Or.inr (Or.inr
        (setToChosenLoop_error _ _ g7)))))))))

theorem rawState_reachable (n : Nat)
    (h : advance n (proc_init 128 3 2 1 2 4 rawTrace) = some (rawState n)) :
    Reachable (proc_init 128 3 2 1 2 4 rawTrace) (rawState n) :=
  advance_reachable n h

/-- C8. In every state reachable at the top of the cycle loop `schedule_size` is
the length of the scheduling queue and at most `2 * (k0 + k1 + k2)`; the same
holds right after `dispatchToSchedule`, where the queue is longest, and the
assertion of `dispatchToSchedule` does not fail in the next iteration. -/
theorem schedule_queue_bounded (k0 k1 k2 R F : Nat) (trace : List TraceLine) (s : State)
    (h : Reachable (proc_init 128 k0 k1 k2 R F trace) s) :
    s.schedule_size = (s.schedule_head.length : Int) ∧
      s.curr_Config.max_sched_queue = 2 * (k0 + k1 + k2) ∧
      s.schedule_head.length ≤ 2 * (k0 + k1 + k2) ∧
      (∀ t, uptoDispatchToSchedule s = .ok t →
        t.schedule_size = (t.schedule_head.length : Int) ∧
          t.schedule_head.length ≤ 2 * (k0 + k1 + k2)) ∧
      cycle s ≠ .error Fault.assertSchedSize := by
  have hi := SchedSizeInv_reachable (SchedSizeInv_init 128 k0 k1 k2 R F trace) h
  have hc : s.curr_Config.max_sched_queue = 2 * (k0 + k1 + k2) := by
    rw [reachable_config h]; rfl
  obtain ⟨i1, i2, i3⟩ := id hi
  refine ⟨i1, hc, by omega, ?_, ?_⟩
  · intro t ht
    unfold uptoDispatchToSchedule at ht
    split at ht
    · cases ht
    · rename_i s2 h2
      split at ht
      · cases ht
      · rename_i s3 h3
        split at ht
        · cases ht
        · rename_i s4 h4
          obtain ⟨s5, h5, a1, a2⟩ := SchedSizeInv_dispatchToSchedule hi h2 h3 h4
          rw [h5] at ht; cases ht
          have e1 : t.curr_Config = s4.curr_Config := by
            obtain ⟨_, _, _, _, rfl⟩ := dispatchToSchedule_shape h5; rfl
          have e2 : s4.curr_Config = s3.curr_Config := by
            obtain ⟨_, _, _, _, _, rfl⟩ := moveToExecute_shape h4; rfl
          have e3 : s3.curr_Config = s2.curr_Config := by
            obtain ⟨_, _, _, _, rfl⟩ := resolveBranches_shape h3; rfl
          have e4 : s2.curr_Config = s.curr_Config := by
            obtain ⟨_, _, _, _, _, rfl⟩ := sendToSU_shape h2; rfl
          have hc5 : t.curr_Config = s.curr_Config := by rw [e1, e2, e3, e4]
          rw [hc5, hc] at a2
          exact ⟨a1, by omega⟩
  · intro he
    rcases cycle_error_origin he with ⟨h1, -⟩ | h1 | ⟨h1, -⟩ | ⟨-, s2, s3, s4, h2, h3, h4, h5⟩ |
      h1 | h1 | h1 | h1 | h1 | h1
    · cases h1
    · rcases h1 with h1 | h1 | h1 <;> cases h1
    · rcases h1 with h1 | h1 <;> cases h1
    · obtain ⟨s5, h5', -, -⟩ := SchedSizeInv_dispatchToSchedule hi h2 h3 h4
      rw [h5] at h5'; cases h5'
    · rcases h1 with h1 | h1 <;> cases h1
    · rcases h1 with h1 | h1 <;> cases h1
    · cases h1
    · rcases h1 with h1 | h1 | h1 <;> cases h1
    · rcases h1 with h1 | h1 | h1 <;> cases h1
    · cases h1

/-- Witness for C8: the read-after-write run four iterations in, with both
instructions in the scheduling queue. -/
theorem schedule_queue_bounded_witness :
    (rawState 4).schedule_size = 2 ∧ (rawState 4).schedule_head.length = 2 ∧
      cycle (rawState 4) ≠ .error Fault.assertSchedSize :=
  have h := schedule_queue_bounded 3 2 1 2 4 rawTrace (rawState 4) (rawState_reachable 4 rfl)
  ⟨rfl, rfl, h.2.2.2.2⟩

/-! ## Completion: at most `R` chosen occupants -/

theorem supOccupied_le_length : ∀ (u : List (Option Nat)), supOccupied u ≤ u.length := by
  intro u
  induction u with
  | nil => simp [supOccupied]
  | cons x rest ih => cases x <;> simp [supOccupied] <;> omega

/-- A pool loop of `sendToSU` succeeds when the array has room for the chosen
occupants; it advances `index` by their number and leaves none chosen. -/
theorem sendToSUPool_total (clock : Int) : ∀ (k : List (Option execute_node)) (hp : Nat → instr)
    (u : List (Option Nat)) (i : Nat), i + chosenCount k ≤ u.length →
    ∃ r hp' u', sendToSUPool clock k hp u i = .ok (r, hp', u', i + chosenCount k) ∧
      chosenCount r = 0 ∧ u'.length = u.length ∧ r.length = k.length := by
  intro k
  induction k with
  | nil => intro hp u i _; exact ⟨_, _, _, rfl, rfl, rfl, rfl⟩
  | cons x rest ih =>
    intro hp u i hle
    cases x with
    | none =>
      simp only [chosenCount] at hle ⊢
      obtain ⟨r, hp', u', e, c, l, l2⟩ := ih hp u i hle
      rw [sendToSUPool, e]
      exact ⟨_, _, _, rfl, by simpa [chosenCount] using c, l, by simp [l2]⟩
    | some n =>
      rw [sendToSUPool]
      by_cases hc : n.chosen = 1
      · simp only [chosenCount, hc, if_true] at hle ⊢
        have hi : i < u.length := by omega
        rw [if_pos hi]
        obtain ⟨r, hp', u', e, c, l, l2⟩ := ih
          (setInstr hp n.theInstr { hp n.theInstr with state := clock })
          (u.set i (some n.theInstr)) (i + 1) (by rw [List.length_set]; omega)
        rw [e]
        refine ⟨none :: r, hp', u', ?_, by simpa [chosenCount] using c, by simpa using l,
          by simp [l2]⟩
        simp only [Except.ok.injEq, Prod.mk.injEq, true_and]; omega
      · simp only [chosenCount, hc, if_false] at hle ⊢
        obtain ⟨r, hp', u', e, c, l, l2⟩ := ih hp u i hle
        rw [e]
        exact ⟨_, _, _, rfl, by simpa [chosenCount, hc] using c, l, by simp [l2]⟩

theorem sendToSU_total (clock : Int) {s : State} (h : chosenTotal s ≤ s.sup.length) :
    ∃ t, sendToSU clock s = .ok t ∧ chosenTotal t = 0 ∧ t.sup.length = s.sup.length ∧
      t.k_0.length = s.k_0.length ∧ t.k_1.length = s.k_1.length ∧
      t.k_2.length = s.k_2.length := by
  unfold chosenTotal at h
  obtain ⟨r0, h0, u0, e0, c0, l0, m0⟩ := sendToSUPool_total clock s.k_0 s.heap s.sup 0 (by omega)
  obtain ⟨r1, h1, u1, e1, c1, l1, m1⟩ := sendToSUPool_total clock s.k_1 h0 u0 (0 + chosenCount s.k_0)
    (by omega)
  obtain ⟨r2, h2, u2, e2, c2, l2, m2⟩ := sendToSUPool_total clock s.k_2 h1 u1
    (0 + chosenCount s.k_0 + chosenCount s.k_1) (by omega)
  unfold sendToSU
  rw [e0]; simp only
  rw [e1]; simp only
  rw [e2]
  exact ⟨_, rfl, by simp [chosenTotal, c0, c1, c2], by simp [l2, l1, l0], m0, m1, m2⟩

theorem putInFUSlot_chosenCount (n : execute_node) (hn : n.chosen = 0) :
    ∀ (k k' : List (Option execute_node)), putInFUSlot n k = some k' →
    chosenCount k' = chosenCount k ∧ k'.length = k.length := by
  intro k
  induction k with
  | nil => intro k' h; cases h
  | cons x rest ih =>
    intro k' h
    cases x with
    | none => rw [putInFUSlot] at h; cases h; simp [chosenCount, hn]
    | some m =>
      rw [putInFUSlot] at h
      split at h
      · cases h
      · rename_i r hr
        cases h
        obtain ⟨a, b⟩ := ih _ hr
        simp [chosenCount, a, b]

theorem putInFU_chosenTotal {p : Nat} {fu clock : Int} {s t : State}
    (h : putInFU p fu clock s = .ok t) :
    chosenTotal t = chosenTotal s ∧ t.k_0.length = s.k_0.length ∧
      t.k_1.length = s.k_1.length ∧ t.k_2.length = s.k_2.length := by
  unfold putInFU at h
  simp only at h
  split at h
  · split at h
    · rename_i k hk; cases h
      obtain ⟨a, b⟩ := putInFUSlot_chosenCount _ rfl _ _ hk
      simp [chosenTotal, a, b]
    · cases h
  · split at h
    · split at h
      · rename_i k hk; cases h
        obtain ⟨a, b⟩ := putInFUSlot_chosenCount _ rfl _ _ hk
        simp [chosenTotal, a, b]
      · cases h
    · split at h
      · split at h
        · rename_i k hk; cases h
          obtain ⟨a, b⟩ := putInFUSlot_chosenCount _ rfl _ _ hk
          simp [chosenTotal, a, b]
        · cases h
      · cases h

theorem moveToExecuteLoop_chosenTotal (clock : Int) : ∀ (q : List schedule_node) {s t : State}
    {r : List schedule_node}, moveToExecuteLoop clock q s = .ok (r, t) →
    chosenTotal t = chosenTotal s ∧ t.k_0.length = s.k_0.length ∧
      t.k_1.length = s.k_1.length ∧ t.k_2.length = s.k_2.length := by
  intro q
  induction q with
  | nil => intro s t r h; cases h; exact ⟨rfl, rfl, rfl, rfl⟩
  | cons n rest ih =>
    intro s t r h
    rw [moveToExecuteLoop] at h
    split at h
    · split at h
      · cases h
      · rename_i s1 h1
        split at h
        · cases h
        · rename_i r2 s2 h2
          cases h
          obtain ⟨a, b, c, d⟩ := putInFU_chosenTotal h1
          obtain ⟨a', b', c', d'⟩ := ih h2
          exact ⟨by rw [a', a], by rw [b', b], by rw [c', c], by rw [d', d]⟩
    · split at h
      · cases h
      · rename_i r2 s2 h2
        cases h
        exact ih h2

theorem moveToExecute_chosenTotal {clock : Int} {s t : State}
    (h : moveToExecute clock s = .ok t) :
    chosenTotal t = chosenTotal s ∧ t.k_0.length = s.k_0.length ∧
      t.k_1.length = s.k_1.length ∧ t.k_2.length = s.k_2.length := by
  unfold moveToExecute at h
  split at h
  · cases h
  · rename_i q s1 h1
    cases h
    have := moveToExecuteLoop_chosenTotal _ _ h1
    simpa [chosenTotal] using this

theorem markChosen_chosenCount : ∀ (k : List (Option execute_node)) (i : Nat),
    chosenCount (markChosen k i) ≤ chosenCount k + 1 ∧ (markChosen k i).length = k.length := by
  intro k
  induction k with
  | nil => intro i; simp [markChosen, chosenCount]
  | cons x rest ih =>
    intro i
    cases i with
    | zero =>
      cases x with
      | none => simp [markChosen, chosenCount]
      | some n =>
        by_cases hc : n.chosen = 1
        · simp [markChosen, chosenCount, hc]
        · simp [markChosen, chosenCount, hc]
    | succ i =>
      obtain ⟨a, b⟩ := ih i
      cases x with
      | none => simp only [markChosen, chosenCount]; exact ⟨a, by simp [b]⟩
      | some n => simp only [markChosen, chosenCount]; split <;> exact ⟨by omega, by simp [b]⟩

theorem setToChosenLoop_chosenTotal : ∀ (d p : Nat) {s t : State},
    setToChosenLoop d p s = .ok t →
    chosenTotal t ≤ chosenTotal s + d ∧ t.k_0.length = s.k_0.length ∧
      t.k_1.length = s.k_1.length ∧ t.k_2.length = s.k_2.length := by
  intro d
  induction d with
  | zero => intro p s t h; rw [setToChosenLoop] at h; cases h; exact ⟨by simp, rfl, rfl, rfl⟩
  | succ d ih =>
    intro p s t h
    cases p with
    | zero => rw [setToChosenLoop] at h; cases h; exact ⟨by omega, rfl, rfl, rfl⟩
    | succ p =>
      rw [setToChosenLoop] at h
      split at h
      · cases h
      · rename_i pool i _
        split at h
        · obtain ⟨a, b, c, e⟩ := ih _ h
          obtain ⟨m1, m2⟩ := markChosen_chosenCount s.k_0 i
          simp only [chosenTotal] at a ⊢
          exact ⟨by omega, by rw [b]; exact m2, c, e⟩
        · split at h
          · obtain ⟨a, b, c, e⟩ := ih _ h
            obtain ⟨m1, m2⟩ := markChosen_chosenCount s.k_1 i
            simp only [chosenTotal] at a ⊢
            exact ⟨by omega, b, by rw [c]; exact m2, e⟩
          · obtain ⟨a, b, c, e⟩ := ih _ h
            obtain ⟨m1, m2⟩ := markChosen_chosenCount s.k_2 i
            simp only [chosenTotal] at a ⊢
            exact ⟨by omega, b, c, by rw [e]; exact m2⟩

theorem ChosenInv_init (numRegs k0 k1 k2 R F : Nat) (trace : List TraceLine) :
    ChosenInv (proc_init numRegs k0 k1 k2 R F trace) := by
  have h : ∀ n : Nat, chosenCount (List.replicate n none) = 0 := by
    intro n; induction n with
    | zero => rfl
    | succ n ih => simpa [List.replicate_succ, chosenCount] using ih
  simp [ChosenInv, proc_init, chosenTotal, h]

/-- The first call of an iteration that can overflow the state-update array
does not: `sendToSU` succeeds and leaves no occupant chosen. -/
theorem ChosenInv_sendToSU {s : State} (hi : ChosenInv s) :
    ∃ s2, sendToSU s.clock (sendToFinal s) = .ok s2 ∧ chosenTotal s2 = 0 ∧
      s2.sup.length = s.curr_Config.num_r_bus := by
  obtain ⟨i1, i2⟩ := hi
  have hs : chosenTotal (sendToFinal s) ≤ (sendToFinal s).sup.length := by
    simp only [sendToFinal, chosenTotal, List.length_map] at *
    omega
  obtain ⟨t, e, c, l, -⟩ := sendToSU_total s.clock hs
  exact ⟨t, e, c, by rw [l]; simpa [sendToFinal] using i1⟩

theorem ChosenInv_cycle {s t : State} (hi : ChosenInv s) (h : cycle s = .ok t) :
    ChosenInv t := by
  obtain ⟨s1, hA, hC⟩ := cycle_ok h
  obtain ⟨s2, s3, s4, s5, s6, h2, h3, h4, h5, h6, rfl⟩ := phaseA_ok hA
  obtain ⟨s2', h2', c2, l2⟩ := ChosenInv_sendToSU hi
  rw [h2] at h2'; cases h2'
  obtain ⟨w1, w3, w4, w6, w7, g1, g3, g4, g6, g7, rfl⟩ := phaseC_ok hC
  have f2 : s2.curr_Config = s.curr_Config := by
    obtain ⟨_, _, _, _, _, rfl⟩ := sendToSU_shape h2; rfl
  have f3 : chosenTotal s3 = chosenTotal s2 ∧ s3.sup = s2.sup ∧ s3.curr_Config = s2.curr_Config := by
    obtain ⟨_, _, _, _, rfl⟩ := resolveBranches_shape h3; exact ⟨rfl, rfl, rfl⟩
  have f4 : s4.sup = s3.sup ∧ s4.curr_Config = s3.curr_Config := by
    obtain ⟨_, _, _, _, _, rfl⟩ := moveToExecute_shape h4; exact ⟨rfl, rfl⟩
  have c4 := (moveToExecute_chosenTotal h4).1
  have f5 : chosenTotal s5 = chosenTotal s4 ∧ s5.sup = s4.sup ∧ s5.curr_Config = s4.curr_Config := by
    obtain ⟨_, _, _, _, rfl⟩ := dispatchToSchedule_shape h5; exact ⟨rfl, rfl, rfl⟩
  have f6 : chosenTotal s6 = chosenTotal s5 ∧ s6.sup = s5.sup ∧ s6.curr_Config = s5.curr_Config := by
    obtain ⟨_, _, _, _, _, rfl⟩ := dispatch_Enqueue_shape h6; exact ⟨rfl, rfl, rfl⟩
  have f7 : chosenTotal w1 = chosenTotal s6 ∧ w1.sup = s6.sup ∧ w1.curr_Config = s6.curr_Config := by
    obtain ⟨_, e1⟩ := writeToRegFile_shape g1
    obtain ⟨_, e2⟩ := updateDispatchQueueSize_shape (readTrace s6.curr_Config.fetch_rate s6)
    obtain ⟨_, _, _, _, _, e3⟩ := readTrace_shape s6.curr_Config.fetch_rate s6
    rw [e1, e2, e3]; exact ⟨rfl, rfl, rfl⟩
  have f8 : chosenTotal w3 = chosenTotal w1 ∧ w3.sup = w1.sup ∧ w3.curr_Config = w1.curr_Config := by
    obtain ⟨_, _, e1⟩ := reserveScheduleSpots_shape g3
    rw [e1]; exact ⟨rfl, rfl, rfl⟩
  have f9 : chosenTotal w4 = chosenTotal w3 ∧ w4.sup = w3.sup ∧ w4.curr_Config = w3.curr_Config := by
    obtain ⟨_, _, rfl⟩ := readUpdateRegFile_shape g4; exact ⟨rfl, rfl, rfl⟩
  have f10 : chosenTotal w6 = chosenTotal w4 ∧ w6.sup = w4.sup ∧ w6.curr_Config = w4.curr_Config := by
    obtain ⟨_, _, e1⟩ := removeAllSUFromSched_shape g6
    rw [e1]; exact ⟨rfl, rfl, rfl⟩
  have c7 := (setToChosenLoop_chosenTotal _ _ g7).1
  have f11 : w7.sup = w6.sup ∧ w7.curr_Config = w6.curr_Config := by
    obtain ⟨_, _, _, rfl⟩ := setToChosen_shape g7; exact ⟨rfl, rfl⟩
  have f12 : chosenTotal (markForExecution w7) = chosenTotal w7 ∧
      (markForExecution w7).sup = w7.sup ∧ (markForExecution w7).curr_Config = w7.curr_Config := by
    obtain ⟨_, e1⟩ := markForExecution_shape w7
    rw [e1]; exact ⟨rfl, rfl, rfl⟩
  have hcfg : (markForExecution w7).curr_Config = s.curr_Config := by
    rw [f12.2.2, f11.2, f10.2.2, f9.2.2, f8.2.2, f7.2.2, f6.2.2, f5.2.2, f4.2, f3.2.2, f2]
  have hsup : (markForExecution w7).sup = s2.sup := by
    rw [f12.2.1, f11.1, f10.2.1, f9.2.1, f8.2.1, f7.2.1, f6.2.1, f5.2.1, f4.1, f3.2.1]
  have hch : chosenTotal w6 = 0 := by
    rw [f10.1, f9.1, f8.1, f7.1, f6.1, f5.1, c4, f3.1, c2]
  constructor
  · show (markForExecution w7).sup.length = (markForExecution w7).curr_Config.num_r_bus
    rw [hsup, hcfg, l2]
  · show chosenTotal (markForExecution w7) ≤ (markForExecution w7).curr_Config.num_r_bus
    rw [f12.1, hcfg]
    have : w6.curr_Config = s.curr_Config := by
      rw [f10.2.2, f9.2.2, f8.2.2, f7.2.2, f6.2.2, f5.2.2, f4.2, f3.2.2, f2]
    rw [this] at c7
    omega

theorem ChosenInv_reachable {s0 s : State} (h0 : ChosenInv s0) (h : Reachable s0 s) :
    ChosenInv s := by
  induction h with
  | init => exact h0
  | step _ _ hc ih => exact ChosenInv_cycle ih hc

/-- C10. In every state reachable at the top of the cycle loop the state-update
array has `R` slots, hence at most `R` occupied ones, and at most `R`
functional-unit occupants are chosen when `sendToSU` is called, so that its
write index stays below `R`: the call does not run past the array. -/
theorem state_update_slots_bounded (k0 k1 k2 R F : Nat) (trace : List TraceLine) (s : State)
    (h : Reachable (proc_init 128 k0 k1 k2 R F trace) s) :
    s.sup.length = R ∧ supOccupied s.sup ≤ R ∧ chosenTotal (sendToFinal s) ≤ R ∧
      cycle s ≠ .error Fault.supOverflow := by
  have hi := ChosenInv_reachable (ChosenInv_init 128 k0 k1 k2 R F trace) h
  have hc : s.curr_Config.num_r_bus = R := by rw [reachable_config h]; rfl
  obtain ⟨i1, i2⟩ := id hi
  refine ⟨by rw [i1, hc], ?_, by rw [← hc]; exact i2, ?_⟩
  · have := supOccupied_le_length s.sup; omega
  · intro he
    rcases cycle_error_origin he with ⟨-, h1⟩ | h1 | ⟨h1, -⟩ | ⟨h1, -⟩ |
      h1 | h1 | h1 | h1 | h1 | h1
    · obtain ⟨s2, h2, -, -⟩ := ChosenInv_sendToSU hi
      rw [h2] at h1; cases h1
    · rcases h1 with h1 | h1 | h1 <;> cases h1
    · rcases h1 with h1 | h1 <;> cases h1
    · cases h1
    · rcases h1 with h1 | h1 <;> cases h1
    · rcases h1 with h1 | h1 <;> cases h1
    · cases h1
    · rcases h1 with h1 | h1 | h1 <;> cases h1
    · rcases h1 with h1 | h1 | h1 <;> cases h1
    · cases h1

/-- Witness for C10: the read-after-write run after four iterations, when the
first instruction is chosen for the result bus. -/
theorem state_update_slots_bounded_witness :
    (rawState 4).sup.length = 2 ∧ chosenTotal (rawState 4) = 1 ∧
      cycle (rawState 4) ≠ .error Fault.supOverflow :=
  have h := state_update_slots_bounded 3 2 1 2 4 rawTrace (rawState 4) (rawState_reachable 4 rfl)
  ⟨h.1, rfl, h.2.2.2⟩

/-! ## What the stage moves write into the instruction records -/

theorem setInstr_same (h : Nat → instr) (p : Nat) (v : instr) : setInstr h p v p = v := by
  simp [setInstr]

theorem setInstr_other (h : Nat → instr) {p q : Nat} (v : instr) (hq : q ≠ p) :
    setInstr h p v q = h q := by
  simp [setInstr, hq]

theorem stateStamped_trans {c : Int} {a b d : instr} (h1 : stateStamped c a b)
    (h2 : stateStamped c b d) : stateStamped c a d := by
  rcases h1 with rfl | rfl
  · exact h2
  · rcases h2 with rfl | rfl
    · exact Or.inr rfl
    · exact Or.inr rfl

theorem sendToSUPool_heap (clock : Int) : ∀ (k : List (Option execute_node)) (hp : Nat → instr)
    (u : List (Option Nat)) (i : Nat) {r : List (Option execute_node)} {hp' : Nat → instr}
    {u' : List (Option Nat)} {i' : Nat},
    sendToSUPool clock k hp u i = .ok (r, hp', u', i') →
    ∀ p, stateStamped clock (hp p) (hp' p) := by
  intro k
  induction k with
  | nil => intro hp u i r hp' u' i' h p; cases h; exact Or.inl rfl
  | cons x rest ih =>
    intro hp u i r hp' u' i' h p
    cases x with
    | none =>
      rw [sendToSUPool] at h
      split at h
      · cases h
      · rename_i h1; cases h; exact ih _ _ _ h1 p
    | some n =>
      rw [sendToSUPool] at h
      split at h
      · split at h
        · split at h
          · cases h
          · rename_i h1; cases h
            refine stateStamped_trans ?_ (ih _ _ _ h1 p)
            by_cases hq : p = n.theInstr
            · subst hq; rw [setInstr_same]; exact Or.inr rfl
            · rw [setInstr_other _ _ hq]; exact Or.inl rfl
        · cases h
      · split at h
        · cases h
        · rename_i h1; cases h; exact ih _ _ _ h1 p

theorem sendToSU_heap {clock : Int} {s t : State} (h : sendToSU clock s = .ok t) :
    ∀ p, stateStamped clock (s.heap p) (t.heap p) := by
  unfold sendToSU at h
  split at h
  · cases h
  · rename_i h0
    split at h
    · cases h
    · rename_i h1
      split at h
      · cases h
      · rename_i h2
        cases h
        intro p
        exact stateStamped_trans (stateStamped_trans (sendToSUPool_heap _ _ _ _ _ h0 p)
          (sendToSUPool_heap _ _ _ _ _ h1 p)) (sendToSUPool_heap _ _ _ _ _ h2 p)

theorem resolvedSet_trans {a b d : instr} (h1 : resolvedSet a b) (h2 : resolvedSet b d) :
    resolvedSet a d := by
  rcases h1 with rfl | rfl
  · exact h2
  · rcases h2 with rfl | rfl
    · exact Or.inr rfl
    · exact Or.inr rfl

theorem resolveBranchesLoop_heap : ∀ (n : Nat) {s t : State},
    resolveBranchesLoop n s = .ok t → ∀ p, resolvedSet (s.heap p) (t.heap p) := by
  intro n
  induction n with
  | zero => intro s t h p; cases h; exact Or.inl rfl
  | succ n ih =>
    intro s t h p
    rw [resolveBranchesLoop] at h
    simp only at h
    split at h
    · cases h
    · split at h
      · rename_i x _
        obtain ⟨g, e1⟩ := updateGSelect_shape (s.heap x).address (s.heap x).taken s
        rw [e1] at h
        obtain ⟨r, e2⟩ := updateGHR_shape (s.heap x).taken { s with GSelect := g }
        simp only at h
        rw [e2] at h
        have key : resolvedSet (s.heap p) (setInstr s.heap x { s.heap x with resolved := 1 } p) := by
          by_cases hq : p = x
          · subst hq; rw [setInstr_same]; exact Or.inr rfl
          · rw [setInstr_other _ _ hq]; exact Or.inl rfl
        split at h
        · split at h
          · exact resolvedSet_trans key (ih h p)
          · cases h
        · exact resolvedSet_trans key (ih h p)
      · cases h

theorem resolveBranches_heap {s t : State} (h : resolveBranches s = .ok t) :
    ∀ p, resolvedSet (s.heap p) (t.heap p) := by
  unfold resolveBranches at h
  split at h
  · cases h
  · exact resolveBranchesLoop_heap _ h

/-! ## Issue: a slot for every selected instruction -/

theorem pendingCount_congr {h h' : Nat → instr} (P : Int → Bool)
    (hf : ∀ p, (h' p).funcUnit = (h p).funcUnit) :
    ∀ q : List schedule_node, pendingCount h' P q = pendingCount h P q := by
  intro q
  induction q with
  | nil => rfl
  | cons n rest ih => simp only [pendingCount, hf, ih]

theorem numSpotsAvailableLoop_nonneg : ∀ k : List (Option execute_node),
    0 ≤ numSpotsAvailableLoop k := by
  intro k
  induction k with
  | nil => simp [numSpotsAvailableLoop]
  | cons x rest ih =>
    cases x with
    | none => simp only [numSpotsAvailableLoop]; omega
    | some n => simp only [numSpotsAvailableLoop]; split <;> omega

theorem sendToSUPool_avail (clock : Int) : ∀ (k : List (Option execute_node)) (hp : Nat → instr)
    (u : List (Option Nat)) (i : Nat) {r : List (Option execute_node)} {hp' : Nat → instr}
    {u' : List (Option Nat)} {i' : Nat},
    sendToSUPool clock k hp u i = .ok (r, hp', u', i') →
    numSpotsAvailableLoop r = numSpotsAvailableLoop k ∧ chosenCount r = 0 ∧
      r.length = k.length := by
  intro k
  induction k with
  | nil => intro hp u i r hp' u' i' h; cases h; exact ⟨rfl, rfl, rfl⟩
  | cons x rest ih =>
    intro hp u i r hp' u' i' h
    cases x with
    | none =>
      rw [sendToSUPool] at h
      split at h
      · cases h
      · rename_i h1; cases h
        obtain ⟨a, b, c⟩ := ih _ _ _ h1
        simp [numSpotsAvailableLoop, chosenCount, a, b, c]
    | some n =>
      rw [sendToSUPool] at h
      split at h
      · rename_i hc
        split at h
        · split at h
          · cases h
          · rename_i h1; cases h
            obtain ⟨a, b, c⟩ := ih _ _ _ h1
            simp [numSpotsAvailableLoop, chosenCount, a, b, c, hc]
        · cases h
      · rename_i hc
        split at h
        · cases h
        · rename_i h1; cases h
          obtain ⟨a, b, c⟩ := ih _ _ _ h1
          simp [numSpotsAvailableLoop, chosenCount, a, b, c, hc]

theorem sendToSU_avail {clock : Int} {s t : State} (h : sendToSU clock s = .ok t) :
    (numSpotsAvailableLoop t.k_0 = numSpotsAvailableLoop s.k_0 ∧ chosenCount t.k_0 = 0 ∧
      t.k_0.length = s.k_0.length) ∧
    (numSpotsAvailableLoop t.k_1 = numSpotsAvailableLoop s.k_1 ∧ chosenCount t.k_1 = 0 ∧
      t.k_1.length = s.k_1.length) ∧
    (numSpotsAvailableLoop t.k_2 = numSpotsAvailableLoop s.k_2 ∧ chosenCount t.k_2 = 0 ∧
      t.k_2.length = s.k_2.length) := by
  unfold sendToSU at h
  split at h
  · cases h
  · rename_i h0
    split at h
    · cases h
    · rename_i h1
      split at h
      · cases h
      · rename_i h2
        cases h
        exact ⟨sendToSUPool_avail _ _ _ _ _ h0, sendToSUPool_avail _ _ _ _ _ h1,
          sendToSUPool_avail _ _ _ _ _ h2⟩

/-- With no occupant chosen, a pool with an available slot has a `NULL` slot:
the search of `putInFU` succeeds and uses it up. -/
theorem putInFUSlot_total (n : execute_node) (hn : n.chosen = 0) :
    ∀ (k : List (Option execute_node)), chosenCount k = 0 → 0 < numSpotsAvailableLoop k →
    ∃ k', putInFUSlot n k = some k' ∧ numSpotsAvailableLoop k' = numSpotsAvailableLoop k - 1 ∧
      chosenCount k' = 0 := by
  intro k
  induction k with
  | nil => intro _ h; simp [numSpotsAvailableLoop] at h
  | cons x rest ih =>
    intro hc ha
    cases x with
    | none =>
      refine ⟨_, rfl, ?_, ?_⟩
      · simp [numSpotsAvailableLoop, hn]
      · simpa [chosenCount, hn] using hc
    | some m =>
      have hm : m.chosen ≠ 1 := by
        intro h1; simp [chosenCount, h1] at hc
      have hc' : chosenCount rest = 0 := by simpa [chosenCount, hm] using hc
      have ha' : 0 < numSpotsAvailableLoop rest := by
        simpa [numSpotsAvailableLoop, hm] using ha
      obtain ⟨k', e, a, c⟩ := ih hc' ha'
      refine ⟨some m :: k', by simp [putInFUSlot, e], ?_, ?_⟩
      · simp [numSpotsAvailableLoop, hm, a]
      · simp [chosenCount, hm, c]

theorem putInFU_class0 (p : Nat) (fu clock : Int) (s : State) (hfu : fu = 0)
    (hc : chosenCount s.k_0 = 0) (ha : 0 < numSpotsAvailableLoop s.k_0) :
    ∃ t, putInFU p fu clock s = .ok t ∧
      t.heap = setInstr s.heap p { s.heap p with exec := clock } ∧
      numSpotsAvailableLoop t.k_0 = numSpotsAvailableLoop s.k_0 - 1 ∧ chosenCount t.k_0 = 0 ∧
      t.k_1 = s.k_1 ∧ t.k_2 = s.k_2 := by
  obtain ⟨k, e, a, c⟩ := putInFUSlot_total { theInstr := p, chosen := 0 } rfl s.k_0 hc ha
  refine ⟨{ s with heap := setInstr s.heap p { s.heap p with exec := clock }, k_0 := k },
    ?_, rfl, a, c, rfl, rfl⟩
  unfold putInFU
  simp only [hfu, if_true, e]

theorem putInFU_class1 (p : Nat) (fu clock : Int) (s : State) (hfu : fu = 1 ∨ fu = -1)
    (hc : chosenCount s.k_1 = 0) (ha : 0 < numSpotsAvailableLoop s.k_1) :
    ∃ t, putInFU p fu clock s = .ok t ∧
      t.heap = setInstr s.heap p { s.heap p with exec := clock } ∧
      numSpotsAvailableLoop t.k_1 = numSpotsAvailableLoop s.k_1 - 1 ∧ chosenCount t.k_1 = 0 ∧
      t.k_0 = s.k_0 ∧ t.k_2 = s.k_2 := by
  obtain ⟨k, e, a, c⟩ := putInFUSlot_total { theInstr := p, chosen := 0 } rfl s.k_1 hc ha
  refine ⟨{ s with heap := setInstr s.heap p { s.heap p with exec := clock }, k_1 := k },
    ?_, rfl, a, c, rfl, rfl⟩
  have h0 : fu ≠ 0 := by rcases hfu with h | h <;> omega
  unfold putInFU
  simp only [h0, if_false, hfu, if_true, e]

theorem putInFU_class2 (p : Nat) (fu clock : Int) (s : State) (hfu : fu = 2)
    (hc : chosenCount s.k_2 = 0) (ha : 0 < numSpotsAvailableLoop s.k_2) :
    ∃ t, putInFU p fu clock s = .ok t ∧
      t.heap = setInstr s.heap p { s.heap p with exec := clock } ∧
      numSpotsAvailableLoop t.k_2 = numSpotsAvailableLoop s.k_2 - 1 ∧ chosenCount t.k_2 = 0 ∧
      t.k_0 = s.k_0 ∧ t.k_1 = s.k_1 := by
  obtain ⟨k, e, a, c⟩ := putInFUSlot_total { theInstr := p, chosen := 0 } rfl s.k_2 hc ha
  refine ⟨{ s with heap := setInstr s.heap p { s.heap p with exec := clock }, k_2 := k },
    ?_, rfl, a, c, rfl, rfl⟩
  unfold putInFU
  subst hfu
  simp [e]

theorem pendingCount_exec (hp : Nat → instr) (p : Nat) (clock : Int) (P : Int → Bool)
    (q : List schedule_node) :
    pendingCount (setInstr hp p { hp p with exec := clock }) P q = pendingCount hp P q := by
  apply pendingCount_congr
  intro x
  by_cases hx : x = p
  · subst hx; rw [setInstr_same]
  · rw [setInstr_other _ _ hx]

theorem noClass_cases {fu : Int} (h : isNoClass fu = false) :
    fu = 0 ∨ (fu = 1 ∨ fu = -1) ∨ fu = 2 := by
  simp only [isNoClass, isClass0, isClass1, isClass2, Bool.not_eq_false', Bool.or_eq_true,
    decide_eq_true_eq] at h
  rcases h with (h | h) | h
  · exact Or.inl h
  · exact Or.inr (Or.inl h)
  · exact Or.inr (Or.inr h)

/-- `moveToExecute` finds a slot for every selected instruction when every
pool has as many available slots as instructions selected for it and no
occupant is chosen. -/
theorem moveToExecuteLoop_total (clock : Int) : ∀ (q : List schedule_node) (s : State),
    chosenCount s.k_0 = 0 → chosenCount s.k_1 = 0 → chosenCount s.k_2 = 0 →
    (pendingCount s.heap isClass0 q : Int) ≤ numSpotsAvailableLoop s.k_0 →
    (pendingCount s.heap isClass1 q : Int) ≤ numSpotsAvailableLoop s.k_1 →
    (pendingCount s.heap isClass2 q : Int) ≤ numSpotsAvailableLoop s.k_2 →
    pendingCount s.heap isNoClass q = 0 →
    ∃ r t, moveToExecuteLoop clock q s = .ok (r, t) := by
  intro q
  induction q with
  | nil => intro s _ _ _ _ _ _ _; exact ⟨_, _, rfl⟩
  | cons n rest ih =>
    intro s c0 c1 c2 p0 p1 p2 pb
    rw [moveToExecuteLoop]
    by_cases hn : n.sendToExecute = 1 ∧ n.waiting = 0
    · rw [if_pos hn]
      simp only [pendingCount, hn, true_and] at p0 p1 p2 pb
      have hb : isNoClass (s.heap n.theInstr).funcUnit = false := by
        by_contra hx
        simp only [Bool.not_eq_false] at hx
        simp [hx] at pb
      simp only [hb, Bool.false_eq_true, if_false] at pb
      rcases noClass_cases hb with h0 | h1 | h2
      · have e0 : isClass0 (s.heap n.theInstr).funcUnit = true := by simp [isClass0, h0]
        have e1 : isClass1 (s.heap n.theInstr).funcUnit = false := by simp [isClass1, h0]
        have e2 : isClass2 (s.heap n.theInstr).funcUnit = false := by simp [isClass2, h0]
        simp only [e0, e1, e2, if_true, Bool.false_eq_true, if_false] at p0 p1 p2
        obtain ⟨t1, e, eh, a, c, x1, x2⟩ := putInFU_class0 n.theInstr _ clock s h0
          c0 (by push_cast at p0; omega)
        rw [e]
        obtain ⟨r, t, hr⟩ := ih t1 c (by rw [x1]; exact c1) (by rw [x2]; exact c2)
          (by rw [eh, pendingCount_exec, a]; push_cast at p0; omega)
          (by rw [eh, pendingCount_exec, x1]; exact p1)
          (by rw [eh, pendingCount_exec, x2]; exact p2)
          (by rw [eh, pendingCount_exec]; exact pb)
        simp only [hr]; exact ⟨_, _, rfl⟩
      · have e0 : isClass0 (s.heap n.theInstr).funcUnit = false := by
          rcases h1 with h | h <;> simp [isClass0, h]
        have e1 : isClass1 (s.heap n.theInstr).funcUnit = true := by simp [isClass1, h1]
        have e2 : isClass2 (s.heap n.theInstr).funcUnit = false := by
          rcases h1 with h | h <;> simp [isClass2, h]
        simp only [e0, e1, e2, if_true, Bool.false_eq_true, if_false] at p0 p1 p2
        obtain ⟨t1, e, eh, a, c, x0, x2⟩ := putInFU_class1 n.theInstr _ clock s h1
          c1 (by push_cast at p1; omega)
        rw [e]
        obtain ⟨r, t, hr⟩ := ih t1 (by rw [x0]; exact c0) c (by rw [x2]; exact c2)
          (by rw [eh, pendingCount_exec, x0]; exact p0)
          (by rw [eh, pendingCount_exec, a]; push_cast at p1; omega)
          (by rw [eh, pendingCount_exec, x2]; exact p2)
          (by rw [eh, pendingCount_exec]; exact pb)
        simp only [hr]; exact ⟨_, _, rfl⟩
      · have e0 : isClass0 (s.heap n.theInstr).funcUnit = false := by simp [isClass0, h2]
        have e1 : isClass1 (s.heap n.theInstr).funcUnit = false := by simp [isClass1, h2]
        have e2 : isClass2 (s.heap n.theInstr).funcUnit = true := by simp [isClass2, h2]
        simp only [e0, e1, e2, if_true, Bool.false_eq_true, if_false] at p0 p1 p2
        obtain ⟨t1, e, eh, a, c, x0, x1⟩ := putInFU_class2 n.theInstr _ clock s h2
          c2 (by push_cast at p2; omega)
        rw [e]
        obtain ⟨r, t, hr⟩ := ih t1 (by rw [x0]; exact c0) (by rw [x1]; exact c1) c
          (by rw [eh, pendingCount_exec, x0]; exact p0)
          (by rw [eh, pendingCount_exec, x1]; exact p1)
          (by rw [eh, pendingCount_exec, a]; push_cast at p2; omega)
          (by rw [eh, pendingCount_exec]; exact pb)
        simp only [hr]; exact ⟨_, _, rfl⟩
    · rw [if_neg hn]
      have hn' : ¬ (n.sendToExecute = 1 ∧ n.waiting = 0 ∧ True) := by simpa using hn
      simp only [pendingCount] at p0 p1 p2 pb
      have f : ∀ P : Int → Bool, ¬ (n.sendToExecute = 1 ∧ n.waiting = 0 ∧
          P (s.heap n.theInstr).funcUnit = true) := fun P hx => hn ⟨hx.1, hx.2.1⟩
      simp only [f, if_false] at p0 p1 p2 pb
      obtain ⟨r, t, hr⟩ := ih s c0 c1 c2 p0 p1 p2 pb
      rw [hr]; exact ⟨_, _, rfl⟩

theorem pendingCount_noPending (hp : Nat → instr) (P : Int → Bool) :
    ∀ q : List schedule_node, noPending q → pendingCount hp P q = 0 := by
  intro q
  induction q with
  | nil => intro _; rfl
  | cons n rest ih =>
    intro h
    have hn : ¬ (n.sendToExecute = 1 ∧ n.waiting = 0) := h n (List.mem_cons_self _ _)
    have hr : noPending rest := fun m hm => h m (List.mem_cons_of_mem _ hm)
    have f : ¬ (n.sendToExecute = 1 ∧ n.waiting = 0 ∧ P (hp n.theInstr).funcUnit = true) :=
      fun hx => hn ⟨hx.1, hx.2.1⟩
    simp only [pendingCount, f, if_false, ih hr]

theorem moveToExecute_noPending {clock : Int} {s t : State}
    (h : moveToExecute clock s = .ok t) : noPending t.schedule_head := by
  unfold moveToExecute at h
  split at h
  · cases h
  · rename_i q s1 h1
    cases h
    have := moveToExecuteLoop_map _ _ h1
    subst this
    intro n hn
    simp only [List.mem_map] at hn
    obtain ⟨m, -, rfl⟩ := hn
    split
    · simp
    · assumption

theorem dispatchToSchedule_queue {clock tm : Int} {s t : State}
    (h : dispatchToSchedule clock tm s = .ok t) :
    ∃ visited, s.dispatch_head = visited ++ t.dispatch_head ∧
      t.schedule_head = s.schedule_head ++ (markedNodes visited).map newScheduleNode ∧
      t.heap = stampSched clock ((markedNodes visited).map (·.theInstr)) s.heap := by
  unfold dispatchToSchedule at h
  split at h
  · cases h
  · rename_i d s1 h1
    cases h
    obtain ⟨v, hv, hq, -, hh, -, -⟩ := dispatchToScheduleLoop_spec _ _ _ _ h1
    exact ⟨v, hv, hq, hh⟩

theorem dispatchToSchedule_noPending {clock tm : Int} {s t : State}
    (h : dispatchToSchedule clock tm s = .ok t) (hn : noPending s.schedule_head) :
    noPending t.schedule_head := by
  obtain ⟨v, -, hq, -⟩ := dispatchToSchedule_queue h
  rw [hq]
  intro n hm
  simp only [List.mem_append, List.mem_map] at hm
  rcases hm with hm | ⟨d, -, rfl⟩
  · exact hn n hm
  · simp [newScheduleNode]

theorem setToFiredLoop_flags (hp : Nat → instr) : ∀ (q : List schedule_node),
    ∀ n' ∈ setToFiredLoop hp q, ∃ n ∈ q, n'.theInstr = n.theInstr ∧
      n'.sendToExecute = n.sendToExecute ∧ n'.waiting = n.waiting := by
  intro q
  induction q with
  | nil => intro n' h; simp [setToFiredLoop] at h
  | cons m rest ih =>
    intro n' h
    rw [setToFiredLoop] at h
    split at h
    · simp only [List.mem_cons] at h
      rcases h with rfl | h
      · exact ⟨m, List.mem_cons_self _ _, rfl, rfl, rfl⟩
      · obtain ⟨n, hn, e⟩ := ih n' h
        exact ⟨n, List.mem_cons_of_mem _ hn, e⟩
    · simp only [List.mem_cons] at h
      rcases h with rfl | h
      · exact ⟨n', List.mem_cons_self _ _, rfl, rfl, rfl⟩
      · obtain ⟨n, hn, e⟩ := ih n' h
        exact ⟨n, List.mem_cons_of_mem _ hn, e⟩

theorem broadcastNode_flags (u : Nat) (n : schedule_node) (hp : Nat → instr) :
    (broadcastNode u n hp).1.theInstr = n.theInstr ∧
      (broadcastNode u n hp).1.sendToExecute = n.sendToExecute ∧
      (broadcastNode u n hp).1.waiting = n.waiting := by
  unfold broadcastNode; split
  · split <;> exact ⟨rfl, rfl, rfl⟩
  · exact ⟨rfl, rfl, rfl⟩

theorem broadcastPass_flags (u : Nat) : ∀ (q : List schedule_node) (hp : Nat → instr),
    ∀ n' ∈ (broadcastPass u q hp).1, ∃ n ∈ q, n'.theInstr = n.theInstr ∧
      n'.sendToExecute = n.sendToExecute ∧ n'.waiting = n.waiting := by
  intro q
  induction q with
  | nil => intro hp n' h; simp [broadcastPass] at h
  | cons m rest ih =>
    intro hp n' h
    simp only [broadcastPass, List.mem_cons] at h
    rcases h with rfl | h
    · exact ⟨m, List.mem_cons_self _ _, broadcastNode_flags u m hp⟩
    · obtain ⟨n, hn, e⟩ := ih _ n' h
      exact ⟨n, List.mem_cons_of_mem _ hn, e⟩

theorem broadcastToSchedLoop_flags : ∀ (u : List (Option Nat)) (q : List schedule_node)
    (hp : Nat → instr), ∀ n' ∈ (broadcastToSchedLoop u q hp).1, ∃ n ∈ q,
      n'.theInstr = n.theInstr ∧ n'.sendToExecute = n.sendToExecute ∧ n'.waiting = n.waiting := by
  intro u
  induction u with
  | nil => intro q hp n' h; exact ⟨n', h, rfl, rfl, rfl⟩
  | cons x rest ih =>
    intro q hp n' h
    cases x with
    | none => exact ih q hp n' h
    | some p =>
      simp only [broadcastToSchedLoop] at h
      obtain ⟨n1, hn1, e1, e2, e3⟩ := ih _ _ n' h
      obtain ⟨n, hn, f1, f2, f3⟩ := broadcastPass_flags p q hp n1 hn1
      exact ⟨n, hn, by rw [e1, f1], by rw [e2, f2], by rw [e3, f3]⟩

theorem noPending_of_flags {q r : List schedule_node} (hq : noPending q)
    (h : ∀ n' ∈ r, ∃ n ∈ q, n'.theInstr = n.theInstr ∧
      n'.sendToExecute = n.sendToExecute ∧ n'.waiting = n.waiting) : noPending r := by
  intro n' hn'
  obtain ⟨n, hn, -, e2, e3⟩ := h n' hn'
  rw [e2, e3]
  exact hq n hn

theorem removeAllSUFromSchedLoop_subset : ∀ (u : List (Option Nat)) (q : List schedule_node)
    (sz : Int) {r : List schedule_node} {sz' : Int},
    removeAllSUFromSchedLoop u q sz = .ok (r, sz') → ∀ n ∈ r, n ∈ q := by
  intro u
  induction u with
  | nil => intro q sz r sz' h; cases h; exact fun n hn => hn
  | cons x rest ih =>
    intro q sz r sz' h
    cases x with
    | none => rw [removeAllSUFromSchedLoop] at h; exact ih _ _ h
    | some p =>
      rw [removeAllSUFromSchedLoop] at h
      split at h
      · cases h
      · rename_i q1 h1
        obtain ⟨a, m, b, e1, e2, -, -, -⟩ := removeFromSched_spec h1
        intro n hn
        have := ih _ _ h n hn
        subst e1 e2
        simp only [List.mem_append, List.mem_cons] at this ⊢
        rcases this with h | h
        · exact Or.inl h
        · exact Or.inr (Or.inr h)

theorem removeAllSUFromSched_subset {s t : State} (h : removeAllSUFromSched s = .ok t) :
    ∀ n ∈ t.schedule_head, n ∈ s.schedule_head := by
  unfold removeAllSUFromSched at h
  split at h
  · cases h
  · rename_i q sz h1
    cases h
    exact removeAllSUFromSchedLoop_subset _ _ _ h1

/-- A pass of `markScheduleEntries` selects at most `openSpots` further nodes. -/
theorem markScheduleEntriesLoop_pending (hp : Nat → instr) (f1 f2 : Int) (P : Int → Bool) :
    ∀ (q : List schedule_node) (o : Int),
    (pendingCount hp P (markScheduleEntriesLoop hp f1 f2 q o) : Int) ≤
      pendingCount hp P q + max o 0 := by
  intro q
  induction q with
  | nil => intro o; simp [markScheduleEntriesLoop, pendingCount]
  | cons n rest ih =>
    intro o
    rw [markScheduleEntriesLoop]
    split
    · rename_i ho
      split
      · have := ih (o - 1)
        simp only [pendingCount]
        split <;> split <;> push_cast <;> omega
      · have := ih o
        simp only [pendingCount]
        split <;> push_cast <;> omega
    · omega

/-- A pass of `markScheduleEntries` for the classes `f1`, `f2` selects no node
of another class. -/
theorem markScheduleEntriesLoop_other (hp : Nat → instr) (f1 f2 : Int) (P : Int → Bool)
    (h1 : P f1 = false) (h2 : P f2 = false) : ∀ (q : List schedule_node) (o : Int),
    pendingCount hp P (markScheduleEntriesLoop hp f1 f2 q o) = pendingCount hp P q := by
  intro q
  induction q with
  | nil => intro o; rfl
  | cons n rest ih =>
    intro o
    rw [markScheduleEntriesLoop]
    split
    · split
      · rename_i hc
        have hP : P (hp n.theInstr).funcUnit = false := by
          rcases hc.2.2 with h | h <;> rw [h] <;> assumption
        simp [pendingCount, hP, ih]
      · simp only [pendingCount, ih]
    · rfl

theorem markForExecution_eq (s : State) :
    markForExecution s =
      { s with
        schedule_head := markScheduleEntriesLoop s.heap 2 2
          (markScheduleEntriesLoop s.heap 1 (-1)
            (markScheduleEntriesLoop s.heap 0 0 s.schedule_head (numSpotsAvailableLoop s.k_0))
            (numSpotsAvailableLoop s.k_1))
          (numSpotsAvailableLoop s.k_2) } := by
  simp [markForExecution, markScheduleEntries, numSpotsAvailable]

/-- After `markForExecution` every pool has an available slot for each node
selected for it, and no node of an unserved class is selected. -/
theorem markForExecution_issue (s : State) (hn : noPending s.schedule_head) :
    (pendingCount s.heap isClass0 (markForExecution s).schedule_head : Int)
        ≤ numSpotsAvailableLoop s.k_0 ∧
    (pendingCount s.heap isClass1 (markForExecution s).schedule_head : Int)
        ≤ numSpotsAvailableLoop s.k_1 ∧
    (pendingCount s.heap isClass2 (markForExecution s).schedule_head : Int)
        ≤ numSpotsAvailableLoop s.k_2 ∧
    pendingCount s.heap isNoClass (markForExecution s).schedule_head = 0 := by
  rw [markForExecution_eq]
  simp only
  have a0 := numSpotsAvailableLoop_nonneg s.k_0
  have a1 := numSpotsAvailableLoop_nonneg s.k_1
  have a2 := numSpotsAvailableLoop_nonneg s.k_2
  have z : ∀ P, pendingCount s.heap P s.schedule_head = 0 :=
    fun P => pendingCount_noPending s.heap P _ hn
  refine ⟨?_, ?_, ?_, ?_⟩
  · rw [markScheduleEntriesLoop_other s.heap 2 2 isClass0 (by decide) (by decide),
      markScheduleEntriesLoop_other s.heap 1 (-1) isClass0 (by decide) (by decide)]
    have := markScheduleEntriesLoop_pending s.heap 0 0 isClass0 s.schedule_head
      (numSpotsAvailableLoop s.k_0)
    rw [z] at this
    push_cast at this; omega
  · rw [markScheduleEntriesLoop_other s.heap 2 2 isClass1 (by decide) (by decide)]
    have := markScheduleEntriesLoop_pending s.heap 1 (-1) isClass1
      (markScheduleEntriesLoop s.heap 0 0 s.schedule_head (numSpotsAvailableLoop s.k_0))
      (numSpotsAvailableLoop s.k_1)
    rw [markScheduleEntriesLoop_other s.heap 0 0 isClass1 (by decide) (by decide), z] at this
    push_cast at this; omega
  · have := markScheduleEntriesLoop_pending s.heap 2 2 isClass2
      (markScheduleEntriesLoop s.heap 1 (-1)
        (markScheduleEntriesLoop s.heap 0 0 s.schedule_head (numSpotsAvailableLoop s.k_0))
        (numSpotsAvailableLoop s.k_1))
      (numSpotsAvailableLoop s.k_2)
    rw [markScheduleEntriesLoop_other s.heap 1 (-1) isClass2 (by decide) (by decide),
      markScheduleEntriesLoop_other s.heap 0 0 isClass2 (by decide) (by decide), z] at this
    push_cast at this; omega
  · rw [markScheduleEntriesLoop_other s.heap 2 2 isNoClass (by decide) (by decide),
      markScheduleEntriesLoop_other s.heap 1 (-1) isNoClass (by decide) (by decide),
      markScheduleEntriesLoop_other s.heap 0 0 isNoClass (by decide) (by decide), z]

theorem replicate_none_avail : ∀ n : Nat,
    numSpotsAvailableLoop (List.replicate n none) = (n : Int) := by
  intro n
  induction n with
  | zero => rfl
  | succ n ih => simp [List.replicate_succ, numSpotsAvailableLoop, ih]

theorem IssueInv_init (numRegs k0 k1 k2 R F : Nat) (trace : List TraceLine) :
    IssueInv (proc_init numRegs k0 k1 k2 R F trace) := by
  simp [IssueInv, proc_init, pendingCount, replicate_none_avail]

/-- The slot search of `putInFU` succeeds for every instruction that
`moveToExecute` hands over in the iteration that starts in `s`. -/
theorem IssueInv_moveToExecute {s s2 s3 : State} (hi : IssueInv s)
    (h2 : sendToSU s.clock (sendToFinal s) = .ok s2) (h3 : resolveBranches s2 = .ok s3) :
    ∃ s4, moveToExecute s.clock s3 = .ok s4 := by
  obtain ⟨p0, p1, p2, pb, -, -, -⟩ := hi
  obtain ⟨⟨a0, c0, -⟩, ⟨a1, c1, -⟩, ⟨a2, c2, -⟩⟩ := sendToSU_avail h2
  have hh2 := sendToSU_heap h2
  have hh3 := resolveBranches_heap h3
  have hfu : ∀ p, (s3.heap p).funcUnit = (s.heap p).funcUnit := by
    intro p
    have e1 : (s3.heap p).funcUnit = (s2.heap p).funcUnit := by
      rcases hh3 p with h | h <;> rw [h]
    have e2 : (s2.heap p).funcUnit = ((sendToFinal s).heap p).funcUnit := by
      rcases hh2 p with h | h <;> rw [h]
    rw [e1, e2]; rfl
  have f3 : s3.k_0 = s2.k_0 ∧ s3.k_1 = s2.k_1 ∧ s3.k_2 = s2.k_2 ∧
      s3.schedule_head = s2.schedule_head := by
    obtain ⟨_, _, _, _, rfl⟩ := resolveBranches_shape h3; exact ⟨rfl, rfl, rfl, rfl⟩
  have f2 : s2.schedule_head = s.schedule_head := by
    obtain ⟨_, _, _, _, _, rfl⟩ := sendToSU_shape h2; rfl
  obtain ⟨g0, g1, g2, gq⟩ := f3
  have k0 : (sendToFinal s).k_0 = s.k_0 := rfl
  have k1 : (sendToFinal s).k_1 = s.k_1 := rfl
  have k2 : (sendToFinal s).k_2 = s.k_2 := rfl
  rw [k0] at a0; rw [k1] at a1; rw [k2] at a2
  obtain ⟨r, t, hr⟩ := moveToExecuteLoop_total s.clock s3.schedule_head s3
    (by rw [g0]; exact c0) (by rw [g1]; exact c1) (by rw [g2]; exact c2)
    (by rw [pendingCount_congr _ hfu, gq, f2, g0, a0]; exact p0)
    (by rw [pendingCount_congr _ hfu, gq, f2, g1, a1]; exact p1)
    (by rw [pendingCount_congr _ hfu, gq, f2, g2, a2]; exact p2)
    (by rw [pendingCount_congr _ hfu, gq, f2]; exact pb)
  exact ⟨_, by unfold moveToExecute; rw [hr]⟩

theorem IssueInv_cycle {s t : State} (hi : IssueInv s) (h : cycle s = .ok t) : IssueInv t := by
  obtain ⟨-, -, -, -, l0, l1, l2⟩ := hi
  obtain ⟨s1, hA, hC⟩ := cycle_ok h
  obtain ⟨s2, s3, s4, s5, s6, h2, h3, h4, h5, h6, rfl⟩ := phaseA_ok hA
  obtain ⟨w1, w3, w4, w6, w7, g1, g3, g4, g6, g7, rfl⟩ := phaseC_ok hC
  -- no node is pending between `moveToExecute` and `markForExecution`
  have n4 := moveToExecute_noPending h4
  have n5 := dispatchToSchedule_noPending h5 n4
  have n1 : noPending w1.schedule_head := by
    obtain ⟨_, e1⟩ := writeToRegFile_shape g1
    obtain ⟨_, e2⟩ := updateDispatchQueueSize_shape (readTrace s6.curr_Config.fetch_rate s6)
    obtain ⟨_, _, _, _, _, e3⟩ := readTrace_shape s6.curr_Config.fetch_rate s6
    obtain ⟨_, _, _, _, _, e4⟩ := dispatch_Enqueue_shape h6
    rw [e1, e2, e3, e4]; exact n5
  have n3 : noPending w3.schedule_head := by
    obtain ⟨_, _, e1⟩ := reserveScheduleSpots_shape g3
    rw [e1]
    exact noPending_of_flags n1 (setToFiredLoop_flags _ _)
  have n4' : noPending (broadcastToSched w4).schedule_head := by
    have e : w4.schedule_head = w3.schedule_head := by
      obtain ⟨_, _, rfl⟩ := readUpdateRegFile_shape g4; rfl
    refine noPending_of_flags n3 ?_
    rw [← e]
    exact broadcastToSchedLoop_flags _ _ _
  have n6 : noPending w6.schedule_head := fun n hn =>
    n4' n (removeAllSUFromSched_subset g6 n hn)
  have n7 : noPending w7.schedule_head := by
    obtain ⟨_, _, _, rfl⟩ := setToChosen_shape g7; exact n6
  obtain ⟨q0, q1, q2, qb⟩ := markForExecution_issue w7 n7
  -- pool sizes
  have z2 := sendToSU_avail h2
  have z4 := moveToExecute_chosenTotal h4
  have z7 := setToChosenLoop_chosenTotal _ _ g7
  have f3 : s3.k_0 = s2.k_0 ∧ s3.k_1 = s2.k_1 ∧ s3.k_2 = s2.k_2 := by
    obtain ⟨_, _, _, _, rfl⟩ := resolveBranches_shape h3; exact ⟨rfl, rfl, rfl⟩
  have f6 : w6.k_0 = s4.k_0 ∧ w6.k_1 = s4.k_1 ∧ w6.k_2 = s4.k_2 := by
    obtain ⟨_, _, e0⟩ := removeAllSUFromSched_shape g6
    obtain ⟨_, _, e1⟩ := readUpdateRegFile_shape g4
    obtain ⟨_, _, e2⟩ := reserveScheduleSpots_shape g3
    obtain ⟨_, e3⟩ := writeToRegFile_shape g1
    obtain ⟨_, e4⟩ := updateDispatchQueueSize_shape (readTrace s6.curr_Config.fetch_rate s6)
    obtain ⟨_, _, _, _, _, e5⟩ := readTrace_shape s6.curr_Config.fetch_rate s6
    obtain ⟨_, _, _, _, _, e6⟩ := dispatch_Enqueue_shape h6
    obtain ⟨_, _, _, _, e7⟩ := dispatchToSchedule_shape h5
    rw [e0]
    show (broadcastToSched w4).k_0 = _ ∧ (broadcastToSched w4).k_1 = _ ∧
      (broadcastToSched w4).k_2 = _
    show w4.k_0 = _ ∧ w4.k_1 = _ ∧ w4.k_2 = _
    rw [e1]
    show w3.k_0 = _ ∧ w3.k_1 = _ ∧ w3.k_2 = _
    rw [e2]
    show w1.k_0 = _ ∧ w1.k_1 = _ ∧ w1.k_2 = _
    rw [e3, e4, e5, e6, e7]
    exact ⟨rfl, rfl, rfl⟩
  have hcfg := cycle_config h
  obtain ⟨_, em⟩ := markForExecution_shape w7
  have t0 : (markForExecution w7).k_0 = w7.k_0 := by rw [em]
  have t1 : (markForExecution w7).k_1 = w7.k_1 := by rw [em]
  have t2 : (markForExecution w7).k_2 = w7.k_2 := by rw [em]
  have th : (markForExecution w7).heap = w7.heap := by rw [em]
  have k0s : (sendToFinal s).k_0 = s.k_0 := rfl
  have k1s : (sendToFinal s).k_1 = s.k_1 := rfl
  have k2s : (sendToFinal s).k_2 = s.k_2 := rfl
  refine ⟨?_, ?_, ?_, ?_, ?_, ?_, ?_⟩
  · show (pendingCount (markForExecution w7).heap isClass0 (markForExecution w7).schedule_head : Int)
      ≤ numSpotsAvailableLoop (markForExecution w7).k_0
    rw [th, t0]; exact q0
  · show (pendingCount (markForExecution w7).heap isClass1 (markForExecution w7).schedule_head : Int)
      ≤ numSpotsAvailableLoop (markForExecution w7).k_1
    rw [th, t1]; exact q1
  · show (pendingCount (markForExecution w7).heap isClass2 (markForExecution w7).schedule_head : Int)
      ≤ numSpotsAvailableLoop (markForExecution w7).k_2
    rw [th, t2]; exact q2
  · show pendingCount (markForExecution w7).heap isNoClass (markForExecution w7).schedule_head = 0
    rw [th]; exact qb
  · rw [hcfg]
    show (markForExecution w7).k_0.length = _
    rw [t0, z7.2.1, f6.1, z4.2.1, f3.1, z2.1.2.2, k0s, l0]
  · rw [hcfg]
    show (markForExecution w7).k_1.length = _
    rw [t1, z7.2.2.1, f6.2.1, z4.2.2.1, f3.2.1, z2.2.1.2.2, k1s, l1]
  · rw [hcfg]
    show (markForExecution w7).k_2.length = _
    rw [t2, z7.2.2.2, f6.2.2, z4.2.2.2, f3.2.2, z2.2.2.2.2, k2s, l2]

theorem IssueInv_reachable {s0 s : State} (h0 : IssueInv s0) (h : Reachable s0 s) :
    IssueInv s := by
  induction h with
  | init => exact h0
  | step _ _ hc ih => exact IssueInv_cycle ih hc

theorem numFilled_le_length : ∀ k : List (Option execute_node), numFilled k ≤ k.length := by
  intro k
  induction k with
  | nil => simp [numFilled]
  | cons x rest ih => cases x <;> simp [numFilled] <;> omega

/-- C9. In every state reachable at the top of the cycle loop each
functional-unit pool has its configured number of slots, so it holds at most
that many instructions, and in the next iteration every call of `putInFU` made
by `moveToExecute` is for a class served by a pool and finds an empty slot in
that pool: neither the slot assertion fails nor is the pool left unselected. -/
theorem functional_units_bounded (k0 k1 k2 R F : Nat) (trace : List TraceLine) (s : State)
    (h : Reachable (proc_init 128 k0 k1 k2 R F trace) s) :
    (s.k_0.length = k0 ∧ s.k_1.length = k1 ∧ s.k_2.length = k2) ∧
      (numFilled s.k_0 ≤ k0 ∧ numFilled s.k_1 ≤ k1 ∧ numFilled s.k_2 ≤ k2) ∧
      cycle s ≠ .error Fault.assertFUSlot ∧ cycle s ≠ .error Fault.putInFUBadClass := by
  have hi := IssueInv_reachable (IssueInv_init 128 k0 k1 k2 R F trace) h
  have hc : s.curr_Config = (proc_init 128 k0 k1 k2 R F trace).curr_Config :=
    reachable_config h
  obtain ⟨-, -, -, -, l0, l1, l2⟩ := id hi
  rw [hc] at l0 l1 l2
  have m0 := numFilled_le_length s.k_0
  have m1 := numFilled_le_length s.k_1
  have m2 := numFilled_le_length s.k_2
  have key : ∀ e, (e = Fault.putInFUBadClass ∨ e = Fault.assertFUSlot) → cycle s ≠ .error e := by
    intro e hx he
    rcases cycle_error_origin he with ⟨h1, -⟩ | h1 | ⟨-, s2, s3, h2, h3, h4⟩ | ⟨h1, -⟩ |
      h1 | h1 | h1 | h1 | h1 | h1
    · subst h1; rcases hx with hx | hx <;> cases hx
    · rcases h1 with h1 | h1 | h1 <;> subst h1 <;> rcases hx with hx | hx <;> cases hx
    · obtain ⟨s4, h4'⟩ := IssueInv_moveToExecute hi h2 h3
      rw [h4] at h4'; cases h4'
    · subst h1; rcases hx with hx | hx <;> cases hx
    · rcases h1 with h1 | h1 <;> subst h1 <;> rcases hx with hx | hx <;> cases hx
    · rcases h1 with h1 | h1 <;> subst h1 <;> rcases hx with hx | hx <;> cases hx
    · subst h1; rcases hx with hx | hx <;> cases hx
    · rcases h1 with h1 | h1 | h1 <;> subst h1 <;> rcases hx with hx | hx <;> cases hx
    · rcases h1 with h1 | h1 | h1 <;> subst h1 <;> rcases hx with hx | hx <;> cases hx
    · subst h1; rcases hx with hx | hx <;> cases hx
  have l0' : s.k_0.length = k0 := l0
  have l1' : s.k_1.length = k1 := l1
  have l2' : s.k_2.length = k2 := l2
  exact ⟨⟨l0', l1', l2'⟩, ⟨by omega, by omega, by omega⟩, key _ (Or.inr rfl), key _ (Or.inl rfl)⟩

/-- Witness for C9: the read-after-write run after three iterations, when the
first instruction is selected for pool `k_0`. -/
theorem functional_units_bounded_witness :
    pendingCount (rawState 3).heap isClass0 (rawState 3).schedule_head = 1 ∧
      cycle (rawState 3) ≠ .error Fault.assertFUSlot :=
  have h := functional_units_bounded 3 2 1 2 4 rawTrace (rawState 3) (rawState_reachable 3 rfl)
  ⟨rfl, h.2.2.1⟩

/-! ## Literal scenarios -/

theorem run_add (k : Nat) : ∀ (fuel : Nat) (s t : State),
    run fuel s = .ok (some t) → run (fuel + k) s = .ok (some t) := by
  intro fuel
  induction fuel with
  | zero => intro s t h; simp [run] at h
  | succ n ih =>
    intro s t h
    rw [Nat.add_right_comm]
    rw [run] at h ⊢
    split
    · rename_i hh; simpa [hh] using h
    · rename_i hh
      simp only [hh] at h
      cases hc : cycle s with
      | error e => simp [hc] at h
      | ok s1 => simp only [hc] at h ⊢; exact ih s1 t h

/-- More fuel does not change the outcome of a run that halts. -/
theorem simulate_add (k fuel k0 k1 k2 R F : Nat) (trace : List TraceLine) (out : List final_node)
    (h : simulate fuel k0 k1 k2 R F trace = .ok (some out)) :
    simulate (fuel + k) k0 k1 k2 R F trace = .ok (some out) := by
  unfold simulate at h ⊢
  cases hr : run fuel (proc_init 128 k0 k1 k2 R F trace) with
  | error e => simp [hr] at h
  | ok o =>
    cases o with
    | none => simp [hr] at h
    | some s =>
      rw [run_add k fuel _ s hr]
      simpa [hr] using h

/-- C1. With `R = 2`, `F = 4`, `k0 = k1 = k2 = 1` the cycle loop on the
one-line trace `0x1000 0 5 -1 -1` halts (seven passes through the loop head
suffice, and more fuel changes nothing) with exactly one retired record: tag 0,
fetched in cycle 1, dispatched in 2, scheduled in 3, executed in 4, state update
in 5. -/
theorem single_instruction_row (extra : Nat) :
    simulate (7 + extra) 1 1 1 2 4 [TraceLine.plain 0x1000 0 5 (-1) (-1)]
      = .ok (some [{ dest_tag := 0, fetch := 1, disp := 2, sched := 3, exec := 4, state := 5 }]) :=
  simulate_add extra 7 1 1 1 2 4 _ _ (by rfl)

/-- C4. On the read-after-write trace with `k0 = 1` and the default `R = 2`,
`F = 4`, `k1 = 2`, `k2 = 1` the run halts with the records of `A` and `B`;
`B` is scheduled in the cycle `A` is, and enters execution one cycle after the
state-update cycle of `A`. -/
theorem raw_hazard_rows (extra : Nat) :
    ∃ a b : final_node,
      simulate (9 + extra) 1 2 1 2 4 rawTrace = .ok (some [a, b]) ∧
      a = { dest_tag := 0, fetch := 1, disp := 2, sched := 3, exec := 4, state := 5 } ∧
      b = { dest_tag := 1, fetch := 1, disp := 2, sched := 3, exec := 6, state := 7 } ∧
      b.sched = a.sched ∧ b.exec = a.state + 1 :=
  ⟨_, _, simulate_add extra 9 1 2 1 2 4 _ _ (by rfl), rfl, rfl, rfl, rfl⟩

/-! ## Where the instruction pointers go -/

theorem mem_fuPtrs {k : List (Option execute_node)} {p : Nat} :
    p ∈ fuPtrs k ↔ ∃ n, some n ∈ k ∧ n.theInstr = p := by
  simp only [fuPtrs, List.mem_filterMap, Option.map_eq_some']
  constructor
  · rintro ⟨x, hx, n, rfl, rfl⟩; exact ⟨n, hx, rfl⟩
  · rintro ⟨n, hn, rfl⟩; exact ⟨some n, hn, n, rfl, rfl⟩

theorem mem_supPtrs {u : List (Option Nat)} {p : Nat} : p ∈ supPtrs u ↔ some p ∈ u := by
  simp [supPtrs, List.mem_filterMap]

theorem sendToFinalLoop_mem (hp : Nat → instr) : ∀ (u : List (Option Nat)) (fin : List final_node),
    ∀ r ∈ sendToFinalLoop hp u fin, r ∈ fin ∨ ∃ p ∈ supPtrs u, r = mkFinal (hp p) := by
  intro u
  induction u with
  | nil => intro fin r h; exact Or.inl h
  | cons x rest ih =>
    intro fin r h
    cases x with
    | none =>
      rcases ih fin r h with h1 | ⟨p, hp1, e⟩
      · exact Or.inl h1
      · exact Or.inr ⟨p, by simpa [supPtrs] using hp1, e⟩
    | some q =>
      rw [sendToFinalLoop] at h
      rcases ih _ r h with h1 | ⟨p, hp1, e⟩
      · simp only [List.mem_append, List.mem_singleton] at h1
        rcases h1 with h1 | h1
        · exact Or.inl h1
        · exact Or.inr ⟨q, by simp [supPtrs], h1⟩
      · exact Or.inr ⟨p, by simp only [supPtrs, List.filterMap_cons, id] at hp1 ⊢
                            exact List.mem_cons_of_mem _ hp1, e⟩

theorem supPtrs_map_none (u : List (Option Nat)) : supPtrs (u.map (fun _ => none)) = [] := by
  induction u with
  | nil => rfl
  | cons x rest ih => simp [supPtrs]

theorem stateStamped_state {c : Int} {a b : instr} (h : stateStamped c a b) (ha : a.state = c) :
    b.state = c := by
  rcases h with rfl | rfl
  · exact ha
  · rfl

/-- A pool loop of `sendToSU` only removes occupants, and every pointer it puts
into the state-update array comes from the pool and is stamped with `clock`. -/
theorem sendToSUPool_ptrs (clock : Int) : ∀ (k : List (Option execute_node)) (hp : Nat → instr)
    (u : List (Option Nat)) (i : Nat) {r : List (Option execute_node)} {hp' : Nat → instr}
    {u' : List (Option Nat)} {i' : Nat},
    sendToSUPool clock k hp u i = .ok (r, hp', u', i') →
    (∀ p ∈ fuPtrs r, p ∈ fuPtrs k) ∧
      (∀ p ∈ supPtrs u', p ∈ supPtrs u ∨ (p ∈ fuPtrs k ∧ (hp' p).state = clock)) := by
  intro k
  induction k with
  | nil => intro hp u i r hp' u' i' h; cases h; exact ⟨fun p h => h, fun p h => Or.inl h⟩
  | cons x rest ih =>
    intro hp u i r hp' u' i' h
    cases x with
    | none =>
      rw [sendToSUPool] at h
      split at h
      · cases h
      · rename_i h1; cases h
        obtain ⟨a, b⟩ := ih _ _ _ h1
        exact ⟨by simpa [fuPtrs] using a, by simpa [fuPtrs] using b⟩
    | some n =>
      rw [sendToSUPool] at h
      split at h
      · split at h
        · split at h
          · cases h
          · rename_i h1; cases h
            obtain ⟨a, b⟩ := ih _ _ _ h1
            refine ⟨?_, ?_⟩
            · intro p hp1
              have := a p (by simpa [fuPtrs] using hp1)
              simp only [fuPtrs, List.filterMap_cons, Option.map_some'] at this ⊢
              exact List.mem_cons_of_mem _ this
            · intro p hp1
              rcases b p hp1 with h2 | ⟨h2, h3⟩
              · rw [mem_supPtrs] at h2
                rcases List.mem_or_eq_of_mem_set h2 with h4 | h4
                · exact Or.inl (mem_supPtrs.2 h4)
                · cases h4
                  refine Or.inr ⟨by simp [fuPtrs], ?_⟩
                  refine stateStamped_state (sendToSUPool_heap _ _ _ _ _ h1 n.theInstr) ?_
                  rw [setInstr_same]
              · refine Or.inr ⟨?_, h3⟩
                simp only [fuPtrs, List.filterMap_cons, Option.map_some'] at h2 ⊢
                exact List.mem_cons_of_mem _ h2
        · cases h
      · split at h
        · cases h
        · rename_i h1; cases h
          obtain ⟨a, b⟩ := ih _ _ _ h1
          refine ⟨?_, ?_⟩
          · intro p hp1
            simp only [fuPtrs, List.filterMap_cons, Option.map_some', List.mem_cons] at hp1 ⊢
            rcases hp1 with h2 | h2
            · exact Or.inl h2
            · exact Or.inr (a p h2)
          · intro p hp1
            rcases b p hp1 with h2 | ⟨h2, h3⟩
            · exact Or.inl h2
            · refine Or.inr ⟨?_, h3⟩
              simp only [fuPtrs, List.filterMap_cons, Option.map_some'] at h2 ⊢
              exact List.mem_cons_of_mem _ h2

theorem sendToSU_ptrs {clock : Int} {s t : State} (h : sendToSU clock s = .ok t) :
    (∀ p ∈ fuPtrs t.k_0, p ∈ fuPtrs s.k_0) ∧ (∀ p ∈ fuPtrs t.k_1, p ∈ fuPtrs s.k_1) ∧
    (∀ p ∈ fuPtrs t.k_2, p ∈ fuPtrs s.k_2) ∧
    (∀ p ∈ supPtrs t.sup, p ∈ supPtrs s.sup ∨
      (p ∈ fuPtrs s.k_0 ++ fuPtrs s.k_1 ++ fuPtrs s.k_2 ∧ (t.heap p).state = clock)) := by
  unfold sendToSU at h
  split at h
  · cases h
  · rename_i h0
    split at h
    · cases h
    · rename_i h1
      split at h
      · cases h
      · rename_i h2
        cases h
        obtain ⟨a0, b0⟩ := sendToSUPool_ptrs _ _ _ _ _ h0
        obtain ⟨a1, b1⟩ := sendToSUPool_ptrs _ _ _ _ _ h1
        obtain ⟨a2, b2⟩ := sendToSUPool_ptrs _ _ _ _ _ h2
        refine ⟨a0, a1, a2, ?_⟩
        intro p hp
        simp only [List.mem_append]
        rcases b2 p hp with c2 | ⟨c2, d2⟩
        · rcases b1 p c2 with c1 | ⟨c1, d1⟩
          · rcases b0 p c1 with c0 | ⟨c0, d0⟩
            · exact Or.inl c0
            · refine Or.inr ⟨Or.inl (Or.inl c0), ?_⟩
              exact stateStamped_state (sendToSUPool_heap _ _ _ _ _ h2 p)
                (stateStamped_state (sendToSUPool_heap _ _ _ _ _ h1 p) d0)
          · exact Or.inr ⟨Or.inl (Or.inr c1),
              stateStamped_state (sendToSUPool_heap _ _ _ _ _ h2 p) d1⟩
        · exact Or.inr ⟨Or.inr c2, d2⟩

theorem putInFUSlot_ptrs (n : execute_node) : ∀ (k k' : List (Option execute_node)),
    putInFUSlot n k = some k' → ∀ p ∈ fuPtrs k', p ∈ fuPtrs k ∨ p = n.theInstr := by
  intro k
  induction k with
  | nil => intro k' h; cases h
  | cons x rest ih =>
    intro k' h p hp
    cases x with
    | none =>
      rw [putInFUSlot] at h; cases h
      simp only [fuPtrs, List.filterMap_cons, Option.map_some', Option.map_none',
        List.mem_cons] at hp ⊢
      rcases hp with h1 | h1
      · exact Or.inr h1
      · exact Or.inl h1
    | some m =>
      rw [putInFUSlot] at h
      split at h
      · cases h
      · rename_i r hr
        cases h
        simp only [fuPtrs, List.filterMap_cons, Option.map_some', List.mem_cons] at hp ⊢
        rcases hp with h1 | h1
        · exact Or.inl (Or.inl h1)
        · rcases ih _ hr p h1 with h2 | h2
          · exact Or.inl (Or.inr h2)
          · exact Or.inr h2

theorem putInFU_ptrs {p : Nat} {fu clock : Int} {s t : State}
    (h : putInFU p fu clock s = .ok t) :
    ∀ x ∈ fuPtrs t.k_0 ++ fuPtrs t.k_1 ++ fuPtrs t.k_2,
      x ∈ fuPtrs s.k_0 ++ fuPtrs s.k_1 ++ fuPtrs s.k_2 ∨ x = p := by
  unfold putInFU at h
  simp only at h
  intro x hx
  simp only [List.mem_append] at hx ⊢
  split at h
  · split at h
    · rename_i k hk; cases h
      rcases hx with (h1 | h1) | h1
      · rcases putInFUSlot_ptrs _ _ _ hk x h1 with h2 | h2
        · exact Or.inl (Or.inl (Or.inl h2))
        · exact Or.inr h2
      · exact Or.inl (Or.inl (Or.inr h1))
      · exact Or.inl (Or.inr h1)
    · cases h
  · split at h
    · split at h
      · rename_i k hk; cases h
        rcases hx with (h1 | h1) | h1
        · exact Or.inl (Or.inl (Or.inl h1))
        · rcases putInFUSlot_ptrs _ _ _ hk x h1 with h2 | h2
          · exact Or.inl (Or.inl (Or.inr h2))
          · exact Or.inr h2
        · exact Or.inl (Or.inr h1)
      · cases h
    · split at h
      · split at h
        · rename_i k hk; cases h
          rcases hx with (h1 | h1) | h1
          · exact Or.inl (Or.inl (Or.inl h1))
          · exact Or.inl (Or.inl (Or.inr h1))
          · rcases putInFUSlot_ptrs _ _ _ hk x h1 with h2 | h2
            · exact Or.inl (Or.inr h2)
            · exact Or.inr h2
        · cases h
      · cases h

/-- `moveToExecute` stamps `exec` on exactly the pointers of the nodes it hands
over, and the functional units gain no other pointer. -/
theorem moveToExecuteLoop_effect (clock : Int) : ∀ (q : List schedule_node) {s t : State}
    {r : List schedule_node}, moveToExecuteLoop clock q s = .ok (r, t) →
    (∀ x, t.heap x = if x ∈ pendingPtrs q then { s.heap x with exec := clock } else s.heap x) ∧
      (∀ x ∈ fuPtrs t.k_0 ++ fuPtrs t.k_1 ++ fuPtrs t.k_2,
        x ∈ fuPtrs s.k_0 ++ fuPtrs s.k_1 ++ fuPtrs s.k_2 ∨ x ∈ pendingPtrs q) := by
  intro q
  induction q with
  | nil =>
    intro s t r h; cases h
    exact ⟨fun x => by simp [pendingPtrs], fun x hx => Or.inl hx⟩
  | cons n rest ih =>
    intro s t r h
    rw [moveToExecuteLoop] at h
    split at h
    · rename_i hc
      split at h
      · cases h
      · rename_i s1 h1
        split at h
        · cases h
        · rename_i r2 s2 h2
          cases h
          obtain ⟨a, b⟩ := ih h2
          have hpp : pendingPtrs (n :: rest) = n.theInstr :: pendingPtrs rest := by
            simp [pendingPtrs, hc]
          obtain ⟨_, _, _, e1⟩ := putInFU_shape h1
          have eh : s1.heap = setInstr s.heap n.theInstr { s.heap n.theInstr with exec := clock } := by
            rw [e1]
          refine ⟨?_, ?_⟩
          · intro x
            rw [a x, eh, hpp]
            by_cases hx : x = n.theInstr
            · subst hx
              simp only [setInstr_same, List.mem_cons, true_or, if_true]
              split <;> rfl
            · simp only [setInstr_other _ _ hx, List.mem_cons, hx, false_or]
          · intro x hx
            rw [hpp]
            rcases b x hx with h3 | h3
            · rcases putInFU_ptrs h1 x h3 with h4 | h4
              · exact Or.inl h4
              · exact Or.inr (by rw [h4]; exact List.mem_cons_self _ _)
            · exact Or.inr (List.mem_cons_of_mem _ h3)
    · rename_i hc
      split at h
      · cases h
      · rename_i r2 s2 h2
        cases h
        have hpp : pendingPtrs (n :: rest) = pendingPtrs rest := by
          simp [pendingPtrs, hc]
        rw [hpp]
        exact ih h2

theorem moveToExecute_effect {clock : Int} {s t : State} (h : moveToExecute clock s = .ok t) :
    (∀ x, t.heap x = if x ∈ pendingPtrs s.schedule_head then { s.heap x with exec := clock }
      else s.heap x) ∧
    (∀ x ∈ fuPtrs t.k_0 ++ fuPtrs t.k_1 ++ fuPtrs t.k_2,
      x ∈ fuPtrs s.k_0 ++ fuPtrs s.k_1 ++ fuPtrs s.k_2 ∨ x ∈ pendingPtrs s.schedule_head) ∧
    t.schedule_head = s.schedule_head.map
      (fun n => if n.sendToExecute = 1 ∧ n.waiting = 0 then { n with waiting := 1 } else n) := by
  unfold moveToExecute at h
  split at h
  · cases h
  · rename_i q s1 h1
    cases h
    obtain ⟨a, b⟩ := moveToExecuteLoop_effect _ _ h1
    exact ⟨a, b, moveToExecuteLoop_map _ _ h1⟩

theorem stampSched_apply (clock : Int) : ∀ (ps : List Nat) (hp : Nat → instr) (x : Nat),
    stampSched clock ps hp x = if x ∈ ps then { hp x with sched := clock } else hp x := by
  intro ps
  induction ps with
  | nil => intro hp x; simp [stampSched]
  | cons p rest ih =>
    intro hp x
    rw [stampSched, ih]
    by_cases hx : x = p
    · subst hx
      simp only [setInstr_same, List.mem_cons, true_or, if_true]
      split <;> rfl
    · simp only [setInstr_other _ _ hx, List.mem_cons, hx, false_or]

theorem dispStamped_trans {c : Int} {a b d : instr} (h1 : dispStamped c a b)
    (h2 : dispStamped c b d) : dispStamped c a d := by
  rcases h1 with rfl | ⟨cp, rfl⟩
  · exact h2
  · rcases h2 with rfl | ⟨cp', rfl⟩
    · exact Or.inr ⟨cp, rfl⟩
    · exact Or.inr ⟨cp', rfl⟩

theorem dispStamped_disp {c : Int} {a b : instr} (h : dispStamped c a b) (ha : a.disp = c) :
    b.disp = c := by
  rcases h with rfl | ⟨cp, rfl⟩
  · exact ha
  · rfl

theorem predictBranch_instr {i0 i1 : instr} {s : State} {st : stats}
    (h : predictBranch i0 s = .ok (i1, st)) : ∃ cp, i1 = { i0 with correct_pred := cp } := by
  unfold predictBranch at h
  split at h
  · split at h
    · cases h
    · split at h
      · cases h; exact ⟨1, rfl⟩
      · cases h; exact ⟨0, rfl⟩
  · cases h; exact ⟨i0.correct_pred, rfl⟩

/-- `dispatch_Enqueue` moves a prefix of the fetch buffer to the tail of the
dispatch queue, unmarked, and stamps `disp` on the moved instructions only. -/
theorem dispatch_EnqueueLoop_effect (cycle : Int) : ∀ (n : Nat) {s t : State},
    dispatch_EnqueueLoop cycle n s = .ok t →
    ∃ moved, s.fetchQueue = moved ++ t.fetchQueue ∧
      t.dispatch_head = s.dispatch_head ++
        moved.map (fun p => ({ theInstr := p, mark_for_move := 0 } : dispatch_node)) ∧
      (∀ x, dispStamped cycle (s.heap x) (t.heap x)) ∧
      (∀ x ∈ moved, (t.heap x).disp = cycle) ∧
      (∀ x, x ∉ moved → t.heap x = s.heap x) ∧ moved.length ≤ n := by
  intro n
  induction n with
  | zero =>
    intro s t h; cases h
    exact ⟨[], rfl, by simp, fun x => Or.inl rfl, by simp, fun x _ => rfl, by simp⟩
  | succ n ih =>
    intro s t h
    rw [dispatch_EnqueueLoop] at h
    split at h
    · cases h
      exact ⟨[], rfl, by simp, fun x => Or.inl rfl, by simp, fun x _ => rfl, by simp⟩
    · rename_i p rest hf
      split at h
      · split at h
        · cases h
        · rename_i i1 st hpb
          obtain ⟨cp, rfl⟩ := predictBranch_instr hpb
          have key : ∀ (s1 : State), s1.fetchQueue = rest →
              s1.dispatch_head = s.dispatch_head ++ [{ theInstr := p, mark_for_move := 0 }] →
              s1.heap = setInstr s.heap p
                { ({ s.heap p with disp := cycle } : instr) with correct_pred := cp } →
              dispatch_EnqueueLoop cycle n s1 = .ok t →
              ∃ moved, s.fetchQueue = moved ++ t.fetchQueue ∧
                t.dispatch_head = s.dispatch_head ++
                  moved.map (fun p => ({ theInstr := p, mark_for_move := 0 } : dispatch_node)) ∧
                (∀ x, dispStamped cycle (s.heap x) (t.heap x)) ∧
                (∀ x ∈ moved, (t.heap x).disp = cycle) ∧
                (∀ x, x ∉ moved → t.heap x = s.heap x) ∧ moved.length ≤ n + 1 := by
            intro s1 e1 e2 e3 h1
            obtain ⟨m, a, b, c, d, e, f⟩ := ih h1
            have hst : ∀ x, dispStamped cycle (s.heap x) (s1.heap x) := by
              intro x
              rw [e3]
              by_cases hx : x = p
              · subst hx; rw [setInstr_same]; exact Or.inr ⟨cp, rfl⟩
              · rw [setInstr_other _ _ hx]; exact Or.inl rfl
            refine ⟨p :: m, ?_, ?_, ?_, ?_, ?_, ?_⟩
            · rw [hf, ← e1, a]; rfl
            · rw [b, e2]; simp
            · exact fun x => dispStamped_trans (hst x) (c x)
            · intro x hx
              simp only [List.mem_cons] at hx
              rcases hx with rfl | hx
              · refine dispStamped_disp (c x) ?_
                rw [e3, setInstr_same]
              · exact d x hx
            · intro x hx
              simp only [List.mem_cons, not_or] at hx
              rw [e x hx.2, e3, setInstr_other _ _ hx.1]
            · simp; omega
          split at h
          · split at h
            · exact key _ rfl rfl rfl h
            · cases h
          · exact key _ rfl rfl rfl h
      · cases h
        exact ⟨[], rfl, by simp, fun x => Or.inl rfl, by simp, fun x _ => rfl, by simp⟩

/-- The trace read of one iteration allocates consecutive pointers, appends them
to the fetch buffer stamped with the current clock and tagged consecutively,
and leaves the older records alone. -/
theorem readTrace_effect : ∀ (f : Nat) (s : State),
    ∃ (k : Nat) (consumed : List TraceLine),
      (readTrace f s).nalloc = s.nalloc + k ∧
      (readTrace f s).fetchQueue = s.fetchQueue ++ List.range' s.nalloc k ∧
      (readTrace f s).tag = s.tag + (k : Int) ∧
      (readTrace f s).clock = s.clock ∧
      s.trace = consumed ++ (readTrace f s).trace ∧
      k = (consumed.filter TraceLine.isInstr).length ∧ consumed.length ≤ f ∧
      ((readTrace f s).trace ≠ [] → consumed.length = f) ∧
      (∀ x, x < s.nalloc → (readTrace f s).heap x = s.heap x) ∧
      (∀ j, j < k → ((readTrace f s).heap (s.nalloc + j)).fetch = s.clock ∧
        ((readTrace f s).heap (s.nalloc + j)).dest_tag = s.tag + (j : Int)) := by
  intro f
  induction f with
  | zero =>
    intro s
    exact ⟨0, [], rfl, by simp [readTrace], by simp [readTrace], rfl, rfl, rfl, by simp, by simp,
      fun x _ => rfl, by simp⟩
  | succ f ih =>
    intro s
    rw [readTrace]
    split
    · rename_i ht
      obtain ⟨k, c, a1, a2, a3, a4, a5, a6, a7, a8, a9, a10⟩ := ih s
      have hc : c = [] := by
        rw [ht] at a5
        simpa using (List.append_eq_nil.1 a5.symm).1
      subst hc
      refine ⟨k, [], a1, a2, a3, a4, by simpa using a5, a6, by simp, ?_, a9, a10⟩
      intro hne
      rw [ht] at a5
      simp only [List.nil_append] at a5
      exact absurd a5.symm hne
    · rename_i rest ht
      obtain ⟨k, c, a1, a2, a3, a4, a5, a6, a7, a8, a9, a10⟩ := ih { s with trace := rest }
      refine ⟨k, TraceLine.malformed :: c, a1, a2, a3, a4, ?_, ?_, ?_, ?_, a9, a10⟩
      · rw [ht, List.cons_append]; exact congrArg (List.cons _) a5
      · simpa [TraceLine.isInstr] using a6
      · simp; omega
      · intro hne; simp [a8 hne]
    · rename_i address fu dest s1 s2 rest ht
      generalize hS : addToFetchQueue
        (createInstruction address fu dest s1 s2 (-5) (-5) s.tag s.clock 0 (-1) (-1) (-1))
        { s with trace := rest } = S'
      have e1 : S'.nalloc = s.nalloc + 1 := by rw [← hS]; rfl
      have e2 : S'.fetchQueue = s.fetchQueue ++ [s.nalloc] := by rw [← hS]; rfl
      have e3 : S'.tag = s.tag + 1 := by rw [← hS]; rfl
      have e4 : S'.clock = s.clock := by rw [← hS]; rfl
      have e5 : S'.trace = rest := by rw [← hS]; rfl
      have e6 : S'.heap = setInstr s.heap s.nalloc
          (createInstruction address fu dest s1 s2 (-5) (-5) s.tag s.clock 0 (-1) (-1) (-1)) := by
        rw [← hS]; rfl
      obtain ⟨k, c, a1, a2, a3, a4, a5, a6, a7, a8, a9, a10⟩ := ih S'
      rw [e1] at a1 a9 a10
      rw [e2, e1] at a2
      rw [e3] at a3 a10
      rw [e4] at a4 a10
      rw [e5] at a5
      refine ⟨k + 1, TraceLine.plain address fu dest s1 s2 :: c, ?_, ?_, ?_, a4, ?_, ?_, ?_, ?_,
        ?_, ?_⟩
      · rw [a1]; omega
      · rw [a2, List.range'_succ]; simp
      · rw [a3]; push_cast; ring
      · rw [ht, List.cons_append]; exact congrArg (List.cons _) a5
      · simp [TraceLine.isInstr, a6]
      · simp; omega
      · intro hne; simp [a8 hne]
      · intro x hx
        rw [a9 x (by omega), e6, setInstr_other _ _ (by omega)]
      · intro j hj
        cases j with
        | zero =>
          rw [Nat.add_zero, a9 _ (by omega), e6, setInstr_same]
          simp [createInstruction]
        | succ j =>
          have := a10 j (by omega)
          rw [show s.nalloc + (j + 1) = s.nalloc + 1 + j by omega]
          refine ⟨this.1, ?_⟩
          rw [this.2]; push_cast; ring
    · rename_i address fu dest s1 s2 taken rest ht
      generalize hS : addToFetchQueue
        (createInstruction address fu dest s1 s2 (-5) (-5) s.tag s.clock 1 taken (-1) 0)
        { s with trace := rest } = S'
      have e1 : S'.nalloc = s.nalloc + 1 := by rw [← hS]; rfl
      have e2 : S'.fetchQueue = s.fetchQueue ++ [s.nalloc] := by rw [← hS]; rfl
      have e3 : S'.tag = s.tag + 1 := by rw [← hS]; rfl
      have e4 : S'.clock = s.clock := by rw [← hS]; rfl
      have e5 : S'.trace = rest := by rw [← hS]; rfl
      have e6 : S'.heap = setInstr s.heap s.nalloc
          (createInstruction address fu dest s1 s2 (-5) (-5) s.tag s.clock 1 taken (-1) 0) := by
        rw [← hS]; rfl
      obtain ⟨k, c, a1, a2, a3, a4, a5, a6, a7, a8, a9, a10⟩ := ih S'
      rw [e1] at a1 a9 a10
      rw [e2, e1] at a2
      rw [e3] at a3 a10
      rw [e4] at a4 a10
      rw [e5] at a5
      refine ⟨k + 1, TraceLine.branchLine address fu dest s1 s2 taken :: c, ?_, ?_, ?_, a4, ?_, ?_, ?_, ?_,
        ?_, ?_⟩
      · rw [a1]; omega
      · rw [a2, List.range'_succ]; simp
      · rw [a3]; push_cast; ring
      · rw [ht, List.cons_append]; exact congrArg (List.cons _) a5
      · simp [TraceLine.isInstr, a6]
      · simp; omega
      · intro hne; simp [a8 hne]
      · intro x hx
        rw [a9 x (by omega), e6, setInstr_other _ _ (by omega)]
      · intro j hj
        cases j with
        | zero =>
          rw [Nat.add_zero, a9 _ (by omega), e6, setInstr_same]
          simp [createInstruction]
        | succ j =>
          have := a10 j (by omega)
          rw [show s.nalloc + (j + 1) = s.nalloc + 1 + j by omega]
          refine ⟨this.1, ?_⟩
          rw [this.2]; push_cast; ring

/-! ## Calls that move nothing -/

theorem sameStamps_refl (a : instr) : sameStamps a a := ⟨rfl, rfl, rfl, rfl, rfl, rfl⟩

theorem sameStamps_trans {a b c : instr} (h1 : sameStamps a b) (h2 : sameStamps b c) :
    sameStamps a c := by
  obtain ⟨a1, a2, a3, a4, a5, a6⟩ := h1
  obtain ⟨b1, b2, b3, b4, b5, b6⟩ := h2
  exact ⟨by rw [b1, a1], by rw [b2, a2], by rw [b3, a3], by rw [b4, a4], by rw [b5, a5],
    by rw [b6, a6]⟩

theorem sourcesSet_sameStamps {a b : instr} (h : sourcesSet a b) : sameStamps a b := by
  obtain ⟨t1, r1, t2, r2, rfl⟩ := h
  exact ⟨rfl, rfl, rfl, rfl, rfl, rfl⟩

theorem resolvedSet_sameStamps {a b : instr} (h : resolvedSet a b) : sameStamps a b := by
  rcases h with rfl | rfl <;> exact ⟨rfl, rfl, rfl, rfl, rfl, rfl⟩

theorem sourcesSet_refl (a : instr) : sourcesSet a a :=
  ⟨a.source1_tag, a.source1_ready, a.source2_tag, a.source2_ready, rfl⟩

theorem sourcesSet_trans {a b c : instr} (h1 : sourcesSet a b) (h2 : sourcesSet b c) :
    sourcesSet a c := by
  obtain ⟨t1, r1, t2, r2, rfl⟩ := h1
  obtain ⟨t1', r1', t2', r2', rfl⟩ := h2
  exact ⟨t1', r1', t2', r2', rfl⟩

theorem sourcesSet_setInstr (hp : Nat → instr) (p : Nat) (v : instr) (hv : sourcesSet (hp p) v) :
    ∀ x, sourcesSet (hp x) (setInstr hp p v x) := by
  intro x
  by_cases hx : x = p
  · subst hx; rw [setInstr_same]; exact hv
  · rw [setInstr_other _ _ hx]; exact sourcesSet_refl _

theorem readUpdateRegFileLoop_heap (nr : Nat) (tm : Int) : ∀ (d : List dispatch_node) (c : Int)
    (hp : Nat → instr) (rf : Int → Int × Int) {hp' : Nat → instr} {rf' : Int → Int × Int},
    readUpdateRegFileLoop nr tm d c hp rf = .ok (hp', rf') →
    ∀ x, sourcesSet (hp x) (hp' x) := by
  intro d
  induction d with
  | nil => intro c hp rf hp' rf' h x; cases h; exact sourcesSet_refl _
  | cons n rest ih =>
    intro c hp rf hp' rf' h x
    rw [readUpdateRegFileLoop] at h
    split at h
    · cases h; exact sourcesSet_refl _
    · split at h
      · simp only at h
        split at h
        · cases h
        · rename_i t1 r1 _
          split at h
          · cases h
          · rename_i t2 r2 _
            have key := sourcesSet_setInstr hp n.theInstr
              { hp n.theInstr with source1_tag := t1, source1_ready := r1,
                                   source2_tag := t2, source2_ready := r2 }
              ⟨t1, r1, t2, r2, rfl⟩ x
            split at h
            · exact sourcesSet_trans key (ih _ _ _ h x)
            · split at h
              · exact sourcesSet_trans key (ih _ _ _ h x)
              · cases h
      · exact ih _ _ _ h x

theorem broadcastSrc1_heap (u p : Nat) (hp : Nat → instr) :
    ∀ x, sourcesSet (hp x) (broadcastSrc1 u p hp x) := by
  unfold broadcastSrc1
  split
  · exact sourcesSet_setInstr hp p _ ⟨-5, 1, (hp p).source2_tag, (hp p).source2_ready, rfl⟩
  · exact fun x => sourcesSet_refl _

theorem broadcastSrc2_heap (u p : Nat) (hp : Nat → instr) :
    ∀ x, sourcesSet (hp x) (broadcastSrc2 u p hp x) := by
  unfold broadcastSrc2
  split
  · exact sourcesSet_setInstr hp p _ ⟨(hp p).source1_tag, (hp p).source1_ready, -5, 1, rfl⟩
  · exact fun x => sourcesSet_refl _

theorem broadcastNode_heap (u : Nat) (n : schedule_node) (hp : Nat → instr) :
    ∀ x, sourcesSet (hp x) ((broadcastNode u n hp).2 x) := by
  intro x
  unfold broadcastNode
  split
  · split <;>
      exact sourcesSet_trans (broadcastSrc1_heap u n.theInstr hp x)
        (broadcastSrc2_heap u n.theInstr _ x)
  · exact sourcesSet_refl _

theorem broadcastPass_heap (u : Nat) : ∀ (q : List schedule_node) (hp : Nat → instr),
    ∀ x, sourcesSet (hp x) ((broadcastPass u q hp).2 x) := by
  intro q
  induction q with
  | nil => intro hp x; exact sourcesSet_refl _
  | cons n rest ih =>
    intro hp x
    simp only [broadcastPass]
    exact sourcesSet_trans (broadcastNode_heap u n hp x) (ih _ x)

theorem broadcastToSchedLoop_heap : ∀ (u : List (Option Nat)) (q : List schedule_node)
    (hp : Nat → instr), ∀ x, sourcesSet (hp x) ((broadcastToSchedLoop u q hp).2 x) := by
  intro u
  induction u with
  | nil => intro q hp x; exact sourcesSet_refl _
  | cons y rest ih =>
    intro q hp x
    cases y with
    | none => exact ih q hp x
    | some p =>
      simp only [broadcastToSchedLoop]
      exact sourcesSet_trans (broadcastPass_heap p q hp x) (ih _ _ x)

theorem markScheduleEntriesLoop_flags (hp : Nat → instr) (f1 f2 : Int) :
    ∀ (q : List schedule_node) (o : Int),
    ∀ n' ∈ markScheduleEntriesLoop hp f1 f2 q o, ∃ n ∈ q, n'.theInstr = n.theInstr ∧
      n'.waiting = n.waiting := by
  intro q
  induction q with
  | nil => intro o n' h; simp [markScheduleEntriesLoop] at h
  | cons m rest ih =>
    intro o n' h
    rw [markScheduleEntriesLoop] at h
    split at h
    · split at h
      · simp only [List.mem_cons] at h
        rcases h with rfl | h
        · exact ⟨m, List.mem_cons_self _ _, rfl, rfl⟩
        · obtain ⟨n, hn, e⟩ := ih _ n' h
          exact ⟨n, List.mem_cons_of_mem _ hn, e⟩
      · simp only [List.mem_cons] at h
        rcases h with rfl | h
        · exact ⟨n', List.mem_cons_self _ _, rfl, rfl⟩
        · obtain ⟨n, hn, e⟩ := ih _ n' h
          exact ⟨n, List.mem_cons_of_mem _ hn, e⟩
    · exact ⟨n', h, rfl, rfl⟩

theorem markChosen_ptrs : ∀ (k : List (Option execute_node)) (i : Nat),
    fuPtrs (markChosen k i) = fuPtrs k := by
  intro k
  induction k with
  | nil => intro i; rfl
  | cons x rest ih =>
    intro i
    cases i with
    | zero => cases x <;> simp [markChosen, fuPtrs]
    | succ i =>
      have := ih i
      cases x <;> simp only [markChosen, fuPtrs, List.filterMap_cons, Option.map_none',
        Option.map_some'] at this ⊢ <;> rw [this]

theorem setToChosenLoop_ptrs : ∀ (d p : Nat) {s t : State},
    setToChosenLoop d p s = .ok t →
    fuPtrs t.k_0 = fuPtrs s.k_0 ∧ fuPtrs t.k_1 = fuPtrs s.k_1 ∧ fuPtrs t.k_2 = fuPtrs s.k_2 := by
  intro d
  induction d with
  | zero => intro p s t h; rw [setToChosenLoop] at h; cases h; exact ⟨rfl, rfl, rfl⟩
  | succ d ih =>
    intro p s t h
    cases p with
    | zero => rw [setToChosenLoop] at h; cases h; exact ⟨rfl, rfl, rfl⟩
    | succ p =>
      rw [setToChosenLoop] at h
      split at h
      · cases h
      · rename_i pool i _
        split at h
        · obtain ⟨a, b, c⟩ := ih _ h
          exact ⟨by rw [a]; exact markChosen_ptrs _ _, b, c⟩
        · split at h
          · obtain ⟨a, b, c⟩ := ih _ h
            exact ⟨a, by rw [b]; exact markChosen_ptrs _ _, c⟩
          · obtain ⟨a, b, c⟩ := ih _ h
            exact ⟨a, b, by rw [c]; exact markChosen_ptrs _ _⟩

theorem Quiet_refl (s : State) : Quiet s s :=
  ⟨fun _ => sameStamps_refl _, rfl, rfl, rfl, rfl, rfl, rfl, fun n h => ⟨n, h, rfl, rfl⟩,
    rfl, rfl, rfl⟩

theorem Quiet_trans {s t u : State} (h1 : Quiet s t) (h2 : Quiet t u) : Quiet s u := by
  obtain ⟨a1, a2, a3, a4, a5, a6, a7, a8, a9, a10, a11⟩ := h1
  obtain ⟨b1, b2, b3, b4, b5, b6, b7, b8, b9, b10, b11⟩ := h2
  refine ⟨fun p => sameStamps_trans (a1 p) (b1 p), by rw [b2, a2], by rw [b3, a3],
    by rw [b4, a4], by rw [b5, a5], by rw [b6, a6], by rw [b7, a7], ?_,
    by rw [b9, a9], by rw [b10, a10], by rw [b11, a11]⟩
  intro n hn
  obtain ⟨m, hm, e1, e2⟩ := b8 n hn
  obtain ⟨k, hk, f1, f2⟩ := a8 m hm
  exact ⟨k, hk, by rw [e1, f1], by rw [e2, f2]⟩

theorem resolveBranches_quiet {s t : State} (h : resolveBranches s = .ok t) : Quiet s t := by
  have hh := resolveBranches_heap h
  obtain ⟨_, _, _, _, rfl⟩ := resolveBranches_shape h
  exact ⟨fun p => resolvedSet_sameStamps (hh p), rfl, rfl, rfl, rfl, rfl, rfl,
    fun n h => ⟨n, h, rfl, rfl⟩, rfl, rfl, rfl⟩

theorem updateDispatchQueueSize_quiet (s : State) : Quiet s (updateDispatchQueueSize s) := by
  obtain ⟨_, e⟩ := updateDispatchQueueSize_shape s
  rw [e]
  exact ⟨fun p => sameStamps_refl _, rfl, rfl, rfl, rfl, rfl, rfl, fun n h => ⟨n, h, rfl, rfl⟩,
    rfl, rfl, rfl⟩

theorem writeToRegFile_quiet {s t : State} (h : writeToRegFile s = .ok t) : Quiet s t := by
  obtain ⟨_, rfl⟩ := writeToRegFile_shape h
  exact ⟨fun p => sameStamps_refl _, rfl, rfl, rfl, rfl, rfl, rfl, fun n h => ⟨n, h, rfl, rfl⟩,
    rfl, rfl, rfl⟩

theorem setToFired_quiet (s : State) : Quiet s (setToFired s) := by
  refine ⟨fun p => sameStamps_refl _, rfl, rfl, rfl, rfl, rfl, rfl, ?_, rfl, rfl, rfl⟩
  intro n hn
  obtain ⟨m, hm, e1, -, e3⟩ := setToFiredLoop_flags _ _ n hn
  exact ⟨m, hm, e1, e3⟩

theorem reserveScheduleSpots_quiet {s t : State} (h : reserveScheduleSpots s = .ok t) :
    Quiet s t := by
  obtain ⟨e1, -, -⟩ := reserveScheduleSpots_spec h
  have hd : t.dispatch_head.map (·.theInstr) = s.dispatch_head.map (·.theInstr) := by
    rw [e1]
    conv_rhs => rw [← List.take_append_drop
      ((s.curr_Config.max_sched_queue : Int) - s.schedule_size).toNat s.dispatch_head]
    simp only [List.map_append, List.map_map]
    rfl
  obtain ⟨_, _, rfl⟩ := reserveScheduleSpots_shape h
  exact ⟨fun p => sameStamps_refl _, rfl, hd, rfl, rfl, rfl, rfl, fun n h => ⟨n, h, rfl, rfl⟩,
    rfl, rfl, rfl⟩

theorem readUpdateRegFile_quiet {tm : Int} {s t : State} (h : readUpdateRegFile tm s = .ok t) :
    Quiet s t := by
  have hh : ∀ x, sourcesSet (s.heap x) (t.heap x) := by
    unfold readUpdateRegFile at h
    split at h
    · cases h
    · rename_i hp rf h1
      cases h
      exact readUpdateRegFileLoop_heap _ _ _ _ _ _ h1
  obtain ⟨_, _, rfl⟩ := readUpdateRegFile_shape h
  exact ⟨fun p => sourcesSet_sameStamps (hh p), rfl, rfl, rfl, rfl, rfl, rfl,
    fun n h => ⟨n, h, rfl, rfl⟩, rfl, rfl, rfl⟩

theorem broadcastToSched_quiet (s : State) : Quiet s (broadcastToSched s) := by
  refine ⟨fun p => sourcesSet_sameStamps (broadcastToSchedLoop_heap _ _ _ p), rfl, rfl, rfl, rfl,
    rfl, rfl, ?_, rfl, rfl, rfl⟩
  intro n hn
  obtain ⟨m, hm, e1, -, e3⟩ := broadcastToSchedLoop_flags _ _ _ n hn
  exact ⟨m, hm, e1, e3⟩

theorem removeAllSUFromSched_quiet {s t : State} (h : removeAllSUFromSched s = .ok t) :
    Quiet s t := by
  have hs := removeAllSUFromSched_subset h
  obtain ⟨_, _, rfl⟩ := removeAllSUFromSched_shape h
  exact ⟨fun p => sameStamps_refl _, rfl, rfl, rfl, rfl, rfl, rfl,
    fun n h => ⟨n, hs n h, rfl, rfl⟩, rfl, rfl, rfl⟩

theorem setToChosen_quiet {s t : State} (h : setToChosen s = .ok t) : Quiet s t := by
  obtain ⟨a, b, c⟩ := setToChosenLoop_ptrs _ _ h
  obtain ⟨_, _, _, rfl⟩ := setToChosen_shape h
  exact ⟨fun p => sameStamps_refl _, rfl, rfl, rfl, rfl, rfl, rfl, fun n h => ⟨n, h, rfl, rfl⟩,
    a, b, c⟩

theorem markForExecution_quiet (s : State) : Quiet s (markForExecution s) := by
  rw [markForExecution_eq]
  refine ⟨fun p => sameStamps_refl _, rfl, rfl, rfl, rfl, rfl, rfl, ?_, rfl, rfl, rfl⟩
  intro n hn
  obtain ⟨n2, h2, e2, f2⟩ := markScheduleEntriesLoop_flags _ _ _ _ _ n hn
  obtain ⟨n1, h1, e1, f1⟩ := markScheduleEntriesLoop_flags _ _ _ _ _ n2 h2
  obtain ⟨n0, h0, e0, f0⟩ := markScheduleEntriesLoop_flags _ _ _ _ _ n1 h1
  exact ⟨n0, h0, by rw [e2, e1, e0], by rw [f2, f1, f0]⟩

/-- Phase C up to `markForExecution`, and the statistics update before it, move
nothing. -/
theorem phaseC_quiet {s t : State} (h : phaseC (updateDispatchQueueSize s) = .ok t) :
    ∃ u, Quiet s u ∧ t = { u with clock := u.clock + 1 } := by
  obtain ⟨w1, w3, w4, w6, w7, g1, g3, g4, g6, g7, rfl⟩ := phaseC_ok h
  refine ⟨markForExecution w7, ?_, rfl⟩
  exact Quiet_trans (Quiet_trans (Quiet_trans (Quiet_trans (Quiet_trans (Quiet_trans
    (Quiet_trans (Quiet_trans (updateDispatchQueueSize_quiet s) (writeToRegFile_quiet g1))
    (setToFired_quiet w1)) (reserveScheduleSpots_quiet g3))
    (readUpdateRegFile_quiet g4)) (broadcastToSched_quiet w4))
    (removeAllSUFromSched_quiet g6)) (setToChosen_quiet g7))
    (markForExecution_quiet w7)

/-! ## Ordered stamps -/

theorem StampInv_init (numRegs k0 k1 k2 R F : Nat) (trace : List TraceLine) (su : Int) :
    StampInv su (proc_init numRegs k0 k1 k2 R F trace) := by
  have hf : ∀ n : Nat, fuPtrs (List.replicate n none) = [] := by
    intro n; induction n with
    | zero => rfl
    | succ n ih => simp [List.replicate_succ, fuPtrs]
  have hs : ∀ n : Nat, supPtrs (List.replicate n (none : Option Nat)) = [] := by
    intro n; induction n with
    | zero => rfl
    | succ n ih => simp [List.replicate_succ, supPtrs]
  simp [StampInv, proc_init, frontPtrs, backPtrs, hf, hs]

theorem mem_backPtrs {s : State} {y : Nat} :
    y ∈ backPtrs s ↔ y ∈ s.schedule_head.map (·.theInstr) ∨
      y ∈ fuPtrs s.k_0 ++ fuPtrs s.k_1 ++ fuPtrs s.k_2 ∨ y ∈ supPtrs s.sup := by
  simp only [backPtrs, List.mem_append, or_assoc]

theorem StampInv_sendToFinal {su su' : Int} {s : State} (h : StampInv su s) :
    StampInv su' (sendToFinal s) := by
  obtain ⟨h1, h2, h3, h4, h5, h6, h7, h8, h9, h10⟩ := h
  have hsup : supPtrs (sendToFinal s).sup = [] := supPtrs_map_none s.sup
  have hb : ∀ y ∈ backPtrs (sendToFinal s), y ∈ backPtrs s := by
    intro y hy
    rw [mem_backPtrs] at hy ⊢
    rcases hy with hy | hy | hy
    · exact Or.inl hy
    · exact Or.inr (Or.inl hy)
    · rw [hsup] at hy; cases hy
  refine ⟨h1, fun y hy => h2 y (hb y hy), h3, fun y hy => h4 y (hb y hy), h5, h6, h7, h8, ?_, ?_⟩
  · intro p hp
    rw [hsup] at hp; cases hp
  · intro r hr
    rcases sendToFinalLoop_mem _ _ _ r hr with h | ⟨p, hp, rfl⟩
    · exact h10 r h
    · exact (h9 p hp).1

theorem stateStamped_fields {c : Int} {a b : instr} (h : stateStamped c a b) :
    b.fetch = a.fetch ∧ b.disp = a.disp ∧ b.sched = a.sched ∧ b.exec = a.exec := by
  rcases h with rfl | rfl <;> exact ⟨rfl, rfl, rfl, rfl⟩

theorem StampInv_sendToSU {s t : State} (hi : StampInv s.clock s)
    (h : sendToSU s.clock s = .ok t) : StampInv t.clock t := by
  obtain ⟨h1, h2, h3, h4, h5, h6, h7, h8, h9, h10⟩ := hi
  obtain ⟨p0, p1, p2, pu⟩ := sendToSU_ptrs h
  have hh := sendToSU_heap h
  have hf := fun p => stateStamped_fields (hh p)
  have hfu : ∀ p ∈ fuPtrs t.k_0 ++ fuPtrs t.k_1 ++ fuPtrs t.k_2,
      p ∈ fuPtrs s.k_0 ++ fuPtrs s.k_1 ++ fuPtrs s.k_2 := by
    intro p hp
    simp only [List.mem_append] at hp ⊢
    rcases hp with (hp | hp) | hp
    · exact Or.inl (Or.inl (p0 p hp))
    · exact Or.inl (Or.inr (p1 p hp))
    · exact Or.inr (p2 p hp)
  have e : t.schedule_head = s.schedule_head ∧ t.dispatch_head = s.dispatch_head ∧
      t.fetchQueue = s.fetchQueue ∧ t.nalloc = s.nalloc ∧ t.clock = s.clock ∧
      t.final_head = s.final_head := by
    obtain ⟨_, _, _, _, _, rfl⟩ := sendToSU_shape h; exact ⟨rfl, rfl, rfl, rfl, rfl, rfl⟩
  obtain ⟨e1, e2, e3, e4, e5, e6⟩ := e
  have hfr : frontPtrs t = frontPtrs s := by simp only [frontPtrs, e2, e3]
  have hb : ∀ y ∈ backPtrs t, y ∈ backPtrs s := by
    intro y hy
    rw [mem_backPtrs] at hy ⊢
    rcases hy with hy | hy | hy
    · exact Or.inl (by rw [← e1]; exact hy)
    · exact Or.inr (Or.inl (hfu y hy))
    · rcases pu y hy with h | ⟨h, -⟩
      · exact Or.inr (Or.inr h)
      · exact Or.inr (Or.inl h)
  rw [StampInv, e5]
  refine ⟨by rw [hfr]; exact h1, ?_, ?_, ?_, ?_, ?_, ?_, ?_, ?_, by rw [e6]; exact h10⟩
  · intro y hy; rw [hfr]; exact h2 y (hb y hy)
  · intro x hx; rw [e4]; rw [hfr] at hx; exact h3 x hx
  · intro y hy; rw [e4]; exact h4 y (hb y hy)
  · intro p hp; rw [e3] at hp; rw [(hf p).1]; exact h5 p hp
  · intro d hd; rw [e2] at hd
    obtain ⟨a, b⟩ := h6 d hd
    obtain ⟨f1, f2, f3, f4⟩ := hf d.theInstr
    exact ⟨by rw [f1, f2]; exact a, by rw [f2]; exact b⟩
  · intro n hn; rw [e1] at hn
    obtain ⟨⟨a, b, c⟩, w⟩ := h7 n hn
    obtain ⟨f1, f2, f3, f4⟩ := hf n.theInstr
    refine ⟨⟨by rw [f1, f2]; exact a, by rw [f2, f3]; exact b, by rw [f3]; exact c⟩, ?_⟩
    intro hw
    obtain ⟨a', b', c', d'⟩ := w hw
    exact ⟨by rw [f1, f2]; exact a, by rw [f2, f3]; exact b, by rw [f3, f4]; exact c',
      by rw [f4]; exact d'⟩
  · intro p hp
    obtain ⟨a, b, c, d⟩ := h8 p (hfu p hp)
    obtain ⟨f1, f2, f3, f4⟩ := hf p
    exact ⟨by rw [f1, f2]; exact a, by rw [f2, f3]; exact b, by rw [f3, f4]; exact c,
      by rw [f4]; exact d⟩
  · intro p hp
    obtain ⟨f1, f2, f3, f4⟩ := hf p
    rcases pu p hp with h | ⟨h, hst⟩
    · obtain ⟨⟨a, b, c, d⟩, st⟩ := h9 p h
      have hst : (t.heap p).state = s.clock := stateStamped_state (hh p) st
      exact ⟨⟨by rw [f1, f2]; exact a, by rw [f2, f3]; exact b, by rw [f3, f4]; exact c,
        by rw [f4, hst, ← st]; exact d⟩, hst⟩
    · obtain ⟨a, b, c, d⟩ := h8 p h
      exact ⟨⟨by rw [f1, f2]; exact a, by rw [f2, f3]; exact b, by rw [f3, f4]; exact c,
        by rw [f4, hst]; exact d⟩, hst⟩

theorem StampInv_quiet {su : Int} {s t : State} (hq : Quiet s t) (hi : StampInv su s) :
    StampInv su t := by
  obtain ⟨h1, h2, h3, h4, h5, h6, h7, h8, h9, h10⟩ := hi
  obtain ⟨q1, q2, q3, q4, q5, q6, q7, q8, q9, q10, q11⟩ := hq
  have hfr : frontPtrs t = frontPtrs s := by simp only [frontPtrs, q2, q3]
  have hb : ∀ y ∈ backPtrs t, y ∈ backPtrs s := by
    intro y hy
    rw [mem_backPtrs] at hy ⊢
    rw [q7, q9, q10, q11] at hy
    rcases hy with hy | hy | hy
    · obtain ⟨n, hn, rfl⟩ := List.mem_map.1 hy
      obtain ⟨m, hm, e, -⟩ := q8 n hn
      exact Or.inl (List.mem_map.2 ⟨m, hm, e.symm⟩)
    · exact Or.inr (Or.inl hy)
    · exact Or.inr (Or.inr hy)
  rw [StampInv, q4, q5, q6, q7, q9, q10, q11, q2, hfr]
  refine ⟨h1, fun y hy => h2 y (hb y hy), h3, fun y hy => h4 y (hb y hy), ?_, ?_, ?_, ?_, ?_, h10⟩
  · intro p hp; rw [(q1 p).2.1]; exact h5 p hp
  · intro d hd
    have hm : d.theInstr ∈ s.dispatch_head.map (·.theInstr) := by
      rw [← q3]; exact List.mem_map_of_mem _ hd
    obtain ⟨d', hd', e⟩ := List.mem_map.1 hm
    obtain ⟨a, b⟩ := h6 d' hd'
    obtain ⟨-, f1, f2, f3, f4, f5⟩ := q1 d.theInstr
    rw [e] at a b
    exact ⟨by rw [f1, f2]; exact a, by rw [f2]; exact b⟩
  · intro n hn
    obtain ⟨m, hm, e1, e2⟩ := q8 n hn
    obtain ⟨⟨a, b, c⟩, w⟩ := h7 m hm
    obtain ⟨-, f1, f2, f3, f4, f5⟩ := q1 n.theInstr
    rw [← e1] at a b c w
    refine ⟨⟨by rw [f1, f2]; exact a, by rw [f2, f3]; exact b, by rw [f3]; exact c⟩, ?_⟩
    intro hw
    obtain ⟨a', b', c', d'⟩ := w (by rw [← e2]; exact hw)
    exact ⟨by rw [f1, f2]; exact a, by rw [f2, f3]; exact b, by rw [f3, f4]; exact c',
      by rw [f4]; exact d'⟩
  · intro p hp
    obtain ⟨a, b, c, d⟩ := h8 p hp
    obtain ⟨-, f1, f2, f3, f4, f5⟩ := q1 p
    exact ⟨by rw [f1, f2]; exact a, by rw [f2, f3]; exact b, by rw [f3, f4]; exact c,
      by rw [f4]; exact d⟩
  · intro p hp
    obtain ⟨⟨a, b, c, d⟩, st⟩ := h9 p hp
    obtain ⟨-, f1, f2, f3, f4, f5⟩ := q1 p
    exact ⟨⟨by rw [f1, f2]; exact a, by rw [f2, f3]; exact b, by rw [f3, f4]; exact c,
      by rw [f4, f5]; exact d⟩, by rw [f5]; exact st⟩

theorem mem_pendingPtrs {q : List schedule_node} {x : Nat} :
    x ∈ pendingPtrs q ↔ ∃ n ∈ q, (n.sendToExecute = 1 ∧ n.waiting = 0) ∧ n.theInstr = x := by
  simp only [pendingPtrs, List.mem_map, List.mem_filter, decide_eq_true_eq, and_assoc]

theorem StampInv_moveToExecute {s t : State} (hi : StampInv s.clock s)
    (h : moveToExecute s.clock s = .ok t) : StampInv t.clock t := by
  obtain ⟨h1, h2, h3, h4, h5, h6, h7, h8, h9, h10⟩ := hi
  obtain ⟨hh, hfu, hq⟩ := moveToExecute_effect h
  have e : t.dispatch_head = s.dispatch_head ∧ t.fetchQueue = s.fetchQueue ∧
      t.nalloc = s.nalloc ∧ t.clock = s.clock ∧ t.final_head = s.final_head ∧ t.sup = s.sup := by
    obtain ⟨_, _, _, _, _, rfl⟩ := moveToExecute_shape h; exact ⟨rfl, rfl, rfl, rfl, rfl, rfl⟩
  obtain ⟨e2, e3, e4, e5, e6, e7⟩ := e
  have hfr : frontPtrs t = frontPtrs s := by simp only [frontPtrs, e2, e3]
  have hptr : t.schedule_head.map (·.theInstr) = s.schedule_head.map (·.theInstr) := by
    rw [hq, List.map_map]
    apply List.map_congr_left
    intro n _
    simp only [Function.comp]
    split <;> rfl
  have hpend : ∀ x ∈ pendingPtrs s.schedule_head, x ∈ s.schedule_head.map (·.theInstr) := by
    intro x hx
    obtain ⟨n, hn, -, rfl⟩ := mem_pendingPtrs.1 hx
    exact List.mem_map_of_mem _ hn
  have hb : ∀ y ∈ backPtrs t, y ∈ backPtrs s := by
    intro y hy
    rw [mem_backPtrs] at hy ⊢
    rw [hptr, e7] at hy
    rcases hy with hy | hy | hy
    · exact Or.inl hy
    · rcases hfu y hy with h | h
      · exact Or.inr (Or.inl h)
      · exact Or.inl (hpend y h)
    · exact Or.inr (Or.inr hy)
  -- the stamps other than `exec` are untouched
  have hf : ∀ x, (t.heap x).fetch = (s.heap x).fetch ∧ (t.heap x).disp = (s.heap x).disp ∧
      (t.heap x).sched = (s.heap x).sched ∧ (t.heap x).state = (s.heap x).state ∧
      ((t.heap x).exec = (s.heap x).exec ∨ (t.heap x).exec = s.clock) := by
    intro x
    rw [hh x]
    split
    · exact ⟨rfl, rfl, rfl, rfl, Or.inr rfl⟩
    · exact ⟨rfl, rfl, rfl, rfl, Or.inl rfl⟩
  have hsched : ∀ x, chainSched (s.heap x) s.clock → chainSched (t.heap x) s.clock := by
    intro x ⟨a, b, c⟩
    obtain ⟨f1, f2, f3, f4, f5⟩ := hf x
    exact ⟨by rw [f1, f2]; exact a, by rw [f2, f3]; exact b, by rw [f3]; exact c⟩
  have hexec : ∀ x, chainExec (s.heap x) s.clock → chainExec (t.heap x) s.clock := by
    intro x ⟨a, b, c, d⟩
    obtain ⟨f1, f2, f3, f4, f5⟩ := hf x
    refine ⟨by rw [f1, f2]; exact a, by rw [f2, f3]; exact b, ?_, ?_⟩
    · rcases f5 with f5 | f5
      · rw [f3, f5]; exact c
      · rw [f3, f5]; omega
    · rcases f5 with f5 | f5
      · rw [f5]; exact d
      · rw [f5]
  have hnew : ∀ x ∈ pendingPtrs s.schedule_head, chainSched (s.heap x) s.clock →
      chainExec (t.heap x) s.clock := by
    intro x hx ⟨a, b, c⟩
    have : t.heap x = { s.heap x with exec := s.clock } := by rw [hh x, if_pos hx]
    rw [this]
    exact ⟨a, b, c, le_refl _⟩
  rw [StampInv, e5, e2, e3, e4, e6, e7, hfr]
  refine ⟨h1, fun y hy => h2 y (hb y hy), h3, fun y hy => h4 y (hb y hy), ?_, ?_, ?_, ?_, ?_, h10⟩
  · intro p hp; rw [(hf p).1]; exact h5 p hp
  · intro d hd
    obtain ⟨a, b⟩ := h6 d hd
    obtain ⟨f1, f2, -⟩ := hf d.theInstr
    exact ⟨by rw [f1, f2]; exact a, by rw [f2]; exact b⟩
  · intro n' hn'
    rw [hq] at hn'
    obtain ⟨n, hn, rfl⟩ := List.mem_map.1 hn'
    obtain ⟨cs, w⟩ := h7 n hn
    by_cases hc : n.sendToExecute = 1 ∧ n.waiting = 0
    · simp only [hc, and_self, if_true]
      refine ⟨hsched _ cs, fun _ => hnew _ (mem_pendingPtrs.2 ⟨n, hn, hc, rfl⟩) cs⟩
    · simp only [hc, if_false]
      exact ⟨hsched _ cs, fun hw => hexec _ (w hw)⟩
  · intro p hp
    rcases hfu p hp with h | h
    · exact hexec p (h8 p h)
    · obtain ⟨n, hn, -, rfl⟩ := mem_pendingPtrs.1 h
      exact hnew _ h (h7 n hn).1
  · intro p hp
    obtain ⟨⟨a, b, c, d⟩, st⟩ := h9 p hp
    obtain ⟨f1, f2, f3, f4, f5⟩ := hf p
    refine ⟨⟨by rw [f1, f2]; exact a, by rw [f2, f3]; exact b, ?_, ?_⟩, by rw [f4]; exact st⟩
    · rcases f5 with f5 | f5
      · rw [f3, f5]; exact c
      · rw [f3, f5]; omega
    · rcases f5 with f5 | f5
      · rw [f5, f4]; exact d
      · rw [f5, f4, st]

theorem mem_markedNodes {v : List dispatch_node} {d : dispatch_node} :
    d ∈ markedNodes v ↔ d ∈ v ∧ d.mark_for_move = 1 := by
  simp [markedNodes, List.mem_filter]

theorem StampInv_dispatchToSchedule {su tm : Int} {s t : State} (hi : StampInv su s)
    (h : dispatchToSchedule s.clock tm s = .ok t) : StampInv su t := by
  obtain ⟨h1, h2, h3, h4, h5, h6, h7, h8, h9, h10⟩ := hi
  obtain ⟨v, hv, hq, hh⟩ := dispatchToSchedule_queue h
  have e : t.fetchQueue = s.fetchQueue ∧ t.nalloc = s.nalloc ∧ t.clock = s.clock ∧
      t.final_head = s.final_head ∧ t.sup = s.sup ∧ t.k_0 = s.k_0 ∧ t.k_1 = s.k_1 ∧
      t.k_2 = s.k_2 := by
    obtain ⟨_, _, _, _, rfl⟩ := dispatchToSchedule_shape h
    exact ⟨rfl, rfl, rfl, rfl, rfl, rfl, rfl, rfl⟩
  obtain ⟨e3, e4, e5, e6, e7, e8, e9, e10⟩ := e
  -- the front pointers split into the visited ones and what is left
  have hfs : frontPtrs s = v.map (·.theInstr) ++ frontPtrs t := by
    simp only [frontPtrs, hv, e3, List.map_append, List.append_assoc]
  rw [hfs] at h1 h2 h3
  have hnd := List.nodup_append.1 h1
  have hM : ∀ x ∈ (markedNodes v).map (·.theInstr), x ∈ v.map (·.theInstr) := by
    intro x hx
    obtain ⟨d, hd, rfl⟩ := List.mem_map.1 hx
    exact List.mem_map_of_mem _ (mem_markedNodes.1 hd).1
  have hMfront : ∀ x ∈ (markedNodes v).map (·.theInstr), x ∉ frontPtrs t :=
    fun x hx hx' => hnd.2.2 (hM x hx) hx'
  have hMback : ∀ x ∈ (markedNodes v).map (·.theInstr), x ∉ backPtrs s :=
    fun x hx hx' => h2 x hx' (List.mem_append_left _ (hM x hx))
  have hb : ∀ y ∈ backPtrs t, y ∈ backPtrs s ∨ y ∈ (markedNodes v).map (·.theInstr) := by
    intro y hy
    rw [mem_backPtrs] at hy
    rw [hq, e7, e8, e9, e10, List.map_append, List.mem_append] at hy
    rcases hy with (hy | hy) | hy | hy
    · exact Or.inl (mem_backPtrs.2 (Or.inl hy))
    · right
      simpa [List.map_map, newScheduleNode, Function.comp] using hy
    · exact Or.inl (mem_backPtrs.2 (Or.inr (Or.inl hy)))
    · exact Or.inl (mem_backPtrs.2 (Or.inr (Or.inr hy)))
  have hsame : ∀ x, x ∉ (markedNodes v).map (·.theInstr) → t.heap x = s.heap x := by
    intro x hx
    rw [hh, stampSched_apply, if_neg hx]
  have hbs : ∀ x ∈ backPtrs s, t.heap x = s.heap x :=
    fun x hx => hsame x (fun hx' => hMback x hx' hx)
  rw [StampInv, e4, e5, e6, e7, e8, e9, e10]
  refine ⟨hnd.2.1, ?_, ?_, ?_, ?_, ?_, ?_, ?_, ?_, h10⟩
  · intro y hy
    rcases hb y hy with h | h
    · exact fun hx => h2 y h (List.mem_append_right _ hx)
    · exact hMfront y h
  · exact fun x hx => h3 x (List.mem_append_right _ hx)
  · intro y hy
    rcases hb y hy with h | h
    · exact h4 y h
    · exact h3 y (List.mem_append_left _ (hM y h))
  · intro p hp
    rw [hsame p (fun hx => hMfront p hx (by simp only [frontPtrs, List.mem_append]; exact Or.inr hp))]
    rw [e3] at hp
    exact h5 p hp
  · intro d hd
    rw [hsame _ (fun hx => hMfront _ hx (by
      simp only [frontPtrs, List.mem_append]; exact Or.inl (List.mem_map_of_mem _ hd)))]
    exact h6 d (by rw [hv]; exact List.mem_append_right _ hd)
  · intro n hn
    rw [hq, List.mem_append] at hn
    rcases hn with hn | hn
    · rw [hbs _ (mem_backPtrs.2 (Or.inl (List.mem_map_of_mem _ hn)))]
      exact h7 n hn
    · obtain ⟨d, hd, rfl⟩ := List.mem_map.1 hn
      obtain ⟨hd1, hd2⟩ := mem_markedNodes.1 hd
      obtain ⟨a, b⟩ := h6 d (by rw [hv]; exact List.mem_append_left _ hd1)
      have : t.heap d.theInstr = { s.heap d.theInstr with sched := s.clock } := by
        rw [hh, stampSched_apply, if_pos (List.mem_map_of_mem _ hd)]
      simp only [newScheduleNode]
      rw [this]
      exact ⟨⟨a, b, le_refl _⟩, fun hw => absurd hw (by decide)⟩
  · intro p hp
    rw [hbs _ (mem_backPtrs.2 (Or.inr (Or.inl hp)))]
    exact h8 p hp
  · intro p hp
    rw [hbs _ (mem_backPtrs.2 (Or.inr (Or.inr hp)))]
    exact h9 p hp

theorem dispStamped_fields {c : Int} {a b : instr} (h : dispStamped c a b) :
    b.fetch = a.fetch ∧ b.dest_tag = a.dest_tag := by
  rcases h with rfl | ⟨cp, rfl⟩ <;> exact ⟨rfl, rfl⟩

theorem map_newDispatch_ptrs (m : List Nat) :
    (m.map (fun p => ({ theInstr := p, mark_for_move := 0 } : dispatch_node))).map
      (·.theInstr) = m := by
  induction m with
  | nil => rfl
  | cons x rest ih => simp only [List.map_cons, ih]

theorem StampInv_dispatch_Enqueue {su : Int} {s t : State} (hi : StampInv su s)
    (h : dispatch_Enqueue s.clock s = .ok t) : StampInv su t := by
  obtain ⟨h1, h2, h3, h4, h5, h6, h7, h8, h9, h10⟩ := hi
  obtain ⟨m, hm, hd, hst, hdisp, hsame, -⟩ := dispatch_EnqueueLoop_effect _ _ h
  have e : t.schedule_head = s.schedule_head ∧ t.nalloc = s.nalloc ∧ t.clock = s.clock ∧
      t.final_head = s.final_head ∧ t.sup = s.sup ∧ t.k_0 = s.k_0 ∧ t.k_1 = s.k_1 ∧
      t.k_2 = s.k_2 := by
    obtain ⟨_, _, _, _, _, rfl⟩ := dispatch_Enqueue_shape h
    exact ⟨rfl, rfl, rfl, rfl, rfl, rfl, rfl, rfl⟩
  obtain ⟨e3, e4, e5, e6, e7, e8, e9, e10⟩ := e
  have hfr : frontPtrs t = frontPtrs s := by
    simp only [frontPtrs, hd, hm, List.map_append, List.append_assoc, map_newDispatch_ptrs]
  have hbk : backPtrs t = backPtrs s := by simp only [backPtrs, e3, e7, e8, e9, e10]
  -- the moved pointers sit between the old dispatch queue and the new fetch buffer
  have hsplit : frontPtrs s = s.dispatch_head.map (·.theInstr) ++ (m ++ t.fetchQueue) := by
    simp only [frontPtrs, hm]
  have hnd := List.nodup_append.1 (hsplit ▸ h1)
  have hnd2 := List.nodup_append.1 hnd.2.1
  have hmfront : ∀ x ∈ m, x ∈ frontPtrs s := by
    intro x hx; rw [hsplit]
    exact List.mem_append_right _ (List.mem_append_left _ hx)
  have hbs : ∀ x ∈ backPtrs s, t.heap x = s.heap x :=
    fun x hx => hsame x (fun hx' => h2 x hx (hmfront x hx'))
  rw [StampInv, hfr, hbk, e3, e4, e5, e6, e7, e8, e9, e10]
  refine ⟨h1, h2, h3, h4, ?_, ?_, ?_, ?_, ?_, h10⟩
  · intro p hp
    rw [(dispStamped_fields (hst p)).1]
    exact h5 p (by rw [hm]; exact List.mem_append_right _ hp)
  · intro d hd'
    rw [hd, List.mem_append] at hd'
    rcases hd' with hd' | hd'
    · rw [hsame _ (fun hx => hnd.2.2 (List.mem_map_of_mem _ hd') (List.mem_append_left _ hx))]
      exact h6 d hd'
    · obtain ⟨p, hp, rfl⟩ := List.mem_map.1 hd'
      refine ⟨?_, ?_⟩
      · rw [(dispStamped_fields (hst p)).1, hdisp p hp]
        exact h5 p (by rw [hm]; exact List.mem_append_left _ hp)
      · rw [hdisp p hp]
  · intro n hn
    rw [hbs _ (mem_backPtrs.2 (Or.inl (List.mem_map_of_mem _ hn)))]
    exact h7 n hn
  · intro p hp
    rw [hbs _ (mem_backPtrs.2 (Or.inr (Or.inl hp)))]
    exact h8 p hp
  · intro p hp
    rw [hbs _ (mem_backPtrs.2 (Or.inr (Or.inr hp)))]
    exact h9 p hp

theorem StampInv_readTrace {su : Int} (f : Nat) {s : State} (hi : StampInv su s) :
    StampInv su (readTrace f s) := by
  obtain ⟨h1, h2, h3, h4, h5, h6, h7, h8, h9, h10⟩ := hi
  obtain ⟨k, c, a1, a2, a3, a4, -, -, -, -, a9, a10⟩ := readTrace_effect f s
  have e : (readTrace f s).schedule_head = s.schedule_head ∧
      (readTrace f s).dispatch_head = s.dispatch_head ∧
      (readTrace f s).final_head = s.final_head ∧ (readTrace f s).sup = s.sup ∧
      (readTrace f s).k_0 = s.k_0 ∧ (readTrace f s).k_1 = s.k_1 ∧
      (readTrace f s).k_2 = s.k_2 := by
    obtain ⟨_, _, _, _, _, e⟩ := readTrace_shape f s
    rw [e]; exact ⟨rfl, rfl, rfl, rfl, rfl, rfl, rfl⟩
  obtain ⟨e1, e2, e6, e7, e8, e9, e10⟩ := e
  have hfr : frontPtrs (readTrace f s) = frontPtrs s ++ List.range' s.nalloc k := by
    simp only [frontPtrs, e2, a2, List.append_assoc]
  have hbk : backPtrs (readTrace f s) = backPtrs s := by
    simp only [backPtrs, e1, e7, e8, e9, e10]
  have hold : ∀ x ∈ frontPtrs s, (readTrace f s).heap x = s.heap x := fun x hx => a9 x (h3 x hx)
  have hbs : ∀ x ∈ backPtrs s, (readTrace f s).heap x = s.heap x := fun x hx => a9 x (h4 x hx)
  rw [StampInv, hfr, hbk, e1, e2, e6, e7, e8, e9, e10, a1, a4]
  refine ⟨?_, ?_, ?_, ?_, ?_, ?_, ?_, ?_, ?_, h10⟩
  · refine List.nodup_append.2 ⟨h1, List.nodup_range' _ _, ?_⟩
    intro x hx hx'
    have := h3 x hx
    rw [List.mem_range'_1] at hx'
    omega
  · intro y hy hy'
    rw [List.mem_append] at hy'
    rcases hy' with hy' | hy'
    · exact h2 y hy hy'
    · have := h4 y hy
      rw [List.mem_range'_1] at hy'
      omega
  · intro x hx
    rw [List.mem_append] at hx
    rcases hx with hx | hx
    · have := h3 x hx; omega
    · rw [List.mem_range'_1] at hx; omega
  · intro y hy
    have := h4 y hy; omega
  · intro p hp
    rw [a2, List.mem_append] at hp
    rcases hp with hp | hp
    · rw [hold p (by simp only [frontPtrs, List.mem_append]; exact Or.inr hp)]
      exact h5 p hp
    · rw [List.mem_range'_1] at hp
      have := (a10 (p - s.nalloc) (by omega)).1
      rw [show s.nalloc + (p - s.nalloc) = p by omega] at this
      rw [this]
  · intro d hd
    rw [hold _ (by simp only [frontPtrs, List.mem_append]
                   exact Or.inl (List.mem_map_of_mem _ hd))]
    exact h6 d hd
  · intro n hn
    rw [hbs _ (mem_backPtrs.2 (Or.inl (List.mem_map_of_mem _ hn)))]
    exact h7 n hn
  · intro p hp
    rw [hbs _ (mem_backPtrs.2 (Or.inr (Or.inl hp)))]
    exact h8 p hp
  · intro p hp
    rw [hbs _ (mem_backPtrs.2 (Or.inr (Or.inr hp)))]
    exact h9 p hp

theorem StampInv_tick {s : State} (hi : StampInv s.clock s) :
    StampInv (s.clock + 1 - 1) { s with clock := s.clock + 1 } := by
  obtain ⟨h1, h2, h3, h4, h5, h6, h7, h8, h9, h10⟩ := hi
  refine ⟨h1, h2, h3, h4, ?_, ?_, ?_, ?_, ?_, h10⟩
  · intro p hp
    have := h5 p hp
    show (s.heap p).fetch ≤ s.clock + 1
    omega
  · intro d hd
    obtain ⟨a, b⟩ := h6 d hd
    show (s.heap d.theInstr).fetch ≤ (s.heap d.theInstr).disp ∧
      (s.heap d.theInstr).disp ≤ s.clock + 1
    exact ⟨a, by omega⟩
  · intro n hn
    obtain ⟨⟨a, b, c⟩, w⟩ := h7 n hn
    show chainSched (s.heap n.theInstr) (s.clock + 1) ∧
      (n.waiting = 1 → chainExec (s.heap n.theInstr) (s.clock + 1))
    refine ⟨⟨a, b, by omega⟩, fun hw => ?_⟩
    obtain ⟨a', b', c', d'⟩ := w hw
    exact ⟨a', b', c', by omega⟩
  · intro p hp
    obtain ⟨a, b, c, d⟩ := h8 p hp
    show chainExec (s.heap p) (s.clock + 1)
    exact ⟨a, b, c, by omega⟩
  · intro p hp
    obtain ⟨a, b⟩ := h9 p hp
    show chainState (s.heap p) ∧ (s.heap p).state = s.clock + 1 - 1
    exact ⟨a, by omega⟩

theorem StampInv_cycle {s t : State} (hi : StampInv (s.clock - 1) s) (h : cycle s = .ok t) :
    StampInv (t.clock - 1) t := by
  obtain ⟨s1, hA, hC⟩ := cycle_ok h
  obtain ⟨s2, s3, s4, s5, s6, h2, h3, h4, h5, h6, rfl⟩ := phaseA_ok hA
  have c1 : (sendToFinal s).clock = s.clock := rfl
  have i1 : StampInv (sendToFinal s).clock (sendToFinal s) := StampInv_sendToFinal hi
  rw [← c1] at h2
  have i2 := StampInv_sendToSU i1 h2
  have q3 := resolveBranches_quiet h3
  have i3 : StampInv s3.clock s3 := by
    rw [q3.2.2.2.2.1]; exact StampInv_quiet q3 i2
  have c2 : s2.clock = s.clock := by
    obtain ⟨_, _, _, _, _, rfl⟩ := sendToSU_shape h2; rfl
  have c3 : s3.clock = s.clock := by rw [q3.2.2.2.2.1, c2]
  rw [← c3] at h4
  have i4 := StampInv_moveToExecute i3 h4
  have c4 : s4.clock = s.clock := by
    obtain ⟨_, _, _, _, _, rfl⟩ := moveToExecute_shape h4; exact c3
  rw [← c4] at h5
  have i5 := StampInv_dispatchToSchedule i4 h5
  have c5 : s5.clock = s.clock := by
    obtain ⟨_, _, _, _, rfl⟩ := dispatchToSchedule_shape h5; exact c4
  rw [← c5] at h6
  have i6 := StampInv_dispatch_Enqueue i5 h6
  have c6 : s6.clock = s.clock := by
    obtain ⟨_, _, _, _, _, rfl⟩ := dispatch_Enqueue_shape h6; exact c5
  have i7 := StampInv_readTrace s6.curr_Config.fetch_rate i6
  obtain ⟨u, qu, rfl⟩ := phaseC_quiet hC
  have i8 := StampInv_quiet qu i7
  have c7 : (readTrace s6.curr_Config.fetch_rate s6).clock = s.clock := by
    obtain ⟨_, _, _, _, _, e⟩ := readTrace_shape s6.curr_Config.fetch_rate s6
    rw [e]; exact c6
  have c8 : u.clock = s.clock := by rw [qu.2.2.2.2.1, c7]
  have i9 : StampInv u.clock u := by rw [c8, ← c4]; exact i8
  exact StampInv_tick i9

theorem StampInv_reachable {s0 s : State} (h0 : StampInv (s0.clock - 1) s0)
    (h : Reachable s0 s) : StampInv (s.clock - 1) s := by
  induction h with
  | init => exact h0
  | step _ _ hc ih => exact StampInv_cycle ih hc

/-- C2. For every trace and every configuration, every record in the final
queue of a state reachable at the top of the cycle loop, the state at `finish`
included, has `fetch <= disp <= sched <= exec <= state`. -/
theorem retired_stamps_ordered (k0 k1 k2 R F : Nat) (trace : List TraceLine) (s : State)
    (h : Reachable (proc_init 128 k0 k1 k2 R F trace) s) :
    ∀ r ∈ s.final_head,
      r.fetch ≤ r.disp ∧ r.disp ≤ r.sched ∧ r.sched ≤ r.exec ∧ r.exec ≤ r.state :=
  (StampInv_reachable (StampInv_init 128 k0 k1 k2 R F trace _) h).2.2.2.2.2.2.2.2.2

/-- Witness for C2: the read-after-write run after seven iterations, with the
first instruction retired. -/
theorem retired_stamps_ordered_witness :
    (rawState 7).final_head =
        [{ dest_tag := 0, fetch := 1, disp := 2, sched := 3, exec := 4, state := 5 }] ∧
      ∀ r ∈ (rawState 7).final_head,
        r.fetch ≤ r.disp ∧ r.disp ≤ r.sched ∧ r.sched ≤ r.exec ∧ r.exec ≤ r.state :=
  ⟨rfl, retired_stamps_ordered 3 2 1 2 4 rawTrace (rawState 7) (rawState_reachable 7 rfl)⟩

/-! ## Accounting: no instruction is lost or retired twice -/

theorem Still_refl (s : State) : Still s s :=
  ⟨fun _ => rfl, rfl, rfl, rfl, rfl, rfl, rfl, rfl, rfl, rfl, rfl⟩

theorem Still_trans {s t u : State} (h1 : Still s t) (h2 : Still t u) : Still s u := by
  obtain ⟨a1, a2, a3, a4, a5, a6, a7, a8, a9, a10, a11⟩ := h1
  obtain ⟨b1, b2, b3, b4, b5, b6, b7, b8, b9, b10, b11⟩ := h2
  exact ⟨fun p => by rw [b1, a1], by rw [b2, a2], by rw [b3, a3], by rw [b4, a4], by rw [b5, a5],
    by rw [b6, a6], by rw [b7, a7], by rw [b8, a8], by rw [b9, a9], by rw [b10, a10],
    by rw [b11, a11]⟩

theorem sendToSU_still {clock : Int} {s t : State} (h : sendToSU clock s = .ok t) :
    Still s t := by
  have hh := sendToSU_heap h
  have hd : ∀ p, (t.heap p).dest_tag = (s.heap p).dest_tag := by
    intro p; rcases hh p with e | e <;> rw [e]
  obtain ⟨_, _, _, _, _, rfl⟩ := sendToSU_shape h
  exact ⟨hd, rfl, rfl, rfl, rfl, rfl, rfl, rfl, rfl, rfl, rfl⟩

theorem resolveBranches_still {s t : State} (h : resolveBranches s = .ok t) : Still s t := by
  have hh := resolveBranches_heap h
  have hd : ∀ p, (t.heap p).dest_tag = (s.heap p).dest_tag := by
    intro p; rcases hh p with e | e <;> rw [e]
  obtain ⟨_, _, _, _, rfl⟩ := resolveBranches_shape h
  exact ⟨hd, rfl, rfl, rfl, rfl, rfl, rfl, rfl, rfl, rfl, rfl⟩

theorem moveToExecute_still {clock : Int} {s t : State} (h : moveToExecute clock s = .ok t) :
    Still s t := by
  obtain ⟨hh, -, hq⟩ := moveToExecute_effect h
  have hptr : t.schedule_head.map (·.theInstr) = s.schedule_head.map (·.theInstr) := by
    rw [hq, List.map_map]
    apply List.map_congr_left
    intro n _
    simp only [Function.comp]
    split <;> rfl
  have hd : ∀ p, (t.heap p).dest_tag = (s.heap p).dest_tag := by
    intro p; rw [hh p]; split <;> rfl
  obtain ⟨_, _, _, _, _, rfl⟩ := moveToExecute_shape h
  exact ⟨hd, rfl, rfl, hptr, rfl, rfl, rfl, rfl, rfl, rfl, rfl⟩

theorem updateDispatchQueueSize_still (s : State) : Still s (updateDispatchQueueSize s) := by
  obtain ⟨_, e⟩ := updateDispatchQueueSize_shape s
  rw [e]; exact Still_refl _

theorem writeToRegFile_still {s t : State} (h : writeToRegFile s = .ok t) : Still s t := by
  obtain ⟨_, rfl⟩ := writeToRegFile_shape h
  exact ⟨fun _ => rfl, rfl, rfl, rfl, rfl, rfl, rfl, rfl, rfl, rfl, rfl⟩

theorem setToFired_still (s : State) : Still s (setToFired s) :=
  ⟨fun _ => rfl, rfl, rfl, setToFired_ptrs s, rfl, rfl, rfl, rfl, rfl, rfl, rfl⟩

theorem readUpdateRegFile_still {tm : Int} {s t : State} (h : readUpdateRegFile tm s = .ok t) :
    Still s t := by
  have hq := readUpdateRegFile_quiet h
  obtain ⟨_, _, rfl⟩ := readUpdateRegFile_shape h
  exact ⟨fun p => (hq.1 p).1, rfl, rfl, rfl, rfl, rfl, rfl, rfl, rfl, rfl, rfl⟩

theorem broadcastToSched_still (s : State) : Still s (broadcastToSched s) :=
  ⟨fun p => ((broadcastToSched_quiet s).1 p).1, rfl, rfl, broadcastToSched_ptrs s, rfl, rfl, rfl,
    rfl, rfl, rfl, rfl⟩

theorem setToChosen_still {s t : State} (h : setToChosen s = .ok t) : Still s t := by
  obtain ⟨_, _, _, rfl⟩ := setToChosen_shape h
  exact ⟨fun _ => rfl, rfl, rfl, rfl, rfl, rfl, rfl, rfl, rfl, rfl, rfl⟩

theorem markForExecution_still (s : State) : Still s (markForExecution s) := by
  have hp := markForExecution_ptrs s
  obtain ⟨_, e⟩ := markForExecution_shape s
  rw [e] at hp ⊢
  exact ⟨fun _ => rfl, rfl, rfl, hp, rfl, rfl, rfl, rfl, rfl, rfl, rfl⟩

theorem AccInv_still {s t : State} (hs : Still s t) (hi : AccInv false s) : AccInv false t := by
  obtain ⟨a1, a2, a3, a4, a5, a6, a7, -, -, -, -⟩ := hs
  obtain ⟨i1, i2, i3⟩ := hi
  refine ⟨by rw [a7, a6]; exact i1, fun p hp => by rw [a1, i2 p (by rw [← a6]; exact hp)], ?_⟩
  simp only [inFlight, frontPtrs, a2, a3, a4, a5, a6] at i3 ⊢
  exact i3

theorem MarkedPrefix_still {s t : State} (hs : Still s t) (hi : MarkedPrefix s) :
    MarkedPrefix t := by
  obtain ⟨-, -, a3, -, -, -, -, -, a9, -, -⟩ := hs
  simpa only [MarkedPrefix, a3, a9] using hi

theorem Unmarked_still {s t : State} (hs : Still s t) (hi : Unmarked s) : Unmarked t := by
  obtain ⟨-, -, a3, -, -, -, -, -, -, -, -⟩ := hs
  simpa only [Unmarked, a3] using hi

theorem TraceCore_still {n : Nat} {s t : State} (hs : Still s t) (hi : TraceCore n s) :
    TraceCore n t := by
  obtain ⟨-, a2, -, -, -, a6, -, a8, -, a10, a11⟩ := hs
  simpa only [TraceCore, a2, a6, a8, a10, a11] using hi

theorem sendToFinalLoop_eq (hp : Nat → instr) : ∀ (u : List (Option Nat)) (fin : List final_node),
    sendToFinalLoop hp u fin = fin ++ (supPtrs u).map (fun p => mkFinal (hp p)) := by
  intro u
  induction u with
  | nil => intro fin; simp [sendToFinalLoop, supPtrs]
  | cons x rest ih =>
    intro fin
    cases x with
    | none => simpa [sendToFinalLoop, supPtrs] using ih fin
    | some p =>
      rw [sendToFinalLoop, ih]
      simp [supPtrs]

theorem AccInv_mem_lt {b : Bool} {s : State} (hi : AccInv b s) :
    ∀ p ∈ inFlight b s, p < s.nalloc := by
  intro p hp
  have h1 : (p : Int) ∈ s.final_head.map (·.dest_tag) ++
      (inFlight b s).map (fun p : Nat => (p : Int)) :=
    List.mem_append_right _ (List.mem_map_of_mem _ hp)
  have h2 := (hi.2.2.mem_iff).1 h1
  obtain ⟨q, hq, e⟩ := List.mem_map.1 h2
  have : q = p := by exact_mod_cast e
  subst this
  exact List.mem_range.1 hq

theorem AccInv_sendToFinal {s : State} (hi : AccInv true s) : AccInv false (sendToFinal s) := by
  have hlt := AccInv_mem_lt hi
  obtain ⟨i1, i2, i3⟩ := hi
  refine ⟨i1, i2, ?_⟩
  have hf : (sendToFinal s).final_head.map (·.dest_tag) =
      s.final_head.map (·.dest_tag) ++ (supPtrs s.sup).map (fun p : Nat => (p : Int)) := by
    show (sendToFinalLoop s.heap s.sup s.final_head).map (·.dest_tag) = _
    rw [sendToFinalLoop_eq, List.map_append, List.map_map]
    congr 1
    apply List.map_congr_left
    intro p hp
    simp only [Function.comp, mkFinal]
    exact i2 p (hlt p (by simp only [inFlight, if_true, List.mem_append]; exact Or.inl (Or.inl hp)))
  rw [hf]
  have hin : inFlight false (sendToFinal s) = s.schedule_head.map (·.theInstr) ++ frontPtrs s := by
    simp [inFlight, sendToFinal, frontPtrs]
  rw [hin]
  simp only [inFlight, if_true, List.map_append, List.append_assoc] at i3 ⊢
  exact i3

/-- With the reserved nodes forming a prefix of length `totalMarked`, the loop
of `dispatchToSchedule` moves exactly that prefix and frees nothing else. -/
theorem dispatchToScheduleLoop_prefix (clock tm : Int) : ∀ (P rest : List dispatch_node)
    (count : Int) (s : State), (∀ d ∈ P, d.mark_for_move = 1) → count + (P.length : Int) = tm →
    (∀ d ∈ rest, d.mark_for_move = 0) →
    ∀ {r : List dispatch_node} {t : State},
      dispatchToScheduleLoop clock tm (P ++ rest) count s = .ok (r, t) →
      r = rest ∧ t.schedule_head = s.schedule_head ++ P.map newScheduleNode := by
  intro P
  induction P with
  | nil =>
    intro rest count s _ hc _ r t h
    simp only [List.length_nil, Nat.cast_zero, add_zero] at hc
    cases rest with
    | nil => simp only [List.append_nil, dispatchToScheduleLoop] at h; cases h; simp
    | cons d rest' =>
      simp only [List.nil_append, dispatchToScheduleLoop, hc, if_true] at h
      cases h; simp
  | cons d P' ih =>
    intro rest count s hm hc hr r t h
    have hd : d.mark_for_move = 1 := hm d (List.mem_cons_self _ _)
    have hne : count ≠ tm := by
      simp only [List.length_cons, Nat.cast_add, Nat.cast_one] at hc; omega
    rw [List.cons_append, dispatchToScheduleLoop, if_neg hne, if_pos hd] at h
    simp only at h
    have hm' : ∀ x ∈ P', x.mark_for_move = 1 := fun x hx => hm x (List.mem_cons_of_mem _ hx)
    have hc' : count + 1 + (P'.length : Int) = tm := by
      simp only [List.length_cons, Nat.cast_add, Nat.cast_one] at hc; omega
    split at h
    · rename_i he
      have he' : s.schedule_head = [] := by simpa using he
      obtain ⟨a, b⟩ := ih rest (count + 1) _ hm' hc' hr h
      exact ⟨a, by rw [b, he']; simp [newScheduleNode]⟩
    · split at h
      · obtain ⟨a, b⟩ := ih rest (count + 1) _ hm' hc' hr h
        exact ⟨a, by rw [b]; simp [newScheduleNode]⟩
      · cases h

theorem removeAllSUFromSchedLoop_perm : ∀ (u : List (Option Nat)) (q : List schedule_node)
    (sz : Int) {r : List schedule_node} {sz' : Int},
    removeAllSUFromSchedLoop u q sz = .ok (r, sz') →
    List.Perm (supPtrs u ++ r.map (·.theInstr)) (q.map (·.theInstr)) := by
  intro u
  induction u with
  | nil => intro q sz r sz' h; cases h; simp [supPtrs]
  | cons x rest ih =>
    intro q sz r sz' h
    cases x with
    | none =>
      rw [removeAllSUFromSchedLoop] at h
      simpa [supPtrs] using ih _ _ h
    | some p =>
      rw [removeAllSUFromSchedLoop] at h
      split at h
      · cases h
      · rename_i q1 h1
        obtain ⟨a, m, b, e1, e2, e3, -, -⟩ := removeFromSched_spec h1
        have := ih _ _ h
        subst e1 e2 e3
        simp only [supPtrs, List.filterMap_cons, id, List.cons_append, List.map_append,
          List.map_cons] at this ⊢
        exact (List.Perm.cons _ this).trans List.perm_middle.symm

theorem AccInv_dispatchToSchedule {clock : Int} {s t : State} (hm : MarkedPrefix s)
    (hi : AccInv false s) (h : dispatchToSchedule clock s.totalMarked s = .ok t) :
    AccInv false t ∧ Unmarked t := by
  obtain ⟨m1, m2, m3, m4⟩ := hm
  obtain ⟨i1, i2, i3⟩ := hi
  obtain ⟨v, -, -, hh⟩ := dispatchToSchedule_queue h
  have hd : ∀ p, (t.heap p).dest_tag = (s.heap p).dest_tag := by
    intro p; rw [hh, stampSched_apply]; split <;> rfl
  have hlists : t.dispatch_head = s.dispatch_head.drop s.totalMarked.toNat ∧
      t.schedule_head = s.schedule_head ++
        (s.dispatch_head.take s.totalMarked.toNat).map newScheduleNode := by
    unfold dispatchToSchedule at h
    split at h
    · cases h
    · rename_i r t1 h1
      cases h
      rw [← List.take_append_drop s.totalMarked.toNat s.dispatch_head] at h1
      have hlen : (0 : Int) + ((s.dispatch_head.take s.totalMarked.toNat).length : Int)
          = s.totalMarked := by
        rw [List.length_take, Nat.min_eq_left m2]; omega
      obtain ⟨a, b⟩ := dispatchToScheduleLoop_prefix clock s.totalMarked _ _ 0 s m3 hlen m4 h1
      exact ⟨a, b⟩
  obtain ⟨l1, l2⟩ := hlists
  have e : t.fetchQueue = s.fetchQueue ∧ t.nalloc = s.nalloc ∧ t.tag = s.tag ∧
      t.final_head = s.final_head := by
    obtain ⟨_, _, _, _, rfl⟩ := dispatchToSchedule_shape h; exact ⟨rfl, rfl, rfl, rfl⟩
  obtain ⟨e1, e2, e3, e4⟩ := e
  refine ⟨⟨by rw [e3, e2]; exact i1, fun p hp => by rw [hd, i2 p (by rw [← e2]; exact hp)], ?_⟩,
    ?_⟩
  · have hin : inFlight false t = inFlight false s := by
      simp only [inFlight, frontPtrs, l1, l2, e1, List.map_append, List.map_map,
        Bool.false_eq_true, if_false, List.nil_append, List.append_assoc]
      have : (List.map ((fun x => x.theInstr) ∘ newScheduleNode)
          (List.take s.totalMarked.toNat s.dispatch_head)) =
          List.map (fun x => x.theInstr) (List.take s.totalMarked.toNat s.dispatch_head) := rfl
      rw [this, ← List.append_assoc (List.map _ (List.take _ _)), ← List.map_append,
        List.take_append_drop]
    rw [hin, e4, e2]; exact i3
  · intro d hd'
    rw [l1] at hd'
    exact m4 d hd'

theorem AccInv_dispatch_Enqueue {cycle : Int} {s t : State} (hu : Unmarked s)
    (hi : AccInv false s) (h : dispatch_Enqueue cycle s = .ok t) :
    AccInv false t ∧ Unmarked t := by
  obtain ⟨i1, i2, i3⟩ := hi
  obtain ⟨m, hm, hd, hst, -, -, -⟩ := dispatch_EnqueueLoop_effect _ _ h
  have e : t.schedule_head = s.schedule_head ∧ t.nalloc = s.nalloc ∧ t.tag = s.tag ∧
      t.final_head = s.final_head := by
    obtain ⟨_, _, _, _, _, rfl⟩ := dispatch_Enqueue_shape h; exact ⟨rfl, rfl, rfl, rfl⟩
  obtain ⟨e1, e2, e3, e4⟩ := e
  have hfr : frontPtrs t = frontPtrs s := by
    simp only [frontPtrs, hd, hm, List.map_append, List.append_assoc, map_newDispatch_ptrs]
  refine ⟨⟨by rw [e3, e2]; exact i1,
    fun p hp => by rw [(dispStamped_fields (hst p)).2, i2 p (by rw [← e2]; exact hp)], ?_⟩, ?_⟩
  · simp only [inFlight, hfr, e1, e4, e2] at i3 ⊢
    exact i3
  · intro d hd'
    rw [hd, List.mem_append] at hd'
    rcases hd' with hd' | hd'
    · exact hu d hd'
    · obtain ⟨p, -, rfl⟩ := List.mem_map.1 hd'
      rfl

theorem AccInv_readTrace (f : Nat) {s : State} (hi : AccInv false s) :
    AccInv false (readTrace f s) := by
  obtain ⟨i1, i2, i3⟩ := hi
  obtain ⟨k, c, a1, a2, a3, a4, -, -, -, -, a9, a10⟩ := readTrace_effect f s
  have e : (readTrace f s).schedule_head = s.schedule_head ∧
      (readTrace f s).dispatch_head = s.dispatch_head ∧
      (readTrace f s).final_head = s.final_head := by
    obtain ⟨_, _, _, _, _, e⟩ := readTrace_shape f s
    rw [e]; exact ⟨rfl, rfl, rfl⟩
  obtain ⟨e1, e2, e3⟩ := e
  refine ⟨by rw [a3, a1, i1]; push_cast; ring, ?_, ?_⟩
  · intro p hp
    rw [a1] at hp
    by_cases hlt : p < s.nalloc
    · rw [a9 p hlt]; exact i2 p hlt
    · have := (a10 (p - s.nalloc) (by omega)).2
      rw [show s.nalloc + (p - s.nalloc) = p by omega] at this
      rw [this, i1]; omega
  · have hin : inFlight false (readTrace f s) = inFlight false s ++ List.range' s.nalloc k := by
      simp only [inFlight, frontPtrs, e1, e2, a2, List.append_assoc, Bool.false_eq_true,
        if_false]
    have hr : List.range (s.nalloc + k) = List.range s.nalloc ++ List.range' s.nalloc k := by
      have h0 := List.range'_append_1 0 s.nalloc k
      rw [Nat.zero_add] at h0
      rw [List.range_eq_range', List.range_eq_range', h0]
      first | rfl | rw [Nat.add_comm]
    rw [hin, e3, a1, hr, List.map_append, List.map_append, ← List.append_assoc]
    exact List.Perm.append_right _ i3

theorem Unmarked_readTrace (f : Nat) {s : State} (hu : Unmarked s) :
    Unmarked (readTrace f s) := by
  obtain ⟨_, _, _, _, _, e⟩ := readTrace_shape f s
  rw [e]; exact hu

theorem MarkedPrefix_reserve {s t : State} (hu : Unmarked s)
    (h : reserveScheduleSpots s = .ok t) : MarkedPrefix t := by
  obtain ⟨e1, e2, -⟩ := reserveScheduleSpots_spec h
  generalize ((s.curr_Config.max_sched_queue : Int) - s.schedule_size).toNat = a at e1 e2
  have hlen : (s.dispatch_head.take a).length ≤ s.dispatch_head.length := by
    rw [List.length_take]; exact Nat.min_le_right _ _
  have htm : t.totalMarked.toNat = (s.dispatch_head.take a).length := by
    rw [e2]; exact Int.toNat_natCast _
  refine ⟨by rw [e2]; exact Int.natCast_nonneg _, ?_, ?_, ?_⟩
  · rw [htm, e1]; simp
  · intro d hd
    rw [htm, e1, List.take_append_of_le_length (by simp)] at hd
    rw [List.take_of_length_le (by simp)] at hd
    obtain ⟨x, -, rfl⟩ := List.mem_map.1 hd
    rfl
  · intro d hd
    rw [htm, e1] at hd
    have : (List.map (fun x : dispatch_node => ({ x with mark_for_move := 1 } : dispatch_node))
        (List.take a s.dispatch_head)).length = (List.take a s.dispatch_head).length := by simp
    rw [← this, List.drop_left] at hd
    exact hu d (List.mem_of_mem_drop hd)

theorem AccInv_reserve {s t : State} (hi : AccInv false s)
    (h : reserveScheduleSpots s = .ok t) : AccInv false t := by
  obtain ⟨i1, i2, i3⟩ := hi
  have hq := reserveScheduleSpots_quiet h
  have e : t.schedule_head = s.schedule_head ∧ t.tag = s.tag ∧ t.heap = s.heap := by
    obtain ⟨_, _, rfl⟩ := reserveScheduleSpots_shape h; exact ⟨rfl, rfl, rfl⟩
  obtain ⟨e1, e2, e3⟩ := e
  obtain ⟨-, q2, q3, q4, -, q6, -⟩ := hq
  refine ⟨by rw [e2, q4]; exact i1, fun p hp => by rw [e3, i2 p (by rw [← q4]; exact hp)], ?_⟩
  simp only [inFlight, frontPtrs, q2, q3, q4, q6, e1] at i3 ⊢
  exact i3

theorem AccInv_removeAll {s t : State} (hi : AccInv false s)
    (h : removeAllSUFromSched s = .ok t) : AccInv true t := by
  obtain ⟨i1, i2, i3⟩ := hi
  have hp : List.Perm (supPtrs s.sup ++ t.schedule_head.map (·.theInstr))
      (s.schedule_head.map (·.theInstr)) := by
    unfold removeAllSUFromSched at h
    split at h
    · cases h
    · rename_i q sz h1
      cases h
      exact removeAllSUFromSchedLoop_perm _ _ _ h1
  have e : t.sup = s.sup ∧ t.tag = s.tag ∧ t.heap = s.heap ∧ t.nalloc = s.nalloc ∧
      t.final_head = s.final_head ∧ t.dispatch_head = s.dispatch_head ∧
      t.fetchQueue = s.fetchQueue := by
    obtain ⟨_, _, rfl⟩ := removeAllSUFromSched_shape h; exact ⟨rfl, rfl, rfl, rfl, rfl, rfl, rfl⟩
  obtain ⟨e1, e2, e3, e4, e5, e6, e7⟩ := e
  refine ⟨by rw [e2, e4]; exact i1, fun p hp' => by rw [e3, i2 p (by rw [← e4]; exact hp')], ?_⟩
  simp only [inFlight, frontPtrs, e1, e4, e5, e6, e7, if_true, Bool.false_eq_true, if_false,
    List.nil_append] at i3 ⊢
  refine List.Perm.trans ?_ i3
  refine List.Perm.append_left _ (List.Perm.map _ ?_)
  exact List.Perm.append_right _ hp

theorem MarkedPrefix_removeAll {s t : State} (hi : MarkedPrefix s)
    (h : removeAllSUFromSched s = .ok t) : MarkedPrefix t := by
  obtain ⟨_, _, rfl⟩ := removeAllSUFromSched_shape h; exact hi

theorem AccInv_still_sup {s t : State} (hs : Still s t) (hsup : t.sup = s.sup)
    (hi : AccInv true s) : AccInv true t := by
  obtain ⟨a1, a2, a3, a4, a5, a6, a7, -, -, -, -⟩ := hs
  obtain ⟨i1, i2, i3⟩ := hi
  refine ⟨by rw [a7, a6]; exact i1, fun p hp => by rw [a1, i2 p (by rw [← a6]; exact hp)], ?_⟩
  simp only [inFlight, frontPtrs, a2, a3, a4, a5, a6, hsup] at i3 ⊢
  exact i3

theorem Fed_still {s t : State} (hs : Still s t) (hi : Fed s) : Fed t := by
  obtain ⟨-, a2, -, -, -, -, -, a8, -, -, -⟩ := hs
  simpa only [Fed, a2, a8] using hi

theorem TraceCore_readTrace {n : Nat} {s : State} (hi : TraceCore n s) :
    TraceCore n (readTrace s.curr_Config.fetch_rate s) ∧
      Fed (readTrace s.curr_Config.fetch_rate s) := by
  obtain ⟨i1, i2, i3, i4⟩ := hi
  obtain ⟨k, c, a1, a2, -, a4, a5, a6, -, a8, -, -⟩ := readTrace_effect s.curr_Config.fetch_rate s
  have ec : (readTrace s.curr_Config.fetch_rate s).curr_Config = s.curr_Config := by
    obtain ⟨_, _, _, _, _, e⟩ := readTrace_shape s.curr_Config.fetch_rate s
    rw [e]
  have hall : ∀ l ∈ c, l.isInstr = true := fun l hl => i1 l (by rw [a5]; simp [hl])
  have hk : k = c.length := by
    rw [a6, List.filter_eq_self.2 hall]
  have hlen : s.trace.length = c.length + (readTrace s.curr_Config.fetch_rate s).trace.length := by
    have := congrArg List.length a5
    rw [List.length_append] at this
    exact this
  refine ⟨⟨fun l hl => i1 l (by rw [a5]; simp [hl]), by rw [a1]; omega, by rw [ec]; exact i3,
    by rw [a4]; exact i4⟩, ?_⟩
  by_cases ht : (readTrace s.curr_Config.fetch_rate s).trace = []
  · exact Or.inl ht
  · right
    have hc := a8 ht
    have hk1 : 1 ≤ k := by omega
    rw [a2]
    intro he
    have := congrArg List.length he
    rw [List.length_append, List.length_range'] at this
    simp at this
    omega

theorem CountInv_cycle {n : Nat} {s t : State} (hi : CountInv n s) (h : cycle s = .ok t) :
    CountInv n t := by
  obtain ⟨hacc, hmp, htc, -⟩ := hi
  obtain ⟨s1, hA, hC⟩ := cycle_ok h
  obtain ⟨s2, s3, s4, s5, s6, h2, h3, h4, h5, h6, rfl⟩ := phaseA_ok hA
  have a1 := AccInv_sendToFinal hacc
  have m1 : MarkedPrefix (sendToFinal s) := hmp
  have t1 : TraceCore n (sendToFinal s) := htc
  have q : Still (sendToFinal s) s4 :=
    Still_trans (sendToSU_still h2) (Still_trans (resolveBranches_still h3) (moveToExecute_still h4))
  have a4 := AccInv_still q a1
  have m4 := MarkedPrefix_still q m1
  have t4 := TraceCore_still q t1
  have etm : s.totalMarked = s4.totalMarked := by
    obtain ⟨-, -, -, -, -, -, -, -, a9, -, -⟩ := q
    exact a9.symm
  rw [etm] at h5
  obtain ⟨a5, u5⟩ := AccInv_dispatchToSchedule m4 a4 h5
  have t5 : TraceCore n s5 := by
    obtain ⟨_, _, _, _, rfl⟩ := dispatchToSchedule_shape h5; exact t4
  obtain ⟨a6, u6⟩ := AccInv_dispatch_Enqueue u5 a5 h6
  have t6 : TraceCore n s6 := by
    obtain ⟨_, _, _, _, _, rfl⟩ := dispatch_Enqueue_shape h6; exact t5
  have a7 := AccInv_readTrace s6.curr_Config.fetch_rate a6
  have u7 := Unmarked_readTrace s6.curr_Config.fetch_rate u6
  obtain ⟨t7, f7⟩ := TraceCore_readTrace t6
  obtain ⟨r1, r3, r4, r6, r7, g1, g3, g4, g6, g7, rfl⟩ := phaseC_ok hC
  have q1 : Still (readTrace s6.curr_Config.fetch_rate s6) (setToFired r1) :=
    Still_trans (updateDispatchQueueSize_still _) (Still_trans (writeToRegFile_still g1) (setToFired_still _))
  have a8 := AccInv_reserve (AccInv_still q1 a7) g3
  have m8 := MarkedPrefix_reserve (Unmarked_still q1 u7) g3
  have t8 : TraceCore n r3 ∧ Fed r3 := by
    have x := TraceCore_still q1 t7
    have y := Fed_still q1 f7
    obtain ⟨_, _, rfl⟩ := reserveScheduleSpots_shape g3; exact ⟨x, y⟩
  have q2 : Still r3 (broadcastToSched r4) :=
    Still_trans (readUpdateRegFile_still g4) (broadcastToSched_still _)
  have a9 := AccInv_removeAll (AccInv_still q2 a8) g6
  have m9 := MarkedPrefix_removeAll (MarkedPrefix_still q2 m8) g6
  have t9 : TraceCore n r6 ∧ Fed r6 := by
    have x := TraceCore_still q2 t8.1
    have y := Fed_still q2 t8.2
    obtain ⟨_, _, rfl⟩ := removeAllSUFromSched_shape g6; exact ⟨x, y⟩
  have q3 : Still r6 (markForExecution r7) :=
    Still_trans (setToChosen_still g7) (markForExecution_still _)
  have hsup : (markForExecution r7).sup = r6.sup := by
    obtain ⟨_, e⟩ := markForExecution_shape r7
    rw [e]
    obtain ⟨_, _, _, rfl⟩ := setToChosen_shape g7
    rfl
  have a10 := AccInv_still_sup q3 hsup a9
  have m10 := MarkedPrefix_still q3 m9
  have t10 := TraceCore_still q3 t9.1
  have f10 := Fed_still q3 t9.2
  obtain ⟨c1, c2, c3, c4⟩ := t10
  exact ⟨a10, m10, ⟨c1, c2, c3, by show (1 : Int) ≤ (markForExecution r7).clock + 1; omega⟩,
    Or.inr f10⟩

theorem CountInv_init (numRegs k0 k1 k2 R F : Nat) (trace : List TraceLine) (hF : 1 ≤ F)
    (hwf : ∀ l ∈ trace, l.isInstr = true) :
    CountInv trace.length (proc_init numRegs k0 k1 k2 R F trace) := by
  refine ⟨⟨rfl, fun p hp => absurd hp (Nat.not_lt_zero p), ?_⟩, ⟨le_refl _, Nat.zero_le _, ?_, ?_⟩,
    ⟨hwf, Nat.zero_add _, hF, le_refl _⟩, Or.inl rfl⟩
  · have hsup : supPtrs (List.replicate R (none : Option Nat)) = [] := by
      induction R with
      | zero => rfl
      | succ R ih => rw [List.replicate_succ]; exact ih
    show List.Perm (([] : List final_node).map (·.dest_tag) ++
      ((supPtrs (List.replicate R (none : Option Nat)) ++
        ([] : List schedule_node).map (·.theInstr) ++ (([] : List dispatch_node).map (·.theInstr) ++
          ([] : List Nat))).map (fun p : Nat => (p : Int)))) ((List.range 0).map _)
    rw [hsup]
    exact List.Perm.refl _
  · intro d hd; simp [proc_init] at hd
  · intro d hd; simp [proc_init] at hd

theorem CountInv_reachable {n : Nat} {s0 s : State} (h0 : CountInv n s0)
    (h : Reachable s0 s) : CountInv n s := by
  induction h with
  | init => exact h0
  | step _ _ hc ih => exact CountInv_cycle ih hc

theorem stateEmpty_supPtrs : ∀ (sup : List (Option Nat)), stateEmpty sup = 1 → supPtrs sup = []
  | [], _ => rfl
  | some _ :: _, h => by simp [stateEmpty] at h
  | none :: rest, h => by
    rw [stateEmpty] at h
    exact stateEmpty_supPtrs rest h

/-- C3. For every trace of instruction lines only (no malformed line) and every
configuration with a fetch rate of at least one: in a state reached at the top
of the cycle loop in which the halt test succeeds, the tags of the final queue
are a rearrangement of `0, ..., N - 1` for the `N` lines of the trace, each
exactly once, and the `INST` column is a rearrangement of `1, ..., N`. -/
theorem final_queue_permutation (k0 k1 k2 R F : Nat) (trace : List TraceLine) (s : State)
    (hF : 1 ≤ F) (hwf : ∀ l ∈ trace, l.isInstr = true)
    (h : Reachable (proc_init 128 k0 k1 k2 R F trace) s) (hhalt : haltCond s = true) :
    List.Perm (s.final_head.map (·.dest_tag))
        ((List.range trace.length).map (fun p : Nat => (p : Int))) ∧
      (s.final_head.map (·.dest_tag)).Nodup ∧
      List.Perm (instColumn s.final_head)
        ((List.range' 1 trace.length).map (fun p : Nat => (p : Int))) := by
  obtain ⟨⟨-, -, hperm⟩, -, ⟨-, hn, -, -⟩, hfed⟩ :=
    CountInv_reachable (CountInv_init 128 k0 k1 k2 R F trace hF hwf) h
  simp only [haltCond, Bool.and_eq_true, List.isEmpty_iff, decide_eq_true_eq] at hhalt
  obtain ⟨⟨⟨⟨hf, hd⟩, hq⟩, hc⟩, he⟩ := hhalt
  have htr : s.trace = [] := by
    rcases hfed with h1 | h1 | h1
    · omega
    · exact h1
    · exact absurd hf h1
  have hN : s.nalloc = trace.length := by
    rw [htr] at hn; simpa using hn
  have hp : List.Perm (s.final_head.map (·.dest_tag))
      ((List.range trace.length).map (fun p : Nat => (p : Int))) := by
    simp only [inFlight, frontPtrs, hf, hd, hq, stateEmpty_supPtrs _ he, if_true, List.map_nil,
      List.append_nil, hN] at hperm
    exact hperm
  refine ⟨hp, ?_, ?_⟩
  · refine (List.Perm.nodup_iff hp).2 ?_
    exact (List.nodup_range _).map (fun a b hab => by exact_mod_cast hab)
  · have := List.Perm.map (fun x : Int => x + 1) hp
    rw [List.map_map, List.map_map] at this
    have e : List.map (fun p : Nat => (p : Int)) (List.range' 1 trace.length) =
        List.map ((fun x : Int => x + 1) ∘ fun p : Nat => (p : Int)) (List.range trace.length) := by
      rw [List.range'_eq_map_range, List.map_map]
      apply List.map_congr_left
      intro a _
      simp only [Function.comp]
      push_cast; ring
    rw [e]
    exact this

/-- Witness for C3: the read-after-write run halts after eight iterations with
both instructions retired. -/
theorem final_queue_permutation_witness :
    (rawState 8).final_head.map (·.dest_tag) = [0, 1] ∧
      (List.Perm ((rawState 8).final_head.map (·.dest_tag))
          ((List.range rawTrace.length).map (fun p : Nat => (p : Int))) ∧
        ((rawState 8).final_head.map (·.dest_tag)).Nodup ∧
        List.Perm (instColumn (rawState 8).final_head)
          ((List.range' 1 rawTrace.length).map (fun p : Nat => (p : Int)))) :=
  ⟨rfl, final_queue_permutation 3 2 1 2 4 rawTrace (rawState 8) (by decide)
    (by intro l hl; simp only [rawTrace, List.mem_cons, List.mem_singleton] at hl
        rcases hl with rfl | rfl | hl
        · rfl
        · rfl
        · cases hl)
    (rawState_reachable 8 rfl) rfl⟩

/-! ## Fields no stage but dispatch and branch resolution writes -/

theorem Kept_refl (a : instr) : Kept a a := ⟨rfl, rfl, rfl, rfl, rfl, rfl, rfl, rfl, rfl⟩

theorem Kept_trans {a b c : instr} (h1 : Kept a b) (h2 : Kept b c) : Kept a c := by
  obtain ⟨a1, a2, a3, a4, a5, a6, a7, a8, a9⟩ := h1
  obtain ⟨b1, b2, b3, b4, b5, b6, b7, b8, b9⟩ := h2
  exact ⟨by rw [b1, a1], by rw [b2, a2], by rw [b3, a3], by rw [b4, a4], by rw [b5, a5],
    by rw [b6, a6], by rw [b7, a7], by rw [b8, a8], by rw [b9, a9]⟩

theorem stateStamped_kept {c : Int} {a b : instr} (h : stateStamped c a b) : Kept a b := by
  rcases h with rfl | rfl <;> exact ⟨rfl, rfl, rfl, rfl, rfl, rfl, rfl, rfl, rfl⟩

theorem sourcesSet_kept {a b : instr} (h : sourcesSet a b) : Kept a b := by
  obtain ⟨_, _, _, _, rfl⟩ := h
  exact ⟨rfl, rfl, rfl, rfl, rfl, rfl, rfl, rfl, rfl⟩

theorem Settled_refl (s : State) : Settled s s :=
  ⟨fun _ => Kept_refl _, rfl, rfl, rfl, rfl, rfl, rfl, rfl, rfl, rfl, rfl⟩

theorem Settled_trans {s t u : State} (h1 : Settled s t) (h2 : Settled t u) : Settled s u := by
  obtain ⟨a1, a2, a3, a4, a5, a6, a7, a8, a9, a10, a11⟩ := h1
  obtain ⟨b1, b2, b3, b4, b5, b6, b7, b8, b9, b10, b11⟩ := h2
  exact ⟨fun p => Kept_trans (a1 p) (b1 p), by rw [b2, a2], by rw [b3, a3], by rw [b4, a4],
    by rw [b5, a5], by rw [b6, a6], by rw [b7, a7], by rw [b8, a8], by rw [b9, a9],
    by rw [b10, a10], by rw [b11, a11]⟩

theorem sendToSU_settled {clock : Int} {s t : State} (h : sendToSU clock s = .ok t) :
    Settled s t := by
  have hh := sendToSU_heap h
  have hk : ∀ p, Kept (s.heap p) (t.heap p) := fun p => stateStamped_kept (hh p)
  obtain ⟨_, _, _, _, _, rfl⟩ := sendToSU_shape h
  exact ⟨hk, rfl, rfl, rfl, rfl, rfl, rfl, rfl, rfl, rfl, rfl⟩

theorem moveToExecute_settled {clock : Int} {s t : State} (h : moveToExecute clock s = .ok t) :
    Settled s t := by
  obtain ⟨hh, -, -⟩ := moveToExecute_effect h
  have hk : ∀ p, Kept (s.heap p) (t.heap p) := by
    intro p; rw [hh p]; split <;> exact ⟨rfl, rfl, rfl, rfl, rfl, rfl, rfl, rfl, rfl⟩
  obtain ⟨_, _, _, _, _, rfl⟩ := moveToExecute_shape h
  exact ⟨hk, rfl, rfl, rfl, rfl, rfl, rfl, rfl, rfl, rfl, rfl⟩

theorem dispatchToSchedule_settled {clock tm : Int} {s t : State}
    (h : dispatchToSchedule clock tm s = .ok t) : Settled s t := by
  obtain ⟨v, -, -, hh⟩ := dispatchToSchedule_queue h
  have hk : ∀ p, Kept (s.heap p) (t.heap p) := by
    intro p; rw [hh, stampSched_apply]; split <;> exact ⟨rfl, rfl, rfl, rfl, rfl, rfl, rfl, rfl, rfl⟩
  obtain ⟨_, _, _, _, rfl⟩ := dispatchToSchedule_shape h
  exact ⟨hk, rfl, rfl, rfl, rfl, rfl, rfl, rfl, rfl, rfl, rfl⟩

theorem updateDispatchQueueSize_settled (s : State) : Settled s (updateDispatchQueueSize s) := by
  obtain ⟨_, e⟩ := updateDispatchQueueSize_shape s
  rw [e]; exact Settled_refl _

theorem writeToRegFile_settled {s t : State} (h : writeToRegFile s = .ok t) : Settled s t := by
  obtain ⟨_, rfl⟩ := writeToRegFile_shape h
  exact Settled_refl _

theorem setToFired_settled (s : State) : Settled s (setToFired s) := Settled_refl _

theorem reserveScheduleSpots_settled {s t : State} (h : reserveScheduleSpots s = .ok t) :
    Settled s t := by
  obtain ⟨_, _, rfl⟩ := reserveScheduleSpots_shape h
  exact Settled_refl _

theorem readUpdateRegFile_settled {tm : Int} {s t : State}
    (h : readUpdateRegFile tm s = .ok t) : Settled s t := by
  have hh : ∀ x, sourcesSet (s.heap x) (t.heap x) := by
    unfold readUpdateRegFile at h
    split at h
    · cases h
    · rename_i hp rf h1
      cases h
      exact readUpdateRegFileLoop_heap _ _ _ _ _ _ h1
  obtain ⟨_, _, rfl⟩ := readUpdateRegFile_shape h
  exact ⟨fun p => sourcesSet_kept (hh p), rfl, rfl, rfl, rfl, rfl, rfl, rfl, rfl, rfl, rfl⟩

theorem broadcastToSched_settled (s : State) : Settled s (broadcastToSched s) :=
  ⟨fun p => sourcesSet_kept (broadcastToSchedLoop_heap _ _ _ p), rfl, rfl, rfl, rfl, rfl, rfl,
    rfl, rfl, rfl, rfl⟩

theorem removeAllSUFromSched_settled {s t : State} (h : removeAllSUFromSched s = .ok t) :
    Settled s t := by
  obtain ⟨_, _, rfl⟩ := removeAllSUFromSched_shape h
  exact Settled_refl _

theorem setToChosen_settled {s t : State} (h : setToChosen s = .ok t) : Settled s t := by
  obtain ⟨_, _, _, rfl⟩ := setToChosen_shape h
  exact Settled_refl _

theorem markForExecution_settled (s : State) : Settled s (markForExecution s) := by
  obtain ⟨_, e⟩ := markForExecution_shape s
  rw [e]; exact Settled_refl _

/-- Phase C and the statistics update before it write none of the `Kept`
fields and leave predictor, lock and trace alone. -/
theorem phaseC_settled {s t : State} (h : phaseC (updateDispatchQueueSize s) = .ok t) :
    ∃ u, Settled s u ∧ Quiet s u ∧ t = { u with clock := u.clock + 1 } := by
  obtain ⟨u, hq, e⟩ := phaseC_quiet h
  obtain ⟨w1, w3, w4, w6, w7, g1, g3, g4, g6, g7, e2⟩ := phaseC_ok h
  have hu : u = markForExecution w7 := by
    have h3 : ({ u with clock := u.clock + 1 } : State) =
        { markForExecution w7 with clock := (markForExecution w7).clock + 1 } := by
      rw [← e, ← e2]
    have hc : u.clock = (markForExecution w7).clock := by
      have := congrArg State.clock h3
      simpa using this
    cases u
    cases hm : markForExecution w7
    rw [hm] at h3 hc
    simp only [State.mk.injEq] at h3 ⊢
    simp only at hc
    obtain ⟨a1, a2, a3, a4, a5, a6, a7, a8, a9, a10, a11, a12, a13, a14, a15, a16, a17, a18, a19,
      a20, a21⟩ := h3
    exact ⟨a1, a2, a3, a4, a5, a6, hc, a8, a9, a10, a11, a12, a13, a14, a15, a16, a17, a18, a19,
      a20, a21⟩
  refine ⟨u, ?_, hq, e⟩
  rw [hu]
  exact Settled_trans (Settled_trans (Settled_trans (Settled_trans (Settled_trans (Settled_trans
    (Settled_trans (Settled_trans (updateDispatchQueueSize_settled s) (writeToRegFile_settled g1))
    (setToFired_settled w1)) (reserveScheduleSpots_settled g3))
    (readUpdateRegFile_settled g4)) (broadcastToSched_settled w4))
    (removeAllSUFromSched_settled g6)) (setToChosen_settled g7))
    (markForExecution_settled w7)

theorem cycle_clock {s t : State} (h : cycle s = .ok t) : t.clock = s.clock + 1 := by
  obtain ⟨s1, hA, hC⟩ := cycle_ok h
  obtain ⟨s2, s3, s4, s5, s6, h2, h3, h4, h5, h6, rfl⟩ := phaseA_ok hA
  obtain ⟨u, hq, rfl⟩ := phaseC_quiet hC
  have c7 : (readTrace s6.curr_Config.fetch_rate s6).clock = s6.clock := by
    obtain ⟨_, _, _, _, _, e⟩ := readTrace_shape s6.curr_Config.fetch_rate s6
    rw [e]
  have c6 : s6.clock = s5.clock := by
    obtain ⟨_, _, _, _, _, rfl⟩ := dispatch_Enqueue_shape h6; rfl
  have c5 := (dispatchToSchedule_settled h5).2.2.2.2.2.2.2.2.2.2
  have c4 := (moveToExecute_settled h4).2.2.2.2.2.2.2.2.2.2
  have c3 : s3.clock = s2.clock := (resolveBranches_quiet h3).2.2.2.2.1
  have c2 := (sendToSU_settled h2).2.2.2.2.2.2.2.2.2.2
  show u.clock + 1 = s.clock + 1
  rw [hq.2.2.2.2.1, c7, c6, c5, c4, c3, c2]
  rfl

/-! ## An iteration taken apart -/

theorem findNumUnresolved_idle (hp : Nat → instr) : ∀ (u : List (Option Nat)),
    supPtrs u = [] → findNumUnresolved hp u = .ok 0
  | [], _ => rfl
  | none :: rest, h => by
    rw [findNumUnresolved]
    exact findNumUnresolved_idle hp rest h
  | some p :: rest, h => by simp [supPtrs] at h

theorem resolveBranches_idle {s : State} (h : supPtrs s.sup = []) :
    resolveBranches s = .ok s := by
  unfold resolveBranches
  rw [findNumUnresolved_idle _ _ h]
  rfl

theorem sendToFinal_final (s : State) :
    (sendToFinal s).final_head =
      s.final_head ++ (supPtrs s.sup).map (fun p => mkFinal (s.heap p)) :=
  sendToFinalLoop_eq _ _ _

theorem resolveBranches_fields {s t : State} (h : resolveBranches s = .ok t) :
    (∀ p, (t.heap p).disp = (s.heap p).disp ∧ (t.heap p).correct_pred = (s.heap p).correct_pred ∧
      (t.heap p).state = (s.heap p).state ∧ (t.heap p).branch = (s.heap p).branch ∧
      (t.heap p).dest_tag = (s.heap p).dest_tag) ∧
    t.fetchQueue = s.fetchQueue ∧ t.final_head = s.final_head ∧ t.nalloc = s.nalloc ∧
    t.sup = s.sup ∧ t.dispatch_head = s.dispatch_head ∧ t.schedule_head = s.schedule_head ∧
    t.k_0 = s.k_0 ∧ t.k_1 = s.k_1 ∧ t.k_2 = s.k_2 ∧ t.curr_Config = s.curr_Config ∧
    t.clock = s.clock ∧ t.trace = s.trace ∧ t.tag = s.tag ∧ t.totalMarked = s.totalMarked := by
  have hh := resolveBranches_heap h
  have hk : ∀ p, (t.heap p).disp = (s.heap p).disp ∧
      (t.heap p).correct_pred = (s.heap p).correct_pred ∧
      (t.heap p).state = (s.heap p).state ∧ (t.heap p).branch = (s.heap p).branch ∧
      (t.heap p).dest_tag = (s.heap p).dest_tag := by
    intro p
    rcases hh p with e | e <;> rw [e] <;> exact ⟨rfl, rfl, rfl, rfl, rfl⟩
  obtain ⟨_, _, _, _, rfl⟩ := resolveBranches_shape h
  exact ⟨hk, rfl, rfl, rfl, rfl, rfl, rfl, rfl, rfl, rfl, rfl, rfl, rfl, rfl, rfl⟩

theorem midCalls_ok {clock tm : Int} {s t : State} (h : midCalls clock tm s = .ok t) :
    ∃ s4, moveToExecute clock s = .ok s4 ∧ dispatchToSchedule clock tm s4 = .ok t := by
  unfold midCalls at h
  split at h
  · cases h
  · exact ⟨_, by assumption, h⟩

/-- The two calls between branch resolution and `dispatch_Enqueue`: what they
leave alone and where the pointers they move come from. -/
theorem midCalls_facts {clock tm : Int} {s t : State} (h : midCalls clock tm s = .ok t) :
    Settled s t ∧ t.sup = s.sup ∧ (∀ p, (t.heap p).state = (s.heap p).state) ∧
    (∀ p ∈ t.dispatch_head.map (·.theInstr), p ∈ s.dispatch_head.map (·.theInstr)) ∧
    (∀ p ∈ t.schedule_head.map (·.theInstr),
      p ∈ s.schedule_head.map (·.theInstr) ∨ p ∈ s.dispatch_head.map (·.theInstr)) ∧
    (∀ p ∈ fuPtrs t.k_0 ++ fuPtrs t.k_1 ++ fuPtrs t.k_2,
      p ∈ fuPtrs s.k_0 ++ fuPtrs s.k_1 ++ fuPtrs s.k_2 ∨ p ∈ s.schedule_head.map (·.theInstr)) := by
  obtain ⟨s4, h4, h5⟩ := midCalls_ok h
  have q4 := moveToExecute_settled h4
  have q5 := dispatchToSchedule_settled h5
  obtain ⟨hh4, hf4, hq4⟩ := moveToExecute_effect h4
  obtain ⟨v, hv1, hv2, hv3⟩ := dispatchToSchedule_queue h5
  have e4 : s4.sup = s.sup ∧ s4.dispatch_head = s.dispatch_head := by
    obtain ⟨_, _, _, _, _, rfl⟩ := moveToExecute_shape h4; exact ⟨rfl, rfl⟩
  have e5 : t.sup = s4.sup ∧ t.k_0 = s4.k_0 ∧ t.k_1 = s4.k_1 ∧ t.k_2 = s4.k_2 := by
    obtain ⟨_, _, _, _, rfl⟩ := dispatchToSchedule_shape h5; exact ⟨rfl, rfl, rfl, rfl⟩
  have hptr4 : s4.schedule_head.map (·.theInstr) = s.schedule_head.map (·.theInstr) := by
    rw [hq4, List.map_map]
    apply List.map_congr_left
    intro n _
    simp only [Function.comp]
    split <;> rfl
  refine ⟨Settled_trans q4 q5, by rw [e5.1, e4.1], ?_, ?_, ?_, ?_⟩
  · intro p
    rw [hv3, stampSched_apply, hh4 p]
    split <;> split <;> rfl
  · intro p hp
    rw [← e4.2, hv1, List.map_append]
    exact List.mem_append_right _ hp
  · intro p hp
    rw [hv2, List.map_append, List.mem_append] at hp
    rcases hp with hp | hp
    · left; rw [← hptr4]; exact hp
    · right
      rw [← e4.2, hv1, List.map_append]
      refine List.mem_append_left _ ?_
      rw [List.map_map] at hp
      obtain ⟨d, hd, rfl⟩ := List.mem_map.1 hp
      exact List.mem_map.2 ⟨d, (mem_markedNodes.1 hd).1, rfl⟩
  · intro p hp
    rw [e5.2.1, e5.2.2.1, e5.2.2.2] at hp
    rcases hf4 p hp with h1 | h1
    · exact Or.inl h1
    · right
      rw [mem_pendingPtrs] at h1
      obtain ⟨n, hn, -, rfl⟩ := h1
      exact List.mem_map.2 ⟨n, hn, rfl⟩

/-- One iteration of the loop taken apart at `resolveBranches`,
`dispatch_Enqueue` and the trace read. -/
theorem cycle_anatomy {s t : State} (h : cycle s = .ok t) :
    ∃ s2 s3 s5 s6 u, sendToSU s.clock (sendToFinal s) = .ok s2 ∧ resolveBranches s2 = .ok s3 ∧
      midCalls s.clock s.totalMarked s3 = .ok s5 ∧ dispatch_Enqueue s.clock s5 = .ok s6 ∧
      Settled (readTrace s6.curr_Config.fetch_rate s6) u ∧
      Quiet (readTrace s6.curr_Config.fetch_rate s6) u ∧ t = { u with clock := u.clock + 1 } := by
  obtain ⟨s1, hA, hC⟩ := cycle_ok h
  obtain ⟨s2, s3, s4, s5, s6, h2, h3, h4, h5, h6, rfl⟩ := phaseA_ok hA
  obtain ⟨u, hs, hq, e⟩ := phaseC_settled hC
  refine ⟨s2, s3, s5, s6, u, h2, h3, ?_, h6, hs, hq, e⟩
  unfold midCalls
  rw [h4]
  exact h5

theorem dispatch_EnqueueLoop_blocked (cycle : Int) (n : Nat) {s : State}
    (h : s.fetchQueue = [] ∨ s.stallDispatch ≠ 0) : dispatch_EnqueueLoop cycle n s = .ok s := by
  cases n with
  | zero => rfl
  | succ n =>
    rw [dispatch_EnqueueLoop]
    split
    · rfl
    · rename_i p rest hf
      rcases h with h | h
      · rw [h] at hf; cases hf
      · rw [if_neg h]

theorem dispatch_Enqueue_blocked (cycle : Int) {s : State}
    (h : s.fetchQueue = [] ∨ s.stallDispatch ≠ 0) : dispatch_Enqueue cycle s = .ok s :=
  dispatch_EnqueueLoop_blocked cycle _ h

/-- With every counter of the predictor at its initial value 1 a branch is
predicted not taken. -/
theorem predictBranch_initial (i0 : instr) {s : State} (hg : ∀ r c, s.GSelect r c = 1)
    (hb : i0.branch = 1) :
    ∃ st, predictBranch i0 s =
      .ok ({ i0 with correct_pred := if (0 : Int) = i0.taken then 1 else 0 }, st) := by
  unfold predictBranch getPrediction
  rw [if_pos hb, hg]
  simp only
  split
  · exact ⟨_, rfl⟩
  · exact ⟨_, rfl⟩

theorem readTrace_cons (f : Nat) {s : State} {l : TraceLine} {rest : List TraceLine}
    (ht : s.trace = l :: rest) (hl : l.isInstr = true) :
    readTrace (f + 1) s =
      readTrace f (addToFetchQueue (lineInstr l s.tag s.clock) { s with trace := rest }) := by
  rw [readTrace]
  split
  · rename_i h0; rw [ht] at h0; cases h0
  · rename_i r h0; rw [ht] at h0; cases h0; cases hl
  · rename_i h0; rw [ht] at h0; cases h0; rfl
  · rename_i h0; rw [ht] at h0; cases h0; rfl

/-- The first turn of the loop of `dispatch_Enqueue` when the fetch buffer is
not empty and dispatch is not locked: the head is stamped and predicted, and the
lock is taken exactly when it is a mispredicted branch. -/
theorem dispatch_EnqueueLoop_head (cycle : Int) (n : Nat) {s t : State} {p : Nat}
    {rest : List Nat} (hf : s.fetchQueue = p :: rest) (hs : s.stallDispatch = 0)
    (h : dispatch_EnqueueLoop cycle (n + 1) s = .ok t) :
    ∃ i1 st, predictBranch { s.heap p with disp := cycle } s = .ok (i1, st) ∧
      dispatch_EnqueueLoop cycle n
        { s with heap := setInstr s.heap p i1, myStats := st,
                 stallDispatch := if i1.correct_pred = 0 then 1 else 0,
                 dispatch_head := s.dispatch_head ++ [{ theInstr := p, mark_for_move := 0 }],
                 fetchQueue := rest } = .ok t := by
  rw [dispatch_EnqueueLoop] at h
  split at h
  · rename_i h0; rw [hf] at h0; cases h0
  · rename_i p' rest' h0
    rw [hf] at h0
    cases h0
    rw [if_pos hs] at h
    split at h
    · cases h
    · rename_i i1 st hpb
      refine ⟨i1, st, hpb, ?_⟩
      split at h
      · rename_i hc
        split at h
        · rw [if_pos hc]; exact h
        · cases h
      · rename_i hc
        rw [if_neg hc]
        have e : ({ s with heap := setInstr s.heap p i1, myStats := st, stallDispatch := 0,
                            dispatch_head := s.dispatch_head ++
                              [{ theInstr := p, mark_for_move := 0 }],
                            fetchQueue := rest } : State) =
            { s with heap := setInstr s.heap p i1, myStats := st,
                     dispatch_head := s.dispatch_head ++ [{ theInstr := p, mark_for_move := 0 }],
                     fetchQueue := rest } := by
          cases s
          simp only at hs
          subst hs
          rfl
        rw [e]; exact h

/-- What one iteration does to the fetch buffer, to the dispatch stamps and to
the final queue. -/
theorem cycle_front_stamps {s t : State} (h : cycle s = .ok t)
    (hlt : ∀ p ∈ s.fetchQueue, p < s.nalloc) :
    ∃ moved rem k, s.fetchQueue = moved ++ rem ∧
      t.fetchQueue = rem ++ List.range' s.nalloc k ∧ t.nalloc = s.nalloc + k ∧
      (∀ p ∈ moved, (t.heap p).disp = s.clock) ∧
      (∀ p, p < s.nalloc → p ∉ moved →
        (t.heap p).disp = (s.heap p).disp ∧ (t.heap p).correct_pred = (s.heap p).correct_pred) ∧
      t.final_head = s.final_head ++ (supPtrs s.sup).map (fun p => mkFinal (s.heap p)) ∧
      t.curr_Config = s.curr_Config := by
  obtain ⟨s2, s3, s5, s6, u, h2, h3, h5, h6, hs, hq, rfl⟩ := cycle_anatomy h
  obtain ⟨k2, a2, b2, c2, d2, e2, f2, g2, i2, j2, l2⟩ := sendToSU_settled h2
  obtain ⟨k3, a3, b3, c3, d3, -, -, -, -, -, e3, -, -, -, -⟩ := resolveBranches_fields h3
  obtain ⟨⟨k5, a5, b5, c5, d5, e5, f5, g5, i5, j5, l5⟩, -, -, -, -, -⟩ := midCalls_facts h5
  obtain ⟨moved, m1, m2, m3, m4, m5, -⟩ := dispatch_EnqueueLoop_effect _ _ h6
  have e6 : s6.nalloc = s5.nalloc ∧ s6.final_head = s5.final_head ∧
      s6.curr_Config = s5.curr_Config := by
    obtain ⟨_, _, _, _, _, rfl⟩ := dispatch_Enqueue_shape h6; exact ⟨rfl, rfl, rfl⟩
  obtain ⟨k, c, r1, r2, -, -, -, -, -, -, r9, -⟩ := readTrace_effect s6.curr_Config.fetch_rate s6
  have e7 : (readTrace s6.curr_Config.fetch_rate s6).final_head = s6.final_head ∧
      (readTrace s6.curr_Config.fetch_rate s6).curr_Config = s6.curr_Config := by
    obtain ⟨_, _, _, _, _, e⟩ := readTrace_shape s6.curr_Config.fetch_rate s6
    rw [e]; exact ⟨rfl, rfl⟩
  obtain ⟨ku, au, bu, cu, du, eu, fu, gu, iu, ju, lu⟩ := hs
  have n6 : s6.nalloc = s.nalloc := by
    rw [e6.1, g5, c3, g2]; rfl
  have q5 : s5.fetchQueue = s.fetchQueue := by
    rw [i5, a3, i2]; rfl
  refine ⟨moved, s6.fetchQueue, k, by rw [← q5]; exact m1, ?_, ?_, ?_, ?_, ?_, ?_⟩
  · show u.fetchQueue = _
    rw [iu, r2, n6]
  · show u.nalloc = _
    rw [gu, r1, n6]
  · intro p hp
    have hp' : p < s6.nalloc := by
      rw [n6]; exact hlt p (by rw [← q5, m1]; exact List.mem_append_left _ hp)
    show (u.heap p).disp = s.clock
    rw [(ku p).2.2.2.2.1, r9 p hp']
    exact m4 p hp
  · intro p hp hm
    have hp' : p < s6.nalloc := by rw [n6]; exact hp
    show (u.heap p).disp = _ ∧ (u.heap p).correct_pred = _
    rw [(ku p).2.2.2.2.1, (ku p).2.2.2.1, r9 p hp', m5 p hm, (k5 p).2.2.2.2.1, (k5 p).2.2.2.1,
      (k3 p).1, (k3 p).2.1, (k2 p).2.2.2.2.1, (k2 p).2.2.2.1]
    exact ⟨rfl, rfl⟩
  · show u.final_head = _
    rw [ju, e7.1, e6.2.1, j5, b3, j2]
    exact sendToFinal_final s
  · show u.curr_Config = _
    rw [fu, e7.2, e6.2.2, f5, e3, f2]
    rfl

theorem TagInv_cycle {s t : State} (hi : TagInv s) (h : cycle s = .ok t) : TagInv t := by
  obtain ⟨hacc, hmp⟩ := hi
  obtain ⟨s1, hA, hC⟩ := cycle_ok h
  obtain ⟨s2, s3, s4, s5, s6, h2, h3, h4, h5, h6, rfl⟩ := phaseA_ok hA
  have a1 := AccInv_sendToFinal hacc
  have m1 : MarkedPrefix (sendToFinal s) := hmp
  have q : Still (sendToFinal s) s4 :=
    Still_trans (sendToSU_still h2) (Still_trans (resolveBranches_still h3) (moveToExecute_still h4))
  have a4 := AccInv_still q a1
  have m4 := MarkedPrefix_still q m1
  have etm : s.totalMarked = s4.totalMarked := by
    obtain ⟨-, -, -, -, -, -, -, -, a9, -, -⟩ := q
    exact a9.symm
  rw [etm] at h5
  obtain ⟨a5, u5⟩ := AccInv_dispatchToSchedule m4 a4 h5
  obtain ⟨a6, u6⟩ := AccInv_dispatch_Enqueue u5 a5 h6
  have a7 := AccInv_readTrace s6.curr_Config.fetch_rate a6
  have u7 := Unmarked_readTrace s6.curr_Config.fetch_rate u6
  obtain ⟨r1, r3, r4, r6, r7, g1, g3, g4, g6, g7, rfl⟩ := phaseC_ok hC
  have q1 : Still (readTrace s6.curr_Config.fetch_rate s6) (setToFired r1) :=
    Still_trans (updateDispatchQueueSize_still _) (Still_trans (writeToRegFile_still g1) (setToFired_still _))
  have a8 := AccInv_reserve (AccInv_still q1 a7) g3
  have m8 := MarkedPrefix_reserve (Unmarked_still q1 u7) g3
  have q2 : Still r3 (broadcastToSched r4) :=
    Still_trans (readUpdateRegFile_still g4) (broadcastToSched_still _)
  have a9 := AccInv_removeAll (AccInv_still q2 a8) g6
  have m9 := MarkedPrefix_removeAll (MarkedPrefix_still q2 m8) g6
  have q3 : Still r6 (markForExecution r7) :=
    Still_trans (setToChosen_still g7) (markForExecution_still _)
  have hsup : (markForExecution r7).sup = r6.sup := by
    obtain ⟨_, e⟩ := markForExecution_shape r7
    rw [e]
    obtain ⟨_, _, _, rfl⟩ := setToChosen_shape g7
    rfl
  have a10 := AccInv_still_sup q3 hsup a9
  have m10 := MarkedPrefix_still q3 m9
  exact ⟨a10, m10⟩

theorem fuPtrs_replicate_none : ∀ n : Nat,
    fuPtrs (List.replicate n (none : Option execute_node)) = []
  | 0 => rfl
  | n + 1 => by rw [List.replicate_succ]; exact fuPtrs_replicate_none n

theorem supPtrs_replicate_none : ∀ n : Nat,
    supPtrs (List.replicate n (none : Option Nat)) = []
  | 0 => rfl
  | n + 1 => by rw [List.replicate_succ]; exact supPtrs_replicate_none n

theorem TagInv_init (numRegs k0 k1 k2 R F : Nat) (trace : List TraceLine) :
    TagInv (proc_init numRegs k0 k1 k2 R F trace) := by
  refine ⟨⟨rfl, fun p hp => absurd hp (Nat.not_lt_zero p), ?_⟩, ⟨le_refl _, Nat.zero_le _, ?_, ?_⟩⟩
  · show List.Perm (([] : List final_node).map (·.dest_tag) ++
      ((supPtrs (List.replicate R (none : Option Nat)) ++
        ([] : List schedule_node).map (·.theInstr) ++ (([] : List dispatch_node).map (·.theInstr) ++
          ([] : List Nat))).map (fun p : Nat => (p : Int)))) ((List.range 0).map _)
    rw [supPtrs_replicate_none]
    exact List.Perm.refl _
  · intro d hd; simp [proc_init] at hd
  · intro d hd; simp [proc_init] at hd

theorem TagInv_reachable {s0 s : State} (h0 : TagInv s0) (h : Reachable s0 s) : TagInv s := by
  induction h with
  | init => exact h0
  | step _ _ hc ih => exact TagInv_cycle ih hc

theorem cast_injective : Function.Injective (fun p : Nat => (p : Int)) :=
  fun a b hab => by
    simp only at hab
    exact_mod_cast hab

/-- A retired record carries the tag of an allocated instruction that is no
longer in flight. -/
theorem AccInv_final_tag {b : Bool} {s : State} (hi : AccInv b s) {r : final_node}
    (hr : r ∈ s.final_head) :
    ∃ q, q < s.nalloc ∧ r.dest_tag = (q : Int) ∧ q ∉ inFlight b s := by
  obtain ⟨-, -, hp⟩ := hi
  have hm : r.dest_tag ∈ s.final_head.map (·.dest_tag) ++
      (inFlight b s).map (fun p : Nat => (p : Int)) :=
    List.mem_append_left _ (List.mem_map.2 ⟨r, hr, rfl⟩)
  have hm2 := (List.Perm.mem_iff hp).1 hm
  obtain ⟨q, hq, e⟩ := List.mem_map.1 hm2
  refine ⟨q, List.mem_range.1 hq, e.symm, ?_⟩
  intro hin
  have hnd : (s.final_head.map (·.dest_tag) ++
      (inFlight b s).map (fun p : Nat => (p : Int))).Nodup :=
    (List.Perm.nodup_iff hp).2 ((List.nodup_range _).map cast_injective)
  have hdis := (List.nodup_append.1 hnd).2.2
  exact hdis (List.mem_map.2 ⟨r, hr, rfl⟩) (List.mem_map.2 ⟨q, hin, e⟩)

/-- Two retired records with the same tag are the same record. -/
theorem AccInv_final_inj {b : Bool} {s : State} (hi : AccInv b s) {r r' : final_node}
    (hr : r ∈ s.final_head) (hr' : r' ∈ s.final_head) (e : r.dest_tag = r'.dest_tag) :
    r = r' := by
  obtain ⟨-, -, hp⟩ := hi
  have hnd : (s.final_head.map (·.dest_tag) ++
      (inFlight b s).map (fun p : Nat => (p : Int))).Nodup :=
    (List.Perm.nodup_iff hp).2 ((List.nodup_range _).map cast_injective)
  exact List.inj_on_of_nodup_map (List.nodup_append.1 hnd).1 hr hr' e

theorem mem_inFlight_fetch {b : Bool} {s : State} {p : Nat} (hp : p ∈ s.fetchQueue) :
    p ∈ inFlight b s := by
  unfold inFlight frontPtrs
  exact List.mem_append_right _ (List.mem_append_right _ hp)

/-- The records of the final queue with the tag of a dispatched instruction
show its dispatch stamp. -/
theorem cycle_rec_disp {s t : State} (h : cycle s = .ok t) (hacc : AccInv true s)
    (hst : StampInv (s.clock - 1) s) {p : Nat} {v : Int}
    (hnf : p ∉ t.fetchQueue) (hv : (t.heap p).disp = v)
    (hold : p < s.nalloc → p ∉ s.fetchQueue →
      ∀ r ∈ s.final_head, r.dest_tag = (p : Int) → r.disp = v) :
    ∀ r ∈ t.final_head, r.dest_tag = (p : Int) → r.disp = v := by
  obtain ⟨f1, f2, f3, f4, -, -, -, -, -, -⟩ := hst
  have hlt : ∀ q ∈ s.fetchQueue, q < s.nalloc := fun q hq =>
    f3 q (List.mem_append_right _ hq)
  obtain ⟨moved, rem, k, c1, c2, c3, c4, c5, c6, -⟩ := cycle_front_stamps h hlt
  intro r hr ht
  rw [c6, List.mem_append] at hr
  rcases hr with hr | hr
  · obtain ⟨q, hq, e, hin⟩ := AccInv_final_tag hacc hr
    have hqp : q = p := cast_injective (e.symm.trans ht)
    subst hqp
    exact hold hq (fun hf => hin (mem_inFlight_fetch hf)) r hr ht
  · obtain ⟨q, hq, rfl⟩ := List.mem_map.1 hr
    have hb : q ∈ backPtrs s := mem_backPtrs.2 (Or.inr (Or.inr hq))
    have hq1 := f4 q hb
    have hq2 : q ∉ s.fetchQueue := fun hf => f2 q hb (List.mem_append_right _ hf)
    have htag : (s.heap q).dest_tag = (q : Int) := hacc.2.1 q hq1
    have hqp : q = p := cast_injective (htag.symm.trans ht)
    subst hqp
    have hm : q ∉ moved := fun hm => hq2 (by rw [c1]; exact List.mem_append_left _ hm)
    show (s.heap q).disp = v
    rw [← (c5 q hq1 hm).1]
    exact hv

theorem idle_front {s s2 s3 s5 : State} (hi : Idle s)
    (h2 : sendToSU s.clock (sendToFinal s) = .ok s2) (h3 : resolveBranches s2 = .ok s3)
    (h5 : midCalls s.clock s.totalMarked s3 = .ok s5) : Idle s5 ∧ Settled s s5 := by
  obtain ⟨i1, i2, i3, i4, i5, i6⟩ := hi
  obtain ⟨p0, p1, p2, p3⟩ := sendToSU_ptrs h2
  have e2 : s2.dispatch_head = s.dispatch_head ∧ s2.schedule_head = s.schedule_head := by
    obtain ⟨_, _, _, _, _, rfl⟩ := sendToSU_shape h2; exact ⟨rfl, rfl⟩
  have hsup : supPtrs s2.sup = [] := by
    apply List.eq_nil_iff_forall_not_mem.2
    intro p hp
    rcases p3 p hp with h | ⟨h, -⟩
    · have : supPtrs (sendToFinal s).sup = [] := supPtrs_map_none s.sup
      rw [this] at h; cases h
    · have e : (sendToFinal s).k_0 = s.k_0 ∧ (sendToFinal s).k_1 = s.k_1 ∧
          (sendToFinal s).k_2 = s.k_2 := ⟨rfl, rfl, rfl⟩
      rw [e.1, e.2.1, e.2.2, i3, i4, i5] at h; cases h
  have hfu : fuPtrs s2.k_0 ++ fuPtrs s2.k_1 ++ fuPtrs s2.k_2 = [] := by
    apply List.eq_nil_iff_forall_not_mem.2
    intro p hp
    simp only [List.mem_append] at hp
    rcases hp with (hp | hp) | hp
    · have := p0 p hp; rw [show (sendToFinal s).k_0 = s.k_0 from rfl, i3] at this; cases this
    · have := p1 p hp; rw [show (sendToFinal s).k_1 = s.k_1 from rfl, i4] at this; cases this
    · have := p2 p hp; rw [show (sendToFinal s).k_2 = s.k_2 from rfl, i5] at this; cases this
  have e3 : s3 = s2 := by
    have := resolveBranches_idle hsup
    rw [h3] at this
    cases this; rfl
  subst e3
  obtain ⟨q5, u5, -, d5, c5, f5⟩ := midCalls_facts h5
  have q1 : Settled s (sendToFinal s) := by
    refine ⟨fun _ => Kept_refl _, rfl, rfl, rfl, rfl, rfl, rfl, rfl, rfl, ?_, rfl⟩
    rw [sendToFinal_final, i6]; simp
  refine ⟨⟨?_, ?_, ?_, ?_, ?_, by rw [u5]; exact hsup⟩, Settled_trans q1 (Settled_trans (sendToSU_settled h2) q5)⟩
  · have : s5.dispatch_head.map (·.theInstr) = [] := by
      apply List.eq_nil_iff_forall_not_mem.2
      intro p hp
      have := d5 p hp
      rw [e2.1, i1] at this; cases this
    exact List.map_eq_nil_iff.1 this
  · have : s5.schedule_head.map (·.theInstr) = [] := by
      apply List.eq_nil_iff_forall_not_mem.2
      intro p hp
      have := c5 p hp
      rw [e2.1, e2.2, i1, i2] at this
      rcases this with h | h <;> cases h
    exact List.map_eq_nil_iff.1 this
  all_goals
    apply List.eq_nil_iff_forall_not_mem.2
    intro p hp
    have hp' : p ∈ fuPtrs s5.k_0 ++ fuPtrs s5.k_1 ++ fuPtrs s5.k_2 := by
      simp only [List.mem_append]; tauto
    have := f5 p hp'
    rw [hfu, e2.2, i2] at this
    rcases this with h | h <;> cases h

/-- Phase C keeps an empty back end empty and moves nothing in front of it. -/
theorem tail_flow {v u : State} (hq : Quiet v u) :
    u.dispatch_head.map (·.theInstr) = v.dispatch_head.map (·.theInstr) ∧
    (∀ p ∈ u.schedule_head.map (·.theInstr), p ∈ v.schedule_head.map (·.theInstr)) ∧
    fuPtrs u.k_0 ++ fuPtrs u.k_1 ++ fuPtrs u.k_2 = fuPtrs v.k_0 ++ fuPtrs v.k_1 ++ fuPtrs v.k_2 ∧
    u.sup = v.sup := by
  obtain ⟨-, -, a3, -, -, -, a7, a8, a9, a10, a11⟩ := hq
  refine ⟨a3, ?_, by rw [a9, a10, a11], a7⟩
  intro p hp
  obtain ⟨n, hn, rfl⟩ := List.mem_map.1 hp
  obtain ⟨m, hm, e, -⟩ := a8 n hn
  exact List.mem_map.2 ⟨m, hm, e.symm⟩

/-! ## The first two iterations of a run -/

/-- A trace read that starts at an instruction line allocates its record first. -/
theorem readTrace_one (f : Nat) {s : State} {l : TraceLine} {rest : List TraceLine}
    (ht : s.trace = l :: rest) (hl : l.isInstr = true) :
    ∃ k, k ≤ f ∧
      (readTrace (f + 1) s).fetchQueue =
        s.fetchQueue ++ s.nalloc :: List.range' (s.nalloc + 1) k ∧
      (readTrace (f + 1) s).nalloc = s.nalloc + 1 + k ∧
      (∀ x, x < s.nalloc → (readTrace (f + 1) s).heap x = s.heap x) ∧
      (readTrace (f + 1) s).heap s.nalloc = lineInstr l s.tag s.clock ∧
      (f = 0 → (readTrace (f + 1) s).trace = rest) := by
  rw [readTrace_cons f ht hl]
  generalize hS : addToFetchQueue (lineInstr l s.tag s.clock) { s with trace := rest } = S1
  have e1 : S1.nalloc = s.nalloc + 1 := by rw [← hS]; rfl
  have e2 : S1.fetchQueue = s.fetchQueue ++ [s.nalloc] := by rw [← hS]; rfl
  have e5 : S1.trace = rest := by rw [← hS]; rfl
  have e6 : S1.heap = setInstr s.heap s.nalloc (lineInstr l s.tag s.clock) := by rw [← hS]; rfl
  obtain ⟨k, c, a1, a2, -, -, -, a6, a7, -, a9, -⟩ := readTrace_effect f S1
  refine ⟨k, ?_, ?_, ?_, ?_, ?_, ?_⟩
  · rw [a6]
    exact le_trans (List.length_filter_le _ _) a7
  · rw [a2, e2, e1, List.append_assoc]; rfl
  · rw [a1, e1]
  · intro x hx
    rw [a9 x (by rw [e1]; omega), e6, setInstr_other _ _ (by omega)]
  · rw [a9 s.nalloc (by rw [e1]; omega), e6, setInstr_same]
  · intro hf
    subst hf
    exact e5

theorem readTrace_frame (f : Nat) (s : State) :
    (readTrace f s).stallDispatch = s.stallDispatch ∧ (readTrace f s).GSelect = s.GSelect ∧
    (readTrace f s).curr_Config = s.curr_Config ∧ (readTrace f s).final_head = s.final_head ∧
    (readTrace f s).clock = s.clock ∧ (readTrace f s).dispatch_head = s.dispatch_head ∧
    (readTrace f s).schedule_head = s.schedule_head ∧ (readTrace f s).k_0 = s.k_0 ∧
    (readTrace f s).k_1 = s.k_1 ∧ (readTrace f s).k_2 = s.k_2 ∧ (readTrace f s).sup = s.sup := by
  obtain ⟨_, _, _, _, _, e⟩ := readTrace_shape f s
  rw [e]
  exact ⟨rfl, rfl, rfl, rfl, rfl, rfl, rfl, rfl, rfl, rfl, rfl⟩

/-- A trace read that starts at two instruction lines: with `f = 1` only the
first is read, with `f >= 2` both are. -/
theorem readTrace_two (f : Nat) {s : State} {l1 l2 : TraceLine} {rest : List TraceLine}
    (ht : s.trace = l1 :: l2 :: rest) (h1 : l1.isInstr = true) (h2 : l2.isInstr = true) :
    (∀ x, x < s.nalloc → (readTrace (f + 1) s).heap x = s.heap x) ∧
    (readTrace (f + 1) s).heap s.nalloc = lineInstr l1 s.tag s.clock ∧
    ((f = 0 ∧ (readTrace (f + 1) s).fetchQueue = s.fetchQueue ++ [s.nalloc] ∧
        (readTrace (f + 1) s).nalloc = s.nalloc + 1 ∧ (readTrace (f + 1) s).trace = l2 :: rest) ∨
      (1 ≤ f ∧ ∃ k, (readTrace (f + 1) s).fetchQueue =
          s.fetchQueue ++ s.nalloc :: (s.nalloc + 1) :: List.range' (s.nalloc + 2) k ∧
        (readTrace (f + 1) s).nalloc = s.nalloc + 2 + k)) := by
  obtain ⟨k, hk, a1, a2, a3, a4, a5⟩ := readTrace_one f ht h1
  refine ⟨a3, a4, ?_⟩
  cases f with
  | zero =>
    left
    have hk0 : k = 0 := by omega
    subst hk0
    exact ⟨rfl, by rw [a1]; rfl, by rw [a2], a5 rfl⟩
  | succ f =>
    right
    refine ⟨by omega, ?_⟩
    rw [readTrace_cons (f + 1) ht h1]
    generalize hS : addToFetchQueue (lineInstr l1 s.tag s.clock)
      { s with trace := l2 :: rest } = S1
    have e1 : S1.nalloc = s.nalloc + 1 := by rw [← hS]; rfl
    have e2 : S1.fetchQueue = s.fetchQueue ++ [s.nalloc] := by rw [← hS]; rfl
    have e5 : S1.trace = l2 :: rest := by rw [← hS]; rfl
    obtain ⟨k', -, b1, b2, -, -, -⟩ := readTrace_one f e5 h2
    refine ⟨k', ?_, ?_⟩
    · rw [b1, e2, e1, List.append_assoc]; rfl
    · rw [b2, e1]

theorem Idle_init (numRegs k0 k1 k2 R F : Nat) (trace : List TraceLine) :
    Idle (proc_init numRegs k0 k1 k2 R F trace) :=
  ⟨rfl, rfl, fuPtrs_replicate_none k0, fuPtrs_replicate_none k1, fuPtrs_replicate_none k2,
    supPtrs_replicate_none R⟩

/-- Phase C on a machine with an empty back end and an empty dispatch queue. -/
theorem Idle_tail {v u : State} (hi : Idle v) (hq : Quiet v u) : Idle u := by
  obtain ⟨i1, i2, i3, i4, i5, i6⟩ := hi
  obtain ⟨-, -, a3, -, -, -, a7, a8, a9, a10, a11⟩ := hq
  refine ⟨?_, ?_, by rw [a9, i3], by rw [a10, i4], by rw [a11, i5], by rw [a7, i6]⟩
  · rw [i1] at a3
    exact List.map_eq_nil_iff.1 a3
  · apply List.eq_nil_iff_forall_not_mem.2
    intro n hn
    obtain ⟨m, hm, -, -⟩ := a8 n hn
    rw [i2] at hm
    cases hm

/-- The first iteration only reads the trace. -/
theorem SecondTop_of_init (numRegs k0 k1 k2 R F : Nat) (b l2 : TraceLine)
    (rest : List TraceLine) (hF : 1 ≤ F) (hb : b.isInstr = true) (hl2 : l2.isInstr = true)
    {t : State} (h : cycle (proc_init numRegs k0 k1 k2 R F (b :: l2 :: rest)) = .ok t) :
    SecondTop b l2 rest F t := by
  obtain ⟨s2, s3, s5, s6, u, h2, h3, h5, h6, hs, hq, rfl⟩ := cycle_anatomy h
  obtain ⟨i5, q5⟩ := idle_front (Idle_init numRegs k0 k1 k2 R F _) h2 h3 h5
  obtain ⟨k5, a5, b5, c5, d5, e5, f5, g5, j5, l5, m5⟩ := q5
  have e6 : s6 = s5 := by
    have := dispatch_Enqueue_blocked (proc_init numRegs k0 k1 k2 R F (b :: l2 :: rest)).clock
      (Or.inl j5 : s5.fetchQueue = [] ∨ s5.stallDispatch ≠ 0)
    rw [h6] at this
    cases this; rfl
  subst e6
  have hfr : s6.curr_Config.fetch_rate = F := by rw [f5]; rfl
  obtain ⟨F', rfl⟩ : ∃ F', F = F' + 1 := ⟨F - 1, by omega⟩
  rw [hfr] at hs hq
  have ht : s6.trace = b :: l2 :: rest := by rw [d5]; rfl
  obtain ⟨r1, r2, r3⟩ := readTrace_two F' ht hb hl2
  obtain ⟨w1, w2, w3, w4, w5, w6, w7, w8, w9, w10, w11⟩ := readTrace_frame (F' + 1) s6
  obtain ⟨ku, au, bu, cu, du, eu, fu, gu, ju, lu, mu⟩ := hs
  have hn0 : s6.nalloc = 0 := by rw [g5]; rfl
  have hfq0 : s6.fetchQueue = [] := j5
  have idv : Idle (readTrace (F' + 1) s6) := by
    obtain ⟨x1, x2, x3, x4, x5, x6⟩ := i5
    exact ⟨by rw [w6, x1], by rw [w7, x2], by rw [w8, x3], by rw [w9, x4], by rw [w10, x5],
      by rw [w11, x6]⟩
  have idu := Idle_tail idv hq
  refine ⟨?_, idu, ?_, ?_, ?_, ?_, ?_, ?_, ?_⟩
  · show u.clock + 1 = 2
    rw [mu, w5, m5]; rfl
  · show u.stallDispatch = 0
    rw [au, w1, a5]; rfl
  · intro r c
    show u.GSelect r c = 1
    rw [bu, w2, b5]; rfl
  · show u.curr_Config.fetch_rate = F' + 1
    rw [fu, w3]; exact hfr
  · show Kept _ (u.heap 0)
    have : (readTrace (F' + 1) s6).heap 0 = lineInstr b 0 1 := by
      have := r2
      rw [hn0, e5, m5] at this
      exact this
    rw [← this]
    exact ku 0
  · show u.final_head = []
    rw [lu, w4, l5]; rfl
  · intro p hp
    show p ∈ u.fetchQueue
    have hp' : p < u.nalloc := hp
    rw [gu] at hp'
    rw [ju]
    rcases r3 with ⟨-, x1, x2, -⟩ | ⟨-, k, x1, x2⟩
    · rw [x1, hfq0, hn0]
      rw [x2, hn0] at hp'
      simp; omega
    · rw [x1, hfq0, hn0]
      rw [x2, hn0] at hp'
      simp only [List.nil_append, List.mem_cons, List.mem_range']
      by_cases h0 : p = 0
      · exact Or.inl h0
      · by_cases h1 : p = 1
        · exact Or.inr (Or.inl h1)
        · exact Or.inr (Or.inr ⟨p - 2, by omega, by omega⟩)
  · rcases r3 with ⟨x0, x1, x2, x3⟩ | ⟨x0, k, x1, x2⟩
    · left
      refine ⟨by omega, ?_, ?_, ?_⟩
      · show u.fetchQueue = [0]
        rw [ju, x1, hfq0, hn0]; rfl
      · show u.nalloc = 1
        rw [gu, x2, hn0]
      · show u.trace = l2 :: rest
        rw [du, x3]
    · right
      refine ⟨by omega, List.range' 2 k, ?_, ?_⟩
      · show u.fetchQueue = _
        rw [ju, x1, hfq0, hn0]; rfl
      · show 2 ≤ u.nalloc
        rw [gu, x2, hn0]; omega

theorem dispatch_EnqueueLoop_front (cycle : Int) (n : Nat) {s t : State}
    (h : dispatch_EnqueueLoop cycle n s = .ok t) : FrontOnly s t := by
  obtain ⟨_, _, _, _, _, rfl⟩ := dispatch_EnqueueLoop_shape cycle n h
  exact ⟨rfl, rfl, rfl, rfl, rfl, rfl, rfl, rfl, rfl, rfl, rfl, rfl, rfl⟩

/-- The state after the first turn of the loop of `dispatch_Enqueue`. -/
theorem enqueue_first {c : Int} {s5 s6 : State} {p : Nat} {rest : List Nat}
    (hf : s5.fetchQueue = p :: rest) (hs : s5.stallDispatch = 0)
    (hF : 1 ≤ s5.curr_Config.fetch_rate) (h : dispatch_Enqueue c s5 = .ok s6) :
    ∃ i1 st U, predictBranch { s5.heap p with disp := c } s5 = .ok (i1, st) ∧
      dispatch_EnqueueLoop c (s5.curr_Config.fetch_rate - 1) U = .ok s6 ∧
      U.fetchQueue = rest ∧ U.heap = setInstr s5.heap p i1 ∧
      U.stallDispatch = (if i1.correct_pred = 0 then 1 else 0) ∧
      U.dispatch_head = s5.dispatch_head ++ [{ theInstr := p, mark_for_move := 0 }] ∧
      FrontOnly s5 U := by
  unfold dispatch_Enqueue at h
  obtain ⟨n, hn⟩ : ∃ n, s5.curr_Config.fetch_rate = n + 1 :=
    ⟨s5.curr_Config.fetch_rate - 1, by omega⟩
  rw [hn] at h ⊢
  obtain ⟨i1, st, hpb, hl⟩ := dispatch_EnqueueLoop_head c n hf hs h
  exact ⟨i1, st, _, hpb, hl, rfl, rfl, rfl, rfl,
    ⟨rfl, rfl, rfl, rfl, rfl, rfl, rfl, rfl, rfl, rfl, rfl, rfl, rfl⟩⟩

/-- From the end of `dispatch_Enqueue` to the end of the iteration: the trace
read appends fresh pointers to the fetch buffer, nothing else moves. -/
theorem after_enqueue (f : Nat) {s6 u : State} (hs : Settled (readTrace f s6) u)
    (hq : Quiet (readTrace f s6) u) :
    ∃ k, u.fetchQueue = s6.fetchQueue ++ List.range' s6.nalloc k ∧ u.nalloc = s6.nalloc + k ∧
      (∀ p, p < s6.nalloc → Kept (s6.heap p) (u.heap p) ∧ (u.heap p).state = (s6.heap p).state) ∧
      u.stallDispatch = s6.stallDispatch ∧ u.GSelect = s6.GSelect ∧
      u.curr_Config = s6.curr_Config ∧ u.final_head = s6.final_head ∧ u.clock = s6.clock ∧
      u.dispatch_head.map (·.theInstr) = s6.dispatch_head.map (·.theInstr) ∧
      (∀ p ∈ u.schedule_head.map (·.theInstr), p ∈ s6.schedule_head.map (·.theInstr)) ∧
      fuPtrs u.k_0 = fuPtrs s6.k_0 ∧ fuPtrs u.k_1 = fuPtrs s6.k_1 ∧
      fuPtrs u.k_2 = fuPtrs s6.k_2 ∧ u.sup = s6.sup ∧
      (∀ l rest, s6.trace = l :: rest → l.isInstr = true → 1 ≤ f → 1 ≤ k) := by
  obtain ⟨k, c, r1, r2, -, -, r5, r6, r7, r8, r9, -⟩ := readTrace_effect f s6
  obtain ⟨w1, w2, w3, w4, w5, w6, w7, w8, w9, w10, w11⟩ := readTrace_frame f s6
  obtain ⟨ku, au, bu, cu, du, eu, fu, gu, ju, lu, mu⟩ := hs
  obtain ⟨q1, -, q3, -, -, -, q7, q8, q9, q10, q11⟩ := hq
  refine ⟨k, by rw [ju, r2], by rw [gu, r1], ?_, by rw [au, w1], by rw [bu, w2], by rw [fu, w3],
    by rw [lu, w4], by rw [mu, w5], by rw [q3, w6], ?_, by rw [q9, w8], by rw [q10, w9],
    by rw [q11, w10], by rw [q7, w11], ?_⟩
  · intro p hp
    have := ku p
    rw [r9 p hp] at this
    refine ⟨this, ?_⟩
    have := (q1 p).2.2.2.2.2
    rw [r9 p hp] at this
    exact this
  · intro p hp
    obtain ⟨n, hn, rfl⟩ := List.mem_map.1 hp
    obtain ⟨m, hm, e, -⟩ := q8 n hn
    rw [w7] at hm
    exact List.mem_map.2 ⟨m, hm, e.symm⟩
  · intro l rest ht hl hf
    rw [ht] at r5
    cases c with
    | nil =>
      simp only [List.nil_append] at r5
      have := r8 (by rw [← r5]; simp)
      simp at this
      omega
    | cons x c =>
      simp only [List.cons_append, List.cons.injEq] at r5
      obtain ⟨rfl, -⟩ := r5
      rw [r6, List.filter_cons_of_pos hl]
      simp

theorem resolveBranchesLoop_stall : ∀ (n : Nat) {s t : State},
    resolveBranchesLoop n s = .ok t → s.stallDispatch = 0 → t.stallDispatch = 0 := by
  intro n
  induction n with
  | zero => intro s t h hs; cases h; exact hs
  | succ n ih =>
    intro s t h hs
    rw [resolveBranchesLoop] at h
    simp only at h
    split at h
    · cases h
    · split at h
      · rename_i p _
        obtain ⟨g, e1⟩ := updateGSelect_shape (s.heap p).address (s.heap p).taken s
        rw [e1] at h
        obtain ⟨r, e2⟩ := updateGHR_shape (s.heap p).taken { s with GSelect := g }
        simp only at h
        rw [e2] at h
        split at h
        · split at h
          · exact ih h rfl
          · cases h
        · exact ih h hs
      · cases h

theorem resolveBranches_stall {s t : State} (h : resolveBranches s = .ok t)
    (hs : s.stallDispatch = 0) : t.stallDispatch = 0 := by
  unfold resolveBranches at h
  split at h
  · cases h
  · exact resolveBranchesLoop_stall _ h hs

theorem StampInv_fetch_nodup {su : Int} {s : State} (h : StampInv su s) :
    s.fetchQueue.Nodup ∧ ∀ p ∈ s.fetchQueue, p < s.nalloc := by
  obtain ⟨f1, -, f3, -⟩ := h
  exact ⟨(List.nodup_append.1 f1).2.1, fun p hp => f3 p (List.mem_append_right _ hp)⟩

/-- The second iteration of a run whose first line is a branch, up to the first
turn of the loop of `dispatch_Enqueue`: the branch is stamped with cycle 2 and
predicted not taken. -/
theorem second_enqueue {a : Nat} {fu d s1 s2 tk : Int} {l2 : TraceLine}
    {rest : List TraceLine} {F : Nat} {s t : State}
    (hT : SecondTop (TraceLine.branchLine a fu d s1 s2 tk) l2 rest F s) (hF : 1 ≤ F)
    (h : cycle s = .ok t) :
    ∃ s6 u U fq', s.fetchQueue = 0 :: fq' ∧ (U.heap 0).disp = 2 ∧
      (U.heap 0).correct_pred = (if (0 : Int) = tk then 1 else 0) ∧ (U.heap 0).branch = 1 ∧
      (U.heap 0).resolved = 0 ∧ (U.heap 0).dest_tag = 0 ∧
      dispatch_EnqueueLoop 2 (F - 1) U = .ok s6 ∧ U.fetchQueue = fq' ∧
      U.stallDispatch = (if (0 : Int) = tk then 0 else 1) ∧
      U.dispatch_head = [{ theInstr := 0, mark_for_move := 0 }] ∧ U.nalloc = s.nalloc ∧
      U.trace = s.trace ∧ U.curr_Config = s.curr_Config ∧ U.final_head = [] ∧ U.clock = 2 ∧
      U.schedule_head = [] ∧ fuPtrs U.k_0 = [] ∧ fuPtrs U.k_1 = [] ∧ fuPtrs U.k_2 = [] ∧
      supPtrs U.sup = [] ∧
      Settled (readTrace F s6) u ∧ Quiet (readTrace F s6) u ∧
      t = { u with clock := u.clock + 1 } := by
  obtain ⟨t1, t2, t3, t4, t5, t6, t7, t8, t9⟩ := hT
  obtain ⟨s2', s3, s5, s6, u, h2, h3, h5, h6, hs, hq, rfl⟩ := cycle_anatomy h
  obtain ⟨i5, q5⟩ := idle_front t2 h2 h3 h5
  obtain ⟨k5, a5, b5, c5, d5, e5, f5, g5, j5, l5, m5⟩ := q5
  obtain ⟨x1, x2, x3, x4, x5, x6⟩ := i5
  rw [t1] at h6
  have hfr : s5.curr_Config.fetch_rate = F := by rw [f5]; exact t5
  obtain ⟨fq', hfq⟩ : ∃ fq', s.fetchQueue = 0 :: fq' := by
    rcases t9 with ⟨-, e, -, -⟩ | ⟨-, r, e, -⟩
    · exact ⟨[], e⟩
    · exact ⟨1 :: r, e⟩
  have hf5 : s5.fetchQueue = 0 :: fq' := by rw [j5]; exact hfq
  have hs5 : s5.stallDispatch = 0 := by rw [a5]; exact t3
  obtain ⟨i1, st, U, hpb, hl, e1, e2, e3, e4, fr⟩ :=
    enqueue_first hf5 hs5 (by rw [hfr]; exact hF) h6
  obtain ⟨fr1, fr2, fr3, fr4, fr5, fr6, fr7, fr8, fr9, fr10, fr11, fr12, fr13⟩ := fr
  have hg5 : ∀ r c, s5.GSelect r c = 1 := by
    intro r c; rw [b5]; exact t4 r c
  obtain ⟨y1, y2, y3, y4, y5, y6, y7, y8, y9⟩ := (k5 0)
  obtain ⟨z1, z2, z3, z4, z5, z6, z7, z8, z9⟩ := t6
  have hbr : (s5.heap 0).branch = 1 := by rw [y2, z2]; rfl
  have htk : (s5.heap 0).taken = tk := by rw [y3, z3]; rfl
  have hrs : (s5.heap 0).resolved = 0 := by rw [y7, z7]; rfl
  have htg : (s5.heap 0).dest_tag = 0 := by rw [y6, z6]; rfl
  obtain ⟨st', hpb'⟩ := predictBranch_initial { s5.heap 0 with disp := 2 } hg5 hbr
  rw [hpb] at hpb'
  have hi1 : i1 = { ({ s5.heap 0 with disp := 2 } : instr) with
      correct_pred := if (0 : Int) = tk then 1 else 0 } := by
    rw [(Prod.mk.inj (Except.ok.inj hpb')).1]
    show ({ ({ s5.heap 0 with disp := 2 } : instr) with
      correct_pred := if (0 : Int) = (s5.heap 0).taken then 1 else 0 } : instr) = _
    rw [htk]
  have hU0 : U.heap 0 = i1 := by rw [e2, setInstr_same]
  have hfr6 : s6.curr_Config.fetch_rate = F := by
    rw [(dispatch_EnqueueLoop_front _ _ hl).2.2.1, fr3]; exact hfr
  rw [hfr6] at hs hq
  rw [hfr] at hl
  refine ⟨s6, u, U, fq', hfq, by rw [hU0, hi1], by rw [hU0, hi1], by rw [hU0, hi1]; exact hbr,
    by rw [hU0, hi1]; exact hrs, by rw [hU0, hi1]; exact htg, hl, e1, ?_, by rw [e4, x1]; rfl,
    by rw [fr1, g5], by rw [fr2, d5], by rw [fr3, f5], by rw [fr6, l5, t7],
    by rw [fr7, m5, t1], by rw [fr8, x2], by rw [fr9, x3], by rw [fr10, x4], by rw [fr11, x5],
    by rw [fr12, x6], hs, hq, rfl⟩
  rw [e3, hi1]
  show (if (if (0 : Int) = tk then (1 : Int) else 0) = 0 then (1 : Int) else 0) = _
  by_cases htk0 : (0 : Int) = tk
  · rw [if_pos htk0, if_pos htk0]; rfl
  · rw [if_neg htk0, if_neg htk0]; rfl

/-- If `dispatch_Enqueue` starts unlocked and ends locked, the lock was taken
for an instruction of the fetch buffer that it found mispredicted. -/
theorem dispatch_EnqueueLoop_lock (cycle : Int) : ∀ (n : Nat) {s t : State},
    dispatch_EnqueueLoop cycle n s = .ok t → s.stallDispatch = 0 →
    t.stallDispatch = 0 ∨ ∃ p ∈ s.fetchQueue, (t.heap p).correct_pred = 0 := by
  intro n
  induction n with
  | zero => intro s t h hs; cases h; exact Or.inl hs
  | succ n ih =>
    intro s t h hs
    cases hf : s.fetchQueue with
    | nil =>
      have := dispatch_EnqueueLoop_blocked cycle (n + 1) (Or.inl hf : s.fetchQueue = [] ∨ _)
      rw [h] at this
      cases this
      exact Or.inl hs
    | cons p rest =>
      obtain ⟨i1, st, -, hl⟩ := dispatch_EnqueueLoop_head cycle n hf hs h
      by_cases hc : i1.correct_pred = 0
      · rw [if_pos hc] at hl
        have := dispatch_EnqueueLoop_blocked cycle n
          (s := { s with heap := setInstr s.heap p i1, myStats := st, stallDispatch := 1,
                         dispatch_head := s.dispatch_head ++ [{ theInstr := p, mark_for_move := 0 }],
                         fetchQueue := rest }) (Or.inr (show (1 : Int) ≠ 0 by decide))
        rw [hl] at this
        cases this
        right
        refine ⟨p, List.mem_cons_self _ _, ?_⟩
        show (setInstr s.heap p i1 p).correct_pred = 0
        rw [setInstr_same]; exact hc
      · rw [if_neg hc] at hl
        rcases ih hl rfl with h1 | ⟨q, hq, h1⟩
        · exact Or.inl h1
        · exact Or.inr ⟨q, List.mem_cons_of_mem _ hq, h1⟩

/-! ## A correctly predicted first branch -/

/-- The second iteration when the first line is a branch that is not taken: the
branch is dispatched in cycle 2 and predicted correctly; with `F >= 2` the next
instruction is dispatched in the same cycle, with `F = 1` it is read into the
fetch buffer. -/
theorem ThirdTop_of_second {a : Nat} {fu d s1 s2 : Int} {l2 : TraceLine}
    {rest : List TraceLine} {F : Nat} {s t : State}
    (hT : SecondTop (TraceLine.branchLine a fu d s1 s2 0) l2 rest F s) (hF : 1 ≤ F)
    (hl2 : l2.isInstr = true) (hst : StampInv (s.clock - 1) s) (h : cycle s = .ok t) :
    ThirdTop F t := by
  obtain ⟨s6, u, U, fq', hfq, u1, u2, u3, u4, u4', hl, u5, u6, u7, u8, u9, u10, u11, u12, u13,
    u14, u15, u16, u17, hs, hq, rfl⟩ := second_enqueue hT hF h
  obtain ⟨t1, t2, t3, t4, t5, t6, t7, t8, t9⟩ := hT
  rw [if_pos rfl] at u2 u6
  obtain ⟨hnd, hlt⟩ := StampInv_fetch_nodup hst
  rw [hfq] at hnd
  have h0 : 0 ∉ fq' := (List.nodup_cons.1 hnd).1
  obtain ⟨moved, m1, -, m3, -, m5, -⟩ := dispatch_EnqueueLoop_effect _ _ hl
  obtain ⟨fr1, fr2, fr3, -, -, fr6, fr7, -, -, -, -, -, -⟩ := dispatch_EnqueueLoop_front _ _ hl
  rw [u5] at m1
  have h0m : 0 ∉ moved := fun hm => h0 (by rw [m1]; exact List.mem_append_left _ hm)
  have h06 : 0 ∉ s6.fetchQueue := fun hm => h0 (by rw [m1]; exact List.mem_append_right _ hm)
  have e06 : s6.heap 0 = U.heap 0 := m5 0 h0m
  obtain ⟨k, a1, a2, a3, a4, -, a6, a7, a8, -, -, -, -, -, -, a15⟩ := after_enqueue F hs hq
  have hn6 : s6.nalloc = s.nalloc := by rw [fr1, u8]
  have hn1 : 1 ≤ s.nalloc := by
    rcases t9 with ⟨-, -, e, -⟩ | ⟨-, r, -, e⟩ <;> omega
  have hk0 := (a3 0 (by rw [hn6]; omega)).1
  obtain ⟨-, -, -, kc, kd, -, -, -, -⟩ := hk0
  have hfin : u.final_head = [] := by rw [a7, fr6, u11]
  have d0 : Dispatched 0 2 { u with clock := u.clock + 1 } := by
    refine ⟨?_, ?_, ?_, ?_⟩
    · show 0 < u.nalloc
      rw [a2, hn6]; omega
    · show 0 ∉ u.fetchQueue
      rw [a1, List.mem_append, List.mem_range'_1, hn6]
      rintro (hm | hm)
      · exact h06 hm
      · omega
    · show (u.heap 0).disp = 2
      rw [kd, e06, u1]
    · intro r hr
      have hr' : r ∈ u.final_head := hr
      rw [hfin] at hr'
      cases hr'
  have hlock : u.stallDispatch = 0 ∨ ∃ p, p ≠ 0 ∧ (u.heap p).correct_pred = 0 := by
    rcases dispatch_EnqueueLoop_lock _ _ hl u6 with h1 | ⟨p, hp, h1⟩
    · left; rw [a4]; exact h1
    · right
      rw [u5] at hp
      have hps : p ∈ s.fetchQueue := by rw [hfq]; exact List.mem_cons_of_mem _ hp
      refine ⟨p, fun e => h0 (e ▸ hp), ?_⟩
      rw [(a3 p (by rw [hn6]; exact hlt p hps)).1.2.2.2.1]
      exact h1
  refine ⟨?_, ?_, d0, ?_, hlock, ?_⟩
  · show u.clock + 1 = 3
    rw [a8, fr7, u12]; rfl
  · show u.curr_Config.fetch_rate = F
    rw [a6, fr3, u10]; exact t5
  · show (u.heap 0).correct_pred = 1
    rw [kc, e06, u2]
  · rcases t9 with ⟨e1, e2, e3, e4⟩ | ⟨e1, r, e2, e3⟩
    · left
      subst e1
      rw [hfq] at e2
      have hfq0 : fq' = [] := (List.cons.inj e2).2
      have e6 : s6 = U := by
        have : dispatch_EnqueueLoop 2 0 U = .ok U := rfl
        rw [hl] at this
        cases this; rfl
      subst e6
      refine ⟨rfl, ?_, ?_⟩
      · show u.stallDispatch = 0
        rw [a4, u6]
      · have hk := a15 l2 rest (by rw [u9, e4]) hl2 (le_refl 1)
        obtain ⟨k', rfl⟩ : ∃ k', k = k' + 1 := ⟨k - 1, by omega⟩
        refine ⟨List.range' 2 k', ?_⟩
        show u.fetchQueue = _
        rw [a1, u5, hfq0, u8, e3]
        rfl
    · right
      refine ⟨e1, ?_⟩
      rw [hfq] at e2
      have hfq1 : fq' = 1 :: r := (List.cons.inj e2).2
      rw [hfq1] at hnd
      have h1r : 1 ∉ r := (List.nodup_cons.1 (List.nodup_cons.1 hnd).2).1
      obtain ⟨n, hn⟩ : ∃ n, F - 1 = n + 1 := ⟨F - 2, by omega⟩
      rw [hn] at hl
      obtain ⟨i1, st, hpb, hl'⟩ := dispatch_EnqueueLoop_head 2 n (by rw [u5, hfq1]) u6 hl
      obtain ⟨cp, hcp⟩ := predictBranch_instr hpb
      obtain ⟨mv, n1, -, n3, -, -, -⟩ := dispatch_EnqueueLoop_effect _ _ hl'
      have n1' : r = mv ++ s6.fetchQueue := n1
      have h16 : 1 ∉ s6.fetchQueue := fun hm => h1r (by rw [n1']; exact List.mem_append_right _ hm)
      have hd1 : (s6.heap 1).disp = 2 := by
        refine dispStamped_disp (n3 1) ?_
        show (setInstr U.heap 1 i1 1).disp = 2
        rw [setInstr_same, hcp]
      have hk1 := (a3 1 (by rw [hn6]; omega)).1
      obtain ⟨-, -, -, -, kd1, -, -, -, -⟩ := hk1
      refine ⟨?_, ?_, ?_, ?_⟩
      · show 1 < u.nalloc
        rw [a2, hn6]; omega
      · show 1 ∉ u.fetchQueue
        rw [a1, List.mem_append, List.mem_range'_1, hn6]
        rintro (hm | hm)
        · exact h16 hm
        · omega
      · show (u.heap 1).disp = 2
        rw [kd1, hd1]
      · intro r hr
        have hr' : r ∈ u.final_head := hr
        rw [hfin] at hr'
        cases hr'

theorem Dispatched_cycle {p : Nat} {v : Int} {s t : State} (hd : Dispatched p v s)
    (hacc : AccInv true s) (hst : StampInv (s.clock - 1) s) (h : cycle s = .ok t) :
    Dispatched p v t ∧ (t.heap p).correct_pred = (s.heap p).correct_pred := by
  obtain ⟨d1, d2, d3, d4⟩ := hd
  obtain ⟨-, hlt⟩ := StampInv_fetch_nodup hst
  obtain ⟨moved, rem, k, c1, c2, c3, c4, c5, c6, -⟩ := cycle_front_stamps h hlt
  have hm : p ∉ moved := fun hm => d2 (by rw [c1]; exact List.mem_append_left _ hm)
  obtain ⟨e1, e2⟩ := c5 p d1 hm
  have hnf : p ∉ t.fetchQueue := by
    rw [c2, List.mem_append, List.mem_range'_1]
    rintro (hr | hr)
    · exact d2 (by rw [c1]; exact List.mem_append_right _ hr)
    · omega
  have hv : (t.heap p).disp = v := by rw [e1]; exact d3
  exact ⟨⟨by rw [c3]; omega, hnf, hv, cycle_rec_disp h hacc hst hnf hv (fun _ _ => d4)⟩, e2⟩

theorem LaterTop_of_third {F : Nat} {s t : State} (hT : ThirdTop F s) (hacc : AccInv true s)
    (hst : StampInv (s.clock - 1) s) (h : cycle s = .ok t) : LaterTop F t := by
  obtain ⟨t1, t2, t3, t4, -, t5⟩ := hT
  obtain ⟨d0, c0⟩ := Dispatched_cycle t3 hacc hst h
  have hc : t.clock = 4 := by rw [cycle_clock h, t1]; rfl
  refine ⟨by rw [hc], d0, by rw [c0]; exact t4, ?_⟩
  rcases t5 with ⟨e1, e2, r, e3⟩ | ⟨e1, e2⟩
  · rw [if_pos e1]
    subst e1
    obtain ⟨hnd, hlt⟩ := StampInv_fetch_nodup hst
    have h1n : 1 < s.nalloc := hlt 1 (by rw [e3]; exact List.mem_cons_self _ _)
    rw [e3] at hnd
    have h1r : 1 ∉ r := (List.nodup_cons.1 hnd).1
    have hkey : 1 ∉ t.fetchQueue ∧ (t.heap 1).disp = 3 ∧ 1 < t.nalloc := by
      obtain ⟨s2, s3, s5, s6, u, h2, h3, h5, h6, hs, hq, rfl⟩ := cycle_anatomy h
      obtain ⟨-, a2, -, -, -, -, b2, c2, f2, -, -⟩ := sendToSU_settled h2
      have a3 := resolveBranches_stall h3 (by rw [a2]; exact e2)
      obtain ⟨-, f3, -, c3, -, -, -, -, -, -, b3, -, -, -, -⟩ := resolveBranches_fields h3
      obtain ⟨⟨-, a5, -, -, -, -, b5, c5, f5, -, -⟩, -, -, -, -, -⟩ := midCalls_facts h5
      have hs5 : s5.stallDispatch = 0 := by rw [a5]; exact a3
      have hf5 : s5.fetchQueue = 1 :: r := by rw [f5, f3, f2]; exact e3
      have hr5 : s5.curr_Config.fetch_rate = 1 := by rw [b5, b3, b2]; exact t2
      have hn5 : s5.nalloc = s.nalloc := by rw [c5, c3, c2]; rfl
      rw [t1] at h6
      obtain ⟨i1, st, U, hpb, hl, x1, x2, -, -, fr⟩ := enqueue_first hf5 hs5 (by rw [hr5]) h6
      rw [hr5] at hl
      have e6 : s6 = U := by
        have : dispatch_EnqueueLoop 3 0 U = .ok U := rfl
        rw [hl] at this
        cases this; rfl
      subst e6
      obtain ⟨cp, hcp⟩ := predictBranch_instr hpb
      obtain ⟨k, y1, y2, y3, -, -, -, -, -, -, -, -, -, -, -, -⟩ :=
        after_enqueue s6.curr_Config.fetch_rate hs hq
      have hn6 : s6.nalloc = s.nalloc := by rw [fr.1, hn5]
      refine ⟨?_, ?_, ?_⟩
      · show 1 ∉ u.fetchQueue
        rw [y1, x1, List.mem_append, List.mem_range'_1, hn6]
        rintro (hm | hm)
        · exact h1r hm
        · omega
      · show (u.heap 1).disp = 3
        rw [(y3 1 (by rw [hn6]; exact h1n)).1.2.2.2.2.1, x2, setInstr_same, hcp]
      · show 1 < u.nalloc
        rw [y2, hn6]; omega
    obtain ⟨k1, k2, k3⟩ := hkey
    refine ⟨k3, k1, k2, cycle_rec_disp h hacc hst k1 k2 ?_⟩
    intro _ hnf
    exact absurd (by rw [e3]; exact List.mem_cons_self _ _) hnf
  · rw [if_neg (by omega)]
    exact (Dispatched_cycle e2 hacc hst h).1

theorem LaterTop_cycle {F : Nat} {s t : State} (hT : LaterTop F s) (hacc : AccInv true s)
    (hst : StampInv (s.clock - 1) s) (h : cycle s = .ok t) : LaterTop F t := by
  obtain ⟨t1, t2, t3, t4⟩ := hT
  obtain ⟨d0, c0⟩ := Dispatched_cycle t2 hacc hst h
  exact ⟨by rw [cycle_clock h]; omega, d0, by rw [c0]; exact t3,
    (Dispatched_cycle t4 hacc hst h).1⟩

theorem CorrectInv_reachable (k0 k1 k2 R F : Nat) (a : Nat) (fu d s1 s2 : Int)
    (l2 : TraceLine) (rest : List TraceLine) (hF : 1 ≤ F) (hl2 : l2.isInstr = true) {s : State}
    (h : Reachable
      (proc_init 128 k0 k1 k2 R F (TraceLine.branchLine a fu d s1 s2 0 :: l2 :: rest)) s) :
    CorrectInv (TraceLine.branchLine a fu d s1 s2 0) l2 rest F
      (proc_init 128 k0 k1 k2 R F (TraceLine.branchLine a fu d s1 s2 0 :: l2 :: rest)) s := by
  induction h with
  | init => exact Or.inl rfl
  | step hr _ hc ih =>
    have hacc := (TagInv_reachable (TagInv_init 128 k0 k1 k2 R F _) hr).1
    have hst := StampInv_reachable (StampInv_init 128 k0 k1 k2 R F _ _) hr
    rcases ih with rfl | h2 | h3 | h4
    · exact Or.inr (Or.inl (SecondTop_of_init 128 k0 k1 k2 R F
        (TraceLine.branchLine a fu d s1 s2 0) l2 rest hF rfl hl2 hc))
    · exact Or.inr (Or.inr (Or.inl (ThirdTop_of_second h2 hF hl2 hst hc)))
    · exact Or.inr (Or.inr (Or.inr (LaterTop_of_third h3 hacc hst hc)))
    · exact Or.inr (Or.inr (Or.inr (LaterTop_cycle h4 hacc hst hc)))

theorem branchState_reachable (F : Nat) (taken : Int) (n : Nat)
    (h : advance n (proc_init 128 3 2 1 2 F (branchTrace taken)) =
      some (branchState F taken n)) :
    Reachable (proc_init 128 3 2 1 2 F (branchTrace taken)) (branchState F taken n) :=
  advance_reachable n h

/-- C6, as stated, fails for `F >= 2`: with the default configuration
(`F = 4`) the not-taken branch and the instruction after it are both dispatched
in cycle 2, so the dispatch cycle of the second is not that of the branch plus
one. -/
theorem correct_prediction_same_cycle :
    ∃ r0 r1 : final_node,
      simulate 8 3 2 1 2 4 (branchTrace 0) = .ok (some [r0, r1]) ∧
      r0.dest_tag = 0 ∧ r1.dest_tag = 1 ∧ r0.disp = 2 ∧ r1.disp = 2 ∧ r1.disp ≠ r0.disp + 1 :=
  ⟨{ dest_tag := 0, fetch := 1, disp := 2, sched := 3, exec := 4, state := 5 },
    { dest_tag := 1, fetch := 1, disp := 2, sched := 3, exec := 4, state := 5 },
    by rfl, rfl, rfl, rfl, rfl, by decide⟩

/-! ## A mispredicted first branch -/

theorem findNumUnresolved_pos (hp : Nat → instr) : ∀ (u : List (Option Nat)) {p n : Nat},
    p ∈ supPtrs u → (hp p).resolved = 0 → findNumUnresolved hp u = .ok n → 1 ≤ n := by
  intro u
  induction u with
  | nil => intro p n h; simp [supPtrs] at h
  | cons x rest ih =>
    intro p n hm hr h
    cases x with
    | none =>
      rw [findNumUnresolved] at h
      exact ih (by simpa [supPtrs] using hm) hr h
    | some q =>
      rw [findNumUnresolved] at h
      split at h
      · split at h
        · split at h
          · cases h
          · cases h; omega
        · cases h
      · rename_i hq
        have hm' : p = q ∨ p ∈ supPtrs rest := by simpa [supPtrs] using hm
        rcases hm' with rfl | hm'
        · exact absurd hr hq
        · exact ih hm' hr h

theorem mem_supPtrs_of_getElem {u : List (Option Nat)} {i p : Nat}
    (h : u[i]? = some (some p)) : p ∈ supPtrs u :=
  mem_supPtrs.2 (List.getElem?_mem h)

/-- When every occupant of the state-update array is a mispredicted branch and
one of them is unresolved, `resolveBranches` releases the dispatch lock. -/
theorem resolveBranches_clears {s t : State} {p0 : Nat} (hp0 : p0 ∈ supPtrs s.sup)
    (hr0 : (s.heap p0).resolved = 0)
    (hall : ∀ p ∈ supPtrs s.sup, (s.heap p).correct_pred = 0)
    (h : resolveBranches s = .ok t) : t.stallDispatch = 0 := by
  unfold resolveBranches at h
  split at h
  · cases h
  · rename_i n hn
    have h1 := findNumUnresolved_pos _ _ hp0 hr0 hn
    obtain ⟨m, rfl⟩ : ∃ m, n = m + 1 := ⟨n - 1, by omega⟩
    rw [resolveBranchesLoop] at h
    simp only at h
    split at h
    · cases h
    · split at h
      · rename_i p hidx
        obtain ⟨g, e1⟩ := updateGSelect_shape (s.heap p).address (s.heap p).taken s
        rw [e1] at h
        obtain ⟨r, e2⟩ := updateGHR_shape (s.heap p).taken { s with GSelect := g }
        simp only at h
        rw [e2] at h
        have hc : (s.heap p).correct_pred = 0 := hall p (mem_supPtrs_of_getElem hidx)
        simp only at h
        rw [if_pos hc] at h
        split at h
        · exact resolveBranchesLoop_stall _ h rfl
        · cases h
      · cases h

/-- The second iteration when the first line is a taken branch: the branch is
dispatched in cycle 2, found mispredicted, and locks dispatch before any other
instruction is admitted. -/
theorem Stalled_of_second {a : Nat} {fu d s1 s2 : Int} {l2 : TraceLine}
    {rest : List TraceLine} {F : Nat} {s t : State}
    (hT : SecondTop (TraceLine.branchLine a fu d s1 s2 1) l2 rest F s) (hF : 1 ≤ F)
    (hl2 : l2.isInstr = true) (hst : StampInv (s.clock - 1) s) (h : cycle s = .ok t) :
    Stalled t := by
  obtain ⟨s6, u, U, fq', hfq, u1, u2, u3, u4, u4', hl, u5, u6, u7, u8, u9, u10, u11, u12, u13,
    u14, u15, u16, u17, hs, hq, rfl⟩ := second_enqueue hT hF h
  obtain ⟨t1, t2, t3, t4, t5, t6, t7, t8, t9⟩ := hT
  rw [if_neg (by decide)] at u2 u6
  obtain ⟨hnd, hlt⟩ := StampInv_fetch_nodup hst
  rw [hfq] at hnd
  have h0 : 0 ∉ fq' := (List.nodup_cons.1 hnd).1
  have e6 : s6 = U := by
    have := dispatch_EnqueueLoop_blocked 2 (F - 1)
      (Or.inr (by rw [u6]; decide) : U.fetchQueue = [] ∨ U.stallDispatch ≠ 0)
    rw [hl] at this
    cases this; rfl
  subst e6
  obtain ⟨k, a1, a2, a3, a4, -, a6, a7, a8, a9, a10, a11, a12, a13, a14, a15⟩ :=
    after_enqueue F hs hq
  have hn1 : 1 ≤ s.nalloc := by
    rcases t9 with ⟨-, -, e, -⟩ | ⟨-, r, -, e⟩ <;> omega
  obtain ⟨⟨-, kb, -, kc, kd, -, kr, -, -⟩, -⟩ := a3 0 (by rw [u8]; omega)
  refine ⟨?_, ?_, ?_, ?_, ?_, ?_, ?_, ?_, ?_, ?_, ?_, ?_, ?_⟩
  · show 3 ≤ u.clock + 1
    rw [a8, u12]; decide
  · show u.stallDispatch = 1
    rw [a4, u6]
  · show (u.heap 0).branch = 1
    rw [kb, u3]
  · show (u.heap 0).correct_pred = 0
    rw [kc, u2]
  · show (u.heap 0).resolved = 0
    rw [kr, u4]
  · show (u.heap 0).disp = 2
    rw [kd, u1]
  · intro p hp
    have hp' : p ∈ u.dispatch_head.map (·.theInstr) ++ u.schedule_head.map (·.theInstr) ++
      (fuPtrs u.k_0 ++ fuPtrs u.k_1 ++ fuPtrs u.k_2) := hp
    rw [a9, a11, a12, a13, u7, u14, u15, u16] at hp'
    simp only [List.mem_append, List.map_cons, List.map_nil, List.mem_singleton,
      List.not_mem_nil, or_false] at hp'
    rcases hp' with hp' | hp'
    · exact hp'
    · have := a10 p hp'
      rw [u13] at this
      cases this
  · show supPtrs u.sup = []
    rw [a14, u17]
  · show u.final_head = []
    rw [a7, u11]
  · show ∃ r, u.fetchQueue = 1 :: r
    rw [a1, u5, u8]
    rcases t9 with ⟨e1, e2, e3, e4⟩ | ⟨e1, r, e2, e3⟩
    · rw [hfq] at e2
      have hfq0 : fq' = [] := (List.cons.inj e2).2
      have hk := a15 l2 rest (by rw [u9, e4]) hl2 hF
      obtain ⟨k', rfl⟩ : ∃ k', k = k' + 1 := ⟨k - 1, by omega⟩
      exact ⟨List.range' 2 k', by rw [hfq0, e3]; rfl⟩
    · rw [hfq] at e2
      have hfq1 : fq' = 1 :: r := (List.cons.inj e2).2
      exact ⟨r ++ List.range' s.nalloc k, by rw [hfq1]; rfl⟩
  · show 0 ∉ u.fetchQueue
    rw [a1, u5, u8, List.mem_append, List.mem_range'_1]
    rintro (hm | hm)
    · exact h0 hm
    · omega
  · intro p hp1 hp
    show p ∈ u.fetchQueue
    have hp' : p < u.nalloc := hp
    rw [a2, u8] at hp'
    rw [a1, u5, u8, List.mem_append, List.mem_range'_1]
    by_cases hlt' : p < s.nalloc
    · left
      have := t8 p hlt'
      rw [hfq] at this
      rcases List.mem_cons.1 this with e | e
      · omega
      · exact e
    · right; omega
  · show 1 ≤ u.curr_Config.fetch_rate
    rw [a6, u10, t5]; exact hF

/-- One iteration under the dispatch lock of the mispredicted first branch:
either the branch does not reach the state-update array, and nothing is admitted
to dispatch, or `sendToSU` stamps it with the current cycle, `resolveBranches`
releases the lock and `dispatch_Enqueue` admits the second instruction in that
same cycle. -/
theorem Stalled_cycle {s t : State} (hT : Stalled s) (hst : StampInv (s.clock - 1) s)
    (h : cycle s = .ok t) : Stalled t ∨ Released s.clock t := by
  obtain ⟨t1, t2, t3, t4, t5, t6, t7, t8, t9, ⟨r, t10⟩, t11, t12, t13⟩ := hT
  obtain ⟨hnd, hlt⟩ := StampInv_fetch_nodup hst
  have h1n : 1 < s.nalloc := hlt 1 (by rw [t10]; exact List.mem_cons_self _ _)
  rw [t10] at hnd
  have h1r : 1 ∉ r := (List.nodup_cons.1 hnd).1
  have h0r : 0 ∉ r := fun hm => t11 (by rw [t10]; exact List.mem_cons_of_mem _ hm)
  obtain ⟨s2, s3, s5, s6, u, h2, h3, h5, h6, hs, hq, rfl⟩ := cycle_anatomy h
  obtain ⟨p0, p1, p2, p3⟩ := sendToSU_ptrs h2
  obtain ⟨k2, a2, b2, c2, d2, e2, f2, g2, j2, l2, m2⟩ := sendToSU_settled h2
  have e2s : s2.dispatch_head = s.dispatch_head ∧ s2.schedule_head = s.schedule_head := by
    obtain ⟨_, _, _, _, _, rfl⟩ := sendToSU_shape h2; exact ⟨rfl, rfl⟩
  have hfin1 : (sendToFinal s).final_head = [] := by rw [sendToFinal_final, t8, t9]; rfl
  have hsup2 : ∀ p ∈ supPtrs s2.sup, p = 0 ∧ (s2.heap p).state = s.clock := by
    intro p hp
    rcases p3 p hp with h' | ⟨h', hs'⟩
    · have : supPtrs (sendToFinal s).sup = [] := supPtrs_map_none s.sup
      rw [this] at h'; cases h'
    · exact ⟨t7 p (List.mem_append_right _ h'), hs'⟩
  have hfu2 : ∀ p ∈ fuPtrs s2.k_0 ++ fuPtrs s2.k_1 ++ fuPtrs s2.k_2, p = 0 := by
    intro p hp
    refine t7 p (List.mem_append_right _ ?_)
    simp only [List.mem_append] at hp ⊢
    rcases hp with (hp | hp) | hp
    · exact Or.inl (Or.inl (p0 p hp))
    · exact Or.inl (Or.inr (p1 p hp))
    · exact Or.inr (p2 p hp)
  obtain ⟨k3, a3, b3, c3, d3, e3, f3, g3, i3, j3, l3, m3, n3, o3, -⟩ := resolveBranches_fields h3
  obtain ⟨⟨k5, a5, b5, c5, d5, e5, f5, g5, j5, l5, m5⟩, u5, st5, w5, x5, y5⟩ := midCalls_facts h5
  have hflow5 : ∀ p ∈ s5.dispatch_head.map (·.theInstr) ++ s5.schedule_head.map (·.theInstr) ++
      (fuPtrs s5.k_0 ++ fuPtrs s5.k_1 ++ fuPtrs s5.k_2), p = 0 := by
    intro p hp
    rw [List.mem_append, List.mem_append] at hp
    rcases hp with (hp | hp) | hp
    · have := w5 p hp
      rw [e3, e2s.1] at this
      exact t7 p (List.mem_append_left _ (List.mem_append_left _ this))
    · rcases x5 p hp with h' | h'
      · rw [f3, e2s.2] at h'
        exact t7 p (List.mem_append_left _ (List.mem_append_right _ h'))
      · rw [e3, e2s.1] at h'
        exact t7 p (List.mem_append_left _ (List.mem_append_left _ h'))
    · rcases y5 p hp with h' | h'
      · rw [g3, i3, j3] at h'
        exact hfu2 p h'
      · rw [f3, e2s.2] at h'
        exact t7 p (List.mem_append_left _ (List.mem_append_right _ h'))
  have hf5 : s5.fetchQueue = 1 :: r := by rw [j5, a3, j2]; exact t10
  have hn5 : s5.nalloc = s.nalloc := by rw [g5, c3, g2]; rfl
  have hc5 : s5.clock = s.clock := by rw [m5, m3, m2]; rfl
  have hr5 : s5.curr_Config = s.curr_Config := by rw [f5, l3, f2]; rfl
  have hfin5 : s5.final_head = [] := by rw [l5, b3, l2]; exact hfin1
  obtain ⟨-, kb2, -, kc2, kd2, -, kr2, -, -⟩ := k2 0
  obtain ⟨kd3, kc3, ks3, kb3, -⟩ := k3 0
  obtain ⟨-, kb5, -, kc5, kd5, -, kr5, -, -⟩ := k5 0
  by_cases hsup : supPtrs s2.sup = []
  · left
    have e3' : s3 = s2 := by
      have := resolveBranches_idle hsup
      rw [h3] at this
      cases this; rfl
    subst e3'
    have hs5 : s5.stallDispatch = 1 := by rw [a5, a2]; exact t2
    have e6 : s6 = s5 := by
      have := dispatch_Enqueue_blocked s.clock
        (Or.inr (by rw [hs5]; decide) : s5.fetchQueue = [] ∨ s5.stallDispatch ≠ 0)
      rw [h6] at this
      cases this; rfl
    subst e6
    obtain ⟨k, z1, z2, z3, z4, -, z6, z7, z8, z9, z10, z11, z12, z13, z14, -⟩ :=
      after_enqueue s6.curr_Config.fetch_rate hs hq
    obtain ⟨⟨-, kbu, -, kcu, kdu, -, kru, -, -⟩, -⟩ := z3 0 (by rw [hn5]; omega)
    refine ⟨?_, ?_, ?_, ?_, ?_, ?_, ?_, ?_, ?_, ?_, ?_, ?_, ?_⟩
    · show 3 ≤ u.clock + 1
      rw [z8, hc5]; omega
    · show u.stallDispatch = 1
      rw [z4, hs5]
    · show (u.heap 0).branch = 1
      rw [kbu, kb5, kb2]; exact t3
    · show (u.heap 0).correct_pred = 0
      rw [kcu, kc5, kc2]; exact t4
    · show (u.heap 0).resolved = 0
      rw [kru, kr5, kr2]; exact t5
    · show (u.heap 0).disp = 2
      rw [kdu, kd5, kd2]; exact t6
    · intro p hp
      have hp' : p ∈ u.dispatch_head.map (·.theInstr) ++ u.schedule_head.map (·.theInstr) ++
        (fuPtrs u.k_0 ++ fuPtrs u.k_1 ++ fuPtrs u.k_2) := hp
      rw [z9, z11, z12, z13] at hp'
      refine hflow5 p ?_
      rw [List.mem_append, List.mem_append] at hp' ⊢
      rcases hp' with (hp' | hp') | hp'
      · exact Or.inl (Or.inl hp')
      · exact Or.inl (Or.inr (z10 p hp'))
      · exact Or.inr hp'
    · show supPtrs u.sup = []
      rw [z14, u5]; exact hsup
    · show u.final_head = []
      rw [z7]; exact hfin5
    · show ∃ r, u.fetchQueue = 1 :: r
      rw [z1, hf5]
      exact ⟨r ++ List.range' s6.nalloc k, rfl⟩
    · show 0 ∉ u.fetchQueue
      rw [z1, hf5, hn5, List.mem_append, List.mem_range'_1]
      rintro (hm | hm)
      · rcases List.mem_cons.1 hm with e | e
        · cases e
        · exact h0r e
      · omega
    · intro p hp1 hp
      show p ∈ u.fetchQueue
      have hp' : p < u.nalloc := hp
      rw [z2, hn5] at hp'
      rw [z1, hf5, hn5, List.mem_append, List.mem_range'_1]
      by_cases hlt' : p < s.nalloc
      · left
        have := t12 p hp1 hlt'
        rw [t10] at this
        exact this
      · right; omega
    · show 1 ≤ u.curr_Config.fetch_rate
      rw [z6, hr5]; exact t13
  · right
    obtain ⟨p, hp⟩ := List.exists_mem_of_ne_nil _ hsup
    obtain ⟨hp0, hst0⟩ := hsup2 p hp
    subst hp0
    have hcl := resolveBranches_clears hp (by rw [kr2]; exact t5)
      (fun q hq' => by
        rw [(hsup2 q hq').1, kc2]; exact t4) h3
    have hs5 : s5.stallDispatch = 0 := by rw [a5]; exact hcl
    obtain ⟨i1, st, U, hpb, hl, x1, x2, -, -, fr⟩ :=
      enqueue_first hf5 hs5 (by rw [hr5]; exact t13) h6
    obtain ⟨cp, hcp⟩ := predictBranch_instr hpb
    obtain ⟨moved, v1, -, v3, v4, v5, -⟩ := dispatch_EnqueueLoop_effect _ _ hl
    rw [x1] at v1
    obtain ⟨fr1, -, fr3, -, -, fr6, fr7, -, -, -, -, fr12, -⟩ := fr
    obtain ⟨gr1, -, gr3, -, -, gr6, gr7, -, -, -, -, gr12, -⟩ := dispatch_EnqueueLoop_front _ _ hl
    obtain ⟨k, z1, z2, z3, -, -, -, z7, z8, -, -, -, -, -, z14, -⟩ :=
      after_enqueue s6.curr_Config.fetch_rate hs hq
    have hn6 : s6.nalloc = s.nalloc := by rw [gr1, fr1, hn5]
    have h16 : 1 ∉ s6.fetchQueue := fun hm => h1r (by rw [v1]; exact List.mem_append_right _ hm)
    have h0m : 0 ∉ moved := fun hm => h0r (by rw [v1]; exact List.mem_append_left _ hm)
    have hU1 : (U.heap 1).disp = s.clock := by
      rw [x2, setInstr_same, hcp]
    have hd1 : (s6.heap 1).disp = s.clock := dispStamped_disp (v3 1) hU1
    have h60 : s6.heap 0 = s5.heap 0 := by
      rw [v5 0 h0m, x2, setInstr_other _ _ (by decide)]
    have hdisp6 : ∀ q, 1 ≤ q → q < s.nalloc → q ∉ s6.fetchQueue → (s6.heap q).disp = s.clock := by
      intro q hq1 hq2 hq3
      have := t12 q hq1 hq2
      rw [t10] at this
      rcases List.mem_cons.1 this with e | e
      · rw [e]; exact hd1
      · rw [v1] at e
        rcases List.mem_append.1 e with e' | e'
        · exact v4 q e'
        · exact absurd e' hq3
    refine ⟨?_, ?_, ?_, ?_, ?_, Or.inl ⟨?_, ?_, ?_, ?_, ?_⟩⟩
    · show s.clock < u.clock + 1
      rw [z8, gr7, fr7, hc5]; omega
    · show 1 < u.nalloc
      rw [z2, hn6]; omega
    · show 1 ∉ u.fetchQueue
      rw [z1, hn6, List.mem_append, List.mem_range'_1]
      rintro (hm | hm)
      · exact h16 hm
      · omega
    · show (u.heap 1).disp = s.clock
      rw [(z3 1 (by rw [hn6]; exact h1n)).1.2.2.2.2.1]; exact hd1
    · intro q hq1 hq2 hq3
      have hq2' : q < u.nalloc := hq2
      have hq3' : q ∉ u.fetchQueue := hq3
      rw [z2, hn6] at hq2'
      rw [z1, hn6, List.mem_append, List.mem_range'_1, not_or] at hq3'
      have hq4 : q < s.nalloc := by
        by_contra hc; exact hq3'.2 ⟨by omega, by omega⟩
      show s.clock ≤ (u.heap q).disp
      rw [(z3 q (by rw [hn6]; exact hq4)).1.2.2.2.2.1, hdisp6 q hq1 hq4 hq3'.1]
    · show u.final_head = []
      rw [z7, gr6, fr6]; exact hfin5
    · show supPtrs u.sup ≠ []
      rw [z14, gr12, fr12, u5, d3]; exact hsup
    · intro q hq'
      have hq'' : q ∈ supPtrs u.sup := hq'
      rw [z14, gr12, fr12, u5, d3] at hq''
      exact (hsup2 q hq'').1
    · show (u.heap 0).state = s.clock
      rw [(z3 0 (by rw [hn6]; omega)).2, h60, st5, ks3]; exact hst0
    · show (u.heap 0).disp = 2
      rw [(z3 0 (by rw [hn6]; omega)).1.2.2.2.2.1, h60, kd5, kd3, kd2]; exact t6

theorem Released_cycle {c : Int} {s t : State} (hT : Released c s) (hacc : AccInv true s)
    (hst : StampInv (s.clock - 1) s) (h : cycle s = .ok t) : Released c t := by
  obtain ⟨t1, t2, t3, t4, t5, t6⟩ := hT
  obtain ⟨-, hlt⟩ := StampInv_fetch_nodup hst
  obtain ⟨-, f2, -, f4, -, -, -, -, -, -⟩ := hst
  obtain ⟨moved, rem, k, c1, c2, c3, c4, c5, c6, -⟩ := cycle_front_stamps h hlt
  have h1m : 1 ∉ moved := fun hm => t3 (by rw [c1]; exact List.mem_append_left _ hm)
  have hsupq : ∀ q ∈ supPtrs s.sup, q < s.nalloc ∧ q ∉ s.fetchQueue ∧
      (s.heap q).dest_tag = (q : Int) := by
    intro q hq
    have hb : q ∈ backPtrs s := mem_backPtrs.2 (Or.inr (Or.inr hq))
    exact ⟨f4 q hb, fun hf => f2 q hb (List.mem_append_right _ hf), hacc.2.1 q (f4 q hb)⟩
  refine ⟨by rw [cycle_clock h]; omega, by rw [c3]; omega, ?_, ?_, ?_, ?_⟩
  · rw [c2, List.mem_append, List.mem_range'_1]
    rintro (hm | hm)
    · exact t3 (by rw [c1]; exact List.mem_append_right _ hm)
    · omega
  · rw [(c5 1 t2 h1m).1]; exact t4
  · intro p hp1 hp2 hp3
    rw [c3] at hp2
    rw [c2, List.mem_append, List.mem_range'_1, not_or] at hp3
    have hp4 : p < s.nalloc := by
      by_contra hc; exact hp3.2 ⟨by omega, by omega⟩
    by_cases hm : p ∈ moved
    · rw [c4 p hm]; omega
    · have hnf : p ∉ s.fetchQueue := by
        rw [c1, List.mem_append, not_or]; exact ⟨hm, hp3.1⟩
      rw [(c5 p hp4 hm).1]
      exact t5 p hp1 hp4 hnf
  · right
    rcases t6 with ⟨d1, d2, d3, d4, d5⟩ | ⟨⟨r0, hr0, d1, d2, d3⟩, d4, d5⟩
    · obtain ⟨q, hq⟩ := List.exists_mem_of_ne_nil _ d2
      have hq0 := d3 q hq
      subst hq0
      have htag : (s.heap 0).dest_tag = 0 := by
        have := (hsupq 0 hq).2.2
        simpa using this
      have hnew : ∀ r ∈ t.final_head, r = mkFinal (s.heap 0) := by
        intro r hr
        rw [c6, d1, List.nil_append] at hr
        obtain ⟨q', hq', rfl⟩ := List.mem_map.1 hr
        rw [d3 q' hq']
      refine ⟨⟨mkFinal (s.heap 0), ?_, htag, d4, d5⟩, ?_, ?_⟩
      · rw [c6]
        exact List.mem_append_right _ (List.mem_map.2 ⟨0, hq, rfl⟩)
      · intro r hr hne
        rw [hnew r hr] at hne
        exact absurd htag hne
      · intro r hr he
        rw [hnew r hr] at he
        have : (mkFinal (s.heap 0)).dest_tag = 0 := htag
        rw [this] at he
        exact absurd he (by decide)
    · refine ⟨⟨r0, by rw [c6]; exact List.mem_append_left _ hr0, d1, d2, d3⟩, ?_, ?_⟩
      · intro r hr hne
        rw [c6, List.mem_append] at hr
        rcases hr with hr | hr
        · exact d4 r hr hne
        · obtain ⟨q, hq, rfl⟩ := List.mem_map.1 hr
          obtain ⟨q1, q2, q3⟩ := hsupq q hq
          have hq0 : 1 ≤ q := by
            have hne' : (s.heap q).dest_tag ≠ 0 := hne
            rw [q3] at hne'
            by_contra hc
            have : q = 0 := by omega
            subst this
            exact hne' rfl
          exact t5 q hq0 q1 q2
      · intro r hr he
        rw [c6, List.mem_append] at hr
        rcases hr with hr | hr
        · exact d5 r hr he
        · obtain ⟨q, hq, rfl⟩ := List.mem_map.1 hr
          obtain ⟨q1, q2, q3⟩ := hsupq q hq
          have he' : (s.heap q).dest_tag = 1 := he
          rw [q3] at he'
          have : q = 1 := by exact_mod_cast he'
          subst this
          exact t4

theorem MispredInv_reachable (k0 k1 k2 R F : Nat) (a : Nat) (fu d s1 s2 : Int)
    (l2 : TraceLine) (rest : List TraceLine) (hF : 1 ≤ F) (hl2 : l2.isInstr = true) {s : State}
    (h : Reachable
      (proc_init 128 k0 k1 k2 R F (TraceLine.branchLine a fu d s1 s2 1 :: l2 :: rest)) s) :
    MispredInv (TraceLine.branchLine a fu d s1 s2 1) l2 rest F
      (proc_init 128 k0 k1 k2 R F (TraceLine.branchLine a fu d s1 s2 1 :: l2 :: rest)) s := by
  induction h with
  | init => exact Or.inl rfl
  | step hr _ hc ih =>
    have hacc := (TagInv_reachable (TagInv_init 128 k0 k1 k2 R F _) hr).1
    have hst := StampInv_reachable (StampInv_init 128 k0 k1 k2 R F _ _) hr
    rcases ih with rfl | h2 | h3 | ⟨c, h4⟩
    · exact Or.inr (Or.inl (SecondTop_of_init 128 k0 k1 k2 R F
        (TraceLine.branchLine a fu d s1 s2 1) l2 rest hF rfl hl2 hc))
    · exact Or.inr (Or.inr (Or.inl (Stalled_of_second h2 hF hl2 hst hc)))
    · rcases Stalled_cycle h3 hst hc with h5 | h5
      · exact Or.inr (Or.inr (Or.inl h5))
      · exact Or.inr (Or.inr (Or.inr ⟨_, h5⟩))
    · exact Or.inr (Or.inr (Or.inr ⟨c, Released_cycle h4 hacc hst hc⟩))

/-- C5, as stated, fails: on the trace of a taken branch followed by another
instruction (default configuration) the branch has its state update in cycle 5
and the next instruction is dispatched in that same cycle 5, not in cycle 6, so
an instruction is admitted to dispatch in the branch's state cycle. -/
theorem misprediction_same_cycle :
    ∃ r0 r1 : final_node,
      simulate 10 3 2 1 2 4 (branchTrace 1) = .ok (some [r0, r1]) ∧
      r0.dest_tag = 0 ∧ r1.dest_tag = 1 ∧ r0.state = 5 ∧ r1.disp = 5 ∧
      r1.disp ≠ r0.state + 1 :=
  ⟨{ dest_tag := 0, fetch := 1, disp := 2, sched := 3, exec := 4, state := 5 },
    { dest_tag := 1, fetch := 1, disp := 5, sched := 6, exec := 7, state := 8 },
    by rfl, rfl, rfl, rfl, rfl, by decide⟩

/-- C5, amended. For every configuration with `F >= 1` and every trace whose
first line is a branch with `taken = 1` followed by another instruction line: in
every state reached at the top of the cycle loop, the retired record of the
branch shows dispatch cycle 2, no other retired instruction was dispatched
before the branch's state cycle (none is admitted from the cycle after the
branch's dispatch through the cycle before its state update), and the second
instruction was dispatched in the branch's state cycle itself. -/
theorem misprediction_recovery (k0 k1 k2 R F : Nat) (a : Nat) (fu d s1 s2 : Int)
    (l2 : TraceLine) (rest : List TraceLine) (s : State) (hF : 1 ≤ F)
    (hl2 : l2.isInstr = true)
    (h : Reachable
      (proc_init 128 k0 k1 k2 R F (TraceLine.branchLine a fu d s1 s2 1 :: l2 :: rest)) s) :
    ∀ r0 ∈ s.final_head, r0.dest_tag = 0 →
      r0.disp = 2 ∧ (∀ r ∈ s.final_head, r.dest_tag ≠ 0 → r0.state ≤ r.disp) ∧
        (∀ r1 ∈ s.final_head, r1.dest_tag = 1 → r1.disp = r0.state) := by
  have hacc := (TagInv_reachable (TagInv_init 128 k0 k1 k2 R F _) h).1
  intro r0 hr0 e0
  rcases MispredInv_reachable k0 k1 k2 R F a fu d s1 s2 l2 rest hF hl2 h with
    rfl | h2 | h3 | ⟨c, h4⟩
  · cases hr0
  · obtain ⟨-, -, -, -, -, -, t7, -, -⟩ := h2
    rw [t7] at hr0; cases hr0
  · obtain ⟨-, -, -, -, -, -, -, -, t9, -, -, -, -⟩ := h3
    rw [t9] at hr0; cases hr0
  · obtain ⟨-, -, -, -, -, t6⟩ := h4
    rcases t6 with ⟨d1, -, -, -, -⟩ | ⟨⟨r0', hr0', d1, d2, d3⟩, d4, d5⟩
    · rw [d1] at hr0; cases hr0
    · have e : r0 = r0' := AccInv_final_inj hacc hr0 hr0' (by rw [e0, d1])
      subst e
      rw [d2]
      exact ⟨d3, d4, d5⟩

/-- Witness for C5 (amended): the default-configuration run after nine
iterations, both instructions retired; the second one was dispatched in cycle 5,
the state cycle of the branch. -/
theorem misprediction_recovery_witness :
    (branchState 4 1 9).final_head =
        [{ dest_tag := 0, fetch := 1, disp := 2, sched := 3, exec := 4, state := 5 },
          { dest_tag := 1, fetch := 1, disp := 5, sched := 6, exec := 7, state := 8 }] ∧
      ∀ r0 ∈ (branchState 4 1 9).final_head, r0.dest_tag = 0 →
        r0.disp = 2 ∧ (∀ r ∈ (branchState 4 1 9).final_head, r.dest_tag ≠ 0 → r0.state ≤ r.disp) ∧
          (∀ r1 ∈ (branchState 4 1 9).final_head, r1.dest_tag = 1 → r1.disp = r0.state) :=
  ⟨rfl, misprediction_recovery 3 2 1 2 4 0x100 0 5 (-1) (-1)
    (TraceLine.plain 0x104 0 6 (-1) (-1)) [] (branchState 4 1 9) (by decide) rfl
    (branchState_reachable 4 1 9 (by rfl))⟩

/-! ## Completion arbitration -/

theorem mem_idlePtrs {k : List (Option execute_node)} {p : Nat} :
    p ∈ idlePtrs k ↔ ∃ n, some n ∈ k ∧ n.chosen ≠ 1 ∧ n.theInstr = p := by
  simp only [idlePtrs, List.mem_filterMap]
  constructor
  · rintro ⟨x, hx, hb⟩
    cases x with
    | none => simp at hb
    | some n =>
      simp only [Option.some_bind] at hb
      split at hb
      · cases hb
      · rename_i hc
        exact ⟨n, hx, hc, Option.some.inj hb⟩
  · rintro ⟨n, hn, hc, rfl⟩
    exact ⟨some n, hn, by simp [hc]⟩

theorem mem_chosenPtrs {k : List (Option execute_node)} {p : Nat} :
    p ∈ chosenPtrs k ↔ ∃ n, some n ∈ k ∧ n.chosen = 1 ∧ n.theInstr = p := by
  simp only [chosenPtrs, List.mem_filterMap]
  constructor
  · rintro ⟨x, hx, hb⟩
    cases x with
    | none => simp at hb
    | some n =>
      simp only [Option.some_bind] at hb
      split at hb
      · rename_i hc
        exact ⟨n, hx, hc, Option.some.inj hb⟩
      · cases hb
  · rintro ⟨n, hn, hc, rfl⟩
    exact ⟨some n, hn, by simp [hc]⟩

theorem idlePtrs_none (rest : List (Option execute_node)) :
    idlePtrs (none :: rest) = idlePtrs rest := rfl

theorem idlePtrs_some (n : execute_node) (rest : List (Option execute_node)) :
    idlePtrs (some n :: rest) =
      if n.chosen = 1 then idlePtrs rest else n.theInstr :: idlePtrs rest := by
  unfold idlePtrs
  rw [List.filterMap_cons]
  simp only [Option.some_bind]
  split <;> rename_i h
  · split at h
    · rename_i hc; rw [if_pos hc]
    · cases h
  · split at h
    · cases h
    · rename_i hc; rw [if_neg hc]; cases h; rfl

theorem chosenPtrs_none (rest : List (Option execute_node)) :
    chosenPtrs (none :: rest) = chosenPtrs rest := rfl

theorem chosenPtrs_some (n : execute_node) (rest : List (Option execute_node)) :
    chosenPtrs (some n :: rest) =
      if n.chosen = 1 then n.theInstr :: chosenPtrs rest else chosenPtrs rest := by
  unfold chosenPtrs
  rw [List.filterMap_cons]
  simp only [Option.some_bind]
  split <;> rename_i h
  · split at h
    · cases h
    · rename_i hc; rw [if_neg hc]
  · split at h
    · rename_i hc; rw [if_pos hc]; cases h; rfl
    · cases h

/-- The loop of `findMinCycle` over a pool returns a cycle that is at most the
start value and at most the execute cycle of every unchosen occupant. -/
theorem findMinCyclePool_le (heap : Nat → instr) : ∀ (k : List (Option execute_node)) (c : Int),
    findMinCyclePool heap k c ≤ c ∧
      ∀ n, some n ∈ k → n.chosen ≠ 1 → findMinCyclePool heap k c ≤ (heap n.theInstr).exec := by
  intro k
  induction k with
  | nil => intro c; exact ⟨le_refl _, fun n hn => by cases hn⟩
  | cons x rest ih =>
    intro c
    cases x with
    | none =>
      rw [findMinCyclePool]
      refine ⟨(ih c).1, fun n hn hc => (ih c).2 n ?_ hc⟩
      rcases List.mem_cons.1 hn with e | e
      · cases e
      · exact e
    | some m =>
      rw [findMinCyclePool]
      split
      · rename_i hm
        refine ⟨le_trans (ih _).1 hm.2, fun n hn hc => ?_⟩
        rcases List.mem_cons.1 hn with e | e
        · rw [Option.some.inj e]; exact (ih _).1
        · exact (ih _).2 n e hc
      · rename_i hm
        refine ⟨(ih c).1, fun n hn hc => ?_⟩
        rcases List.mem_cons.1 hn with e | e
        · have e' : n = m := Option.some.inj e
          rw [e'] at hc ⊢
          have : ¬ (heap m.theInstr).exec ≤ c := fun h => hm ⟨hc, h⟩
          exact le_trans (ih c).1 (by omega)
        · exact (ih c).2 n e hc

theorem findMinCycle_le (s : State) :
    ∀ n, (some n ∈ s.k_0 ∨ some n ∈ s.k_1 ∨ some n ∈ s.k_2) → n.chosen ≠ 1 →
      findMinCycle s ≤ (s.heap n.theInstr).exec := by
  intro n hn hc
  unfold findMinCycle
  rcases hn with h | h | h
  · exact le_trans (findMinCyclePool_le _ _ _).1
      (le_trans (findMinCyclePool_le _ _ _).1 ((findMinCyclePool_le _ _ _).2 n h hc))
  · exact le_trans (findMinCyclePool_le _ _ _).1 ((findMinCyclePool_le _ _ _).2 n h hc)
  · exact (findMinCyclePool_le _ _ _).2 n h hc

/-- The loop of `getMinNode` over a pool: the cycle bound only decreases; the
result is the accumulator it started from or an unchosen occupant of this pool
with its tag and execute cycle; and its tag is at most the tag of every unchosen
occupant of the pool that executes within the final cycle bound. -/
theorem getMinNodePool_spec (heap : Nat → instr) (pool : Nat) :
    ∀ (k : List (Option execute_node)) (i : Nat) (acc : Int × Int × Option (Nat × Nat)),
      (getMinNodePool heap pool k i acc).2.1 ≤ acc.2.1 ∧
      (getMinNodePool heap pool k i acc).1 ≤ acc.1 ∧
      (getMinNodePool heap pool k i acc = acc ∨
        ∃ j n, k[j]? = some (some n) ∧ n.chosen ≠ 1 ∧
          getMinNodePool heap pool k i acc =
            ((heap n.theInstr).dest_tag, (heap n.theInstr).exec, some (pool, i + j))) ∧
      (∀ m, some m ∈ k → m.chosen ≠ 1 →
        (heap m.theInstr).exec ≤ (getMinNodePool heap pool k i acc).2.1 →
        (getMinNodePool heap pool k i acc).1 ≤ (heap m.theInstr).dest_tag) := by
  intro k
  induction k with
  | nil =>
    intro i acc
    exact ⟨le_refl _, le_refl _, Or.inl rfl, fun m hm => by cases hm⟩
  | cons x rest ih =>
    intro i acc
    obtain ⟨mt, mc, ret⟩ := acc
    cases x with
    | none =>
      rw [getMinNodePool]
      obtain ⟨a1, a2, a3, a4⟩ := ih (i + 1) (mt, mc, ret)
      refine ⟨a1, a2, ?_, ?_⟩
      · rcases a3 with e | ⟨j, n, e1, e2, e3⟩
        · exact Or.inl e
        · refine Or.inr ⟨j + 1, n, by simpa using e1, e2, ?_⟩
          rw [e3, show i + 1 + j = i + (j + 1) by omega]
      · intro m hm hc he
        rcases List.mem_cons.1 hm with e | e
        · cases e
        · exact a4 m e hc he
    | some n =>
      rw [getMinNodePool]
      split
      · rename_i hq
        split
        · rename_i hlt
          obtain ⟨a1, a2, a3, a4⟩ := ih (i + 1)
            ((heap n.theInstr).dest_tag, (heap n.theInstr).exec, some (pool, i))
          refine ⟨le_trans a1 hq.2, le_trans a2 (le_of_lt hlt), ?_, ?_⟩
          · rcases a3 with e | ⟨j, n', e1, e2, e3⟩
            · exact Or.inr ⟨0, n, by simp, hq.1, by rw [e]; rfl⟩
            · refine Or.inr ⟨j + 1, n', by simpa using e1, e2, ?_⟩
              rw [e3, show i + 1 + j = i + (j + 1) by omega]
          · intro m hm hc he
            rcases List.mem_cons.1 hm with e | e
            · rw [Option.some.inj e]; exact a2
            · exact a4 m e hc he
        · rename_i hlt
          obtain ⟨a1, a2, a3, a4⟩ := ih (i + 1) (mt, mc, ret)
          refine ⟨a1, a2, ?_, ?_⟩
          · rcases a3 with e | ⟨j, n', e1, e2, e3⟩
            · exact Or.inl e
            · refine Or.inr ⟨j + 1, n', by simpa using e1, e2, ?_⟩
              rw [e3, show i + 1 + j = i + (j + 1) by omega]
          · intro m hm hc he
            rcases List.mem_cons.1 hm with e | e
            · rw [Option.some.inj e]
              have : mt ≤ (heap n.theInstr).dest_tag := by omega
              exact le_trans a2 this
            · exact a4 m e hc he
      · rename_i hq
        obtain ⟨a1, a2, a3, a4⟩ := ih (i + 1) (mt, mc, ret)
        refine ⟨a1, a2, ?_, ?_⟩
        · rcases a3 with e | ⟨j, n', e1, e2, e3⟩
          · exact Or.inl e
          · refine Or.inr ⟨j + 1, n', by simpa using e1, e2, ?_⟩
            rw [e3, show i + 1 + j = i + (j + 1) by omega]
        · intro m hm hc he
          rcases List.mem_cons.1 hm with e | e
          · have e' : m = n := Option.some.inj e
            rw [e'] at hc he
            have h1 : ¬ (heap n.theInstr).exec ≤ mc := fun h => hq ⟨hc, h⟩
            have h2 : (getMinNodePool heap pool rest (i + 1) (mt, mc, ret)).2.1 ≤ mc := a1
            omega
          · exact a4 m e hc he

/-- The node `getMinNode` returns is an unchosen occupant, it executes no later
than the cycle found by `findMinCycle`, and among the unchosen occupants that
execute no later than it does it has the smallest tag. -/
theorem getMinNode_spec {s : State} {pool i : Nat} (h : getMinNode s = some (pool, i)) :
    ∃ n, ((pool = 0 ∧ s.k_0[i]? = some (some n)) ∨ (pool = 1 ∧ s.k_1[i]? = some (some n)) ∨
        (pool ≠ 0 ∧ pool ≠ 1 ∧ s.k_2[i]? = some (some n))) ∧ n.chosen ≠ 1 ∧
      (s.heap n.theInstr).exec ≤ findMinCycle s ∧
      ∀ m, (some m ∈ s.k_0 ∨ some m ∈ s.k_1 ∨ some m ∈ s.k_2) → m.chosen ≠ 1 →
        (s.heap m.theInstr).exec ≤ (s.heap n.theInstr).exec →
        (s.heap n.theInstr).dest_tag ≤ (s.heap m.theInstr).dest_tag := by
  unfold getMinNode at h
  obtain ⟨a1, a2, a3, a4⟩ := getMinNodePool_spec s.heap 0 s.k_0 0 (INT_MAX, findMinCycle s, none)
  generalize getMinNodePool s.heap 0 s.k_0 0 (INT_MAX, findMinCycle s, none) = r0 at h a1 a2 a3 a4
  obtain ⟨b1, b2, b3, b4⟩ := getMinNodePool_spec s.heap 1 s.k_1 0 r0
  generalize getMinNodePool s.heap 1 s.k_1 0 r0 = r1 at h b1 b2 b3 b4
  obtain ⟨c1, c2, c3, c4⟩ := getMinNodePool_spec s.heap 2 s.k_2 0 r1
  generalize getMinNodePool s.heap 2 s.k_2 0 r1 = r2 at h c1 c2 c3 c4
  have key : ∃ n, ((pool = 0 ∧ s.k_0[i]? = some (some n)) ∨
      (pool = 1 ∧ s.k_1[i]? = some (some n)) ∨
      (pool ≠ 0 ∧ pool ≠ 1 ∧ s.k_2[i]? = some (some n))) ∧ n.chosen ≠ 1 ∧
      r2.1 = (s.heap n.theInstr).dest_tag ∧ r2.2.1 = (s.heap n.theInstr).exec := by
    rcases c3 with e | ⟨j, n, e1, e2, e3⟩
    · rcases b3 with f | ⟨j, n, f1, f2, f3⟩
      · rcases a3 with g | ⟨j, n, g1, g2, g3⟩
        · rw [e, f, g] at h; cases h
        · rw [e, f, g3] at h
          simp only [Option.some.injEq, Prod.mk.injEq] at h
          obtain ⟨rfl, rfl⟩ := h
          refine ⟨n, Or.inl ⟨rfl, by simpa using g1⟩, g2, ?_, ?_⟩
          · rw [e, f, g3]
          · rw [e, f, g3]
      · rw [e, f3] at h
        simp only [Option.some.injEq, Prod.mk.injEq] at h
        obtain ⟨rfl, rfl⟩ := h
        refine ⟨n, Or.inr (Or.inl ⟨rfl, by simpa using f1⟩), f2, ?_, ?_⟩
        · rw [e, f3]
        · rw [e, f3]
    · rw [e3] at h
      simp only [Option.some.injEq, Prod.mk.injEq] at h
      obtain ⟨rfl, rfl⟩ := h
      refine ⟨n, Or.inr (Or.inr ⟨by decide, by decide, by simpa using e1⟩), e2, ?_, ?_⟩
      · rw [e3]
      · rw [e3]
  obtain ⟨n, hn, hc, k1, k2⟩ := key
  refine ⟨n, hn, hc, ?_, ?_⟩
  · rw [← k2]
    exact le_trans c1 (le_trans b1 a1)
  · intro m hm hmc he
    rw [← k1]
    rw [← k2] at he
    rcases hm with hm | hm | hm
    · exact le_trans c2 (le_trans b2 (a4 m hm hmc (le_trans he (le_trans c1 b1))))
    · exact le_trans c2 (b4 m hm hmc (le_trans he c1))
    · exact c4 m hm hmc he

/-- Marking the occupant of slot `i` as chosen moves its pointer from the
unchosen to the chosen occupants and touches no other slot. -/
theorem markChosen_idle : ∀ (k : List (Option execute_node)) (i : Nat) (n : execute_node),
    k[i]? = some (some n) → n.chosen ≠ 1 →
    List.Perm (n.theInstr :: idlePtrs (markChosen k i)) (idlePtrs k) ∧
      n.theInstr ∈ chosenPtrs (markChosen k i) := by
  intro k
  induction k with
  | nil => intro i n h; simp at h
  | cons x rest ih =>
    intro i n h hc
    cases i with
    | zero =>
      simp only [List.getElem?_cons_zero, Option.some.injEq] at h
      subst h
      rw [markChosen, idlePtrs_some, idlePtrs_some, chosenPtrs_some, if_neg hc]
      simp only [if_true]
      exact ⟨List.Perm.refl _, List.mem_cons_self _ _⟩
    | succ i =>
      simp only [List.getElem?_cons_succ] at h
      obtain ⟨p1, p2⟩ := ih i n h hc
      rw [markChosen]
      cases x with
      | none =>
        rw [idlePtrs_none, idlePtrs_none, chosenPtrs_none]
        exact ⟨p1, p2⟩
      | some m =>
        rw [idlePtrs_some, idlePtrs_some, chosenPtrs_some]
        split
        · exact ⟨p1, List.mem_cons_of_mem _ p2⟩
        · exact ⟨(List.Perm.swap _ _ _).trans (List.Perm.cons _ p1), p2⟩

theorem AccInv_sched_nodup {s : State} (hi : AccInv true s) :
    (s.schedule_head.map (·.theInstr)).Nodup := by
  obtain ⟨-, -, hp⟩ := hi
  have hnd : (s.final_head.map (·.dest_tag) ++
      (inFlight true s).map (fun p : Nat => (p : Int))).Nodup :=
    (List.Perm.nodup_iff hp).2 ((List.nodup_range _).map cast_injective)
  have h2 := (List.nodup_append.1 hnd).2.1
  have h3 : (inFlight true s).Nodup := List.Nodup.of_map _ h2
  unfold inFlight at h3
  exact (List.nodup_append.1 (List.nodup_append.1 h3).1).2.1

theorem WaitInv_cycle {s t : State} (hw : WaitInv s) (hacc : AccInv true s)
    (hst : StampInv (s.clock - 1) s) (h : cycle s = .ok t) : WaitInv t := by
  obtain ⟨s2, s3, s5, s6, u, h2, h3, h5, h6, hs, hq, rfl⟩ := cycle_anatomy h
  obtain ⟨s4, h4, h5'⟩ := midCalls_ok h5
  obtain ⟨p0, p1, p2, -⟩ := sendToSU_ptrs h2
  have e2 : s2.schedule_head = s.schedule_head ∧ s2.dispatch_head = s.dispatch_head := by
    obtain ⟨_, _, _, _, _, rfl⟩ := sendToSU_shape h2; exact ⟨rfl, rfl⟩
  obtain ⟨-, -, -, -, -, e3d, e3s, e3a, e3b, e3c, -, -, -, -, -⟩ := resolveBranches_fields h3
  have hfu3 : ∀ p ∈ fuPtrs s3.k_0 ++ fuPtrs s3.k_1 ++ fuPtrs s3.k_2,
      p ∈ fuPtrs s.k_0 ++ fuPtrs s.k_1 ++ fuPtrs s.k_2 := by
    intro p hp
    rw [e3a, e3b, e3c] at hp
    simp only [List.mem_append] at hp ⊢
    rcases hp with (hp | hp) | hp
    · exact Or.inl (Or.inl (p0 p hp))
    · exact Or.inl (Or.inr (p1 p hp))
    · exact Or.inr (p2 p hp)
  have hs3 : s3.schedule_head = s.schedule_head := by rw [e3s, e2.1]
  have hd3 : s3.dispatch_head = s.dispatch_head := by rw [e3d, e2.2]
  have hnd := AccInv_sched_nodup hacc
  obtain ⟨-, hf4, hq4⟩ := moveToExecute_effect h4
  have e4 : s4.dispatch_head = s3.dispatch_head := by
    obtain ⟨_, _, _, _, _, rfl⟩ := moveToExecute_shape h4; rfl
  have hw4 : ∀ n ∈ s4.schedule_head,
      n.theInstr ∈ fuPtrs s4.k_0 ++ fuPtrs s4.k_1 ++ fuPtrs s4.k_2 → n.waiting = 1 := by
    intro n' hn' hfu
    rw [hq4] at hn'
    obtain ⟨n, hn, rfl⟩ := List.mem_map.1 hn'
    by_cases hp : n.sendToExecute = 1 ∧ n.waiting = 0
    · rw [if_pos hp]
    · rw [if_neg hp] at hfu ⊢
      rw [hs3] at hn
      rcases hf4 _ hfu with h1 | h1
      · exact hw n hn (hfu3 _ h1)
      · rw [mem_pendingPtrs] at h1
        obtain ⟨m, hm, hmp, hme⟩ := h1
        rw [hs3] at hm
        have : m = n := List.inj_on_of_nodup_map hnd hm hn hme
        rw [this] at hmp
        exact absurd hmp hp
  obtain ⟨v, hv1, hv2, -⟩ := dispatchToSchedule_queue h5'
  have e5 : s5.k_0 = s4.k_0 ∧ s5.k_1 = s4.k_1 ∧ s5.k_2 = s4.k_2 := by
    obtain ⟨_, _, _, _, rfl⟩ := dispatchToSchedule_shape h5'; exact ⟨rfl, rfl, rfl⟩
  obtain ⟨-, f2, -, -, -, -, -, -, -, -⟩ := hst
  have hw5 : ∀ n ∈ s5.schedule_head,
      n.theInstr ∈ fuPtrs s5.k_0 ++ fuPtrs s5.k_1 ++ fuPtrs s5.k_2 → n.waiting = 1 := by
    intro n hn hfu
    rw [e5.1, e5.2.1, e5.2.2] at hfu
    rw [hv2, List.mem_append] at hn
    rcases hn with hn | hn
    · exact hw4 n hn hfu
    · exfalso
      obtain ⟨d, hd, rfl⟩ := List.mem_map.1 hn
      have hd' : d ∈ s.dispatch_head := by
        rw [← hd3, ← e4, hv1]
        exact List.mem_append_left _ (mem_markedNodes.1 hd).1
      have hfront : d.theInstr ∈ frontPtrs s :=
        List.mem_append_left _ (List.mem_map.2 ⟨d, hd', rfl⟩)
      have hback : d.theInstr ∈ backPtrs s := by
        rcases hf4 _ hfu with h1 | h1
        · exact mem_backPtrs.2 (Or.inr (Or.inl (hfu3 _ h1)))
        · rw [mem_pendingPtrs] at h1
          obtain ⟨m, hm, -, hme⟩ := h1
          rw [hs3] at hm
          exact mem_backPtrs.2 (Or.inl (List.mem_map.2 ⟨m, hm, hme⟩))
      exact f2 _ hback hfront
  obtain ⟨-, -, -, -, -, -, -, g8, g9, g10, g11, -, -⟩ := dispatch_EnqueueLoop_front _ _ h6
  obtain ⟨-, -, -, -, -, -, w7, w8, w9, w10, -⟩ :=
    readTrace_frame s6.curr_Config.fetch_rate s6
  obtain ⟨-, -, -, -, -, -, -, q8, q9, q10, q11⟩ := hq
  intro n hn hfu
  have hn' : n ∈ u.schedule_head := hn
  have hfu' : n.theInstr ∈ fuPtrs u.k_0 ++ fuPtrs u.k_1 ++ fuPtrs u.k_2 := hfu
  obtain ⟨m, hm, e1, e2'⟩ := q8 n hn'
  rw [q9, q10, q11, w8, w9, w10, g9, g10, g11, e1] at hfu'
  rw [w7, g8] at hm
  rw [e2']
  exact hw5 m hm hfu'

theorem WaitInv_reachable (numRegs k0 k1 k2 R F : Nat) (trace : List TraceLine) {s : State}
    (h : Reachable (proc_init numRegs k0 k1 k2 R F trace) s) : WaitInv s := by
  induction h with
  | init => intro n hn; cases hn
  | step hr _ hc ih =>
    exact WaitInv_cycle ih (TagInv_reachable (TagInv_init numRegs k0 k1 k2 R F trace) hr).1
      (StampInv_reachable (StampInv_init numRegs k0 k1 k2 R F trace _) hr) hc

theorem chosenAll_back {s : State} {p : Nat} (h : p ∈ chosenAll s) : p ∈ backPtrs s := by
  refine mem_backPtrs.2 (Or.inr (Or.inl ?_))
  unfold chosenAll at h
  simp only [List.mem_append, mem_chosenPtrs, mem_fuPtrs] at h ⊢
  rcases h with (⟨n, a, -, b⟩ | ⟨n, a, -, b⟩) | ⟨n, a, -, b⟩
  · exact Or.inl (Or.inl ⟨n, a, b⟩)
  · exact Or.inl (Or.inr ⟨n, a, b⟩)
  · exact Or.inr ⟨n, a, b⟩

theorem idleAll_fu {s : State} {p : Nat} (h : p ∈ idleAll s) :
    p ∈ fuPtrs s.k_0 ++ fuPtrs s.k_1 ++ fuPtrs s.k_2 := by
  unfold idleAll at h
  simp only [List.mem_append, mem_idlePtrs, mem_fuPtrs] at h ⊢
  rcases h with (⟨n, a, -, b⟩ | ⟨n, a, -, b⟩) | ⟨n, a, -, b⟩
  · exact Or.inl (Or.inl ⟨n, a, b⟩)
  · exact Or.inl (Or.inr ⟨n, a, b⟩)
  · exact Or.inr ⟨n, a, b⟩

theorem mem_idleAll {s : State} {p : Nat} :
    p ∈ idleAll s ↔ ∃ n, (some n ∈ s.k_0 ∨ some n ∈ s.k_1 ∨ some n ∈ s.k_2) ∧ n.chosen ≠ 1 ∧
      n.theInstr = p := by
  unfold idleAll
  simp only [List.mem_append, mem_idlePtrs]
  constructor
  · rintro ((⟨n, a, b, c⟩ | ⟨n, a, b, c⟩) | ⟨n, a, b, c⟩)
    · exact ⟨n, Or.inl a, b, c⟩
    · exact ⟨n, Or.inr (Or.inl a), b, c⟩
    · exact ⟨n, Or.inr (Or.inr a), b, c⟩
  · rintro ⟨n, a | a | a, b, c⟩
    · exact Or.inl (Or.inl ⟨n, a, b, c⟩)
    · exact Or.inl (Or.inr ⟨n, a, b, c⟩)
    · exact Or.inr ⟨n, a, b, c⟩

theorem skipState_reachable (n : Nat)
    (h : advance n (proc_init 128 3 2 1 2 4 skipTrace) = some (skipState n)) :
    Reachable (proc_init 128 3 2 1 2 4 skipTrace) (skipState n) :=
  advance_reachable n h

/-- C11 fails on the code, a defect of the driver: the halt test does not look
at the trace, although its comment says the loop stops when all the instructions
are done processing.  With the default configuration and a trace that starts
with four lines that are not instruction lines, the first iteration reads and
skips them, and at the top of the second iteration (clock 2) the test succeeds
although one instruction line is still unread; the run ends with an empty final
queue. -/
theorem halt_with_unread_lines :
    Reachable (proc_init 128 3 2 1 2 4 skipTrace) (skipState 1) ∧
      (skipState 1).clock = 2 ∧ haltCond (skipState 1) = true ∧
      (skipState 1).trace = [TraceLine.plain 0x100 0 5 (-1) (-1)] ∧
      run 2 (proc_init 128 3 2 1 2 4 skipTrace) = .ok (some (skipState 1)) ∧
      (skipState 1).final_head = [] :=
  ⟨skipState_reachable 1 (by rfl), rfl, by rfl, by rfl, by rfl, by rfl⟩

/-- The halt test on a trace without skipped lines.  The halt test looks at the
fetch buffer, the dispatch queue,
the scheduling queue, the state-update slots and the clock only.  For every
configuration with `F >= 1` and every trace of instruction lines only, in every
state reached at the top of the loop: the loop halts if and only if the trace is
exhausted, the fetch buffer, the dispatch queue, the scheduling queue and the
state-update slots are all empty and `clock > 1`; it does not halt while trace
lines remain unread. -/
theorem halt_iff_drained (k0 k1 k2 R F : Nat) (trace : List TraceLine) (s : State)
    (hF : 1 ≤ F) (hwf : ∀ l ∈ trace, l.isInstr = true)
    (h : Reachable (proc_init 128 k0 k1 k2 R F trace) s) :
    (haltCond s = true ↔
      (s.trace = [] ∧ s.fetchQueue = [] ∧ s.dispatch_head = [] ∧ s.schedule_head = [] ∧
        stateEmpty s.sup = 1 ∧ 1 < s.clock)) ∧
    (haltCond s = true ↔
      (s.fetchQueue = [] ∧ s.dispatch_head = [] ∧ s.schedule_head = [] ∧
        stateEmpty s.sup = 1 ∧ 1 < s.clock)) ∧
    (s.trace ≠ [] → haltCond s = false) := by
  obtain ⟨-, -, -, hfed⟩ := CountInv_reachable (CountInv_init 128 k0 k1 k2 R F trace hF hwf) h
  have key : haltCond s = true ↔
      (s.fetchQueue = [] ∧ s.dispatch_head = [] ∧ s.schedule_head = [] ∧
        stateEmpty s.sup = 1 ∧ 1 < s.clock) := by
    simp only [haltCond, Bool.and_eq_true, List.isEmpty_iff, decide_eq_true_eq, gt_iff_lt]
    constructor
    · rintro ⟨⟨⟨⟨a, b⟩, c⟩, d⟩, e⟩; exact ⟨a, b, c, e, d⟩
    · rintro ⟨a, b, c, e, d⟩; exact ⟨⟨⟨⟨a, b⟩, c⟩, d⟩, e⟩
  have htr : haltCond s = true → s.trace = [] := by
    intro hh
    obtain ⟨hf, -, -, -, hc⟩ := key.1 hh
    rcases hfed with h1 | h1 | h1
    · omega
    · exact h1
    · exact absurd hf h1
  refine ⟨⟨fun hh => ⟨htr hh, key.1 hh⟩, fun hh => key.2 hh.2⟩, key, ?_⟩
  intro hne
  cases hh : haltCond s
  · rfl
  · exact absurd (htr hh) hne

/-- Instance of `halt_iff_drained`: the read-after-write run has unread lines and does
not halt at its start, and halts with everything drained after eight
iterations. -/
theorem halt_iff_drained_witness :
    haltCond (rawState 8) = true ∧ (rawState 8).trace = [] ∧
      ((haltCond (rawState 8) = true ↔
        ((rawState 8).trace = [] ∧ (rawState 8).fetchQueue = [] ∧
          (rawState 8).dispatch_head = [] ∧ (rawState 8).schedule_head = [] ∧
          stateEmpty (rawState 8).sup = 1 ∧ 1 < (rawState 8).clock)) ∧
      (haltCond (rawState 8) = true ↔
        ((rawState 8).fetchQueue = [] ∧ (rawState 8).dispatch_head = [] ∧
          (rawState 8).schedule_head = [] ∧ stateEmpty (rawState 8).sup = 1 ∧
          1 < (rawState 8).clock)) ∧
      ((rawState 8).trace ≠ [] → haltCond (rawState 8) = false)) :=
  ⟨by rfl, by rfl, halt_iff_drained 3 2 1 2 4 rawTrace (rawState 8) (by decide)
    (by intro l hl; simp only [rawTrace, List.mem_cons, List.mem_singleton] at hl
        rcases hl with rfl | rfl | hl
        · rfl
        · rfl
        · cases hl)
    (rawState_reachable 8 (by rfl))⟩

/-! ## The predictor's counters and history register -/

theorem setCell_same (g : Nat → Nat → Nat) (row col v : Nat) : setCell g row col v row col = v := by
  simp [setCell]

theorem setCell_other (g : Nat → Nat → Nat) (row col v r c : Nat) (h : r ≠ row ∨ c ≠ col) :
    setCell g row col v r c = g r c := by
  unfold setCell
  rw [if_neg]
  rintro ⟨h1, h2⟩
  rcases h with h | h
  · exact h h1
  · exact h h2

/-- The store `updateSmithCounter` performs on a counter in state 0..3, for
every value of `taken`: the `switch` tests `taken == 1`. -/
theorem updateSmithCounter_eq (row col : Nat) (taken : Int) (s : State)
    (hc : s.GSelect row col ≤ 3) :
    updateSmithCounter row col taken s =
      { s with GSelect := setCell s.GSelect row col
                 (smithNext (s.GSelect row col) (if taken = 1 then 1 else 0)) } := by
  have h4 : s.GSelect row col = 0 ∨ s.GSelect row col = 1 ∨ s.GSelect row col = 2 ∨
      s.GSelect row col = 3 := by omega
  unfold updateSmithCounter
  rcases h4 with h | h | h | h <;> rw [h] <;> simp only [smithNext] <;>
    by_cases ht : taken = 1 <;> simp [ht]

/-- A counter that is none of 0..3 is left alone (the `default` case). -/
theorem updateSmithCounter_default (row col : Nat) (taken : Int) (s : State)
    (hc : 3 < s.GSelect row col) : updateSmithCounter row col taken s = s := by
  unfold updateSmithCounter
  split
  · rename_i h; omega
  · rename_i h; omega
  · rename_i h; omega
  · rename_i h; omega
  · rfl

/-- C12. For a counter in state 0..3 and an outcome in {0, 1},
`updateSmithCounter row col taken` leaves the cell `(row, col)` in the state the
table `0 -> (t ? 1 : 0)`, `1 -> (t ? 2 : 0)`, `2 -> (t ? 3 : 1)`,
`3 -> (t ? 3 : 2)` gives, leaves every other cell of the table as it was, and
changes nothing else in the machine. -/
theorem smith_counter_table (row col : Nat) (taken : Int) (s : State)
    (hc : s.GSelect row col ≤ 3) (ht : taken = 0 ∨ taken = 1) :
    (updateSmithCounter row col taken s).GSelect row col = smithNext (s.GSelect row col) taken ∧
    (∀ r c, r ≠ row ∨ c ≠ col →
      (updateSmithCounter row col taken s).GSelect r c = s.GSelect r c) ∧
    updateSmithCounter row col taken s =
      { s with GSelect := (updateSmithCounter row col taken s).GSelect } := by
  rw [updateSmithCounter_eq row col taken s hc]
  refine ⟨?_, fun r c h => setCell_other _ _ _ _ _ _ h, rfl⟩
  show setCell s.GSelect row col _ row col = _
  rw [setCell_same]
  rcases ht with rfl | rfl <;> rfl

/-- Witness for C12: in the initial state every counter is 1; a taken outcome
moves cell (5, 3) to 2 and leaves cell (5, 4) at 1. -/
theorem smith_counter_table_witness :
    (proc_init 128 3 2 1 2 4 []).GSelect 5 3 = 1 ∧
    ((updateSmithCounter 5 3 1 (proc_init 128 3 2 1 2 4 [])).GSelect 5 3 =
        smithNext ((proc_init 128 3 2 1 2 4 []).GSelect 5 3) 1 ∧
      (∀ r c, r ≠ 5 ∨ c ≠ 3 →
        (updateSmithCounter 5 3 1 (proc_init 128 3 2 1 2 4 [])).GSelect r c =
          (proc_init 128 3 2 1 2 4 []).GSelect r c) ∧
      updateSmithCounter 5 3 1 (proc_init 128 3 2 1 2 4 []) =
        { proc_init 128 3 2 1 2 4 [] with
          GSelect := (updateSmithCounter 5 3 1 (proc_init 128 3 2 1 2 4 [])).GSelect }) :=
  ⟨rfl, smith_counter_table 5 3 1 (proc_init 128 3 2 1 2 4 []) (by decide) (Or.inr rfl)⟩

theorem updateSmithCounter_iterate_taken (row col : Nat) : ∀ (k : Nat) (s : State),
    s.GSelect row col ≤ 3 →
      ((updateSmithCounter row col 1)^[k] s).GSelect row col = min 3 (s.GSelect row col + k) := by
  intro k
  induction k with
  | zero => intro s h; simp only [Function.iterate_zero, id_eq, Nat.add_zero]; omega
  | succ k ih =>
    intro s h
    rw [Function.iterate_succ_apply]
    have h1 := (smith_counter_table row col 1 s h (Or.inr rfl)).1
    have h4 : s.GSelect row col = 0 ∨ s.GSelect row col = 1 ∨ s.GSelect row col = 2 ∨
        s.GSelect row col = 3 := by omega
    have h2 : (updateSmithCounter row col 1 s).GSelect row col = min 3 (s.GSelect row col + 1) := by
      rw [h1]
      rcases h4 with e | e | e | e <;> rw [e] <;> rfl
    rw [ih _ (by rw [h2]; omega), h2]
    omega

theorem updateSmithCounter_iterate_not_taken (row col : Nat) : ∀ (k : Nat) (s : State),
    s.GSelect row col ≤ 3 →
      ((updateSmithCounter row col 0)^[k] s).GSelect row col = s.GSelect row col - k := by
  intro k
  induction k with
  | zero => intro s _; rfl
  | succ k ih =>
    intro s h
    rw [Function.iterate_succ_apply]
    have h1 := (smith_counter_table row col 0 s h (Or.inl rfl)).1
    have h4 : s.GSelect row col = 0 ∨ s.GSelect row col = 1 ∨ s.GSelect row col = 2 ∨
        s.GSelect row col = 3 := by omega
    have h2 : (updateSmithCounter row col 0 s).GSelect row col = s.GSelect row col - 1 := by
      rw [h1]
      rcases h4 with e | e | e | e <;> rw [e] <;> rfl
    rw [ih _ (by rw [h2]; omega), h2]
    omega

/-- C13. Saturation law: `k` applications of `updateSmithCounter` with
`taken = 1` to a cell in state 0 leave it in state `min 3 k`, and `k`
applications with `taken = 0` to a cell in state 3 leave it in state
`max 0 (3 - k)`. -/
theorem smith_counter_saturation (row col k : Nat) (s : State) :
    (s.GSelect row col = 0 →
      ((updateSmithCounter row col 1)^[k] s).GSelect row col = min 3 k) ∧
    (s.GSelect row col = 3 →
      (((updateSmithCounter row col 0)^[k] s).GSelect row col : Int) = max 0 (3 - (k : Int))) := by
  constructor
  · intro h0
    rw [updateSmithCounter_iterate_taken row col k s (by omega), h0, Nat.zero_add]
  · intro h3
    rw [updateSmithCounter_iterate_not_taken row col k s (by omega), h3]
    omega

/-- Witness for C13: from the initial table (every counter 1), one not-taken
outcome brings cell (5, 3) to 0 and five taken outcomes then saturate it at 3;
two taken outcomes bring it to 3 and five not-taken outcomes then saturate it at
0. -/
theorem smith_counter_saturation_witness :
    ((updateSmithCounter 5 3 1)^[5]
        (updateSmithCounter 5 3 0 (proc_init 128 3 2 1 2 4 []))).GSelect 5 3 = min 3 5 ∧
      (((updateSmithCounter 5 3 0)^[5]
        ((updateSmithCounter 5 3 1)^[2] (proc_init 128 3 2 1 2 4 []))).GSelect 5 3 : Int) =
          max 0 (3 - ((5 : Nat) : Int)) :=
  ⟨(smith_counter_saturation 5 3 5 (updateSmithCounter 5 3 0 (proc_init 128 3 2 1 2 4 []))).1 rfl,
    (smith_counter_saturation 5 3 5
      ((updateSmithCounter 5 3 1)^[2] (proc_init 128 3 2 1 2 4 []))).2 rfl⟩

theorem or_one_mod_two_pow (g : Nat) : (g % 2 ^ 64) ||| 1 = (g ||| 1) % 2 ^ 64 := by
  apply Nat.eq_of_testBit_eq
  intro i
  rw [Nat.testBit_or, Nat.testBit_mod_two_pow, Nat.testBit_mod_two_pow, Nat.testBit_or]
  by_cases h : i < 64
  · simp [h]
  · have hi : i ≠ 0 := by omega
    have : Nat.testBit 1 i = false := by
      rw [show (1 : Nat) = 2 ^ 0 from rfl, Nat.testBit_two_pow]
      simp; omega
    simp [h, this]

/-- C14. For every value of the history register and `taken` in {0, 1},
`updateGHR taken` leaves `GHR = ((GHR << 1) | taken) mod 2 ^ 64`, a 64-bit value,
and changes nothing else. -/
theorem ghr_shift (taken : Int) (s : State) (ht : taken = 0 ∨ taken = 1) :
    (updateGHR taken s).GHR = ((s.GHR <<< 1) ||| taken.toNat) % 2 ^ 64 ∧
    (updateGHR taken s).GHR < 2 ^ 64 ∧
    updateGHR taken s = { s with GHR := (updateGHR taken s).GHR } := by
  rcases ht with rfl | rfl
  · have e : (updateGHR 0 s).GHR = (s.GHR <<< 1) % 2 ^ 64 := rfl
    refine ⟨?_, ?_, rfl⟩
    · rw [e]; show _ = ((s.GHR <<< 1) ||| 0) % 2 ^ 64; rw [Nat.or_zero]
    · rw [e]; exact Nat.mod_lt _ (by decide)
  · have e : (updateGHR 1 s).GHR = ((s.GHR <<< 1) % 2 ^ 64) ||| 1 := rfl
    refine ⟨?_, ?_, rfl⟩
    · rw [e]; exact or_one_mod_two_pow _
    · rw [e, or_one_mod_two_pow]; exact Nat.mod_lt _ (by decide)

/-- Witness for C14: shifting a taken outcome into the all-ones register drops
the top bit and keeps the register at `2 ^ 64 - 1`. -/
theorem ghr_shift_witness :
    (updateGHR 1 onesState).GHR = 2 ^ 64 - 1 ∧
    ((updateGHR 1 onesState).GHR = ((onesState.GHR <<< 1) ||| (1 : Int).toNat) % 2 ^ 64 ∧
      (updateGHR 1 onesState).GHR < 2 ^ 64 ∧
      updateGHR 1 onesState = { onesState with GHR := (updateGHR 1 onesState).GHR }) :=
  ⟨by decide, ghr_shift 1 onesState (Or.inr rfl)⟩

/-- C15. For every address and every predictor state whose counters are all in
0..3, `getPrediction` returns 1 when the counter in row `(pc / 4) mod 128` and
column `GHR & 7` is at least 2 and 0 otherwise; the cell lies inside the 128 x 8
table.  The function only reads the predictor: it returns a value and no
state. -/
theorem prediction_threshold (address : Nat) (s : State) (hc : ∀ r c, s.GSelect r c ≤ 3) :
    getPrediction address s =
      .ok (if 2 ≤ s.GSelect ((address / 4) % 128) (s.GHR &&& 7) then 1 else 0) ∧
    (address / 4) % 128 < 128 ∧ s.GHR &&& 7 < 8 := by
  refine ⟨?_, Nat.mod_lt _ (by decide), Nat.lt_succ_of_le Nat.and_le_right⟩
  have h := hc ((address / 4) % 128) (s.GHR &&& 7)
  have h4 : s.GSelect ((address / 4) % 128) (s.GHR &&& 7) = 0 ∨
      s.GSelect ((address / 4) % 128) (s.GHR &&& 7) = 1 ∨
      s.GSelect ((address / 4) % 128) (s.GHR &&& 7) = 2 ∨
      s.GSelect ((address / 4) % 128) (s.GHR &&& 7) = 3 := by omega
  unfold getPrediction getGHR
  rcases h4 with e | e | e | e <;> rw [e] <;> rfl

/-- Witness for C15: in the initial state every counter is 1, so the prediction
for address `0x100` is 0 (not taken). -/
theorem prediction_threshold_witness :
    getPrediction 0x100 (proc_init 128 3 2 1 2 4 []) = .ok 0 ∧
    (getPrediction 0x100 (proc_init 128 3 2 1 2 4 []) =
        .ok (if 2 ≤ (proc_init 128 3 2 1 2 4 []).GSelect ((0x100 / 4) % 128)
          ((proc_init 128 3 2 1 2 4 []).GHR &&& 7) then 1 else 0) ∧
      (0x100 / 4) % 128 < 128 ∧ (proc_init 128 3 2 1 2 4 []).GHR &&& 7 < 8) :=
  ⟨rfl, prediction_threshold 0x100 (proc_init 128 3 2 1 2 4 []) (fun _ _ => show (1 : Nat) ≤ 3 by decide)⟩

/-! ## Prediction cell and update cell -/

theorem gsState_reachable (n : Nat)
    (h : advance n (proc_init 128 3 2 1 2 4 gsTrace) = some (gsState n)) :
    Reachable (proc_init 128 3 2 1 2 4 gsTrace) (gsState n) :=
  advance_reachable n h

/-- The fields of a record that no call writes after `createInstruction` are the
same after an iteration. -/
theorem cycle_fixed_fields {s t : State} (h : cycle s = .ok t) :
    ∀ p, p < s.nalloc → (t.heap p).address = (s.heap p).address ∧
      (t.heap p).branch = (s.heap p).branch ∧ (t.heap p).taken = (s.heap p).taken ∧
      (t.heap p).dest_tag = (s.heap p).dest_tag := by
  obtain ⟨s2, s3, s5, s6, u, h2, h3, h5, h6, hs, hq, rfl⟩ := cycle_anatomy h
  obtain ⟨k2, -, -, -, -, -, -, n2, -, -, -⟩ := sendToSU_settled h2
  have hh3 := resolveBranches_heap h3
  obtain ⟨-, -, -, n3, -⟩ := resolveBranches_fields h3
  obtain ⟨⟨k5, -, -, -, -, -, -, n5, -, -, -⟩, -⟩ := midCalls_facts h5
  obtain ⟨moved, -, -, m3, -, -, -⟩ := dispatch_EnqueueLoop_effect _ _ h6
  have n6 : s6.nalloc = s5.nalloc := by
    obtain ⟨_, _, _, _, _, rfl⟩ := dispatch_Enqueue_shape h6; rfl
  obtain ⟨k, c, -, -, -, -, -, -, -, -, r9, -⟩ := readTrace_effect s6.curr_Config.fetch_rate s6
  obtain ⟨ku, -⟩ := hs
  intro p hp
  have hp6 : p < s6.nalloc := by
    rw [n6, n5, n3, n2]; exact hp
  have e2 := k2 p
  have e3 : (s3.heap p).address = (s2.heap p).address ∧ (s3.heap p).branch = (s2.heap p).branch ∧
      (s3.heap p).taken = (s2.heap p).taken ∧ (s3.heap p).dest_tag = (s2.heap p).dest_tag := by
    rcases hh3 p with e | e <;> rw [e] <;> exact ⟨rfl, rfl, rfl, rfl⟩
  have e5 := k5 p
  have e6 : (s6.heap p).address = (s5.heap p).address ∧ (s6.heap p).branch = (s5.heap p).branch ∧
      (s6.heap p).taken = (s5.heap p).taken ∧ (s6.heap p).dest_tag = (s5.heap p).dest_tag := by
    rcases m3 p with e | ⟨cp, e⟩ <;> rw [e] <;> exact ⟨rfl, rfl, rfl, rfl⟩
  have eu := ku p
  rw [r9 p hp6] at eu
  obtain ⟨a2, b2, c2, -, -, d2, -⟩ := e2
  obtain ⟨a5, b5, c5, -, -, d5, -⟩ := e5
  obtain ⟨au, bu, cu, -, -, du, -⟩ := eu
  show (u.heap p).address = _ ∧ (u.heap p).branch = _ ∧ (u.heap p).taken = _ ∧
    (u.heap p).dest_tag = _
  refine ⟨?_, ?_, ?_, ?_⟩
  · rw [au, e6.1, a5, e3.1, a2]; rfl
  · rw [bu, e6.2.1, b5, e3.2.1, b2]; rfl
  · rw [cu, e6.2.2.1, c5, e3.2.2.1, c2]; rfl
  · rw [du, e6.2.2.2, d5, e3.2.2.2, d2]; rfl

/-- `getPrediction` looks at the history register and at one counter only. -/
theorem getPrediction_congr (address : Nat) {s s1 : State} (hg : getGHR s1 = getGHR s)
    (hc : s1.GSelect (cellOf address s).1 (cellOf address s).2 =
      s.GSelect (cellOf address s).1 (cellOf address s).2) :
    getPrediction address s1 = getPrediction address s := by
  unfold getPrediction
  unfold cellOf at hc
  simp only at hc
  rw [hg, hc]

/-- `updateGSelect` writes one counter at most. -/
theorem updateGSelect_other (address : Nat) (taken : Int) (s : State) (r c : Nat)
    (h : (r, c) ≠ cellOf address s) :
    (updateGSelect address taken s).GSelect r c = s.GSelect r c := by
  have hrc : r ≠ (address / 4) % 128 ∨ c ≠ getGHR s := by
    by_contra hn
    push_neg at hn
    apply h
    unfold cellOf
    rw [hn.1, hn.2]
  unfold updateGSelect
  by_cases hle : s.GSelect ((address / 4) % 128) (getGHR s) ≤ 3
  · rw [updateSmithCounter_eq _ _ _ _ hle]
    exact setCell_other _ _ _ _ _ _ hrc
  · rw [updateSmithCounter_default _ _ _ _ (by omega)]

theorem ok_of_toOption {α : Type} {x : Except Fault α} {a : α} (h : x.toOption = some a) :
    x = .ok a := by
  cases x with
  | error e => simp [Except.toOption] at h
  | ok b => simp only [Except.toOption, Option.some.injEq] at h; rw [h]

theorem ok_of_isSome (x : Except Fault State) (d : State) (h : x.toOption.isSome = true) :
    x = .ok (match x with
      | .ok m => m
      | .error _ => d) := by
  cases x with
  | error e => simp [Except.toOption] at h
  | ok b => rfl

/-- The loop of `resolveBranches` is its first turn followed by the others. -/
theorem resolveBranchesLoop_succ (n : Nat) (s : State) :
    resolveBranchesLoop (n + 1) s =
      match resolveBranchesLoop 1 s with
      | .ok m => resolveBranchesLoop n m
      | .error e => .error e := by
  rw [resolveBranchesLoop, resolveBranchesLoop]
  simp only
  split
  · rfl
  · split
    · split
      · split
        · simp only [resolveBranchesLoop]
        · rfl
      · simp only [resolveBranchesLoop]
    · rfl

theorem gsSecond_turn : resolveBranches gsResolve = resolveBranchesLoop 1 gsSecond := by
  have h1 : findNumUnresolved gsResolve.heap gsResolve.sup = .ok 2 :=
    ok_of_toOption (by decide!)
  have h2 : resolveBranchesLoop 1 gsResolve = .ok gsSecond :=
    ok_of_isSome _ gsResolve (by decide!)
  unfold resolveBranches
  rw [h1]
  show resolveBranchesLoop (1 + 1) gsResolve = _
  rw [resolveBranchesLoop_succ, h2]

/-- C16, as stated, fails: `updateGSelect` takes the column from the history
register at resolution time.  In the three-branch scenario (default
configuration) branches 1 and 2 are admitted to dispatch in cycle 5 with
`GHR & 7 = 1`, so the prediction of branch 2 reads cell (66, 1).  Both are
resolved in cycle 8; branch 1 is resolved first and shifts the register, so the
update of branch 2 is made with `GHR & 7 = 2` and writes cell (66, 2): after the
iteration that cell went from 1 to 0 and cell (66, 1) is untouched. -/
theorem update_cell_differs :
    (gsState 4).clock = 5 ∧ gsDispatch.fetchQueue = [1, 2] ∧ gsDispatch.stallDispatch = 0 ∧
    gsDispatch.curr_Config.fetch_rate = 4 ∧ ((gsState 5).heap 2).disp = 5 ∧
    (gsDispatch.heap 2).branch = 1 ∧
    cellOf (gsDispatch.heap 2).address gsDispatch = (66, 1) ∧
    (gsState 7).clock = 8 ∧ gsResolve.sup = [some 1, some 2] ∧
    (gsResolve.heap 1).resolved = 0 ∧ (gsResolve.heap 2).resolved = 0 ∧
    resolveBranches gsResolve = resolveBranchesLoop 1 gsSecond ∧
    (gsSecond.heap 1).resolved = 1 ∧ (gsSecond.heap 2).resolved = 0 ∧
    cellOf (gsSecond.heap 2).address gsSecond = (66, 2) ∧
    cellOf (gsSecond.heap 2).address gsSecond ≠ cellOf (gsDispatch.heap 2).address gsDispatch ∧
    (gsState 7).GSelect 66 2 = 1 ∧ (gsState 8).GSelect 66 2 = 0 ∧
    (gsState 7).GSelect 66 1 = 1 ∧ (gsState 8).GSelect 66 1 = 1 :=
  ⟨by decide!, by decide!, by decide!, by decide!, by decide!, by decide!, by decide!,
    by decide!, by decide!, by decide!, by decide!, gsSecond_turn, by decide!, by decide!, by decide!,
    by decide!, by decide!, by decide!, by decide!, by decide!⟩

/-- C16, amended. For an instruction address and any two states, the one in
which `getPrediction` is called and the one in which `updateGSelect` is called:
`getPrediction` depends on the counter table through the cell `cellOf` of the
first state only, `updateGSelect` writes no cell but `cellOf` of the second
state, the two cells lie in the same row `(pc / 4) mod 128`, and they are the
same cell exactly when `GHR & 7` has the same value in both states.  No
iteration changes the `address` of an allocated instruction, so the row of a
branch is the same at dispatch and at resolution. -/
theorem prediction_update_cells (address : Nat) (taken : Int) (sd sr : State) :
    (∀ s1 : State, getGHR s1 = getGHR sd →
      s1.GSelect (cellOf address sd).1 (cellOf address sd).2 =
        sd.GSelect (cellOf address sd).1 (cellOf address sd).2 →
      getPrediction address s1 = getPrediction address sd) ∧
    (∀ r c, (r, c) ≠ cellOf address sr →
      (updateGSelect address taken sr).GSelect r c = sr.GSelect r c) ∧
    (cellOf address sd).1 = (address / 4) % 128 ∧ (cellOf address sr).1 = (address / 4) % 128 ∧
    (cellOf address sd).2 = sd.GHR &&& 7 ∧ (cellOf address sr).2 = sr.GHR &&& 7 ∧
    (cellOf address sd = cellOf address sr ↔ sd.GHR &&& 7 = sr.GHR &&& 7) ∧
    (∀ (s t : State) (p : Nat), cycle s = .ok t → p < s.nalloc →
      (t.heap p).address = (s.heap p).address) := by
  refine ⟨fun s1 hg hc => getPrediction_congr address hg hc,
    fun r c h => updateGSelect_other address taken sr r c h, rfl, rfl, rfl, rfl, ?_,
    fun s t p h hp => (cycle_fixed_fields h p hp).1⟩
  unfold cellOf getGHR
  constructor
  · intro h; exact (Prod.mk.inj h).2
  · intro h; rw [h]

/-- Witness for C16, amended: for branch 2 of the three-branch scenario the two
calls address cells (66, 1) and (66, 2), in the same row. -/
theorem prediction_update_cells_witness :
    cellOf 0x108 gsDispatch = (66, 1) ∧ cellOf 0x108 gsSecond = (66, 2) ∧
    ((cellOf 0x108 gsDispatch).1 = (0x108 / 4) % 128 ∧
      (cellOf 0x108 gsSecond).1 = (0x108 / 4) % 128 ∧
      (cellOf 0x108 gsDispatch = cellOf 0x108 gsSecond ↔ gsDispatch.GHR &&& 7 = gsSecond.GHR &&& 7)) :=
  ⟨by decide!, by decide!, (prediction_update_cells 0x108 0 gsDispatch gsSecond).2.2.1,
    (prediction_update_cells 0x108 0 gsDispatch gsSecond).2.2.2.1,
    (prediction_update_cells 0x108 0 gsDispatch gsSecond).2.2.2.2.2.2.1⟩

/-! ## Branch resolution: the order of the loop -/

theorem unresolvedPtrs_none (heap : Nat → instr) (rest : List (Option Nat)) :
    unresolvedPtrs heap (none :: rest) = unresolvedPtrs heap rest := by
  simp [unresolvedPtrs, supPtrs]

theorem unresolvedPtrs_some (heap : Nat → instr) (p : Nat) (rest : List (Option Nat)) :
    unresolvedPtrs heap (some p :: rest) =
      if (heap p).resolved = 0 then p :: unresolvedPtrs heap rest
      else unresolvedPtrs heap rest := by
  simp [unresolvedPtrs, supPtrs, List.filter_cons]

theorem mem_unresolvedPtrs {heap : Nat → instr} {u : List (Option Nat)} {p : Nat} :
    p ∈ unresolvedPtrs heap u ↔ p ∈ supPtrs u ∧ (heap p).resolved = 0 := by
  simp [unresolvedPtrs]

/-- `getMinExecCycle` returns a lower bound of the `exec` stamps of the
unresolved occupants, attained unless the accumulator is returned. -/
theorem getMinExecCycleLoop_spec (heap : Nat → instr) : ∀ (u : List (Option Nat)) (acc : Int),
    getMinExecCycleLoop heap u acc ≤ acc ∧
    (∀ q ∈ unresolvedPtrs heap u, getMinExecCycleLoop heap u acc ≤ (heap q).exec) ∧
    (getMinExecCycleLoop heap u acc = acc ∨
      ∃ p ∈ unresolvedPtrs heap u, (heap p).exec = getMinExecCycleLoop heap u acc) := by
  intro u
  induction u with
  | nil =>
    intro acc
    exact ⟨le_refl _, fun q hq => by simp [unresolvedPtrs, supPtrs] at hq, Or.inl rfl⟩
  | cons x rest ih =>
    intro acc
    cases x with
    | none =>
      rw [getMinExecCycleLoop, unresolvedPtrs_none]
      exact ih acc
    | some p =>
      rw [getMinExecCycleLoop, unresolvedPtrs_some]
      split
      · rename_i hc
        obtain ⟨a1, a2, a3⟩ := ih (heap p).exec
        rw [if_pos hc.1]
        refine ⟨by omega, ?_, ?_⟩
        · intro q hq
          rcases List.mem_cons.1 hq with rfl | hq
          · exact a1
          · exact a2 q hq
        · rcases a3 with e | ⟨p1, hp1, e⟩
          · exact Or.inr ⟨p, List.mem_cons_self _ _, e.symm⟩
          · exact Or.inr ⟨p1, List.mem_cons_of_mem _ hp1, e⟩
      · rename_i hc
        obtain ⟨a1, a2, a3⟩ := ih acc
        refine ⟨a1, ?_, ?_⟩
        · intro q hq
          split at hq
          · rename_i hr
            rcases List.mem_cons.1 hq with rfl | hq
            · have : ¬ (heap q).exec < acc := fun hlt => hc ⟨hr, hlt⟩
              omega
            · exact a2 q hq
          · exact a2 q hq
        · rcases a3 with e | ⟨p1, hp1, e⟩
          · exact Or.inl e
          · refine Or.inr ⟨p1, ?_, e⟩
            split
            · exact List.mem_cons_of_mem _ hp1
            · exact hp1

/-- `getMinTagIndex` returns the accumulated index when no unresolved occupant
with `exec == cycle` has a tag below the accumulated one, and otherwise the slot
of the occupant with the least tag among those with `exec == cycle`. -/
theorem getMinTagIndexLoop_spec (heap : Nat → instr) (cycle : Int) :
    ∀ (u : List (Option Nat)) (i minTag minIndex : Int),
    (getMinTagIndexLoop heap cycle u i minTag minIndex = minIndex ∧
      ∀ q ∈ unresolvedPtrs heap u, (heap q).exec = cycle → minTag ≤ (heap q).dest_tag) ∨
    (∃ (j : Nat) (p : Nat), u[j]? = some (some p) ∧
      getMinTagIndexLoop heap cycle u i minTag minIndex = i + (j : Int) ∧
      (heap p).resolved = 0 ∧ (heap p).exec = cycle ∧ (heap p).dest_tag < minTag ∧
      ∀ q ∈ unresolvedPtrs heap u, (heap q).exec = cycle → (heap p).dest_tag ≤ (heap q).dest_tag) := by
  intro u
  induction u with
  | nil =>
    intro i minTag minIndex
    exact Or.inl ⟨rfl, fun q hq => by simp [unresolvedPtrs, supPtrs] at hq⟩
  | cons x rest ih =>
    intro i minTag minIndex
    cases x with
    | none =>
      rw [getMinTagIndexLoop, unresolvedPtrs_none]
      rcases ih (i + 1) minTag minIndex with h | ⟨j, p, h1, h2, h3⟩
      · exact Or.inl h
      · refine Or.inr ⟨j + 1, p, by simpa using h1, ?_, h3⟩
        rw [h2]; push_cast; ring
    | some p =>
      rw [getMinTagIndexLoop, unresolvedPtrs_some]
      split
      · rename_i hc
        obtain ⟨c1, c2, c3⟩ := hc
        rw [if_pos c1]
        rcases ih (i + 1) (heap p).dest_tag i with ⟨h1, h2⟩ | ⟨j, p1, h1, h2, h3, h4, h5, h6⟩
        · refine Or.inr ⟨0, p, by simp, by rw [h1]; simp, c1, c3, c2, ?_⟩
          intro q hq he
          rcases List.mem_cons.1 hq with rfl | hq
          · exact le_refl _
          · exact h2 q hq he
        · refine Or.inr ⟨j + 1, p1, by simpa using h1, by rw [h2]; push_cast; ring, h3, h4,
            by omega, ?_⟩
          intro q hq he
          rcases List.mem_cons.1 hq with rfl | hq
          · omega
          · exact h6 q hq he
      · rename_i hc
        have hp : (heap p).resolved = 0 → (heap p).exec = cycle → minTag ≤ (heap p).dest_tag := by
          intro a b
          by_contra hn
          exact hc ⟨a, by omega, b⟩
        rcases ih (i + 1) minTag minIndex with ⟨h1, h2⟩ | ⟨j, p1, h1, h2, h3, h4, h5, h6⟩
        · refine Or.inl ⟨h1, ?_⟩
          intro q hq he
          split at hq
          · rename_i hr
            rcases List.mem_cons.1 hq with rfl | hq
            · exact hp hr he
            · exact h2 q hq he
          · exact h2 q hq he
        · refine Or.inr ⟨j + 1, p1, by simpa using h1, by rw [h2]; push_cast; ring, h3, h4, h5, ?_⟩
          intro q hq he
          split at hq
          · rename_i hr
            rcases List.mem_cons.1 hq with rfl | hq
            · have := hp hr he
              omega
            · exact h6 q hq he
          · exact h6 q hq he

/-- With distinct tags below `INT_MAX`, the two searches of a turn find the slot
of the unresolved occupant that is least in `(exec, dest_tag)`. -/
theorem resolve_pick {s : State} (hd : SupDistinct s.heap s.sup)
    (hne : unresolvedPtrs s.heap s.sup ≠ []) :
    ∃ (j p : Nat), getMinTagIndex (getMinExecCycle s) s = (j : Int) ∧
      s.sup[j]? = some (some p) ∧ p ∈ unresolvedPtrs s.heap s.sup ∧
      ∀ q ∈ unresolvedPtrs s.heap s.sup, q ≠ p → keyBelow s.heap p q := by
  obtain ⟨-, inj, rng⟩ := hd
  obtain ⟨-, a2, a3⟩ := getMinExecCycleLoop_spec s.heap s.sup INT_MAX
  have hp0 : ∃ p0 ∈ unresolvedPtrs s.heap s.sup, (s.heap p0).exec = getMinExecCycle s := by
    rcases a3 with e | h
    · obtain ⟨p0, hp0⟩ := List.exists_mem_of_ne_nil _ hne
      refine ⟨p0, hp0, ?_⟩
      have h1 := a2 p0 hp0
      have h2 := (rng p0 hp0).2
      unfold getMinExecCycle
      rw [e] at h1 ⊢
      omega
    · exact h
  obtain ⟨p0, hp0, he0⟩ := hp0
  rcases getMinTagIndexLoop_spec s.heap (getMinExecCycle s) s.sup 0 INT_MAX (-1) with
    ⟨-, h2⟩ | ⟨j, p, h1, h2, h3, h4, -, h6⟩
  · have := h2 p0 hp0 he0
    have := (rng p0 hp0).1
    omega
  · have hp : p ∈ unresolvedPtrs s.heap s.sup :=
      mem_unresolvedPtrs.2 ⟨mem_supPtrs_of_getElem h1, h3⟩
    refine ⟨j, p, ?_, h1, hp, ?_⟩
    · unfold getMinTagIndex
      rw [h2, Int.zero_add]
    · intro q hq hqp
      have hle : getMinExecCycle s ≤ (s.heap q).exec := a2 q hq
      unfold keyBelow
      by_cases he : (s.heap q).exec = getMinExecCycle s
      · right
        refine ⟨by rw [h4, he], ?_⟩
        have h7 := h6 q hq he
        have h8 : (s.heap p).dest_tag ≠ (s.heap q).dest_tag := fun e => hqp (inj p hp q hq e).symm
        omega
      · left
        rw [h4]
        omega

theorem resolveOne_fields (heap : Nat → instr) (st : State) (p : Nat) :
    ∃ g r, resolveOne heap st p = { st with GSelect := g, GHR := r } := by
  unfold resolveOne
  obtain ⟨g, e1⟩ := updateGSelect_shape (heap p).address (heap p).taken st
  rw [e1]
  obtain ⟨r, e2⟩ := updateGHR_shape (heap p).taken { st with GSelect := g }
  rw [e2]
  exact ⟨g, r, rfl⟩

/-- One turn of the loop: the occupant least in `(exec, dest_tag)` is resolved,
after the `assert` on the dispatch lock when it was mispredicted. -/
theorem resolveBranchesLoop_turn {s : State} (hd : SupDistinct s.heap s.sup)
    (hne : unresolvedPtrs s.heap s.sup ≠ []) :
    ∃ p, p ∈ unresolvedPtrs s.heap s.sup ∧
      (∀ q ∈ unresolvedPtrs s.heap s.sup, q ≠ p → keyBelow s.heap p q) ∧
      ∀ n, resolveBranchesLoop (n + 1) s =
        if (s.heap p).correct_pred = 0 ∧ s.stallDispatch ≠ 1 then .error Fault.assertStall
        else resolveBranchesLoop n (resolveTurn s p) := by
  obtain ⟨j, p, hj, hs, hp, hmin⟩ := resolve_pick hd hne
  refine ⟨p, hp, hmin, ?_⟩
  intro n
  rw [resolveBranchesLoop]
  simp only [hj, Int.toNat_ofNat, hs]
  rw [if_neg (by omega)]
  obtain ⟨g, e1⟩ := updateGSelect_shape (s.heap p).address (s.heap p).taken s
  have e1h : (updateGSelect (s.heap p).address (s.heap p).taken s).heap = s.heap := by rw [e1]
  obtain ⟨g2, r2, e2⟩ := resolveOne_fields s.heap s p
  have e3 : updateGHR ((updateGSelect (s.heap p).address (s.heap p).taken s).heap p).taken
      (updateGSelect (s.heap p).address (s.heap p).taken s) = resolveOne s.heap s p := by
    rw [e1h]; rfl
  rw [e3]
  have e4 : (resolveOne s.heap s p).heap = s.heap := by rw [e2]
  have e5 : (resolveOne s.heap s p).stallDispatch = s.stallDispatch := by rw [e2]
  rw [e4, e5]
  by_cases hc : (s.heap p).correct_pred = 0
  · rw [if_pos hc]
    by_cases hst : s.stallDispatch = 1
    · rw [if_pos hst, if_neg (fun h => h.2 hst)]
      unfold resolveTurn
      rw [if_pos hc]
    · rw [if_neg hst, if_pos ⟨hc, hst⟩]
  · rw [if_neg hc, if_neg (fun h => hc h.1)]
    unfold resolveTurn
    rw [if_neg hc]

theorem updateGSelect_frame (a : Nat) (tk : Int) (s : State) (st : Int) (hp : Nat → instr) :
    updateGSelect a tk { s with stallDispatch := st, heap := hp } =
      { updateGSelect a tk s with stallDispatch := st, heap := hp } := by
  unfold updateGSelect getGHR
  by_cases hle : s.GSelect ((a / 4) % 128) (s.GHR &&& 7) ≤ 3
  · rw [updateSmithCounter_eq _ _ _ s hle,
      updateSmithCounter_eq _ _ _ { s with stallDispatch := st, heap := hp } hle]
  · rw [updateSmithCounter_default _ _ _ s (by omega),
      updateSmithCounter_default _ _ _ { s with stallDispatch := st, heap := hp }
        (show 3 < s.GSelect ((a / 4) % 128) (s.GHR &&& 7) by omega)]

theorem updateGHR_frame (tk : Int) (s : State) (st : Int) (hp : Nat → instr) :
    updateGHR tk { s with stallDispatch := st, heap := hp } =
      { updateGHR tk s with stallDispatch := st, heap := hp } := by
  unfold updateGHR shiftTaken shiftNotTaken
  split
  · rfl
  · split <;> rfl

theorem resolveOne_frame (h0 : Nat → instr) (s : State) (p : Nat) (st : Int) (hp : Nat → instr) :
    resolveOne h0 { s with stallDispatch := st, heap := hp } p =
      { resolveOne h0 s p with stallDispatch := st, heap := hp } := by
  unfold resolveOne
  rw [updateGSelect_frame, updateGHR_frame]

theorem foldl_resolveOne_frame (h0 : Nat → instr) : ∀ (L : List Nat) (s : State) (st : Int)
    (hp : Nat → instr),
    L.foldl (resolveOne h0) { s with stallDispatch := st, heap := hp } =
      { L.foldl (resolveOne h0) s with stallDispatch := st, heap := hp } := by
  intro L
  induction L with
  | nil => intro s st hp; rfl
  | cons p rest ih =>
    intro s st hp
    rw [List.foldl_cons, List.foldl_cons, resolveOne_frame, ih]

theorem resolveOne_heap_congr {h0 h1 : Nat → instr} (st : State) (p : Nat)
    (ha : (h1 p).address = (h0 p).address) (ht : (h1 p).taken = (h0 p).taken) :
    resolveOne h1 st p = resolveOne h0 st p := by
  unfold resolveOne
  rw [ha, ht]

theorem resolveTurn_sup (s : State) (p : Nat) : (resolveTurn s p).sup = s.sup := by
  obtain ⟨g, r, e⟩ := resolveOne_fields s.heap s p
  unfold resolveTurn
  rw [e]

theorem resolveTurn_heap (s : State) (p : Nat) :
    (resolveTurn s p).heap = setInstr s.heap p { s.heap p with resolved := 1 } := rfl

theorem unresolvedPtrs_resolved (heap : Nat → instr) (u : List (Option Nat)) (p : Nat) :
    unresolvedPtrs (setInstr heap p { heap p with resolved := 1 }) u =
      (unresolvedPtrs heap u).filter (fun q => q != p) := by
  unfold unresolvedPtrs
  rw [List.filter_filter]
  apply List.filter_congr
  intro q _
  by_cases hq : q = p
  · subst hq
    simp [setInstr]
  · simp [setInstr, hq]

theorem perm_cons_filter_ne {l : List Nat} (hn : l.Nodup) {p : Nat} (hp : p ∈ l) :
    List.Perm (p :: l.filter (fun q => q != p)) l := by
  rw [← List.Nodup.erase_eq_filter hn p]
  exact (List.perm_cons_erase hp).symm

theorem SupDistinct_turn {s : State} {p : Nat} (hd : SupDistinct s.heap s.sup) :
    SupDistinct (resolveTurn s p).heap (resolveTurn s p).sup := by
  obtain ⟨nd, inj, rng⟩ := hd
  rw [resolveTurn_sup, resolveTurn_heap]
  have hU := unresolvedPtrs_resolved s.heap s.sup p
  have hsame : ∀ q ∈ unresolvedPtrs (setInstr s.heap p { s.heap p with resolved := 1 }) s.sup,
      q ∈ unresolvedPtrs s.heap s.sup ∧
        setInstr s.heap p { s.heap p with resolved := 1 } q = s.heap q := by
    intro q hq
    rw [hU, List.mem_filter] at hq
    have hne : q ≠ p := by simpa using hq.2
    exact ⟨hq.1, by simp [setInstr, hne]⟩
  refine ⟨?_, ?_, ?_⟩
  · rw [hU]; exact nd.filter _
  · intro a ha b hb e
    obtain ⟨ha1, ha2⟩ := hsame a ha
    obtain ⟨hb1, hb2⟩ := hsame b hb
    rw [ha2, hb2] at e
    exact inj a ha1 b hb1 e
  · intro a ha
    obtain ⟨ha1, ha2⟩ := hsame a ha
    rw [ha2]
    exact rng a ha1

/-- The loop of `resolveBranches`, run once per unresolved occupant: the
occupants are taken in strictly ascending `(exec, dest_tag)` order, the predictor
ends as the fold of the per-branch step over that order, and the heap changes in
the `resolved` flags of the unresolved occupants only. -/
theorem resolveBranchesLoop_order (h0 : Nat → instr) : ∀ (n : Nat) (s t : State),
    (∀ q, (s.heap q).exec = (h0 q).exec ∧ (s.heap q).dest_tag = (h0 q).dest_tag ∧
      (s.heap q).address = (h0 q).address ∧ (s.heap q).taken = (h0 q).taken) →
    SupDistinct s.heap s.sup → (unresolvedPtrs s.heap s.sup).length = n →
    resolveBranchesLoop n s = .ok t →
    ∃ L, List.Perm L (unresolvedPtrs s.heap s.sup) ∧ L.Pairwise (keyBelow h0) ∧
      t.GHR = (L.foldl (resolveOne h0) s).GHR ∧ t.GSelect = (L.foldl (resolveOne h0) s).GSelect ∧
      t.sup = s.sup ∧
      (∀ q, q ∉ unresolvedPtrs s.heap s.sup → t.heap q = s.heap q) ∧
      (∀ q ∈ unresolvedPtrs s.heap s.sup, t.heap q = { s.heap q with resolved := 1 }) ∧
      ((∃ q ∈ unresolvedPtrs s.heap s.sup, (s.heap q).correct_pred = 0) →
        t.stallDispatch = 0) := by
  intro n
  induction n with
  | zero =>
    intro s t _ _ hl h
    cases h
    have hnil : unresolvedPtrs s.heap s.sup = [] := List.length_eq_zero.1 hl
    rw [hnil]
    exact ⟨[], List.Perm.refl _, List.Pairwise.nil, rfl, rfl, rfl, fun _ _ => rfl,
      fun q hq => absurd hq (List.not_mem_nil q), fun ⟨q, hq, _⟩ => absurd hq (List.not_mem_nil q)⟩
  | succ n ih =>
    intro s t hk hd hl h
    have hne : unresolvedPtrs s.heap s.sup ≠ [] := by
      intro e; rw [e] at hl; cases hl
    obtain ⟨p, hp, hmin, hturn⟩ := resolveBranchesLoop_turn hd hne
    rw [hturn n] at h
    split at h
    · cases h
    · rename_i hno
      have hU := unresolvedPtrs_resolved s.heap s.sup p
      have hperm := perm_cons_filter_ne hd.1 hp
      have hk1 : ∀ q, ((resolveTurn s p).heap q).exec = (h0 q).exec ∧
          ((resolveTurn s p).heap q).dest_tag = (h0 q).dest_tag ∧
          ((resolveTurn s p).heap q).address = (h0 q).address ∧
          ((resolveTurn s p).heap q).taken = (h0 q).taken := by
        intro q
        rw [resolveTurn_heap]
        by_cases hq : q = p
        · subst hq
          simp only [setInstr, if_true]
          exact hk q
        · simp only [setInstr, if_neg hq]
          exact hk q
      have hl1 : (unresolvedPtrs (resolveTurn s p).heap (resolveTurn s p).sup).length = n := by
        rw [resolveTurn_sup, resolveTurn_heap, hU]
        have := hperm.length_eq
        rw [List.length_cons, hl] at this
        omega
      obtain ⟨L, c1, c2, c3, c4, c5, c6, c7, c8⟩ := ih _ t hk1 (SupDistinct_turn hd) hl1 h
      rw [resolveTurn_sup, resolveTurn_heap, hU] at c1 c6 c7 c8
      have hfold : ∀ (L : List Nat), L.foldl (resolveOne h0) (resolveTurn s p) =
          { L.foldl (resolveOne h0) (resolveOne h0 s p) with
            stallDispatch := if (s.heap p).correct_pred = 0 then 0 else s.stallDispatch
            heap := setInstr s.heap p { s.heap p with resolved := 1 } } := by
        intro L
        unfold resolveTurn
        rw [resolveOne_heap_congr s p (hk p).2.2.1 (hk p).2.2.2, foldl_resolveOne_frame]
      refine ⟨p :: L, (List.Perm.cons p c1).trans hperm, ?_, ?_, ?_, ?_, ?_, ?_, ?_⟩
      · refine List.Pairwise.cons ?_ c2
        intro q hq
        have hq1 := List.mem_filter.1 (c1.subset hq)
        have hqp : q ≠ p := by simpa using hq1.2
        have := hmin q hq1.1 hqp
        unfold keyBelow at this ⊢
        rw [(hk p).1, (hk q).1, (hk p).2.1, (hk q).2.1] at this
        exact this
      · rw [c3, List.foldl_cons, hfold]
      · rw [c4, List.foldl_cons, hfold]
      · rw [c5, resolveTurn_sup]
      · intro q hq
        have hqp : q ≠ p := fun e => hq (e ▸ hp)
        rw [c6 q (fun hm => hq (List.mem_filter.1 hm).1)]
        simp [setInstr, hqp]
      · intro q hq
        by_cases hqp : q = p
        · subst hqp
          rw [c6 q (fun hm => by simpa using (List.mem_filter.1 hm).2)]
          simp [setInstr]
        · rw [c7 q (List.mem_filter.2 ⟨hq, by simpa using hqp⟩)]
          simp [setInstr, hqp]
      · rintro ⟨q, hq, hc⟩
        by_cases hqp : q = p
        · subst hqp
          have hs0 : (resolveTurn s q).stallDispatch = 0 := by
            unfold resolveTurn
            simp [hc]
          exact resolveBranchesLoop_stall n h hs0
        · apply c8
          refine ⟨q, List.mem_filter.2 ⟨hq, by simpa using hqp⟩, ?_⟩
          simp only [setInstr, if_neg hqp]
          exact hc

theorem findNumUnresolved_length (heap : Nat → instr) : ∀ (u : List (Option Nat)) {n : Nat},
    findNumUnresolved heap u = .ok n → (unresolvedPtrs heap u).length = n := by
  intro u
  induction u with
  | nil => intro n h; cases h; rfl
  | cons x rest ih =>
    intro n h
    cases x with
    | none =>
      rw [findNumUnresolved] at h
      rw [unresolvedPtrs_none]
      exact ih h
    | some p =>
      rw [findNumUnresolved] at h
      rw [unresolvedPtrs_some]
      split at h
      · rename_i hr
        rw [if_pos hr]
        split at h
        · split at h
          · cases h
          · rename_i m hm
            cases h
            rw [List.length_cons, ih hm]
        · cases h
      · rename_i hr
        rw [if_neg hr]
        exact ih h

theorem findNumUnresolved_ok (heap : Nat → instr) : ∀ (u : List (Option Nat)),
    (∀ p ∈ unresolvedPtrs heap u, (heap p).branch = 1) →
    findNumUnresolved heap u = .ok (unresolvedPtrs heap u).length := by
  intro u
  induction u with
  | nil => intro _; rfl
  | cons x rest ih =>
    intro hb
    cases x with
    | none =>
      rw [findNumUnresolved, unresolvedPtrs_none]
      rw [unresolvedPtrs_none] at hb
      exact ih hb
    | some p =>
      rw [findNumUnresolved, unresolvedPtrs_some]
      rw [unresolvedPtrs_some] at hb
      by_cases hr : (heap p).resolved = 0
      · rw [if_pos hr] at hb ⊢
        rw [if_pos hr, if_pos (hb p (List.mem_cons_self _ _)),
          ih (fun q hq => hb q (List.mem_cons_of_mem _ hq))]
        rfl
      · rw [if_neg hr] at hb ⊢
        rw [if_neg hr]
        exact ih hb

theorem keyBelow_resolvesBefore {heap : Nat → instr} {p q : Nat} (h : keyBelow heap p q) :
    resolvesBefore heap p q = true := by
  unfold keyBelow at h
  unfold resolvesBefore
  rw [decide_eq_true_eq]
  rcases h with h | ⟨h1, h2⟩
  · exact Or.inl h
  · exact Or.inr ⟨h1, by omega⟩

/-- A list of unresolved occupants in strictly ascending `(exec, dest_tag)`
order is the sorted list `resolveOrder`. -/
theorem resolveOrder_unique {s : State} (hd : SupDistinct s.heap s.sup) {L : List Nat}
    (hp : List.Perm L (unresolvedPtrs s.heap s.sup)) (hs : L.Pairwise (keyBelow s.heap)) :
    resolveOrder s = L := by
  haveI : IsTotal Nat (fun p q => resolvesBefore s.heap p q = true) := ⟨by
    intro a b
    unfold resolvesBefore
    rw [decide_eq_true_eq, decide_eq_true_eq]
    omega⟩
  haveI : IsTrans Nat (fun p q => resolvesBefore s.heap p q = true) := ⟨by
    intro a b c
    unfold resolvesBefore
    rw [decide_eq_true_eq, decide_eq_true_eq, decide_eq_true_eq]
    omega⟩
  have h1 : (resolveOrder s).Pairwise (fun p q => resolvesBefore s.heap p q = true) :=
    List.sorted_insertionSort _ _
  have h2 : List.Perm (resolveOrder s) L :=
    (List.perm_insertionSort _ _).trans hp.symm
  refine List.Perm.eq_of_sorted ?_ h1 (hs.imp keyBelow_resolvesBefore) h2
  intro a b ha hb hab hba
  have ha1 : a ∈ unresolvedPtrs s.heap s.sup := (List.perm_insertionSort _ _).subset ha
  have hb1 : b ∈ unresolvedPtrs s.heap s.sup := hp.subset hb
  apply hd.2.1 a ha1 b hb1
  unfold resolvesBefore at hab hba
  rw [decide_eq_true_eq] at hab hba
  omega

theorem updateGSelect_pred (a : Nat) (tk : Int) {x y : State} (hg : x.GHR = y.GHR)
    (hc : x.GSelect = y.GSelect) :
    (updateGSelect a tk x).GHR = (updateGSelect a tk y).GHR ∧
      (updateGSelect a tk x).GSelect = (updateGSelect a tk y).GSelect := by
  unfold updateGSelect getGHR
  by_cases hle : x.GSelect ((a / 4) % 128) (x.GHR &&& 7) ≤ 3
  · have hle1 : y.GSelect ((a / 4) % 128) (y.GHR &&& 7) ≤ 3 := by rw [← hg, ← hc]; exact hle
    rw [updateSmithCounter_eq _ _ _ x hle, updateSmithCounter_eq _ _ _ y hle1]
    refine ⟨hg, ?_⟩
    show setCell x.GSelect _ _ _ = setCell y.GSelect _ _ _
    rw [hg, hc]
  · have hle1 : 3 < y.GSelect ((a / 4) % 128) (y.GHR &&& 7) := by rw [← hg, ← hc]; omega
    rw [updateSmithCounter_default _ _ _ x (by omega), updateSmithCounter_default _ _ _ y hle1]
    exact ⟨hg, hc⟩

theorem updateGHR_pred (tk : Int) {x y : State} (hg : x.GHR = y.GHR)
    (hc : x.GSelect = y.GSelect) :
    (updateGHR tk x).GHR = (updateGHR tk y).GHR ∧
      (updateGHR tk x).GSelect = (updateGHR tk y).GSelect := by
  unfold updateGHR shiftTaken shiftNotTaken
  split
  · exact ⟨by show (x.GHR <<< 1) % 2 ^ 64 ||| 1 = (y.GHR <<< 1) % 2 ^ 64 ||| 1; rw [hg], hc⟩
  · split
    · exact ⟨by show (x.GHR <<< 1) % 2 ^ 64 = (y.GHR <<< 1) % 2 ^ 64; rw [hg], hc⟩
    · exact ⟨hg, hc⟩

theorem foldl_resolveOne_pred (h0 : Nat → instr) : ∀ (L : List Nat) {x y : State},
    x.GHR = y.GHR → x.GSelect = y.GSelect →
    (L.foldl (resolveOne h0) x).GHR = (L.foldl (resolveOne h0) y).GHR ∧
      (L.foldl (resolveOne h0) x).GSelect = (L.foldl (resolveOne h0) y).GSelect := by
  intro L
  induction L with
  | nil => intro x y hg hc; exact ⟨hg, hc⟩
  | cons p rest ih =>
    intro x y hg hc
    rw [List.foldl_cons, List.foldl_cons]
    obtain ⟨a1, a2⟩ := updateGSelect_pred (h0 p).address (h0 p).taken hg hc
    obtain ⟨b1, b2⟩ := updateGHR_pred (h0 p).taken a1 a2
    exact ih b1 b2

/-- The result of `resolveBranches` in terms of the sorted order. -/
theorem resolveBranches_sorted {s t : State} (hd : SupDistinct s.heap s.sup)
    (h : resolveBranches s = .ok t) :
    List.Perm (resolveOrder s) (unresolvedPtrs s.heap s.sup) ∧
      (resolveOrder s).Pairwise (keyBelow s.heap) ∧
      t.GHR = (resolveSorted s).GHR ∧ t.GSelect = (resolveSorted s).GSelect ∧ t.sup = s.sup ∧
      (∀ q, q ∉ unresolvedPtrs s.heap s.sup → t.heap q = s.heap q) ∧
      (∀ q ∈ unresolvedPtrs s.heap s.sup, t.heap q = { s.heap q with resolved := 1 }) ∧
      ((∃ q ∈ unresolvedPtrs s.heap s.sup, (s.heap q).correct_pred = 0) →
        t.stallDispatch = 0) := by
  unfold resolveBranches at h
  split at h
  · cases h
  · rename_i n hn
    obtain ⟨L, c1, c2, c3, c4, c5, c6, c7, c8⟩ :=
      resolveBranchesLoop_order s.heap n s t (fun q => ⟨rfl, rfl, rfl, rfl⟩) hd
        (findNumUnresolved_length _ _ hn) h
    have hL := resolveOrder_unique hd c1 c2
    unfold resolveSorted
    rw [hL]
    exact ⟨c1, c2, c3, c4, c5, c6, c7, c8⟩

theorem unresolvedPtrs_perm (heap : Nat → instr) {u v : List (Option Nat)} (h : List.Perm u v) :
    List.Perm (unresolvedPtrs heap u) (unresolvedPtrs heap v) := by
  unfold unresolvedPtrs supPtrs
  exact (h.filterMap _).filter _

theorem SupDistinct_perm {heap : Nat → instr} {u v : List (Option Nat)} (h : List.Perm u v)
    (hd : SupDistinct heap v) : SupDistinct heap u := by
  have hp := unresolvedPtrs_perm heap h
  obtain ⟨nd, inj, rng⟩ := hd
  exact ⟨hp.nodup_iff.2 nd, fun a ha b hb e => inj a (hp.subset ha) b (hp.subset hb) e,
    fun a ha => rng a (hp.subset ha)⟩

/-- What a call of `resolveBranches` that returns leaves, when the unresolved
occupants of the state-update array are distinct instructions with distinct tags
below `INT_MAX` and `exec` stamps in the range of an `int`: the history register
and the counter table are the left fold of the per-branch step over the
unresolved occupants sorted by ascending `(exec, dest_tag)`, and the result is the
same for every arrangement of the occupants in the slots. -/
theorem resolveBranches_key_order (s t : State) (hd : SupDistinct s.heap s.sup)
    (h : resolveBranches s = .ok t) :
    t.GHR = (resolveSorted s).GHR ∧ t.GSelect = (resolveSorted s).GSelect ∧
    List.Perm (resolveOrder s) (unresolvedPtrs s.heap s.sup) ∧
    (resolveOrder s).Pairwise (keyBelow s.heap) ∧
    (∀ (st : State) (p : Nat),
      (resolveOne s.heap st p).GSelect =
        (updateGSelect (s.heap p).address (s.heap p).taken st).GSelect ∧
      (resolveOne s.heap st p).GHR = (updateGHR (s.heap p).taken st).GHR ∧
      ∀ r c, (r, c) ≠ cellOf (s.heap p).address st →
        (resolveOne s.heap st p).GSelect r c = st.GSelect r c) ∧
    (∀ (u : List (Option Nat)) (t1 : State), List.Perm u s.sup →
      resolveBranches { s with sup := u } = .ok t1 →
        t1.GHR = t.GHR ∧ t1.GSelect = t.GSelect) := by
  obtain ⟨c1, c2, c3, c4, -⟩ := resolveBranches_sorted hd h
  refine ⟨c3, c4, c1, c2, ?_, ?_⟩
  · intro st p
    have e1 : (resolveOne s.heap st p).GSelect =
        (updateGSelect (s.heap p).address (s.heap p).taken st).GSelect := by
      unfold resolveOne
      obtain ⟨r, e⟩ := updateGHR_shape (s.heap p).taken
        (updateGSelect (s.heap p).address (s.heap p).taken st)
      rw [e]
    have e2 : (resolveOne s.heap st p).GHR = (updateGHR (s.heap p).taken st).GHR := by
      unfold resolveOne
      obtain ⟨g, e⟩ := updateGSelect_shape (s.heap p).address (s.heap p).taken st
      rw [e]
      unfold updateGHR shiftTaken shiftNotTaken
      split
      · rfl
      · split <;> rfl
    refine ⟨e1, e2, ?_⟩
    intro r c hrc
    rw [e1]
    exact updateGSelect_other _ _ _ _ _ hrc
  · intro u t1 hu h1
    have hd1 : SupDistinct ({ s with sup := u } : State).heap ({ s with sup := u } : State).sup :=
      SupDistinct_perm hu hd
    obtain ⟨d1, d2, d3, d4, -⟩ := resolveBranches_sorted hd1 h1
    have hL : resolveOrder s = resolveOrder { s with sup := u } :=
      resolveOrder_unique hd (d1.trans (unresolvedPtrs_perm s.heap hu)) d2
    have hf := foldl_resolveOne_pred s.heap (resolveOrder s)
      (show ({ s with sup := u } : State).GHR = s.GHR from rfl)
      (show ({ s with sup := u } : State).GSelect = s.GSelect from rfl)
    have e3 : resolveSorted { s with sup := u } =
        (resolveOrder s).foldl (resolveOne s.heap) { s with sup := u } := by
      unfold resolveSorted
      rw [← hL]
    rw [d3, d4, c3, c4, e3]
    exact hf

/-! ## The occupants of the functional units and of the state-update array -/

theorem fuPtrs_perm_idle_chosen : ∀ (k : List (Option execute_node)),
    List.Perm (fuPtrs k) (idlePtrs k ++ chosenPtrs k) := by
  intro k
  induction k with
  | nil => exact List.Perm.refl _
  | cons x rest ih =>
    cases x with
    | none => simpa [fuPtrs, idlePtrs, chosenPtrs] using ih
    | some n =>
      have e1 : fuPtrs (some n :: rest) = n.theInstr :: fuPtrs rest := by simp [fuPtrs]
      rw [e1]
      by_cases hc : n.chosen = 1
      · have e2 : idlePtrs (some n :: rest) = idlePtrs rest := by simp [idlePtrs, hc]
        have e3 : chosenPtrs (some n :: rest) = n.theInstr :: chosenPtrs rest := by
          simp [chosenPtrs, hc]
        rw [e2, e3]
        exact (List.Perm.cons _ ih).trans List.perm_middle.symm
      · have e2 : idlePtrs (some n :: rest) = n.theInstr :: idlePtrs rest := by
          simp [idlePtrs, hc]
        have e3 : chosenPtrs (some n :: rest) = chosenPtrs rest := by simp [chosenPtrs, hc]
        rw [e2, e3]
        exact List.Perm.cons _ ih

theorem fuAll_perm (s : State) : List.Perm (fuAll s) (idleAll s ++ chosenAll s) := by
  unfold fuAll idleAll chosenAll
  have h0 := fuPtrs_perm_idle_chosen s.k_0
  have h1 := fuPtrs_perm_idle_chosen s.k_1
  have h2 := fuPtrs_perm_idle_chosen s.k_2
  rw [List.perm_iff_count]
  intro a
  have c0 := h0.count_eq a
  have c1 := h1.count_eq a
  have c2 := h2.count_eq a
  simp only [List.count_append] at c0 c1 c2 ⊢
  omega

/-- The pool left by `sendToSU` holds the unchosen occupants, in order. -/
theorem sendToSUPool_left (clock : Int) : ∀ (k : List (Option execute_node))
    (hp : Nat → instr) (u : List (Option Nat)) (i : Nat) {r : List (Option execute_node)}
    {hp' : Nat → instr} {u' : List (Option Nat)} {i' : Nat},
    sendToSUPool clock k hp u i = .ok (r, hp', u', i') → fuPtrs r = idlePtrs k := by
  intro k
  induction k with
  | nil => intro hp u i r hp' u' i' h; cases h; rfl
  | cons x rest ih =>
    intro hp u i r hp' u' i' h
    cases x with
    | none =>
      rw [sendToSUPool] at h
      split at h
      · cases h
      · rename_i h1
        cases h
        simpa [fuPtrs, idlePtrs] using ih _ _ _ h1
    | some n =>
      rw [sendToSUPool] at h
      split at h
      · rename_i hc
        split at h
        · split at h
          · cases h
          · rename_i h1
            cases h
            simpa [fuPtrs, idlePtrs, hc] using ih _ _ _ h1
        · cases h
      · rename_i hc
        split at h
        · cases h
        · rename_i h1
          cases h
          have := ih _ _ _ h1
          simp [fuPtrs, idlePtrs, hc] at this ⊢
          exact this

/-- Starting from slots that are empty from `index` on, `sendToSU` fills the
state-update array with the chosen occupants, in order. -/
theorem sendToSUPool_filled (clock : Int) : ∀ (k : List (Option execute_node))
    (hp : Nat → instr) (a : List (Option Nat)) (m : Nat) {r : List (Option execute_node)}
    {hp' : Nat → instr} {u' : List (Option Nat)} {i' : Nat},
    sendToSUPool clock k hp (a ++ List.replicate m none) a.length = .ok (r, hp', u', i') →
    ∃ m', u' = (a ++ (chosenPtrs k).map some) ++ List.replicate m' none ∧
      i' = (a ++ (chosenPtrs k).map some).length := by
  intro k
  induction k with
  | nil =>
    intro hp a m r hp' u' i' h
    cases h
    exact ⟨m, by simp [chosenPtrs], by simp [chosenPtrs]⟩
  | cons x rest ih =>
    intro hp a m r hp' u' i' h
    cases x with
    | none =>
      rw [sendToSUPool] at h
      split at h
      · cases h
      · rename_i h1
        cases h
        simpa [chosenPtrs] using ih _ _ _ h1
    | some n =>
      rw [sendToSUPool] at h
      split at h
      · rename_i hc
        split at h
        · rename_i hlt
          split at h
          · cases h
          · rename_i h1
            cases h
            have hm : 1 ≤ m := by
              simp only [List.length_append, List.length_replicate] at hlt
              omega
            obtain ⟨m1, rfl⟩ : ∃ m1, m = m1 + 1 := ⟨m - 1, by omega⟩
            have hset : (a ++ List.replicate (m1 + 1) (none : Option Nat)).set a.length
                (some n.theInstr) = (a ++ [some n.theInstr]) ++ List.replicate m1 none := by
              rw [List.replicate_succ, List.set_append_right _ _ (le_refl _)]
              simp
            rw [hset] at h1
            have hlen : a.length + 1 = (a ++ [some n.theInstr]).length := by simp
            rw [hlen] at h1
            obtain ⟨m', e1, e2⟩ := ih _ _ _ h1
            refine ⟨m', ?_, ?_⟩
            · rw [e1]; simp [chosenPtrs, hc]
            · rw [e2]; simp [chosenPtrs, hc]
        · cases h
      · rename_i hc
        split at h
        · cases h
        · rename_i h1
          cases h
          obtain ⟨m', e1, e2⟩ := ih _ _ _ h1
          exact ⟨m', by rw [e1]; simp [chosenPtrs, hc], by rw [e2]; simp [chosenPtrs, hc]⟩

theorem supPtrs_append (a b : List (Option Nat)) : supPtrs (a ++ b) = supPtrs a ++ supPtrs b := by
  simp [supPtrs]

theorem supPtrs_map_some (l : List Nat) : supPtrs (l.map some) = l := by
  induction l with
  | nil => rfl
  | cons x rest ih => simp [supPtrs] at ih ⊢

/-- After `sendToFinal` and `sendToSU` the functional units hold the unchosen
occupants and the state-update array the chosen ones. -/
theorem sendToSU_split {clock : Int} {s t : State}
    (h : sendToSU clock (sendToFinal s) = .ok t) :
    fuAll t = idleAll s ∧ supPtrs t.sup = chosenAll s := by
  unfold sendToSU at h
  split at h
  · cases h
  · rename_i k0 h0 u0 i0 e0
    split at h
    · cases h
    · rename_i k1 h1 u1 i1 e1
      split at h
      · cases h
      · rename_i k2 h2 u2 i2 e2
        cases h
        have hsup : (sendToFinal s).sup = ([] : List (Option Nat)) ++
            List.replicate s.sup.length none := by
          show s.sup.map (fun _ => none) = _
          rw [List.nil_append]
          exact List.map_const' _ _
        have hk : (sendToFinal s).k_0 = s.k_0 ∧ (sendToFinal s).k_1 = s.k_1 ∧
            (sendToFinal s).k_2 = s.k_2 := ⟨rfl, rfl, rfl⟩
        rw [hk.1] at e0
        rw [hk.2.1] at e1
        rw [hk.2.2] at e2
        rw [hsup] at e0
        have l0 := sendToSUPool_left clock _ _ _ _ e0
        have l1 := sendToSUPool_left clock _ _ _ _ e1
        have l2 := sendToSUPool_left clock _ _ _ _ e2
        obtain ⟨m0, a0, b0⟩ := sendToSUPool_filled clock s.k_0 _ [] _ e0
        rw [a0, b0] at e1
        obtain ⟨m1, a1, b1⟩ := sendToSUPool_filled clock s.k_1 _ _ _ e1
        rw [a1, b1] at e2
        obtain ⟨m2, a2, b2⟩ := sendToSUPool_filled clock s.k_2 _ _ _ e2
        refine ⟨?_, ?_⟩
        · show fuPtrs k0 ++ fuPtrs k1 ++ fuPtrs k2 = _
          rw [l0, l1, l2]; rfl
        · show supPtrs u2 = _
          rw [a2]
          simp only [supPtrs_append, supPtrs_map_some, List.nil_append]
          have : supPtrs (List.replicate m2 (none : Option Nat)) = [] :=
            supPtrs_replicate_none m2
          rw [this, List.append_nil]
          rfl

theorem putInFUSlot_perm (n : execute_node) : ∀ (k k' : List (Option execute_node)),
    putInFUSlot n k = some k' → List.Perm (fuPtrs k') (n.theInstr :: fuPtrs k) := by
  intro k
  induction k with
  | nil => intro k' h; cases h
  | cons x rest ih =>
    intro k' h
    cases x with
    | none =>
      rw [putInFUSlot] at h
      cases h
      simp [fuPtrs]
    | some m =>
      rw [putInFUSlot] at h
      split at h
      · cases h
      · rename_i r hr
        cases h
        have := ih _ hr
        have e1 : fuPtrs (some m :: r) = m.theInstr :: fuPtrs r := by simp [fuPtrs]
        have e2 : fuPtrs (some m :: rest) = m.theInstr :: fuPtrs rest := by simp [fuPtrs]
        rw [e1, e2]
        exact (List.Perm.cons _ this).trans (List.Perm.swap _ _ _)

theorem putInFU_perm {p : Nat} {fu clock : Int} {s t : State}
    (h : putInFU p fu clock s = .ok t) : List.Perm (fuAll t) (p :: fuAll s) := by
  unfold putInFU at h
  simp only at h
  unfold fuAll
  split at h
  · split at h
    · rename_i k hk
      cases h
      have := putInFUSlot_perm _ _ _ hk
      show List.Perm (fuPtrs k ++ fuPtrs s.k_1 ++ fuPtrs s.k_2) _
      rw [List.append_assoc, List.append_assoc]
      exact this.append_right _
    · cases h
  · split at h
    · split at h
      · rename_i k hk
        cases h
        have := putInFUSlot_perm _ _ _ hk
        show List.Perm (fuPtrs s.k_0 ++ fuPtrs k ++ fuPtrs s.k_2) _
        rw [List.perm_iff_count]
        intro a
        have c := this.count_eq a
        simp only [List.count_append, List.count_cons] at c ⊢
        omega
      · cases h
    · split at h
      · split at h
        · rename_i k hk
          cases h
          have := putInFUSlot_perm _ _ _ hk
          show List.Perm (fuPtrs s.k_0 ++ fuPtrs s.k_1 ++ fuPtrs k) _
          rw [List.perm_iff_count]
          intro a
          have c := this.count_eq a
          simp only [List.count_append, List.count_cons] at c ⊢
          omega
        · cases h
      · cases h

theorem pendingPtrs_cons (n : schedule_node) (rest : List schedule_node) :
    pendingPtrs (n :: rest) =
      if n.sendToExecute = 1 ∧ n.waiting = 0 then n.theInstr :: pendingPtrs rest
      else pendingPtrs rest := by
  unfold pendingPtrs
  rw [List.filter_cons]
  by_cases h : n.sendToExecute = 1 ∧ n.waiting = 0
  · simp [h]
  · simp [h]

/-- The occupants after `moveToExecute`: those before and the instructions
handed to `putInFU`. -/
theorem moveToExecuteLoop_perm (clock : Int) : ∀ (q : List schedule_node) {s t : State}
    {r : List schedule_node}, moveToExecuteLoop clock q s = .ok (r, t) →
    List.Perm (fuAll t) (pendingPtrs q ++ fuAll s) := by
  intro q
  induction q with
  | nil =>
    intro s t r h; cases h
    simp [pendingPtrs]
  | cons n rest ih =>
    intro s t r h
    rw [moveToExecuteLoop] at h
    rw [pendingPtrs_cons]
    split at h
    · rename_i hc
      rw [if_pos hc]
      split at h
      · cases h
      · rename_i s1 h1
        split at h
        · cases h
        · rename_i r2 s2 h2
          cases h
          have a := putInFU_perm h1
          have b := ih h2
          refine b.trans ?_
          refine (List.Perm.append_left _ a).trans ?_
          exact List.perm_middle
    · rename_i hc
      rw [if_neg hc]
      split at h
      · cases h
      · rename_i r2 s2 h2
        cases h
        exact ih h2

theorem moveToExecute_perm {clock : Int} {s t : State} (h : moveToExecute clock s = .ok t) :
    List.Perm (fuAll t) (pendingPtrs s.schedule_head ++ fuAll s) := by
  unfold moveToExecute at h
  split at h
  · cases h
  · rename_i q s1 h1
    cases h
    show List.Perm (fuAll s1) _
    exact moveToExecuteLoop_perm clock _ h1

/-- The loop of `resolveBranches` writes to no record outside the state-update
array. -/
theorem resolveBranchesLoop_off_sup : ∀ (n : Nat) {s t : State},
    resolveBranchesLoop n s = .ok t → ∀ p, p ∉ supPtrs s.sup → t.heap p = s.heap p := by
  intro n
  induction n with
  | zero => intro s t h p _; cases h; rfl
  | succ n ih =>
    intro s t h p hp
    rw [resolveBranchesLoop] at h
    simp only at h
    split at h
    · cases h
    · split at h
      · rename_i q hq
        have hq1 : q ∈ supPtrs s.sup := mem_supPtrs_of_getElem hq
        have hne : p ≠ q := fun e => hp (e ▸ hq1)
        obtain ⟨g, e1⟩ := updateGSelect_shape (s.heap q).address (s.heap q).taken s
        rw [e1] at h
        obtain ⟨r, e2⟩ := updateGHR_shape (s.heap q).taken { s with GSelect := g }
        simp only at h
        rw [e2] at h
        simp only at h
        split at h
        · split at h
          · have := ih h p hp
            rw [this]
            simp [setInstr, hne]
          · cases h
        · have := ih h p hp
          rw [this]
          simp [setInstr, hne]
      · cases h

theorem resolveBranches_off_sup {s t : State} (h : resolveBranches s = .ok t) :
    ∀ p, p ∉ supPtrs s.sup → t.heap p = s.heap p := by
  unfold resolveBranches at h
  split at h
  · cases h
  · exact resolveBranchesLoop_off_sup _ h

/-- The records `main` creates in an iteration: not predicted, and unresolved
exactly when they are branches. -/
theorem readTrace_new : ∀ (f : Nat) (s : State) (x : Nat), s.nalloc ≤ x →
    x < (readTrace f s).nalloc →
    ((readTrace f s).heap x).correct_pred = -1 ∧ ((readTrace f s).heap x).resolved ≠ 1 ∧
      (((readTrace f s).heap x).resolved = 0 → ((readTrace f s).heap x).branch = 1) ∧
      (((readTrace f s).heap x).branch = 1 → ((readTrace f s).heap x).resolved = 0) := by
  intro f
  induction f with
  | zero => intro s x h1 h2; simp only [readTrace] at h2; omega
  | succ f ih =>
    intro s x h1
    rw [readTrace]
    split
    · exact ih s x h1
    · exact ih _ x h1
    · rename_i address fu dest s1 s2 rest ht
      intro h2
      by_cases hx : x = s.nalloc
      · obtain ⟨k, c, -, -, -, -, -, -, -, -, r9, -⟩ := readTrace_effect f
          (addToFetchQueue (createInstruction address fu dest s1 s2 (-5) (-5) s.tag s.clock
            0 (-1) (-1) (-1)) { s with trace := rest })
        rw [r9 x (by subst hx; show s.nalloc < s.nalloc + 1; omega)]
        subst hx
        simp [addToFetchQueue, setInstr, createInstruction]
      · exact ih _ x (by show s.nalloc + 1 ≤ x; omega) h2
    · rename_i address fu dest s1 s2 taken rest ht
      intro h2
      by_cases hx : x = s.nalloc
      · obtain ⟨k, c, -, -, -, -, -, -, -, -, r9, -⟩ := readTrace_effect f
          (addToFetchQueue (createInstruction address fu dest s1 s2 (-5) (-5) s.tag s.clock
            1 taken (-1) 0) { s with trace := rest })
        rw [r9 x (by subst hx; show s.nalloc < s.nalloc + 1; omega)]
        subst hx
        simp [addToFetchQueue, setInstr, createInstruction]
      · exact ih _ x (by show s.nalloc + 1 ≤ x; omega) h2

theorem AccInv_inFlight_nodup {s : State} (hi : AccInv true s) : (inFlight true s).Nodup := by
  obtain ⟨-, -, hp⟩ := hi
  have hnd : (s.final_head.map (·.dest_tag) ++
      (inFlight true s).map (fun p : Nat => (p : Int))).Nodup :=
    (List.Perm.nodup_iff hp).2 ((List.nodup_range _).map cast_injective)
  exact List.Nodup.of_map _ (List.nodup_append.1 hnd).2.1

theorem AccInv_sched_not_sup {s : State} (hi : AccInv true s) :
    ∀ p ∈ s.schedule_head.map (·.theInstr), p ∉ supPtrs s.sup := by
  have h := AccInv_inFlight_nodup hi
  unfold inFlight at h
  simp only [if_true] at h
  have h1 := (List.nodup_append.1 (List.nodup_append.1 h).1).2.2
  intro p hp hs
  exact h1 hs hp

theorem pendingPtrs_nodup {q : List schedule_node} (h : (q.map (·.theInstr)).Nodup) :
    (pendingPtrs q).Nodup := by
  unfold pendingPtrs
  exact h.sublist ((List.filter_sublist _).map _)

theorem pending_not_fu {s : State} (hw : WaitInv s) :
    ∀ p ∈ pendingPtrs s.schedule_head, p ∉ fuAll s := by
  intro p hp hf
  obtain ⟨n, hn, ⟨-, h0⟩, e⟩ := mem_pendingPtrs.1 hp
  have := hw n hn (by rw [e]; exact hf)
  rw [this] at h0
  exact absurd h0 (by decide)

theorem chosenAll_fu {s : State} {p : Nat} (h : p ∈ chosenAll s) : p ∈ fuAll s :=
  (fuAll_perm s).symm.subset (List.mem_append_right _ h)

/-- What an iteration does to the pools and to the `resolved` flags. -/
theorem cycle_pools {s t : State} (h : cycle s = .ok t) :
    List.Perm (fuAll t) (pendingPtrs s.schedule_head ++ idleAll s) ∧
    supPtrs t.sup = chosenAll s ∧
    (∀ p, p < s.nalloc → p ∉ chosenAll s → (t.heap p).resolved = (s.heap p).resolved) ∧
    (∀ p, s.nalloc ≤ p → p < t.nalloc → (t.heap p).resolved ≠ 1) ∧
    (∀ p ∈ t.schedule_head.map (·.theInstr),
      p ∈ s.schedule_head.map (·.theInstr) ∨ p ∈ s.dispatch_head.map (·.theInstr)) ∧
    (∀ p ∈ frontPtrs t, p ∈ frontPtrs s ∨ (s.nalloc ≤ p ∧ p < t.nalloc)) := by
  obtain ⟨s2, s3, s5, s6, u, h2, h3, h5, h6, hs, hq, rfl⟩ := cycle_anatomy h
  obtain ⟨s4, h4, h5'⟩ := midCalls_ok h5
  obtain ⟨f2, u2⟩ := sendToSU_split h2
  obtain ⟨k2, -, -, -, -, -, -, n2, fq2, -, -⟩ := sendToSU_settled h2
  have e2 : s2.schedule_head = s.schedule_head ∧ s2.dispatch_head = s.dispatch_head := by
    obtain ⟨_, _, _, _, _, rfl⟩ := sendToSU_shape h2; exact ⟨rfl, rfl⟩
  obtain ⟨-, fq3, -, n3, sup3, d3, q3, k30, k31, k32, -⟩ := resolveBranches_fields h3
  have hoff := resolveBranches_off_sup h3
  have p4 := moveToExecute_perm h4
  have f5 : fuAll s5 = fuAll s4 := by
    obtain ⟨_, _, _, _, rfl⟩ := dispatchToSchedule_shape h5'; rfl
  obtain ⟨⟨k5, -, -, -, -, -, -, n5, fq5, -, -⟩, sup5, -, dsub5, qsub5, -⟩ := midCalls_facts h5
  obtain ⟨moved, m1, m2, m3, -, -, -⟩ := dispatch_EnqueueLoop_effect _ _ h6
  have e6 : s6.nalloc = s5.nalloc ∧ fuAll s6 = fuAll s5 ∧ s6.schedule_head = s5.schedule_head ∧
      s6.sup = s5.sup := by
    obtain ⟨_, _, _, _, _, rfl⟩ := dispatch_Enqueue_shape h6; exact ⟨rfl, rfl, rfl, rfl⟩
  obtain ⟨k, a1, a2, a3, -, -, -, -, -, a9, a10, a11, a12, a13, a14, -⟩ :=
    after_enqueue s6.curr_Config.fetch_rate hs hq
  obtain ⟨ku, -, -, -, -, -, -, nu, -, -, -⟩ := hs
  have hn6 : s6.nalloc = s.nalloc := by rw [e6.1, n5, n3, n2]; rfl
  have hfu : fuAll u = fuAll s4 := by
    have : fuAll u = fuAll s6 := by unfold fuAll; rw [a11, a12, a13]
    rw [this, e6.2.1, f5]
  have hf3 : fuAll s3 = idleAll s := by
    have : fuAll s3 = fuAll s2 := by unfold fuAll; rw [k30, k31, k32]
    rw [this, f2]
  have hsup : u.sup = s2.sup := by rw [a14, e6.2.2.2, sup5, sup3]
  refine ⟨?_, ?_, ?_, ?_, ?_, ?_⟩
  · show List.Perm (fuAll u) _
    rw [hfu]
    rw [q3, e2.1, hf3] at p4
    exact p4
  · show supPtrs u.sup = _
    rw [hsup, u2]
  · intro p hp hc
    show (u.heap p).resolved = _
    have b1 := (a3 p (by rw [hn6]; exact hp)).1.2.2.2.2.2.2.1
    have b2 : (s6.heap p).resolved = (s5.heap p).resolved := by
      rcases m3 p with e | ⟨cp, e⟩ <;> rw [e]
    have b3 := (k5 p).2.2.2.2.2.2.1
    have b4 : s3.heap p = s2.heap p := hoff p (by rw [u2]; exact hc)
    have b5 := (k2 p).2.2.2.2.2.2.1
    rw [b1, b2, b3, b4, b5]
    rfl
  · intro p hp1 hp2
    show (u.heap p).resolved ≠ 1
    have hp3 : p < (readTrace s6.curr_Config.fetch_rate s6).nalloc := by
      rw [← nu]; exact hp2
    have := readTrace_new s6.curr_Config.fetch_rate s6 p (by rw [hn6]; exact hp1) hp3
    rw [(ku p).2.2.2.2.2.2.1]
    exact this.2.1
  · intro p hp
    show p ∈ _ ∨ p ∈ _
    have h1 := a10 p hp
    rw [e6.2.2.1] at h1
    have h2 := qsub5 p h1
    rw [q3, d3, e2.1, e2.2] at h2
    exact h2
  · intro p hp
    unfold frontPtrs at hp ⊢
    rw [List.mem_append] at hp
    rw [List.mem_append]
    rcases hp with hp | hp
    · rw [a9, m2, List.map_append, List.mem_append] at hp
      rcases hp with hp | hp
      · have := dsub5 p hp
        rw [d3, e2.2] at this
        exact Or.inl (Or.inl this)
      · left; right
        rw [List.map_map] at hp
        obtain ⟨x, hx, rfl⟩ := List.mem_map.1 hp
        have : x ∈ s5.fetchQueue := by rw [m1]; exact List.mem_append_left _ hx
        rw [fq5, fq3, fq2] at this
        exact this
    · rw [a1, List.mem_append] at hp
      rcases hp with hp | hp
      · left; right
        have : p ∈ s5.fetchQueue := by rw [m1]; exact List.mem_append_right _ hp
        rw [fq5, fq3, fq2] at this
        exact this
      · right
        rw [List.mem_range'_1] at hp
        rw [a2]
        omega

theorem idle_not_chosen {s : State} (hG : (fuAll s).Nodup) :
    ∀ p ∈ idleAll s, p ∉ chosenAll s := by
  have h := (fuAll_perm s).nodup_iff.1 hG
  intro p hp hc
  exact (List.nodup_append.1 h).2.2 hp hc

theorem PoolInv_cycle {s t : State} (hi : PoolInv s) (hw : WaitInv s) (htg : TagInv s)
    (hst : StampInv (s.clock - 1) s) (h : cycle s = .ok t) : PoolInv t := by
  obtain ⟨hG, hK⟩ := hi
  have htg1 := TagInv_cycle htg h
  obtain ⟨c1, c2, c3, c4, c5, c6⟩ := cycle_pools h
  obtain ⟨-, f2, f3, f4, -⟩ := hst
  have hidle := (List.nodup_append.1 ((fuAll_perm s).nodup_iff.1 hG)).1
  have hpend := pendingPtrs_nodup (AccInv_sched_nodup htg.1)
  have hold : ∀ p, p ∈ fuAll s ++ s.schedule_head.map (·.theInstr) ++ frontPtrs s →
      p ∉ chosenAll s → (t.heap p).resolved ≠ 1 := by
    intro p hp hc
    have hlt : p < s.nalloc := by
      simp only [List.mem_append] at hp
      rcases hp with (hp | hp) | hp
      · exact f4 p (mem_backPtrs.2 (Or.inr (Or.inl hp)))
      · exact f4 p (mem_backPtrs.2 (Or.inl hp))
      · exact f3 p hp
    rw [c3 p hlt hc]
    exact hK p hp
  refine ⟨?_, ?_⟩
  · rw [c1.nodup_iff, List.nodup_append]
    refine ⟨hpend, hidle, ?_⟩
    intro p hp hq
    exact pending_not_fu hw p hp (idleAll_fu hq)
  · intro p hp
    simp only [List.mem_append] at hp
    rcases hp with (hp | hp) | hp
    · rcases List.mem_append.1 (c1.subset hp) with hq | hq
      · have hs : p ∈ s.schedule_head.map (·.theInstr) := by
          obtain ⟨n, hn, -, e⟩ := mem_pendingPtrs.1 hq
          exact List.mem_map.2 ⟨n, hn, e⟩
        exact hold p (List.mem_append_left _ (List.mem_append_right _ hs))
          (fun hc => pending_not_fu hw p hq (chosenAll_fu hc))
      · exact hold p (List.mem_append_left _ (List.mem_append_left _ (idleAll_fu hq)))
          (idle_not_chosen hG p hq)
    · have hns : p ∉ chosenAll s := by
        rw [← c2]; exact AccInv_sched_not_sup htg1.1 p hp
      rcases c5 p hp with hq | hq
      · exact hold p (List.mem_append_left _ (List.mem_append_right _ hq)) hns
      · exact hold p (List.mem_append_right _ (List.mem_append_left _ hq)) hns
    · rcases c6 p hp with hq | ⟨hq1, hq2⟩
      · exact hold p (List.mem_append_right _ hq)
          (fun hc => f2 p (chosenAll_back hc) hq)
      · exact c4 p hq1 hq2

theorem PoolInv_init (numRegs k0 k1 k2 R F : Nat) (trace : List TraceLine) :
    PoolInv (proc_init numRegs k0 k1 k2 R F trace) := by
  have e : fuAll (proc_init numRegs k0 k1 k2 R F trace) = [] := by
    show fuPtrs (List.replicate k0 none) ++ fuPtrs (List.replicate k1 none) ++
      fuPtrs (List.replicate k2 none) = []
    rw [fuPtrs_replicate_none, fuPtrs_replicate_none, fuPtrs_replicate_none]
    rfl
  refine ⟨by rw [e]; exact List.nodup_nil, ?_⟩
  intro p hp
  rw [e] at hp
  simp [proc_init, frontPtrs] at hp

theorem PoolInv_reachable (numRegs k0 k1 k2 R F : Nat) (trace : List TraceLine) {s : State}
    (h : Reachable (proc_init numRegs k0 k1 k2 R F trace) s) : PoolInv s := by
  induction h with
  | init => exact PoolInv_init numRegs k0 k1 k2 R F trace
  | step hr _ hc ih =>
    exact PoolInv_cycle ih (WaitInv_reachable numRegs k0 k1 k2 R F trace hr)
      (TagInv_reachable (TagInv_init numRegs k0 k1 k2 R F trace) hr)
      (StampInv_reachable (StampInv_init numRegs k0 k1 k2 R F trace _) hr) hc

/-! ## The dispatch lock -/

theorem StallCore_settled {a b : State} (hs : Settled a b) (hi : StallCore a) : StallCore b := by
  obtain ⟨hk, st, -, -, -, -, -, na, fq, -, -⟩ := hs
  obtain ⟨i1, i2, i3, i4, i5, i6, i7, i8, i9⟩ := hi
  have hb : ∀ p, (b.heap p).branch = (a.heap p).branch := fun p => (hk p).2.1
  have hc : ∀ p, (b.heap p).correct_pred = (a.heap p).correct_pred := fun p => (hk p).2.2.2.1
  have hr : ∀ p, (b.heap p).resolved = (a.heap p).resolved := fun p => (hk p).2.2.2.2.2.2.1
  have hm : ∀ p, Misled b p ↔ Misled a p := by
    intro p; unfold Misled; rw [hc, hr]
  refine ⟨?_, by rw [fq]; exact i2, ?_, ?_, ?_, ?_, by rw [st]; exact i7,
    fun p hp h0 => by rw [na] at hp; rw [hc] at h0; rw [hb]; exact i8 p hp h0,
    fun p hp h0 => by rw [na] at hp; rw [hb] at h0; rw [hr]; exact i9 p hp h0⟩
  · intro p hp h0
    rw [na] at hp
    rw [hr] at h0
    rw [hb]
    exact i1 p hp h0
  · intro p hp
    rw [fq] at hp
    rw [na, hc, hb, hr]
    exact i3 p hp
  · intro p hp h0
    rw [na] at hp
    rw [st]
    exact i4 p hp ((hm p).1 h0)
  · intro p q hp hq h1 h2
    rw [na] at hp hq
    exact i5 p q hp hq ((hm p).1 h1) ((hm q).1 h2)
  · intro h1
    rw [st] at h1
    obtain ⟨p, hp, hmp⟩ := i6 h1
    exact ⟨p, by rw [na]; exact hp, (hm p).2 hmp⟩

theorem StallCore_init (numRegs k0 k1 k2 R F : Nat) (trace : List TraceLine) :
    StallCore (proc_init numRegs k0 k1 k2 R F trace) := by
  refine ⟨fun p hp => absurd hp (Nat.not_lt_zero p), List.nodup_nil,
    fun p hp => absurd hp (List.not_mem_nil p), fun p hp => absurd hp (Nat.not_lt_zero p),
    fun p q hp => absurd hp (Nat.not_lt_zero p), ?_, Or.inl rfl,
    fun p hp => absurd hp (Nat.not_lt_zero p), fun p hp => absurd hp (Nat.not_lt_zero p)⟩
  intro h
  exact absurd (show (0 : Int) = 1 from h) (by decide)

/-- One admission by `dispatch_Enqueue` keeps the invariant of the lock. -/
theorem StallCore_admission {s : State} {p : Nat} {rest : List Nat} {i1 : instr} {st : stats}
    {c : Int} {d : List dispatch_node} {sd : Int} (hi : StallCore s)
    (hf : s.fetchQueue = p :: rest) (h0 : s.stallDispatch = 0)
    (hpb : predictBranch { s.heap p with disp := c } s = .ok (i1, st))
    (hbr : i1.correct_pred = 0 → i1.branch = 1)
    (hsd : sd = if i1.correct_pred = 0 then 1 else 0) :
    StallCore { s with heap := setInstr s.heap p i1, myStats := st, stallDispatch := sd,
                       dispatch_head := d, fetchQueue := rest } := by
  subst hsd
  obtain ⟨j1, j2, j3, j4, j5, j6, j7, j8, j9⟩ := hi
  obtain ⟨cp, e⟩ := predictBranch_instr hpb
  have hp : p ∈ s.fetchQueue := by rw [hf]; exact List.mem_cons_self _ _
  obtain ⟨plt, pcp, pbr⟩ := j3 p hp
  have hnone : ∀ q, q < s.nalloc → ¬ Misled s q := by
    intro q hq hm
    have := j4 q hq hm
    rw [h0] at this
    exact absurd this (by decide)
  rw [hf] at j2
  have hnp : p ∉ rest := (List.nodup_cons.1 j2).1
  have hsame : ∀ q, q ≠ p → setInstr s.heap p i1 q = s.heap q := by
    intro q hq; simp [setInstr, hq]
  have hself : setInstr s.heap p i1 p = i1 := by simp [setInstr]
  have e1 : i1.branch = (s.heap p).branch := by rw [e]
  have e2 : i1.resolved = (s.heap p).resolved := by rw [e]
  have hmis : ∀ q, q < s.nalloc →
      Misled { s with heap := setInstr s.heap p i1, myStats := st,
                      stallDispatch := if i1.correct_pred = 0 then 1 else 0,
                      dispatch_head := d, fetchQueue := rest } q →
      q = p ∧ i1.correct_pred = 0 := by
    intro q hq hm
    by_cases hqp : q = p
    · subst hqp
      have := hm.1
      simp only [hself] at this
      exact ⟨rfl, this⟩
    · exfalso
      apply hnone q hq
      unfold Misled at hm ⊢
      simp only [hsame q hqp] at hm
      exact hm
  refine ⟨?_, (List.nodup_cons.1 j2).2, ?_, ?_, ?_, ?_, ?_, ?_, ?_⟩
  · intro q hq hr
    show (setInstr s.heap p i1 q).branch = 1
    have hr1 : (setInstr s.heap p i1 q).resolved = 0 := hr
    by_cases hqp : q = p
    · subst hqp
      rw [hself] at hr1 ⊢
      rw [e1]
      rw [e2] at hr1
      exact j1 q hq hr1
    · rw [hsame q hqp] at hr1 ⊢
      exact j1 q hq hr1
  · intro q hq
    have hqp : q ≠ p := fun e => hnp (e ▸ hq)
    show q < s.nalloc ∧ (setInstr s.heap p i1 q).correct_pred = -1 ∧
      ((setInstr s.heap p i1 q).branch = 1 → (setInstr s.heap p i1 q).resolved = 0)
    rw [hsame q hqp]
    exact j3 q (by rw [hf]; exact List.mem_cons_of_mem _ hq)
  · intro q hq hm
    show (if i1.correct_pred = 0 then (1 : Int) else 0) = 1
    rw [if_pos (hmis q hq hm).2]
  · intro a b ha hb hma hmb
    rw [(hmis a ha hma).1, (hmis b hb hmb).1]
  · intro h1
    have h2 : (if i1.correct_pred = 0 then (1 : Int) else 0) = 1 := h1
    have hc0 : i1.correct_pred = 0 := by
      by_contra hn
      rw [if_neg hn] at h2
      exact absurd h2 (by decide)
    refine ⟨p, plt, ?_, ?_⟩
    · show (setInstr s.heap p i1 p).correct_pred = 0
      rw [hself]; exact hc0
    · show (setInstr s.heap p i1 p).resolved = 0
      rw [hself, e2]
      exact pbr (by rw [← e1]; exact hbr hc0)
  · show (if i1.correct_pred = 0 then (1 : Int) else 0) = 0 ∨
      (if i1.correct_pred = 0 then (1 : Int) else 0) = 1
    by_cases hc0 : i1.correct_pred = 0
    · rw [if_pos hc0]; exact Or.inr rfl
    · rw [if_neg hc0]; exact Or.inl rfl
  · intro q hq hc0
    show (setInstr s.heap p i1 q).branch = 1
    have hc1 : (setInstr s.heap p i1 q).correct_pred = 0 := hc0
    by_cases hqp : q = p
    · subst hqp
      rw [hself] at hc1 ⊢
      exact hbr hc1
    · rw [hsame q hqp] at hc1 ⊢
      exact j8 q hq hc1
  · intro q hq hb1
    show (setInstr s.heap p i1 q).resolved = 0 ∨ (setInstr s.heap p i1 q).resolved = 1
    have hb2 : (setInstr s.heap p i1 q).branch = 1 := hb1
    by_cases hqp : q = p
    · subst hqp
      rw [hself] at hb2 ⊢
      rw [e2]
      rw [e1] at hb2
      exact j9 q hq hb2
    · rw [hsame q hqp] at hb2 ⊢
      exact j9 q hq hb2

theorem StallCore_dispatch (c : Int) : ∀ (n : Nat) {s t : State}, StallCore s →
    dispatch_EnqueueLoop c n s = .ok t → StallCore t := by
  intro n
  induction n with
  | zero => intro s t hi h; cases h; exact hi
  | succ n ih =>
    intro s t hi h
    rw [dispatch_EnqueueLoop] at h
    split at h
    · cases h; exact hi
    · rename_i p rest hf
      split at h
      · rename_i h0
        split at h
        · cases h
        · rename_i i1 st hpb
          split at h
          · rename_i hc0
            split at h
            · rename_i hb1
              exact ih (StallCore_admission hi hf h0 hpb (fun _ => hb1) (by rw [if_pos hc0])) h
            · cases h
          · rename_i hc0
            exact ih (StallCore_admission hi hf h0 hpb (fun hx => absurd hx hc0)
              (by rw [if_neg hc0]; exact h0)) h
      · cases h; exact hi

theorem StallCore_readTrace (f : Nat) {s : State} (hi : StallCore s) :
    StallCore (readTrace f s) := by
  obtain ⟨j1, j2, j3, j4, j5, j6, j7, j8, j9⟩ := hi
  obtain ⟨k, c, r1, r2, -, -, -, -, -, -, r9, -⟩ := readTrace_effect f s
  obtain ⟨w1, -⟩ := readTrace_frame f s
  have hnew := readTrace_new f s
  have hmis : ∀ p, p < (readTrace f s).nalloc → Misled (readTrace f s) p →
      p < s.nalloc ∧ Misled s p := by
    intro p hp hm
    by_cases hlt : p < s.nalloc
    · refine ⟨hlt, ?_⟩
      unfold Misled at hm ⊢
      rw [r9 p hlt] at hm
      exact hm
    · exfalso
      have := (hnew p (by omega) hp).1
      rw [hm.1] at this
      exact absurd this (by decide)
  refine ⟨?_, ?_, ?_, ?_, ?_, ?_, by rw [w1]; exact j7, ?_, ?_⟩
  · intro p hp h0
    by_cases hlt : p < s.nalloc
    · rw [r9 p hlt] at h0 ⊢
      exact j1 p hlt h0
    · exact (hnew p (by omega) hp).2.2.1 h0
  · rw [r2, List.nodup_append]
    refine ⟨j2, List.nodup_range' _ _, ?_⟩
    intro p hp hq
    have := (j3 p hp).1
    rw [List.mem_range'_1] at hq
    omega
  · intro p hp
    rw [r2, List.mem_append] at hp
    rcases hp with hp | hp
    · obtain ⟨a, b, c1⟩ := j3 p hp
      rw [r9 p a]
      exact ⟨by rw [r1]; omega, b, c1⟩
    · rw [List.mem_range'_1] at hp
      have hlt : p < (readTrace f s).nalloc := by rw [r1]; omega
      obtain ⟨a, -, -, d⟩ := hnew p hp.1 hlt
      exact ⟨hlt, a, d⟩
  · intro p hp hm
    rw [w1]
    obtain ⟨a, b⟩ := hmis p hp hm
    exact j4 p a b
  · intro p q hp hq hmp hmq
    obtain ⟨a, b⟩ := hmis p hp hmp
    obtain ⟨a1, b1⟩ := hmis q hq hmq
    exact j5 p q a a1 b b1
  · intro h1
    rw [w1] at h1
    obtain ⟨p, hp, hm⟩ := j6 h1
    refine ⟨p, by rw [r1]; omega, ?_⟩
    unfold Misled at hm ⊢
    rw [r9 p hp]
    exact hm
  · intro p hp h0
    by_cases hlt : p < s.nalloc
    · rw [r9 p hlt] at h0 ⊢
      exact j8 p hlt h0
    · have := (hnew p (by omega) hp).1
      rw [h0] at this
      exact absurd this (by decide)
  · intro p hp h0
    by_cases hlt : p < s.nalloc
    · rw [r9 p hlt] at h0 ⊢
      exact j9 p hlt h0
    · exact Or.inl ((hnew p (by omega) hp).2.2.2 h0)

/-- The turn of the loop of `resolveBranches` that finds slot `j` with
occupant `p`. -/
theorem resolveBranchesLoop_at {s : State} {j p : Nat}
    (hj : getMinTagIndex (getMinExecCycle s) s = (j : Int)) (hs : s.sup[j]? = some (some p)) :
    ∀ n, resolveBranchesLoop (n + 1) s =
      if (s.heap p).correct_pred = 0 ∧ s.stallDispatch ≠ 1 then .error Fault.assertStall
      else resolveBranchesLoop n (resolveTurn s p) := by
  intro n
  rw [resolveBranchesLoop]
  simp only [hj, Int.toNat_ofNat, hs]
  rw [if_neg (by omega)]
  obtain ⟨g, e1⟩ := updateGSelect_shape (s.heap p).address (s.heap p).taken s
  have e1h : (updateGSelect (s.heap p).address (s.heap p).taken s).heap = s.heap := by rw [e1]
  obtain ⟨g2, r2, e2⟩ := resolveOne_fields s.heap s p
  have e3 : updateGHR ((updateGSelect (s.heap p).address (s.heap p).taken s).heap p).taken
      (updateGSelect (s.heap p).address (s.heap p).taken s) = resolveOne s.heap s p := by
    rw [e1h]; rfl
  rw [e3]
  have e4 : (resolveOne s.heap s p).heap = s.heap := by rw [e2]
  have e5 : (resolveOne s.heap s p).stallDispatch = s.stallDispatch := by rw [e2]
  rw [e4, e5]
  by_cases hc : (s.heap p).correct_pred = 0
  · rw [if_pos hc]
    by_cases hst : s.stallDispatch = 1
    · rw [if_pos hst, if_neg (fun h => h.2 hst)]
      unfold resolveTurn
      rw [if_pos hc]
    · rw [if_neg hst, if_pos ⟨hc, hst⟩]
  · rw [if_neg hc, if_neg (fun h => hc h.1)]
    unfold resolveTurn
    rw [if_neg hc]

/-- A turn of the loop that does not abort resolved an unresolved occupant. -/
theorem resolveBranchesLoop_took {s t : State} {n : Nat}
    (h : resolveBranchesLoop (n + 1) s = .ok t) :
    ∃ p, p ∈ unresolvedPtrs s.heap s.sup ∧
      ¬ ((s.heap p).correct_pred = 0 ∧ s.stallDispatch ≠ 1) ∧
      resolveBranchesLoop n (resolveTurn s p) = .ok t := by
  rcases getMinTagIndexLoop_spec s.heap (getMinExecCycle s) s.sup 0 INT_MAX (-1) with
    ⟨h1, -⟩ | ⟨j, p, h1, h2, h3, -⟩
  · exfalso
    rw [resolveBranchesLoop] at h
    have : getMinTagIndex (getMinExecCycle s) s = -1 := h1
    simp only [this] at h
    rw [if_pos (by decide)] at h
    cases h
  · have hj : getMinTagIndex (getMinExecCycle s) s = (j : Int) := by
      unfold getMinTagIndex
      rw [h2, Int.zero_add]
    rw [resolveBranchesLoop_at hj h1 n] at h
    split at h
    · cases h
    · rename_i hno
      exact ⟨p, mem_unresolvedPtrs.2 ⟨mem_supPtrs_of_getElem h1, h3⟩, hno, h⟩

/-- A run of the loop of `resolveBranches`, one turn per unresolved occupant,
that does not abort: every unresolved occupant is resolved and nothing else in
the heap changes; a mispredicted one releases the dispatch lock, and without
one the lock is as before. -/
theorem resolveBranchesLoop_done : ∀ (n : Nat) (s t : State),
    (unresolvedPtrs s.heap s.sup).Nodup → (unresolvedPtrs s.heap s.sup).length = n →
    resolveBranchesLoop n s = .ok t →
    t.sup = s.sup ∧ (∀ q, q ∉ unresolvedPtrs s.heap s.sup → t.heap q = s.heap q) ∧
      (∀ q ∈ unresolvedPtrs s.heap s.sup, t.heap q = { s.heap q with resolved := 1 }) ∧
      ((∃ q ∈ unresolvedPtrs s.heap s.sup, (s.heap q).correct_pred = 0) →
        t.stallDispatch = 0) ∧
      ((∀ q ∈ unresolvedPtrs s.heap s.sup, (s.heap q).correct_pred ≠ 0) →
        t.stallDispatch = s.stallDispatch) := by
  intro n
  induction n with
  | zero =>
    intro s t _ hl h
    cases h
    have hnil : unresolvedPtrs s.heap s.sup = [] := List.length_eq_zero.1 hl
    rw [hnil]
    exact ⟨rfl, fun _ _ => rfl, fun q hq => absurd hq (List.not_mem_nil q),
      fun ⟨q, hq, _⟩ => absurd hq (List.not_mem_nil q), fun _ => rfl⟩
  | succ n ih =>
    intro s t hnd hl h
    obtain ⟨p, hp, hno, h1⟩ := resolveBranchesLoop_took h
    have hU := unresolvedPtrs_resolved s.heap s.sup p
    have hperm := perm_cons_filter_ne hnd hp
    have hl1 : (unresolvedPtrs (resolveTurn s p).heap (resolveTurn s p).sup).length = n := by
      rw [resolveTurn_sup, resolveTurn_heap, hU]
      have := hperm.length_eq
      rw [List.length_cons, hl] at this
      omega
    have hnd1 : (unresolvedPtrs (resolveTurn s p).heap (resolveTurn s p).sup).Nodup := by
      rw [resolveTurn_sup, resolveTurn_heap, hU]
      exact hnd.filter _
    obtain ⟨c5, c6, c7, c8, c9⟩ := ih _ t hnd1 hl1 h1
    rw [resolveTurn_sup, resolveTurn_heap, hU] at c6 c7 c8 c9
    refine ⟨by rw [c5, resolveTurn_sup], ?_, ?_, ?_, ?_⟩
    · intro q hq
      have hqp : q ≠ p := fun e => hq (e ▸ hp)
      rw [c6 q (fun hm => hq (List.mem_filter.1 hm).1)]
      simp [setInstr, hqp]
    · intro q hq
      by_cases hqp : q = p
      · subst hqp
        rw [c6 q (fun hm => by simpa using (List.mem_filter.1 hm).2)]
        simp [setInstr]
      · rw [c7 q (List.mem_filter.2 ⟨hq, by simpa using hqp⟩)]
        simp [setInstr, hqp]
    · rintro ⟨q, hq, hc⟩
      by_cases hqp : q = p
      · subst hqp
        have hs0 : (resolveTurn s q).stallDispatch = 0 := by
          unfold resolveTurn
          simp [hc]
        exact resolveBranchesLoop_stall n h1 hs0
      · apply c8
        refine ⟨q, List.mem_filter.2 ⟨hq, by simpa using hqp⟩, ?_⟩
        simp only [setInstr, if_neg hqp]
        exact hc
    · intro hall
      have hs1 : (resolveTurn s p).stallDispatch = s.stallDispatch := by
        unfold resolveTurn
        simp [hall p hp]
      rw [← hs1]
      apply c9
      intro q hq
      have hq1 := List.mem_filter.1 hq
      have hqp : q ≠ p := by simpa using hq1.2
      simp only [setInstr, if_neg hqp]
      exact hall q hq1.1

/-- `resolveBranches` keeps the invariant of the lock, leaves no unresolved
occupant in the state-update array, and releases the lock exactly when an
occupant was a mispredicted unresolved branch. -/
theorem StallCore_resolve {s t : State} (hi : StallCore s) (hnd : (supPtrs s.sup).Nodup)
    (hlt : ∀ p ∈ supPtrs s.sup, p < s.nalloc) (hdis : ∀ q ∈ s.fetchQueue, q ∉ supPtrs s.sup)
    (h : resolveBranches s = .ok t) :
    StallCore t ∧ (∀ p ∈ supPtrs t.sup, (t.heap p).resolved ≠ 0) ∧
      ((∃ q ∈ supPtrs s.sup, Misled s q) → t.stallDispatch = 0) ∧
      ((∀ q ∈ supPtrs s.sup, ¬ Misled s q) → t.stallDispatch = s.stallDispatch) := by
  obtain ⟨j1, j2, j3, j4, j5, j6, j7, j8, j9⟩ := hi
  obtain ⟨hf, fq, -, na, -⟩ := resolveBranches_fields h
  have hU : (unresolvedPtrs s.heap s.sup).Nodup := hnd.filter _
  have hloop : ∃ n, (unresolvedPtrs s.heap s.sup).length = n ∧ resolveBranchesLoop n s = .ok t := by
    unfold resolveBranches at h
    split at h
    · cases h
    · rename_i n hn
      exact ⟨n, findNumUnresolved_length _ _ hn, h⟩
  obtain ⟨n, hl, hloop⟩ := hloop
  obtain ⟨c5, c6, c7, c8, c9⟩ := resolveBranchesLoop_done n s t hU hl hloop
  have hin : ∀ q, q ∈ unresolvedPtrs s.heap s.sup → q ∈ supPtrs s.sup ∧ (s.heap q).resolved = 0 :=
    fun q hq => mem_unresolvedPtrs.1 hq
  have hres1 : ∀ q ∈ unresolvedPtrs s.heap s.sup, (t.heap q).resolved = 1 := by
    intro q hq; rw [c7 q hq]
  have hmis : ∀ q, Misled t q → q ∉ unresolvedPtrs s.heap s.sup ∧ Misled s q := by
    intro q hm
    have hq : q ∉ unresolvedPtrs s.heap s.sup := by
      intro hq
      have := hres1 q hq
      rw [hm.2] at this
      exact absurd this (by decide)
    refine ⟨hq, ?_⟩
    unfold Misled at hm ⊢
    rw [c6 q hq] at hm
    exact hm
  have hnoU : ∀ q, q < s.nalloc → Misled t q →
      ∀ m ∈ unresolvedPtrs s.heap s.sup, (s.heap m).correct_pred ≠ 0 := by
    intro q hq hm m hmU hc
    obtain ⟨a, b⟩ := hmis q hm
    have hm1 := hin m hmU
    have : m = q := j5 m q (hlt m hm1.1) hq ⟨hc, hm1.2⟩ b
    exact a (this ▸ hmU)
  have hst : t.stallDispatch = 0 ∨ t.stallDispatch = s.stallDispatch := by
    by_cases hex : ∃ q ∈ unresolvedPtrs s.heap s.sup, (s.heap q).correct_pred = 0
    · exact Or.inl (c8 hex)
    · push_neg at hex
      exact Or.inr (c9 hex)
  refine ⟨⟨?_, by rw [fq]; exact j2, ?_, ?_, ?_, ?_, ?_, ?_, ?_⟩, ?_, ?_, ?_⟩
  · intro q hq h0
    rw [na] at hq
    rw [(hf q).2.2.2.1]
    apply j1 q hq
    by_cases hqU : q ∈ unresolvedPtrs s.heap s.sup
    · exact (hin q hqU).2
    · rw [c6 q hqU] at h0; exact h0
  · intro q hq
    rw [fq] at hq
    have hqU : q ∉ unresolvedPtrs s.heap s.sup := fun hx => hdis q hq (hin q hx).1
    rw [na, c6 q hqU]
    exact j3 q hq
  · intro q hq hm
    rw [na] at hq
    rw [c9 (hnoU q hq hm)]
    exact j4 q hq (hmis q hm).2
  · intro a b ha hb hma hmb
    rw [na] at ha hb
    exact j5 a b ha hb (hmis a hma).2 (hmis b hmb).2
  · intro h1
    have hno : ∀ m ∈ unresolvedPtrs s.heap s.sup, (s.heap m).correct_pred ≠ 0 := by
      intro m hm hc
      have := c8 ⟨m, hm, hc⟩
      rw [this] at h1
      exact absurd h1 (by decide)
    rw [c9 hno] at h1
    obtain ⟨p, hp, hmp⟩ := j6 h1
    have hpU : p ∉ unresolvedPtrs s.heap s.sup := fun hx => hno p hx hmp.1
    refine ⟨p, by rw [na]; exact hp, ?_⟩
    unfold Misled at hmp ⊢
    rw [c6 p hpU]
    exact hmp
  · rcases hst with e | e
    · exact Or.inl e
    · rw [e]; exact j7
  · intro q hq h0
    rw [na] at hq
    rw [(hf q).2.1] at h0
    rw [(hf q).2.2.2.1]
    exact j8 q hq h0
  · intro q hq hb
    rw [na] at hq
    rw [(hf q).2.2.2.1] at hb
    by_cases hqU : q ∈ unresolvedPtrs s.heap s.sup
    · exact Or.inr (hres1 q hqU)
    · rw [c6 q hqU]; exact j9 q hq hb
  · intro p hp
    rw [c5] at hp
    by_cases hpU : p ∈ unresolvedPtrs s.heap s.sup
    · rw [hres1 p hpU]; decide
    · rw [c6 p hpU]
      intro h0
      exact hpU (mem_unresolvedPtrs.2 ⟨hp, h0⟩)
  · rintro ⟨q, hq, hm⟩
    exact c8 ⟨q, mem_unresolvedPtrs.2 ⟨hq, hm.2⟩, hm.1⟩
  · intro hall
    apply c9
    intro q hq hc
    exact hall q (hin q hq).1 ⟨hc, (hin q hq).2⟩

/-- The state-update array that `resolveBranches` finds in an iteration: the
chosen occupants of the functional units, distinct allocated instructions that
are not in the fetch buffer, none resolved yet, with `exec` stamps up to the
clock. -/
theorem sup_at_resolve {s s2 : State} (hp : PoolInv s) (hst : StampInv (s.clock - 1) s)
    (h2 : sendToSU s.clock (sendToFinal s) = .ok s2) :
    supPtrs s2.sup = chosenAll s ∧ (supPtrs s2.sup).Nodup ∧
    (∀ p ∈ supPtrs s2.sup, p < s2.nalloc) ∧ (∀ q ∈ s2.fetchQueue, q ∉ supPtrs s2.sup) ∧
    (∀ p ∈ supPtrs s2.sup, (s2.heap p).resolved ≠ 1 ∧ (s2.heap p).exec ≤ s.clock) := by
  obtain ⟨hG, hK⟩ := hp
  obtain ⟨-, f2, f3, f4, -, -, -, f8, -, -⟩ := hst
  obtain ⟨-, u2⟩ := sendToSU_split h2
  obtain ⟨k2, -, -, -, -, -, -, n2, fq2, -, -⟩ := sendToSU_settled h2
  have hh := sendToSU_heap h2
  refine ⟨u2, ?_, ?_, ?_, ?_⟩
  · rw [u2]; exact (List.nodup_append.1 ((fuAll_perm s).nodup_iff.1 hG)).2.1
  · intro p hp
    rw [u2] at hp
    rw [n2]
    exact f4 p (chosenAll_back hp)
  · intro q hq hs
    rw [fq2] at hq
    rw [u2] at hs
    exact f2 q (chosenAll_back hs) (List.mem_append_right _ hq)
  · intro p hp
    rw [u2] at hp
    refine ⟨?_, ?_⟩
    · rw [(k2 p).2.2.2.2.2.2.1]
      exact hK p (List.mem_append_left _ (List.mem_append_left _ (chosenAll_fu hp)))
    · have := (f8 p (chosenAll_fu hp)).2.2.2
      rcases hh p with e | e <;> rw [e] <;> exact this

/-- An iteration keeps the invariant of the lock. -/
theorem StallCore_cycle {s t : State} (hi : StallCore s) (hp : PoolInv s)
    (hst : StampInv (s.clock - 1) s) (h : cycle s = .ok t) : StallCore t := by
  obtain ⟨s2, s3, s5, s6, u, h2, h3, h5, h6, hs, hq, rfl⟩ := cycle_anatomy h
  obtain ⟨-, a2, a3, a4, -⟩ := sup_at_resolve hp hst h2
  have i2 : StallCore s2 := StallCore_settled (sendToSU_settled h2) hi
  have i3 : StallCore s3 := (StallCore_resolve i2 a2 a3 a4 h3).1
  have i5 : StallCore s5 := StallCore_settled (midCalls_facts h5).1 i3
  have i6 : StallCore s6 := StallCore_dispatch _ _ i5 h6
  have i7 := StallCore_readTrace s6.curr_Config.fetch_rate i6
  have i8 : StallCore u := StallCore_settled hs i7
  exact i8

theorem StallCore_reachable (numRegs k0 k1 k2 R F : Nat) (trace : List TraceLine) {s : State}
    (h : Reachable (proc_init numRegs k0 k1 k2 R F trace) s) : StallCore s := by
  induction h with
  | init => exact StallCore_init numRegs k0 k1 k2 R F trace
  | step hr _ hc ih =>
    exact StallCore_cycle ih (PoolInv_reachable numRegs k0 k1 k2 R F trace hr)
      (StampInv_reachable (StampInv_init numRegs k0 k1 k2 R F trace _) hr) hc

/-- One turn of the loop of `resolveBranches` leaves one unresolved occupant
less and keeps what the loop relies on. -/
theorem ResolveReady_turn {s : State} {p : Nat} (hr : ResolveReady s)
    (hp : p ∈ unresolvedPtrs s.heap s.sup) :
    ResolveReady (resolveTurn s p) ∧
    (unresolvedPtrs (resolveTurn s p).heap (resolveTurn s p).sup).length + 1 =
      (unresolvedPtrs s.heap s.sup).length ∧
    (∀ q, q ≠ p → (resolveTurn s p).heap q = s.heap q) ∧
    (∀ q ∈ unresolvedPtrs (resolveTurn s p).heap (resolveTurn s p).sup,
      q ∈ unresolvedPtrs s.heap s.sup ∧ q ≠ p) := by
  obtain ⟨hd, hb, hm⟩ := hr
  have hU : unresolvedPtrs (resolveTurn s p).heap (resolveTurn s p).sup =
      (unresolvedPtrs s.heap s.sup).filter (fun q => q != p) := by
    rw [resolveTurn_sup, resolveTurn_heap]
    exact unresolvedPtrs_resolved s.heap s.sup p
  have hsame : ∀ q, q ≠ p → (resolveTurn s p).heap q = s.heap q := by
    intro q hq
    rw [resolveTurn_heap]
    simp [setInstr, hq]
  have hsub : ∀ q ∈ unresolvedPtrs (resolveTurn s p).heap (resolveTurn s p).sup,
      q ∈ unresolvedPtrs s.heap s.sup ∧ q ≠ p := by
    intro q hq
    rw [hU, List.mem_filter] at hq
    exact ⟨hq.1, by simpa using hq.2⟩
  have hst : (resolveTurn s p).stallDispatch =
      if (s.heap p).correct_pred = 0 then 0 else s.stallDispatch := rfl
  refine ⟨⟨SupDistinct_turn hd, ?_, ?_⟩, ?_, hsame, hsub⟩
  · intro q hq
    obtain ⟨h1, h2⟩ := hsub q hq
    rw [hsame q h2]
    exact hb q h1
  · intro q hq hc
    obtain ⟨h1, h2⟩ := hsub q hq
    rw [hsame q h2] at hc
    obtain ⟨m1, m2⟩ := hm q h1 hc
    have hpc : (s.heap p).correct_pred ≠ 0 := fun h0 => h2 (m2 p hp h0).symm
    refine ⟨by rw [hst, if_neg hpc]; exact m1, ?_⟩
    intro r hr hrc
    obtain ⟨r1, r2⟩ := hsub r hr
    rw [hsame r r2] at hrc
    exact m2 r r1 hrc
  · have := (perm_cons_filter_ne hd.1 hp).length_eq
    rw [hU]
    simpa using this

/-- The loop of `resolveBranches` run for `k` turns, `k` up to the number of
unresolved occupants: it returns, and `k` occupants fewer are unresolved. -/
theorem resolveBranchesLoop_steps : ∀ (k : Nat) (s : State), ResolveReady s →
    k ≤ (unresolvedPtrs s.heap s.sup).length →
    ∃ σ, resolveBranchesLoop k s = .ok σ ∧ ResolveReady σ ∧
      (unresolvedPtrs σ.heap σ.sup).length + k = (unresolvedPtrs s.heap s.sup).length ∧
      σ.sup = s.sup ∧ (∀ q, q ∉ unresolvedPtrs s.heap s.sup → σ.heap q = s.heap q) := by
  intro k
  induction k with
  | zero =>
    intro s hr _
    exact ⟨s, rfl, hr, rfl, rfl, fun _ _ => rfl⟩
  | succ k ih =>
    intro s hr hk
    have hne : unresolvedPtrs s.heap s.sup ≠ [] := by
      intro e
      rw [e] at hk
      simp at hk
    obtain ⟨p, hp, -, hstep⟩ := resolveBranchesLoop_turn hr.1 hne
    obtain ⟨r1, r2, r3, r4⟩ := ResolveReady_turn hr hp
    have hno : ¬ ((s.heap p).correct_pred = 0 ∧ s.stallDispatch ≠ 1) :=
      fun hx => hx.2 (hr.2.2 p hp hx.1).1
    obtain ⟨σ, e1, e2, e3, e4, e5⟩ := ih (resolveTurn s p) r1 (by omega)
    refine ⟨σ, ?_, e2, by omega, by rw [e4, resolveTurn_sup], ?_⟩
    · rw [hstep k, if_neg hno]
      exact e1
    · intro q hq
      have hqp : q ≠ p := fun e => hq (e ▸ hp)
      rw [e5 q (fun hx => hq (r4 q hx).1), r3 q hqp]

/-- In a run within the range of an `int`, the state in which `resolveBranches`
is called has what its loop relies on. -/
theorem ResolveReady_at_resolve {s s2 : State} (hi : StallCore s) (hp : PoolInv s)
    (hst : StampInv (s.clock - 1) s) (hacc : AccInv true s)
    (hn : (s.nalloc : Int) ≤ INT_MAX) (hc : s.clock ≤ INT_MAX)
    (h2 : sendToSU s.clock (sendToFinal s) = .ok s2) : ResolveReady s2 := by
  obtain ⟨-, a2, a3, a4, a5⟩ := sup_at_resolve hp hst h2
  obtain ⟨j1, -, -, j4, j5, -, -, -, -⟩ := StallCore_settled (sendToSU_settled h2) hi
  obtain ⟨k2, -, -, -, -, -, -, n2, -, -, -⟩ := sendToSU_settled h2
  have hsup : ∀ p ∈ unresolvedPtrs s2.heap s2.sup, p ∈ supPtrs s2.sup ∧ (s2.heap p).resolved = 0 :=
    fun p hp => mem_unresolvedPtrs.1 hp
  have hlt : ∀ p ∈ unresolvedPtrs s2.heap s2.sup, p < s.nalloc := by
    intro p hp
    have := a3 p (hsup p hp).1
    rw [n2] at this
    exact this
  have htag : ∀ p ∈ unresolvedPtrs s2.heap s2.sup, (s2.heap p).dest_tag = (p : Int) := by
    intro p hp
    rw [(k2 p).2.2.2.2.2.1]
    exact hacc.2.1 p (hlt p hp)
  refine ⟨⟨a2.filter _, ?_, ?_⟩, ?_, ?_⟩
  · intro p hp q hq e
    rw [htag p hp, htag q hq] at e
    exact Int.ofNat_inj.1 e
  · intro p hp
    have h1 := hlt p hp
    have h2 := (a5 p (hsup p hp).1).2
    rw [htag p hp]
    constructor <;> omega
  · intro p hp
    exact j1 p (a3 p (hsup p hp).1) (hsup p hp).2
  · intro p hp hcp
    refine ⟨j4 p (a3 p (hsup p hp).1) ⟨hcp, (hsup p hp).2⟩, ?_⟩
    intro q hq hcq
    exact j5 q p (a3 q (hsup q hq).1) (a3 p (hsup p hp).1) ⟨hcq, (hsup q hq).2⟩
      ⟨hcp, (hsup p hp).2⟩

/-- C18. In a run within the range of an `int` (tags and clock up to `INT_MAX`),
at every call of `resolveBranches` (state `s2`, after `sendToFinal` and
`sendToSU` of the iteration): `findNumUnresolved` returns the number of
unresolved occupants of the state-update array; the loop run for `k` turns, `k`
up to that number, returns with `k` occupants fewer unresolved, and while one is
left `getMinTagIndex` returns the index of a slot that holds an unresolved
branch (never -1); the call returns after that number of turns, the array holds
the same pointers as before, no occupant is left with `resolved = 0`, and the
records of instructions that are not branches are unchanged. -/
theorem resolve_all_unresolved (numRegs k0 k1 k2 R F : Nat) (trace : List TraceLine)
    (s s2 : State) (hr : Reachable (proc_init numRegs k0 k1 k2 R F trace) s)
    (hn : (s.nalloc : Int) ≤ INT_MAX) (hc : s.clock ≤ INT_MAX)
    (h2 : sendToSU s.clock (sendToFinal s) = .ok s2) :
    findNumUnresolved s2.heap s2.sup = .ok (unresolvedPtrs s2.heap s2.sup).length ∧
    (∀ k, k ≤ (unresolvedPtrs s2.heap s2.sup).length →
      ∃ σ, resolveBranchesLoop k s2 = .ok σ ∧
        (unresolvedPtrs σ.heap σ.sup).length + k = (unresolvedPtrs s2.heap s2.sup).length ∧
        (k < (unresolvedPtrs s2.heap s2.sup).length →
          ∃ (j p : Nat), getMinTagIndex (getMinExecCycle σ) σ = (j : Int) ∧
            σ.sup[j]? = some (some p) ∧ (σ.heap p).resolved = 0 ∧ (σ.heap p).branch = 1)) ∧
    ∃ t, resolveBranches s2 = .ok t ∧
      resolveBranchesLoop (unresolvedPtrs s2.heap s2.sup).length s2 = .ok t ∧
      t.sup = s2.sup ∧ (∀ p ∈ supPtrs t.sup, (t.heap p).resolved ≠ 0) ∧
      (∀ p, (s2.heap p).branch ≠ 1 → t.heap p = s2.heap p) := by
  have hrr : ResolveReady s2 :=
    ResolveReady_at_resolve (StallCore_reachable numRegs k0 k1 k2 R F trace hr)
      (PoolInv_reachable numRegs k0 k1 k2 R F trace hr)
      (StampInv_reachable (StampInv_init numRegs k0 k1 k2 R F trace _) hr)
      (TagInv_reachable (TagInv_init numRegs k0 k1 k2 R F trace) hr).1 hn hc h2
  have hfind := findNumUnresolved_ok s2.heap s2.sup hrr.2.1
  refine ⟨hfind, ?_, ?_⟩
  · intro k hk
    obtain ⟨σ, e1, e2, e3, -, -⟩ := resolveBranchesLoop_steps k s2 hrr hk
    refine ⟨σ, e1, e3, ?_⟩
    intro hlt
    have hne : unresolvedPtrs σ.heap σ.sup ≠ [] := by
      intro e
      rw [e] at e3
      simp at e3
      omega
    obtain ⟨j, p, p1, p2, p3, -⟩ := resolve_pick e2.1 hne
    exact ⟨j, p, p1, p2, (mem_unresolvedPtrs.1 p3).2, e2.2.1 p p3⟩
  · obtain ⟨t, e1, -, e3, e4, e5⟩ :=
      resolveBranchesLoop_steps (unresolvedPtrs s2.heap s2.sup).length s2 hrr (Nat.le_refl _)
    have hnil : unresolvedPtrs t.heap t.sup = [] := by
      apply List.eq_nil_of_length_eq_zero
      omega
    refine ⟨t, ?_, e1, e4, ?_, ?_⟩
    · unfold resolveBranches
      rw [hfind]
      exact e1
    · intro p hp h0
      have : p ∈ unresolvedPtrs t.heap t.sup := mem_unresolvedPtrs.2 ⟨hp, h0⟩
      rw [hnil] at this
      exact absurd this (List.not_mem_nil p)
    · intro p hb
      apply e5
      intro hp
      exact hb (hrr.2.1 p hp)

/-- Witness for C18: the call of `resolveBranches` in the iteration of cycle 8 of
the three-branch scenario finds two unresolved branches in the state-update
array. -/
theorem resolve_all_unresolved_witness :
    (unresolvedPtrs gsResolve.heap gsResolve.sup).length = 2 ∧
    findNumUnresolved gsResolve.heap gsResolve.sup =
      .ok (unresolvedPtrs gsResolve.heap gsResolve.sup).length ∧
    ∃ t, resolveBranches gsResolve = .ok t ∧
      resolveBranchesLoop (unresolvedPtrs gsResolve.heap gsResolve.sup).length gsResolve = .ok t ∧
      t.sup = gsResolve.sup ∧ (∀ p ∈ supPtrs t.sup, (t.heap p).resolved ≠ 0) ∧
      (∀ p, (gsResolve.heap p).branch ≠ 1 → t.heap p = gsResolve.heap p) :=
  ⟨by decide!,
    (resolve_all_unresolved 128 3 2 1 2 4 gsTrace (gsState 7) gsResolve
      (gsState_reachable 7 (by rfl)) (by decide!) (by decide!)
      (ok_of_isSome _ (gsState 7) (by decide!))).1,
    (resolve_all_unresolved 128 3 2 1 2 4 gsTrace (gsState 7) gsResolve
      (gsState_reachable 7 (by rfl)) (by decide!) (by decide!)
      (ok_of_isSome _ (gsState 7) (by decide!))).2.2⟩

/-! ## The dispatch lock in the cycle of a resolution -/

theorem lockState_reachable (n : Nat)
    (h : advance n (proc_init 128 3 2 1 2 4 lockTrace) = some (lockState n)) :
    Reachable (proc_init 128 3 2 1 2 4 lockTrace) (lockState n) :=
  advance_reachable n h

/-- C19, as stated, fails: on the trace of two taken branches (default
configuration) the first branch is mispredicted and has its state update in
cycle 5; `resolveBranches` releases the lock in that cycle, `dispatch_Enqueue`
of the same cycle admits the second branch, mispredicts it and takes the lock
again.  When cycle 5 is over (top of the loop with clock 6) the first branch, a
mispredicted branch, occupies slot 0 of the state-update array and
`stallDispatch` is 1. -/
theorem lock_retaken_same_cycle :
    Reachable (proc_init 128 3 2 1 2 4 lockTrace) (lockState 5) ∧
      (lockState 4).clock = 5 ∧ (cycle (lockState 4)).toOption.map (·.clock) = some 6 ∧
      (lockState 5).clock = 6 ∧ (lockState 5).sup = [some 0, none] ∧
      ((lockState 5).heap 0).branch = 1 ∧ ((lockState 5).heap 0).correct_pred = 0 ∧
      ((lockState 5).heap 0).state = 5 ∧ (lockState 5).stallDispatch = 1 ∧
      (lockState 5).stallDispatch ≠ 0 :=
  ⟨lockState_reachable 5 (by rfl), by decide!, by decide!, by decide!, by decide!, by decide!,
    by decide!, by decide!, by decide!, by decide!⟩

/-- C19, amended. In every run, for every iteration that ends with a
mispredicted branch in a state-update slot: `resolveBranches` of that iteration
finds the lock taken and releases it (`stallDispatch` is 0 when it returns); at
the end of the iteration `stallDispatch` is 0 or 1, and it is 1 exactly when
`dispatch_Enqueue` of the same iteration admitted a branch from the fetch buffer
(dispatch stamp of this cycle) and mispredicted it. -/
theorem lock_released_by_resolution (numRegs k0 k1 k2 R F : Nat) (trace : List TraceLine)
    (s t : State) (p : Nat) (hr : Reachable (proc_init numRegs k0 k1 k2 R F trace) s)
    (h : cycle s = .ok t) (hp : p ∈ supPtrs t.sup) (hb : (t.heap p).branch = 1)
    (hm : (t.heap p).correct_pred = 0) :
    (∃ s2 s3, sendToSU s.clock (sendToFinal s) = .ok s2 ∧ resolveBranches s2 = .ok s3 ∧
      s2.stallDispatch = 1 ∧ s3.stallDispatch = 0) ∧
    (t.stallDispatch = 0 ∨ t.stallDispatch = 1) ∧
    (t.stallDispatch = 1 ↔ ∃ q ∈ s.fetchQueue, q ∈ t.dispatch_head.map (·.theInstr) ∧
      (t.heap q).disp = s.clock ∧ (t.heap q).branch = 1 ∧ (t.heap q).correct_pred = 0) := by
  have hI := StallCore_reachable numRegs k0 k1 k2 R F trace hr
  have hP := PoolInv_reachable numRegs k0 k1 k2 R F trace hr
  have hS := StampInv_reachable (StampInv_init numRegs k0 k1 k2 R F trace _) hr
  have hIt := StallCore_cycle hI hP hS h
  have hPt := PoolInv_cycle hP (WaitInv_reachable numRegs k0 k1 k2 R F trace hr)
    (TagInv_reachable (TagInv_init numRegs k0 k1 k2 R F trace) hr) hS h
  have hSt := StampInv_cycle hS h
  obtain ⟨s2, s3, s5, s6, u, h2, h3, h5, h6, hs, hq, rfl⟩ := cycle_anatomy h
  obtain ⟨-, b2, b3, b4, b5⟩ := sup_at_resolve hP hS h2
  obtain ⟨-, -, -, -, -, -, -, -, fq2, -, -⟩ := sendToSU_settled h2
  have i2 : StallCore s2 := StallCore_settled (sendToSU_settled h2) hI
  obtain ⟨i3, -, r3, -⟩ := StallCore_resolve i2 b2 b3 b4 h3
  obtain ⟨hf3, fq3, -, n3, sup3, -⟩ := resolveBranches_fields h3
  obtain ⟨⟨k5, st5, -, -, -, -, -, n5, fq5, -, -⟩, sup5, -⟩ := midCalls_facts h5
  have i5 : StallCore s5 := StallCore_settled (midCalls_facts h5).1 i3
  have i6 : StallCore s6 := StallCore_dispatch _ _ i5 h6
  obtain ⟨moved, m1, m2, m3, m4, m5, -⟩ := dispatch_EnqueueLoop_effect _ _ h6
  have e6 : s6.nalloc = s5.nalloc ∧ s6.sup = s5.sup := by
    obtain ⟨_, _, _, _, _, rfl⟩ := dispatch_Enqueue_shape h6; exact ⟨rfl, rfl⟩
  obtain ⟨k, -, -, a3, a4, -, -, -, -, a9, -, -, -, -, a14, -⟩ :=
    after_enqueue s6.curr_Config.fetch_rate hs hq
  have hsup : u.sup = s2.sup := by rw [a14, e6.2, sup5, sup3]
  have hp2 : p ∈ supPtrs s2.sup := by rw [← hsup]; exact hp
  have hfq5 : s5.fetchQueue = s2.fetchQueue := by rw [fq5, fq3]
  have hn6 : s6.nalloc = s2.nalloc := by rw [e6.1, n5, n3]
  have hmoved : ∀ q ∈ moved, q ∈ s2.fetchQueue := by
    intro q hq
    rw [← hfq5, m1]
    exact List.mem_append_left _ hq
  have hmis : Misled s2 p := by
    have hpm : p ∉ moved := fun hx => b4 p (hmoved p hx) hp2
    have c1 := (a3 p (by rw [hn6]; exact b3 p hp2)).1
    have c2 : s6.heap p = s5.heap p := m5 p hpm
    have hcp : (s2.heap p).correct_pred = 0 := by
      have : (u.heap p).correct_pred = 0 := hm
      rw [c1.2.2.2.1, c2, (k5 p).2.2.2.1, (hf3 p).2.1] at this
      exact this
    have hbr : (s2.heap p).branch = 1 := by
      have : (u.heap p).branch = 1 := hb
      rw [c1.2.1, c2, (k5 p).2.1, (hf3 p).2.2.2.1] at this
      exact this
    rcases i2.2.2.2.2.2.2.2.2 p (b3 p hp2) hbr with e | e
    · exact ⟨hcp, e⟩
    · exact absurd e (b5 p hp2).1
  refine ⟨⟨s2, s3, h2, h3, i2.2.2.2.1 p (b3 p hp2) hmis, r3 ⟨p, hp2, hmis⟩⟩,
    hIt.2.2.2.2.2.2.1, ?_, ?_⟩
  · intro h1
    have h6s : s6.stallDispatch = 1 := by
      have : u.stallDispatch = 1 := h1
      rw [a4] at this
      exact this
    have h3s : s3.stallDispatch = 0 := r3 ⟨p, hp2, hmis⟩
    have h5s : s5.stallDispatch = 0 := by rw [st5]; exact h3s
    rcases dispatch_EnqueueLoop_lock _ _ h6 h5s with e | ⟨q, hq5, hq0⟩
    · rw [e] at h6s
      exact absurd h6s (by decide)
    · have hqm : q ∈ moved := by
        rw [m1, List.mem_append] at hq5
        rcases hq5 with e | e
        · exact e
        · have := (i6.2.2.1 q e).2.1
          rw [hq0] at this
          exact absurd this (by decide)
      have hq6 : q < s6.nalloc := by
        rw [e6.1]
        exact (i5.2.2.1 q hq5).1
      have c1 := (a3 q hq6).1
      refine ⟨q, ?_, ?_, ?_, ?_, ?_⟩
      · have := hmoved q hqm
        rw [fq2] at this
        exact this
      · show q ∈ u.dispatch_head.map (·.theInstr)
        rw [a9, m2, List.map_append, List.mem_append]
        right
        rw [List.map_map]
        exact List.mem_map.2 ⟨q, hqm, rfl⟩
      · show (u.heap q).disp = s.clock
        rw [c1.2.2.2.2.1]
        exact m4 q hqm
      · show (u.heap q).branch = 1
        rw [c1.2.1]
        exact i6.2.2.2.2.2.2.2.1 q hq6 hq0
      · show (u.heap q).correct_pred = 0
        rw [c1.2.2.2.1]
        exact hq0
  · rintro ⟨q, -, hqd, -, hqb, hqc⟩
    obtain ⟨-, -, f3, -⟩ := hSt
    have hqf : q ∈ frontPtrs { u with clock := u.clock + 1 } := List.mem_append_left _ hqd
    have hlt := f3 q hqf
    have hres := hPt.2 q (List.mem_append_right _ hqf)
    rcases hIt.2.2.2.2.2.2.2.2 q hlt hqb with e | e
    · exact hIt.2.2.2.1 q hlt ⟨hqc, e⟩
    · exact absurd e hres

/-- Witness for C19: iteration 5 of the two-taken-branches scenario ends with
the mispredicted first branch in slot 0 of the state-update array; the lock is
taken again because the second branch was admitted in cycle 5 and mispredicted. -/
theorem lock_released_by_resolution_witness :
    (lockState 5).sup = [some 0, none] ∧ (lockState 5).dispatch_head.map (·.theInstr) = [1] ∧
    ((lockState 5).heap 1).disp = 5 ∧ ((lockState 5).heap 1).correct_pred = 0 ∧
    ((∃ s2 s3, sendToSU (lockState 4).clock (sendToFinal (lockState 4)) = .ok s2 ∧
        resolveBranches s2 = .ok s3 ∧ s2.stallDispatch = 1 ∧ s3.stallDispatch = 0) ∧
      ((lockState 5).stallDispatch = 0 ∨ (lockState 5).stallDispatch = 1)) :=
  ⟨by decide!, by decide!, by decide!, by decide!,
    (lock_released_by_resolution 128 3 2 1 2 4 lockTrace (lockState 4) (lockState 5) 0
      (lockState_reachable 4 (by rfl)) (ok_of_toOption (by rfl))
      (by decide!) (by decide!) (by decide!)).1,
    (lock_released_by_resolution 128 3 2 1 2 4 lockTrace (lockState 4) (lockState 5) 0
      (lockState_reachable 4 (by rfl)) (ok_of_toOption (by rfl))
      (by decide!) (by decide!) (by decide!)).2.1⟩

/-! ## Branch resolution: the order, for a call that finds what it relies on -/

theorem resolveBranches_total {s : State} (hr : ResolveReady s) :
    ∃ t, resolveBranches s = .ok t := by
  obtain ⟨t, e1, -⟩ :=
    resolveBranchesLoop_steps (unresolvedPtrs s.heap s.sup).length s hr (Nat.le_refl _)
  refine ⟨t, ?_⟩
  unfold resolveBranches
  rw [findNumUnresolved_ok s.heap s.sup hr.2.1]
  exact e1

theorem ResolveReady_perm {s : State} {u : List (Option Nat)} (hu : List.Perm u s.sup)
    (hr : ResolveReady s) : ResolveReady { s with sup := u } := by
  have hp := unresolvedPtrs_perm s.heap hu
  obtain ⟨hd, hb, hm⟩ := hr
  refine ⟨SupDistinct_perm hu hd, fun p hp1 => hb p (hp.subset hp1), ?_⟩
  intro p hp1 hc
  obtain ⟨m1, m2⟩ := hm p (hp.subset hp1) hc
  exact ⟨m1, fun q hq hcq => m2 q (hp.subset hq) hcq⟩

/-- C17. When the unresolved occupants of the state-update array are distinct
branches with distinct tags below `INT_MAX` and `exec` stamps in the range of an
`int`, and a mispredicted one among them is the only one and holds the dispatch
lock (as at every call in a run), `resolveBranches` returns and leaves the
history register and the counter table as the left fold of the per-branch step
over the unresolved occupants sorted by ascending `(exec, dest_tag)`: the sorted
list is a permutation of the unresolved occupants in strictly ascending key
order; the per-branch step updates the counter in row `(pc / 4) mod 128` and the
column of the history register before the step, and then shifts the register; and
the result is the same for every arrangement of the occupants in the slots. -/
theorem resolve_in_key_order (s : State) (hr : ResolveReady s) :
    ∃ t, resolveBranches s = .ok t ∧
      t.GHR = (resolveSorted s).GHR ∧ t.GSelect = (resolveSorted s).GSelect ∧
      List.Perm (resolveOrder s) (unresolvedPtrs s.heap s.sup) ∧
      (resolveOrder s).Pairwise (keyBelow s.heap) ∧
      (∀ (st : State) (p : Nat),
        (resolveOne s.heap st p).GSelect =
          (updateGSelect (s.heap p).address (s.heap p).taken st).GSelect ∧
        (resolveOne s.heap st p).GHR = (updateGHR (s.heap p).taken st).GHR ∧
        ∀ r c, (r, c) ≠ cellOf (s.heap p).address st →
          (resolveOne s.heap st p).GSelect r c = st.GSelect r c) ∧
      (∀ (u : List (Option Nat)), List.Perm u s.sup →
        ∃ t1, resolveBranches { s with sup := u } = .ok t1 ∧
          t1.GHR = t.GHR ∧ t1.GSelect = t.GSelect) := by
  obtain ⟨t, ht⟩ := resolveBranches_total hr
  obtain ⟨c1, c2, c3, c4, c5, c6⟩ := resolveBranches_key_order s t hr.1 ht
  refine ⟨t, ht, c1, c2, c3, c4, c5, ?_⟩
  intro u hu
  obtain ⟨t1, ht1⟩ := resolveBranches_total (ResolveReady_perm hu hr)
  exact ⟨t1, ht1, c6 u t1 hu ht1⟩

/-- Witness for C17: with branch 2 in slot 0 and branch 1 in slot 1, both with
`exec = 7`, `resolveBranches` still resolves branch 1 (the smaller tag) first:
the register goes from 1 to 4, branch 1 writes cell (65, 1) and branch 2 writes
cell (66, 2). -/
theorem resolve_in_key_order_witness :
    gsSwapped.sup = [some 2, some 1] ∧ gsSwapped.GHR = 1 ∧ resolveOrder gsSwapped = [1, 2] ∧
    resolveBranches gsSwapped = .ok gsSwappedResolved ∧
    gsSwappedResolved.GHR = 4 ∧ gsSwappedResolved.GSelect 65 1 = 0 ∧
    gsSwappedResolved.GSelect 66 2 = 0 ∧ gsSwappedResolved.GSelect 66 1 = 1 ∧
    gsSwappedResolved.GSelect 65 2 = 1 ∧
    ∃ t, resolveBranches gsSwapped = .ok t ∧ t.GHR = (resolveSorted gsSwapped).GHR ∧
      t.GSelect = (resolveSorted gsSwapped).GSelect :=
  ⟨by decide!, by decide!, by decide!, ok_of_isSome _ gsSwapped (by decide!), by decide!,
    by decide!, by decide!, by decide!, by decide!,
    (resolve_in_key_order gsSwapped (by unfold ResolveReady SupDistinct; decide!)).elim
      (fun t ht => ⟨t, ht.1, ht.2.1, ht.2.2.1⟩)⟩

/-! ## Operand wake-up: no broadcast is missed -/

theorem StaticKept_refl (a : instr) : StaticKept a a := ⟨rfl, rfl, rfl, rfl⟩

theorem OpsKept_refl (a : instr) : OpsKept a a := ⟨StaticKept_refl a, rfl, rfl, rfl, rfl⟩

theorem StaticKept_trans {a b c : instr} (h1 : StaticKept a b) (h2 : StaticKept b c) :
    StaticKept a c :=
  ⟨h2.1.trans h1.1, h2.2.1.trans h1.2.1, h2.2.2.1.trans h1.2.2.1, h2.2.2.2.trans h1.2.2.2⟩

theorem OpsKept_trans {a b c : instr} (h1 : OpsKept a b) (h2 : OpsKept b c) : OpsKept a c :=
  ⟨StaticKept_trans h1.1 h2.1, h2.2.1.trans h1.2.1, h2.2.2.1.trans h1.2.2.1,
    h2.2.2.2.1.trans h1.2.2.2.1, h2.2.2.2.2.trans h1.2.2.2.2⟩

theorem StaticKept_of_sourcesSet {a b : instr} (h : sourcesSet a b) : StaticKept a b := by
  obtain ⟨t1, r1, t2, r2, rfl⟩ := h
  exact ⟨rfl, rfl, rfl, rfl⟩

theorem OpsKept_of_stateStamped {c : Int} {a b : instr} (h : stateStamped c a b) :
    OpsKept a b := by
  rcases h with rfl | rfl <;> exact ⟨⟨rfl, rfl, rfl, rfl⟩, rfl, rfl, rfl, rfl⟩

theorem OpsKept_of_resolvedSet {a b : instr} (h : resolvedSet a b) : OpsKept a b := by
  rcases h with rfl | rfl <;> exact ⟨⟨rfl, rfl, rfl, rfl⟩, rfl, rfl, rfl, rfl⟩

theorem OpsKept_of_dispStamped {c : Int} {a b : instr} (h : dispStamped c a b) :
    OpsKept a b := by
  rcases h with rfl | ⟨cp, rfl⟩ <;> exact ⟨⟨rfl, rfl, rfl, rfl⟩, rfl, rfl, rfl, rfl⟩

theorem Backed_mono {heap : Nat → instr} {pool pool' : List Nat} {p : Nat}
    (hsub : ∀ q ∈ pool, q ∈ pool') (h : Backed heap pool p) : Backed heap pool' p := by
  obtain ⟨h1, h2, h3, h4⟩ := h
  refine ⟨h1, h2, ?_, ?_⟩
  · intro h0
    obtain ⟨q, hq, hp⟩ := h3 h0
    exact ⟨q, hsub q hq, hp⟩
  · intro h0
    obtain ⟨q, hq, hp⟩ := h4 h0
    exact ⟨q, hsub q hq, hp⟩

theorem Produces_of_kept {h h' : Nat → instr} {q : Nat} {r T : Int}
    (hq : StaticKept (h q) (h' q)) (hp : Produces h q r T) : Produces h' q r T :=
  ⟨hq.1.trans hp.1, hq.2.1.trans hp.2⟩

theorem Backed_of_kept {h h' : Nat → instr} {pool : List Nat} {p : Nat}
    (hp : OpsKept (h p) (h' p)) (hq : ∀ q ∈ pool, StaticKept (h q) (h' q))
    (hb : Backed h pool p) : Backed h' pool p := by
  obtain ⟨⟨-, -, s1, s2⟩, t1, r1, t2, r2⟩ := hp
  obtain ⟨h1, h2, h3, h4⟩ := hb
  rw [← r1] at h1 h3
  rw [← r2] at h2 h4
  refine ⟨h1, h2, ?_, ?_⟩
  · intro h0
    obtain ⟨q, hq1, hq2⟩ := h3 h0
    rw [s1, t1]
    exact ⟨q, hq1, Produces_of_kept (hq q hq1) hq2⟩
  · intro h0
    obtain ⟨q, hq1, hq2⟩ := h4 h0
    rw [s2, t2]
    exact ⟨q, hq1, Produces_of_kept (hq q hq1) hq2⟩

theorem RegBacked_of_kept {h h' : Nat → instr} {pool pool' : List Nat} {rf : Int → Int × Int}
    (hq : ∀ q ∈ pool, StaticKept (h q) (h' q)) (hsub : ∀ q ∈ pool, q ∈ pool')
    (hb : RegBacked h pool rf) : RegBacked h' pool' rf := by
  intro r hr
  obtain ⟨h1, q, hq1, hq2⟩ := hb r hr
  exact ⟨h1, q, hsub q hq1, Produces_of_kept (hq q hq1) hq2⟩

theorem FiredOk_of_kept {h h' : Nat → instr} {n n' : schedule_node}
    (hp : OpsKept (h n.theInstr) (h' n.theInstr)) (e1 : n'.theInstr = n.theInstr)
    (e2 : n'.fired = n.fired) (hf : FiredOk h n) : FiredOk h' n' := by
  unfold FiredOk at hf ⊢
  rw [e1, e2, hp.2.2.1, hp.2.2.2.2]
  exact hf

/-- Phase A writes no register and no operand field of an instruction that was
allocated before, and leaves the register file alone. -/
theorem phaseA_ops {s a : State} (h : phaseA s = .ok a) :
    (∀ x, x < s.nalloc → OpsKept (s.heap x) (a.heap x)) ∧ a.reg_File = s.reg_File := by
  obtain ⟨s2, s3, s4, s5, s6, h2, h3, h4, h5, h6, rfl⟩ := phaseA_ok h
  have n2 : s2.nalloc = s.nalloc ∧ s2.reg_File = s.reg_File := by
    obtain ⟨_, _, _, _, _, rfl⟩ := sendToSU_shape h2; exact ⟨rfl, rfl⟩
  have n3 : s3.nalloc = s2.nalloc ∧ s3.reg_File = s2.reg_File := by
    obtain ⟨_, _, _, _, rfl⟩ := resolveBranches_shape h3; exact ⟨rfl, rfl⟩
  have n4 : s4.nalloc = s3.nalloc ∧ s4.reg_File = s3.reg_File := by
    obtain ⟨_, _, _, _, _, rfl⟩ := moveToExecute_shape h4; exact ⟨rfl, rfl⟩
  have n5 : s5.nalloc = s4.nalloc ∧ s5.reg_File = s4.reg_File := by
    obtain ⟨_, _, _, _, rfl⟩ := dispatchToSchedule_shape h5; exact ⟨rfl, rfl⟩
  have n6 : s6.nalloc = s5.nalloc ∧ s6.reg_File = s5.reg_File := by
    obtain ⟨_, _, _, _, _, rfl⟩ := dispatch_Enqueue_shape h6; exact ⟨rfl, rfl⟩
  have n7 : (readTrace s6.curr_Config.fetch_rate s6).reg_File = s6.reg_File := by
    obtain ⟨_, _, _, _, _, e⟩ := readTrace_shape s6.curr_Config.fetch_rate s6
    rw [e]
  refine ⟨?_, by rw [n7, n6.2, n5.2, n4.2, n3.2, n2.2]⟩
  intro x hx
  have k2 : OpsKept (s.heap x) (s2.heap x) := OpsKept_of_stateStamped (sendToSU_heap h2 x)
  have k3 : OpsKept (s2.heap x) (s3.heap x) := OpsKept_of_resolvedSet (resolveBranches_heap h3 x)
  have k4 : OpsKept (s3.heap x) (s4.heap x) := by
    rw [(moveToExecute_effect h4).1 x]
    split <;> exact ⟨⟨rfl, rfl, rfl, rfl⟩, rfl, rfl, rfl, rfl⟩
  have k5 : OpsKept (s4.heap x) (s5.heap x) := by
    obtain ⟨v, -, -, hh⟩ := dispatchToSchedule_queue h5
    rw [hh, stampSched_apply]
    split <;> exact ⟨⟨rfl, rfl, rfl, rfl⟩, rfl, rfl, rfl, rfl⟩
  have k6 : OpsKept (s5.heap x) (s6.heap x) := by
    obtain ⟨moved, -, -, m3, -⟩ := dispatch_EnqueueLoop_effect _ _ h6
    exact OpsKept_of_dispStamped (m3 x)
  have k7 : (readTrace s6.curr_Config.fetch_rate s6).heap x = s6.heap x := by
    obtain ⟨k, c, -, -, -, -, -, -, -, -, r9, -⟩ := readTrace_effect s6.curr_Config.fetch_rate s6
    exact r9 x (by rw [n6.1, n5.1, n4.1, n3.1, n2.1]; exact hx)
  rw [k7]
  exact OpsKept_trans k2 (OpsKept_trans k3 (OpsKept_trans k4 (OpsKept_trans k5 k6)))

/-- The queues after Phase A: the scheduling queue is the old one, flags
`fired` untouched, followed by fresh nodes (`fired = 0`) for the reserved dispatch
nodes; no dispatch node is reserved. -/
theorem phaseA_lists {s a : State} (hi : TagInv s) (h : phaseA s = .ok a) :
    a.schedule_head.map (·.theInstr) = s.schedule_head.map (·.theInstr) ++ markedPtrs s ∧
    (∀ n' ∈ a.schedule_head,
      (∃ n ∈ s.schedule_head, n'.theInstr = n.theInstr ∧ n'.fired = n.fired) ∨
      (n'.theInstr ∈ markedPtrs s ∧ n'.fired = 0)) ∧
    Unmarked a ∧ AccInv false a := by
  obtain ⟨hacc, hmp⟩ := hi
  obtain ⟨s2, s3, s4, s5, s6, h2, h3, h4, h5, h6, rfl⟩ := phaseA_ok h
  have a1 := AccInv_sendToFinal hacc
  have m1 : MarkedPrefix (sendToFinal s) := hmp
  have q : Still (sendToFinal s) s4 :=
    Still_trans (sendToSU_still h2) (Still_trans (resolveBranches_still h3) (moveToExecute_still h4))
  have a4 := AccInv_still q a1
  have m4 := MarkedPrefix_still q m1
  have etm : s.totalMarked = s4.totalMarked := by
    obtain ⟨-, -, -, -, -, -, -, -, a9, -, -⟩ := q
    exact a9.symm
  have ed : s4.dispatch_head = s.dispatch_head := by
    obtain ⟨-, -, a3, -⟩ := q
    exact a3
  rw [etm] at h5
  obtain ⟨a5, u5⟩ := AccInv_dispatchToSchedule m4 a4 h5
  obtain ⟨a6, u6⟩ := AccInv_dispatch_Enqueue u5 a5 h6
  have a7 := AccInv_readTrace s6.curr_Config.fetch_rate a6
  have u7 := Unmarked_readTrace s6.curr_Config.fetch_rate u6
  have e2 : s2.schedule_head = s.schedule_head := by
    obtain ⟨_, _, _, _, _, rfl⟩ := sendToSU_shape h2; rfl
  have e3 : s3.schedule_head = s2.schedule_head := by
    obtain ⟨_, _, _, _, rfl⟩ := resolveBranches_shape h3; rfl
  have e4 := (moveToExecute_effect h4).2.2
  have e5 : s5.schedule_head = s4.schedule_head ++
      (s4.dispatch_head.take s4.totalMarked.toNat).map newScheduleNode := by
    obtain ⟨m1, m2, m3, m4'⟩ := m4
    unfold dispatchToSchedule at h5
    split at h5
    · cases h5
    · rename_i r t1 h1
      cases h5
      rw [← List.take_append_drop s4.totalMarked.toNat s4.dispatch_head] at h1
      have hlen : (0 : Int) + ((s4.dispatch_head.take s4.totalMarked.toNat).length : Int)
          = s4.totalMarked := by
        rw [List.length_take, Nat.min_eq_left m2]; omega
      have hx := dispatchToScheduleLoop_prefix _ s4.totalMarked _ _ 0 s4 m3 hlen m4' h1
      exact hx.2
  have e6 : s6.schedule_head = s5.schedule_head := by
    obtain ⟨_, _, _, _, _, rfl⟩ := dispatch_Enqueue_shape h6; rfl
  have e7 : (readTrace s6.curr_Config.fetch_rate s6).schedule_head = s6.schedule_head := by
    obtain ⟨_, _, _, _, _, e⟩ := readTrace_shape s6.curr_Config.fetch_rate s6
    rw [e]
  have hall : (readTrace s6.curr_Config.fetch_rate s6).schedule_head =
      s.schedule_head.map
        (fun n => if n.sendToExecute = 1 ∧ n.waiting = 0 then { n with waiting := 1 } else n) ++
      (s.dispatch_head.take s.totalMarked.toNat).map newScheduleNode := by
    rw [e7, e6, e5, e4, e3, e2, ed, etm]
  refine ⟨?_, ?_, u7, a7⟩
  · rw [hall, List.map_append, List.map_map, List.map_map]
    unfold markedPtrs
    congr 1
    apply List.map_congr_left
    intro n _
    show (if n.sendToExecute = 1 ∧ n.waiting = 0 then { n with waiting := 1 } else n).theInstr = _
    split <;> rfl
  · intro n' hn'
    rw [hall, List.mem_append] at hn'
    rcases hn' with hn' | hn'
    · left
      obtain ⟨n, hn, rfl⟩ := List.mem_map.1 hn'
      refine ⟨n, hn, ?_⟩
      split <;> exact ⟨rfl, rfl⟩
    · right
      obtain ⟨d, hd, rfl⟩ := List.mem_map.1 hn'
      exact ⟨List.mem_map.2 ⟨d, hd, rfl⟩, rfl⟩

/-- After Phase A every not-ready source of a scheduling-queue entry and every
not-ready register waits for an instruction in the scheduling queue. -/
theorem WakeInv_phaseA {s a : State} (hw : WakeInv s) (hi : TagInv s)
    (hst : StampInv (s.clock - 1) s) (h : phaseA s = .ok a) :
    (∀ n ∈ a.schedule_head,
      Backed a.heap (a.schedule_head.map (·.theInstr)) n.theInstr ∧ FiredOk a.heap n) ∧
    RegBacked a.heap (a.schedule_head.map (·.theInstr)) a.reg_File := by
  obtain ⟨w1, w2, w3⟩ := hw
  obtain ⟨l1, l2, -, -⟩ := phaseA_lists hi h
  obtain ⟨ops, erf⟩ := phaseA_ops h
  obtain ⟨-, -, f3, f4, -⟩ := hst
  have hS : ∀ q ∈ s.schedule_head.map (·.theInstr), q < s.nalloc :=
    fun q hq => f4 q (mem_backPtrs.2 (Or.inl hq))
  have hM : ∀ q ∈ markedPtrs s, q < s.nalloc := by
    intro q hq
    apply f3 q
    unfold markedPtrs at hq
    obtain ⟨d, hd, rfl⟩ := List.mem_map.1 hq
    exact List.mem_append_left _ (List.mem_map.2 ⟨d, List.mem_of_mem_take hd, rfl⟩)
  have hpool : ∀ q ∈ s.schedule_head.map (·.theInstr) ++ markedPtrs s,
      StaticKept (s.heap q) (a.heap q) := by
    intro q hq
    rcases List.mem_append.1 hq with e | e
    · exact (ops q (hS q e)).1
    · exact (ops q (hM q e)).1
  rw [l1, erf]
  refine ⟨?_, RegBacked_of_kept hpool (fun _ hq => hq) w3⟩
  intro n' hn'
  rcases l2 n' hn' with ⟨n, hn, e1, e2⟩ | ⟨hm, e2⟩
  · have hlt := hS n.theInstr (List.mem_map.2 ⟨n, hn, rfl⟩)
    rw [e1]
    refine ⟨?_, FiredOk_of_kept (ops _ hlt) e1 e2 (w1 n hn).2⟩
    exact Backed_of_kept (ops _ hlt) hpool
      (Backed_mono (fun q hq => List.mem_append_left _ hq) (w1 n hn).1)
  · exact ⟨Backed_of_kept (ops _ (hM _ hm)) hpool (w2 _ hm), Or.inl e2⟩

/-- The loop of `writeToRegFile`: a register keeps its pair or becomes ready
with the placeholder tag, and afterwards no register written by an occupant of
the state-update array carries the occupant's tag. -/
theorem writeToRegFileLoop_spec (heap : Nat → instr) (nr : Nat) :
    ∀ (u : List (Option Nat)) (rf rf' : Int → Int × Int),
    writeToRegFileLoop heap nr u rf = .ok rf' →
    (∀ r, rf' r = rf r ∨ rf' r = (1, -5)) ∧
    (∀ p ∈ supPtrs u, (heap p).destReg ≠ -1 → (heap p).dest_tag ≠ -5 →
      (rf' (heap p).destReg).2 ≠ (heap p).dest_tag) := by
  intro u
  induction u with
  | nil =>
    intro rf rf' h
    cases h
    exact ⟨fun _ => Or.inl rfl, fun p hp => absurd hp (by simp [supPtrs])⟩
  | cons x rest ih =>
    intro rf rf' h
    cases x with
    | none =>
      rw [writeToRegFileLoop] at h
      obtain ⟨a, b⟩ := ih rf rf' h
      exact ⟨a, fun p hp => b p (by simpa [supPtrs] using hp)⟩
    | some p0 =>
      rw [writeToRegFileLoop] at h
      have hmem : ∀ p ∈ supPtrs (some p0 :: rest), p = p0 ∨ p ∈ supPtrs rest := by
        intro p hp
        simpa [supPtrs] using hp
      split at h
      · rename_i hd
        obtain ⟨a, b⟩ := ih rf rf' h
        refine ⟨a, ?_⟩
        intro p hp h1 h2
        rcases hmem p hp with e | e
        · subst e; exact absurd hd h1
        · exact b p e h1 h2
      · split at h
        · split at h
          · rename_i htag
            split at h
            · obtain ⟨a, b⟩ := ih _ rf' h
              refine ⟨?_, ?_⟩
              · intro r
                rcases a r with e | e
                · by_cases hr : r = (heap p0).destReg
                  · right; rw [e]; simp [setReg, hr]
                  · left; rw [e]; simp [setReg, hr]
                · exact Or.inr e
              · intro p hp h1 h2
                rcases hmem p hp with e | e
                · subst e
                  rcases a (heap p).destReg with e1 | e1
                  · rw [e1]
                    simp only [setReg, if_true]
                    exact fun hx => h2 hx.symm
                  · rw [e1]
                    exact fun hx => h2 hx.symm
                · exact b p e h1 h2
            · cases h
          · rename_i htag
            obtain ⟨a, b⟩ := ih rf rf' h
            refine ⟨a, ?_⟩
            intro p hp h1 h2
            rcases hmem p hp with e | e
            · subst e
              rcases a (heap p).destReg with e1 | e1
              · rw [e1]; exact htag
              · rw [e1]
                exact fun hx => h2 hx.symm
            · exact b p e h1 h2
        · cases h

/-- After `writeToRegFile` no register that is not ready waits for an occupant of
the state-update array. -/
theorem RegBacked_write {heap : Nat → instr} {nr : Nat} {u : List (Option Nat)}
    {rf rf' : Int → Int × Int} {pool : List Nat}
    (h : writeToRegFileLoop heap nr u rf = .ok rf') (hb : RegBacked heap pool rf)
    (htag : ∀ q ∈ supPtrs u, (heap q).dest_tag ≠ -5) :
    RegBacked heap (pool.filter (fun q => decide (q ∉ supPtrs u))) rf' := by
  obtain ⟨a, b⟩ := writeToRegFileLoop_spec heap nr u rf rf' h
  intro r hr
  have e : rf' r = rf r := by
    rcases a r with e | e
    · exact e
    · rw [e] at hr
      exact absurd rfl hr
  rw [e] at hr ⊢
  obtain ⟨h1, q, hq, hp1, hp2⟩ := hb r hr
  refine ⟨h1, q, ?_, hp1, hp2⟩
  rw [List.mem_filter]
  refine ⟨hq, ?_⟩
  simp only [decide_eq_true_eq]
  intro hs
  have := b q hs (by rw [hp1]; exact h1) (htag q hs)
  rw [hp1, e, hp2] at this
  exact this rfl

/-- The loop of `setToFired` keeps the pointers, and sets `fired` only on a node
whose sources are both ready. -/
theorem setToFiredLoop_fired (heap : Nat → instr) : ∀ (q : List schedule_node),
    ∀ n' ∈ setToFiredLoop heap q, ∃ n ∈ q, n'.theInstr = n.theInstr ∧
      (n'.fired = n.fired ∨
        ((heap n.theInstr).source1_ready ≠ 0 ∧ (heap n.theInstr).source2_ready ≠ 0)) := by
  intro q
  induction q with
  | nil => intro n' hn'; simp [setToFiredLoop] at hn'
  | cons n rest ih =>
    intro n' hn'
    rw [setToFiredLoop] at hn'
    split at hn'
    · rename_i hc
      rcases List.mem_cons.1 hn' with e | e
      · subst e
        exact ⟨n, List.mem_cons_self _ _, rfl, Or.inr ⟨hc.1, hc.2.1⟩⟩
      · obtain ⟨m, hm, e1, e2⟩ := ih n' e
        exact ⟨m, List.mem_cons_of_mem _ hm, e1, e2⟩
    · rcases List.mem_cons.1 hn' with e | e
      · subst e
        exact ⟨n', List.mem_cons_self _ _, rfl, Or.inl rfl⟩
      · obtain ⟨m, hm, e1, e2⟩ := ih n' e
        exact ⟨m, List.mem_cons_of_mem _ hm, e1, e2⟩

/-- What `readSource` returns: ready, or the tag of a register that is not
ready. -/
theorem readSource_spec {rf : Int → Int × Int} {nr : Nat} {src t r : Int}
    (h : readSource rf nr src = .ok (t, r)) :
    r = 1 ∨ (r = 0 ∧ (rf src).1 ≠ 1 ∧ t = (rf src).2) := by
  unfold readSource at h
  split at h
  · cases h; exact Or.inl rfl
  · split at h
    · split at h
      · split at h
        · cases h; exact Or.inl rfl
        · cases h
      · rename_i hne
        split at h
        · cases h; exact Or.inr ⟨rfl, hne, rfl⟩
        · cases h
    · cases h

/-- The record `readUpdateRegFile` stores for a reserved dispatch node is backed
by the register file it was read from. -/
theorem readStep_backed {heap : Nat → instr} {rf : Int → Int × Int} {nr : Nat} {pool : List Nat}
    {p : Nat} {t1 r1 t2 r2 : Int} (hb : RegBacked heap pool rf)
    (h1 : readSource rf nr (heap p).source1 = .ok (t1, r1))
    (h2 : readSource rf nr (heap p).source2 = .ok (t2, r2)) :
    (∀ x, StaticKept (heap x)
      (setInstr heap p { heap p with source1_tag := t1, source1_ready := r1,
                                     source2_tag := t2, source2_ready := r2 } x)) ∧
    (∀ x, x ≠ p →
      setInstr heap p { heap p with source1_tag := t1, source1_ready := r1,
                                    source2_tag := t2, source2_ready := r2 } x = heap x) ∧
    Backed (setInstr heap p { heap p with source1_tag := t1, source1_ready := r1,
                                          source2_tag := t2, source2_ready := r2 })
      (p :: pool) p := by
  have hk : ∀ x, StaticKept (heap x)
      (setInstr heap p { heap p with source1_tag := t1, source1_ready := r1,
                                     source2_tag := t2, source2_ready := r2 } x) := by
    intro x
    by_cases hx : x = p
    · subst hx; simp only [setInstr, if_true]; exact ⟨rfl, rfl, rfl, rfl⟩
    · simp only [setInstr, if_neg hx]; exact StaticKept_refl _
  refine ⟨hk, fun x hx => by simp only [setInstr, if_neg hx], ?_⟩
  have hself :
      setInstr heap p { heap p with source1_tag := t1, source1_ready := r1,
                                    source2_tag := t2, source2_ready := r2 } p =
      { heap p with source1_tag := t1, source1_ready := r1,
                    source2_tag := t2, source2_ready := r2 } := by
    simp only [setInstr, if_true]
  have s1 := readSource_spec h1
  have s2 := readSource_spec h2
  unfold Backed
  rw [hself]
  refine ⟨?_, ?_, ?_, ?_⟩
  · show r1 = 0 ∨ r1 = 1
    rcases s1 with e | ⟨e, -⟩
    · exact Or.inr e
    · exact Or.inl e
  · show r2 = 0 ∨ r2 = 1
    rcases s2 with e | ⟨e, -⟩
    · exact Or.inr e
    · exact Or.inl e
  · intro h0
    have h0' : r1 = 0 := h0
    rcases s1 with e | ⟨-, e1, e2⟩
    · rw [e] at h0'; exact absurd h0' (by decide)
    · obtain ⟨-, q, hq, hp⟩ := hb _ e1
      refine ⟨q, List.mem_cons_of_mem _ hq, Produces_of_kept (hk q) ?_⟩
      show Produces heap q (heap p).source1 t1
      rw [e2]
      exact hp
  · intro h0
    have h0' : r2 = 0 := h0
    rcases s2 with e | ⟨-, e1, e2⟩
    · rw [e] at h0'; exact absurd h0' (by decide)
    · obtain ⟨-, q, hq, hp⟩ := hb _ e1
      refine ⟨q, List.mem_cons_of_mem _ hq, Produces_of_kept (hk q) ?_⟩
      show Produces heap q (heap p).source2 t2
      rw [e2]
      exact hp

/-- The loop of `readUpdateRegFile` over the reserved prefix `P` of the dispatch
queue: the records of other instructions are untouched, and afterwards the
reserved nodes and the register file are backed by the pool extended with the
reserved nodes. -/
theorem readUpdateRegFileLoop_backed (nr : Nat) (tm : Int) :
    ∀ (P rest : List dispatch_node) (count : Int) (heap : Nat → instr) (rf : Int → Int × Int)
      (pool keep : List Nat),
    (∀ d ∈ P, d.mark_for_move = 1) → count + (P.length : Int) = tm →
    (P.map (·.theInstr)).Nodup → (∀ p ∈ P.map (·.theInstr), p ∉ keep) →
    RegBacked heap pool rf → (∀ p ∈ keep, Backed heap pool p) →
    ∀ {heap' : Nat → instr} {rf' : Int → Int × Int},
      readUpdateRegFileLoop nr tm (P ++ rest) count heap rf = .ok (heap', rf') →
      (∀ x, x ∉ P.map (·.theInstr) → heap' x = heap x) ∧
      ∀ pool', (∀ q, q ∈ pool ∨ q ∈ P.map (·.theInstr) → q ∈ pool') →
        RegBacked heap' pool' rf' ∧
        ∀ p, p ∈ keep ∨ p ∈ P.map (·.theInstr) → Backed heap' pool' p := by
  intro P
  induction P with
  | nil =>
    intro rest count heap rf pool keep _ hc _ _ hb hk heap' rf' h
    simp only [List.length_nil, Nat.cast_zero, add_zero] at hc
    have e : heap' = heap ∧ rf' = rf := by
      cases rest with
      | nil =>
        simp only [List.append_nil, readUpdateRegFileLoop] at h
        cases h; exact ⟨rfl, rfl⟩
      | cons d rest' =>
        simp only [List.nil_append, readUpdateRegFileLoop, hc, if_true] at h
        cases h; exact ⟨rfl, rfl⟩
    obtain ⟨rfl, rfl⟩ := e
    refine ⟨fun _ _ => rfl, ?_⟩
    intro pool' hsub
    refine ⟨RegBacked_of_kept (fun q _ => StaticKept_refl _) (fun q hq => hsub q (Or.inl hq)) hb,
      ?_⟩
    intro p hp
    rcases hp with hp | hp
    · exact Backed_mono (fun q hq => hsub q (Or.inl hq)) (hk p hp)
    · simp at hp
  | cons d P' ih =>
    intro rest count heap rf pool keep hm hc hnd hdis hb hk heap' rf' h
    have hd : d.mark_for_move = 1 := hm d (List.mem_cons_self _ _)
    have hne : count ≠ tm := by
      simp only [List.length_cons, Nat.cast_add, Nat.cast_one] at hc; omega
    have hm' : ∀ x ∈ P', x.mark_for_move = 1 := fun x hx => hm x (List.mem_cons_of_mem _ hx)
    have hc' : count + 1 + (P'.length : Int) = tm := by
      simp only [List.length_cons, Nat.cast_add, Nat.cast_one] at hc; omega
    rw [List.map_cons, List.nodup_cons] at hnd
    have hpk : d.theInstr ∉ keep := hdis _ (by simp)
    have hdis' : ∀ p ∈ P'.map (·.theInstr), p ∉ d.theInstr :: keep := by
      intro p hp hx
      rcases List.mem_cons.1 hx with e | e
      · subst e; exact hnd.1 hp
      · exact hdis p (by simp only [List.map_cons, List.mem_cons]; exact Or.inr hp) e
    rw [List.cons_append, readUpdateRegFileLoop, if_neg hne, if_pos hd] at h
    simp only at h
    split at h
    · cases h
    · rename_i t1 r1 h1
      split at h
      · cases h
      · rename_i t2 r2 h2
        obtain ⟨k1, k2, k3⟩ := readStep_backed hb h1 h2
        have hkeep : ∀ p ∈ d.theInstr :: keep,
            Backed (setInstr heap d.theInstr
              { heap d.theInstr with source1_tag := t1, source1_ready := r1,
                                     source2_tag := t2, source2_ready := r2 })
              (d.theInstr :: pool) p := by
          intro p hp
          rcases List.mem_cons.1 hp with e | e
          · subst e; exact k3
          · have hpd : p ≠ d.theInstr := fun e' => hpk (e' ▸ e)
            refine Backed_of_kept ?_ (fun q _ => k1 q)
              (Backed_mono (fun q hq => List.mem_cons_of_mem _ hq) (hk p e))
            rw [k2 p hpd]
            exact OpsKept_refl _
        have hfin : ∀ (rf1 : Int → Int × Int),
            RegBacked (setInstr heap d.theInstr
              { heap d.theInstr with source1_tag := t1, source1_ready := r1,
                                     source2_tag := t2, source2_ready := r2 })
              (d.theInstr :: pool) rf1 →
            readUpdateRegFileLoop nr tm (P' ++ rest) (count + 1)
              (setInstr heap d.theInstr
                { heap d.theInstr with source1_tag := t1, source1_ready := r1,
                                       source2_tag := t2, source2_ready := r2 }) rf1
              = .ok (heap', rf') →
            (∀ x, x ∉ (d :: P').map (·.theInstr) → heap' x = heap x) ∧
            ∀ pool', (∀ q, q ∈ pool ∨ q ∈ (d :: P').map (·.theInstr) → q ∈ pool') →
              RegBacked heap' pool' rf' ∧
              ∀ p, p ∈ keep ∨ p ∈ (d :: P').map (·.theInstr) → Backed heap' pool' p := by
          intro rf1 hb1 hrec
          obtain ⟨c1, c2⟩ := ih rest (count + 1) _ rf1 (d.theInstr :: pool) (d.theInstr :: keep)
            hm' hc' hnd.2 hdis' hb1 hkeep hrec
          refine ⟨?_, ?_⟩
          · intro x hx
            simp only [List.map_cons, List.mem_cons, not_or] at hx
            rw [c1 x hx.2, k2 x hx.1]
          · intro pool' hsub
            have hsub' : ∀ q, q ∈ d.theInstr :: pool ∨ q ∈ P'.map (·.theInstr) → q ∈ pool' := by
              intro q hq
              apply hsub
              simp only [List.map_cons, List.mem_cons] at hq ⊢
              tauto
            obtain ⟨d1, d2⟩ := c2 pool' hsub'
            refine ⟨d1, ?_⟩
            intro p hp
            apply d2
            simp only [List.map_cons, List.mem_cons] at hp ⊢
            tauto
        split at h
        · apply hfin rf _ h
          exact RegBacked_of_kept (fun q _ => k1 q) (fun q hq => List.mem_cons_of_mem _ hq) hb
        · rename_i hdr
          split at h
          · apply hfin _ _ h
            intro r hr
            by_cases hrd : r = (heap d.theInstr).destReg
            · subst hrd
              refine ⟨hdr, d.theInstr, List.mem_cons_self _ _, (k1 d.theInstr).1, ?_⟩
              rw [(k1 d.theInstr).2.1]
              simp [setReg]
            · have e : setReg rf (heap d.theInstr).destReg (0, (heap d.theInstr).dest_tag) r = rf r := by
                simp [setReg, hrd]
              rw [e] at hr ⊢
              obtain ⟨g1, q, hq, hp⟩ := hb r hr
              exact ⟨g1, q, List.mem_cons_of_mem _ hq, Produces_of_kept (k1 q) hp⟩
          · cases h

theorem Woke_refl {heap : Nat → instr} {a : instr} (h : Flags01 a) : Woke heap [] a a := by
  refine ⟨StaticKept_refl a, ?_, ?_⟩
  · rcases h.1 with e | e
    · exact Or.inr ⟨e, e, rfl, fun u hu => absurd hu (List.not_mem_nil u)⟩
    · exact Or.inl e
  · rcases h.2 with e | e
    · exact Or.inr ⟨e, e, rfl, fun u hu => absurd hu (List.not_mem_nil u)⟩
    · exact Or.inl e

theorem Woke_flags {heap : Nat → instr} {U : List Nat} {a b : instr} (h : Woke heap U a b) :
    Flags01 b := by
  obtain ⟨-, h1, h2⟩ := h
  refine ⟨?_, ?_⟩
  · rcases h1 with e | ⟨e, -⟩
    · exact Or.inr e
    · exact Or.inl e
  · rcases h2 with e | ⟨e, -⟩
    · exact Or.inr e
    · exact Or.inl e

theorem Woke_trans {heap : Nat → instr} {U1 U2 U : List Nat} {a b c : instr}
    (h1 : Woke heap U1 a b) (h2 : Woke heap U2 b c) (hU : ∀ u ∈ U, u ∈ U1 ∨ u ∈ U2) :
    Woke heap U a c := by
  obtain ⟨k1, a1, a2⟩ := h1
  obtain ⟨k2, b1, b2⟩ := h2
  refine ⟨StaticKept_trans k1 k2, ?_, ?_⟩
  · rcases b1 with e | ⟨e1, e2, e3, e4⟩
    · exact Or.inl e
    · rcases a1 with f | ⟨f1, f2, f3, f4⟩
      · rw [f] at e2; exact absurd e2 (by decide)
      · refine Or.inr ⟨e1, f2, e3.trans f3, ?_⟩
        intro u hu
        rcases hU u hu with g | g
        · exact f4 u g
        · have := e4 u g
          rw [k1.2.2.1, f3] at this
          exact this
  · rcases b2 with e | ⟨e1, e2, e3, e4⟩
    · exact Or.inl e
    · rcases a2 with f | ⟨f1, f2, f3, f4⟩
      · rw [f] at e2; exact absurd e2 (by decide)
      · refine Or.inr ⟨e1, f2, e3.trans f3, ?_⟩
        intro u hu
        rcases hU u hu with g | g
        · exact f4 u g
        · have := e4 u g
          rw [k1.2.2.2, f3] at this
          exact this

/-- The first `if` of the body of `broadcastToSched`. -/
theorem broadcastSrc1_spec (u p : Nat) (heap : Nat → instr) :
    (∀ x, x ≠ p → broadcastSrc1 u p heap x = heap x) ∧
    StaticKept (heap p) (broadcastSrc1 u p heap p) ∧
    (broadcastSrc1 u p heap p).source2_ready = (heap p).source2_ready ∧
    (broadcastSrc1 u p heap p).source2_tag = (heap p).source2_tag ∧
    ((broadcastSrc1 u p heap p).source1_ready = 1 ∨
      ((broadcastSrc1 u p heap p).source1_ready = (heap p).source1_ready ∧
        (broadcastSrc1 u p heap p).source1_tag = (heap p).source1_tag ∧
        ((heap p).source1_ready = 0 →
          ¬ Produces heap u (heap p).source1 (heap p).source1_tag))) := by
  unfold broadcastSrc1
  split
  · refine ⟨fun x hx => by simp only [setInstr, if_neg hx], ?_, ?_, ?_, Or.inl ?_⟩ <;>
      simp only [setInstr, if_true]
    exact ⟨rfl, rfl, rfl, rfl⟩
  · rename_i hc
    refine ⟨fun _ _ => rfl, StaticKept_refl _, rfl, rfl, Or.inr ⟨rfl, rfl, ?_⟩⟩
    intro h0 hp
    exact hc ⟨hp.1.symm, h0, hp.2.symm⟩

/-- The second `if` of the body of `broadcastToSched`. -/
theorem broadcastSrc2_spec (u p : Nat) (heap : Nat → instr) :
    (∀ x, x ≠ p → broadcastSrc2 u p heap x = heap x) ∧
    StaticKept (heap p) (broadcastSrc2 u p heap p) ∧
    (broadcastSrc2 u p heap p).source1_ready = (heap p).source1_ready ∧
    (broadcastSrc2 u p heap p).source1_tag = (heap p).source1_tag ∧
    ((broadcastSrc2 u p heap p).source2_ready = 1 ∨
      ((broadcastSrc2 u p heap p).source2_ready = (heap p).source2_ready ∧
        (broadcastSrc2 u p heap p).source2_tag = (heap p).source2_tag ∧
        ((heap p).source2_ready = 0 →
          ¬ Produces heap u (heap p).source2 (heap p).source2_tag))) := by
  unfold broadcastSrc2
  split
  · refine ⟨fun x hx => by simp only [setInstr, if_neg hx], ?_, ?_, ?_, Or.inl ?_⟩ <;>
      simp only [setInstr, if_true]
    exact ⟨rfl, rfl, rfl, rfl⟩
  · rename_i hc
    refine ⟨fun _ _ => rfl, StaticKept_refl _, rfl, rfl, Or.inr ⟨rfl, rfl, ?_⟩⟩
    intro h0 hp
    exact hc ⟨hp.1.symm, h0, hp.2.symm⟩

/-- Both `if`s of the body of `broadcastToSched` for the entry `u` and the
instruction `p`. -/
theorem broadcastSrc_woke (u p : Nat) (heap heap0 : Nat → instr)
    (hu : StaticKept (heap0 u) (heap u)) (hf : Flags01 (heap p)) :
    (∀ x, x ≠ p → broadcastSrc2 u p (broadcastSrc1 u p heap) x = heap x) ∧
    Woke heap0 [u] (heap p) (broadcastSrc2 u p (broadcastSrc1 u p heap) p) := by
  obtain ⟨a1, a2, a3, a4, a5⟩ := broadcastSrc1_spec u p heap
  obtain ⟨b1, b2, b3, b4, b5⟩ := broadcastSrc2_spec u p (broadcastSrc1 u p heap)
  have hu1 : StaticKept (heap u) (broadcastSrc1 u p heap u) := by
    by_cases e : u = p
    · subst e; exact a2
    · rw [a1 u e]; exact StaticKept_refl _
  refine ⟨fun x hx => by rw [b1 x hx, a1 x hx], StaticKept_trans a2 b2, ?_, ?_⟩
  · rw [b3, b4]
    rcases a5 with e | ⟨e1, e2, e3⟩
    · exact Or.inl e
    · rw [e1, e2]
      rcases hf.1 with f | f
      · refine Or.inr ⟨f, f, rfl, ?_⟩
        intro v hv
        rw [List.mem_singleton] at hv
        subst hv
        intro hp
        exact e3 f ⟨hu.1.symm ▸ hp.1, hu.2.1.symm ▸ hp.2⟩
      · exact Or.inl f
  · rcases b5 with e | ⟨e1, e2, e3⟩
    · exact Or.inl e
    · rw [e1, e2, a3, a4]
      rcases hf.2 with f | f
      · refine Or.inr ⟨f, f, rfl, ?_⟩
        intro v hv
        rw [List.mem_singleton] at hv
        subst hv
        intro hp
        apply e3 (by rw [a3]; exact f)
        rw [a2.2.2.2, a4]
        exact ⟨(hu1.1.trans hu.1).symm ▸ hp.1, (hu1.2.1.trans hu.2.1).symm ▸ hp.2⟩
      · exact Or.inl f

/-- The body of the inner loop of `broadcastToSched` for one node. -/
theorem broadcastNode_woke (u : Nat) (n : schedule_node) (heap heap0 : Nat → instr)
    (hu : StaticKept (heap0 u) (heap u)) (hf : Flags01 (heap n.theInstr))
    (hfo : FiredOk heap n) :
    (∀ x, x ≠ n.theInstr → (broadcastNode u n heap).2 x = heap x) ∧
    Woke heap0 [u] (heap n.theInstr) ((broadcastNode u n heap).2 n.theInstr) ∧
    FiredOk (broadcastNode u n heap).2 (broadcastNode u n heap).1 := by
  obtain ⟨a1, a2⟩ := broadcastSrc_woke u n.theInstr heap heap0 hu hf
  have fl := Woke_flags a2
  unfold broadcastNode
  split
  · rename_i h0
    split
    · rename_i hc
      refine ⟨a1, a2, Or.inr ⟨?_, ?_⟩⟩
      · rcases fl.1 with e | e
        · exact absurd e hc.1
        · exact e
      · rcases fl.2 with e | e
        · exact absurd e hc.2
        · exact e
    · exact ⟨a1, a2, Or.inl h0⟩
  · rename_i h0
    rcases hfo with e | ⟨e1, e2⟩
    · exact absurd e h0
    · exact ⟨fun _ _ => rfl, ⟨StaticKept_refl _, Or.inl e1, Or.inl e2⟩, Or.inr ⟨e1, e2⟩⟩

/-- One pass of the inner loop of `broadcastToSched` over the scheduling queue. -/
theorem broadcastPass_woke (u : Nat) (heap0 : Nat → instr) :
    ∀ (q : List schedule_node) (heap : Nat → instr),
    StaticKept (heap0 u) (heap u) → (q.map (·.theInstr)).Nodup →
    (∀ n ∈ q, Flags01 (heap n.theInstr) ∧ FiredOk heap n) →
    (∀ x, x ∉ q.map (·.theInstr) → (broadcastPass u q heap).2 x = heap x) ∧
    (∀ p ∈ q.map (·.theInstr), Woke heap0 [u] (heap p) ((broadcastPass u q heap).2 p)) ∧
    (∀ n' ∈ (broadcastPass u q heap).1, FiredOk (broadcastPass u q heap).2 n') := by
  intro q
  induction q with
  | nil =>
    intro heap _ _ _
    refine ⟨fun _ _ => rfl, fun p hp => absurd hp (by simp), fun n' hn' => ?_⟩
    simp [broadcastPass] at hn'
  | cons n rest ih =>
    intro heap hu hnd hq
    rw [List.map_cons, List.nodup_cons] at hnd
    obtain ⟨hn, hrest⟩ := hnd
    obtain ⟨b1, b2, b3⟩ := broadcastNode_woke u n heap heap0 hu
      (hq n (List.mem_cons_self _ _)).1 (hq n (List.mem_cons_self _ _)).2
    have hne : ∀ m ∈ rest, m.theInstr ≠ n.theInstr := by
      intro m hm e
      exact hn (e ▸ List.mem_map.2 ⟨m, hm, rfl⟩)
    have hu1 : StaticKept (heap0 u) ((broadcastNode u n heap).2 u) :=
      StaticKept_trans hu (StaticKept_of_sourcesSet (broadcastNode_heap u n heap u))
    have hq1 : ∀ m ∈ rest, Flags01 ((broadcastNode u n heap).2 m.theInstr) ∧
        FiredOk (broadcastNode u n heap).2 m := by
      intro m hm
      have := hq m (List.mem_cons_of_mem _ hm)
      unfold FiredOk at this ⊢
      rw [b1 _ (hne m hm)]
      exact this
    obtain ⟨c1, c2, c3⟩ := ih (broadcastNode u n heap).2 hu1 hrest hq1
    have hpass : broadcastPass u (n :: rest) heap =
        ((broadcastNode u n heap).1 :: (broadcastPass u rest (broadcastNode u n heap).2).1,
          (broadcastPass u rest (broadcastNode u n heap).2).2) := rfl
    rw [hpass]
    refine ⟨?_, ?_, ?_⟩
    · intro x hx
      simp only [List.map_cons, List.mem_cons, not_or] at hx
      show (broadcastPass u rest (broadcastNode u n heap).2).2 x = heap x
      rw [c1 x hx.2, b1 x hx.1]
    · intro p hp
      show Woke heap0 [u] (heap p) ((broadcastPass u rest (broadcastNode u n heap).2).2 p)
      simp only [List.map_cons, List.mem_cons] at hp
      rcases hp with e | e
      · subst e
        rw [c1 _ hn]
        exact b2
      · have hpn : p ≠ n.theInstr := fun e' => hn (e' ▸ e)
        have := c2 p e
        rw [b1 p hpn] at this
        exact this
    · intro n' hn'
      show FiredOk (broadcastPass u rest (broadcastNode u n heap).2).2 n'
      rcases List.mem_cons.1 hn' with e | e
      · subst e
        unfold FiredOk at b3 ⊢
        rw [c1 _ (by rw [broadcastNode_ptr]; exact hn)]
        exact b3
      · exact c3 n' e

/-- The outer loop of `broadcastToSched`: the records of instructions outside
the scheduling queue are untouched, each entry of the queue is woken with respect
to every occupant of the state-update array, and a fired node has both sources
ready. -/
theorem broadcastToSchedLoop_woke (heap0 : Nat → instr) :
    ∀ (sup : List (Option Nat)) (q : List schedule_node) (heap : Nat → instr),
    (∀ x, StaticKept (heap0 x) (heap x)) → (q.map (·.theInstr)).Nodup →
    (∀ n ∈ q, Flags01 (heap n.theInstr) ∧ FiredOk heap n) →
    (∀ x, x ∉ q.map (·.theInstr) → (broadcastToSchedLoop sup q heap).2 x = heap x) ∧
    (∀ p ∈ q.map (·.theInstr),
      Woke heap0 (supPtrs sup) (heap p) ((broadcastToSchedLoop sup q heap).2 p)) ∧
    (∀ n' ∈ (broadcastToSchedLoop sup q heap).1,
      FiredOk (broadcastToSchedLoop sup q heap).2 n') := by
  intro sup
  induction sup with
  | nil =>
    intro q heap _ _ hq
    refine ⟨fun _ _ => rfl, ?_, fun n' hn' => (hq n' hn').2⟩
    intro p hp
    obtain ⟨n, hn, rfl⟩ := List.mem_map.1 hp
    exact Woke_refl (hq n hn).1
  | cons x rest ih =>
    intro q heap hk hnd hq
    cases x with
    | none =>
      have e : broadcastToSchedLoop (none :: rest) q heap = broadcastToSchedLoop rest q heap := rfl
      have e2 : supPtrs (none :: rest) = supPtrs rest := by simp [supPtrs]
      rw [e, e2]
      exact ih q heap hk hnd hq
    | some u =>
      have e : broadcastToSchedLoop (some u :: rest) q heap =
          broadcastToSchedLoop rest (broadcastPass u q heap).1 (broadcastPass u q heap).2 := rfl
      have e2 : supPtrs (some u :: rest) = u :: supPtrs rest := by simp [supPtrs]
      obtain ⟨b1, b2, b3⟩ := broadcastPass_woke u heap0 q heap (hk u) hnd hq
      have hptr := broadcastPass_ptrs u q heap
      have hk1 : ∀ x, StaticKept (heap0 x) ((broadcastPass u q heap).2 x) :=
        fun x => StaticKept_trans (hk x) (StaticKept_of_sourcesSet (broadcastPass_heap u q heap x))
      have hq1 : ∀ n' ∈ (broadcastPass u q heap).1,
          Flags01 ((broadcastPass u q heap).2 n'.theInstr) ∧
            FiredOk (broadcastPass u q heap).2 n' := by
        intro n' hn'
        have hp : n'.theInstr ∈ q.map (·.theInstr) := by
          rw [← hptr]; exact List.mem_map.2 ⟨n', hn', rfl⟩
        exact ⟨Woke_flags (b2 _ hp), b3 n' hn'⟩
      obtain ⟨c1, c2, c3⟩ := ih (broadcastPass u q heap).1 (broadcastPass u q heap).2 hk1
        (by rw [hptr]; exact hnd) hq1
      rw [e, e2]
      refine ⟨?_, ?_, c3⟩
      · intro y hy
        rw [c1 y (by rw [hptr]; exact hy), b1 y hy]
      · intro p hp
        refine Woke_trans (b2 p hp) (c2 p (by rw [hptr]; exact hp)) ?_
        intro v hv
        rcases List.mem_cons.1 hv with g | g
        · exact Or.inl (by rw [g]; exact List.mem_singleton_self _)
        · exact Or.inr g

theorem markScheduleEntriesLoop_fired (hp : Nat → instr) (f1 f2 : Int) :
    ∀ (q : List schedule_node) (o : Int),
    ∀ n' ∈ markScheduleEntriesLoop hp f1 f2 q o, ∃ n ∈ q, n'.theInstr = n.theInstr ∧
      n'.fired = n.fired := by
  intro q
  induction q with
  | nil => intro o n' h; simp [markScheduleEntriesLoop] at h
  | cons n rest ih =>
    intro o n' h
    rw [markScheduleEntriesLoop] at h
    split at h
    · split at h
      · rcases List.mem_cons.1 h with e | e
        · subst e
          exact ⟨n, List.mem_cons_self _ _, rfl, rfl⟩
        · obtain ⟨m, hm, e1, e2⟩ := ih _ n' e
          exact ⟨m, List.mem_cons_of_mem _ hm, e1, e2⟩
      · rcases List.mem_cons.1 h with e | e
        · subst e
          exact ⟨n', List.mem_cons_self _ _, rfl, rfl⟩
        · obtain ⟨m, hm, e1, e2⟩ := ih _ n' e
          exact ⟨m, List.mem_cons_of_mem _ hm, e1, e2⟩
    · exact ⟨n', h, rfl, rfl⟩

theorem markForExecution_fired (s : State) :
    ∀ n' ∈ (markForExecution s).schedule_head, ∃ n ∈ s.schedule_head,
      n'.theInstr = n.theInstr ∧ n'.fired = n.fired := by
  intro n' hn'
  rw [markForExecution_eq] at hn'
  obtain ⟨n2, h2, e2, f2⟩ := markScheduleEntriesLoop_fired _ _ _ _ _ n' hn'
  obtain ⟨n1, h1, e1, f1⟩ := markScheduleEntriesLoop_fired _ _ _ _ _ n2 h2
  obtain ⟨n0, h0, e0, f0⟩ := markScheduleEntriesLoop_fired _ _ _ _ _ n1 h1
  exact ⟨n0, h0, e2.trans (e1.trans e0), f2.trans (f1.trans f0)⟩

theorem AccInv_nodup {b : Bool} {s : State} (hi : AccInv b s) : (inFlight b s).Nodup := by
  obtain ⟨-, -, hp⟩ := hi
  have hnd : (s.final_head.map (·.dest_tag) ++
      (inFlight b s).map (fun p : Nat => (p : Int))).Nodup :=
    (List.Perm.nodup_iff hp).2 ((List.nodup_range _).map cast_injective)
  exact List.Nodup.of_map _ (List.nodup_append.1 hnd).2.1

/-- An entry that was backed by `pool` before the broadcast of the entries `U`
is backed afterwards by the instructions of `pool` that are not in `U`. -/
theorem Backed_woke {heap heap' : Nat → instr} {pool pool' U : List Nat} {p : Nat}
    (hb : Backed heap pool p) (hw : Woke heap U (heap p) (heap' p))
    (hk : ∀ q ∈ pool, StaticKept (heap q) (heap' q))
    (hsub : ∀ q ∈ pool, q ∉ U → q ∈ pool') : Backed heap' pool' p := by
  obtain ⟨-, -, b3, b4⟩ := hb
  have fl := Woke_flags hw
  obtain ⟨k, w1, w2⟩ := hw
  refine ⟨fl.1, fl.2, ?_, ?_⟩
  · intro h0
    rcases w1 with e | ⟨-, e2, e3, e4⟩
    · rw [e] at h0; exact absurd h0 (by decide)
    · obtain ⟨q, hq, hp⟩ := b3 e2
      rw [k.2.2.1, e3]
      exact ⟨q, hsub q hq (fun hu => e4 q hu hp), Produces_of_kept (hk q hq) hp⟩
  · intro h0
    rcases w2 with e | ⟨-, e2, e3, e4⟩
    · rw [e] at h0; exact absurd h0 (by decide)
    · obtain ⟨q, hq, hp⟩ := b4 e2
      rw [k.2.2.2, e3]
      exact ⟨q, hsub q hq (fun hu => e4 q hu hp), Produces_of_kept (hk q hq) hp⟩

theorem writeToRegFile_loop {s t : State} (h : writeToRegFile s = .ok t) :
    writeToRegFileLoop s.heap s.curr_Config.numRegs s.sup s.reg_File = .ok t.reg_File ∧
    t.heap = s.heap ∧ t.sup = s.sup ∧ t.schedule_head = s.schedule_head ∧
    t.dispatch_head = s.dispatch_head ∧ t.curr_Config = s.curr_Config := by
  unfold writeToRegFile at h
  split at h
  · cases h
  · rename_i rf h1
    cases h
    exact ⟨h1, rfl, rfl, rfl, rfl, rfl⟩

theorem readUpdateRegFile_loop {tm : Int} {s t : State} (h : readUpdateRegFile tm s = .ok t) :
    readUpdateRegFileLoop s.curr_Config.numRegs tm s.dispatch_head 0 s.heap s.reg_File =
      .ok (t.heap, t.reg_File) ∧
    t.sup = s.sup ∧ t.schedule_head = s.schedule_head ∧ t.dispatch_head = s.dispatch_head ∧
    t.totalMarked = s.totalMarked := by
  unfold readUpdateRegFile at h
  split at h
  · cases h
  · rename_i hp rf h1
    cases h
    exact ⟨h1, rfl, rfl, rfl, rfl⟩

theorem removeAllSUFromSched_loop {s t : State} (h : removeAllSUFromSched s = .ok t) :
    (∃ sz, removeAllSUFromSchedLoop s.sup s.schedule_head s.schedule_size =
      .ok (t.schedule_head, sz)) ∧
    t.heap = s.heap ∧ t.reg_File = s.reg_File ∧ t.dispatch_head = s.dispatch_head ∧
    t.totalMarked = s.totalMarked ∧ t.sup = s.sup := by
  unfold removeAllSUFromSched at h
  split at h
  · cases h
  · rename_i q sz h1
    cases h
    exact ⟨⟨sz, h1⟩, rfl, rfl, rfl, rfl, rfl⟩

theorem reserveScheduleSpots_fields {s t : State} (h : reserveScheduleSpots s = .ok t) :
    t.heap = s.heap ∧ t.reg_File = s.reg_File ∧ t.sup = s.sup ∧
    t.schedule_head = s.schedule_head ∧ t.curr_Config = s.curr_Config ∧
    t.dispatch_head.map (·.theInstr) = s.dispatch_head.map (·.theInstr) := by
  obtain ⟨e1, -, -⟩ := reserveScheduleSpots_spec h
  refine ⟨?_, ?_, ?_, ?_, ?_, ?_⟩
  · obtain ⟨_, _, rfl⟩ := reserveScheduleSpots_shape h; rfl
  · obtain ⟨_, _, rfl⟩ := reserveScheduleSpots_shape h; rfl
  · obtain ⟨_, _, rfl⟩ := reserveScheduleSpots_shape h; rfl
  · obtain ⟨_, _, rfl⟩ := reserveScheduleSpots_shape h; rfl
  · obtain ⟨_, _, rfl⟩ := reserveScheduleSpots_shape h; rfl
  · rw [e1, List.map_append, List.map_map]
    have : ((fun x : dispatch_node => x.theInstr) ∘
        fun x : dispatch_node => { x with mark_for_move := 1 }) = fun x => x.theInstr := rfl
    rw [this, ← List.map_append, List.take_append_drop]

/-- Phase C re-establishes the wake-up invariant: from a state in which every
not-ready source of a scheduling-queue entry and every not-ready register waits
for an instruction in the scheduling queue, and no dispatch node is reserved. -/
theorem WakeInv_phaseC {b t : State}
    (h1 : ∀ n ∈ b.schedule_head,
      Backed b.heap (b.schedule_head.map (·.theInstr)) n.theInstr ∧ FiredOk b.heap n)
    (h2 : RegBacked b.heap (b.schedule_head.map (·.theInstr)) b.reg_File)
    (hu : Unmarked b)
    (hnd : (b.schedule_head.map (·.theInstr) ++ b.dispatch_head.map (·.theInstr)).Nodup)
    (htag : ∀ q ∈ supPtrs b.sup, (b.heap q).dest_tag ≠ -5)
    (h : phaseC b = .ok t) : WakeInv t := by
  obtain ⟨s1, s3, s4, s6, s7, g1, g3, g4, g6, g7, rfl⟩ := phaseC_ok h
  obtain ⟨w1, hp1, su1, sc1, dp1, cf1⟩ := writeToRegFile_loop g1
  obtain ⟨hp3, rf3, su3, sc3, cf3, dp3⟩ := reserveScheduleSpots_fields g3
  have hu1 : Unmarked (setToFired s1) := by
    intro d hd
    have hd' : d ∈ s1.dispatch_head := hd
    rw [dp1] at hd'
    exact hu d hd'
  obtain ⟨m1, m2, m3, m4⟩ := MarkedPrefix_reserve hu1 g3
  obtain ⟨w4, su4, sc4, dp4, tm4⟩ := readUpdateRegFile_loop g4
  obtain ⟨⟨sz, w6⟩, hp6, rf6, dp6, tm6, su6⟩ := removeAllSUFromSched_loop g6
  have H3 : s3.heap = b.heap := hp3.trans hp1
  have S3 : s3.schedule_head = setToFiredLoop b.heap b.schedule_head := by
    rw [sc3]
    show setToFiredLoop s1.heap s1.schedule_head = _
    rw [hp1, sc1]
  have U3 : s3.sup = b.sup := su3.trans su1
  have D3 : s3.dispatch_head.map (·.theInstr) = b.dispatch_head.map (·.theInstr) := by
    rw [dp3]
    show s1.dispatch_head.map (·.theInstr) = _
    rw [dp1]
  have R1 := RegBacked_write w1 h2 htag
  have hschedNd : (b.schedule_head.map (·.theInstr)).Nodup := (List.nodup_append.1 hnd).1
  have hdispNd : (b.dispatch_head.map (·.theInstr)).Nodup := (List.nodup_append.1 hnd).2.1
  have hPsub : ∀ p ∈ (s3.dispatch_head.take s3.totalMarked.toNat).map (·.theInstr),
      p ∈ b.dispatch_head.map (·.theInstr) := by
    intro p hp
    rw [← D3]
    obtain ⟨d, hd, rfl⟩ := List.mem_map.1 hp
    exact List.mem_map.2 ⟨d, List.mem_of_mem_take hd, rfl⟩
  have hPnd : ((s3.dispatch_head.take s3.totalMarked.toNat).map (·.theInstr)).Nodup := by
    have : (s3.dispatch_head.map (·.theInstr)).Nodup := by rw [D3]; exact hdispNd
    exact this.sublist ((List.take_sublist _ _).map _)
  have hlen : (0 : Int) + ((s3.dispatch_head.take s3.totalMarked.toNat).length : Int)
      = s3.totalMarked := by
    rw [List.length_take, Nat.min_eq_left m2]; omega
  have w4' := w4
  rw [← List.take_append_drop s3.totalMarked.toNat s3.dispatch_head] at w4'
  have R3 : RegBacked s3.heap ((b.schedule_head.map (·.theInstr)).filter
      (fun q => decide (q ∉ supPtrs b.sup))) s3.reg_File := by
    rw [H3, rf3]
    exact R1
  obtain ⟨F1, F2⟩ := readUpdateRegFileLoop_backed _ _ _ _ 0 s3.heap s3.reg_File _ []
    m3 hlen hPnd (fun _ _ hx => absurd hx (List.not_mem_nil _)) R3
    (fun p hp => absurd hp (List.not_mem_nil _)) w4'
  have hdisj : ∀ p ∈ b.schedule_head.map (·.theInstr),
      p ∉ (s3.dispatch_head.take s3.totalMarked.toNat).map (·.theInstr) :=
    fun p hp hq => (List.nodup_append.1 hnd).2.2 hp (hPsub p hq)
  have H4 : ∀ p ∈ b.schedule_head.map (·.theInstr), s4.heap p = b.heap p := by
    intro p hp
    rw [F1 p (hdisj p hp), H3]
  have K4 : ∀ x, StaticKept (b.heap x) (s4.heap x) := by
    intro x
    have := StaticKept_of_sourcesSet (readUpdateRegFileLoop_heap _ _ _ _ _ _ w4 x)
    rw [H3] at this
    exact this
  have S4 : s4.schedule_head = setToFiredLoop b.heap b.schedule_head := sc4.trans S3
  have U4 : s4.sup = b.sup := su4.trans U3
  have hptr4 : s4.schedule_head.map (·.theInstr) = b.schedule_head.map (·.theInstr) := by
    rw [S4]; exact setToFiredLoop_ptrs _ _
  have hq4 : ∀ n ∈ s4.schedule_head, Flags01 (s4.heap n.theInstr) ∧ FiredOk s4.heap n := by
    intro n hn
    rw [S4] at hn
    obtain ⟨n0, hn0, e1, e2⟩ := setToFiredLoop_fired b.heap b.schedule_head n hn
    have hp0 : n0.theInstr ∈ b.schedule_head.map (·.theInstr) := List.mem_map.2 ⟨n0, hn0, rfl⟩
    obtain ⟨⟨f1, f2, -, -⟩, fo⟩ := h1 n0 hn0
    unfold FiredOk at fo ⊢
    rw [e1, H4 _ hp0]
    refine ⟨⟨f1, f2⟩, ?_⟩
    rcases e2 with e | ⟨e3, e4⟩
    · rw [e]; exact fo
    · exact Or.inr ⟨f1.resolve_left e3, f2.resolve_left e4⟩
  obtain ⟨W1, W2, W3⟩ := broadcastToSchedLoop_woke s4.heap s4.sup s4.schedule_head s4.heap
    (fun x => StaticKept_refl _) (by rw [hptr4]; exact hschedNd) hq4
  have K5 : ∀ x, StaticKept (s4.heap x)
      ((broadcastToSchedLoop s4.sup s4.schedule_head s4.heap).2 x) :=
    fun x => StaticKept_of_sourcesSet (broadcastToSchedLoop_heap _ _ _ x)
  have H6 : s6.heap = (broadcastToSchedLoop s4.sup s4.schedule_head s4.heap).2 := hp6
  have S6sub : ∀ n ∈ s6.schedule_head,
      n ∈ (broadcastToSchedLoop s4.sup s4.schedule_head s4.heap).1 :=
    removeAllSUFromSchedLoop_subset _ _ _ w6
  have P6 : List.Perm (supPtrs s4.sup ++ s6.schedule_head.map (·.theInstr))
      ((broadcastToSchedLoop s4.sup s4.schedule_head s4.heap).1.map (·.theInstr)) :=
    removeAllSUFromSchedLoop_perm _ _ _ w6
  rw [broadcastToSchedLoop_ptrs, hptr4, U4] at P6
  have hlive6 : ∀ q ∈ b.schedule_head.map (·.theInstr), q ∉ supPtrs b.sup →
      q ∈ s6.schedule_head.map (·.theInstr) := by
    intro q hq hns
    rcases List.mem_append.1 (P6.mem_iff.2 hq) with e | e
    · exact absurd e hns
    · exact e
  have hsub6 : ∀ q ∈ s6.schedule_head.map (·.theInstr), q ∈ b.schedule_head.map (·.theInstr) :=
    fun q hq => P6.mem_iff.1 (List.mem_append_right _ hq)
  have e7 : s7.heap = s6.heap ∧ s7.schedule_head = s6.schedule_head ∧
      s7.dispatch_head = s6.dispatch_head ∧ s7.totalMarked = s6.totalMarked ∧
      s7.reg_File = s6.reg_File := by
    obtain ⟨_, _, _, rfl⟩ := setToChosen_shape g7; exact ⟨rfl, rfl, rfl, rfl, rfl⟩
  have e8 : (markForExecution s7).heap = s7.heap ∧
      (markForExecution s7).dispatch_head = s7.dispatch_head ∧
      (markForExecution s7).totalMarked = s7.totalMarked ∧
      (markForExecution s7).reg_File = s7.reg_File := by
    obtain ⟨q, e⟩ := markForExecution_shape s7
    rw [e]; exact ⟨rfl, rfl, rfl, rfl⟩
  have hptr8 : (markForExecution s7).schedule_head.map (·.theInstr) =
      s6.schedule_head.map (·.theInstr) := by
    rw [markForExecution_ptrs, e7.2.1]
  have Theap : (markForExecution s7).heap =
      (broadcastToSchedLoop s4.sup s4.schedule_head s4.heap).2 := by
    rw [e8.1, e7.1, H6]
  have Treg : (markForExecution s7).reg_File = s4.reg_File := by
    rw [e8.2.2.2, e7.2.2.2.2, rf6]; rfl
  have Tmark : markedPtrs (markForExecution s7) =
      (s3.dispatch_head.take s3.totalMarked.toNat).map (·.theInstr) := by
    unfold markedPtrs
    rw [e8.2.1, e8.2.2.1, e7.2.2.1, e7.2.2.2.1, dp6, tm6]
    show (s4.dispatch_head.take s4.totalMarked.toNat).map (·.theInstr) = _
    rw [dp4, tm4]
  have hpool : ∀ q, q ∈ (b.schedule_head.map (·.theInstr)).filter
        (fun q => decide (q ∉ supPtrs b.sup)) ∨
      q ∈ (s3.dispatch_head.take s3.totalMarked.toNat).map (·.theInstr) →
      q ∈ (markForExecution s7).schedule_head.map (·.theInstr) ++
        markedPtrs (markForExecution s7) := by
    intro q hq
    rw [hptr8, Tmark, List.mem_append]
    rcases hq with e | e
    · rw [List.mem_filter] at e
      exact Or.inl (hlive6 q e.1 (by simpa using e.2))
    · exact Or.inr e
  obtain ⟨G1, G2⟩ := F2 _ hpool
  refine ⟨?_, ?_, ?_⟩
  · intro n hn
    have hn' : n ∈ (markForExecution s7).schedule_head := hn
    obtain ⟨n7, h7, e1, e2⟩ := markForExecution_fired s7 n hn'
    rw [e7.2.1] at h7
    have h5 := S6sub n7 h7
    have hp6' : n7.theInstr ∈ s6.schedule_head.map (·.theInstr) := List.mem_map.2 ⟨n7, h7, rfl⟩
    have hpb := hsub6 _ hp6'
    obtain ⟨n0, hn0, e0⟩ := List.mem_map.1 hpb
    have hb0 : Backed s4.heap (b.schedule_head.map (·.theInstr)) n7.theInstr := by
      have := (h1 n0 hn0).1
      rw [e0] at this
      refine Backed_of_kept ?_ (fun q _ => K4 q) this
      rw [H4 _ hpb]
      exact OpsKept_refl _
    have hw := W2 n7.theInstr (by rw [hptr4]; exact hpb)
    have hl : ∀ q ∈ b.schedule_head.map (·.theInstr), q ∉ supPtrs s4.sup →
        q ∈ s6.schedule_head.map (·.theInstr) :=
      fun q hq hns => hlive6 q hq (by rw [← U4]; exact hns)
    show Backed (markForExecution s7).heap ((markForExecution s7).schedule_head.map (·.theInstr))
        n.theInstr ∧ FiredOk (markForExecution s7).heap n
    rw [Theap, hptr8, e1]
    refine ⟨Backed_woke hb0 hw (fun q _ => K5 q) hl, ?_⟩
    have := W3 n7 h5
    unfold FiredOk at this ⊢
    rw [e1, e2]
    exact this
  · intro p hp
    have hp' : p ∈ markedPtrs (markForExecution s7) := hp
    show Backed (markForExecution s7).heap
      ((markForExecution s7).schedule_head.map (·.theInstr) ++
        markedPtrs (markForExecution s7)) p
    rw [Tmark] at hp'
    have hns : p ∉ s4.schedule_head.map (·.theInstr) := by
      rw [hptr4]
      exact fun hx => hdisj p hx hp'
    rw [Theap]
    refine Backed_of_kept ?_ (fun q _ => K5 q) (G2 p (Or.inr hp'))
    rw [W1 p hns]
    exact OpsKept_refl _
  · show RegBacked (markForExecution s7).heap
      ((markForExecution s7).schedule_head.map (·.theInstr) ++
        markedPtrs (markForExecution s7)) (markForExecution s7).reg_File
    rw [Theap, Treg]
    exact RegBacked_of_kept (fun q _ => K5 q) (fun _ hq => hq) G1

theorem phaseA_sup {s a : State} (h : phaseA s = .ok a) :
    ∃ s2, sendToSU s.clock (sendToFinal s) = .ok s2 ∧ a.sup = s2.sup := by
  obtain ⟨s2, s3, s4, s5, s6, h2, h3, h4, h5, h6, rfl⟩ := phaseA_ok h
  refine ⟨s2, h2, ?_⟩
  have e3 : s3.sup = s2.sup := by
    obtain ⟨_, _, _, _, rfl⟩ := resolveBranches_shape h3; rfl
  have e4 : s4.sup = s3.sup := by
    obtain ⟨_, _, _, _, _, rfl⟩ := moveToExecute_shape h4; rfl
  have e5 : s5.sup = s4.sup := by
    obtain ⟨_, _, _, _, rfl⟩ := dispatchToSchedule_shape h5; rfl
  have e6 : s6.sup = s5.sup := by
    obtain ⟨_, _, _, _, _, rfl⟩ := dispatch_Enqueue_shape h6; rfl
  have e7 : (readTrace s6.curr_Config.fetch_rate s6).sup = s6.sup := by
    obtain ⟨_, _, _, _, _, e⟩ := readTrace_shape s6.curr_Config.fetch_rate s6
    rw [e]
  rw [e7, e6, e5, e4, e3]

/-- An iteration keeps the wake-up invariant. -/
theorem WakeInv_cycle {s t : State} (hw : WakeInv s) (hi : TagInv s)
    (hst : StampInv (s.clock - 1) s) (hp : PoolInv s) (h : cycle s = .ok t) : WakeInv t := by
  obtain ⟨a, hA, hC⟩ := cycle_ok h
  obtain ⟨a1, a2⟩ := WakeInv_phaseA hw hi hst hA
  obtain ⟨-, -, u, acc⟩ := phaseA_lists hi hA
  obtain ⟨ops, -⟩ := phaseA_ops hA
  obtain ⟨s2, h2, esup⟩ := phaseA_sup hA
  obtain ⟨-, -, b3, -, -⟩ := sup_at_resolve hp hst h2
  obtain ⟨-, -, -, -, -, -, -, n2, -, -, -⟩ := sendToSU_settled h2
  obtain ⟨st, e⟩ := updateDispatchQueueSize_shape a
  rw [e] at hC
  refine WakeInv_phaseC (b := { a with myStats := st }) a1 a2 u ?_ ?_ hC
  · have hn := AccInv_nodup acc
    unfold inFlight frontPtrs at hn
    simp only [Bool.false_eq_true, if_false, List.nil_append] at hn
    rw [← List.append_assoc] at hn
    exact (List.nodup_append.1 hn).1
  · intro q hq
    have hq2 : q ∈ supPtrs s2.sup := by rw [← esup]; exact hq
    have hlt : q < s.nalloc := by
      have := b3 q hq2
      rw [n2] at this
      exact this
    show (a.heap q).dest_tag ≠ -5
    rw [(ops q hlt).1.2.1, hi.1.2.1 q hlt]
    omega

theorem WakeInv_init (numRegs k0 k1 k2 R F : Nat) (trace : List TraceLine) :
    WakeInv (proc_init numRegs k0 k1 k2 R F trace) := by
  refine ⟨fun n hn => absurd hn (List.not_mem_nil n), fun p hp => ?_, fun r hr => ?_⟩
  · simp [markedPtrs, proc_init] at hp
  · exact absurd rfl hr

theorem WakeInv_reachable (numRegs k0 k1 k2 R F : Nat) (trace : List TraceLine) {s : State}
    (h : Reachable (proc_init numRegs k0 k1 k2 R F trace) s) : WakeInv s := by
  induction h with
  | init => exact WakeInv_init numRegs k0 k1 k2 R F trace
  | step hr _ hc ih =>
    exact WakeInv_cycle ih (TagInv_reachable (TagInv_init numRegs k0 k1 k2 R F trace) hr)
      (StampInv_reachable (StampInv_init numRegs k0 k1 k2 R F trace _) hr)
      (PoolInv_reachable numRegs k0 k1 k2 R F trace hr) hc

/-- C20. At the top of the cycle loop of every run (the state after Phase C of
the cycle before), every scheduling-queue entry has ready flags 0 or 1, and each
of its sources that is not ready waits for a tag `T` whose producer is in flight:
an entry of the scheduling queue has `dest_tag = T` and writes the source
register, and that entry is in no state-update slot, so its broadcast is still to
come. -/
theorem no_lost_wakeup (numRegs k0 k1 k2 R F : Nat) (trace : List TraceLine) (s : State)
    (hr : Reachable (proc_init numRegs k0 k1 k2 R F trace) s) :
    ∀ n ∈ s.schedule_head,
      ((s.heap n.theInstr).source1_ready = 0 ∨ (s.heap n.theInstr).source1_ready = 1) ∧
      ((s.heap n.theInstr).source2_ready = 0 ∨ (s.heap n.theInstr).source2_ready = 1) ∧
      ((s.heap n.theInstr).source1_ready = 0 →
        ∃ m ∈ s.schedule_head,
          (s.heap m.theInstr).dest_tag = (s.heap n.theInstr).source1_tag ∧
          (s.heap m.theInstr).destReg = (s.heap n.theInstr).source1 ∧
          m.theInstr ∉ supPtrs s.sup) ∧
      ((s.heap n.theInstr).source2_ready = 0 →
        ∃ m ∈ s.schedule_head,
          (s.heap m.theInstr).dest_tag = (s.heap n.theInstr).source2_tag ∧
          (s.heap m.theInstr).destReg = (s.heap n.theInstr).source2 ∧
          m.theInstr ∉ supPtrs s.sup) := by
  intro n hn
  have hw := WakeInv_reachable numRegs k0 k1 k2 R F trace hr
  have hacc := (TagInv_reachable (TagInv_init numRegs k0 k1 k2 R F trace) hr).1
  obtain ⟨f1, f2, b1, b2⟩ := (hw.1 n hn).1
  refine ⟨f1, f2, ?_, ?_⟩
  · intro h0
    obtain ⟨q, hq, p1, p2⟩ := b1 h0
    obtain ⟨m, hm, rfl⟩ := List.mem_map.1 hq
    exact ⟨m, hm, p2, p1, AccInv_sched_not_sup hacc _ hq⟩
  · intro h0
    obtain ⟨q, hq, p1, p2⟩ := b2 h0
    obtain ⟨m, hm, rfl⟩ := List.mem_map.1 hq
    exact ⟨m, hm, p2, p1, AccInv_sched_not_sup hacc _ hq⟩

/-- Witness for C20: at the top of cycle 4 of the read-after-write scenario the
scheduling queue holds both instructions; source 1 of the second one (register 5)
is not ready and waits for tag 0, the tag of the first one. -/
theorem no_lost_wakeup_witness :
    (rawState 3).schedule_head.map (·.theInstr) = [0, 1] ∧
    ((rawState 3).heap 1).source1_ready = 0 ∧ ((rawState 3).heap 1).source1_tag = 0 ∧
    ((rawState 3).heap 0).dest_tag = 0 ∧ ((rawState 3).heap 0).destReg = 5 ∧
    ∀ n ∈ (rawState 3).schedule_head,
      (((rawState 3).heap n.theInstr).source1_ready = 0 →
        ∃ m ∈ (rawState 3).schedule_head,
          ((rawState 3).heap m.theInstr).dest_tag = ((rawState 3).heap n.theInstr).source1_tag ∧
          ((rawState 3).heap m.theInstr).destReg = ((rawState 3).heap n.theInstr).source1 ∧
          m.theInstr ∉ supPtrs (rawState 3).sup) :=
  ⟨by decide!, by decide!, by decide!, by decide!, by decide!,
    fun n hn => (no_lost_wakeup 128 3 2 1 2 4 rawTrace (rawState 3)
      (rawState_reachable 3 rfl) n hn).2.2.1⟩

/-! ## `readUpdateRegFile` against its specification -/

theorem readSource_ready {rf : Int → Int × Int} {nr : Nat} {src : Int}
    (h : src = -1 ∨ (0 ≤ src ∧ src < (nr : Int) ∧ EntryOk (rf src))) :
    readSource rf nr src = .ok ((specSource rf src).1, (specSource rf src).2) := by
  unfold readSource specSource
  by_cases h1 : src = -1
  · rw [if_pos h1, if_pos (Or.inl h1)]
  · rcases h with h | ⟨a, b, c1, c2⟩
    · exact absurd h h1
    · rw [if_neg h1, if_pos ⟨a, b⟩]
      by_cases h2 : (rf src).1 = 1
      · rw [if_pos h2, if_pos (c1 h2), if_pos (Or.inr h2)]
      · rw [if_neg h2, if_pos (c2 h2), if_neg (by tauto)]

theorem specReadEntry_static (p : Nat) (x : (Nat → instr) × (Int → Int × Int)) (y : Nat) :
    StaticKept (x.1 y) ((specReadEntry p x).1 y) := by
  unfold specReadEntry
  by_cases hy : y = p
  · subst hy; simp only [setInstr, if_true]; exact ⟨rfl, rfl, rfl, rfl⟩
  · simp only [setInstr, if_neg hy]; exact StaticKept_refl _

theorem specReadEntry_file (p : Nat) (x : (Nat → instr) × (Int → Int × Int)) (r : Int) :
    (specReadEntry p x).2 r = x.2 r ∨ (specReadEntry p x).2 r = (0, (x.1 p).dest_tag) := by
  unfold specReadEntry
  simp only
  split
  · by_cases hr : r = (x.1 p).destReg
    · right; simp [setReg, hr]
    · left; simp [setReg, hr]
  · exact Or.inl rfl

theorem ReadReady_step {nr : Nat} {rf rf1 : Int → Int × Int} {i j : instr} {T : Int}
    (hk : StaticKept i j) (hT : -1 < T) (hrf : ∀ r, rf1 r = rf r ∨ rf1 r = (0, T))
    (h : ReadReady nr rf i) : ReadReady nr rf1 j := by
  obtain ⟨k1, k2, k3, k4⟩ := hk
  obtain ⟨h1, h2, h3, h4⟩ := h
  have hok : ∀ r, EntryOk (rf r) → EntryOk (rf1 r) := by
    intro r hr
    rcases hrf r with e | e
    · rw [e]; exact hr
    · rw [e]; exact ⟨fun hx => absurd (show (0 : Int) = 1 from hx) (by decide), fun _ => hT⟩
  unfold ReadReady
  rw [k1, k2, k3, k4]
  refine ⟨?_, ?_, h3, h4⟩
  · rcases h1 with e | ⟨a, b, c⟩
    · exact Or.inl e
    · exact Or.inr ⟨a, b, hok _ c⟩
  · rcases h2 with e | ⟨a, b, c⟩
    · exact Or.inl e
    · exact Or.inr ⟨a, b, hok _ c⟩

/-- The loop of `readUpdateRegFile` over the reserved prefix `P` of the dispatch
queue returns what the specification computes. -/
theorem readUpdateRegFileLoop_refines (nr : Nat) (tm : Int) :
    ∀ (P rest : List dispatch_node) (count : Int) (heap : Nat → instr) (rf : Int → Int × Int),
    (∀ d ∈ P, d.mark_for_move = 1) → count + (P.length : Int) = tm →
    (∀ d ∈ P, ReadReady nr rf (heap d.theInstr)) →
    readUpdateRegFileLoop nr tm (P ++ rest) count heap rf =
      .ok (specReadUpdate (P.map (·.theInstr)) heap rf) := by
  intro P
  induction P with
  | nil =>
    intro rest count heap rf _ hc _
    simp only [List.length_nil, Nat.cast_zero, add_zero] at hc
    cases rest with
    | nil => simp only [List.append_nil, readUpdateRegFileLoop]; rfl
    | cons d rest' => simp only [List.nil_append, readUpdateRegFileLoop, hc, if_true]; rfl
  | cons d P' ih =>
    intro rest count heap rf hm hc hr
    have hd : d.mark_for_move = 1 := hm d (List.mem_cons_self _ _)
    have hne : count ≠ tm := by
      simp only [List.length_cons, Nat.cast_add, Nat.cast_one] at hc; omega
    have hm' : ∀ x ∈ P', x.mark_for_move = 1 := fun x hx => hm x (List.mem_cons_of_mem _ hx)
    have hc' : count + 1 + (P'.length : Int) = tm := by
      simp only [List.length_cons, Nat.cast_add, Nat.cast_one] at hc; omega
    obtain ⟨r1, r2, r3, r4⟩ := hr d (List.mem_cons_self _ _)
    have hr' : ∀ x ∈ P', ReadReady nr (specReadEntry d.theInstr (heap, rf)).2
        ((specReadEntry d.theInstr (heap, rf)).1 x.theInstr) := by
      intro x hx
      exact ReadReady_step (specReadEntry_static d.theInstr (heap, rf) x.theInstr) r4
        (specReadEntry_file d.theInstr (heap, rf)) (hr x (List.mem_cons_of_mem _ hx))
    have hspec : specReadUpdate ((d :: P').map (·.theInstr)) heap rf =
        specReadUpdate (P'.map (·.theInstr)) (specReadEntry d.theInstr (heap, rf)).1
          (specReadEntry d.theInstr (heap, rf)).2 := rfl
    have hrec := ih rest (count + 1) _ _ hm' hc' hr'
    rw [hspec, ← hrec]
    rw [List.cons_append, readUpdateRegFileLoop, if_neg hne, if_pos hd]
    simp only
    rw [readSource_ready r1, readSource_ready r2]
    simp only
    rcases r3 with e | ⟨a, b⟩
    · rw [if_pos e]
      have hno : ¬ (0 : Int) ≤ (heap d.theInstr).destReg := by rw [e]; decide
      unfold specReadEntry
      simp only [if_neg hno]
    · have hne1 : (heap d.theInstr).destReg ≠ -1 := by omega
      rw [if_neg hne1, if_pos ⟨a, b⟩]
      unfold specReadEntry
      simp only [if_pos a]

/-- C21. For a state whose reserved dispatch nodes are the first `totalMarked`
nodes of the queue and whose reserved instructions name registers that are
absent or in the file, with file entries as `readUpdateRegFile` expects them:
the call returns, and the heap and register file are those of the specification
run over the reserved instructions in queue order, where each step first gives
each source `(ready 1, tag -5)` if its register is -1 or the file entry is
ready and else `(ready 0, the file's tag)`, and only then, if `destReg >= 0`,
writes `(ready 0, own tag)` to the file.  Hence an instruction whose source
register is its own destination captures the tag that was in the file before,
and the instruction reserved right after another one captures that one's tag
when it reads the register the other writes. -/
theorem read_update_in_order (s : State) (hm : MarkedPrefix s)
    (hr : ∀ p ∈ markedPtrs s, ReadReady s.curr_Config.numRegs s.reg_File (s.heap p)) :
    readUpdateRegFile s.totalMarked s =
      .ok { s with heap := (specReadUpdate (markedPtrs s) s.heap s.reg_File).1,
                   reg_File := (specReadUpdate (markedPtrs s) s.heap s.reg_File).2 } ∧
    (∀ (heap : Nat → instr) (rf : Int → Int × Int) (p : Nat),
      0 ≤ (heap p).destReg → (rf (heap p).destReg).1 ≠ 1 →
      (specReadEntry p (heap, rf)).2 (heap p).destReg = (0, (heap p).dest_tag) ∧
      ((heap p).source1 = (heap p).destReg →
        ((specReadEntry p (heap, rf)).1 p).source1_tag = (rf (heap p).destReg).2 ∧
        ((specReadEntry p (heap, rf)).1 p).source1_ready = 0) ∧
      ((heap p).source2 = (heap p).destReg →
        ((specReadEntry p (heap, rf)).1 p).source2_tag = (rf (heap p).destReg).2 ∧
        ((specReadEntry p (heap, rf)).1 p).source2_ready = 0)) ∧
    (∀ (heap : Nat → instr) (rf : Int → Int × Int) (p q : Nat),
      p ≠ q → 0 ≤ (heap p).destReg →
      ((heap q).source1 = (heap p).destReg →
        ((specReadUpdate [p, q] heap rf).1 q).source1_tag = (heap p).dest_tag ∧
        ((specReadUpdate [p, q] heap rf).1 q).source1_ready = 0) ∧
      ((heap q).source2 = (heap p).destReg →
        ((specReadUpdate [p, q] heap rf).1 q).source2_tag = (heap p).dest_tag ∧
        ((specReadUpdate [p, q] heap rf).1 q).source2_ready = 0)) := by
  refine ⟨?_, ?_, ?_⟩
  · obtain ⟨m1, m2, m3, m4⟩ := hm
    have hlen : (0 : Int) + ((s.dispatch_head.take s.totalMarked.toNat).length : Int)
        = s.totalMarked := by
      rw [List.length_take, Nat.min_eq_left m2]; omega
    have hr' : ∀ d ∈ s.dispatch_head.take s.totalMarked.toNat,
        ReadReady s.curr_Config.numRegs s.reg_File (s.heap d.theInstr) :=
      fun d hd => hr _ (List.mem_map.2 ⟨d, hd, rfl⟩)
    have key := readUpdateRegFileLoop_refines s.curr_Config.numRegs s.totalMarked
      (s.dispatch_head.take s.totalMarked.toNat) (s.dispatch_head.drop s.totalMarked.toNat)
      0 s.heap s.reg_File m3 hlen hr'
    rw [List.take_append_drop] at key
    unfold readUpdateRegFile
    rw [key]
    rfl
  · intro heap rf p hd hn
    have hne : ¬ ((heap p).destReg = -1 ∨ (rf (heap p).destReg).1 = 1) := by
      intro hx
      rcases hx with e | e
      · rw [e] at hd; exact absurd hd (by decide)
      · exact hn e
    refine ⟨?_, ?_, ?_⟩
    · unfold specReadEntry
      simp only [if_pos hd, setReg, if_true]
    · intro e
      unfold specReadEntry specSource
      simp only [setInstr, if_true, e, if_neg hne, and_self]
    · intro e
      unfold specReadEntry specSource
      simp only [setInstr, if_true, e, if_neg hne, and_self]
  · intro heap rf p q hpq hd
    have hqp : q ≠ p := fun e => hpq e.symm
    have h1 : (specReadEntry p (heap, rf)).1 q = heap q := by
      unfold specReadEntry
      simp only [setInstr, if_neg hqp]
    have h2 : (specReadEntry p (heap, rf)).2 (heap p).destReg = (0, (heap p).dest_tag) := by
      unfold specReadEntry
      simp only [if_pos hd, setReg, if_true]
    have hfold : specReadUpdate [p, q] heap rf =
        specReadEntry q (specReadEntry p (heap, rf)) := rfl
    rw [hfold]
    have hne : ¬ ((heap p).destReg = -1 ∨
        ((specReadEntry p (heap, rf)).2 (heap p).destReg).1 = 1) := by
      intro hx
      rcases hx with e | e
      · rw [e] at hd; exact absurd hd (by decide)
      · rw [h2] at e; exact absurd (show (0 : Int) = 1 from e) (by decide)
    refine ⟨?_, ?_⟩
    · intro e
      have hs : specSource (specReadEntry p (heap, rf)).2
          ((specReadEntry p (heap, rf)).1 q).source1 = ((heap p).dest_tag, 0) := by
        rw [h1, e]
        unfold specSource
        rw [if_neg hne, h2]
      generalize specReadEntry p (heap, rf) = x at hs
      unfold specReadEntry
      simp only [setInstr, if_true, hs, and_self]
    · intro e
      have hs : specSource (specReadEntry p (heap, rf)).2
          ((specReadEntry p (heap, rf)).1 q).source2 = ((heap p).dest_tag, 0) := by
        rw [h1, e]
        unfold specSource
        rw [if_neg hne, h2]
      generalize specReadEntry p (heap, rf) = x at hs
      unfold specReadEntry
      simp only [setInstr, if_true, hs, and_self]

/-- Witness for C21: in the iteration of cycle 2 of the read-after-write scenario
both instructions are reserved; the call gives the second one, which reads
register 5, the tag 0 of the first one, which writes register 5 in the same
batch, and leaves registers 5 and 6 not ready under the tags 0 and 1. -/
theorem read_update_in_order_witness :
    markedPtrs rawBeforeRead = [0, 1] ∧ (rawBeforeRead.heap 0).destReg = 5 ∧
    (rawBeforeRead.heap 1).source1 = 5 ∧ rawBeforeRead.reg_File 5 = (1, -5) ∧
    ((specReadUpdate (markedPtrs rawBeforeRead) rawBeforeRead.heap
      rawBeforeRead.reg_File).1 1).source1_tag = 0 ∧
    ((specReadUpdate (markedPtrs rawBeforeRead) rawBeforeRead.heap
      rawBeforeRead.reg_File).1 1).source1_ready = 0 ∧
    (specReadUpdate (markedPtrs rawBeforeRead) rawBeforeRead.heap
      rawBeforeRead.reg_File).2 5 = (0, 0) ∧
    (specReadUpdate (markedPtrs rawBeforeRead) rawBeforeRead.heap
      rawBeforeRead.reg_File).2 6 = (0, 1) ∧
    readUpdateRegFile rawBeforeRead.totalMarked rawBeforeRead =
      .ok { rawBeforeRead with
            heap := (specReadUpdate (markedPtrs rawBeforeRead) rawBeforeRead.heap
              rawBeforeRead.reg_File).1,
            reg_File := (specReadUpdate (markedPtrs rawBeforeRead) rawBeforeRead.heap
              rawBeforeRead.reg_File).2 } :=
  ⟨by decide!, by decide!, by decide!, by decide!, by decide!, by decide!, by decide!,
    by decide!,
    (read_update_in_order rawBeforeRead (by unfold MarkedPrefix; decide!)
      (by unfold ReadReady EntryOk; decide!)).1⟩

/-! ## `writeToRegFile` against its specification -/

/-- The loop of `writeToRegFile` returns, and a register ends as
`(ready 1, tag -5)` if an occupant completes it and unchanged otherwise. -/
theorem writeToRegFileLoop_exact (heap : Nat → instr) (nr : Nat) :
    ∀ (u : List (Option Nat)) (rf : Int → Int × Int),
    (∀ p ∈ supPtrs u, WriteReady nr rf (heap p)) →
    ∃ rf', writeToRegFileLoop heap nr u rf = .ok rf' ∧
      ∀ r, ((∃ p ∈ supPtrs u, completes heap rf r p = true) → rf' r = (1, -5)) ∧
        ((¬ ∃ p ∈ supPtrs u, completes heap rf r p = true) → rf' r = rf r) := by
  intro u
  induction u with
  | nil =>
    intro rf _
    refine ⟨rf, rfl, fun r => ⟨?_, fun _ => rfl⟩⟩
    rintro ⟨p, hp, -⟩
    simp [supPtrs] at hp
  | cons x rest ih =>
    intro rf hr
    cases x with
    | none =>
      have e : supPtrs (none :: rest) = supPtrs rest := by simp [supPtrs]
      rw [e] at hr ⊢
      obtain ⟨rf', h1, h2⟩ := ih rf hr
      exact ⟨rf', by rw [writeToRegFileLoop]; exact h1, h2⟩
    | some p0 =>
      have e : supPtrs (some p0 :: rest) = p0 :: supPtrs rest := by simp [supPtrs]
      rw [e] at hr ⊢
      obtain ⟨hd0, ht0⟩ := hr p0 (List.mem_cons_self _ _)
      have hrest : ∀ p ∈ supPtrs rest, WriteReady nr rf (heap p) :=
        fun p hp => hr p (List.mem_cons_of_mem _ hp)
      have hsame : (¬ (0 ≤ (heap p0).destReg ∧ (rf (heap p0).destReg).2 = (heap p0).dest_tag)) →
          writeToRegFileLoop heap nr (some p0 :: rest) rf = writeToRegFileLoop heap nr rest rf := by
        intro hno
        rw [writeToRegFileLoop]
        rcases hd0 with e0 | ⟨a, b, c⟩
        · rw [if_pos e0]
        · rw [if_neg (by omega), if_pos ⟨a, b⟩, if_neg (fun hx => hno ⟨a, hx⟩)]
      by_cases hmatch : 0 ≤ (heap p0).destReg ∧ (rf (heap p0).destReg).2 = (heap p0).dest_tag
      · obtain ⟨a, htag⟩ := hmatch
        rcases hd0 with e0 | ⟨-, b, c⟩
        · rw [e0] at a; exact absurd a (by decide)
        · have hstep : writeToRegFileLoop heap nr (some p0 :: rest) rf =
              writeToRegFileLoop heap nr rest (setReg rf (heap p0).destReg (1, -5)) := by
            rw [writeToRegFileLoop]
            rw [if_neg (by omega), if_pos ⟨a, b⟩, if_pos htag, if_pos (c htag)]
          have hrest1 : ∀ p ∈ supPtrs rest,
              WriteReady nr (setReg rf (heap p0).destReg (1, -5)) (heap p) := by
            intro p hp
            obtain ⟨g1, g2⟩ := hrest p hp
            refine ⟨?_, g2⟩
            rcases g1 with g | ⟨g3, g4, g5⟩
            · exact Or.inl g
            · refine Or.inr ⟨g3, g4, ?_⟩
              by_cases hx : (heap p).destReg = (heap p0).destReg
              · intro hy
                simp only [setReg, hx, if_true] at hy
                exact absurd hy.symm g2
              · simp only [setReg, if_neg hx]
                exact g5
          obtain ⟨rf', h1, h2⟩ := ih _ hrest1
          refine ⟨rf', by rw [hstep]; exact h1, ?_⟩
          intro r
          by_cases hrd : r = (heap p0).destReg
          · subst hrd
            have hnone : ¬ ∃ p ∈ supPtrs rest,
                completes heap (setReg rf (heap p0).destReg (1, -5)) (heap p0).destReg p = true := by
              rintro ⟨p, hp, hc⟩
              simp only [completes, setReg, if_true, decide_eq_true_eq] at hc
              exact (hrest p hp).2 hc.2.2
            have hfin : rf' (heap p0).destReg = (1, -5) := by
              rw [(h2 _).2 hnone]
              simp [setReg]
            exact ⟨fun _ => hfin, fun hno => absurd
              ⟨p0, List.mem_cons_self _ _, by simp [completes, a, htag]⟩ hno⟩
          · have hrf : setReg rf (heap p0).destReg (1, -5) r = rf r := by
              simp only [setReg, if_neg hrd]
            have hiff : ∀ p, completes heap (setReg rf (heap p0).destReg (1, -5)) r p =
                completes heap rf r p := by
              intro p
              unfold completes
              rw [hrf]
            have hp0 : completes heap rf r p0 = false := by
              simp only [completes, decide_eq_false_iff_not]
              exact fun hx => hrd hx.1.symm
            refine ⟨?_, ?_⟩
            · rintro ⟨p, hp, hc⟩
              rcases List.mem_cons.1 hp with e1 | e1
              · rw [e1, hp0] at hc; cases hc
              · exact (h2 r).1 ⟨p, e1, by rw [hiff]; exact hc⟩
            · intro hno
              rw [(h2 r).2 (fun ⟨p, hp, hc⟩ =>
                hno ⟨p, List.mem_cons_of_mem _ hp, by rw [← hiff]; exact hc⟩), hrf]
      · obtain ⟨rf', h1, h2⟩ := ih rf hrest
        refine ⟨rf', by rw [hsame hmatch]; exact h1, ?_⟩
        intro r
        have hp0 : completes heap rf r p0 = false := by
          simp only [completes, decide_eq_false_iff_not]
          rintro ⟨e1, e2, e3⟩
          subst e1
          exact hmatch ⟨e2, e3.symm⟩
        refine ⟨?_, ?_⟩
        · rintro ⟨p, hp, hc⟩
          rcases List.mem_cons.1 hp with e1 | e1
          · rw [e1, hp0] at hc; cases hc
          · exact (h2 r).1 ⟨p, e1, hc⟩
        · intro hno
          exact (h2 r).2 (fun ⟨p, hp, hc⟩ => hno ⟨p, List.mem_cons_of_mem _ hp, hc⟩)

/-- C22. For a state in which every occupant of the state-update array writes
no register (-1) or a register of the file, has a tag other than -5, and finds
the entry that carries its tag not ready: `writeToRegFile` returns, changes the
register file only, and the file is the one of the specification: the entry of
register `r` is `(ready 1, tag -5)` exactly when some occupied slot holds an
instruction with `destReg = r`, `r >= 0` and `dest_tag` equal to the tag of the
entry, and it is unchanged otherwise, also when an occupant writes `r` but the
entry carries another tag. -/
theorem write_back_exact (s : State)
    (hr : ∀ p ∈ supPtrs s.sup, WriteReady s.curr_Config.numRegs s.reg_File (s.heap p)) :
    writeToRegFile s = .ok { s with reg_File := specWriteBack s.heap s.sup s.reg_File } ∧
    (∀ r, (∃ p ∈ supPtrs s.sup, (s.heap p).destReg = r ∧ 0 ≤ r ∧
        (s.heap p).dest_tag = (s.reg_File r).2) →
      specWriteBack s.heap s.sup s.reg_File r = (1, -5)) ∧
    (∀ r, (∀ p ∈ supPtrs s.sup, (s.heap p).destReg = r → 0 ≤ r →
        (s.heap p).dest_tag ≠ (s.reg_File r).2) →
      specWriteBack s.heap s.sup s.reg_File r = s.reg_File r) := by
  obtain ⟨rf', h1, h2⟩ := writeToRegFileLoop_exact s.heap s.curr_Config.numRegs s.sup s.reg_File hr
  have hany : ∀ r, (supPtrs s.sup).any (completes s.heap s.reg_File r) = true ↔
      ∃ p ∈ supPtrs s.sup, completes s.heap s.reg_File r p = true := by
    intro r
    rw [List.any_eq_true]
  refine ⟨?_, ?_, ?_⟩
  · unfold writeToRegFile
    rw [h1]
    have : rf' = specWriteBack s.heap s.sup s.reg_File := by
      funext r
      unfold specWriteBack
      by_cases hc : ∃ p ∈ supPtrs s.sup, completes s.heap s.reg_File r p = true
      · rw [if_pos ((hany r).2 hc), (h2 r).1 hc]
      · rw [if_neg (fun hx => hc ((hany r).1 hx)), (h2 r).2 hc]
    rw [this]
  · rintro r ⟨p, hp, e1, e2, e3⟩
    unfold specWriteBack
    rw [if_pos ((hany r).2 ⟨p, hp, by simp [completes, e1, e2, e3]⟩)]
  · intro r hno
    unfold specWriteBack
    rw [if_neg]
    intro hx
    obtain ⟨p, hp, hc⟩ := (hany r).1 hx
    simp only [completes, decide_eq_true_eq] at hc
    exact hno p hp hc.1 hc.2.1 hc.2.2

/-- Witness for C22: in the iteration of cycle 5 of the read-after-write scenario
the first instruction (tag 0, destination 5) is in the state-update array; the
entry of register 5 carries tag 0 and becomes ready, the entry of register 6
carries tag 1 and stays as it is. -/
theorem write_back_exact_witness :
    rawBeforeWrite.sup = [some 0, none] ∧ (rawBeforeWrite.heap 0).destReg = 5 ∧
    (rawBeforeWrite.heap 0).dest_tag = 0 ∧ rawBeforeWrite.reg_File 5 = (0, 0) ∧
    rawBeforeWrite.reg_File 6 = (0, 1) ∧
    specWriteBack rawBeforeWrite.heap rawBeforeWrite.sup rawBeforeWrite.reg_File 5 = (1, -5) ∧
    specWriteBack rawBeforeWrite.heap rawBeforeWrite.sup rawBeforeWrite.reg_File 6 = (0, 1) ∧
    writeToRegFile rawBeforeWrite =
      .ok { rawBeforeWrite with
            reg_File := specWriteBack rawBeforeWrite.heap rawBeforeWrite.sup
              rawBeforeWrite.reg_File } :=
  ⟨by decide!, by decide!, by decide!, by decide!, by decide!, by decide!, by decide!,
    (write_back_exact rawBeforeWrite (by unfold WriteReady; decide!)).1⟩

/-! ### Completion arbitration, exactly -/

theorem numFilled_eq : ∀ k : List (Option execute_node), numFilled k = (fuPtrs k).length := by
  intro k
  induction k with
  | nil => rfl
  | cons x rest ih =>
    cases x with
    | none => rw [numFilled, ih]; simp [fuPtrs]
    | some n => rw [numFilled, ih]; simp [fuPtrs]

theorem getNumPossible_eq (s : State) : getNumPossible s = (fuAll s).length := by
  unfold getNumPossible fuAll
  rw [numFilled_eq, numFilled_eq, numFilled_eq]
  simp only [List.length_append]

theorem findMinCyclePool_attained (heap : Nat → instr) :
    ∀ (k : List (Option execute_node)) (c : Int),
      findMinCyclePool heap k c = c ∨
        ∃ n, some n ∈ k ∧ n.chosen ≠ 1 ∧ (heap n.theInstr).exec = findMinCyclePool heap k c := by
  intro k
  induction k with
  | nil => intro c; exact Or.inl rfl
  | cons x rest ih =>
    intro c
    cases x with
    | none =>
      rw [findMinCyclePool]
      rcases ih c with e | ⟨n, h1, h2, h3⟩
      · exact Or.inl e
      · exact Or.inr ⟨n, List.mem_cons_of_mem _ h1, h2, h3⟩
    | some m =>
      rw [findMinCyclePool]
      split
      · rename_i hm
        rcases ih (heap m.theInstr).exec with e | ⟨n, h1, h2, h3⟩
        · exact Or.inr ⟨m, List.mem_cons_self _ _, hm.1, e.symm⟩
        · exact Or.inr ⟨n, List.mem_cons_of_mem _ h1, h2, h3⟩
      · rcases ih c with e | ⟨n, h1, h2, h3⟩
        · exact Or.inl e
        · exact Or.inr ⟨n, List.mem_cons_of_mem _ h1, h2, h3⟩

/-- When some unchosen occupant exists, the cycle `findMinCycle` returns is the
execute cycle of an unchosen occupant. -/
theorem findMinCycle_attained (s : State) {m : execute_node}
    (hm : some m ∈ s.k_0 ∨ some m ∈ s.k_1 ∨ some m ∈ s.k_2) (hc : m.chosen ≠ 1)
    (he : (s.heap m.theInstr).exec ≤ INT_MAX) :
    ∃ n, (some n ∈ s.k_0 ∨ some n ∈ s.k_1 ∨ some n ∈ s.k_2) ∧ n.chosen ≠ 1 ∧
      (s.heap n.theInstr).exec = findMinCycle s := by
  have hle := findMinCycle_le s m hm hc
  unfold findMinCycle at hle ⊢
  rcases findMinCyclePool_attained s.heap s.k_2
      (findMinCyclePool s.heap s.k_1 (findMinCyclePool s.heap s.k_0 INT_MAX)) with
    e2 | ⟨n, h1, h2, h3⟩
  · rcases findMinCyclePool_attained s.heap s.k_1 (findMinCyclePool s.heap s.k_0 INT_MAX) with
      e1 | ⟨n, h1, h2, h3⟩
    · rcases findMinCyclePool_attained s.heap s.k_0 INT_MAX with e0 | ⟨n, h1, h2, h3⟩
      · refine ⟨m, hm, hc, ?_⟩
        rw [e2, e1, e0] at hle ⊢
        omega
      · exact ⟨n, Or.inl h1, h2, by rw [e2, e1]; exact h3⟩
    · exact ⟨n, Or.inr (Or.inl h1), h2, by rw [e2]; exact h3⟩
  · exact ⟨n, Or.inr (Or.inr h1), h2, h3⟩

/-- The search of `getMinNode` finds a node whenever an unchosen occupant exists
and the unchosen occupants have tags below `INT_MAX` and execute cycles at most
`INT_MAX`: the local `toReturn` is never returned uninitialised. -/
theorem getMinNode_some (s : State) {m : execute_node}
    (hm : some m ∈ s.k_0 ∨ some m ∈ s.k_1 ∨ some m ∈ s.k_2) (hc : m.chosen ≠ 1)
    (hb : ∀ n, (some n ∈ s.k_0 ∨ some n ∈ s.k_1 ∨ some n ∈ s.k_2) → n.chosen ≠ 1 →
      (s.heap n.theInstr).dest_tag < INT_MAX ∧ (s.heap n.theInstr).exec ≤ INT_MAX) :
    ∃ pool i, getMinNode s = some (pool, i) := by
  obtain ⟨n, hn, hnc, hne⟩ := findMinCycle_attained s hm hc (hb m hm hc).2
  have hnt := (hb n hn hnc).1
  by_contra hno
  have hnone : getMinNode s = none := by
    cases hg : getMinNode s with
    | none => rfl
    | some x => exact absurd ⟨x.1, x.2, hg⟩ hno
  unfold getMinNode at hnone
  obtain ⟨a1, a2, a3, a4⟩ := getMinNodePool_spec s.heap 0 s.k_0 0 (INT_MAX, findMinCycle s, none)
  generalize getMinNodePool s.heap 0 s.k_0 0 (INT_MAX, findMinCycle s, none) = r0
    at hnone a1 a2 a3 a4
  obtain ⟨b1, b2, b3, b4⟩ := getMinNodePool_spec s.heap 1 s.k_1 0 r0
  generalize getMinNodePool s.heap 1 s.k_1 0 r0 = r1 at hnone b1 b2 b3 b4
  obtain ⟨c1, c2, c3, c4⟩ := getMinNodePool_spec s.heap 2 s.k_2 0 r1
  generalize getMinNodePool s.heap 2 s.k_2 0 r1 = r2 at hnone c1 c2 c3 c4
  have e2 : r2 = r1 := by
    rcases c3 with e | ⟨j, n', -, -, e⟩
    · exact e
    · rw [e] at hnone; cases hnone
  subst e2
  have e1 : r2 = r0 := by
    rcases b3 with e | ⟨j, n', -, -, e⟩
    · exact e
    · rw [e] at hnone; cases hnone
  subst e1
  have e0 : r2 = (INT_MAX, findMinCycle s, none) := by
    rcases a3 with e | ⟨j, n', -, -, e⟩
    · exact e
    · rw [e] at hnone; cases hnone
  subst e0
  have hle : (s.heap n.theInstr).exec ≤ findMinCycle s := le_of_eq hne
  rcases hn with h | h | h
  · have := a4 n h hnc hle
    simp only at this
    omega
  · have := b4 n h hnc hle
    simp only at this
    omega
  · have := c4 n h hnc hle
    simp only at this
    omega

theorem markChosen_chosen : ∀ (k : List (Option execute_node)) (i : Nat) (n : execute_node),
    k[i]? = some (some n) → n.chosen ≠ 1 →
    List.Perm (chosenPtrs (markChosen k i)) (n.theInstr :: chosenPtrs k) := by
  intro k
  induction k with
  | nil => intro i n h; simp at h
  | cons x rest ih =>
    intro i n h hc
    cases i with
    | zero =>
      simp only [List.getElem?_cons_zero, Option.some.injEq] at h
      subst h
      rw [markChosen, chosenPtrs_some, chosenPtrs_some, if_neg hc]
      simp only [if_true]
      exact List.Perm.refl _
    | succ i =>
      simp only [List.getElem?_cons_succ] at h
      have p1 := ih i n h hc
      rw [markChosen]
      cases x with
      | none =>
        rw [chosenPtrs_none, chosenPtrs_none]
        exact p1
      | some m =>
        rw [chosenPtrs_some, chosenPtrs_some]
        split
        · exact (List.Perm.cons _ p1).trans (List.Perm.swap _ _ _)
        · exact p1

theorem setToChosenLoop_turn (d np : Nat) (s : State) {pool i : Nat}
    (h : getMinNode s = some (pool, i)) :
    setToChosenLoop (d + 1) (np + 1) s = setToChosenLoop d np (chooseTurn s pool i) := by
  rw [setToChosenLoop, h]
  unfold chooseTurn
  simp only
  split_ifs <;> rfl

theorem setToChosenLoop_out (d : Nat) (s : State) : setToChosenLoop d 0 s = .ok s := by
  cases d <;> rfl

/-- A run of the loop of `setToChosen` passes through the state its first `k`
turns leave. -/
theorem setToChosenLoop_split : ∀ (k d np : Nat) (s : State), k ≤ np →
    setToChosenLoop (k + d) np s =
      (match setToChosenLoop k np s with
        | .error e => .error e
        | .ok σ => setToChosenLoop d (np - k) σ) := by
  intro k
  induction k with
  | zero =>
    intro d np s _
    rw [Nat.zero_add]
    show _ = setToChosenLoop d (np - 0) s
    rfl
  | succ k ih =>
    intro d np s hk
    obtain ⟨np', rfl⟩ : ∃ np', np = np' + 1 := ⟨np - 1, by omega⟩
    rw [show k + 1 + d = (k + d) + 1 by omega]
    cases hg : getMinNode s with
    | none =>
      rw [setToChosenLoop, setToChosenLoop, hg]
    | some x =>
      obtain ⟨pool, i⟩ := x
      rw [setToChosenLoop_turn _ _ _ hg, setToChosenLoop_turn _ _ _ hg, ih d np' _ (by omega)]
      rw [show np' + 1 - (k + 1) = np' - k by omega]

/-- One turn of the loop of `setToChosen`: the node `getMinNode` returned is an
unchosen occupant whose `(exec, dest_tag)` is smallest among the unchosen
occupants; the turn moves it from the unchosen to the chosen occupants and
changes nothing else. -/
theorem chooseTurn_spec {s : State} {pool i : Nat} (h : getMinNode s = some (pool, i)) :
    ∃ n, slotOf s pool i = some n ∧ n.chosen ≠ 1 ∧
      (∀ q ∈ idleAll s, (s.heap n.theInstr).exec ≤ (s.heap q).exec ∧
        ((s.heap q).exec ≤ (s.heap n.theInstr).exec →
          (s.heap n.theInstr).dest_tag ≤ (s.heap q).dest_tag)) ∧
      List.Perm (n.theInstr :: idleAll (chooseTurn s pool i)) (idleAll s) ∧
      List.Perm (chosenAll (chooseTurn s pool i)) (n.theInstr :: chosenAll s) ∧
      fuAll (chooseTurn s pool i) = fuAll s ∧ (chooseTurn s pool i).heap = s.heap ∧
      (chooseTurn s pool i).curr_Config = s.curr_Config := by
  obtain ⟨n, hslot, hc, he, hmin⟩ := getMinNode_spec h
  refine ⟨n, ?_, hc, ?_, ?_⟩
  · unfold slotOf
    rcases hslot with ⟨rfl, e⟩ | ⟨rfl, e⟩ | ⟨h0, h1, e⟩
    · rw [if_pos rfl, e]; rfl
    · rw [if_neg (by decide), if_pos rfl, e]; rfl
    · rw [if_neg h0, if_neg h1, e]; rfl
  · intro q hq
    obtain ⟨m, hm, hmc, rfl⟩ := mem_idleAll.1 hq
    exact ⟨le_trans he (findMinCycle_le s m hm hmc), hmin m hm hmc⟩
  · unfold chooseTurn
    rcases hslot with ⟨rfl, e⟩ | ⟨rfl, e⟩ | ⟨h0, h1, e⟩
    · rw [if_pos rfl]
      obtain ⟨p1, -⟩ := markChosen_idle _ _ _ e hc
      have p2 := markChosen_chosen _ _ _ e hc
      refine ⟨?_, ?_, ?_, rfl, rfl⟩
      · unfold idleAll
        simp only [List.append_assoc]
        exact (List.Perm.append_right _ p1 : List.Perm ((n.theInstr :: _) ++ _) _)
      · unfold chosenAll
        simp only [List.append_assoc]
        exact (List.Perm.append_right _ p2 : List.Perm _ ((n.theInstr :: _) ++ _))
      · unfold fuAll
        simp only [markChosen_ptrs]
    · rw [if_neg (by decide), if_pos rfl]
      obtain ⟨p1, -⟩ := markChosen_idle _ _ _ e hc
      have p2 := markChosen_chosen _ _ _ e hc
      refine ⟨?_, ?_, ?_, rfl, rfl⟩
      · unfold idleAll
        simp only [List.append_assoc]
        refine List.Perm.trans ?_ (List.Perm.append_left _ (List.Perm.append_right _ p1))
        exact (List.perm_middle).symm
      · unfold chosenAll
        simp only [List.append_assoc]
        refine List.Perm.trans (List.Perm.append_left _ (List.Perm.append_right _ p2)) ?_
        exact List.perm_middle
      · unfold fuAll
        simp only [markChosen_ptrs]
    · rw [if_neg h0, if_neg h1]
      obtain ⟨p1, -⟩ := markChosen_idle _ _ _ e hc
      have p2 := markChosen_chosen _ _ _ e hc
      refine ⟨?_, ?_, ?_, rfl, rfl⟩
      · unfold idleAll
        simp only [List.append_assoc]
        refine List.Perm.trans ?_ (List.Perm.append_left _ (List.Perm.append_left _ p1))
        rw [← List.append_assoc, ← List.append_assoc]
        exact (List.perm_middle).symm
      · unfold chosenAll
        simp only [List.append_assoc]
        refine List.Perm.trans (List.Perm.append_left _ (List.Perm.append_left _ p2)) ?_
        rw [← List.append_assoc, ← List.append_assoc]
        exact List.perm_middle
      · unfold fuAll
        simp only [markChosen_ptrs]

theorem FUReady_turn {s : State} {pool i : Nat} (h : getMinNode s = some (pool, i))
    (hr : FUReady s) : FUReady (chooseTurn s pool i) := by
  obtain ⟨n, -, -, -, -, -, e1, e2, -⟩ := chooseTurn_spec h
  unfold FUReady at hr ⊢
  rw [e1, e2]
  exact hr

/-- Under `FUReady` the node `getMinNode` returns is strictly below every other
unchosen occupant in `(exec, dest_tag)`, and it is no longer among the unchosen
occupants after the turn. -/
theorem getMinNode_least {s : State} {pool i : Nat} (h : getMinNode s = some (pool, i))
    (hr : FUReady s) :
    ∃ n, slotOf s pool i = some n ∧ n.chosen ≠ 1 ∧ n.theInstr ∈ idleAll s ∧
      (∀ q ∈ idleAll s, q ≠ n.theInstr → keyBelow s.heap n.theInstr q) ∧
      List.Perm (n.theInstr :: idleAll (chooseTurn s pool i)) (idleAll s) ∧
      List.Perm (chosenAll (chooseTurn s pool i)) (n.theInstr :: chosenAll s) ∧
      n.theInstr ∉ idleAll (chooseTurn s pool i) := by
  obtain ⟨n, h1, h2, h3, h4, h5, -⟩ := chooseTurn_spec h
  have hn : n.theInstr ∈ idleAll s := h4.subset (List.mem_cons_self _ _)
  have hsub : ∀ x ∈ idleAll s, x ∈ fuAll s := fun x hx =>
    (fuAll_perm s).symm.subset (List.mem_append_left _ hx)
  have hnd : (idleAll s).Nodup :=
    List.Nodup.of_append_left ((fuAll_perm s).nodup_iff.1 (List.Nodup.of_map _ hr.1))
  refine ⟨n, h1, h2, hn, fun q hq hne => ?_, h4, h5, ?_⟩
  · obtain ⟨a, b⟩ := h3 q hq
    have hinj := List.inj_on_of_nodup_map hr.1 (hsub _ hn) (hsub _ hq)
    unfold keyBelow
    rcases lt_or_eq_of_le a with c | c
    · exact Or.inl c
    · exact Or.inr ⟨c, lt_of_le_of_ne (b (le_of_eq c.symm)) (fun e => hne (hinj e).symm)⟩
  · exact (List.nodup_cons.1 (h4.nodup_iff.2 hnd)).1

/-- The first `k` turns of the loop of `setToChosen`, when at least `k`
unchosen occupants exist: they succeed, choose `k` more occupants, and keep
every chosen occupant below every unchosen one. -/
theorem setToChosenLoop_steps : ∀ (k : Nat) (s : State), FUReady s →
    (∀ p ∈ chosenAll s, ∀ q ∈ idleAll s, keyBelow s.heap p q) →
    k ≤ (idleAll s).length →
    ∃ σ, setToChosenLoop k (idleAll s).length s = .ok σ ∧ FUReady σ ∧ σ.heap = s.heap ∧
      fuAll σ = fuAll s ∧ σ.curr_Config = s.curr_Config ∧
      (idleAll σ).length + k = (idleAll s).length ∧
      (chosenAll σ).length = (chosenAll s).length + k ∧
      (∀ p ∈ chosenAll σ, ∀ q ∈ idleAll σ, keyBelow s.heap p q) := by
  intro k
  induction k with
  | zero =>
    intro s hr ho _
    exact ⟨s, by rw [setToChosenLoop], hr, rfl, rfl, rfl, rfl, rfl, ho⟩
  | succ k ih =>
    intro s hr ho hk
    obtain ⟨L, hL⟩ : ∃ L, (idleAll s).length = L + 1 := ⟨(idleAll s).length - 1, by omega⟩
    have hne : idleAll s ≠ [] := by
      intro e; rw [e] at hL; cases hL
    obtain ⟨p0, hp0⟩ := List.exists_mem_of_ne_nil _ hne
    obtain ⟨m, hm, hmc, -⟩ := mem_idleAll.1 hp0
    have hsub : ∀ x ∈ idleAll s, x ∈ fuAll s := fun x hx =>
      (fuAll_perm s).symm.subset (List.mem_append_left _ hx)
    obtain ⟨pool, i, hg⟩ := getMinNode_some s hm hmc (fun n hn hnc =>
      hr.2 _ (hsub _ (mem_idleAll.2 ⟨n, hn, hnc, rfl⟩)))
    obtain ⟨n, -, hc, hn, hleast, q1, q2, q3⟩ := getMinNode_least hg hr
    obtain ⟨-, -, -, -, -, -, e1, e2, e3⟩ := chooseTurn_spec hg
    have hlen : (idleAll (chooseTurn s pool i)).length = L := by
      have := q1.length_eq
      simp only [List.length_cons] at this
      omega
    have ho2 : ∀ p ∈ chosenAll (chooseTurn s pool i), ∀ q ∈ idleAll (chooseTurn s pool i),
        keyBelow (chooseTurn s pool i).heap p q := by
      intro p hp q hq
      rw [e2]
      have hq' : q ∈ idleAll s := q1.subset (List.mem_cons_of_mem _ hq)
      rcases List.mem_cons.1 (q2.subset hp) with e | e
      · rw [e]
        exact hleast q hq' (fun c => q3 (c ▸ hq))
      · exact ho p e q hq'
    obtain ⟨σ, r1, r2, r3, r4, r5, r6, r7, r8⟩ :=
      ih (chooseTurn s pool i) (FUReady_turn hg hr) ho2 (by omega)
    rw [hlen] at r1 r6
    refine ⟨σ, ?_, r2, r3.trans e2, r4.trans e1, r5.trans e3, by omega, ?_, ?_⟩
    · rw [hL, setToChosenLoop_turn _ _ _ hg]
      exact r1
    · have := q2.length_eq
      simp only [List.length_cons] at this
      omega
    · intro p hp q hq
      have := r8 p hp q hq
      rwa [e2] at this

/-- With no occupant chosen beforehand `setToChosen` succeeds, chooses as many
occupants as the smaller of the result buses and the occupants, and leaves
every chosen occupant below every unchosen one. -/
theorem setToChosen_result (s : State) (hr : FUReady s) (hc : chosenAll s = []) :
    ∃ t, setToChosen s = .ok t ∧
      (chosenAll t).length = min s.curr_Config.num_r_bus (fuAll s).length ∧
      fuAll t = fuAll s ∧ t.heap = s.heap ∧
      (∀ p ∈ chosenAll t, ∀ q ∈ idleAll t, keyBelow s.heap p q) := by
  have hlen : (idleAll s).length = (fuAll s).length := by
    have := (fuAll_perm s).length_eq
    rw [hc, List.append_nil] at this
    exact this.symm
  have ho : ∀ p ∈ chosenAll s, ∀ q ∈ idleAll s, keyBelow s.heap p q := by
    intro p hp; rw [hc] at hp; cases hp
  unfold setToChosen
  rw [getNumPossible_eq, ← hlen]
  obtain ⟨σ, r1, -, r3, r4, -, r6, r7, r8⟩ := setToChosenLoop_steps
    (min s.curr_Config.num_r_bus (idleAll s).length) s hr ho (Nat.min_le_right _ _)
  refine ⟨σ, ?_, ?_, r4, r3, r8⟩
  · have := setToChosenLoop_split (min s.curr_Config.num_r_bus (idleAll s).length)
      (s.curr_Config.num_r_bus - min s.curr_Config.num_r_bus (idleAll s).length)
      (idleAll s).length s (Nat.min_le_right _ _)
    rw [show min s.curr_Config.num_r_bus (idleAll s).length +
      (s.curr_Config.num_r_bus - min s.curr_Config.num_r_bus (idleAll s).length) =
      s.curr_Config.num_r_bus by omega, r1] at this
    rw [this]
    simp only
    rcases Nat.le_total s.curr_Config.num_r_bus (idleAll s).length with c | c
    · rw [Nat.min_eq_left c, Nat.sub_self, setToChosenLoop]
    · rw [Nat.min_eq_right c, Nat.sub_self, setToChosenLoop_out]
  · rw [r7, hc]
    simp

theorem getMinNode_total {s : State} (hr : FUReady s) (hne : idleAll s ≠ []) :
    ∃ pool i, getMinNode s = some (pool, i) := by
  obtain ⟨p0, hp0⟩ := List.exists_mem_of_ne_nil _ hne
  obtain ⟨m, hm, hmc, -⟩ := mem_idleAll.1 hp0
  have hsub : ∀ x ∈ idleAll s, x ∈ fuAll s := fun x hx =>
    (fuAll_perm s).symm.subset (List.mem_append_left _ hx)
  exact getMinNode_some s hm hmc (fun n hn hnc =>
    hr.2 _ (hsub _ (mem_idleAll.2 ⟨n, hn, hnc, rfl⟩)))

/-- C23: when no occupant of the functional units is chosen and the occupants
carry distinct tags below `INT_MAX`, `setToChosen` succeeds and marks exactly
`min(R, n)` of the `n` occupants, the occupants and the heap stay as they were,
and every chosen occupant is strictly smaller than every unchosen one in
`(exec, dest_tag)`; the run passes through the state left by its first `k`
turns, for every `k` below `min(R, n)`, and the call of `getMinNode` made there
returns an unchosen occupant that is strictly smaller in `(exec, dest_tag)` than
every other unchosen occupant. -/
theorem completion_arbitration (s : State) (hr : FUReady s) (hc : chosenAll s = []) :
    (∃ t, setToChosen s = .ok t ∧
      (chosenAll t).length = min s.curr_Config.num_r_bus (fuAll s).length ∧
      fuAll t = fuAll s ∧ t.heap = s.heap ∧
      (∀ p ∈ chosenAll t, ∀ q ∈ idleAll t, keyBelow s.heap p q)) ∧
    ∀ k, k < min s.curr_Config.num_r_bus (fuAll s).length →
      ∃ σ pool i n, setToChosenLoop k (getNumPossible s) s = .ok σ ∧
        setToChosen s =
          setToChosenLoop (s.curr_Config.num_r_bus - k) (getNumPossible s - k) σ ∧
        getMinNode σ = some (pool, i) ∧ slotOf σ pool i = some n ∧ n.chosen ≠ 1 ∧
        n.theInstr ∈ idleAll σ ∧
        ∀ q ∈ idleAll σ, q ≠ n.theInstr → keyBelow s.heap n.theInstr q := by
  refine ⟨setToChosen_result s hr hc, fun k hk => ?_⟩
  have hlen : (idleAll s).length = (fuAll s).length := by
    have := (fuAll_perm s).length_eq
    rw [hc, List.append_nil] at this
    exact this.symm
  have ho : ∀ p ∈ chosenAll s, ∀ q ∈ idleAll s, keyBelow s.heap p q := by
    intro p hp; rw [hc] at hp; cases hp
  obtain ⟨σ, r1, r2, r3, -, -, r6, -, -⟩ := setToChosenLoop_steps k s hr ho (by omega)
  have hne : idleAll σ ≠ [] := by
    intro e
    rw [e] at r6
    simp only [List.length_nil] at r6
    omega
  obtain ⟨pool, i, hg⟩ := getMinNode_total r2 hne
  obtain ⟨n, a1, a2, a3, a4, -⟩ := getMinNode_least hg r2
  rw [r3] at a4
  rw [getNumPossible_eq, ← hlen]
  refine ⟨σ, pool, i, n, r1, ?_, hg, a1, a2, a3, a4⟩
  unfold setToChosen
  rw [getNumPossible_eq, ← hlen]
  have := setToChosenLoop_split k (s.curr_Config.num_r_bus - k) (idleAll s).length s (by omega)
  rw [show k + (s.curr_Config.num_r_bus - k) = s.curr_Config.num_r_bus by omega, r1] at this
  exact this

/-- Witness for C23: in the iteration of cycle 4 of the three-branch scenario
three instructions occupy functional units, none is chosen and there is one
result bus. -/
theorem completion_arbitration_witness :
    FUReady (tripleArbitration 3) ∧ chosenAll (tripleArbitration 3) = [] ∧
    (fuAll (tripleArbitration 3)).length = 3 ∧
    (tripleArbitration 3).curr_Config.num_r_bus = 1 ∧
    ∃ t, setToChosen (tripleArbitration 3) = .ok t ∧
      (chosenAll t).length =
        min (tripleArbitration 3).curr_Config.num_r_bus (fuAll (tripleArbitration 3)).length ∧
      fuAll t = fuAll (tripleArbitration 3) ∧ t.heap = (tripleArbitration 3).heap ∧
      (∀ p ∈ chosenAll t, ∀ q ∈ idleAll t, keyBelow (tripleArbitration 3).heap p q) :=
  ⟨by unfold FUReady; decide!, by decide!, by decide!, by decide!,
    (completion_arbitration (tripleArbitration 3) (by unfold FUReady; decide!) (by decide!)).1⟩

/-! ### Issue arbitration, exactly -/

theorem issueEligible_mark (heap : Nat → instr) (f1 f2 : Int) (n : schedule_node) :
    issueEligible heap f1 f2 { n with sendToExecute := 1 } = issueEligible heap f1 f2 n := rfl

/-- A pass of `markScheduleEntries`, node by node: the node at position `i` gets
`sendToExecute = 1` when it passes the test and fewer than `openSpots` nodes
before it do, and is left as it was otherwise. -/
theorem markScheduleEntriesLoop_at (heap : Nat → instr) (f1 f2 : Int) :
    ∀ (q : List schedule_node) (o : Int) (i : Nat),
      (markScheduleEntriesLoop heap f1 f2 q o)[i]? =
        (q[i]?).map (fun n =>
          if issueEligible heap f1 f2 n = true ∧
              (((q.take i).countP (issueEligible heap f1 f2) : Nat) : Int) < o then
            { n with sendToExecute := 1 } else n) := by
  intro q
  induction q with
  | nil => intro o i; simp [markScheduleEntriesLoop]
  | cons n rest ih =>
    intro o i
    rw [markScheduleEntriesLoop]
    split
    · rename_i ho
      split
      · rename_i hc
        have he : issueEligible heap f1 f2 n = true := by
          unfold issueEligible; exact decide_eq_true hc
        cases i with
        | zero => simp [he, ho]
        | succ i =>
          simp only [List.getElem?_cons_succ, List.take_succ_cons, ih (o - 1) i,
            List.countP_cons_of_pos _ _ he]
          congr 1
          funext m
          have : ((((List.countP (issueEligible heap f1 f2) (List.take i rest) + 1 : Nat)) : Int)
              < o) ↔ ((List.countP (issueEligible heap f1 f2) (List.take i rest) : Nat) : Int)
                < o - 1 := by
            push_cast; omega
          simp only [this]
      · rename_i hc
        have he : ¬ issueEligible heap f1 f2 n = true := by
          unfold issueEligible; simpa using hc
        cases i with
        | zero => simp [he]
        | succ i =>
          simp only [List.getElem?_cons_succ, List.take_succ_cons, ih o i,
            List.countP_cons_of_neg _ _ he]
    · rename_i ho
      have : ∀ c : Nat, ¬ ((c : Int) < o) := fun c => by omega
      simp only [this, and_false, if_false]
      simp

/-- A pass of `markScheduleEntries` changes no field its test reads: the nodes
that pass the test of any pool are the same before and after. -/
theorem markScheduleEntriesLoop_count (heap : Nat → instr) (f1 f2 g1 g2 : Int) :
    ∀ (q : List schedule_node) (o : Int) (i : Nat),
      ((markScheduleEntriesLoop heap f1 f2 q o).take i).countP (issueEligible heap g1 g2) =
        (q.take i).countP (issueEligible heap g1 g2) := by
  intro q
  induction q with
  | nil => intro o i; simp [markScheduleEntriesLoop]
  | cons n rest ih =>
    intro o i
    rw [markScheduleEntriesLoop]
    split
    · split
      · cases i with
        | zero => simp
        | succ i =>
          simp only [List.take_succ_cons, List.countP_cons, ih (o - 1) i, issueEligible_mark]
      · cases i with
        | zero => simp
        | succ i => simp only [List.take_succ_cons, List.countP_cons, ih o i]
    · rfl

/-- Fewer eligible nodes precede an eligible node than the queue holds. -/
theorem countP_take_lt {α : Type} (P : α → Bool) : ∀ (q : List α) (i : Nat) (n : α),
    q[i]? = some n → P n = true → (q.take i).countP P < q.countP P := by
  intro q
  induction q with
  | nil => intro i n h; simp at h
  | cons x rest ih =>
    intro i n h hp
    cases i with
    | zero =>
      simp only [List.getElem?_cons_zero, Option.some.injEq] at h
      subst h
      simp [List.countP_cons_of_pos _ _ hp]
    | succ i =>
      simp only [List.getElem?_cons_succ] at h
      have := ih i n h hp
      simp only [List.take_succ_cons, List.countP_cons]
      omega

/-- The test of `issuedAt` against the bound `available` alone: for an eligible
node the bound by the number of eligible nodes holds by itself. -/
theorem issuedAt_iff (heap : Nat → instr) (f1 f2 : Int) (o : Int) (q : List schedule_node)
    (i : Nat) (n : schedule_node) (h : q[i]? = some n) :
    issuedAt heap f1 f2 o q i n = true ↔
      (issueEligible heap f1 f2 n = true ∧
        (((q.take i).countP (issueEligible heap f1 f2) : Nat) : Int) < o) := by
  unfold issuedAt
  simp only [Bool.and_eq_true, decide_eq_true_eq]
  constructor
  · rintro ⟨a, b⟩
    exact ⟨a, lt_of_lt_of_le b (min_le_left _ _)⟩
  · rintro ⟨a, b⟩
    refine ⟨a, lt_min b ?_⟩
    have := countP_take_lt (issueEligible heap f1 f2) q i n h a
    exact_mod_cast this

/-! ### The broadcast, exactly -/

theorem setInstr_self (heap : Nat → instr) (p : Nat) : setInstr heap p (heap p) = heap := by
  funext x
  unfold setInstr
  split
  · rename_i h; rw [h]
  · rfl

theorem setInstr_twice (heap : Nat → instr) (p : Nat) (v w : instr) :
    setInstr (setInstr heap p v) p w = setInstr heap p w := by
  funext x
  unfold setInstr
  split <;> rfl

theorem wakeRec_static (du dt : Int) (i : instr) :
    (wakeRec du dt i).destReg = i.destReg ∧ (wakeRec du dt i).dest_tag = i.dest_tag := by
  unfold wakeRec
  simp only
  split <;> split <;> exact ⟨rfl, rfl⟩

/-- Both wake-up tests of the loop body for the entry `u` and the instruction
`p`, as one store into the record of `p`. -/
theorem broadcastSrc_eq (u p : Nat) (heap : Nat → instr) :
    broadcastSrc2 u p (broadcastSrc1 u p heap) =
      setInstr heap p (wakeRec (heap u).destReg (heap u).dest_tag (heap p)) := by
  have e1 : broadcastSrc1 u p heap = setInstr heap p
      (if (heap p).source1 = (heap u).destReg ∧ (heap p).source1_ready = 0 ∧
          (heap p).source1_tag = (heap u).dest_tag then
        { heap p with source1_ready := 1, source1_tag := -5 } else heap p) := by
    unfold broadcastSrc1
    split
    · rfl
    · rw [setInstr_self]
  rw [e1]
  generalize hi : (if (heap p).source1 = (heap u).destReg ∧ (heap p).source1_ready = 0 ∧
      (heap p).source1_tag = (heap u).dest_tag then
    { heap p with source1_ready := 1, source1_tag := -5 } else heap p) = i1
  have hs : i1.destReg = (heap p).destReg ∧ i1.dest_tag = (heap p).dest_tag := by
    rw [← hi]; split <;> exact ⟨rfl, rfl⟩
  have hu : (setInstr heap p i1 u).destReg = (heap u).destReg ∧
      (setInstr heap p i1 u).dest_tag = (heap u).dest_tag := by
    unfold setInstr
    split
    · rename_i e; rw [e]; exact hs
    · exact ⟨rfl, rfl⟩
  have hp : setInstr heap p i1 p = i1 := by simp [setInstr]
  unfold broadcastSrc2 wakeRec
  simp only [hp, hu.1, hu.2, hi]
  split
  · rw [setInstr_twice]
  · rfl

theorem wakeRec_idle (du dt : Int) (i : instr) (h1 : i.source1_ready ≠ 0)
    (h2 : i.source2_ready ≠ 0) : wakeRec du dt i = i := by
  unfold wakeRec
  simp only
  have c1 : ¬ (i.source1 = du ∧ i.source1_ready = 0 ∧ i.source1_tag = dt) := fun c => h1 c.2.1
  rw [if_neg c1, if_neg (fun c => h2 c.2.1)]

/-- The loop body of `broadcastToSched` on one node: a node with `fired = 0`
has its record rewritten by the two wake-up tests and is marked as fired when
both flags are then nonzero; any other node and its record stay as they were. -/
theorem broadcastNode_eq (u : Nat) (n : schedule_node) (heap : Nat → instr) :
    (n.fired = 0 →
      (broadcastNode u n heap).2 =
        setInstr heap n.theInstr
          (wakeRec (heap u).destReg (heap u).dest_tag (heap n.theInstr)) ∧
      ((broadcastNode u n heap).1 = n ∨
        ((broadcastNode u n heap).1 = { n with fired := 1 } ∧
          ((broadcastNode u n heap).2 n.theInstr).source1_ready ≠ 0 ∧
          ((broadcastNode u n heap).2 n.theInstr).source2_ready ≠ 0))) ∧
    (n.fired ≠ 0 → broadcastNode u n heap = (n, heap)) := by
  constructor
  · intro h
    unfold broadcastNode
    rw [if_pos h]
    split
    · rename_i hc
      exact ⟨broadcastSrc_eq u n.theInstr heap, Or.inr ⟨rfl, hc.1, hc.2⟩⟩
    · exact ⟨broadcastSrc_eq u n.theInstr heap, Or.inl rfl⟩
  · intro h
    unfold broadcastNode
    rw [if_neg h]

/-- One pass of the inner loop of `broadcastToSched` over a queue without
repeated instructions. -/
theorem broadcastPass_eq (u : Nat) : ∀ (q : List schedule_node) (heap : Nat → instr),
    (q.map (·.theInstr)).Nodup →
    (∀ n ∈ q, n.fired = 0 → (broadcastPass u q heap).2 n.theInstr =
      wakeRec (heap u).destReg (heap u).dest_tag (heap n.theInstr)) ∧
    (∀ n ∈ q, n.fired ≠ 0 → (broadcastPass u q heap).2 n.theInstr = heap n.theInstr) ∧
    (∀ x, x ∉ q.map (·.theInstr) → (broadcastPass u q heap).2 x = heap x) ∧
    (∀ n ∈ q, ∃ n' ∈ (broadcastPass u q heap).1, n'.theInstr = n.theInstr ∧
      (n' = n ∨ (n.fired = 0 ∧ n'.fired = 1 ∧
        ((broadcastPass u q heap).2 n.theInstr).source1_ready ≠ 0 ∧
        ((broadcastPass u q heap).2 n.theInstr).source2_ready ≠ 0))) := by
  intro q
  induction q with
  | nil =>
    intro heap _
    exact ⟨fun n hn => (by cases hn), fun n hn => (by cases hn), fun _ _ => rfl,
      fun n hn => (by cases hn)⟩
  | cons m rest ih =>
    intro heap hnd
    rw [List.map_cons, List.nodup_cons] at hnd
    obtain ⟨hm, hrest⟩ := hnd
    obtain ⟨r1, r2, r3, r4⟩ := ih (broadcastNode u m heap).2 hrest
    have hne : ∀ k ∈ rest, k.theInstr ≠ m.theInstr := by
      intro k hk e
      exact hm (e ▸ List.mem_map.2 ⟨k, hk, rfl⟩)
    have hstat : ∀ x, ((broadcastNode u m heap).2 x).destReg = (heap x).destReg ∧
        ((broadcastNode u m heap).2 x).dest_tag = (heap x).dest_tag := by
      intro x
      have := StaticKept_of_sourcesSet (broadcastNode_heap u m heap x)
      exact ⟨this.1, this.2.1⟩
    have hoff : ∀ x, x ≠ m.theInstr → (broadcastNode u m heap).2 x = heap x := by
      intro x hx
      by_cases hf : m.fired = 0
      · rw [((broadcastNode_eq u m heap).1 hf).1]
        simp only [setInstr, if_neg hx]
      · rw [(broadcastNode_eq u m heap).2 hf]
    have hself : (broadcastPass u (m :: rest) heap).2 m.theInstr =
        (broadcastNode u m heap).2 m.theInstr := by
      simp only [broadcastPass]
      exact r3 _ hm
    refine ⟨?_, ?_, ?_, ?_⟩
    · intro n hn hf
      rcases List.mem_cons.1 hn with e | e
      · subst e
        rw [hself, ((broadcastNode_eq u n heap).1 hf).1]
        simp [setInstr]
      · simp only [broadcastPass]
        rw [r1 n e hf, (hstat u).1, (hstat u).2, hoff _ (hne n e)]
    · intro n hn hf
      rcases List.mem_cons.1 hn with e | e
      · subst e
        rw [hself, (broadcastNode_eq u n heap).2 hf]
      · simp only [broadcastPass]
        rw [r2 n e hf, hoff _ (hne n e)]
    · intro x hx
      rw [List.map_cons, List.mem_cons, not_or] at hx
      simp only [broadcastPass]
      rw [r3 x hx.2, hoff x hx.1]
    · intro n hn
      rcases List.mem_cons.1 hn with e | e
      · subst e
        refine ⟨(broadcastNode u n heap).1, by simp only [broadcastPass]; exact List.mem_cons_self _ _,
          (broadcastNode_flags u n heap).1, ?_⟩
        rw [hself]
        by_cases hf : n.fired = 0
        · rcases ((broadcastNode_eq u n heap).1 hf).2 with c | ⟨c1, c2, c3⟩
          · exact Or.inl c
          · exact Or.inr ⟨hf, by rw [c1], c2, c3⟩
        · rw [(broadcastNode_eq u n heap).2 hf]
          exact Or.inl rfl
      · obtain ⟨n', h1, h2, h3⟩ := r4 n e
        refine ⟨n', by simp only [broadcastPass]; exact List.mem_cons_of_mem _ h1, h2, ?_⟩
        simp only [broadcastPass]
        exact h3

theorem wakeFold_idle (heap : Nat → instr) : ∀ (U : List Nat) (i : instr),
    i.source1_ready ≠ 0 → i.source2_ready ≠ 0 →
    U.foldl (fun r u => wakeRec (heap u).destReg (heap u).dest_tag r) i = i := by
  intro U
  induction U with
  | nil => intro i _ _; rfl
  | cons u rest ih =>
    intro i h1 h2
    rw [List.foldl_cons, wakeRec_idle _ _ _ h1 h2]
    exact ih i h1 h2

/-- The wake-up tests for the occupants of the state-update array, one after
the other, amount to the rule of the specification. -/
theorem wakeFold_spec (heap : Nat → instr) : ∀ (U : List Nat) (i : instr),
    U.foldl (fun r u => wakeRec (heap u).destReg (heap u).dest_tag r) i = specWake heap U i := by
  intro U
  induction U with
  | nil =>
    intro i
    cases i
    simp [specWake, supMatch]
  | cons u rest ih =>
    intro i
    rw [List.foldl_cons, ih]
    cases i with
    | mk a fu dr dtg s1 t1 r1 s2 t2 r2 f d sc ex st br tk cp rs =>
    unfold wakeRec specWake supMatch
    simp only [List.any_cons, Bool.or_eq_true, decide_eq_true_eq]
    by_cases hr1 : r1 = 0 <;> by_cases hm1 : (s1 = (heap u).destReg ∧ t1 = (heap u).dest_tag) <;>
    by_cases hr2 : r2 = 0 <;> by_cases hm2 : (s2 = (heap u).destReg ∧ t2 = (heap u).dest_tag) <;>
    simp [hr1, hm1, hr2, hm2]

theorem supPtrs_none (rest : List (Option Nat)) : supPtrs (none :: rest) = supPtrs rest := rfl

theorem supPtrs_some (u : Nat) (rest : List (Option Nat)) :
    supPtrs (some u :: rest) = u :: supPtrs rest := rfl

/-- The loop of `broadcastToSched` over the state-update array, on a queue
without repeated instructions: the record of a node with `fired = 0` is
rewritten by the wake-up tests for every occupant; a node with `fired` set and
its record stay as they were, and so does every record outside the queue. -/
theorem broadcastToSchedLoop_eq : ∀ (sup : List (Option Nat)) (q : List schedule_node)
    (heap : Nat → instr), (q.map (·.theInstr)).Nodup →
    (∀ n ∈ q, n.fired = 0 → (broadcastToSchedLoop sup q heap).2 n.theInstr =
      (supPtrs sup).foldl (fun r u => wakeRec (heap u).destReg (heap u).dest_tag r)
        (heap n.theInstr)) ∧
    (∀ n ∈ q, n.fired ≠ 0 → (broadcastToSchedLoop sup q heap).2 n.theInstr = heap n.theInstr ∧
      n ∈ (broadcastToSchedLoop sup q heap).1) ∧
    (∀ x, x ∉ q.map (·.theInstr) → (broadcastToSchedLoop sup q heap).2 x = heap x) := by
  intro sup
  induction sup with
  | nil =>
    intro q heap _
    exact ⟨fun _ _ _ => rfl, fun n hn _ => ⟨rfl, hn⟩, fun _ _ => rfl⟩
  | cons y rest ih =>
    intro q heap hnd
    cases y with
    | none =>
      rw [supPtrs_none]
      exact ih q heap hnd
    | some u =>
      rw [supPtrs_some]
      simp only [broadcastToSchedLoop, List.foldl_cons]
      obtain ⟨p1, p2, p3, p4⟩ := broadcastPass_eq u q heap hnd
      have hnd1 : ((broadcastPass u q heap).1.map (·.theInstr)).Nodup := by
        rw [broadcastPass_ptrs]; exact hnd
      obtain ⟨r1, r2, r3⟩ := ih (broadcastPass u q heap).1 (broadcastPass u q heap).2 hnd1
      have hfun : (fun (r : instr) (v : Nat) =>
          wakeRec ((broadcastPass u q heap).2 v).destReg ((broadcastPass u q heap).2 v).dest_tag r) =
          (fun (r : instr) (v : Nat) => wakeRec (heap v).destReg (heap v).dest_tag r) := by
        funext r v
        have := StaticKept_of_sourcesSet (broadcastPass_heap u q heap v)
        rw [this.1, this.2.1]
      refine ⟨?_, ?_, ?_⟩
      · intro n hn hf
        obtain ⟨n', h1, h2, h3⟩ := p4 n hn
        rcases h3 with e | ⟨-, e1, e2, e3⟩
        · subst e
          rw [r1 n' h1 hf, hfun, p1 n' hn hf]
        · have hf' : n'.fired ≠ 0 := by rw [e1]; decide
          have := (r2 n' h1 hf').1
          rw [h2] at this
          rw [this]
          rw [p1 n hn hf] at e2 e3 ⊢
          exact (wakeFold_idle heap _ _ e2 e3).symm
      · intro n hn hf
        obtain ⟨n', h1, h2, h3⟩ := p4 n hn
        rcases h3 with e | ⟨e0, -⟩
        · subst e
          obtain ⟨a, b⟩ := r2 n' h1 hf
          exact ⟨by rw [a, p2 n' hn hf], b⟩
        · exact absurd e0 hf
      · intro x hx
        rw [r3 x (by rw [broadcastPass_ptrs]; exact hx), p3 x hx]

/-- C25: on a scheduling queue without repeated instructions `broadcastToSched`
changes the scheduling queue and the instruction records only. The record of a
queue entry with `fired = 0` is rewritten by the rule of the specification: a
source becomes `(1, -5)` exactly when its ready flag was 0 and some occupied
slot of the state-update array holds an instruction whose destination register
and tag equal the register and tag of the source; its other fields and a source
that was ready or unmatched keep their values. An entry with `fired` set stays
in the queue as it was and its record is not modified, no record outside the
queue is modified, and the queue keeps its instructions in order. -/
theorem broadcast_wakes_exactly (s : State) (hn : (s.schedule_head.map (·.theInstr)).Nodup) :
    (∀ n ∈ s.schedule_head, n.fired = 0 →
      (broadcastToSched s).heap n.theInstr =
        specWake s.heap (supPtrs s.sup) (s.heap n.theInstr)) ∧
    (∀ n ∈ s.schedule_head, n.fired ≠ 0 →
      (broadcastToSched s).heap n.theInstr = s.heap n.theInstr ∧
      n ∈ (broadcastToSched s).schedule_head) ∧
    (∀ x, x ∉ s.schedule_head.map (·.theInstr) → (broadcastToSched s).heap x = s.heap x) ∧
    (broadcastToSched s).schedule_head.map (·.theInstr) = s.schedule_head.map (·.theInstr) ∧
    broadcastToSched s = { s with schedule_head := (broadcastToSched s).schedule_head,
                                  heap := (broadcastToSched s).heap } := by
  obtain ⟨r1, r2, r3⟩ := broadcastToSchedLoop_eq s.sup s.schedule_head s.heap hn
  refine ⟨fun n h hf => ?_, r2, r3, broadcastToSched_ptrs s, rfl⟩
  have := r1 n h hf
  rw [wakeFold_spec] at this
  exact this

/-- Witness for C25: in the iteration of cycle 5 of the dependent-pair scenario
the first instruction occupies the state-update array and the second one waits
in the scheduling queue for its tag. -/
theorem broadcast_wakes_exactly_witness :
    rawBeforeBroadcast.sup = [some 0, none] ∧
    rawBeforeBroadcast.schedule_head.map (fun n => (n.theInstr, n.fired)) = [(0, 1), (1, 0)] ∧
    ((rawBeforeBroadcast.heap 1).source1_ready, (rawBeforeBroadcast.heap 1).source1_tag) = (0, 0) ∧
    (((broadcastToSched rawBeforeBroadcast).heap 1).source1_ready,
      ((broadcastToSched rawBeforeBroadcast).heap 1).source1_tag) = (1, -5) ∧
    (∀ n ∈ rawBeforeBroadcast.schedule_head, n.fired = 0 →
      (broadcastToSched rawBeforeBroadcast).heap n.theInstr =
        specWake rawBeforeBroadcast.heap (supPtrs rawBeforeBroadcast.sup)
          (rawBeforeBroadcast.heap n.theInstr)) :=
  ⟨by decide!, by decide!, by decide!, by decide!,
    (broadcast_wakes_exactly rawBeforeBroadcast (by decide!)).1⟩

/-! ### The fired flag at the end of a cycle -/

theorem setToFiredLoop_idem (heap : Nat → instr) : ∀ q : List schedule_node,
    setToFiredLoop heap (setToFiredLoop heap q) = setToFiredLoop heap q := by
  intro q
  induction q with
  | nil => rfl
  | cons n rest ih =>
    rw [setToFiredLoop]
    split
    · rename_i hc
      rw [setToFiredLoop, if_neg (fun c => c.2.2 rfl), ih]
    · rename_i hc
      rw [setToFiredLoop, if_neg hc, ih]

theorem setToFiredLoop_complete (heap : Nat → instr) : ∀ q : List schedule_node,
    FiredAll heap (setToFiredLoop heap q) := by
  intro q
  induction q with
  | nil => intro n hn; simp [setToFiredLoop] at hn
  | cons m rest ih =>
    intro n hn h1 h2
    rw [setToFiredLoop] at hn
    split at hn
    · rcases List.mem_cons.1 hn with e | e
      · rw [e]
      · exact ih n e h1 h2
    · rename_i hc
      rcases List.mem_cons.1 hn with e | e
      · rw [e] at h1 h2 ⊢
        by_contra hf
        exact hc ⟨h1, h2, hf⟩
      · exact ih n e h1 h2

theorem readUpdateRegFileLoop_off (nr : Nat) (tm : Int) : ∀ (d : List dispatch_node) (c : Int)
    (hp : Nat → instr) (rf : Int → Int × Int) {hp' : Nat → instr} {rf' : Int → Int × Int},
    readUpdateRegFileLoop nr tm d c hp rf = .ok (hp', rf') →
    ∀ x, x ∉ d.map (·.theInstr) → hp' x = hp x := by
  intro d
  induction d with
  | nil => intro c hp rf hp' rf' h x _; cases h; rfl
  | cons n rest ih =>
    intro c hp rf hp' rf' h x hx
    rw [List.map_cons, List.mem_cons, not_or] at hx
    rw [readUpdateRegFileLoop] at h
    split at h
    · cases h; rfl
    · split at h
      · simp only at h
        split at h
        · cases h
        · rename_i t1 r1 _
          split at h
          · cases h
          · rename_i t2 r2 _
            have key : setInstr hp n.theInstr
                { hp n.theInstr with source1_tag := t1, source1_ready := r1,
                                     source2_tag := t2, source2_ready := r2 } x = hp x := by
              simp only [setInstr, if_neg hx.1]
            split at h
            · rw [ih _ _ _ h x hx.2, key]
            · split at h
              · rw [ih _ _ _ h x hx.2, key]
              · cases h
      · exact ih _ _ _ h x hx.2

theorem broadcastNode_off (u : Nat) (m : schedule_node) (heap : Nat → instr) :
    ∀ x, x ≠ m.theInstr → (broadcastNode u m heap).2 x = heap x := by
  intro x hx
  by_cases hf : m.fired = 0
  · rw [((broadcastNode_eq u m heap).1 hf).1]
    simp only [setInstr, if_neg hx]
  · rw [(broadcastNode_eq u m heap).2 hf]

theorem broadcastNode_complete (u : Nat) (n : schedule_node) (heap : Nat → instr)
    (h : FiredAll heap [n]) :
    ((broadcastNode u n heap).2 n.theInstr).source1_ready ≠ 0 →
    ((broadcastNode u n heap).2 n.theInstr).source2_ready ≠ 0 →
    (broadcastNode u n heap).1.fired = 1 := by
  unfold broadcastNode
  split
  · split
    · intro _ _; rfl
    · rename_i hc
      intro h1 h2
      exact absurd ⟨h1, h2⟩ hc
  · intro h1 h2
    exact h n (List.mem_cons_self _ _) h1 h2

theorem broadcastPass_complete (u : Nat) : ∀ (q : List schedule_node) (heap : Nat → instr),
    (q.map (·.theInstr)).Nodup → FiredAll heap q →
    FiredAll (broadcastPass u q heap).2 (broadcastPass u q heap).1 := by
  intro q
  induction q with
  | nil => intro heap _ _ n hn; simp [broadcastPass] at hn
  | cons m rest ih =>
    intro heap hnd hq
    have hnd' := hnd
    rw [List.map_cons, List.nodup_cons] at hnd
    obtain ⟨hm, hrest⟩ := hnd
    have hne : ∀ k ∈ rest, k.theInstr ≠ m.theInstr := by
      intro k hk e
      exact hm (e ▸ List.mem_map.2 ⟨k, hk, rfl⟩)
    have hq1 : FiredAll (broadcastNode u m heap).2 rest := by
      intro k hk
      rw [broadcastNode_off u m heap _ (hne k hk)]
      exact hq k (List.mem_cons_of_mem _ hk)
    have r := ih (broadcastNode u m heap).2 hrest hq1
    obtain ⟨-, -, p3, -⟩ := broadcastPass_eq u rest (broadcastNode u m heap).2 hrest
    intro n hn
    simp only [broadcastPass] at hn ⊢
    rcases List.mem_cons.1 hn with e | e
    · rw [e, broadcastNode_ptr, p3 _ hm]
      exact broadcastNode_complete u m heap
        (fun k hk => by
          rw [List.mem_singleton.1 hk]
          exact hq m (List.mem_cons_self _ _))
    · exact r n e

theorem broadcastToSchedLoop_complete : ∀ (sup : List (Option Nat)) (q : List schedule_node)
    (heap : Nat → instr), (q.map (·.theInstr)).Nodup → FiredAll heap q →
    FiredAll (broadcastToSchedLoop sup q heap).2 (broadcastToSchedLoop sup q heap).1 := by
  intro sup
  induction sup with
  | nil => intro q heap _ h; exact h
  | cons y rest ih =>
    intro q heap hnd h
    cases y with
    | none => exact ih q heap hnd h
    | some u =>
      simp only [broadcastToSchedLoop]
      exact ih _ _ (by rw [broadcastPass_ptrs]; exact hnd) (broadcastPass_complete u q heap hnd h)

/-- After Phase C every node of the scheduling queue whose instruction has both
ready flags nonzero is marked as fired. -/
theorem FiredAll_phaseC {b t : State}
    (hnd : (b.schedule_head.map (·.theInstr) ++ b.dispatch_head.map (·.theInstr)).Nodup)
    (h : phaseC b = .ok t) : FiredAll t.heap t.schedule_head := by
  obtain ⟨s1, s3, s4, s6, s7, g1, g3, g4, g6, g7, rfl⟩ := phaseC_ok h
  obtain ⟨w1, hp1, su1, sc1, dp1, cf1⟩ := writeToRegFile_loop g1
  obtain ⟨hp3, rf3, su3, sc3, cf3, dp3⟩ := reserveScheduleSpots_fields g3
  obtain ⟨w4, su4, sc4, dp4, tm4⟩ := readUpdateRegFile_loop g4
  obtain ⟨⟨sz, w6⟩, hp6, rf6, dp6, tm6, su6⟩ := removeAllSUFromSched_loop g6
  have H3 : s3.heap = b.heap := hp3.trans hp1
  have S3 : s3.schedule_head = setToFiredLoop b.heap b.schedule_head := by
    rw [sc3]
    show setToFiredLoop s1.heap s1.schedule_head = _
    rw [hp1, sc1]
  have D3 : s3.dispatch_head.map (·.theInstr) = b.dispatch_head.map (·.theInstr) := by
    rw [dp3]
    show s1.dispatch_head.map (·.theInstr) = _
    rw [dp1]
  have hschedNd : (b.schedule_head.map (·.theInstr)).Nodup := (List.nodup_append.1 hnd).1
  have S4 : s4.schedule_head = setToFiredLoop b.heap b.schedule_head := sc4.trans S3
  have hptr4 : s4.schedule_head.map (·.theInstr) = b.schedule_head.map (·.theInstr) := by
    rw [S4]; exact setToFiredLoop_ptrs _ _
  have H4 : ∀ p ∈ b.schedule_head.map (·.theInstr), s4.heap p = b.heap p := by
    intro p hp
    rw [readUpdateRegFileLoop_off _ _ _ _ _ _ w4 p
      (by rw [D3]; exact fun hq => (List.nodup_append.1 hnd).2.2 hp hq), H3]
  have F4 : FiredAll s4.heap s4.schedule_head := by
    intro n hn
    have hp : n.theInstr ∈ b.schedule_head.map (·.theInstr) := by
      rw [← hptr4]; exact List.mem_map.2 ⟨n, hn, rfl⟩
    rw [H4 _ hp]
    rw [S4] at hn
    exact setToFiredLoop_complete b.heap b.schedule_head n hn
  have F5 := broadcastToSchedLoop_complete s4.sup s4.schedule_head s4.heap
    (by rw [hptr4]; exact hschedNd) F4
  have H6 : s6.heap = (broadcastToSchedLoop s4.sup s4.schedule_head s4.heap).2 := hp6
  have S6sub : ∀ n ∈ s6.schedule_head,
      n ∈ (broadcastToSchedLoop s4.sup s4.schedule_head s4.heap).1 :=
    removeAllSUFromSchedLoop_subset _ _ _ w6
  have e7 : s7.heap = s6.heap ∧ s7.schedule_head = s6.schedule_head := by
    obtain ⟨_, _, _, rfl⟩ := setToChosen_shape g7; exact ⟨rfl, rfl⟩
  have e8 : (markForExecution s7).heap = s7.heap := by
    obtain ⟨q, e⟩ := markForExecution_shape s7
    rw [e]
  intro n hn
  have hn' : n ∈ (markForExecution s7).schedule_head := hn
  obtain ⟨n7, h7, e1, e2⟩ := markForExecution_fired s7 n hn'
  show ((markForExecution s7).heap n.theInstr).source1_ready ≠ 0 →
    ((markForExecution s7).heap n.theInstr).source2_ready ≠ 0 → n.fired = 1
  rw [e8, e7.1, H6, e1, e2]
  rw [e7.2] at h7
  exact F5 n7 (S6sub n7 h7)

/-- C26. At the top of the cycle loop of every run (the state the cycle before
has left), every entry of the scheduling queue has `fired = 1` exactly when both
ready flags of its instruction are 1; and `setToFired` is idempotent: a second
call right after the first changes nothing, in any state. -/
theorem fired_iff_ready (numRegs k0 k1 k2 R F : Nat) (trace : List TraceLine) (s : State)
    (hr : Reachable (proc_init numRegs k0 k1 k2 R F trace) s) :
    (∀ n ∈ s.schedule_head,
      (n.fired = 1 ↔
        ((s.heap n.theInstr).source1_ready = 1 ∧ (s.heap n.theInstr).source2_ready = 1))) ∧
    ∀ σ : State, setToFired (setToFired σ) = setToFired σ := by
  refine ⟨fun n hn => ⟨fun hf => ?_, fun hb => ?_⟩, fun σ => ?_⟩
  · obtain ⟨w, -, -⟩ := WakeInv_reachable numRegs k0 k1 k2 R F trace hr
    rcases (w n hn).2 with e | e
    · rw [e] at hf; exact absurd hf (by decide)
    · exact e
  · cases hr with
    | init => exact absurd hn (List.not_mem_nil n)
    | step hr' _ hc =>
      rename_i s'
      obtain ⟨a, hA, hC⟩ := cycle_ok hc
      have hi := TagInv_reachable (TagInv_init numRegs k0 k1 k2 R F trace) hr'
      obtain ⟨-, -, -, acc⟩ := phaseA_lists hi hA
      obtain ⟨st, e⟩ := updateDispatchQueueSize_shape a
      rw [e] at hC
      have hnd : (a.schedule_head.map (·.theInstr) ++ a.dispatch_head.map (·.theInstr)).Nodup := by
        have hn := AccInv_nodup acc
        unfold inFlight frontPtrs at hn
        simp only [Bool.false_eq_true, if_false, List.nil_append] at hn
        rw [← List.append_assoc] at hn
        exact (List.nodup_append.1 hn).1
      have := FiredAll_phaseC (b := { a with myStats := st }) hnd hC
      exact this n hn (by rw [hb.1]; decide) (by rw [hb.2]; decide)
  · unfold setToFired
    simp only [setToFiredLoop_idem]

/-- Witness for C26: the state after four cycles of the dependent-pair scenario
is reachable; its scheduling queue holds the first instruction, fired with both
sources ready, and the second, not fired and waiting for its first source. -/
theorem fired_iff_ready_witness :
    (rawState 4).schedule_head.map (fun n => (n.theInstr, n.fired)) = [(0, 1), (1, 0)] ∧
    ∀ n ∈ (rawState 4).schedule_head,
      (n.fired = 1 ↔
        (((rawState 4).heap n.theInstr).source1_ready = 1 ∧
          ((rawState 4).heap n.theInstr).source2_ready = 1)) :=
  ⟨by decide!,
    (fired_iff_ready 128 3 2 1 2 4 rawTrace (rawState 4) (rawState_reachable 4 (by rfl))).1⟩

/-! ### Removal of the state-update instructions from the scheduling queue -/

theorem removeFromSchedWalk_total (p : Nat) : ∀ (rest : List schedule_node) (n : schedule_node),
    ((n :: rest).map (·.theInstr)).Nodup →
    (∃ m ∈ n :: rest, m.theInstr = p ∧ removeFlagsOk m = true) →
    removeFromSchedWalk p n rest =
      .ok ((n :: rest).filter (fun x => decide (x.theInstr ≠ p))) := by
  intro rest
  induction rest with
  | nil =>
    intro n _ hm
    obtain ⟨m, hm1, hm2, hm3⟩ := hm
    rw [List.mem_singleton] at hm1
    subst hm1
    rw [removeFromSchedWalk, if_pos hm2, if_pos hm3]
    simp [hm2]
  | cons k rest ih =>
    intro n hnd hm
    obtain ⟨m, hm1, hm2, hm3⟩ := hm
    rw [List.map_cons, List.nodup_cons] at hnd
    obtain ⟨hn, hrest⟩ := hnd
    rw [removeFromSchedWalk]
    by_cases hp : n.theInstr = p
    · have hmn : m = n := by
        rcases List.mem_cons.1 hm1 with e | e
        · exact e
        · exfalso
          apply hn
          rw [hp, ← hm2]
          exact List.mem_map.2 ⟨m, e, rfl⟩
      rw [hmn] at hm3
      rw [if_pos hp, if_pos hm3]
      have hf : (k :: rest).filter (fun x => decide (x.theInstr ≠ p)) = k :: rest := by
        rw [List.filter_eq_self]
        intro x hx
        have : x.theInstr ≠ p := by
          intro e
          apply hn
          rw [hp, ← e]
          exact List.mem_map.2 ⟨x, hx, rfl⟩
        simpa using this
      rw [List.filter_cons_of_neg (by simpa using hp), hf]
    · have hmr : m ∈ k :: rest := by
        rcases List.mem_cons.1 hm1 with e | e
        · rw [e] at hm2; exact absurd hm2 hp
        · exact e
      have e : (n :: k :: rest).filter (fun x => decide (x.theInstr ≠ p)) =
          n :: (k :: rest).filter (fun x => decide (x.theInstr ≠ p)) :=
        List.filter_cons_of_pos (by simpa using hp)
      rw [if_neg hp, ih k hrest ⟨m, hmr, hm2, hm3⟩, e]

/-- On a queue without repeated instructions `removeFromSched` succeeds when the
instruction has a node with all three flags set, and removes that node only. -/
theorem removeFromSched_total {p : Nat} {q : List schedule_node}
    (hnd : (q.map (·.theInstr)).Nodup)
    (hm : ∃ m ∈ q, m.theInstr = p ∧ removeFlagsOk m = true) :
    removeFromSched p q = .ok (q.filter (fun x => decide (x.theInstr ≠ p))) := by
  cases q with
  | nil =>
    obtain ⟨m, hm1, -⟩ := hm
    cases hm1
  | cons n rest =>
    have hw := removeFromSchedWalk_total p rest n hnd hm
    rw [removeFromSched]
    by_cases hp : n.theInstr = p
    · obtain ⟨m, hm1, hm2, hm3⟩ := hm
      rw [List.map_cons, List.nodup_cons] at hnd
      have hmn : m = n := by
        rcases List.mem_cons.1 hm1 with e | e
        · exact e
        · exfalso
          apply hnd.1
          rw [hp, ← hm2]
          exact List.mem_map.2 ⟨m, e, rfl⟩
      rw [hmn] at hm3
      rw [if_pos hp, if_pos hm3]
      have hf : rest.filter (fun x => decide (x.theInstr ≠ p)) = rest := by
        rw [List.filter_eq_self]
        intro x hx
        have : x.theInstr ≠ p := by
          intro e
          apply hnd.1
          rw [hp, ← e]
          exact List.mem_map.2 ⟨x, hx, rfl⟩
        simpa using this
      rw [List.filter_cons_of_neg (by simpa using hp), hf]
    · rw [if_neg hp]
      exact hw

/-- The loop of `removeAllSUFromSched` succeeds when every occupant of the
state-update array has a node with all three flags set, the occupants are
distinct and no instruction has two nodes; it removes the nodes of the
occupants and keeps the others in order. -/
theorem removeAllSUFromSchedLoop_total : ∀ (sup : List (Option Nat)) (q : List schedule_node)
    (sz : Int), (q.map (·.theInstr)).Nodup → (supPtrs sup).Nodup →
    (∀ p ∈ supPtrs sup, ∃ m ∈ q, m.theInstr = p ∧ removeFlagsOk m = true) →
    removeAllSUFromSchedLoop sup q sz =
      .ok (q.filter (fun x => decide (x.theInstr ∉ supPtrs sup)),
        sz - ((supPtrs sup).length : Int)) := by
  intro sup
  induction sup with
  | nil =>
    intro q sz _ _ _
    rw [removeAllSUFromSchedLoop]
    simp [supPtrs]
  | cons y rest ih =>
    intro q sz hnd hsd hm
    cases y with
    | none =>
      rw [removeAllSUFromSchedLoop, supPtrs_none]
      exact ih q sz hnd hsd hm
    | some p =>
      rw [supPtrs_some] at hsd hm ⊢
      rw [List.nodup_cons] at hsd
      rw [removeAllSUFromSchedLoop, removeFromSched_total hnd (hm p (List.mem_cons_self _ _))]
      simp only
      have hnd1 : ((q.filter (fun x => decide (x.theInstr ≠ p))).map (·.theInstr)).Nodup :=
        hnd.sublist ((List.filter_sublist _).map _)
      have hm1 : ∀ r ∈ supPtrs rest,
          ∃ m ∈ q.filter (fun x => decide (x.theInstr ≠ p)), m.theInstr = r ∧
            removeFlagsOk m = true := by
        intro r hr
        obtain ⟨m, h1, h2, h3⟩ := hm r (List.mem_cons_of_mem _ hr)
        refine ⟨m, List.mem_filter.2 ⟨h1, ?_⟩, h2, h3⟩
        have : m.theInstr ≠ p := by
          rw [h2]
          intro e
          exact hsd.1 (e ▸ hr)
        simpa using this
      have e1 : (q.filter (fun x => decide (x.theInstr ≠ p))).filter
          (fun x => decide (x.theInstr ∉ supPtrs rest)) =
          q.filter (fun x => decide (x.theInstr ∉ p :: supPtrs rest)) := by
        rw [List.filter_filter]
        apply List.filter_congr
        intro x _
        simp [Bool.and_comm]
      have e2 : sz - 1 - ((supPtrs rest).length : Int) =
          sz - (((p :: supPtrs rest).length : Nat) : Int) := by
        simp only [List.length_cons]
        push_cast
        omega
      rw [ih _ _ hnd1 hsd.2 hm1, e1, e2]

theorem FlagsKept_refl (n : schedule_node) : FlagsKept n n := ⟨rfl, rfl, rfl, fun h => h⟩

theorem FlagsKept_trans {a b c : schedule_node} (h1 : FlagsKept a b) (h2 : FlagsKept b c) :
    FlagsKept a c :=
  ⟨h2.1.trans h1.1, h2.2.1.trans h1.2.1, h2.2.2.1.trans h1.2.2.1, fun h => h2.2.2.2 (h1.2.2.2 h)⟩

theorem FlagsKept_flags {n n' : schedule_node} (h : FlagsKept n n')
    (hf : removeFlagsOk n = true) : removeFlagsOk n' = true := by
  unfold removeFlagsOk at hf ⊢
  simp only [Bool.and_eq_true, decide_eq_true_eq] at hf ⊢
  obtain ⟨⟨a, b⟩, c⟩ := hf
  exact ⟨⟨h.2.2.2 a, by rw [h.2.1]; exact b⟩, by rw [h.2.2.1]; exact c⟩

theorem forall2_mem {α : Type} {R : α → α → Prop} {q q' : List α} (h : List.Forall₂ R q q') :
    (∀ n ∈ q, ∃ n' ∈ q', R n n') ∧ (∀ n' ∈ q', ∃ n ∈ q, R n n') := by
  induction h with
  | nil => exact ⟨fun n hn => (by cases hn), fun n hn => (by cases hn)⟩
  | cons hr _ ih =>
    rename_i a b l1 l2 _
    constructor
    · intro n hn
      rcases List.mem_cons.1 hn with e | e
      · exact ⟨b, List.mem_cons_self _ _, e ▸ hr⟩
      · obtain ⟨n', h1, h2⟩ := ih.1 n e
        exact ⟨n', List.mem_cons_of_mem _ h1, h2⟩
    · intro n' hn'
      rcases List.mem_cons.1 hn' with e | e
      · exact ⟨a, List.mem_cons_self _ _, e ▸ hr⟩
      · obtain ⟨n, h1, h2⟩ := ih.2 n' e
        exact ⟨n, List.mem_cons_of_mem _ h1, h2⟩

theorem setToFiredLoop_kept (heap : Nat → instr) : ∀ q : List schedule_node,
    List.Forall₂ FlagsKept q (setToFiredLoop heap q) := by
  intro q
  induction q with
  | nil => exact List.Forall₂.nil
  | cons n rest ih =>
    rw [setToFiredLoop]
    split
    · exact List.Forall₂.cons ⟨rfl, rfl, rfl, fun _ => rfl⟩ ih
    · exact List.Forall₂.cons (FlagsKept_refl n) ih

theorem broadcastNode_kept (u : Nat) (n : schedule_node) (heap : Nat → instr) :
    FlagsKept n (broadcastNode u n heap).1 := by
  unfold broadcastNode
  split
  · split
    · exact ⟨rfl, rfl, rfl, fun _ => rfl⟩
    · exact FlagsKept_refl n
  · exact FlagsKept_refl n

theorem broadcastPass_kept (u : Nat) : ∀ (q : List schedule_node) (heap : Nat → instr),
    List.Forall₂ FlagsKept q (broadcastPass u q heap).1 := by
  intro q
  induction q with
  | nil => intro heap; exact List.Forall₂.nil
  | cons n rest ih =>
    intro heap
    simp only [broadcastPass]
    exact List.Forall₂.cons (broadcastNode_kept u n heap) (ih _)

theorem broadcastToSchedLoop_kept : ∀ (sup : List (Option Nat)) (q : List schedule_node)
    (heap : Nat → instr),
    (∀ n ∈ q, ∃ n' ∈ (broadcastToSchedLoop sup q heap).1, FlagsKept n n') ∧
    (∀ n' ∈ (broadcastToSchedLoop sup q heap).1, ∃ n ∈ q, FlagsKept n n') := by
  intro sup
  induction sup with
  | nil =>
    intro q heap
    exact ⟨fun n hn => ⟨n, hn, FlagsKept_refl n⟩, fun n hn => ⟨n, hn, FlagsKept_refl n⟩⟩
  | cons y rest ih =>
    intro q heap
    cases y with
    | none => exact ih q heap
    | some u =>
      simp only [broadcastToSchedLoop]
      obtain ⟨a1, a2⟩ := forall2_mem (broadcastPass_kept u q heap)
      obtain ⟨b1, b2⟩ := ih (broadcastPass u q heap).1 (broadcastPass u q heap).2
      constructor
      · intro n hn
        obtain ⟨n1, h1, k1⟩ := a1 n hn
        obtain ⟨n2, h2, k2⟩ := b1 n1 h1
        exact ⟨n2, h2, FlagsKept_trans k1 k2⟩
      · intro n2 hn2
        obtain ⟨n1, h1, k2⟩ := b2 n2 hn2
        obtain ⟨n, h, k1⟩ := a2 n1 h1
        exact ⟨n, h, FlagsKept_trans k1 k2⟩

/-- A pass of `markScheduleEntries` leaves a node that has been handed over as
it was, and a node it changes is fired and selected afterwards. -/
theorem markScheduleEntriesLoop_waiting (hp : Nat → instr) (f1 f2 : Int) :
    ∀ (q : List schedule_node) (o : Int),
      (∀ n ∈ q, n.waiting ≠ 0 → n ∈ markScheduleEntriesLoop hp f1 f2 q o) ∧
      (∀ n' ∈ markScheduleEntriesLoop hp f1 f2 q o,
        n' ∈ q ∨ (n'.sendToExecute = 1 ∧ n'.fired = 1)) := by
  intro q
  induction q with
  | nil => intro o; exact ⟨fun n hn => (by cases hn), fun n hn => Or.inl hn⟩
  | cons m rest ih =>
    intro o
    rw [markScheduleEntriesLoop]
    split
    · split
      · rename_i hc
        obtain ⟨i1, i2⟩ := ih (o - 1)
        constructor
        · intro n hn hw
          rcases List.mem_cons.1 hn with e | e
          · rw [e] at hw; exact absurd hc.2.1 hw
          · exact List.mem_cons_of_mem _ (i1 n e hw)
        · intro n' hn'
          rcases List.mem_cons.1 hn' with e | e
          · rw [e]; exact Or.inr ⟨rfl, hc.1⟩
          · rcases i2 n' e with c | c
            · exact Or.inl (List.mem_cons_of_mem _ c)
            · exact Or.inr c
      · obtain ⟨i1, i2⟩ := ih o
        constructor
        · intro n hn hw
          rcases List.mem_cons.1 hn with e | e
          · rw [e]; exact List.mem_cons_self _ _
          · exact List.mem_cons_of_mem _ (i1 n e hw)
        · intro n' hn'
          rcases List.mem_cons.1 hn' with e | e
          · rw [e]; exact Or.inl (List.mem_cons_self _ _)
          · rcases i2 n' e with c | c
            · exact Or.inl (List.mem_cons_of_mem _ c)
            · exact Or.inr c
    · exact ⟨fun n hn _ => hn, fun n hn => Or.inl hn⟩

theorem markForExecution_waiting (s : State) :
    (∀ n ∈ s.schedule_head, n.waiting ≠ 0 → n ∈ (markForExecution s).schedule_head) ∧
    (∀ n' ∈ (markForExecution s).schedule_head,
      n' ∈ s.schedule_head ∨ (n'.sendToExecute = 1 ∧ n'.fired = 1)) := by
  rw [markForExecution_eq]
  simp only
  obtain ⟨a1, a2⟩ := markScheduleEntriesLoop_waiting s.heap 0 0 s.schedule_head
    (numSpotsAvailableLoop s.k_0)
  obtain ⟨b1, b2⟩ := markScheduleEntriesLoop_waiting s.heap 1 (-1)
    (markScheduleEntriesLoop s.heap 0 0 s.schedule_head (numSpotsAvailableLoop s.k_0))
    (numSpotsAvailableLoop s.k_1)
  obtain ⟨c1, c2⟩ := markScheduleEntriesLoop_waiting s.heap 2 2
    (markScheduleEntriesLoop s.heap 1 (-1)
      (markScheduleEntriesLoop s.heap 0 0 s.schedule_head (numSpotsAvailableLoop s.k_0))
      (numSpotsAvailableLoop s.k_1))
    (numSpotsAvailableLoop s.k_2)
  constructor
  · intro n hn hw
    exact c1 n (b1 n (a1 n hn hw) hw) hw
  · intro n' hn'
    rcases c2 n' hn' with e | e
    · rcases b2 n' e with f | f
      · exact a2 n' f
      · exact Or.inr f
    · exact Or.inr e

/-- Calls that keep the pools and the state-update array and only mark
scheduling nodes as fired keep `RemoveReady`. -/
theorem RemoveReady_kept {b c : State} (hr : RemoveReady b) (hfu : fuAll c = fuAll b)
    (hsup : c.sup = b.sup)
    (fwd : ∀ n ∈ b.schedule_head, ∃ n' ∈ c.schedule_head, FlagsKept n n')
    (bwd : ∀ n' ∈ c.schedule_head, ∃ n ∈ b.schedule_head, FlagsKept n n')
    (hptr : c.schedule_head.map (·.theInstr) = b.schedule_head.map (·.theInstr)) :
    RemoveReady c := by
  obtain ⟨r1, r2, r3, r4, r5⟩ := hr
  refine ⟨?_, ?_, ?_, ?_, ?_⟩
  · intro p hp
    rw [hfu, hsup] at hp
    obtain ⟨n, hn, e, f⟩ := r1 p hp
    obtain ⟨n', hn', k⟩ := fwd n hn
    exact ⟨n', hn', k.1.trans e, FlagsKept_flags k f⟩
  · intro n' hn' hs
    obtain ⟨n, hn, k⟩ := bwd n' hn'
    exact k.2.2.2 (r2 n hn (k.2.1 ▸ hs))
  · rw [hsup]; exact r3
  · rw [hfu, hsup]; exact r4
  · rw [hptr]; exact r5

/-- Phase A establishes `RemoveReady`: the instructions it moves into the
state-update array occupied functional units, and the nodes it hands to the
functional units were selected, hence fired. -/
theorem RemoveReady_phaseA {s a : State} (hf : FlagInv s) (hp : PoolInv s) (hw : WaitInv s)
    (hi : TagInv s) (h : phaseA s = .ok a) : RemoveReady a := by
  obtain ⟨F1, F2⟩ := hf
  obtain ⟨-, -, -, acc⟩ := phaseA_lists hi h
  obtain ⟨s2, s3, s4, s5, s6, h2, h3, h4, h5, h6, rfl⟩ := phaseA_ok h
  obtain ⟨f2, u2⟩ := sendToSU_split h2
  have e2 : s2.schedule_head = s.schedule_head := by
    obtain ⟨_, _, _, _, _, rfl⟩ := sendToSU_shape h2; rfl
  obtain ⟨-, -, -, -, sup3, -, q3, k30, k31, k32, -⟩ := resolveBranches_fields h3
  obtain ⟨-, -, hq4⟩ := moveToExecute_effect h4
  have p4 := moveToExecute_perm h4
  have e4 : s4.sup = s3.sup := by
    obtain ⟨_, _, _, _, _, rfl⟩ := moveToExecute_shape h4; rfl
  obtain ⟨v, -, hv2, -⟩ := dispatchToSchedule_queue h5
  have e5 : s5.sup = s4.sup ∧ s5.k_0 = s4.k_0 ∧ s5.k_1 = s4.k_1 ∧ s5.k_2 = s4.k_2 := by
    obtain ⟨_, _, _, _, rfl⟩ := dispatchToSchedule_shape h5; exact ⟨rfl, rfl, rfl, rfl⟩
  have e6 : s6.sup = s5.sup ∧ s6.k_0 = s5.k_0 ∧ s6.k_1 = s5.k_1 ∧ s6.k_2 = s5.k_2 ∧
      s6.schedule_head = s5.schedule_head := by
    obtain ⟨_, _, _, _, _, rfl⟩ := dispatch_Enqueue_shape h6; exact ⟨rfl, rfl, rfl, rfl, rfl⟩
  obtain ⟨-, -, -, -, -, -, w7, w8, w9, w10, w11⟩ :=
    readTrace_frame s6.curr_Config.fetch_rate s6
  have hfu3 : fuAll s3 = idleAll s := by
    unfold fuAll at f2 ⊢
    rw [k30, k31, k32]; exact f2
  have hS3 : s3.schedule_head = s.schedule_head := q3.trans e2
  have hFU : fuAll (readTrace s6.curr_Config.fetch_rate s6) = fuAll s4 := by
    unfold fuAll
    rw [w8, w9, w10, e6.2.1, e6.2.2.1, e6.2.2.2.1, e5.2.1, e5.2.2.1, e5.2.2.2]
  have hSUP : supPtrs (readTrace s6.curr_Config.fetch_rate s6).sup = chosenAll s := by
    rw [w11, e6.1, e5.1, e4, sup3, u2]
  have hQ : (readTrace s6.curr_Config.fetch_rate s6).schedule_head =
      s.schedule_head.map (fun n =>
        if n.sendToExecute = 1 ∧ n.waiting = 0 then { n with waiting := 1 } else n) ++
      (markedNodes v).map newScheduleNode := by
    rw [w7, e6.2.2.2.2, hv2, hq4, hS3]
  have hperm := fuAll_perm s
  have hndall : (idleAll s ++ chosenAll s).Nodup := hperm.nodup_iff.1 hp.1
  have hold : ∀ p ∈ fuAll s, ∃ n ∈ (readTrace s6.curr_Config.fetch_rate s6).schedule_head,
      n.theInstr = p ∧ removeFlagsOk n = true := by
    intro p hp'
    obtain ⟨n, hn, e, f⟩ := F1 p hp'
    refine ⟨n, ?_, e, f⟩
    rw [hQ]
    refine List.mem_append_left _ (List.mem_map.2 ⟨n, hn, ?_⟩)
    have hw1 : n.waiting = 1 := by
      unfold removeFlagsOk at f
      simp only [Bool.and_eq_true, decide_eq_true_eq] at f
      exact f.2
    rw [if_neg (fun c => by rw [hw1] at c; exact absurd c.2 (by decide))]
  refine ⟨?_, ?_, ?_, ?_, ?_⟩
  · intro p hp'
    rw [hFU, hSUP, List.mem_append] at hp'
    rcases hp' with hp' | hp'
    · rcases List.mem_append.1 (p4.subset hp') with c | c
      · rw [hS3] at c
        obtain ⟨m, hm, hpend, e⟩ := mem_pendingPtrs.1 c
        refine ⟨{ m with waiting := 1 }, ?_, e, ?_⟩
        · rw [hQ]
          refine List.mem_append_left _ (List.mem_map.2 ⟨m, hm, ?_⟩)
          rw [if_pos hpend]
        · unfold removeFlagsOk
          simp [F2 m hm hpend.1, hpend.1]
      · rw [hfu3] at c
        exact hold p (hperm.symm.subset (List.mem_append_left _ c))
    · exact hold p (hperm.symm.subset (List.mem_append_right _ hp'))
  · intro n' hn' hs
    rw [hQ, List.mem_append] at hn'
    rcases hn' with c | c
    · obtain ⟨n, hn, rfl⟩ := List.mem_map.1 c
      split at hs
      · split
        · exact F2 n hn hs
        · exact F2 n hn hs
      · rename_i hc
        rw [if_neg hc]
        exact F2 n hn hs
    · obtain ⟨d, -, rfl⟩ := List.mem_map.1 c
      exact absurd hs (by simp [newScheduleNode])
  · rw [hSUP]
    exact (List.nodup_append.1 hndall).2.1
  · intro p hp' hc
    rw [hSUP] at hc
    rw [hFU] at hp'
    rcases List.mem_append.1 (p4.subset hp') with c | c
    · rw [hS3] at c
      exact pending_not_fu hw p c (chosenAll_fu hc)
    · rw [hfu3] at c
      exact (List.nodup_append.1 hndall).2.2 c hc
  · have hn := AccInv_nodup acc
    unfold inFlight at hn
    simp only [Bool.false_eq_true, if_false, List.nil_append] at hn
    exact (List.nodup_append.1 hn).1

/-- From the end of Phase A to the call of `removeAllSUFromSched`. -/
theorem RemoveReady_at_call {b s1 s3 s4 : State} (hr : RemoveReady b)
    (g1 : writeToRegFile b = .ok s1) (g3 : reserveScheduleSpots (setToFired s1) = .ok s3)
    (g4 : readUpdateRegFile s3.totalMarked s3 = .ok s4) : RemoveReady (broadcastToSched s4) := by
  obtain ⟨rf1, rfl⟩ := writeToRegFile_shape g1
  obtain ⟨d3, c3, rfl⟩ := reserveScheduleSpots_shape g3
  obtain ⟨hp4, rf4, rfl⟩ := readUpdateRegFile_shape g4
  obtain ⟨a1, a2⟩ := forall2_mem (setToFiredLoop_kept b.heap b.schedule_head)
  obtain ⟨b1, b2⟩ := broadcastToSchedLoop_kept b.sup (setToFiredLoop b.heap b.schedule_head) hp4
  refine RemoveReady_kept hr rfl rfl ?_ ?_ ?_
  · intro n hn
    obtain ⟨n1, h1, k1⟩ := a1 n hn
    obtain ⟨n2, h2, k2⟩ := b1 n1 h1
    exact ⟨n2, h2, FlagsKept_trans k1 k2⟩
  · intro n2 hn2
    obtain ⟨n1, h1, k2⟩ := b2 n2 hn2
    obtain ⟨n, hn, k1⟩ := a2 n1 h1
    exact ⟨n, hn, FlagsKept_trans k1 k2⟩
  · show (broadcastToSchedLoop b.sup (setToFiredLoop b.heap b.schedule_head) hp4).1.map
      (·.theInstr) = _
    rw [broadcastToSchedLoop_ptrs, setToFiredLoop_ptrs]

/-- In a state that is `RemoveReady` the call of `removeAllSUFromSched`
succeeds: it removes the nodes of the occupants of the state-update array,
keeps the others in order and counts the removed nodes off `schedule_size`. -/
theorem removeAllSUFromSched_total {c : State} (hr : RemoveReady c) :
    removeAllSUFromSched c =
      .ok { c with
        schedule_head := c.schedule_head.filter (fun x => decide (x.theInstr ∉ supPtrs c.sup))
        schedule_size := c.schedule_size - ((supPtrs c.sup).length : Int) } := by
  obtain ⟨r1, -, r3, -, r5⟩ := hr
  unfold removeAllSUFromSched
  rw [removeAllSUFromSchedLoop_total c.sup c.schedule_head c.schedule_size r5 r3
    (fun p hp => r1 p (List.mem_append_right _ hp))]

theorem FlagInv_cycle {s t : State} (hf : FlagInv s) (hp : PoolInv s) (hw : WaitInv s)
    (hi : TagInv s) (h : cycle s = .ok t) : FlagInv t := by
  obtain ⟨a, hA, hC⟩ := cycle_ok h
  have ra := RemoveReady_phaseA hf hp hw hi hA
  obtain ⟨st, e⟩ := updateDispatchQueueSize_shape a
  rw [e] at hC
  have rb : RemoveReady { a with myStats := st } := ra
  obtain ⟨s1, s3, s4, s6, s7, g1, g3, g4, g6, g7, rfl⟩ := phaseC_ok hC
  have rc := RemoveReady_at_call rb g1 g3 g4
  rw [removeAllSUFromSched_total rc] at g6
  cases g6
  obtain ⟨c1, c2, c3, c4, c5⟩ := rc
  obtain ⟨k0, k1, k2⟩ := setToChosenLoop_ptrs _ _ g7
  have e7 : s7.schedule_head = (broadcastToSched s4).schedule_head.filter
      (fun x => decide (x.theInstr ∉ supPtrs (broadcastToSched s4).sup)) := by
    obtain ⟨_, _, _, rfl⟩ := setToChosen_shape g7; rfl
  obtain ⟨m1, m2⟩ := markForExecution_waiting s7
  have e8 : fuAll (markForExecution s7) = fuAll s7 := by
    obtain ⟨q, e⟩ := markForExecution_shape s7
    rw [e]; rfl
  have hfu : fuAll s7 = fuAll (broadcastToSched s4) := by
    unfold fuAll
    rw [k0, k1, k2]
  constructor
  · intro p hp'
    have hp2 : p ∈ fuAll (markForExecution s7) := hp'
    rw [e8, hfu] at hp2
    obtain ⟨n, hn, e, f⟩ := c1 p (List.mem_append_left _ hp2)
    have hw1 : n.waiting = 1 := by
      unfold removeFlagsOk at f
      simp only [Bool.and_eq_true, decide_eq_true_eq] at f
      exact f.2
    have hn7 : n ∈ s7.schedule_head := by
      rw [e7]
      refine List.mem_filter.2 ⟨hn, ?_⟩
      have := c4 p hp2
      rw [← e] at this
      simpa using this
    exact ⟨n, m1 n hn7 (by rw [hw1]; decide), e, f⟩
  · intro n' hn' hs
    have hn2 : n' ∈ (markForExecution s7).schedule_head := hn'
    rcases m2 n' hn2 with c | c
    · rw [e7] at c
      exact c2 n' (List.mem_filter.1 c).1 hs
    · exact c.2

theorem FlagInv_reachable (numRegs k0 k1 k2 R F : Nat) (trace : List TraceLine) {s : State}
    (h : Reachable (proc_init numRegs k0 k1 k2 R F trace) s) : FlagInv s := by
  induction h with
  | init =>
    constructor
    · intro p hp
      exfalso
      have : fuAll (proc_init numRegs k0 k1 k2 R F trace) = [] := by
        simp [fuAll, proc_init, fuPtrs]
      rw [this] at hp
      cases hp
    · intro n hn
      cases hn
  | step hr _ hc ih =>
    exact FlagInv_cycle ih (PoolInv_reachable numRegs k0 k1 k2 R F trace hr)
      (WaitInv_reachable numRegs k0 k1 k2 R F trace hr)
      (TagInv_reachable (TagInv_init numRegs k0 k1 k2 R F trace) hr) hc

/-- C27. In every run, in the state `c` in which an iteration calls
`removeAllSUFromSched`, every instruction in the state-update array has a
scheduling node with `fired = sendToExecute = waiting = 1` and it is the only
node of that instruction; the call succeeds, so that none of the assertions of
`removeFromSched` fails, and it removes exactly those nodes: the queue keeps
the other nodes in their order and `schedule_size` drops by the number of
occupants. -/
theorem remove_state_update_nodes (numRegs k0 k1 k2 R F : Nat) (trace : List TraceLine)
    (s c : State) (hr : Reachable (proc_init numRegs k0 k1 k2 R F trace) s)
    (hc : uptoRemove s = .ok c) :
    (∀ p ∈ supPtrs c.sup,
      (∃ n ∈ c.schedule_head, n.theInstr = p ∧ n.fired = 1 ∧ n.sendToExecute = 1 ∧
        n.waiting = 1) ∧
      (c.schedule_head.map (·.theInstr)).count p = 1) ∧
    removeAllSUFromSched c =
      .ok { c with
        schedule_head := c.schedule_head.filter (fun x => decide (x.theInstr ∉ supPtrs c.sup))
        schedule_size := c.schedule_size - ((supPtrs c.sup).length : Int) } := by
  have rc : RemoveReady c := by
    unfold uptoRemove at hc
    split at hc
    · cases hc
    · rename_i a hA
      split at hc
      · cases hc
      · rename_i w1 g1
        split at hc
        · cases hc
        · rename_i w3 g3
          split at hc
          · cases hc
          · rename_i w4 g4
            cases hc
            have ra := RemoveReady_phaseA (FlagInv_reachable numRegs k0 k1 k2 R F trace hr)
              (PoolInv_reachable numRegs k0 k1 k2 R F trace hr)
              (WaitInv_reachable numRegs k0 k1 k2 R F trace hr)
              (TagInv_reachable (TagInv_init numRegs k0 k1 k2 R F trace) hr) hA
            obtain ⟨st, e⟩ := updateDispatchQueueSize_shape a
            rw [e] at g1
            have rb : RemoveReady { a with myStats := st } := ra
            exact RemoveReady_at_call rb g1 g3 g4
  refine ⟨fun p hp => ?_, removeAllSUFromSched_total rc⟩
  obtain ⟨r1, -, -, -, r5⟩ := rc
  obtain ⟨n, hn, e, f⟩ := r1 p (List.mem_append_right _ hp)
  unfold removeFlagsOk at f
  simp only [Bool.and_eq_true, decide_eq_true_eq] at f
  exact ⟨⟨n, hn, e, f.1.1, f.1.2, f.2⟩,
    List.count_eq_one_of_mem r5 (List.mem_map.2 ⟨n, hn, e⟩)⟩

/-- Witness for C27: in the iteration of cycle 5 of the dependent-pair scenario
the first instruction is in the state-update array when `removeAllSUFromSched`
is called, and the call leaves the node of the second instruction. -/
theorem remove_state_update_nodes_witness :
    rawAtRemove.sup = [some 0, none] ∧
    rawAtRemove.schedule_head.map (·.theInstr) = [0, 1] ∧
    removeAllSUFromSched rawAtRemove =
      .ok { rawAtRemove with
        schedule_head := rawAtRemove.schedule_head.filter
          (fun x => decide (x.theInstr ∉ supPtrs rawAtRemove.sup))
        schedule_size := rawAtRemove.schedule_size - ((supPtrs rawAtRemove.sup).length : Int) } :=
  ⟨by decide!, by decide!,
    (remove_state_update_nodes 128 3 2 1 2 4 rawTrace (rawState 4) rawAtRemove
      (rawState_reachable 4 (by rfl)) (ok_of_isSome _ (rawState 4) (by decide!))).2⟩

/-! ### Admission to the dispatch queue, exactly -/

/-- One turn of the loop of `dispatch_Enqueue` keeps the fields that decide
whether an instruction is mispredicted. -/
theorem mispredicted_turn (s : State) (p : Nat) (c cp : Int) (st : stats) (sd : Int)
    (d : List dispatch_node) (f : List Nat) (q : Nat) :
    mispredicted { s with heap := setInstr s.heap p { s.heap p with disp := c, correct_pred := cp },
                          myStats := st, stallDispatch := sd, dispatch_head := d,
                          fetchQueue := f } q = mispredicted s q := by
  unfold mispredicted
  by_cases e : q = p
  · subst e
    simp only [setInstr, if_true]
    rfl
  · simp only [setInstr, if_neg e]
    rfl

/-- The outcome of `predictBranch` on the stamped record of `p`. -/
theorem predictBranch_outcome (s : State) (p : Nat) (c : Int)
    (hb : (s.heap p).branch = 1 → (getPrediction (s.heap p).address s).toOption.isSome = true) :
    ∃ cp st, predictBranch { s.heap p with disp := c } s =
        .ok ({ s.heap p with disp := c, correct_pred := cp }, st) ∧
      ((s.heap p).branch = 1 → (cp = 0 ↔ mispredicted s p = true) ∧ (cp = 0 ∨ cp = 1)) ∧
      ((s.heap p).branch ≠ 1 → cp = (s.heap p).correct_pred ∧ mispredicted s p = false) := by
  unfold predictBranch mispredicted
  by_cases h1 : (s.heap p).branch = 1
  · have hb1 := hb h1
    simp only [h1, if_true, decide_True, Bool.true_and]
    cases hg : getPrediction (s.heap p).address s with
    | error e => rw [hg] at hb1; simp [Except.toOption] at hb1
    | ok pr =>
      simp only
      by_cases hpt : pr = (s.heap p).taken
      · rw [if_pos hpt]
        exact ⟨1, _, rfl, fun _ => ⟨by simp [hpt], Or.inr rfl⟩, fun h => absurd rfl h⟩
      · rw [if_neg hpt]
        exact ⟨0, _, rfl, fun _ => ⟨by simp [hpt], Or.inl rfl⟩, fun h => absurd rfl h⟩
  · have h1' : ¬ ({ s.heap p with disp := c } : instr).branch = 1 := h1
    rw [if_neg h1']
    refine ⟨(s.heap p).correct_pred, s.myStats, rfl, fun h => absurd h h1, fun _ => ⟨rfl, ?_⟩⟩
    simp [h1]

/-- The loop of `dispatch_Enqueue` with `n` turns left, started unlocked: it
admits the prefix of the fetch buffer that ends after `n` instructions, at the
end of the buffer, or right after the first mispredicted branch, and it ends
locked exactly when the last instruction it admitted is a mispredicted
branch. -/
theorem dispatch_EnqueueLoop_exact (c : Int) : ∀ (n : Nat) (s : State), s.stallDispatch = 0 →
    (∀ p ∈ s.fetchQueue,
      ((s.heap p).branch = 1 → (getPrediction (s.heap p).address s).toOption.isSome = true) ∧
      ((s.heap p).branch ≠ 1 → (s.heap p).correct_pred ≠ 0)) →
    ∃ t, dispatch_EnqueueLoop c n s = .ok t ∧
      t.fetchQueue = s.fetchQueue.drop
        (min (min n s.fetchQueue.length) (s.fetchQueue.findIdx (mispredicted s) + 1)) ∧
      t.dispatch_head = s.dispatch_head ++
        (s.fetchQueue.take
          (min (min n s.fetchQueue.length) (s.fetchQueue.findIdx (mispredicted s) + 1))).map
          (fun p => ({ theInstr := p, mark_for_move := 0 } : dispatch_node)) ∧
      (t.stallDispatch = 0 ∨ t.stallDispatch = 1) ∧
      (t.stallDispatch = 1 ↔
        ∃ q, 1 ≤ min (min n s.fetchQueue.length) (s.fetchQueue.findIdx (mispredicted s) + 1) ∧
          s.fetchQueue[min (min n s.fetchQueue.length)
            (s.fetchQueue.findIdx (mispredicted s) + 1) - 1]? = some q ∧
          mispredicted s q = true) := by
  intro n
  induction n with
  | zero =>
    intro s hs _
    refine ⟨s, rfl, by simp, by simp, Or.inl hs, ?_⟩
    rw [hs]
    constructor
    · intro h; exact absurd h (by decide)
    · rintro ⟨q, h1, -⟩
      simp at h1
  | succ n ih =>
    intro s hs hr
    rw [dispatch_EnqueueLoop]
    split
    · rename_i hf
      refine ⟨s, rfl, by rw [hf]; simp, by rw [hf]; simp, Or.inl hs, ?_⟩
      rw [hs, hf]
      constructor
      · intro h; exact absurd h (by decide)
      · rintro ⟨q, h1, -⟩
        simp at h1
    · rename_i p rest hf
      rw [if_pos hs]
      obtain ⟨hrb, hrn⟩ := hr p (by rw [hf]; exact List.mem_cons_self _ _)
      obtain ⟨cp, st, hpb, hbr, hnb⟩ := predictBranch_outcome s p c hrb
      simp only [hpb]
      by_cases hcp : cp = 0
      · have hb1 : (s.heap p).branch = 1 := by
          by_contra hne
          exact hrn hne ((hnb hne).1 ▸ hcp)
        have hmis : mispredicted s p = true := ((hbr hb1).1).1 hcp
        rw [if_pos hcp, if_pos hb1,
          dispatch_EnqueueLoop_blocked c n (Or.inr (by show (1 : Int) ≠ 0; decide))]
        rw [hf]
        have hk : min (min (n + 1) (p :: rest).length)
            ((p :: rest).findIdx (mispredicted s) + 1) = 1 := by
          rw [List.findIdx_cons, hmis]
          simp
        rw [hk]
        refine ⟨_, rfl, rfl, ?_, Or.inr rfl, ?_⟩
        · simp
        · constructor
          · intro _
            exact ⟨p, le_refl _, by simp, hmis⟩
          · intro _; rfl
      · have hmis : mispredicted s p = false := by
          by_cases hb1 : (s.heap p).branch = 1
          · cases hm : mispredicted s p with
            | false => rfl
            | true => exact absurd (((hbr hb1).1).2 hm) hcp
          · exact (hnb hb1).2
        rw [if_neg hcp]
        have hfun : mispredicted
            { s with heap := setInstr s.heap p { s.heap p with disp := c, correct_pred := cp },
                     myStats := st,
                     dispatch_head := s.dispatch_head ++ [{ theInstr := p, mark_for_move := 0 }],
                     fetchQueue := rest } = mispredicted s := by
          funext q
          exact mispredicted_turn s p c cp st s.stallDispatch _ rest q
        obtain ⟨t, h1, h2, h3, h4, h5⟩ := ih
          { s with heap := setInstr s.heap p { s.heap p with disp := c, correct_pred := cp },
                   myStats := st,
                   dispatch_head := s.dispatch_head ++ [{ theInstr := p, mark_for_move := 0 }],
                   fetchQueue := rest } hs
          (by
            intro q hq
            have hq' : q ∈ s.fetchQueue := by rw [hf]; exact List.mem_cons_of_mem _ hq
            obtain ⟨a1, a2⟩ := hr q hq'
            show ((setInstr s.heap p { s.heap p with disp := c, correct_pred := cp } q).branch = 1 →
                (getPrediction
                  (setInstr s.heap p { s.heap p with disp := c, correct_pred := cp } q).address
                  s).toOption.isSome = true) ∧
              ((setInstr s.heap p { s.heap p with disp := c, correct_pred := cp } q).branch ≠ 1 →
                (setInstr s.heap p { s.heap p with disp := c, correct_pred := cp } q).correct_pred
                  ≠ 0)
            by_cases e : q = p
            · subst e
              simp only [setInstr, if_true]
              exact ⟨a1, fun hne => by rw [(hnb hne).1]; exact a2 hne⟩
            · simp only [setInstr, if_neg e]
              exact ⟨a1, a2⟩)
        rw [hfun] at h2 h3 h5
        simp only at h2 h3 h5
        rw [hf]
        have hk : min (min (n + 1) (p :: rest).length)
            ((p :: rest).findIdx (mispredicted s) + 1) =
            min (min n rest.length) (rest.findIdx (mispredicted s) + 1) + 1 := by
          rw [List.findIdx_cons, hmis]
          simp only [cond_false, List.length_cons]
          omega
        rw [hk]
        refine ⟨t, h1, ?_, ?_, h4, ?_⟩
        · rw [h2]; rfl
        · rw [h3, List.take_succ_cons, List.map_cons, List.append_assoc]; rfl
        · rw [h5]
          constructor
          · rintro ⟨q, k1, k2, k3⟩
            refine ⟨q, by omega, ?_, k3⟩
            obtain ⟨j, hj⟩ : ∃ j, min (min n rest.length)
                (rest.findIdx (mispredicted s) + 1) = j + 1 := ⟨_, (Nat.sub_add_cancel k1).symm⟩
            rw [hj] at k2 ⊢
            simpa using k2
          · rintro ⟨q, -, k2, k3⟩
            by_cases hz : min (min n rest.length) (rest.findIdx (mispredicted s) + 1) = 0
            · rw [hz] at k2
              simp only [Nat.zero_add, Nat.sub_self, List.getElem?_cons_zero,
                Option.some.injEq] at k2
              rw [← k2, hmis] at k3
              cases k3
            · obtain ⟨j, hj⟩ : ∃ j, min (min n rest.length)
                  (rest.findIdx (mispredicted s) + 1) = j + 1 :=
                ⟨_, (Nat.sub_add_cancel (Nat.one_le_iff_ne_zero.2 hz)).symm⟩
              rw [hj] at k2 ⊢
              exact ⟨q, by omega, by simpa using k2, k3⟩

/-- C28: when the dispatch lock is 0 or 1 and the fetch buffer is as
`EnqueueReady` says, `dispatch_Enqueue` succeeds and moves a prefix of the fetch
buffer to the tail of the dispatch queue, in order and unmarked, stamping
`disp` with the cycle on the moved instructions and changing no other record.
The prefix has length `specAdmit`: 0 when the lock was taken; otherwise it ends
after `fetch_rate` instructions, at the end of the buffer, or right after the
first mispredicted branch, whichever comes first. Afterwards the lock is 1
exactly when it was 1 before or the last admitted instruction is a mispredicted
branch; and when the lock was taken the call changes nothing at all, the
statistics included. -/
theorem fetch_prefix_admitted (c : Int) (s : State) (hr : EnqueueReady s) :
    ∃ t, dispatch_Enqueue c s = .ok t ∧
      t.fetchQueue = s.fetchQueue.drop (specAdmit s) ∧
      t.dispatch_head = s.dispatch_head ++
        (s.fetchQueue.take (specAdmit s)).map
          (fun p => ({ theInstr := p, mark_for_move := 0 } : dispatch_node)) ∧
      (∀ p ∈ s.fetchQueue.take (specAdmit s), (t.heap p).disp = c) ∧
      (∀ p, p ∉ s.fetchQueue.take (specAdmit s) → t.heap p = s.heap p) ∧
      (t.stallDispatch = 1 ↔
        s.stallDispatch = 1 ∨
          ∃ q, 1 ≤ specAdmit s ∧ s.fetchQueue[specAdmit s - 1]? = some q ∧
            mispredicted s q = true) ∧
      (s.stallDispatch = 1 → t = s) := by
  obtain ⟨h01, hq⟩ := hr
  rcases h01 with h0 | h1
  · have hk : specAdmit s = min (min s.curr_Config.fetch_rate s.fetchQueue.length)
        (s.fetchQueue.findIdx (mispredicted s) + 1) := by
      unfold specAdmit
      rw [if_neg (by rw [h0]; decide)]
    obtain ⟨t, e1, e2, e3, -, e5⟩ :=
      dispatch_EnqueueLoop_exact c s.curr_Config.fetch_rate s h0 hq
    rw [← hk] at e2 e3 e5
    obtain ⟨moved, m1, -, -, m4, m5, -⟩ := dispatch_EnqueueLoop_effect c _ e1
    have hm : moved = s.fetchQueue.take (specAdmit s) := by
      have m1' : s.fetchQueue = moved ++ s.fetchQueue.drop (specAdmit s) := by
        rw [← e2]; exact m1
      have h : s.fetchQueue.take (specAdmit s) ++ s.fetchQueue.drop (specAdmit s) =
          moved ++ s.fetchQueue.drop (specAdmit s) :=
        (List.take_append_drop _ _).trans m1'
      exact (List.append_cancel_right h).symm
    rw [hm] at m4 m5
    refine ⟨t, e1, e2, e3, m4, m5, ?_, fun h => ?_⟩
    · rw [e5]
      constructor
      · intro h; exact Or.inr h
      · rintro (h | h)
        · rw [h0] at h; exact absurd h (by decide)
        · exact h
    · rw [h0] at h; exact absurd h (by decide)
  · have hk : specAdmit s = 0 := by
      unfold specAdmit
      rw [if_pos h1]
    rw [hk]
    refine ⟨s, dispatch_Enqueue_blocked c (Or.inr (by rw [h1]; decide)), by simp, by simp,
      fun p hp => ?_, fun _ _ => rfl, ?_, fun _ => rfl⟩
    · simp at hp
    · constructor
      · intro h; exact Or.inl h
      · intro _; exact h1

/-- Witness for C28: in the iteration of cycle 2 of the three-branch scenario
the fetch buffer holds three branches when `dispatch_Enqueue` is called with the
lock free; the first one is taken and predicted not taken, so that it alone is
admitted and the lock is taken. -/
theorem fetch_prefix_admitted_witness :
    EnqueueReady gsEnqueue ∧ gsEnqueue.fetchQueue = [0, 1, 2] ∧ gsEnqueue.stallDispatch = 0 ∧
    specAdmit gsEnqueue = 1 ∧
    ∃ t, dispatch_Enqueue 2 gsEnqueue = .ok t ∧
      t.fetchQueue = gsEnqueue.fetchQueue.drop (specAdmit gsEnqueue) ∧
      t.dispatch_head = gsEnqueue.dispatch_head ++
        (gsEnqueue.fetchQueue.take (specAdmit gsEnqueue)).map
          (fun p => ({ theInstr := p, mark_for_move := 0 } : dispatch_node)) ∧
      (∀ p ∈ gsEnqueue.fetchQueue.take (specAdmit gsEnqueue), (t.heap p).disp = 2) ∧
      (∀ p, p ∉ gsEnqueue.fetchQueue.take (specAdmit gsEnqueue) → t.heap p = gsEnqueue.heap p) ∧
      (t.stallDispatch = 1 ↔
        gsEnqueue.stallDispatch = 1 ∨
          ∃ q, 1 ≤ specAdmit gsEnqueue ∧
            gsEnqueue.fetchQueue[specAdmit gsEnqueue - 1]? = some q ∧
            mispredicted gsEnqueue q = true) ∧
      (gsEnqueue.stallDispatch = 1 → t = gsEnqueue) :=
  ⟨by unfold EnqueueReady; decide!, by decide!, by decide!, by decide!,
    fetch_prefix_admitted 2 gsEnqueue (by unfold EnqueueReady; decide!)⟩

/-! ### Reservation of scheduling-queue entries -/

theorem reserveScheduleSpotsLoop_total : ∀ (d : List dispatch_node) (a c : Int),
    (∀ x ∈ d, x.mark_for_move = 0) → ∃ r c', reserveScheduleSpotsLoop d a c = .ok (r, c') := by
  intro d
  induction d with
  | nil => intro a c _; exact ⟨_, _, rfl⟩
  | cons x rest ih =>
    intro a c hu
    rw [reserveScheduleSpotsLoop]
    split
    · rw [if_pos (hu x (List.mem_cons_self _ _))]
      obtain ⟨r, c', e⟩ := ih (a - 1) (c + 1) (fun y hy => hu y (List.mem_cons_of_mem _ hy))
      rw [e]
      exact ⟨_, _, rfl⟩
    · exact ⟨_, _, rfl⟩

/-- On an unmarked dispatch queue `reserveScheduleSpots` succeeds; when the
scheduling queue is within its bound it returns the smaller of the length of
the dispatch queue and the free entries, and marks that prefix. -/
theorem reserveScheduleSpots_total {s : State} (hu : Unmarked s)
    (hb : s.schedule_size ≤ (s.curr_Config.max_sched_queue : Int)) :
    reserveScheduleSpots s =
      .ok { s with
        dispatch_head :=
          (s.dispatch_head.take
            ((s.curr_Config.max_sched_queue : Int) - s.schedule_size).toNat).map
              (fun x => { x with mark_for_move := 1 }) ++
            s.dispatch_head.drop ((s.curr_Config.max_sched_queue : Int) - s.schedule_size).toNat
        totalMarked := min (s.dispatch_head.length : Int)
          ((s.curr_Config.max_sched_queue : Int) - s.schedule_size) } := by
  obtain ⟨r, c', e⟩ := reserveScheduleSpotsLoop_total s.dispatch_head
    ((s.curr_Config.max_sched_queue : Int) - s.schedule_size) 0 hu
  obtain ⟨e1, e2, -⟩ := reserveScheduleSpotsLoop_spec _ _ _ e
  unfold reserveScheduleSpots
  rw [e]
  simp only
  have hc : c' = min (s.dispatch_head.length : Int)
      ((s.curr_Config.max_sched_queue : Int) - s.schedule_size) := by
    rw [e2, List.length_take]
    have h0 : (0 : Int) ≤ (s.curr_Config.max_sched_queue : Int) - s.schedule_size := by omega
    have := Int.toNat_of_nonneg h0
    omega
  rw [e1, hc]

/-- The state in which an iteration calls `reserveScheduleSpots`: no dispatch
node is marked and the scheduling queue is within its bound. -/
theorem reserve_call_ready {s b : State} (hi : TagInv s) (hz : SchedSizeInv s)
    (hb : uptoReserve s = .ok b) :
    Unmarked b ∧ b.schedule_size ≤ (b.curr_Config.max_sched_queue : Int) := by
  unfold uptoReserve at hb
  split at hb
  · cases hb
  · rename_i a hA
    split at hb
    · cases hb
    · rename_i w1 g1
      cases hb
      obtain ⟨-, -, hu, -⟩ := phaseA_lists hi hA
      obtain ⟨s2, s3, s4, s5, s6, h2, h3, h4, h5, h6, rfl⟩ := phaseA_ok hA
      obtain ⟨s5', h5', -, a2⟩ := SchedSizeInv_dispatchToSchedule hz h2 h3 h4
      rw [h5] at h5'; cases h5'
      obtain ⟨st, e⟩ := updateDispatchQueueSize_shape (readTrace s6.curr_Config.fetch_rate s6)
      rw [e] at g1
      obtain ⟨rf, rfl⟩ := writeToRegFile_shape g1
      obtain ⟨-, -, w3, -⟩ := readTrace_frame s6.curr_Config.fetch_rate s6
      have e6 : s6.schedule_size = s5.schedule_size ∧ s6.curr_Config = s5.curr_Config := by
        obtain ⟨_, _, _, _, _, rfl⟩ := dispatch_Enqueue_shape h6; exact ⟨rfl, rfl⟩
      have e7 : (readTrace s6.curr_Config.fetch_rate s6).schedule_size = s6.schedule_size := by
        obtain ⟨_, _, _, _, _, e⟩ := readTrace_shape s6.curr_Config.fetch_rate s6
        rw [e]
      constructor
      · exact hu
      · show (readTrace s6.curr_Config.fetch_rate s6).schedule_size ≤
          ((readTrace s6.curr_Config.fetch_rate s6).curr_Config.max_sched_queue : Int)
        rw [e7, w3, e6.1, e6.2]
        exact a2

/-- C29. On a dispatch queue of length `n` without marked nodes, with
`schedule_size` within `max_sched_queue`, `reserveScheduleSpots` succeeds,
returns `min(n, max_sched_queue - schedule_size)` and marks the nodes of the
prefix of that length, leaving the rest of the queue and of the state as they
were. In every run, the state in which an iteration calls it has no marked
dispatch node and a scheduling queue within its bound, so that the assertion
of the call does not fail. -/
theorem reserve_prefix_marked (numRegs k0 k1 k2 R F : Nat) (trace : List TraceLine)
    (s b : State) (hr : Reachable (proc_init numRegs k0 k1 k2 R F trace) s)
    (hb : uptoReserve s = .ok b) :
    (∀ σ : State, Unmarked σ → σ.schedule_size ≤ (σ.curr_Config.max_sched_queue : Int) →
      reserveScheduleSpots σ =
        .ok { σ with
          dispatch_head :=
            (σ.dispatch_head.take
              ((σ.curr_Config.max_sched_queue : Int) - σ.schedule_size).toNat).map
                (fun x => { x with mark_for_move := 1 }) ++
              σ.dispatch_head.drop
                ((σ.curr_Config.max_sched_queue : Int) - σ.schedule_size).toNat
          totalMarked := min (σ.dispatch_head.length : Int)
            ((σ.curr_Config.max_sched_queue : Int) - σ.schedule_size) }) ∧
    Unmarked b ∧ b.schedule_size ≤ (b.curr_Config.max_sched_queue : Int) ∧
    (∃ t, reserveScheduleSpots b = .ok t ∧
      t.totalMarked = min (b.dispatch_head.length : Int)
        ((b.curr_Config.max_sched_queue : Int) - b.schedule_size)) := by
  obtain ⟨h1, h2⟩ := reserve_call_ready
    (TagInv_reachable (TagInv_init numRegs k0 k1 k2 R F trace) hr)
    (SchedSizeInv_reachable (SchedSizeInv_init numRegs k0 k1 k2 R F trace) hr) hb
  exact ⟨fun σ hu hz => reserveScheduleSpots_total hu hz, h1, h2, _,
    reserveScheduleSpots_total h1 h2, rfl⟩

/-- Witness for C29: in the iteration of cycle 2 of the dependent-pair scenario
`reserveScheduleSpots` is called with both instructions in the dispatch queue
and an empty scheduling queue of twelve entries. -/
theorem reserve_prefix_marked_witness :
    rawAtReserve.dispatch_head.map (·.theInstr) = [0, 1] ∧
    rawAtReserve.schedule_size = 0 ∧ rawAtReserve.curr_Config.max_sched_queue = 12 ∧
    ∃ t, reserveScheduleSpots rawAtReserve = .ok t ∧
      t.totalMarked = min (rawAtReserve.dispatch_head.length : Int)
        ((rawAtReserve.curr_Config.max_sched_queue : Int) - rawAtReserve.schedule_size) :=
  ⟨by decide!, by decide!, by decide!,
    (reserve_prefix_marked 128 3 2 1 2 4 rawTrace (rawState 1) rawAtReserve
      (rawState_reachable 1 (by rfl)) (ok_of_isSome _ (rawState 1) (by decide!))).2.2.2⟩

/-! ### The move of the reserved entries -/

/-- With the reserved nodes forming the prefix of length `totalMarked` and room
for them in the scheduling queue, `dispatchToSchedule` succeeds: it removes
that prefix from the dispatch queue, appends a fresh node for each of its
instructions to the scheduling queue, in order, stamps `sched`, and adds
`totalMarked` to `schedule_size`. -/
theorem dispatchToSchedule_exact (clock : Int) (s : State) (hm : MarkedPrefix s)
    (hz : s.schedule_size + s.totalMarked ≤ (s.curr_Config.max_sched_queue : Int)) :
    dispatchToSchedule clock s.totalMarked s =
      .ok { s with
        heap := stampSched clock
          ((s.dispatch_head.take s.totalMarked.toNat).map (·.theInstr)) s.heap
        schedule_head := s.schedule_head ++
          (s.dispatch_head.take s.totalMarked.toNat).map
            (fun d => ({ theInstr := d.theInstr, fired := 0, sendToExecute := 0,
                         waiting := 0 } : schedule_node))
        schedule_size := s.schedule_size + s.totalMarked
        dispatch_head := s.dispatch_head.drop s.totalMarked.toNat } := by
  obtain ⟨m0, m1, m2, m3⟩ := hm
  obtain ⟨r, t, e⟩ := dispatchToScheduleLoop_total clock s.totalMarked s.dispatch_head 0 s m0
    (by omega)
  have hlen : (0 : Int) + ((s.dispatch_head.take s.totalMarked.toNat).length : Int) =
      s.totalMarked := by
    rw [List.length_take, Nat.min_eq_left m1]
    have := Int.toNat_of_nonneg m0
    omega
  have e' := e
  rw [← List.take_append_drop s.totalMarked.toNat s.dispatch_head] at e'
  have hx := dispatchToScheduleLoop_prefix clock s.totalMarked _ _ 0 s m2 hlen m3 e'
  obtain ⟨p1, p2⟩ := hx
  obtain ⟨v, hv, -, hsz, hh, -, -⟩ := dispatchToScheduleLoop_spec clock s.totalMarked _ _ e
  have hvis : v = s.dispatch_head.take s.totalMarked.toNat := by
    have h : s.dispatch_head.take s.totalMarked.toNat ++ s.dispatch_head.drop s.totalMarked.toNat =
        v ++ s.dispatch_head.drop s.totalMarked.toNat := by
      rw [List.take_append_drop, ← p1]
      exact hv
    exact (List.append_cancel_right h).symm
  have hmk : markedNodes v = s.dispatch_head.take s.totalMarked.toNat := by
    rw [hvis]
    unfold markedNodes
    rw [List.filter_eq_self]
    intro d hd
    simpa using m2 d hd
  rw [hmk] at hsz hh
  have hsz' : t.schedule_size = s.schedule_size + s.totalMarked := by
    rw [hsz]; omega
  obtain ⟨hp, q, sz, rfl⟩ := dispatchToScheduleLoop_shape clock s.totalMarked _ _ e
  simp only at p2 hsz' hh
  unfold dispatchToSchedule
  rw [e]
  simp only
  rw [p1, p2, hsz', hh]
  rfl

/-- The state in which an iteration calls `dispatchToSchedule`: the dispatch
queue, the count of reserved nodes and the size of the scheduling queue are
those of the top of the loop. -/
theorem move_call_ready {s s4 : State} (hi : TagInv s) (hz : SchedSizeInv s)
    (h4 : uptoMove s = .ok s4) :
    MarkedPrefix s4 ∧ s4.totalMarked = s.totalMarked ∧
      s4.schedule_size + s4.totalMarked ≤ (s4.curr_Config.max_sched_queue : Int) := by
  unfold uptoMove at h4
  split at h4
  · cases h4
  · rename_i s2 h2
    split at h4
    · cases h4
    · rename_i s3 h3
      obtain ⟨_, _, _, _, _, rfl⟩ := sendToSU_shape h2
      obtain ⟨_, _, _, _, rfl⟩ := resolveBranches_shape h3
      have hq := moveToExecute_effect h4
      obtain ⟨_, _, _, _, _, rfl⟩ := moveToExecute_shape h4
      exact ⟨hi.2, rfl, hz.2.2⟩

/-- C30. Called with `totalMarked` equal to the count the preceding
`reserveScheduleSpots` returned, that is with the reserved nodes forming the
prefix of that length, and with room for them in the scheduling queue,
`dispatchToSchedule` removes exactly the first `totalMarked` nodes of the
dispatch queue and appends one node for each of their instructions to the
scheduling queue, in order, with `fired = sendToExecute = waiting = 0`; it
stamps `sched` with the clock on those instructions and changes no other
record, adds `totalMarked` to `schedule_size`, and leaves the rest of the state
as it was. In every run the state in which an iteration makes the call is of
that kind, so that the call succeeds. -/
theorem reserved_prefix_moved (numRegs k0 k1 k2 R F : Nat) (trace : List TraceLine)
    (s s4 : State) (hr : Reachable (proc_init numRegs k0 k1 k2 R F trace) s)
    (h4 : uptoMove s = .ok s4) :
    (∀ (clock : Int) (σ : State), MarkedPrefix σ →
      σ.schedule_size + σ.totalMarked ≤ (σ.curr_Config.max_sched_queue : Int) →
      dispatchToSchedule clock σ.totalMarked σ =
        .ok { σ with
          heap := stampSched clock
            ((σ.dispatch_head.take σ.totalMarked.toNat).map (·.theInstr)) σ.heap
          schedule_head := σ.schedule_head ++
            (σ.dispatch_head.take σ.totalMarked.toNat).map
              (fun d => ({ theInstr := d.theInstr, fired := 0, sendToExecute := 0,
                           waiting := 0 } : schedule_node))
          schedule_size := σ.schedule_size + σ.totalMarked
          dispatch_head := σ.dispatch_head.drop σ.totalMarked.toNat } ∧
      ∀ x, stampSched clock
          ((σ.dispatch_head.take σ.totalMarked.toNat).map (·.theInstr)) σ.heap x =
        if x ∈ (σ.dispatch_head.take σ.totalMarked.toNat).map (·.theInstr) then
          { σ.heap x with sched := clock } else σ.heap x) ∧
    MarkedPrefix s4 ∧ s4.totalMarked = s.totalMarked ∧
    s4.schedule_size + s4.totalMarked ≤ (s4.curr_Config.max_sched_queue : Int) ∧
    ∃ t, dispatchToSchedule s.clock s.totalMarked s4 = .ok t ∧
      t.dispatch_head = s4.dispatch_head.drop s.totalMarked.toNat ∧
      t.schedule_size = s4.schedule_size + s.totalMarked := by
  obtain ⟨a1, a2, a3⟩ := move_call_ready
    (TagInv_reachable (TagInv_init numRegs k0 k1 k2 R F trace) hr)
    (SchedSizeInv_reachable (SchedSizeInv_init numRegs k0 k1 k2 R F trace) hr) h4
  refine ⟨fun clock σ hm hz => ⟨dispatchToSchedule_exact clock σ hm hz,
    fun x => stampSched_apply clock _ σ.heap x⟩, a1, a2, a3, ?_⟩
  have := dispatchToSchedule_exact s.clock s4 a1 a3
  rw [a2] at this
  exact ⟨_, this, rfl, rfl⟩

/-- Witness for C30: the iteration of cycle 3 of the dependent-pair scenario
calls `dispatchToSchedule` with both instructions reserved in the dispatch
queue and an empty scheduling queue. -/
theorem reserved_prefix_moved_witness :
    rawAtMove.dispatch_head.map (fun d => (d.theInstr, d.mark_for_move)) = [(0, 1), (1, 1)] ∧
    (rawState 2).totalMarked = 2 ∧ rawAtMove.schedule_size = 0 ∧
    ∃ t, dispatchToSchedule (rawState 2).clock (rawState 2).totalMarked rawAtMove = .ok t ∧
      t.dispatch_head = rawAtMove.dispatch_head.drop (rawState 2).totalMarked.toNat ∧
      t.schedule_size = rawAtMove.schedule_size + (rawState 2).totalMarked :=
  ⟨by decide!, by decide!, by decide!,
    (reserved_prefix_moved 128 3 2 1 2 4 rawTrace (rawState 2) rawAtMove
      (rawState_reachable 2 (by rfl)) (ok_of_isSome _ (rawState 2) (by decide!))).2.2.2.2⟩

/-! ## Call site of a failing assertion -/

/-- The call of the iteration at which an error is raised, for the calls whose
assertions depend on the state; for the others the fault names the call. -/
theorem cycle_error_site {s : State} {e : Fault} (h : cycle s = .error e) :
    (e = Fault.supOverflow ∨ e = Fault.putInFUBadClass ∨ e = Fault.assertFUSlot ∨
      e = Fault.assertSchedSize ∨ e = Fault.assertUnmarked ∨ e = Fault.removeEmptySched ∨
      e = Fault.assertRemoveFlags ∨ e = Fault.assertRemoveFound ∨ e = Fault.chosenNoNode) ∨
    (∃ s2, sendToSU s.clock (sendToFinal s) = .ok s2 ∧ resolveBranches s2 = .error e) ∨
    (∃ s2 s3 s4 s5, sendToSU s.clock (sendToFinal s) = .ok s2 ∧ resolveBranches s2 = .ok s3 ∧
      moveToExecute s.clock s3 = .ok s4 ∧ dispatchToSchedule s.clock s.totalMarked s4 = .ok s5 ∧
      dispatch_Enqueue s.clock s5 = .error e) ∨
    (∃ a, phaseA s = .ok a ∧ writeToRegFile (updateDispatchQueueSize a) = .error e) ∨
    (∃ a w1 w3, phaseA s = .ok a ∧ writeToRegFile (updateDispatchQueueSize a) = .ok w1 ∧
      reserveScheduleSpots (setToFired w1) = .ok w3 ∧
      readUpdateRegFile w3.totalMarked w3 = .error e) := by
  rcases cycle_error h with h1 | ⟨s2, h2, h3⟩ | ⟨s2, s3, h2, h3, h4⟩ | ⟨s2, s3, s4, h2, h3, h4, h5⟩ |
    ⟨s2, s3, s4, s5, h2, h3, h4, h5, h6⟩ | ⟨s1, hA, hC⟩
  · exact Or.inl (Or.inl (sendToSU_error h1))
  · exact Or.inr (Or.inl ⟨s2, h2, h3⟩)
  · rcases moveToExecute_error h4 with e1 | e1
    · exact Or.inl (Or.inr (Or.inl e1))
    · exact Or.inl (Or.inr (Or.inr (Or.inl e1)))
  · exact Or.inl (Or.inr (Or.inr (Or.inr (Or.inl (dispatchToSchedule_error h5)))))
  · exact Or.inr (Or.inr (Or.inl ⟨s2, s3, s4, s5, h2, h3, h4, h5, h6⟩))
  · rcases phaseC_error hC with g1 | ⟨w1, g1, g3⟩ | ⟨w1, w3, g1, g3, g4⟩ |
      ⟨w1, w3, w4, g1, g3, g4, g6⟩ | ⟨w1, w3, w4, w6, g1, g3, g4, g6, g7⟩
    · exact Or.inr (Or.inr (Or.inr (Or.inl ⟨s1, hA, g1⟩)))
    · exact Or.inl (Or.inr (Or.inr (Or.inr (Or.inr (Or.inl (reserveScheduleSpots_error g3))))))
    · exact Or.inr (Or.inr (Or.inr (Or.inr ⟨s1, w1, w3, hA, g1, g3, g4⟩)))
    · rcases removeAllSUFromSched_error g6 with e1 | e1 | e1
      · exact Or.inl (Or.inr (Or.inr (Or.inr (Or.inr (Or.inr (Or.inl e1))))))
      · exact Or.inl (Or.inr (Or.inr (Or.inr (Or.inr (Or.inr (Or.inr (Or.inl e1)))))))
      · exact Or.inl (Or.inr (Or.inr (Or.inr (Or.inr (Or.inr (Or.inr (Or.inr (Or.inl e1))))))))
    · unfold setToChosen at g7
      exact Or.inl (Or.inr (Or.inr (Or.inr (Or.inr (Or.inr (Or.inr (Or.inr (Or.inr
        (setToChosenLoop_error _ _ g7)))))))))

/-! ## Range of the counters -/

theorem smithNext_le (c : Nat) (t : Int) : smithNext c t ≤ 3 := by
  unfold smithNext
  split <;> split <;> decide

theorem updateSmithCounter_bound (row col : Nat) (taken : Int) {s : State}
    (hi : CounterInv s) : CounterInv (updateSmithCounter row col taken s) := by
  intro r c
  rw [updateSmithCounter_eq row col taken s (hi row col)]
  show setCell s.GSelect row col _ r c ≤ 3
  unfold setCell
  split
  · exact smithNext_le _ _
  · exact hi r c

theorem CounterInv_congr {s t : State} (h : t.GSelect = s.GSelect) (hi : CounterInv s) :
    CounterInv t := by
  intro r c
  rw [h]
  exact hi r c

theorem resolveBranchesLoop_bound : ∀ (n : Nat) {s t : State}, CounterInv s →
    resolveBranchesLoop n s = .ok t → CounterInv t := by
  intro n
  induction n with
  | zero => intro s t hi h; cases h; exact hi
  | succ n ih =>
    intro s t hi h
    rw [resolveBranchesLoop] at h
    simp only at h
    split at h
    · cases h
    · split at h
      · rename_i p hp
        have h1 : CounterInv (updateGHR ((updateGSelect (s.heap p).address (s.heap p).taken s).heap p).taken
            (updateGSelect (s.heap p).address (s.heap p).taken s)) := by
          obtain ⟨r, e⟩ := updateGHR_shape
            ((updateGSelect (s.heap p).address (s.heap p).taken s).heap p).taken
            (updateGSelect (s.heap p).address (s.heap p).taken s)
          rw [e]
          exact updateSmithCounter_bound _ _ _ hi
        split at h
        · split at h
          · (refine ih ?_ h; exact fun r c => h1 r c)
          · cases h
        · (refine ih ?_ h; exact fun r c => h1 r c)
      · cases h

theorem resolveBranches_bound {s t : State} (hi : CounterInv s)
    (h : resolveBranches s = .ok t) : CounterInv t := by
  unfold resolveBranches at h
  split at h
  · cases h
  · exact resolveBranchesLoop_bound _ hi h

/-- The counters stay in range over one iteration of the driver. -/
theorem CounterInv_cycle {s t : State} (hi : CounterInv s) (h : cycle s = .ok t) :
    CounterInv t := by
  obtain ⟨s2, s3, s5, s6, u, h2, h3, h5, h6, hs, _, rfl⟩ := cycle_anatomy h
  have i2 : CounterInv s2 := CounterInv_congr (sendToSU_settled h2).2.2.1 hi
  have i3 := resolveBranches_bound i2 h3
  have i5 : CounterInv s5 := CounterInv_congr (midCalls_facts h5).1.2.2.1 i3
  obtain ⟨hp, st, sd, d, f, rfl⟩ := dispatch_Enqueue_shape h6
  have i7 : CounterInv (readTrace s5.curr_Config.fetch_rate
      { s5 with heap := hp, myStats := st, stallDispatch := sd, dispatch_head := d,
                fetchQueue := f }) :=
    CounterInv_congr (readTrace_frame _ _).2.1 i5
  exact CounterInv_congr hs.2.2.1 i7

theorem CounterInv_reachable {s0 s : State} (h0 : CounterInv s0) (h : Reachable s0 s) :
    CounterInv s := by
  induction h with
  | init => exact h0
  | step _ _ hc ih => exact CounterInv_cycle ih hc

theorem CounterInv_init (numRegs k0 k1 k2 r f : Nat) (trace : List TraceLine) :
    CounterInv (proc_init numRegs k0 k1 k2 r f trace) :=
  fun _ _ => show (1 : Nat) ≤ 3 by decide

theorem getPrediction_total (address : Nat) {s : State} (hi : CounterInv s) :
    ∃ pr, getPrediction address s = .ok pr :=
  ⟨_, (prediction_threshold address s hi).1⟩

theorem dispatch_EnqueueLoop_predicts (cycle : Int) : ∀ (n : Nat) {s : State},
    CounterInv s → dispatch_EnqueueLoop cycle n s ≠ .error Fault.assertPrediction := by
  intro n
  induction n with
  | zero => intro s _ h; cases h
  | succ n ih =>
    intro s hi h
    rw [dispatch_EnqueueLoop] at h
    split at h
    · cases h
    · split at h
      · simp only at h
        split at h
        · rename_i e he
          cases h
          unfold predictBranch at he
          split at he
          · obtain ⟨pr, hpr⟩ := getPrediction_total ({ s.heap _ with disp := cycle } : instr).address hi
            rw [hpr] at he
            simp only at he
            split at he <;> cases he
          · cases he
        · split at h
          · split at h
            · (refine ih ?_ h; exact fun r c => hi r c)
            · cases h
          · (refine ih ?_ h; exact fun r c => hi r c)
      · cases h

/-- The `assert(0)` of `getPrediction` is not reached in an iteration that
starts with every counter in range. -/
theorem cycle_predicts {s : State} (hi : CounterInv s) :
    cycle s ≠ .error Fault.assertPrediction := by
  intro h
  rcases cycle_error_site h with h1 | ⟨s2, h2, h3⟩ | ⟨s2, s3, s4, s5, h2, h3, h4, h5, h6⟩ |
    ⟨a, hA, g1⟩ | ⟨a, w1, w3, hA, g1, g3, g4⟩
  · rcases h1 with e | e | e | e | e | e | e | e | e <;> cases e
  · rcases resolveBranches_error h3 with e | e | e <;> cases e
  · have i2 : CounterInv s2 := CounterInv_congr (sendToSU_settled h2).2.2.1 hi
    have i3 := resolveBranches_bound i2 h3
    have h45 : midCalls s.clock s.totalMarked s3 = .ok s5 := by
      unfold midCalls
      rw [h4]
      exact h5
    have i5 : CounterInv s5 := CounterInv_congr (midCalls_facts h45).1.2.2.1 i3
    exact dispatch_EnqueueLoop_predicts _ _ i5 h6
  · rcases writeToRegFile_error g1 with e | e <;> cases e
  · rcases readUpdateRegFile_error g4 with e | e | e <;> cases e

/-! ## The dispatch lock and the place of the mispredicted branch -/

theorem cycle_final {s t : State} (h : cycle s = .ok t) :
    t.final_head = s.final_head ++ (supPtrs s.sup).map (fun p => mkFinal (s.heap p)) := by
  obtain ⟨s2, s3, s5, s6, u, h2, h3, h5, h6, hs, hq, rfl⟩ := cycle_anatomy h
  obtain ⟨-, -, -, -, -, -, -, -, -, f2, -⟩ := sendToSU_settled h2
  obtain ⟨-, -, f3, -⟩ := resolveBranches_fields h3
  obtain ⟨⟨-, -, -, -, -, -, -, -, -, f5, -⟩, -⟩ := midCalls_facts h5
  have f6 : s6.final_head = s5.final_head := by
    obtain ⟨_, _, _, _, _, rfl⟩ := dispatch_Enqueue_shape h6; rfl
  obtain ⟨k, -, -, -, -, -, -, f7, -⟩ := after_enqueue s6.curr_Config.fetch_rate hs hq
  show u.final_head = _
  rw [f7, f6, f5, f3, f2, sendToFinal_final]

/-- The occupants of the state-update array at the end of an iteration went
through `resolveBranches` in it. -/
theorem cycle_sup_done {s t : State} (hi : StallCore s) (hp : PoolInv s)
    (hst : StampInv (s.clock - 1) s) (h : cycle s = .ok t) :
    ∀ p ∈ supPtrs t.sup, (t.heap p).resolved ≠ 0 := by
  obtain ⟨s2, s3, s5, s6, u, h2, h3, h5, h6, hs, hq, rfl⟩ := cycle_anatomy h
  obtain ⟨-, a2, a3, a4, -⟩ := sup_at_resolve hp hst h2
  have i2 : StallCore s2 := StallCore_settled (sendToSU_settled h2) hi
  have r3 := (StallCore_resolve i2 a2 a3 a4 h3).2.1
  obtain ⟨-, -, -, n3, sup3, -⟩ := resolveBranches_fields h3
  obtain ⟨⟨k5, -, -, -, -, -, -, n5, -, -, -⟩, sup5, -⟩ := midCalls_facts h5
  obtain ⟨moved, -, -, m3, -, -, -⟩ := dispatch_EnqueueLoop_effect _ _ h6
  have e6 : s6.nalloc = s5.nalloc ∧ s6.sup = s5.sup := by
    obtain ⟨_, _, _, _, _, rfl⟩ := dispatch_Enqueue_shape h6; exact ⟨rfl, rfl⟩
  obtain ⟨k, -, -, b3, -, -, -, -, -, -, -, -, -, -, b14, -⟩ :=
    after_enqueue s6.curr_Config.fetch_rate hs hq
  intro p hp
  show (u.heap p).resolved ≠ 0
  have hsup : u.sup = s3.sup := by rw [b14, e6.2, sup5]
  rw [show ({ u with clock := u.clock + 1 } : State).sup = u.sup from rfl, hsup] at hp
  have hlt : p < s6.nalloc := by
    rw [e6.1, n5, n3]
    exact a3 p (by rw [← sup3]; exact hp)
  have b1 := (b3 p hlt).1.2.2.2.2.2.2.1
  have b2 : (s6.heap p).resolved = (s5.heap p).resolved := by
    rcases m3 p with e | ⟨cp, e⟩ <;> rw [e]
  have b5 := (k5 p).2.2.2.2.2.2.1
  rw [b1, b2, b5]
  exact r3 p hp

theorem DoneInv_cycle {s t : State} (hd : DoneInv s) (hi : StallCore s) (hp : PoolInv s)
    (hst : StampInv (s.clock - 1) s) (ht : TagInv s) (hf : FlagInv s) (h : cycle s = .ok t) :
    DoneInv t := by
  refine ⟨cycle_sup_done hi hp hst h, ?_⟩
  obtain ⟨-, -, c3, -⟩ := cycle_pools h
  have hsched : ∀ p ∈ chosenAll s, p ∈ s.schedule_head.map (·.theInstr) := by
    intro p hc
    obtain ⟨n, hn, e, -⟩ := hf.1 p (chosenAll_fu hc)
    exact List.mem_map.2 ⟨n, hn, e⟩
  intro r hr p hrp
  rw [cycle_final h, List.mem_append] at hr
  rcases hr with hr | hr
  · obtain ⟨q, hq, e, hnot⟩ := AccInv_final_tag ht.1 hr
    have hpq : p = q := by
      rw [hrp] at e
      exact_mod_cast e
    subst hpq
    have hc : p ∉ chosenAll s := by
      intro hc
      apply hnot
      unfold inFlight
      exact List.mem_append_left _ (List.mem_append_right _ (hsched p hc))
    rw [c3 p hq hc]
    exact hd.2 r hr p hrp
  · obtain ⟨q, hq, rfl⟩ := List.mem_map.1 hr
    have hlt : q < s.nalloc := by
      apply AccInv_mem_lt ht.1
      unfold inFlight
      exact List.mem_append_left _ (List.mem_append_left _ hq)
    have e : (s.heap q).dest_tag = (q : Int) := ht.1.2.1 q hlt
    have hpq : p = q := by
      have : (mkFinal (s.heap q)).dest_tag = (s.heap q).dest_tag := rfl
      rw [this, e] at hrp
      exact_mod_cast hrp.symm
    subst hpq
    have hc : p ∉ chosenAll s := fun hc => AccInv_sched_not_sup ht.1 p (hsched p hc) hq
    rw [c3 p hlt hc]
    exact hd.1 p hq

theorem DoneInv_reachable (numRegs k0 k1 k2 R F : Nat) (trace : List TraceLine) {s : State}
    (h : Reachable (proc_init numRegs k0 k1 k2 R F trace) s) : DoneInv s := by
  induction h with
  | init =>
    constructor
    · intro p hp
      exfalso
      have : supPtrs (proc_init numRegs k0 k1 k2 R F trace).sup = [] :=
        supPtrs_replicate_none R
      rw [this] at hp
      cases hp
    · intro r hr
      cases hr
  | step hr _ hc ih =>
    exact DoneInv_cycle ih (StallCore_reachable numRegs k0 k1 k2 R F trace hr)
      (PoolInv_reachable numRegs k0 k1 k2 R F trace hr)
      (StampInv_reachable (StampInv_init numRegs k0 k1 k2 R F trace _) hr)
      (TagInv_reachable (TagInv_init numRegs k0 k1 k2 R F trace) hr)
      (FlagInv_reachable numRegs k0 k1 k2 R F trace hr) hc

theorem LockReady_turn {s : State} {p : Nat} (hr : LockReady s)
    (hp : p ∈ unresolvedPtrs s.heap s.sup) : LockReady (resolveTurn s p) := by
  have hU : unresolvedPtrs (resolveTurn s p).heap (resolveTurn s p).sup =
      (unresolvedPtrs s.heap s.sup).filter (fun q => q != p) := by
    rw [resolveTurn_sup, resolveTurn_heap]
    exact unresolvedPtrs_resolved s.heap s.sup p
  have hsame : ∀ q, q ≠ p → (resolveTurn s p).heap q = s.heap q := by
    intro q hq
    rw [resolveTurn_heap]
    simp [setInstr, hq]
  have hsub : ∀ q ∈ unresolvedPtrs (resolveTurn s p).heap (resolveTurn s p).sup,
      q ∈ unresolvedPtrs s.heap s.sup ∧ q ≠ p := by
    intro q hq
    rw [hU, List.mem_filter] at hq
    exact ⟨hq.1, by simpa using hq.2⟩
  have hst : (resolveTurn s p).stallDispatch =
      if (s.heap p).correct_pred = 0 then 0 else s.stallDispatch := rfl
  intro q hq hcq
  obtain ⟨hq1, hq2⟩ := hsub q hq
  rw [hsame q hq2] at hcq
  obtain ⟨k1, k2⟩ := hr q hq1 hcq
  have hpc : (s.heap p).correct_pred ≠ 0 := fun c => hq2 (k2 p hp c).symm
  refine ⟨by rw [hst, if_neg hpc]; exact k1, ?_⟩
  intro q' hq' hcq'
  obtain ⟨g1, g2⟩ := hsub q' hq'
  rw [hsame q' g2] at hcq'
  exact k2 q' g1 hcq'

/-- The loop of `resolveBranches` does not fail at `assert(stallDispatch == 1)`. -/
theorem resolveBranchesLoop_lock : ∀ (n : Nat) {s : State}, LockReady s →
    resolveBranchesLoop n s ≠ .error Fault.assertStall := by
  intro n
  induction n with
  | zero => intro s _ h; cases h
  | succ n ih =>
    intro s hr h
    rcases getMinTagIndexLoop_spec s.heap (getMinExecCycle s) s.sup 0 INT_MAX (-1) with
      ⟨e, -⟩ | ⟨j, p, hs, e, hres, -⟩
    · rw [resolveBranchesLoop] at h
      have e1 : getMinTagIndex (getMinExecCycle s) s = -1 := e
      simp only [e1] at h
      rw [if_pos (by decide)] at h
      cases h
    · have hj : getMinTagIndex (getMinExecCycle s) s = (j : Int) := by
        unfold getMinTagIndex
        rw [e]
        omega
      rw [resolveBranchesLoop_at hj hs] at h
      have hp : p ∈ unresolvedPtrs s.heap s.sup :=
        mem_unresolvedPtrs.2 ⟨mem_supPtrs_of_getElem hs, hres⟩
      by_cases hc : (s.heap p).correct_pred = 0 ∧ s.stallDispatch ≠ 1
      · exact hc.2 (hr p hp hc.1).1
      · rw [if_neg hc] at h
        exact ih (LockReady_turn hr hp) h

theorem StallCore_lock {s : State} (hi : StallCore s)
    (hlt : ∀ p ∈ supPtrs s.sup, p < s.nalloc) : LockReady s := by
  obtain ⟨-, -, -, j4, j5, -⟩ := hi
  intro p hp hc
  obtain ⟨hp1, hp2⟩ := mem_unresolvedPtrs.1 hp
  refine ⟨j4 p (hlt p hp1) ⟨hc, hp2⟩, ?_⟩
  intro q hq hcq
  obtain ⟨hq1, hq2⟩ := mem_unresolvedPtrs.1 hq
  exact j5 q p (hlt q hq1) (hlt p hp1) ⟨hcq, hq2⟩ ⟨hc, hp2⟩

theorem resolveBranches_lock {s : State} (hr : LockReady s) :
    resolveBranches s ≠ .error Fault.assertStall := by
  intro h
  unfold resolveBranches at h
  split at h
  · rename_i e he
    have := findNumUnresolved_error _ _ he
    rw [this] at h
    cases h
  · exact resolveBranchesLoop_lock _ hr h

/-- The `assert` on the dispatch lock does not fail in an iteration that starts
in a state with the lock invariant. -/
theorem cycle_lock {s : State} (hi : StallCore s) (hp : PoolInv s)
    (hst : StampInv (s.clock - 1) s) : cycle s ≠ .error Fault.assertStall := by
  intro h
  rcases cycle_error_site h with h1 | ⟨s2, h2, h3⟩ | ⟨s2, s3, s4, s5, h2, h3, h4, h5, h6⟩ |
    ⟨a, hA, g1⟩ | ⟨a, w1, w3, hA, g1, g3, g4⟩
  · rcases h1 with e | e | e | e | e | e | e | e | e <;> cases e
  · obtain ⟨-, -, a3, -⟩ := sup_at_resolve hp hst h2
    exact resolveBranches_lock
      (StallCore_lock (StallCore_settled (sendToSU_settled h2) hi) a3) h3
  · rcases dispatch_EnqueueLoop_error _ _ h6 with e | e <;> cases e
  · rcases writeToRegFile_error g1 with e | e <;> cases e
  · rcases readUpdateRegFile_error g4 with e | e | e <;> cases e

/-- An allocated instruction is retired or in flight. -/
theorem AccInv_cover {b : Bool} {s : State} (hi : AccInv b s) {p : Nat} (hp : p < s.nalloc) :
    (∃ r ∈ s.final_head, r.dest_tag = (p : Int)) ∨ p ∈ inFlight b s := by
  have h1 : (p : Int) ∈ (List.range s.nalloc).map (fun p : Nat => (p : Int)) :=
    List.mem_map.2 ⟨p, List.mem_range.2 hp, rfl⟩
  have h2 := (hi.2.2.mem_iff).2 h1
  rw [List.mem_append] at h2
  rcases h2 with h2 | h2
  · obtain ⟨r, hr, e⟩ := List.mem_map.1 h2
    exact Or.inl ⟨r, hr, e⟩
  · obtain ⟨q, hq, e⟩ := List.mem_map.1 h2
    have : q = p := by exact_mod_cast e
    subst this
    exact Or.inr hq

theorem admittedPtrs_lt {s : State} (ht : TagInv s) (hf : FlagInv s) :
    ∀ p ∈ admittedPtrs s, p < s.nalloc := by
  intro p hp
  apply AccInv_mem_lt ht.1
  unfold admittedPtrs at hp
  unfold inFlight frontPtrs
  simp only [List.mem_append, if_true] at hp ⊢
  rcases hp with ((hp | hp) | hp) | hp
  · exact Or.inr (Or.inl hp)
  · exact Or.inl (Or.inr hp)
  · obtain ⟨n, hn, e, -⟩ := hf.1 p hp
    exact Or.inl (Or.inr (List.mem_map.2 ⟨n, hn, e⟩))
  · exact Or.inl (Or.inl hp)

/-- C31. In every state reachable at the top of the cycle loop at most one
instruction in the dispatch queue, the scheduling queue, the functional units and
the state-update array together has `correct_pred = 0` and `resolved = 0`;
`stallDispatch` is 1 exactly if such an instruction, which is a branch, is in one
of these places; and the iteration that starts in the state does not fail at the
assertion `stallDispatch == 1` of `resolveBranches`. -/
theorem lock_iff_unresolved_mispredict (numRegs k0 k1 k2 R F : Nat) (trace : List TraceLine)
    (s : State) (h : Reachable (proc_init numRegs k0 k1 k2 R F trace) s) :
    (∀ p ∈ admittedPtrs s, ∀ q ∈ admittedPtrs s, Misled s p → Misled s q → p = q) ∧
    (s.stallDispatch = 1 ↔
      ∃ p ∈ admittedPtrs s, (s.heap p).branch = 1 ∧ (s.heap p).correct_pred = 0 ∧
        (s.heap p).resolved = 0) ∧
    (s.stallDispatch = 0 ∨ s.stallDispatch = 1) ∧
    cycle s ≠ .error Fault.assertStall := by
  have hi := StallCore_reachable numRegs k0 k1 k2 R F trace h
  have hp := PoolInv_reachable numRegs k0 k1 k2 R F trace h
  have hst := StampInv_reachable (StampInv_init numRegs k0 k1 k2 R F trace _) h
  have ht := TagInv_reachable (TagInv_init numRegs k0 k1 k2 R F trace) h
  have hf := FlagInv_reachable numRegs k0 k1 k2 R F trace h
  have hd := DoneInv_reachable numRegs k0 k1 k2 R F trace h
  have hlt := admittedPtrs_lt ht hf
  obtain ⟨j1, -, j3, j4, j5, j6, j7, -⟩ := hi
  refine ⟨fun p hp q hq mp mq => j5 p q (hlt p hp) (hlt q hq) mp mq, ⟨?_, ?_⟩, j7,
    cycle_lock (StallCore_reachable numRegs k0 k1 k2 R F trace h) hp hst⟩
  · intro h1
    obtain ⟨p, hpl, hc, hres⟩ := j6 h1
    refine ⟨p, ?_, j1 p hpl hres, hc, hres⟩
    rcases AccInv_cover ht.1 hpl with ⟨r, hr, e⟩ | hin
    · exact absurd hres (hd.2 r hr p e)
    · unfold inFlight frontPtrs at hin
      unfold admittedPtrs
      simp only [List.mem_append, if_true] at hin ⊢
      rcases hin with (hin | hin) | hin | hin
      · exact Or.inr hin
      · exact Or.inl (Or.inl (Or.inr hin))
      · exact Or.inl (Or.inl (Or.inl hin))
      · have := (j3 p hin).2.1
        rw [hc] at this
        exact absurd this (by decide)
  · rintro ⟨p, hp1, -, hc, hres⟩
    exact j4 p (hlt p hp1) ⟨hc, hres⟩

/-- Witness for C31: at the top of the third iteration of the two-taken-branches
scenario the first branch, mispredicted, holds the dispatch lock. -/
theorem lock_iff_unresolved_mispredict_witness :
    (lockState 2).stallDispatch = 1 ∧
    ∃ p ∈ admittedPtrs (lockState 2), ((lockState 2).heap p).branch = 1 ∧
      ((lockState 2).heap p).correct_pred = 0 ∧ ((lockState 2).heap p).resolved = 0 :=
  ⟨by decide!,
    (lock_iff_unresolved_mispredict 128 3 2 1 2 4 lockTrace (lockState 2)
      (lockState_reachable 2 (by rfl))).2.1.1 (by decide!)⟩

/-! ## The register file and its assertions -/

theorem RegShape_ready {rf : Int → Int × Int} (h : RegShape rf) (r : Int) :
    RegShape (setReg rf r (1, -5)) := by
  intro q
  unfold setReg
  split
  · exact Or.inl rfl
  · exact h q

theorem RegShape_wait {rf : Int → Int × Int} (h : RegShape rf) (r T : Int) (hT : 0 ≤ T) :
    RegShape (setReg rf r (0, T)) := by
  intro q
  unfold setReg
  split
  · exact Or.inr ⟨rfl, hT⟩
  · exact h q

/-- With the register file in shape and tags that are not negative in the
state-update array, the loop of `writeToRegFile` keeps the shape and can only
fail at a register number out of range. -/
theorem writeToRegFileLoop_regs (hp : Nat → instr) (nr : Nat) : ∀ (u : List (Option Nat))
    (rf : Int → Int × Int), RegShape rf → (∀ p ∈ supPtrs u, 0 ≤ (hp p).dest_tag) →
    (∀ rf', writeToRegFileLoop hp nr u rf = .ok rf' → RegShape rf') ∧
    (∀ e, writeToRegFileLoop hp nr u rf = .error e → e = Fault.regIndex) := by
  intro u
  induction u with
  | nil =>
    intro rf hr _
    exact ⟨fun rf' h => by cases h; exact hr, fun e h => by cases h⟩
  | cons x rest ih =>
    intro rf hr ht
    cases x with
    | none =>
      rw [writeToRegFileLoop]
      exact ih rf hr (fun p hp' => ht p (by
        rw [mem_supPtrs] at hp' ⊢
        exact List.mem_cons_of_mem _ hp'))
    | some p =>
      have ht' : ∀ q ∈ supPtrs rest, 0 ≤ (hp q).dest_tag := fun q hq => ht q (by
        rw [mem_supPtrs] at hq ⊢
        exact List.mem_cons_of_mem _ hq)
      have htp : 0 ≤ (hp p).dest_tag := ht p (by
        rw [mem_supPtrs]
        exact List.mem_cons_self _ _)
      rw [writeToRegFileLoop]
      split
      · exact ih rf hr ht'
      · split
        · split
          · rename_i he
            split
            · exact ih _ (RegShape_ready hr _) ht'
            · rename_i hne
              exfalso
              rcases hr (hp p).destReg with e | ⟨e, -⟩
              · rw [e] at he
                have he' : (-5 : Int) = (hp p).dest_tag := he
                omega
              · exact hne e
          · exact ih rf hr ht'
        · exact ⟨fun rf' h => (by cases h), fun e h => by cases h; rfl⟩

theorem readSource_regs {rf : Int → Int × Int} (hr : RegShape rf) (nr : Nat) (r : Int)
    {e : Fault} (h : readSource rf nr r = .error e) : e = Fault.regIndex := by
  unfold readSource at h
  split at h
  · cases h
  · split at h
    · split at h
      · rename_i h1
        split at h
        · cases h
        · rename_i h2
          exfalso
          rcases hr r with e1 | ⟨e1, -⟩
          · rw [e1] at h2
            exact h2 rfl
          · rw [e1] at h1
            exact absurd h1 (by decide)
      · rename_i h1
        split at h
        · cases h
        · rename_i h2
          exfalso
          rcases hr r with e1 | ⟨-, e1⟩
          · rw [e1] at h1
            exact h1 rfl
          · omega
    · cases h; rfl

/-- With the register file in shape and tags that are not negative in the
dispatch queue, the loop of `readUpdateRegFile` keeps the shape and can only
fail at a register number out of range. -/
theorem readUpdateRegFileLoop_regs (nr : Nat) (tm : Int) : ∀ (l : List dispatch_node) (c : Int)
    (heap : Nat → instr) (rf : Int → Int × Int), RegShape rf →
    (∀ d ∈ l, 0 ≤ (heap d.theInstr).dest_tag) →
    (∀ h' rf', readUpdateRegFileLoop nr tm l c heap rf = .ok (h', rf') → RegShape rf') ∧
    (∀ e, readUpdateRegFileLoop nr tm l c heap rf = .error e → e = Fault.regIndex) := by
  intro l
  induction l with
  | nil =>
    intro c heap rf hr _
    exact ⟨fun h' rf' h => by cases h; exact hr, fun e h => by cases h⟩
  | cons d rest ih =>
    intro c heap rf hr ht
    have ht' : ∀ x ∈ rest, 0 ≤ (heap x.theInstr).dest_tag :=
      fun x hx => ht x (List.mem_cons_of_mem _ hx)
    rw [readUpdateRegFileLoop]
    split
    · exact ⟨fun h' rf' h => by cases h; exact hr, fun e h => by cases h⟩
    · split
      · simp only
        split
        · rename_i e1 h1
          exact ⟨fun h' rf' h => (by cases h),
            fun e h => by cases h; exact readSource_regs hr _ _ h1⟩
        · rename_i t1 r1 h1
          split
          · rename_i e2 h2
            exact ⟨fun h' rf' h => (by cases h),
              fun e h => by cases h; exact readSource_regs hr _ _ h2⟩
          · rename_i t2 r2 h2
            have ht1 : ∀ x ∈ rest, 0 ≤ ((setInstr heap d.theInstr
                { heap d.theInstr with source1_tag := t1, source1_ready := r1,
                                       source2_tag := t2, source2_ready := r2 })
                  x.theInstr).dest_tag := by
              intro x hx
              unfold setInstr
              split
              · rename_i e
                have := ht' x hx
                rw [e] at this
                exact this
              · exact ht' x hx
            split
            · exact ih _ _ _ hr ht1
            · split
              · exact ih _ _ _ (RegShape_wait hr _ _ (ht d (List.mem_cons_self _ _))) ht1
              · exact ⟨fun h' rf' h => (by cases h), fun e h => by cases h; rfl⟩
      · exact ih _ _ _ hr ht'

/-- Phase C keeps the shape of the register file, and none of the assertions of
`writeToRegFile` and `readUpdateRegFile` fails in it. -/
theorem phaseC_regs {b : State} (hr : RegShape b.reg_File)
    (hsup : ∀ q ∈ supPtrs b.sup, 0 ≤ (b.heap q).dest_tag)
    (hd : ∀ p ∈ b.dispatch_head.map (·.theInstr), 0 ≤ (b.heap p).dest_tag) :
    (∀ t, phaseC b = .ok t → RegShape t.reg_File) ∧
    (∀ e, phaseC b = .error e → e ≠ Fault.assertWriteNotReady ∧ e ≠ Fault.assertReadyTag ∧
      e ≠ Fault.assertNotReadyTag) := by
  have W := writeToRegFileLoop_regs b.heap b.curr_Config.numRegs b.sup b.reg_File hr hsup
  have R : ∀ w1 w3, writeToRegFile b = .ok w1 → reserveScheduleSpots (setToFired w1) = .ok w3 →
      (∀ h' rf', readUpdateRegFileLoop w3.curr_Config.numRegs w3.totalMarked w3.dispatch_head 0
        w3.heap w3.reg_File = .ok (h', rf') → RegShape rf') ∧
      (∀ e, readUpdateRegFileLoop w3.curr_Config.numRegs w3.totalMarked w3.dispatch_head 0
        w3.heap w3.reg_File = .error e → e = Fault.regIndex) := by
    intro w1 w3 g1 g3
    obtain ⟨l1, hp1, -, -, dp1, -⟩ := writeToRegFile_loop g1
    obtain ⟨hp3, rf3, -, -, -, dp3⟩ := reserveScheduleSpots_fields g3
    have r1 : RegShape w1.reg_File := W.1 _ l1
    apply readUpdateRegFileLoop_regs
    · rw [rf3]
      exact r1
    · intro d hdm
      have : d.theInstr ∈ w3.dispatch_head.map (·.theInstr) := List.mem_map.2 ⟨d, hdm, rfl⟩
      rw [dp3] at this
      have e1 : (setToFired w1).dispatch_head = b.dispatch_head := dp1
      have e2 : (setToFired w1).heap = b.heap := hp1
      rw [e1] at this
      rw [hp3, e2]
      exact hd _ this
  constructor
  · intro t h
    obtain ⟨w1, w3, w4, w6, w7, g1, g3, g4, g6, g7, rfl⟩ := phaseC_ok h
    obtain ⟨l4, -⟩ := readUpdateRegFile_loop g4
    have r4 : RegShape w4.reg_File := (R w1 w3 g1 g3).1 _ _ l4
    obtain ⟨-, -, rf6, -⟩ := removeAllSUFromSched_loop g6
    have e7 : w7.reg_File = w6.reg_File := by
      obtain ⟨_, _, _, rfl⟩ := setToChosen_shape g7; rfl
    have e8 : (markForExecution w7).reg_File = w7.reg_File := by
      obtain ⟨q, e⟩ := markForExecution_shape w7
      rw [e]
    show RegShape (markForExecution w7).reg_File
    rw [e8, e7, rf6]
    exact r4
  · intro e h
    have key : e = Fault.regIndex ∨ e = Fault.assertUnmarked ∨ e = Fault.removeEmptySched ∨
        e = Fault.assertRemoveFlags ∨ e = Fault.assertRemoveFound ∨ e = Fault.chosenNoNode := by
      rcases phaseC_error h with g1 | ⟨w1, g1, g3⟩ | ⟨w1, w3, g1, g3, g4⟩ |
        ⟨w1, w3, w4, g1, g3, g4, g6⟩ | ⟨w1, w3, w4, w6, g1, g3, g4, g6, g7⟩
      · left
        unfold writeToRegFile at g1
        split at g1
        · rename_i e1 h1
          cases g1
          exact W.2 _ h1
        · cases g1
      · exact Or.inr (Or.inl (reserveScheduleSpots_error g3))
      · left
        unfold readUpdateRegFile at g4
        split at g4
        · rename_i e1 h1
          cases g4
          exact (R w1 w3 g1 g3).2 _ h1
        · cases g4
      · rcases removeAllSUFromSched_error g6 with e1 | e1 | e1
        · exact Or.inr (Or.inr (Or.inl e1))
        · exact Or.inr (Or.inr (Or.inr (Or.inl e1)))
        · exact Or.inr (Or.inr (Or.inr (Or.inr (Or.inl e1))))
      · unfold setToChosen at g7
        exact Or.inr (Or.inr (Or.inr (Or.inr (Or.inr (setToChosenLoop_error _ _ g7)))))
    rcases key with e1 | e1 | e1 | e1 | e1 | e1 <;> rw [e1] <;>
      exact ⟨by decide, by decide, by decide⟩

/-- An iteration keeps the shape of the register file, and none of the
assertions of `writeToRegFile` and `readUpdateRegFile` fails in it. -/
theorem cycle_regs {s : State} (hr : RegShape s.reg_File) (hi : TagInv s)
    (hst : StampInv (s.clock - 1) s) (hp : PoolInv s) :
    (∀ t, cycle s = .ok t → RegShape t.reg_File) ∧
    (∀ e, cycle s = .error e → e ≠ Fault.assertWriteNotReady ∧ e ≠ Fault.assertReadyTag ∧
      e ≠ Fault.assertNotReadyTag) := by
  have P : ∀ a, phaseA s = .ok a →
      (∀ t, phaseC (updateDispatchQueueSize a) = .ok t → RegShape t.reg_File) ∧
      (∀ e, phaseC (updateDispatchQueueSize a) = .error e →
        e ≠ Fault.assertWriteNotReady ∧ e ≠ Fault.assertReadyTag ∧
          e ≠ Fault.assertNotReadyTag) := by
    intro a hA
    obtain ⟨-, -, -, acc⟩ := phaseA_lists hi hA
    obtain ⟨ops, rfa⟩ := phaseA_ops hA
    obtain ⟨s2, h2, esup⟩ := phaseA_sup hA
    obtain ⟨-, -, b3, -, -⟩ := sup_at_resolve hp hst h2
    obtain ⟨-, -, -, -, -, -, -, n2, -, -, -⟩ := sendToSU_settled h2
    obtain ⟨st, e⟩ := updateDispatchQueueSize_shape a
    rw [e]
    apply phaseC_regs
    · show RegShape a.reg_File
      rw [rfa]
      exact hr
    · intro q hq
      have hq2 : q ∈ supPtrs s2.sup := by rw [← esup]; exact hq
      have hlt : q < s.nalloc := by
        have := b3 q hq2
        rw [n2] at this
        exact this
      show 0 ≤ (a.heap q).dest_tag
      rw [(ops q hlt).1.2.1, hi.1.2.1 q hlt]
      omega
    · intro p hpm
      show 0 ≤ (a.heap p).dest_tag
      have hlt : p < a.nalloc := by
        apply AccInv_mem_lt acc
        unfold inFlight frontPtrs
        simp only [List.mem_append]
        exact Or.inr (Or.inl hpm)
      rw [acc.2.1 p hlt]
      omega
  constructor
  · intro t h
    obtain ⟨a, hA, hC⟩ := cycle_ok h
    exact (P a hA).1 t hC
  · intro e h
    rcases cycle_error h with h1 | ⟨s2, h2, h3⟩ | ⟨s2, s3, h2, h3, h4⟩ |
      ⟨s2, s3, s4, h2, h3, h4, h5⟩ | ⟨s2, s3, s4, s5, h2, h3, h4, h5, h6⟩ | ⟨a, hA, hC⟩
    · rw [sendToSU_error h1]
      exact ⟨by decide, by decide, by decide⟩
    · rcases resolveBranches_error h3 with e1 | e1 | e1 <;> rw [e1] <;>
        exact ⟨by decide, by decide, by decide⟩
    · rcases moveToExecute_error h4 with e1 | e1 <;> rw [e1] <;>
        exact ⟨by decide, by decide, by decide⟩
    · rw [dispatchToSchedule_error h5]
      exact ⟨by decide, by decide, by decide⟩
    · rcases dispatch_EnqueueLoop_error _ _ h6 with e1 | e1 <;> rw [e1] <;>
        exact ⟨by decide, by decide, by decide⟩
    · exact (P a hA).2 e hC

theorem RegShape_reachable (numRegs k0 k1 k2 R F : Nat) (trace : List TraceLine) {s : State}
    (h : Reachable (proc_init numRegs k0 k1 k2 R F trace) s) : RegShape s.reg_File := by
  induction h with
  | init => exact fun r => Or.inl rfl
  | step hr _ hc ih =>
    exact (cycle_regs ih (TagInv_reachable (TagInv_init numRegs k0 k1 k2 R F trace) hr)
      (StampInv_reachable (StampInv_init numRegs k0 k1 k2 R F trace _) hr)
      (PoolInv_reachable numRegs k0 k1 k2 R F trace hr)).1 _ hc

/-- C32. In every state reachable at the top of the cycle loop every entry of
the register file has `ready = 1` exactly if its tag is the sentinel `-5`, and
`ready` is 0 or 1; the tag of an entry that is not ready is not negative and is
the `dest_tag` of an instruction that writes this register and is in the
scheduling queue or among the reserved dispatch nodes, and that instruction is
neither in the state-update array nor retired; the iteration that starts in the
state fails at none of the assertions of `writeToRegFile` and
`readUpdateRegFile`. -/
theorem register_ready_iff_sentinel (numRegs k0 k1 k2 R F : Nat) (trace : List TraceLine)
    (s : State) (h : Reachable (proc_init numRegs k0 k1 k2 R F trace) s) :
    (∀ r, ((s.reg_File r).1 = 1 ↔ (s.reg_File r).2 = -5) ∧
      ((s.reg_File r).1 = 0 ∨ (s.reg_File r).1 = 1)) ∧
    (∀ r, (s.reg_File r).1 ≠ 1 → 0 ≤ (s.reg_File r).2 ∧
      ∃ q ∈ s.schedule_head.map (·.theInstr) ++ markedPtrs s,
        (s.heap q).destReg = r ∧ (s.heap q).dest_tag = (s.reg_File r).2 ∧
        q ∉ supPtrs s.sup ∧ ∀ f ∈ s.final_head, f.dest_tag ≠ (q : Int)) ∧
    cycle s ≠ .error Fault.assertWriteNotReady ∧ cycle s ≠ .error Fault.assertReadyTag ∧
    cycle s ≠ .error Fault.assertNotReadyTag := by
  have hs := RegShape_reachable numRegs k0 k1 k2 R F trace h
  have hi := TagInv_reachable (TagInv_init numRegs k0 k1 k2 R F trace) h
  have hst := StampInv_reachable (StampInv_init numRegs k0 k1 k2 R F trace _) h
  have hp := PoolInv_reachable numRegs k0 k1 k2 R F trace h
  have hw := WakeInv_reachable numRegs k0 k1 k2 R F trace h
  have hc := (cycle_regs hs hi hst hp).2
  refine ⟨?_, ?_, fun e => (hc _ e).1 rfl, fun e => (hc _ e).2.1 rfl, fun e => (hc _ e).2.2 rfl⟩
  · intro r
    rcases hs r with e | ⟨e1, e2⟩
    · rw [e]
      exact ⟨⟨fun _ => rfl, fun _ => rfl⟩, Or.inr rfl⟩
    · refine ⟨⟨fun c => ?_, fun c => ?_⟩, Or.inl e1⟩
      · rw [e1] at c
        exact absurd c (by decide)
      · rw [c] at e2
        exact absurd e2 (by decide)
  · intro r hne
    have h0 : 0 ≤ (s.reg_File r).2 := by
      rcases hs r with e | ⟨-, e2⟩
      · rw [e] at hne
        exact absurd rfl hne
      · exact e2
    obtain ⟨-, q, hq, p1, p2⟩ := hw.2.2 r hne
    have hin : q ∈ s.schedule_head.map (·.theInstr) ++ s.dispatch_head.map (·.theInstr) := by
      rcases List.mem_append.1 hq with c | c
      · exact List.mem_append_left _ c
      · apply List.mem_append_right
        unfold markedPtrs at c
        obtain ⟨d, hd, rfl⟩ := List.mem_map.1 c
        exact List.mem_map.2 ⟨d, List.mem_of_mem_take hd, rfl⟩
    have hfl : q ∈ inFlight true s := by
      unfold inFlight frontPtrs
      simp only [List.mem_append, if_true] at hin ⊢
      rcases hin with c | c
      · exact Or.inl (Or.inr c)
      · exact Or.inr (Or.inl c)
    have hnd := AccInv_inFlight_nodup hi.1
    refine ⟨h0, q, hq, p1, p2, ?_, ?_⟩
    · intro c
      unfold inFlight frontPtrs at hnd
      simp only [if_true] at hnd
      rw [List.append_assoc] at hnd
      have := (List.nodup_append.1 hnd).2.2
      rcases List.mem_append.1 hin with c2 | c2
      · exact this c (List.mem_append_left _ c2)
      · exact this c (List.mem_append_right _ (List.mem_append_left _ c2))
    · intro f hf e
      obtain ⟨q', -, e', hnot⟩ := AccInv_final_tag hi.1 hf
      have : q' = q := by
        rw [e] at e'
        exact_mod_cast e'.symm
      subst this
      exact hnot hfl

/-- Witness for C32: at the top of the fifth iteration of the dependent-pair
scenario register 6 waits for the second instruction, tag 1, which is in the
scheduling queue. -/
theorem register_ready_iff_sentinel_witness :
    (rawState 4).reg_File 6 = (0, 1) ∧
    (0 ≤ ((rawState 4).reg_File 6).2 ∧
      ∃ q ∈ (rawState 4).schedule_head.map (·.theInstr) ++ markedPtrs (rawState 4),
        ((rawState 4).heap q).destReg = 6 ∧
        ((rawState 4).heap q).dest_tag = ((rawState 4).reg_File 6).2 ∧
        q ∉ supPtrs (rawState 4).sup ∧ ∀ f ∈ (rawState 4).final_head, f.dest_tag ≠ (q : Int)) :=
  ⟨by decide!,
    (register_ready_iff_sentinel 128 3 2 1 2 4 rawTrace (rawState 4)
      (rawState_reachable 4 (by rfl))).2.1 6 (by decide!)⟩

/-! ## Functional units and the `waiting` flag -/

theorem HandedInv_cycle {s t : State} (hh : HandedInv s) (ht : TagInv s)
    (h : cycle s = .ok t) : HandedInv t := by
  obtain ⟨c1, c2, -⟩ := cycle_pools h
  have acc := (TagInv_cycle ht h).1
  obtain ⟨s2, s3, s5, s6, u, h2, h3, h5, h6, hs, hq, rfl⟩ := cycle_anatomy h
  obtain ⟨s4, h4, h5'⟩ := midCalls_ok h5
  have e2 : s2.schedule_head = s.schedule_head := by
    obtain ⟨_, _, _, _, _, rfl⟩ := sendToSU_shape h2; rfl
  obtain ⟨-, -, -, -, -, -, e3s, -⟩ := resolveBranches_fields h3
  have hs3 : s3.schedule_head = s.schedule_head := by rw [e3s, e2]
  obtain ⟨-, -, hq4⟩ := moveToExecute_effect h4
  obtain ⟨v, -, hv2, -⟩ := dispatchToSchedule_queue h5'
  have g8 : s6.schedule_head = s5.schedule_head := by
    obtain ⟨_, _, _, _, _, rfl⟩ := dispatch_Enqueue_shape h6; rfl
  obtain ⟨-, -, -, -, -, -, w7, -⟩ := readTrace_frame s6.curr_Config.fetch_rate s6
  obtain ⟨-, -, -, -, -, -, -, q8, -⟩ := hq
  intro n hn hw
  have hn' : n ∈ u.schedule_head := hn
  show n.theInstr ∈ fuAll u
  have hfu : ∀ p, p ∈ pendingPtrs s.schedule_head ++ idleAll s → p ∈ fuAll u :=
    fun p hp => c1.mem_iff.2 hp
  obtain ⟨m, hm, e1, e2'⟩ := q8 n hn'
  rw [w7, g8, hv2, List.mem_append] at hm
  rcases hm with hm | hm
  · rw [hq4, hs3] at hm
    obtain ⟨k, hk, rfl⟩ := List.mem_map.1 hm
    by_cases hp : k.sendToExecute = 1 ∧ k.waiting = 0
    · rw [if_pos hp] at e1
      rw [e1]
      exact hfu _ (List.mem_append_left _ (mem_pendingPtrs.2 ⟨k, hk, hp, rfl⟩))
    · rw [if_neg hp] at e1 e2'
      rw [e1]
      have hk1 : k.waiting = 1 := by rw [← e2']; exact hw
      rcases List.mem_append.1 ((fuAll_perm s).mem_iff.1 (hh k hk hk1)) with c | c
      · exact hfu _ (List.mem_append_right _ c)
      · exfalso
        have hsup : n.theInstr ∈ supPtrs u.sup := by
          have : supPtrs u.sup = chosenAll s := c2
          rw [this, e1]
          exact c
        exact AccInv_sched_not_sup acc n.theInstr (List.mem_map.2 ⟨n, hn, rfl⟩) hsup
  · exfalso
    obtain ⟨d, -, rfl⟩ := List.mem_map.1 hm
    rw [hw] at e2'
    have e3 : (1 : Int) = 0 := e2'
    exact absurd e3 (by decide)

theorem HandedInv_reachable (numRegs k0 k1 k2 R F : Nat) (trace : List TraceLine) {s : State}
    (h : Reachable (proc_init numRegs k0 k1 k2 R F trace) s) : HandedInv s := by
  induction h with
  | init => intro n hn; cases hn
  | step hr _ hc ih =>
    exact HandedInv_cycle ih (TagInv_reachable (TagInv_init numRegs k0 k1 k2 R F trace) hr) hc

theorem fuPtrs_nil : ∀ (k : List (Option execute_node)), fuPtrs k = [] → ∀ x ∈ k, x = none
  | [], _, x, hx => by cases hx
  | none :: rest, h, x, hx => by
    rcases List.mem_cons.1 hx with e | e
    · exact e
    · exact fuPtrs_nil rest (by simpa [fuPtrs] using h) x e
  | some n :: rest, h, _, _ => by simp [fuPtrs] at h

/-- C33. In every state reachable at the top of the cycle loop the instruction
of each functional-unit occupant has exactly one scheduling-queue entry, an entry
with `waiting = 1` (and `fired = sendToExecute = 1`); the instruction of each
entry with `waiting = 1` is in exactly one slot of the functional units and the
state-update array together, a functional-unit slot; and when the halt test of
the driver holds, which reads the fetch buffer, the two queues and the
state-update array only, every slot of the three pools is empty. -/
theorem fu_occupants_wait (numRegs k0 k1 k2 R F : Nat) (trace : List TraceLine)
    (s : State) (h : Reachable (proc_init numRegs k0 k1 k2 R F trace) s) :
    (∀ p ∈ fuAll s,
      (∃ n ∈ s.schedule_head, n.theInstr = p ∧ n.waiting = 1 ∧ n.fired = 1 ∧
        n.sendToExecute = 1) ∧
      (s.schedule_head.map (·.theInstr)).count p = 1 ∧
      ∀ n ∈ s.schedule_head, n.theInstr = p → n.waiting = 1) ∧
    (∀ n ∈ s.schedule_head, n.waiting = 1 →
      (fuAll s ++ supPtrs s.sup).count n.theInstr = 1 ∧ n.theInstr ∈ fuAll s) ∧
    (haltCond s = true →
      s.schedule_head = [] ∧ stateEmpty s.sup = 1 ∧ fuAll s = [] ∧
        ∀ x ∈ s.k_0 ++ s.k_1 ++ s.k_2, x = none) := by
  have hf := FlagInv_reachable numRegs k0 k1 k2 R F trace h
  have hi := TagInv_reachable (TagInv_init numRegs k0 k1 k2 R F trace) h
  have hp := PoolInv_reachable numRegs k0 k1 k2 R F trace h
  have hh := HandedInv_reachable numRegs k0 k1 k2 R F trace h
  have hnd := AccInv_sched_nodup hi.1
  refine ⟨?_, ?_, ?_⟩
  · intro p hpf
    obtain ⟨n, hn, e, fl⟩ := hf.1 p hpf
    unfold removeFlagsOk at fl
    simp only [Bool.and_eq_true, decide_eq_true_eq] at fl
    refine ⟨⟨n, hn, e, fl.2, fl.1.1, fl.1.2⟩, ?_, ?_⟩
    · exact List.count_eq_one_of_mem hnd (List.mem_map.2 ⟨n, hn, e⟩)
    · intro m hm em
      have : m = n := List.inj_on_of_nodup_map hnd hm hn (em.trans e.symm)
      rw [this]
      exact fl.2
  · intro n hn hw
    have h1 := hh n hn hw
    refine ⟨?_, h1⟩
    rw [List.count_append, List.count_eq_one_of_mem hp.1 h1,
      List.count_eq_zero_of_not_mem
        (AccInv_sched_not_sup hi.1 _ (List.mem_map.2 ⟨n, hn, rfl⟩))]
  · intro hc
    unfold haltCond at hc
    simp only [Bool.and_eq_true, decide_eq_true_eq, List.isEmpty_iff] at hc
    obtain ⟨⟨⟨⟨-, -⟩, hq⟩, -⟩, hsu⟩ := hc
    have hfu : fuAll s = [] := by
      apply List.eq_nil_iff_forall_not_mem.2
      intro p hpf
      obtain ⟨n, hn, -⟩ := hf.1 p hpf
      rw [hq] at hn
      cases hn
    refine ⟨hq, hsu, hfu, ?_⟩
    unfold fuAll at hfu
    obtain ⟨h01, h2⟩ := List.append_eq_nil.1 hfu
    obtain ⟨h0, h1⟩ := List.append_eq_nil.1 h01
    intro x hx
    rcases List.mem_append.1 hx with hx | hx
    · rcases List.mem_append.1 hx with hx | hx
      · exact fuPtrs_nil _ h0 x hx
      · exact fuPtrs_nil _ h1 x hx
    · exact fuPtrs_nil _ h2 x hx

/-- Witness for C33: at the top of the fifth iteration of the dependent-pair
scenario the first instruction occupies a functional unit and its scheduling
node, the only one of that instruction, has `waiting = 1`. -/
theorem fu_occupants_wait_witness :
    fuAll (rawState 4) = [0] ∧
    ((∃ n ∈ (rawState 4).schedule_head, n.theInstr = 0 ∧ n.waiting = 1 ∧ n.fired = 1 ∧
        n.sendToExecute = 1) ∧
      ((rawState 4).schedule_head.map (·.theInstr)).count 0 = 1 ∧
      ∀ n ∈ (rawState 4).schedule_head, n.theInstr = 0 → n.waiting = 1) :=
  ⟨by decide!,
    (fu_occupants_wait 128 3 2 1 2 4 rawTrace (rawState 4)
      (rawState_reachable 4 (by rfl))).1 0 (by decide!)⟩

/-- C34. In every state reachable at the top of the cycle loop every cell of
the counter table is one of 0, 1, 2, 3; `getPrediction` reads and `updateGSelect`
writes the cell in row `(address / 4) % 128`, below 128, and column `GHR & 7`,
below 8; `getPrediction` returns a prediction for every address, and the
iteration that starts in the state does not reach the `assert(0)` of
`getPrediction`. -/
theorem counters_in_range (numRegs k0 k1 k2 R F : Nat) (trace : List TraceLine)
    (s : State) (h : Reachable (proc_init numRegs k0 k1 k2 R F trace) s) :
    (∀ r c, s.GSelect r c = 0 ∨ s.GSelect r c = 1 ∨ s.GSelect r c = 2 ∨ s.GSelect r c = 3) ∧
    (∀ address, (address / 4) % 128 < 128 ∧ s.GHR &&& 7 < 8 ∧
      getPrediction address s =
        .ok (if 2 ≤ s.GSelect ((address / 4) % 128) (s.GHR &&& 7) then 1 else 0) ∧
      ∀ taken, updateGSelect address taken s =
        { s with
          GSelect := setCell s.GSelect ((address / 4) % 128) (s.GHR &&& 7)
                       (smithNext (s.GSelect ((address / 4) % 128) (s.GHR &&& 7))
                         (if taken = 1 then 1 else 0)) }) ∧
    cycle s ≠ .error Fault.assertPrediction := by
  have hi := CounterInv_reachable (CounterInv_init numRegs k0 k1 k2 R F trace) h
  refine ⟨?_, ?_, cycle_predicts hi⟩
  · intro r c
    have := hi r c
    omega
  · intro address
    obtain ⟨a1, a2, a3⟩ := prediction_threshold address s hi
    refine ⟨a2, a3, a1, ?_⟩
    intro taken
    exact updateSmithCounter_eq _ _ taken s (hi _ _)

/-- Witness for C34: at the top of the ninth iteration of the three-branch
scenario the counter of row 64, column 0 has been moved from 1 to 2. -/
theorem counters_in_range_witness :
    (gsState 8).GSelect 64 0 = 2 ∧
    ((gsState 8).GSelect 64 0 = 0 ∨ (gsState 8).GSelect 64 0 = 1 ∨
      (gsState 8).GSelect 64 0 = 2 ∨ (gsState 8).GSelect 64 0 = 3) :=
  ⟨by decide!,
    (counters_in_range 128 3 2 1 2 4 gsTrace (gsState 8) (gsState_reachable 8 (by rfl))).1 64 0⟩

/-! ## The holder of the dispatch lock -/

/-- While the dispatch lock is taken, an unresolved mispredicted branch is in
the dispatch queue, the scheduling queue, a functional unit or the state-update
array. -/
theorem lock_holder (numRegs k0 k1 k2 R F : Nat) (trace : List TraceLine) {s : State}
    (h : Reachable (proc_init numRegs k0 k1 k2 R F trace) s) (h1 : s.stallDispatch = 1) :
    ∃ p ∈ admittedPtrs s, (s.heap p).branch = 1 ∧ (s.heap p).correct_pred = 0 ∧
      (s.heap p).resolved = 0 := by
  have ht := TagInv_reachable (TagInv_init numRegs k0 k1 k2 R F trace) h
  have hd := DoneInv_reachable numRegs k0 k1 k2 R F trace h
  obtain ⟨j1, -, j3, -, -, j6, -⟩ := StallCore_reachable numRegs k0 k1 k2 R F trace h
  obtain ⟨p, hpl, hc, hres⟩ := j6 h1
  refine ⟨p, ?_, j1 p hpl hres, hc, hres⟩
  rcases AccInv_cover ht.1 hpl with ⟨r, hr, e⟩ | hin
  · exact absurd hres (hd.2 r hr p e)
  · unfold inFlight frontPtrs at hin
    unfold admittedPtrs
    simp only [List.mem_append, if_true] at hin ⊢
    rcases hin with (hin | hin) | hin | hin
    · exact Or.inr hin
    · exact Or.inl (Or.inl (Or.inr hin))
    · exact Or.inl (Or.inl (Or.inl hin))
    · have := (j3 p hin).2.1
      rw [hc] at this
      exact absurd this (by decide)

theorem holdState_reachable (n : Nat)
    (h : advance n (proc_init 128 3 2 1 2 4 holdTrace) = some (holdState n)) :
    Reachable (proc_init 128 3 2 1 2 4 holdTrace) (holdState n) :=
  advance_reachable n h

/-- C6, amended. For every configuration with `F >= 1` and every trace whose
first line is a branch with `taken = 0` followed by another instruction line: in
every state reached at the top of the cycle loop, from the third iteration on the
branch carries dispatch cycle 2 and `correct_pred = 1`; the dispatch lock is not
set by it: the lock is clear at the top of the first two iterations, and at the
top of the third when `F = 1` (only the branch has been admitted then), and
whenever the lock is taken it is held by another instruction, an unresolved
mispredicted branch other than the first that is in the dispatch queue, the
scheduling queue, a functional unit or the state-update array; from the fourth
iteration on the second instruction carries dispatch cycle 3 when `F = 1` and 2
when `F >= 2`; and the retired records of the two show the branch's dispatch
cycle plus one when `F = 1` and the branch's dispatch cycle itself when
`F >= 2`. -/
theorem correct_prediction_dispatch (k0 k1 k2 R F : Nat) (a : Nat) (fu d s1 s2 : Int)
    (l2 : TraceLine) (rest : List TraceLine) (s : State) (hF : 1 ≤ F)
    (hl2 : l2.isInstr = true)
    (h : Reachable
      (proc_init 128 k0 k1 k2 R F (TraceLine.branchLine a fu d s1 s2 0 :: l2 :: rest)) s) :
    (3 ≤ s.clock → (s.heap 0).disp = 2 ∧ (s.heap 0).correct_pred = 1) ∧
    (s.clock ≤ 2 → s.stallDispatch = 0) ∧
    (s.clock = 3 → F = 1 → s.stallDispatch = 0) ∧
    (s.stallDispatch = 1 →
      ∃ p ∈ admittedPtrs s, p ≠ 0 ∧ (s.heap p).branch = 1 ∧ (s.heap p).correct_pred = 0 ∧
        (s.heap p).resolved = 0) ∧
    (s.stallDispatch = 0 ∨ s.stallDispatch = 1) ∧
    (4 ≤ s.clock → (s.heap 1).disp = if F = 1 then 3 else 2) ∧
    (∀ r0 ∈ s.final_head, ∀ r1 ∈ s.final_head, r0.dest_tag = 0 → r1.dest_tag = 1 →
      r0.disp = 2 ∧ r1.disp = if F = 1 then r0.disp + 1 else r0.disp) := by
  have hacc := (TagInv_reachable (TagInv_init 128 k0 k1 k2 R F _) h).1
  have h01 := (StallCore_reachable 128 k0 k1 k2 R F _ h).2.2.2.2.2.2.1
  have hold : ∀ c : Int, (s.heap 0).correct_pred = c → c ≠ 0 → s.stallDispatch = 1 →
      ∃ p ∈ admittedPtrs s, p ≠ 0 ∧ (s.heap p).branch = 1 ∧ (s.heap p).correct_pred = 0 ∧
        (s.heap p).resolved = 0 := by
    intro c hc hne h1
    obtain ⟨p, hp, b1, b2, b3⟩ := lock_holder 128 k0 k1 k2 R F _ h h1
    refine ⟨p, hp, ?_, b1, b2, b3⟩
    intro e
    rw [e, hc] at b2
    exact hne b2
  rcases CorrectInv_reachable k0 k1 k2 R F a fu d s1 s2 l2 rest hF hl2 h with
    rfl | h2 | h3 | h4
  · refine ⟨fun hc => ?_, fun _ => rfl, fun _ _ => rfl, fun hc => ?_, h01, fun hc => ?_,
      fun r0 hr0 => ?_⟩
    · exact absurd (show (3 : Int) ≤ 1 from hc) (by decide)
    · exact absurd (show (0 : Int) = 1 from hc) (by decide)
    · exact absurd (show (4 : Int) ≤ 1 from hc) (by decide)
    · cases hr0
  · obtain ⟨t1, -, t3, -, -, -, t7, -, -⟩ := h2
    refine ⟨fun hc => ?_, fun _ => t3, fun _ _ => t3, fun hc => ?_, h01, fun hc => ?_,
      fun r0 hr0 => ?_⟩
    · omega
    · rw [t3] at hc
      exact absurd hc (by decide)
    · omega
    · rw [t7] at hr0; cases hr0
  · obtain ⟨t1, -, ⟨-, -, d3, d4⟩, t4, -, t6⟩ := h3
    refine ⟨fun _ => ⟨d3, t4⟩, fun hc => by omega, fun _ hF1 => ?_,
      hold 1 t4 (by decide), h01, fun hc => by omega, ?_⟩
    · rcases t6 with ⟨-, f2, -⟩ | ⟨f1, -⟩
      · exact f2
      · omega
    intro r0 hr0 r1 hr1 e0 e1
    have hd0 : r0.disp = 2 := d4 r0 hr0 (by rw [e0]; rfl)
    refine ⟨hd0, ?_⟩
    rcases t6 with ⟨f1, -, r, f3⟩ | ⟨f1, -, -, -, f5⟩
    · obtain ⟨q, -, hq, hin⟩ := AccInv_final_tag hacc hr1
      have hq1 : q = 1 := cast_injective (hq.symm.trans e1)
      subst hq1
      exact absurd (mem_inFlight_fetch (by rw [f3]; exact List.mem_cons_self _ _)) hin
    · rw [if_neg (by omega), hd0]
      exact f5 r1 hr1 (by rw [e1]; rfl)
  · obtain ⟨t1, ⟨-, -, d3, d4⟩, t3, ⟨-, -, d7, d8⟩⟩ := h4
    refine ⟨fun _ => ⟨d3, t3⟩, fun hc => by omega, fun hc => by omega,
      hold 1 t3 (by decide), h01, fun _ => d7, ?_⟩
    intro r0 hr0 r1 hr1 e0 e1
    have hd0 : r0.disp = 2 := d4 r0 hr0 (by rw [e0]; rfl)
    refine ⟨hd0, ?_⟩
    rw [d8 r1 hr1 (by rw [e1]; rfl), hd0]
    split <;> rfl

/-- Witness for C6 (amended): the run with `F = 1` after seven iterations, both
instructions retired, the second dispatched one cycle after the branch and the
lock clear; and the held-lock scenario with `F = 4` at the top of the third
iteration, where the first branch is predicted correctly and the lock is held by
the second branch, pointer 1, in the dispatch queue. -/
theorem correct_prediction_dispatch_witness :
    ((branchState 1 0 7).final_head =
        [{ dest_tag := 0, fetch := 1, disp := 2, sched := 3, exec := 4, state := 5 },
          { dest_tag := 1, fetch := 2, disp := 3, sched := 4, exec := 5, state := 6 }] ∧
      (branchState 1 0 7).stallDispatch = 0 ∧
      ∀ r0 ∈ (branchState 1 0 7).final_head, ∀ r1 ∈ (branchState 1 0 7).final_head,
        r0.dest_tag = 0 → r1.dest_tag = 1 →
          r0.disp = 2 ∧ r1.disp = if 1 = 1 then r0.disp + 1 else r0.disp) ∧
    ((holdState 2).clock = 3 ∧ (holdState 2).stallDispatch = 1 ∧
      ((holdState 2).heap 0).correct_pred = 1 ∧
      (holdState 2).dispatch_head.map (·.theInstr) = [0, 1] ∧
      ((holdState 2).heap 1).correct_pred = 0 ∧
      ∃ p ∈ admittedPtrs (holdState 2), p ≠ 0 ∧ ((holdState 2).heap p).branch = 1 ∧
        ((holdState 2).heap p).correct_pred = 0 ∧ ((holdState 2).heap p).resolved = 0) :=
  ⟨⟨rfl, by decide!,
      (correct_prediction_dispatch 3 2 1 2 1 0x100 0 5 (-1) (-1)
        (TraceLine.plain 0x104 0 6 (-1) (-1)) [] (branchState 1 0 7) (le_refl 1) rfl
        (branchState_reachable 1 0 7 (by rfl))).2.2.2.2.2.2⟩,
    by decide!, by decide!, by decide!, by decide!, by decide!,
    (correct_prediction_dispatch 3 2 1 2 4 0x100 0 5 (-1) (-1)
      (TraceLine.branchLine 0x104 0 6 (-1) (-1) 1) [] (holdState 2) (by decide) rfl
      (holdState_reachable 2 (by rfl))).2.2.2.1 (by decide!)⟩

/-! ## The available slots of a pool -/

/-- The loop of `numSpotsAvailable` counts the slots that are empty or hold a
chosen occupant. -/
theorem numSpotsAvailableLoop_eq : ∀ (k : List (Option execute_node)),
    numSpotsAvailableLoop k = (availableSlots k : Int)
  | [] => rfl
  | none :: rest => by
    rw [numSpotsAvailableLoop, numSpotsAvailableLoop_eq rest]
    unfold availableSlots
    rw [List.countP_cons_of_pos _ _ (by rfl)]
    push_cast
    rfl
  | some n :: rest => by
    rw [numSpotsAvailableLoop, numSpotsAvailableLoop_eq rest]
    unfold availableSlots
    by_cases hc : n.chosen = 1
    · rw [if_pos hc, List.countP_cons_of_pos _ _ (by simpa using hc)]
      push_cast
      rfl
    · rw [if_neg hc, List.countP_cons_of_neg _ _ (by simpa using hc)]

theorem numSpotsAvailable_eq (s : State) :
    numSpotsAvailable 'j' s = (availableSlots s.k_0 : Int) ∧
    numSpotsAvailable 'k' s = (availableSlots s.k_1 : Int) ∧
    numSpotsAvailable 'l' s = (availableSlots s.k_2 : Int) := by
  refine ⟨?_, ?_, ?_⟩
  · unfold numSpotsAvailable
    rw [if_pos rfl]
    exact numSpotsAvailableLoop_eq _
  · unfold numSpotsAvailable
    rw [if_neg (by decide), if_pos rfl]
    exact numSpotsAvailableLoop_eq _
  · unfold numSpotsAvailable
    rw [if_neg (by decide), if_neg (by decide), if_pos rfl]
    exact numSpotsAvailableLoop_eq _

/-- The queue after `markForExecution`, position by position, with the counts of
the loop of `numSpotsAvailable`. -/
theorem markForExecution_at (s : State) :
    ∀ i, (markForExecution s).schedule_head[i]? =
      (s.schedule_head[i]?).map (fun n =>
        if issuedAt s.heap 0 0 (numSpotsAvailableLoop s.k_0) s.schedule_head i n = true ∨
            issuedAt s.heap 1 (-1) (numSpotsAvailableLoop s.k_1) s.schedule_head i n = true ∨
            issuedAt s.heap 2 2 (numSpotsAvailableLoop s.k_2) s.schedule_head i n = true then
          { n with sendToExecute := 1 } else n) := by
  intro i
  rw [markForExecution_eq]
  simp only
  rw [markScheduleEntriesLoop_at, markScheduleEntriesLoop_at, markScheduleEntriesLoop_at,
    markScheduleEntriesLoop_count, markScheduleEntriesLoop_count, markScheduleEntriesLoop_count]
  cases hq : s.schedule_head[i]? with
  | none => rfl
  | some n =>
    simp only [Option.map_some', issueEligible_mark]
    have i0 := issuedAt_iff s.heap 0 0 (numSpotsAvailableLoop s.k_0) _ _ _ hq
    have i1 := issuedAt_iff s.heap 1 (-1) (numSpotsAvailableLoop s.k_1) _ _ _ hq
    have i2 := issuedAt_iff s.heap 2 2 (numSpotsAvailableLoop s.k_2) _ _ _ hq
    by_cases c0 : (issueEligible s.heap 0 0 n = true ∧
        (((s.schedule_head.take i).countP (issueEligible s.heap 0 0) : Nat) : Int) <
          numSpotsAvailableLoop s.k_0) <;>
    by_cases c1 : (issueEligible s.heap 1 (-1) n = true ∧
        (((s.schedule_head.take i).countP (issueEligible s.heap 1 (-1)) : Nat) : Int) <
          numSpotsAvailableLoop s.k_1) <;>
    by_cases c2 : (issueEligible s.heap 2 2 n = true ∧
        (((s.schedule_head.take i).countP (issueEligible s.heap 2 2) : Nat) : Int) <
          numSpotsAvailableLoop s.k_2) <;>
    simp only [i0, i1, i2, c0, c1, c2, if_true, if_false, issueEligible_mark, or_true, true_or,
      and_self, or_false, false_or,
      or_self]

/-- C24: the three calls of `numSpotsAvailable` in `markForExecution` return,
for each pool, the number of its slots that are empty or hold a chosen occupant
(`availableSlots`); `markForExecution` changes the scheduling queue only, and
there only the flag `sendToExecute`: the node at position `i` gets
`sendToExecute = 1` exactly when, for one of the three pools, it is among the
first `min(available, eligible)` nodes in queue order that have `fired = 1`,
`waiting = 0` and a class of that pool (class 0 for `k_0`, classes 1 and -1 for
`k_1`, class 2 for `k_2`), with `available` that number of slots; every other
node is left as it was. -/
theorem issue_first_eligible (s : State) :
    (numSpotsAvailable 'j' s = (availableSlots s.k_0 : Int) ∧
      numSpotsAvailable 'k' s = (availableSlots s.k_1 : Int) ∧
      numSpotsAvailable 'l' s = (availableSlots s.k_2 : Int)) ∧
    markForExecution s = { s with schedule_head := (markForExecution s).schedule_head } ∧
    ∀ i, (markForExecution s).schedule_head[i]? =
      (s.schedule_head[i]?).map (fun n =>
        if issuedAt s.heap 0 0 (availableSlots s.k_0 : Int) s.schedule_head i n = true ∨
            issuedAt s.heap 1 (-1) (availableSlots s.k_1 : Int) s.schedule_head i n = true ∨
            issuedAt s.heap 2 2 (availableSlots s.k_2 : Int) s.schedule_head i n = true then
          { n with sendToExecute := 1 } else n) := by
  refine ⟨numSpotsAvailable_eq s, by rw [markForExecution_eq], fun i => ?_⟩
  have h := markForExecution_at s i
  rw [numSpotsAvailableLoop_eq, numSpotsAvailableLoop_eq, numSpotsAvailableLoop_eq] at h
  exact h

/-- Witness for C24: in cycle 3 of the issue-limit scenario both instructions
are fired and eligible for the pool `k_0`, which has one slot, empty: the first
node in queue order is selected and the second is left as it was. -/
theorem issue_first_eligible_witness :
    issueAtMark.schedule_head =
      [{ theInstr := 0, fired := 1, sendToExecute := 0, waiting := 0 },
        { theInstr := 1, fired := 1, sendToExecute := 0, waiting := 0 }] ∧
    availableSlots issueAtMark.k_0 = 1 ∧
    issueAtMark.schedule_head.countP (issueEligible issueAtMark.heap 0 0) = 2 ∧
    (markForExecution issueAtMark).schedule_head =
      [{ theInstr := 0, fired := 1, sendToExecute := 1, waiting := 0 },
        { theInstr := 1, fired := 1, sendToExecute := 0, waiting := 0 }] ∧
    (markForExecution issueAtMark).schedule_head[1]? =
      (issueAtMark.schedule_head[1]?).map (fun n =>
        if issuedAt issueAtMark.heap 0 0 (availableSlots issueAtMark.k_0 : Int)
              issueAtMark.schedule_head 1 n = true ∨
            issuedAt issueAtMark.heap 1 (-1) (availableSlots issueAtMark.k_1 : Int)
              issueAtMark.schedule_head 1 n = true ∨
            issuedAt issueAtMark.heap 2 2 (availableSlots issueAtMark.k_2 : Int)
              issueAtMark.schedule_head 1 n = true then
          { n with sendToExecute := 1 } else n) :=
  ⟨by decide!, by decide!, by decide!, by decide!, (issue_first_eligible issueAtMark).2.2 1⟩
